import Mathlib

/-!
Dilay: dynamic mesh, loose octree and the packing routine.

A shallow embedding of `lib/src/util.hpp` (`Util::prune`),
`lib/src/dynamic/octree.cpp` and `lib/src/dynamic/mesh.cpp`.

Conventions of the embedding:

* `std::vector<T>` is `List T`; `v[i]` is `v[i]?`, and reading or writing out of
  bounds ends the computation with `none`;
* `assert`, `DILAY_IMPOSSIBLE` and `std::vector::at` failures end the computation
  with `none` as well;
* `unsigned int` values are natural numbers, `Util::invalidIndex ()` is `2^32 - 1`;
* a `float` value is a rational number (`ℚ`). The definitions with the suffix `F`
  take the arithmetic as a parameter `R : ℚ → ℚ`, the value of type `float` of
  the exact result of an operation, applied to the result of every float
  operation of the source; `Float32.round` is the rounding of IEEE 754 binary32
  (overflow to infinity is not modelled). The definitions of the same name
  without the suffix are their instance at `R = id`, exact arithmetic, where no
  operation rounds;
* a pointer to an octree node is the address (a natural number) the node got
  when it was allocated.
-/

/-- The ring structure of `ℚ`, declared directly: instance search then does not
reach it through the normed-field structure of `ℚ`, and the proof terms of
rational arithmetic stay independent of the real numbers. -/
instance ratRing : Ring ℚ := Rat.commRing.toRing

/-- The non-unital commutative ring structure of `ℚ`, declared directly for the
same reason. -/
instance ratNonUnitalCommRing : NonUnitalCommRing ℚ := Rat.commRing.toNonUnitalCommRing

/-- The non-unital ring structure of `ℚ`, declared directly for the same
reason. -/
instance ratNonUnitalRing : NonUnitalRing ℚ := ratRing.toNonUnitalRing

namespace Util

/-- Models `Util::invalidIndex ()`: `std::numeric_limits<unsigned int>::max ()`. -/
def invalidIndex : Nat := 4294967295

/-- Models `std::vector::resize (n, x)`: truncate, or pad at the end with copies of `x`. -/
def resize {α : Type} (v : List α) (n : Nat) (x : α) : List α :=
  v.take n ++ List.replicate (n - v.length) x

/-- Models `std::find_if_not (v.rbegin (), v.rend (), p)`, given as the distance
`lastIt - v.rbegin ()`; `none` stands for `v.rend ()`. The argument is the
reversed vector. -/
def findIfNot {α : Type} (p : α → Bool) : List α → Option Nat
  | [] => none
  | x :: xs => if p x then (findIfNot p xs).map (· + 1) else some 0

/-- The inner loop `do { last--; } while (p (v[last]));` of `Util::prune`.
At `last = 0` the decrement wraps around to `2^32 - 1`, which is out of bounds. -/
def decLast {α : Type} (p : α → Bool) (v : List α) : Nat → Option Nat
  | 0 => none
  | l + 1 =>
    match v[l]? with
    | none => none
    | some x => if p x then decLast p v l else some l

/-- The loop `for (unsigned int i = 0; i <= last; i++)` of `Util::prune`; the
first argument bounds the number of iterations. Returns the vector, the index
map and `last`. -/
def pruneLoop {α : Type} (p : α → Bool) :
    Nat → Nat → Nat → List α → Option (List Nat) → Option (List α × Option (List Nat) × Nat)
  | 0, i, last, v, m => if i ≤ last then none else some (v, m, last)
  | fuel + 1, i, last, v, m =>
    if i ≤ last then
      match v[i]? with
      | none => none
      | some x =>
        if p x then
          match v[last]? with
          | none => none
          | some y =>
            let v1 := v.set i y
            let m1 := m.map (fun im => (im.set i invalidIndex).set last i)
            match decLast p v1 last with
            | none => none
            | some last1 => pruneLoop p fuel (i + 1) last1 v1 m1
        else
          pruneLoop p fuel (i + 1) last v (m.map (fun im => im.set i i))
    else some (v, m, last)

/-- Models `Util::prune (v, p, indexMap)`: returns the packed vector and the index map
(`none` for a null `indexMap`). -/
def prune {α : Type} (p : α → Bool) (v : List α) (indexMap : Option (List Nat)) :
    Option (List α × Option (List Nat)) :=
  let m0 := indexMap.map (fun im => resize im v.length invalidIndex)
  match findIfNot p v.reverse with
  | none => some ([], m0)
  | some k =>
    let last := (v.length - k - 1) % 2 ^ 32
    match pruneLoop p (last + 1) 0 last v m0 with
    | none => none
    | some (v1, m1, last1) => some (v1.take (last1 + 1), m1)

/-- The relation between the state `(i, last, v, m)` of the loop of `Util::prune`
and its final state `(v1, m1, last1)`: which entries stay, where every kept
entry of `v[i..last]` ends up, and what the index map records. -/
def LoopPost {α : Type} (p : α → Bool) (i last : Nat) (v : List α) (m : List Nat)
    (v1 : List α) (m1 : List Nat) (last1 : Nat) : Prop :=
  v1.length = v.length ∧ m1.length = m.length ∧ i ≤ last1 + 1 ∧ last1 ≤ last ∧
  (∀ j, j < i → v1[j]? = v[j]?) ∧
  (∀ j, j < i ∨ last < j → m1[j]? = m[j]?) ∧
  (∀ j x, i ≤ j → j ≤ last → v[j]? = some x → p x = false →
    ∃ q, m1[j]? = some q ∧ i ≤ q ∧ q ≤ last1 ∧ v1[q]? = some x ∧ (j ≤ last1 → q = j)) ∧
  (∀ j x, i ≤ j → j ≤ last → v[j]? = some x → p x = true →
    (j ≤ last1 → m1[j]? = some invalidIndex) ∧ (last1 < j → m1[j]? = m[j]?)) ∧
  (∀ j1 j2 x1 x2 q, i ≤ j1 → j1 ≤ last → i ≤ j2 → j2 ≤ last →
    v[j1]? = some x1 → p x1 = false → v[j2]? = some x2 → p x2 = false →
    m1[j1]? = some q → m1[j2]? = some q → j1 = j2) ∧
  (∀ q, i ≤ q → q ≤ last1 →
    ∃ j x, i ≤ j ∧ j ≤ last ∧ v[j]? = some x ∧ p x = false ∧ m1[j]? = some q) ∧
  ((v1.take (last1 + 1)).drop i).Perm (((v.take (last + 1)).drop i).filter (fun x => !p x))

/-- What `Util::prune` computes from the vector `v` and the index map `m0` (as
passed in by the caller): the packed vector `v1` and the index map `m1`. -/
def PruneSpec {α : Type} (p : α → Bool) (v : List α) (m0 : List Nat)
    (v1 : List α) (m1 : List Nat) : Prop :=
  v1.Perm (v.filter (fun x => !p x)) ∧ m1.length = v.length ∧
  (∀ j x, v[j]? = some x → p x = false →
    ∃ q, m1[j]? = some q ∧ q < v1.length ∧ v1[q]? = some x ∧ (j < v1.length → q = j)) ∧
  (∀ j x, v[j]? = some x → p x = true →
    (j < v1.length → m1[j]? = some invalidIndex) ∧
    (v1.length ≤ j → m1[j]? = (resize m0 v.length invalidIndex)[j]?)) ∧
  (∀ (j1 j2 : Nat) (x1 x2 : α) (q : Nat), v[j1]? = some x1 → p x1 = false →
    v[j2]? = some x2 → p x2 = false → m1[j1]? = some q → m1[j2]? = some q → j1 = j2) ∧
  (∀ q, q < v1.length → ∃ (j : Nat) (x : α), v[j]? = some x ∧ p x = false ∧ m1[j]? = some q)

end Util


/-- Models `glm::vec3`, with exact rational coordinates. -/
structure Vec3 where
  x : ℚ
  y : ℚ
  z : ℚ
deriving DecidableEq

namespace Octree

/-- Models `Util::epsilon ()` in exact arithmetic: the literal `0.0001f` taken as
`1 / 10000` (`epsilonF` is its value of type `float`). -/
def epsilon : ℚ := 1 / 10000

/-- Models `IndexOctreeNode::relativeMinElementExtent`: `0.25f`. -/
def relativeMinElementExtent : ℚ := 1 / 4

/-- Models `Child`, that is `Maybe<IndexOctreeNode>`: empty, or an `IndexOctreeNode` with
its address, `center`, `width`, `depth`, `children` and `indices`
(`looseAABox` is a function of `center` and `width`). -/
inductive Child where
  | none : Child
  | node (addr : Nat) (center : Vec3) (width : ℚ) (depth : Int)
      (children : Fin 8 → Child) (indices : Finset Nat) : Child

namespace Child

/-- Models `bool (child)`: the `Maybe` holds a node. -/
def isSome : Child → Bool
  | none => false
  | node _ _ _ _ _ _ => true

/-- The address of the node (0 for an empty `Maybe`). -/
def addr : Child → Nat
  | none => 0
  | node a _ _ _ _ _ => a

/-- The field `center` (origin for an empty `Maybe`). -/
def center : Child → Vec3
  | none => ⟨0, 0, 0⟩
  | node _ c _ _ _ _ => c

/-- The field `width` (0 for an empty `Maybe`). -/
def width : Child → ℚ
  | none => 0
  | node _ _ w _ _ _ => w

/-- The field `depth` (0 for an empty `Maybe`). -/
def depth : Child → Int
  | none => 0
  | node _ _ _ d _ _ => d

/-- The field `children` (all empty for an empty `Maybe`). -/
def children : Child → Fin 8 → Child
  | none => fun _ => none
  | node _ _ _ _ ch _ => ch

/-- The field `indices` (empty for an empty `Maybe`). -/
def indices : Child → Finset Nat
  | none => ∅
  | node _ _ _ _ _ idx => idx

end Child

/-- Models `IndexOctreeNode::approxContains`, on the fields `center` and `width`, in
exact arithmetic: the instance `approxContainsF id` of the float model, no
operation rounds. -/
def approxContains (center : Vec3) (width : ℚ) (position : Vec3) (maxDimExtent : ℚ) : Bool :=
  let h := epsilon + width * (1 / 2)
  (decide (center.x - h ≤ position.x) && decide (center.y - h ≤ position.y)
      && decide (center.z - h ≤ position.z))
    && (decide (position.x ≤ center.x + h) && decide (position.y ≤ center.y + h)
      && decide (position.z ≤ center.z + h))
    && decide (maxDimExtent ≤ width)

/-- Models `IndexOctreeNode::childIndex`. -/
def childIndex (center : Vec3) (position : Vec3) : Fin 8 :=
  match decide (center.x < position.x), decide (center.y < position.y),
      decide (center.z < position.z) with
  | false, false, false => 0
  | false, false, true => 1
  | false, true, false => 2
  | false, true, true => 3
  | true, false, false => 4
  | true, false, true => 5
  | true, true, false => 6
  | true, true, true => 7

/-- Models `IndexOctreeNode::hasChildren`. -/
def hasChildren (ch : Fin 8 → Child) : Bool :=
  (ch 0).isSome || (ch 1).isSome || (ch 2).isSome || (ch 3).isSome ||
    (ch 4).isSome || (ch 5).isSome || (ch 6).isSome || (ch 7).isSome

/-- Models `IndexOctreeNode::insertIntoChild (float)` in exact arithmetic: the instance
`insertIntoChildF id`. -/
def insertIntoChild (width : ℚ) (maxDimExtent : ℚ) : Bool :=
  decide (maxDimExtent ≤ width * relativeMinElementExtent)

/-- The constructor `IndexOctreeNode (c, w, d)` placed at address `a`; it asserts
`w > 0`. -/
def mkNode (a : Nat) (c : Vec3) (w : ℚ) (d : Int) : Option Child :=
  if 0 < w then some (Child.node a c w d (fun _ => Child.none) ∅) else Option.none

/-- The centre given to the child in slot `k` by the `switch` of
`IndexOctreeNode::insertIntoChild`: `center + glm::vec3 (±q, ±q, ±q)`, in exact
arithmetic (the instance `childCenterF id`). -/
def childCenter (center : Vec3) (q : ℚ) (k : Fin 8) : Vec3 :=
  match k with
  | 0 => ⟨center.x + -q, center.y + -q, center.z + -q⟩
  | 1 => ⟨center.x + -q, center.y + -q, center.z + q⟩
  | 2 => ⟨center.x + -q, center.y + q, center.z + -q⟩
  | 3 => ⟨center.x + -q, center.y + q, center.z + q⟩
  | 4 => ⟨center.x + q, center.y + -q, center.z + -q⟩
  | 5 => ⟨center.x + q, center.y + -q, center.z + q⟩
  | 6 => ⟨center.x + q, center.y + q, center.z + -q⟩
  | 7 => ⟨center.x + q, center.y + q, center.z + q⟩

/-- The first half of `IndexOctreeNode::insertIntoChild (index, position,
maxDimExtent)`: the child in slot `k`, made at the next free address `next` when
the slot is empty; with the next free address afterwards. In exact arithmetic:
the instance `childOrMakeF id`, the centre and the width of a new child are not
rounded. -/
def childOrMake (next : Nat) (c : Vec3) (w : ℚ) (d : Int) (ch : Fin 8 → Child) (k : Fin 8) :
    Option (Child × Nat) :=
  if (ch k).isSome then some (ch k, next)
  else (mkNode next (childCenter c (w * (1 / 4)) k) (w * (1 / 2)) (d + 1)).map
    (fun n => (n, next + 1))

/-- Models `IndexOctreeNode::addElement` together with
`IndexOctreeNode::insertIntoChild (index, position, maxDimExtent)`. The first
argument bounds the depth of the descent, `next` is the next free address.
Returns the node, the address of the node that took the index, and the next
free address. In exact arithmetic: the instance `nodeAddElementF id`. -/
def nodeAddElement : Nat → Nat → Vec3 → ℚ → Nat → Child → Option (Child × Nat × Nat)
  | 0, _, _, _, _, _ => Option.none
  | _ + 1, _, _, _, _, Child.none => Option.none
  | fuel + 1, index, position, maxDimExtent, next, Child.node a c w d ch idx =>
    if approxContains c w position maxDimExtent then
      if insertIntoChild w maxDimExtent then
        match childOrMake next c w d ch (childIndex c position) with
        | Option.none => Option.none
        | some (child, next1) =>
          match nodeAddElement fuel index position maxDimExtent next1 child with
          | Option.none => Option.none
          | some (child1, a1, next2) =>
            some (Child.node a c w d (Function.update ch (childIndex c position) child1) idx,
              a1, next2)
      else some (Child.node a c w d ch (insert index idx), a, next)
    else Option.none

/-- Models `IndexOctreeNode::isEmpty`. -/
def isEmpty : Child → Bool
  | Child.none => true
  | Child.node _ _ _ _ ch idx => decide (idx = ∅) && !hasChildren ch

/-- Models `IndexOctreeNode::deleteEmptyChildren`: the node afterwards and the returned
flag. -/
def nodeDeleteEmptyChildren : Child → Child × Bool
  | Child.none => (Child.none, true)
  | Child.node a c w d ch idx =>
    let ch1 : Fin 8 → Child := fun i =>
      if (ch i).isSome then
        if (nodeDeleteEmptyChildren (ch i)).2 then Child.none
        else (nodeDeleteEmptyChildren (ch i)).1
      else Child.none
    let allChildrenEmpty : Bool :=
      decide (∀ i, (ch i).isSome = true → (nodeDeleteEmptyChildren (ch i)).2 = true)
    (Child.node a c w d ch1 idx, allChildrenEmpty && decide (idx = ∅))

/-- Models `IndexOctreeNode::updateIndices`: `indexMap[i]` is read for every stored
index and asserted to differ from the invalid index. -/
def nodeUpdateIndices (indexMap : List Nat) : Child → Option Child
  | Child.none => some Child.none
  | Child.node a c w d ch idx =>
    if (∀ i ∈ idx, ∃ j, indexMap[i]? = some j ∧ j ≠ Util.invalidIndex) ∧
        (∀ k, (nodeUpdateIndices indexMap (ch k)).isSome) then
      some (Child.node a c w d
        (fun k => (nodeUpdateIndices indexMap (ch k)).getD Child.none)
        (idx.image (fun i => indexMap.getD i Util.invalidIndex)))
    else Option.none

/-- The node at address `a` in the tree below (and including) the given node;
`Child.none` when there is none. -/
def find (a : Nat) : Child → Child
  | Child.none => Child.none
  | Child.node b c w d ch idx =>
    if b = a then Child.node b c w d ch idx
    else ((List.finRange 8).map (fun k => find a (ch k))).foldr
      (fun t acc => if t.isSome then t else acc) Child.none

/-- Models `node->deleteElement (index)` through a pointer `a`: erase `index` in the node
at address `a`. -/
def eraseAt (a : Nat) (index : Nat) : Child → Child
  | Child.none => Child.none
  | Child.node b c w d ch idx =>
    if b = a then Child.node b c w d ch (idx.erase index)
    else Child.node b c w d (fun k => eraseAt a index (ch k)) idx

/-- The nodes holding `index`, as the list of their addresses (preorder). -/
def holders (index : Nat) : Child → List Nat
  | Child.none => []
  | Child.node b _ _ _ ch idx =>
    (if index ∈ idx then [b] else []) ++
      ((List.finRange 8).map (fun k => holders index (ch k))).flatten

/-- All addresses of the nodes of a tree (preorder). -/
def addrs : Child → List Nat
  | Child.none => []
  | Child.node b _ _ _ ch _ =>
    b :: ((List.finRange 8).map (fun k => addrs (ch k))).flatten

/-- The proper ancestors of the node at address `a`, from the root downwards;
`none` when the tree has no node at that address. -/
def ancestors (a : Nat) : Child → Option (List Child)
  | Child.none => Option.none
  | Child.node b c w d ch idx =>
    if b = a then some []
    else (((List.finRange 8).map (fun k => ancestors a (ch k))).foldr
      (fun t acc => if t.isSome then t else acc) Option.none).map
        (fun l => Child.node b c w d ch idx :: l)

/-- The body of `DynamicOctree::Impl::shrinkRoot` on the root: while the root
has no index, has children and exactly one child that is not empty, that child
becomes the root. -/
def shrinkRootNode : Child → Child
  | Child.none => Child.none
  | Child.node a c w d ch idx =>
    if decide (idx = ∅) && hasChildren ch then
      match (List.finRange 8).filter (fun i => (ch i).isSome && !isEmpty (ch i)) with
      | [k] => shrinkRootNode (ch k)
      | _ => Child.node a c w d ch idx
    else Child.node a c w d ch idx

end Octree

/-- Models `DynamicOctree::Impl`: the root, the `elementNodeMap` (a null pointer is
`none`) and the next address the allocator hands out. -/
structure DynamicOctree where
  root : Octree.Child
  elementNodeMap : List (Option Nat)
  heapNext : Nat

namespace DynamicOctree

open Octree

/-- Models `DynamicOctree::Impl::hasRoot`. -/
def hasRoot (o : DynamicOctree) : Bool := o.root.isSome

/-- Models `DynamicOctree::Impl::setupRoot`. -/
def setupRoot (o : DynamicOctree) (position : Vec3) (width : ℚ) : Option DynamicOctree :=
  if o.hasRoot then none
  else (mkNode o.heapNext position width 0).map
    (fun r => { o with root := r, heapNext := o.heapNext + 1 })

/-- Models `DynamicOctree::Impl::addToElementNodeMap`, on the map alone. -/
def addToElementNodeMap (enm : List (Option Nat)) (index : Nat) (a : Nat) :
    Option (List (Option Nat)) :=
  let enm1 := if index ≥ enm.length then Util.resize enm (index + 1) Option.none else enm
  match enm1[index]? with
  | some Option.none => some (enm1.set index (some a))
  | _ => Option.none

/-- The `parentCenter` computed by `DynamicOctree::Impl::makeParent`, in exact
arithmetic (the instance `parentCenterF id`). -/
def parentCenter (rootCenter : Vec3) (halfRootWidth : ℚ) (position : Vec3) : Vec3 :=
  ⟨if rootCenter.x < position.x then rootCenter.x + halfRootWidth
      else rootCenter.x - halfRootWidth,
    if rootCenter.y < position.y then rootCenter.y + halfRootWidth
      else rootCenter.y - halfRootWidth,
    if rootCenter.z < position.z then rootCenter.z + halfRootWidth
      else rootCenter.z - halfRootWidth⟩

/-- The `index` computed by `DynamicOctree::Impl::makeParent`: the slot of the
old root under the new one. -/
def parentIndex (rootCenter : Vec3) (position : Vec3) : Nat :=
  (if rootCenter.x < position.x then 0 else 4) + (if rootCenter.y < position.y then 0 else 2) +
    (if rootCenter.z < position.z then 0 else 1)

/-- Models `node->children[index] = child`. -/
def setChild (index : Nat) (child : Child) : Child → Child
  | Child.none => Child.none
  | Child.node a c w d ch idx =>
    Child.node a c w d (fun k => if k.val = index then child else ch k) idx

/-- Models `DynamicOctree::Impl::makeParent` in exact arithmetic: the instance
`makeParentF id`, the centre and the width of the new root are not rounded. -/
def makeParent (o : DynamicOctree) (position : Vec3) : Option DynamicOctree :=
  match o.root with
  | Child.none => none
  | Child.node a c w d ch idx =>
    (mkNode o.heapNext (parentCenter c (w * (1 / 2)) position) (w * 2) (d - 1)).map
      (fun newRoot =>
        { o with
          root := setChild (parentIndex c position) (Child.node a c w d ch idx) newRoot
          heapNext := o.heapNext + 1 })

/-- Models `DynamicOctree::Impl::addElement` in exact arithmetic (the instance
`addElementF id`); the first argument bounds the number of `makeParent` rounds
plus the depth of the descent. -/
def addElement : Nat → DynamicOctree → Nat → Vec3 → ℚ → Option DynamicOctree
  | 0, _, _, _, _ => none
  | fuel + 1, o, index, position, maxDimExtent =>
    match o.root with
    | Child.none => none
    | Child.node _ c w _ _ _ =>
      if approxContains c w position maxDimExtent then
        match nodeAddElement (fuel + 1) index position maxDimExtent o.heapNext o.root with
        | none => none
        | some (r, a, next) =>
          (addToElementNodeMap o.elementNodeMap index a).map
            (fun enm => { root := r, elementNodeMap := enm, heapNext := next })
      else
        match makeParent o position with
        | none => none
        | some o1 => addElement fuel o1 index position maxDimExtent

/-- Models `DynamicOctree::Impl::shrinkRoot`. -/
def shrinkRoot (o : DynamicOctree) : DynamicOctree :=
  { o with root := shrinkRootNode o.root }

/-- Models `DynamicOctree::Impl::deleteElement`. -/
def deleteElement (o : DynamicOctree) (index : Nat) : Option DynamicOctree :=
  match o.elementNodeMap[index]? with
  | some (some a) =>
    if index ∈ (find a o.root).indices then
      let o1 : DynamicOctree :=
        { o with root := eraseAt a index o.root
                 elementNodeMap := o.elementNodeMap.set index none }
      if o1.hasRoot then
        if isEmpty o1.root then some { o1 with root := Child.none }
        else some (shrinkRoot o1)
      else some o1
    else none
  | _ => none

/-- Models `DynamicOctree::Impl::realignElement` in exact arithmetic (the instance
`realignElementF id`); the first argument is handed to `addElement`. -/
def realignElement (fuel : Nat) (o : DynamicOctree) (index : Nat) (position : Vec3)
    (maxDimExtent : ℚ) : Option DynamicOctree :=
  if o.hasRoot then
    match o.elementNodeMap[index]? with
    | some (some a) =>
      match find a o.root with
      | Child.none => none
      | Child.node _ c w _ _ _ =>
        if approxContains c w position maxDimExtent = false || insertIntoChild w maxDimExtent then
          match deleteElement o index with
          | none => none
          | some o1 => addElement fuel o1 index position maxDimExtent
        else some o
    | _ => none
  else none

/-- Models `DynamicOctree::Impl::deleteEmptyChildren`. -/
def deleteEmptyChildren (o : DynamicOctree) : DynamicOctree :=
  if o.hasRoot then
    if (nodeDeleteEmptyChildren o.root).2 then { o with root := Child.none }
    else { o with root := (nodeDeleteEmptyChildren o.root).1 }
  else o

/-- The loop of `DynamicOctree::Impl::updateIndices` over `i = start, ...` for
the entries `rest` of `newIndices` from position `start` on. -/
def updateMapLoop : List Nat → Nat → List (Option Nat) → Option (List (Option Nat))
  | [], _, enm => some enm
  | newI :: rest, i, enm =>
    if newI ≠ Util.invalidIndex ∧ newI ≠ i then
      match enm[i]?, enm[newI]? with
      | some (some a), some none => updateMapLoop rest (i + 1) ((enm.set newI (some a)).set i none)
      | _, _ => none
    else updateMapLoop rest (i + 1) enm

/-- Models `DynamicOctree::Impl::updateIndices`. -/
def updateIndices (o : DynamicOctree) (newIndices : List Nat) : Option DynamicOctree :=
  match updateMapLoop newIndices 0 o.elementNodeMap with
  | none => none
  | some enm =>
    let enm1 := Util.resize enm newIndices.length none
    if o.hasRoot then
      (nodeUpdateIndices newIndices o.root).map
        (fun r => { o with root := r, elementNodeMap := enm1 })
    else some { o with elementNodeMap := enm1 }

/-- Models `DynamicOctree::Impl::reset`. -/
def reset (o : DynamicOctree) : DynamicOctree :=
  { o with root := Child.none, elementNodeMap := [] }

end DynamicOctree

namespace Octree

/-- The tree has a node at address `a`. -/
def hasAddr (a : Nat) : Child → Bool
  | Child.none => false
  | Child.node b _ _ _ ch _ => decide (b = a) || (List.finRange 8).any (fun k => hasAddr a (ch k))

/-- The tree has a node at address `a` whose index set contains `index`. -/
def holdsAt (index : Nat) (a : Nat) : Child → Bool
  | Child.none => false
  | Child.node b _ _ _ ch idx =>
    (decide (b = a) && decide (index ∈ idx)) ||
      (List.finRange 8).any (fun k => holdsAt index a (ch k))

/-- No two nodes of the tree have the same address (distinct nodes are distinct
objects). -/
def UniqAddr : Child → Prop
  | Child.none => True
  | Child.node b _ _ _ ch _ =>
    (∀ k, hasAddr b (ch k) = false) ∧ (∀ k, UniqAddr (ch k)) ∧
      (∀ k1 k2 a, k1 ≠ k2 → hasAddr a (ch k1) = true → hasAddr a (ch k2) = false)

/-- The geometry of the tree: every width is positive, and the child in slot `k`
has half the width, depth one greater, and its centre a quarter of the width
away from the centre of the node, with the signs of slot `k`. -/
def GeomWF : Child → Prop
  | Child.none => True
  | Child.node _ c w d ch _ =>
    0 < w ∧ ∀ k, GeomWF (ch k) ∧
      ((ch k).isSome = true →
        (ch k).width = w * (1 / 2) ∧ (ch k).depth = d + 1 ∧
          (ch k).center = childCenter c (w * (1 / 4)) k)

end Octree

namespace DynamicOctree

open Octree

/-- The entry `elementNodeMap[id]`, null also beyond the end of the map. -/
def nodeOf (o : DynamicOctree) (id : Nat) : Option Nat := o.elementNodeMap.getD id none

/-- The registration invariant: nodes are distinct objects allocated below
`heapNext`, and `elementNodeMap[id]` is the address `a` exactly when the node
at `a`, in the tree under the root, has `id` in its index set. -/
def Registration (o : DynamicOctree) : Prop :=
  UniqAddr o.root ∧ (∀ a, hasAddr a o.root = true → a < o.heapNext) ∧
    ∀ id a, holdsAt id a o.root = true ↔ o.nodeOf id = some a

/-- An old-to-new id map that is a permutation with holes for the octree: every
registered id has a valid new id, which is a position of the map, no two
registered ids have the same new id, and the entry of every other id is the
invalid index or the id itself (either way the loop of `updateIndices` skips
it). -/
def PermWithHoles (o : DynamicOctree) (newIndices : List Nat) : Prop :=
  (∀ id a, o.nodeOf id = some a → ∃ j, newIndices[id]? = some j ∧ j ≠ Util.invalidIndex) ∧
  (∀ id a j, o.nodeOf id = some a → newIndices[id]? = some j → j < newIndices.length) ∧
  (∀ id j, o.nodeOf id = none → newIndices[id]? = some j → j = Util.invalidIndex ∨ j = id) ∧
  (∀ id1 id2 a1 a2 j, o.nodeOf id1 = some a1 → o.nodeOf id2 = some a2 →
    newIndices[id1]? = some j → newIndices[id2]? = some j → id1 = id2)

/-- The element at `position` with extent `maxDimExtent` is inside the root after
at most `n` rounds of `makeParent`: it is within `2^n * width` of the root,
measured as `approxContains` does. -/
def GrowBound (n : Nat) (c : Vec3) (w : ℚ) (position : Vec3) (maxDimExtent : ℚ) : Prop :=
  maxDimExtent ≤ 2 ^ n * w ∧
  (c.x - (2 ^ n * w - w * (1 / 2) + epsilon) ≤ position.x ∧
    position.x ≤ c.x + (2 ^ n * w - w * (1 / 2) + epsilon)) ∧
  (c.y - (2 ^ n * w - w * (1 / 2) + epsilon) ≤ position.y ∧
    position.y ≤ c.y + (2 ^ n * w - w * (1 / 2) + epsilon)) ∧
  (c.z - (2 ^ n * w - w * (1 / 2) + epsilon) ≤ position.z ∧
    position.z ≤ c.z + (2 ^ n * w - w * (1 / 2) + epsilon))

/-- The state of the loop of `DynamicOctree::Impl::updateIndices` before it
looks at position `t`: `enm0` is the `elementNodeMap` at the start, `enm` the
one now. -/
def MapInv (m : List Nat) (enm0 : List (Option Nat)) (t : Nat) (enm : List (Option Nat)) :
    Prop :=
  (∀ i a s, i < t → enm0.getD i none = some a → m[i]? = some s → enm.getD s none = some a) ∧
  (∀ s, (∀ i a, i < t → enm0.getD i none = some a → m[i]? ≠ some s) →
    enm.getD s none = if s < t then none else enm0.getD s none) ∧
  (∀ i a s, i < t → enm0.getD i none = some a → m[i]? = some s → s ≠ i →
    (s < i ∨ enm0.getD s none = none))

/-- One call of the octree interface that returns, in exact arithmetic;
`updateIndices` is called on maps that satisfy `P`. -/
inductive Step (P : DynamicOctree → List Nat → Prop) : DynamicOctree → DynamicOctree → Prop where
  | addElement (fuel : Nat) (o o1 : DynamicOctree) (index : Nat) (position : Vec3)
      (maxDimExtent : ℚ) :
      addElement fuel o index position maxDimExtent = some o1 → Step P o o1
  | deleteElement (o o1 : DynamicOctree) (index : Nat) :
      deleteElement o index = some o1 → Step P o o1
  | realignElement (fuel : Nat) (o o1 : DynamicOctree) (index : Nat) (position : Vec3)
      (maxDimExtent : ℚ) :
      realignElement fuel o index position maxDimExtent = some o1 → Step P o o1
  | deleteEmptyChildren (o : DynamicOctree) : Step P o (deleteEmptyChildren o)
  | shrinkRoot (o : DynamicOctree) : Step P o (shrinkRoot o)
  | updateIndices (o o1 : DynamicOctree) (newIndices : List Nat) :
      P o newIndices → updateIndices o newIndices = some o1 → Step P o o1

/-- The octree states reachable in exact arithmetic from `setupRoot` on a fresh
octree by calls of `addElement`, `deleteElement`, `realignElement`,
`deleteEmptyChildren`, `shrinkRoot` and `updateIndices` that return,
`updateIndices` on maps that satisfy `P`. -/
inductive ReachableWith (P : DynamicOctree → List Nat → Prop) : DynamicOctree → Prop where
  | setupRoot (next : Nat) (position : Vec3) (width : ℚ) (o : DynamicOctree) :
      setupRoot ⟨Child.none, [], next⟩ position width = some o → ReachableWith P o
  | step (o o1 : DynamicOctree) : ReachableWith P o → Step P o o1 → ReachableWith P o1

/-- Reachable with `updateIndices` called on any map. -/
def ReachableAny (o : DynamicOctree) : Prop := ReachableWith (fun _ _ => True) o

/-- Reachable with `updateIndices` called on permutations with holes only. -/
def Reachable (o : DynamicOctree) : Prop := ReachableWith PermWithHoles o

end DynamicOctree

namespace Octree

/-- The number of levels of a tree: none for an empty `Maybe`, and for a node one
more than the largest number of levels of a child. -/
def levels : Child → Nat
  | Child.none => 0
  | Child.node _ _ _ _ ch _ =>
    1 + ((List.finRange 8).map (fun k => levels (ch k))).foldr max 0

/-- The node or one of its descendants holds an index. -/
def holdsAny : Child → Bool
  | Child.none => false
  | Child.node _ _ _ _ ch idx =>
    decide (idx ≠ ∅) || (List.finRange 8).any (fun k => holdsAny (ch k))

end Octree

namespace Octree

/-- The origin. -/
def origin : Vec3 := ⟨0, 0, 0⟩

/-- A root node of width 1 at the origin, at address 0, without children, that
holds the indices `idx`. -/
def unitRoot (idx : Finset Nat) : Child := Child.node 0 origin 1 0 (fun _ => Child.none) idx

end Octree

namespace DynamicOctree

open Octree

/-- The octree after `setupRoot (origin, 1)`. -/
def trace0 : DynamicOctree := ⟨unitRoot ∅, [], 1⟩

/-- The octree `trace0` after `addElement (2, origin, 1/2)`. -/
def trace1 : DynamicOctree := ⟨unitRoot {2}, [none, none, some 0], 1⟩

/-- The octree `trace1` after `addElement (0, origin, 1/2)`. -/
def trace2 : DynamicOctree := ⟨unitRoot {0, 2}, [some 0, none, some 0], 1⟩

/-- The octree `trace2` after `deleteElement (2)`. -/
def trace3 : DynamicOctree := ⟨unitRoot {0}, [some 0, none, none], 1⟩

/-- The octree `trace3` after `updateIndices ({1, 2, invalid})`. -/
def trace4 : DynamicOctree := ⟨unitRoot {1}, [none, none, some 0], 1⟩

/-- The octree `trace0` after `addElement (0, origin, 1/2)`: one element, held by
the root. -/
def single : DynamicOctree := ⟨unitRoot {0}, [some 0], 1⟩

/-- The octree `trace0` after `addElement (0, (1/4, 1/4, 1/4), 1/5)`: the element
went into the child in slot 7, made at address 1; the root holds no index. -/
def nested : DynamicOctree :=
  ⟨Child.node 0 origin 1 0
      (Function.update (fun _ => Child.none) 7
        (Child.node 1 ⟨1 / 4, 1 / 4, 1 / 4⟩ (1 / 2) 1 (fun _ => Child.none) {0})) ∅,
    [some 1], 2⟩

/-- The octree `nested` after `shrinkRoot`: the child is the root. -/
def nestedShrunk : DynamicOctree :=
  ⟨Child.node 1 ⟨1 / 4, 1 / 4, 1 / 4⟩ (1 / 2) 1 (fun _ => Child.none) {0}, [some 1], 2⟩

end DynamicOctree

/-- Modelled from the spec: the rendering-buffer mesh (`mesh.hpp` is not among
the sources): flat vertex and normal arrays and a flat triangle-index array,
with append, get and set by index, and shrinking. -/
structure Mesh where
  vertices : List Vec3
  normals : List Vec3
  indices : List Nat

namespace Mesh

/-- Modelled from the spec: `Mesh::numVertices`. -/
def numVertices (m : Mesh) : Nat := m.vertices.length

/-- Modelled from the spec: `Mesh::numIndices`. -/
def numIndices (m : Mesh) : Nat := m.indices.length

/-- Modelled from the spec: `Mesh::vertex (i)`, get by index. -/
def vertex (m : Mesh) (i : Nat) : Option Vec3 := m.vertices[i]?

/-- Modelled from the spec: `Mesh::normal (i)`, get by index. -/
def normal (m : Mesh) (i : Nat) : Option Vec3 := m.normals[i]?

/-- Modelled from the spec: `Mesh::index (i)`, get by index. -/
def index (m : Mesh) (i : Nat) : Option Nat := m.indices[i]?

/-- Modelled from the spec: `Mesh::vertex (i, v)`, set by index. -/
def setVertex (m : Mesh) (i : Nat) (v : Vec3) : Option Mesh :=
  if i < m.vertices.length then some { m with vertices := m.vertices.set i v } else none

/-- Modelled from the spec: `Mesh::normal (i, n)`, set by index. -/
def setNormal (m : Mesh) (i : Nat) (n : Vec3) : Option Mesh :=
  if i < m.normals.length then some { m with normals := m.normals.set i n } else none

/-- Modelled from the spec: `Mesh::index (i, x)`, set by index. -/
def setIndex (m : Mesh) (i : Nat) (x : Nat) : Option Mesh :=
  if i < m.indices.length then some { m with indices := m.indices.set i x } else none

/-- Modelled from the spec: `Mesh::addVertex (v, n)`, append; returns the index
of the new vertex. -/
def addVertex (m : Mesh) (v n : Vec3) : Mesh × Nat :=
  ({ m with vertices := m.vertices ++ [v], normals := m.normals ++ [n] }, m.vertices.length)

/-- Modelled from the spec: `Mesh::addIndex (x)`, append. -/
def addIndex (m : Mesh) (x : Nat) : Mesh := { m with indices := m.indices ++ [x] }

/-- Modelled from the spec: `Mesh::shrinkVertices (n)`. -/
def shrinkVertices (m : Mesh) (n : Nat) : Mesh :=
  { m with vertices := m.vertices.take n, normals := m.normals.take n }

/-- Modelled from the spec: `Mesh::shrinkIndices (n)`. -/
def shrinkIndices (m : Mesh) (n : Nat) : Mesh := { m with indices := m.indices.take n }

/-- Modelled from the spec: `Mesh::reset`. -/
def reset (_m : Mesh) : Mesh := ⟨[], [], []⟩

/-- Modelled from the spec: `Mesh::minMax`, the bounding box of the vertices
(`none` for a mesh without vertices). -/
def minMax (m : Mesh) : Option (Vec3 × Vec3) :=
  match m.vertices with
  | [] => none
  | v :: vs =>
    some (vs.foldl (fun b u => (⟨min b.1.x u.x, min b.1.y u.y, min b.1.z u.z⟩,
      ⟨max b.2.x u.x, max b.2.y u.y, max b.2.z u.z⟩)) (v, v))

end Mesh

namespace PrimTriangle

/-- Modelled from the spec: `PrimTriangle::center`, the centroid of the triangle
(`primitive/triangle.hpp` is not among the sources), in exact arithmetic: the
instance `centerF id`. -/
def center (v1 v2 v3 : Vec3) : Vec3 :=
  ⟨(v1.x + v2.x + v3.x) / 3, (v1.y + v2.y + v3.y) / 3, (v1.z + v2.z + v3.z) / 3⟩

/-- Modelled from the spec: `PrimTriangle::maxDimExtent`, the largest extent of
the triangle along an axis, in exact arithmetic: the instance
`maxDimExtentF id`. -/
def maxDimExtent (v1 v2 v3 : Vec3) : ℚ :=
  max (max (max v1.x (max v2.x v3.x) - min v1.x (min v2.x v3.x))
    (max v1.y (max v2.y v3.y) - min v1.y (min v2.y v3.y)))
    (max v1.z (max v2.z v3.z) - min v1.z (min v2.z v3.z))

end PrimTriangle

/-- The struct `VertexData`. -/
structure VertexData where
  isFree : Bool
  adjacentFaces : List Nat
deriving DecidableEq

/-- The struct `FaceData`. -/
structure FaceData where
  isFree : Bool
deriving DecidableEq

namespace VertexData

/-- Models `VertexData::reset`. -/
def reset (_d : VertexData) : VertexData := ⟨true, []⟩

/-- Models `VertexData::addAdjacentFace`. -/
def addAdjacentFace (d : VertexData) (face : Nat) : VertexData :=
  { d with adjacentFaces := d.adjacentFaces ++ [face] }

/-- Models `VertexData::deleteAdjacentFace`: erases the first occurrence of
`face`; `DILAY_IMPOSSIBLE` when there is none. -/
def deleteAdjacentFace (d : VertexData) (face : Nat) : Option VertexData :=
  if face ∈ d.adjacentFaces then some { d with adjacentFaces := d.adjacentFaces.erase face }
  else none

/-- The slot `v` of `vertexData` exists and is not free. -/
def liveIn (vd : List VertexData) (v : Nat) : Bool :=
  match vd[v]? with
  | some d => !d.isFree
  | none => false

/-- The adjacency list in slot `v` of `vertexData` (empty when there is no such
slot). -/
def adjacentIn (vd : List VertexData) (v : Nat) : List Nat :=
  match vd[v]? with
  | some d => d.adjacentFaces
  | none => []

end VertexData

/-- The struct `DynamicMesh::Impl`. -/
structure DynamicMesh where
  mesh : Mesh
  vertexData : List VertexData
  vertexVisited : List Nat
  freeVertexIndices : List Nat
  faceData : List FaceData
  faceVisited : List Nat
  freeFaceIndices : List Nat
  octree : DynamicOctree

namespace DynamicMesh

/-- Models `DynamicMesh::Impl::numVertices`. -/
def numVertices (s : DynamicMesh) : Option Nat :=
  if s.mesh.numVertices ≥ s.freeVertexIndices.length ∧ s.mesh.numVertices = s.vertexData.length
  then some (s.mesh.numVertices - s.freeVertexIndices.length) else none

/-- Models `DynamicMesh::Impl::numFaces`. -/
def numFaces (s : DynamicMesh) : Option Nat :=
  if s.faceData.length ≥ s.freeFaceIndices.length
  then some (s.faceData.length - s.freeFaceIndices.length) else none

/-- Models `DynamicMesh::Impl::isFreeVertex`. -/
def isFreeVertex (s : DynamicMesh) (i : Nat) : Option Bool := (s.vertexData[i]?).map (·.isFree)

/-- Models `DynamicMesh::Impl::isFreeFace`. -/
def isFreeFace (s : DynamicMesh) (i : Nat) : Option Bool := (s.faceData[i]?).map (·.isFree)

/-- Models `DynamicMesh::Impl::isPruned`. -/
def isPruned (s : DynamicMesh) : Bool :=
  s.freeFaceIndices.isEmpty && s.freeVertexIndices.isEmpty

/-- Models `DynamicMesh::Impl::valence`. -/
def valence (s : DynamicMesh) (i : Nat) : Option Nat :=
  match s.vertexData[i]? with
  | some d => if d.isFree = false then some d.adjacentFaces.length else none
  | none => none

/-- Models `DynamicMesh::Impl::vertexIndices`. -/
def vertexIndices (s : DynamicMesh) (i : Nat) : Option (Nat × Nat × Nat) :=
  match s.isFreeFace i with
  | some false =>
    match s.mesh.index (3 * i + 0), s.mesh.index (3 * i + 1), s.mesh.index (3 * i + 2) with
    | some i1, some i2, some i3 => some (i1, i2, i3)
    | _, _, _ => none
  | _ => none

/-- Models `DynamicMesh::Impl::face`: the three corners of the triangle. -/
def face (s : DynamicMesh) (i : Nat) : Option (Vec3 × Vec3 × Vec3) :=
  match s.vertexIndices i with
  | some (i1, i2, i3) =>
    match s.mesh.vertex i1, s.mesh.vertex i2, s.mesh.vertex i3 with
    | some v1, some v2, some v3 => some (v1, v2, v3)
    | _, _, _ => none
  | none => none

/-- Models `DynamicMesh::Impl::setupOctreeRoot (const Mesh&)` in exact
arithmetic: the instance `setupOctreeRootF id`. -/
def setupOctreeRoot (s : DynamicMesh) (mesh : Mesh) : Option DynamicMesh :=
  if s.octree.hasRoot = false then
    match mesh.minMax with
    | some (minVertex, maxVertex) =>
      let center : Vec3 := ⟨(maxVertex.x + minVertex.x) * (1 / 2),
        (maxVertex.y + minVertex.y) * (1 / 2), (maxVertex.z + minVertex.z) * (1 / 2)⟩
      let width : ℚ := max (max (maxVertex.x - minVertex.x) (maxVertex.y - minVertex.y))
        (maxVertex.z - minVertex.z)
      (s.octree.setupRoot center width).map (fun o => { s with octree := o })
    | none => none
  else none

/-- Models `DynamicMesh::Impl::addVertex`: the mesh afterwards and the returned
index. -/
def addVertex (s : DynamicMesh) (vertex normal : Vec3) : Option (DynamicMesh × Nat) :=
  if s.vertexData.length = s.mesh.numVertices ∧ s.vertexVisited.length = s.mesh.numVertices then
    match s.freeVertexIndices.getLast? with
    | none =>
      some ({ s with
        vertexData := s.vertexData ++ [⟨false, []⟩]
        vertexVisited := s.vertexVisited ++ [0]
        mesh := (s.mesh.addVertex vertex normal).1 }, (s.mesh.addVertex vertex normal).2)
    | some index =>
      match s.mesh.setVertex index vertex with
      | none => none
      | some m1 =>
        match m1.setNormal index normal with
        | none => none
        | some m2 =>
          if index < s.vertexData.length ∧ index < s.vertexVisited.length then
            some ({ s with
              mesh := m2
              vertexData := s.vertexData.set index ⟨false, []⟩
              vertexVisited := s.vertexVisited.set index 0
              freeVertexIndices := s.freeVertexIndices.dropLast }, index)
          else none
  else none

/-- Models `DynamicMesh::Impl::addFaceToOctree` in exact arithmetic (the instance
`addFaceToOctreeF id`); the first argument is handed to the octree's
`addElement`. -/
def addFaceToOctree (fuel : Nat) (s : DynamicMesh) (i : Nat) : Option DynamicMesh :=
  match s.face i with
  | some (v1, v2, v3) =>
    (s.octree.addElement fuel i (PrimTriangle.center v1 v2 v3)
      (PrimTriangle.maxDimExtent v1 v2 v3)).map (fun o => { s with octree := o })
  | none => none

/-- The three calls `vertexData[i].addAdjacentFace (index)` of `addFace`. -/
def addAdjacent (vd : List VertexData) (i1 i2 i3 index : Nat) : Option (List VertexData) :=
  match vd[i1]? with
  | none => none
  | some d1 =>
    let vd1 := vd.set i1 (d1.addAdjacentFace index)
    match vd1[i2]? with
    | none => none
    | some d2 =>
      let vd2 := vd1.set i2 (d2.addAdjacentFace index)
      match vd2[i3]? with
      | none => none
      | some d3 => some (vd2.set i3 (d3.addAdjacentFace index))

/-- The first half of `DynamicMesh::Impl::addFace`: the face slot is appended,
or the last free slot is taken again, and the three indices are stored. -/
def addFaceSlot (s : DynamicMesh) (i1 i2 i3 : Nat) : Option (DynamicMesh × Nat) :=
  match s.freeFaceIndices.getLast? with
  | none =>
    (s.numFaces).map (fun index =>
      ({ s with
        faceData := s.faceData ++ [⟨true⟩]
        faceVisited := s.faceVisited ++ [0]
        mesh := ((s.mesh.addIndex i1).addIndex i2).addIndex i3 }, index))
  | some index =>
    if index < s.faceData.length ∧ index < s.faceVisited.length then
      match s.mesh.setIndex (3 * index + 0) i1 with
      | none => none
      | some m1 =>
        match m1.setIndex (3 * index + 1) i2 with
        | none => none
        | some m2 =>
          match m2.setIndex (3 * index + 2) i3 with
          | none => none
          | some m3 =>
            some ({ s with
              faceData := s.faceData.set index ⟨true⟩
              faceVisited := s.faceVisited.set index 0
              freeFaceIndices := s.freeFaceIndices.dropLast
              mesh := m3 }, index)
    else none

/-- Models `DynamicMesh::Impl::addFace` in exact arithmetic (the instance
`addFaceF id`): the mesh afterwards and the returned index; the first argument
is handed to the octree's `addElement`. -/
def addFace (fuel : Nat) (s : DynamicMesh) (i1 i2 i3 : Nat) : Option (DynamicMesh × Nat) :=
  if i1 < s.mesh.numVertices ∧ i2 < s.mesh.numVertices ∧ i3 < s.mesh.numVertices ∧
      3 * s.faceData.length = s.mesh.numIndices ∧ s.faceData.length = s.faceVisited.length then
    match addFaceSlot s i1 i2 i3 with
    | none => none
    | some (s1, index) =>
      if index < s1.faceData.length then
        match addAdjacent s1.vertexData i1 i2 i3 index with
        | none => none
        | some vd =>
          (addFaceToOctree fuel
            { s1 with faceData := s1.faceData.set index ⟨false⟩, vertexData := vd } index).map
            (fun s2 => (s2, index))
      else none
  else none

/-- The call `vertexData[mesh.index (k)].deleteAdjacentFace (i)` of
`deleteFace`. -/
def deleteAdjacent (m : Mesh) (vd : List VertexData) (k i : Nat) : Option (List VertexData) :=
  match m.index k with
  | none => none
  | some v =>
    match vd[v]? with
    | none => none
    | some d => (d.deleteAdjacentFace i).map (fun d1 => vd.set v d1)

/-- Models `DynamicMesh::Impl::deleteFace`. -/
def deleteFace (s : DynamicMesh) (i : Nat) : Option DynamicMesh :=
  if i < s.faceData.length ∧ i < s.faceVisited.length then
    match deleteAdjacent s.mesh s.vertexData (3 * i + 0) i with
    | none => none
    | some vd1 =>
      match deleteAdjacent s.mesh vd1 (3 * i + 1) i with
      | none => none
      | some vd2 =>
        match deleteAdjacent s.mesh vd2 (3 * i + 2) i with
        | none => none
        | some vd3 =>
          (s.octree.deleteElement i).map (fun o =>
            { s with
              vertexData := vd3
              faceData := s.faceData.set i ⟨true⟩
              faceVisited := s.faceVisited.set i 0
              freeFaceIndices := s.freeFaceIndices ++ [i]
              octree := o })
  else none

/-- The loop `for (unsigned int f : adjacentFaces) deleteFace (f)` of
`deleteVertex`. -/
def deleteFaces : List Nat → DynamicMesh → Option DynamicMesh
  | [], s => some s
  | f :: fs, s =>
    match deleteFace s f with
    | none => none
    | some s1 => deleteFaces fs s1

/-- Models `DynamicMesh::Impl::deleteVertex`. -/
def deleteVertex (s : DynamicMesh) (i : Nat) : Option DynamicMesh :=
  if i < s.vertexData.length ∧ i < s.vertexVisited.length then
    match s.vertexData[i]? with
    | none => none
    | some d =>
      match deleteFaces d.adjacentFaces s with
      | none => none
      | some s1 =>
        if i < s1.vertexData.length ∧ i < s1.vertexVisited.length then
          some { s1 with
            vertexData := s1.vertexData.set i ⟨true, []⟩
            vertexVisited := s1.vertexVisited.set i 0
            freeVertexIndices := s1.freeVertexIndices ++ [i] }
        else none
  else none

/-- The inner loop of `prune` over the adjacent faces of one vertex: every entry
`f` is replaced by `pFaceIndexMap->at (f)`, asserted not to be the invalid
index. -/
def remapAdjacent (fmap : List Nat) : List Nat → Option (List Nat)
  | [] => some []
  | f :: fs =>
    match fmap[f]? with
    | some g =>
      if g ≠ Util.invalidIndex then (remapAdjacent fmap fs).map (fun gs => g :: gs) else none
    | none => none

/-- The first loop of `prune`, over all of `vertexData`. -/
def remapAllAdjacent (fmap : List Nat) : List VertexData → Option (List VertexData)
  | [] => some []
  | d :: ds =>
    match remapAdjacent fmap d.adjacentFaces with
    | some adj =>
      (remapAllAdjacent fmap ds).map (fun ds1 => { d with adjacentFaces := adj } :: ds1)
    | none => none

/-- The loop of `prune` over `pVertexIndexMap`, from position `i` on, with the
entries `rest` of the map still to visit. -/
def copyVertices (free : List Nat) : List Nat → Nat → Mesh → Option Mesh
  | [], _, m => some m
  | newV :: rest, i, m =>
    if newV ≠ Util.invalidIndex then
      match m.vertex i with
      | none => none
      | some v =>
        match m.setVertex newV v with
        | none => none
        | some m1 =>
          match m1.normal i with
          | none => none
          | some n =>
            match m1.setNormal newV n with
            | none => none
            | some m2 => copyVertices free rest (i + 1) m2
    else if i ∈ free then copyVertices free rest (i + 1) m else none

/-- The lookup `pVertexIndexMap->at (oldI)`, asserted not to be the invalid
index. -/
def mapVertex (vmap : List Nat) (oldI : Nat) : Option Nat :=
  match vmap[oldI]? with
  | some x => if x ≠ Util.invalidIndex then some x else none
  | none => none

/-- The loop of `prune` over `pFaceIndexMap`, from position `i` on, with the
entries `rest` of the map still to visit. -/
def copyFaces (vmap : List Nat) (free : List Nat) : List Nat → Nat → Mesh → Option Mesh
  | [], _, m => some m
  | newF :: rest, i, m =>
    if newF ≠ Util.invalidIndex then
      match m.index (3 * i + 0), m.index (3 * i + 1), m.index (3 * i + 2) with
      | some oldI1, some oldI2, some oldI3 =>
        match mapVertex vmap oldI1, mapVertex vmap oldI2, mapVertex vmap oldI3 with
        | some n1, some n2, some n3 =>
          match m.setIndex (3 * newF + 0) n1 with
          | none => none
          | some m1 =>
            match m1.setIndex (3 * newF + 1) n2 with
            | none => none
            | some m2 =>
              match m2.setIndex (3 * newF + 2) n3 with
              | none => none
              | some m3 => copyFaces vmap free rest (i + 1) m3
        | _, _, _ => none
      | _, _, _ => none
    else if i ∈ free then copyFaces vmap free rest (i + 1) m else none

/-- Models `DynamicMesh::Impl::prune`: the mesh afterwards and the two vectors
the caller passed (`none` for a null pointer), as the call leaves them. -/
def prune (s : DynamicMesh) (pVertexIndexMap pFaceIndexMap : Option (List Nat)) :
    Option (DynamicMesh × Option (List Nat) × Option (List Nat)) :=
  if s.isPruned = false then
    match Util.prune (fun d => d.isFree) s.vertexData (some (pVertexIndexMap.getD [])),
        Util.prune (fun d => d.isFree) s.faceData (some (pFaceIndexMap.getD [])) with
    | some (vd, some vmap), some (fd, some fmap) =>
      match remapAllAdjacent fmap vd with
      | none => none
      | some vd1 =>
        match copyVertices s.freeVertexIndices vmap 0 s.mesh with
        | none => none
        | some m1 =>
          let m2 := m1.shrinkVertices vd1.length
          if m2.numVertices = vd1.length then
            match copyFaces vmap s.freeFaceIndices fmap 0 m2 with
            | none => none
            | some m3 =>
              match s.octree.updateIndices fmap with
              | none => none
              | some o =>
                some ({ mesh := m3.shrinkIndices (3 * fd.length)
                        vertexData := vd1
                        vertexVisited := Util.resize s.vertexVisited vd1.length 0
                        freeVertexIndices := []
                        faceData := fd
                        faceVisited := Util.resize s.faceVisited fd.length 0
                        freeFaceIndices := []
                        octree := o },
                  pVertexIndexMap.map (fun _ => vmap), pFaceIndexMap.map (fun _ => fmap))
          else none
    | _, _ => none
  else some (s, pVertexIndexMap, pFaceIndexMap)

/-- Models `DynamicMesh::Impl::reset`. -/
def reset (s : DynamicMesh) : DynamicMesh :=
  { mesh := s.mesh.reset
    vertexData := []
    vertexVisited := []
    freeVertexIndices := []
    faceData := []
    faceVisited := []
    freeFaceIndices := []
    octree := s.octree.reset }

/-- The cross product `glm::cross`. -/
def cross (a b : Vec3) : Vec3 :=
  ⟨a.y * b.z - b.y * a.z, a.z * b.x - b.z * a.x, a.x * b.y - b.x * a.y⟩

/-- The sum, over the faces `fs`, of the cross products that
`averageNormal (unsigned int)` adds up. -/
def sumNormals (s : DynamicMesh) : List Nat → Vec3 → Option Vec3
  | [], acc => some acc
  | f :: fs, acc =>
    match s.face f with
    | some (v1, v2, v3) =>
      let n := cross ⟨v2.x - v1.x, v2.y - v1.y, v2.z - v1.z⟩ ⟨v3.x - v1.x, v3.y - v1.y, v3.z - v1.z⟩
      sumNormals s fs ⟨acc.x + n.x, acc.y + n.y, acc.z + n.z⟩
    | none => none

/-- Models `DynamicMesh::Impl::averageNormal (unsigned int)`; `normalize` stands
for `glm::normalize`. -/
def averageNormal (normalize : Vec3 → Vec3) (s : DynamicMesh) (i : Nat) : Option Vec3 :=
  match s.vertexData[i]? with
  | some d =>
    if d.isFree = false ∧ d.adjacentFaces.length > 0 then
      (sumNormals s d.adjacentFaces ⟨0, 0, 0⟩).map normalize
    else none
  | none => none

/-- Models `DynamicMesh::Impl::setVertexNormal`; `isNaN` stands for
`Util::isNaN`. -/
def setVertexNormal (normalize : Vec3 → Vec3) (isNaN : Vec3 → Bool) (s : DynamicMesh) (i : Nat) :
    Option DynamicMesh :=
  match averageNormal normalize s i with
  | none => none
  | some avg =>
    (s.mesh.setNormal i (if isNaN avg then ⟨0, 0, 0⟩ else avg)).map (fun m => { s with mesh := m })

/-- Models `DynamicMesh::Impl::setAllNormals`: `forEachVertex` over the slots
`is`, calling `setVertexNormal` on those that are not free. -/
def setAllNormals (normalize : Vec3 → Vec3) (isNaN : Vec3 → Bool) :
    List Nat → DynamicMesh → Option DynamicMesh
  | [], s => some s
  | i :: is, s =>
    match s.isFreeVertex i with
    | some false =>
      match setVertexNormal normalize isNaN s i with
      | none => none
      | some s1 => setAllNormals normalize isNaN is s1
    | some true => setAllNormals normalize isNaN is s
    | none => none

/-- The loop of `fromMesh` over the vertices `vs` of the source mesh, given with
their normals. -/
def addVertices : List (Vec3 × Vec3) → DynamicMesh → Option DynamicMesh
  | [], s => some s
  | (v, n) :: vs, s =>
    match addVertex s v n with
    | none => none
    | some (s1, _) => addVertices vs s1

/-- The loop of `fromMesh` over the indices of the source mesh, three at a
time, in exact arithmetic. -/
def addFaces (fuel : Nat) : List Nat → DynamicMesh → Option DynamicMesh
  | i1 :: i2 :: i3 :: rest, s =>
    match addFace fuel s i1 i2 i3 with
    | none => none
    | some (s1, _) => addFaces fuel rest s1
  | [], s => some s
  | _, _ => none

/-- Models `DynamicMesh::Impl::fromMesh` in exact arithmetic (the instance
`fromMeshF id`); `fuel` is handed to every `addFace`, `normalize` and `isNaN`
stand for `glm::normalize` and `Util::isNaN`. -/
def fromMesh (fuel : Nat) (normalize : Vec3 → Vec3) (isNaN : Vec3 → Bool) (s : DynamicMesh)
    (mesh : Mesh) : Option DynamicMesh :=
  match setupOctreeRoot (reset s) mesh with
  | none => none
  | some s1 =>
    if mesh.normals.length = mesh.vertices.length then
      match addVertices (mesh.vertices.zip mesh.normals) s1 with
      | none => none
      | some s2 =>
        if mesh.numIndices % 3 = 0 then
          match addFaces fuel mesh.indices s2 with
          | none => none
          | some s3 => setAllNormals normalize isNaN (List.range s3.vertexData.length) s3
        else none
    else none

/-- One round of the loop of `findAdjacent`: the adjacent face `a` with indices
`(i1, i2, i3)`, and the results `(leftFace, leftVertex, rightFace, rightVertex)`
so far. -/
def findAdjacentStep (e1 e2 a i1 i2 i3 : Nat) (r : Nat × Nat × Nat × Nat) :
    Nat × Nat × Nat × Nat :=
  if e1 = i1 ∧ e2 = i2 then (a, i3, r.2.2.1, r.2.2.2)
  else if e1 = i2 ∧ e2 = i1 then (r.1, r.2.1, a, i3)
  else if e1 = i2 ∧ e2 = i3 then (a, i1, r.2.2.1, r.2.2.2)
  else if e1 = i3 ∧ e2 = i2 then (r.1, r.2.1, a, i1)
  else if e1 = i3 ∧ e2 = i1 then (a, i2, r.2.2.1, r.2.2.2)
  else if e1 = i1 ∧ e2 = i3 then (r.1, r.2.1, a, i2)
  else r

/-- The loop of `findAdjacent` over the adjacent faces of `e1`. -/
def findAdjacentLoop (s : DynamicMesh) (e1 e2 : Nat) :
    List Nat → Nat × Nat × Nat × Nat → Option (Nat × Nat × Nat × Nat)
  | [], r => some r
  | a :: rest, r =>
    match s.vertexIndices a with
    | some (i1, i2, i3) => findAdjacentLoop s e1 e2 rest (findAdjacentStep e1 e2 a i1 i2 i3 r)
    | none => none

/-- Models `DynamicMesh::Impl::findAdjacent`: the results
`(leftFace, leftVertex, rightFace, rightVertex)`. -/
def findAdjacent (s : DynamicMesh) (e1 e2 : Nat) : Option (Nat × Nat × Nat × Nat) :=
  if s.isFreeVertex e1 = some false ∧ s.isFreeVertex e2 = some false then
    match s.vertexData[e1]? with
    | some d =>
      match findAdjacentLoop s e1 e2 d.adjacentFaces
          (Util.invalidIndex, Util.invalidIndex, Util.invalidIndex, Util.invalidIndex) with
      | some (leftFace, leftVertex, rightFace, rightVertex) =>
        if leftFace ≠ Util.invalidIndex ∧ leftVertex ≠ Util.invalidIndex ∧
            rightFace ≠ Util.invalidIndex ∧ rightVertex ≠ Util.invalidIndex then
          some (leftFace, leftVertex, rightFace, rightVertex)
        else none
      | none => none
    | none => none
  else none

end DynamicMesh

namespace DynamicMesh

/-- The vertex slot `v` exists and is not free. -/
def liveVertex (s : DynamicMesh) (v : Nat) : Bool := VertexData.liveIn s.vertexData v

/-- The face slot `f` exists and is not free. -/
def liveFace (s : DynamicMesh) (f : Nat) : Bool :=
  match s.faceData[f]? with
  | some d => !d.isFree
  | none => false

/-- The adjacency list of the vertex slot `v` (empty when there is no such
slot). -/
def adjacent (s : DynamicMesh) (v : Nat) : List Nat := VertexData.adjacentIn s.vertexData v

/-- The index triple stored for the face slot `f`. -/
def triple (s : DynamicMesh) (f : Nat) : List Nat :=
  [s.mesh.indices.getD (3 * f) 0, s.mesh.indices.getD (3 * f + 1) 0,
    s.mesh.indices.getD (3 * f + 2) 0]

/-- The slot counts fit `unsigned int`, below the invalid index. -/
def Fits (s : DynamicMesh) : Prop :=
  s.vertexData.length < 2 ^ 32 ∧ s.faceData.length < 2 ^ 32

/-- The parallel arrays have matching sizes. -/
def Sizes (s : DynamicMesh) : Prop :=
  s.mesh.vertices.length = s.vertexData.length ∧ s.mesh.normals.length = s.vertexData.length ∧
    s.vertexVisited.length = s.vertexData.length ∧
    s.mesh.indices.length = 3 * s.faceData.length ∧ s.faceVisited.length = s.faceData.length

/-- The free-list invariant: a slot id occurs in the free list once when its
`isFree` flag is set, and not at all otherwise. -/
def FreeLists (s : DynamicMesh) : Prop :=
  s.freeVertexIndices.Nodup ∧
    (∀ i, i ∈ s.freeVertexIndices ↔ (i < s.vertexData.length ∧ s.liveVertex i = false)) ∧
    s.freeFaceIndices.Nodup ∧
    (∀ i, i ∈ s.freeFaceIndices ↔ (i < s.faceData.length ∧ s.liveFace i = false))

/-- The adjacency invariant, with multiplicities: the corners of a live face are
live vertices, and a face occurs in the adjacency list of a vertex as often as
the vertex occurs in the triple of the face when the face is live, and not at
all when it is not. -/
def Adjacency (s : DynamicMesh) : Prop :=
  (∀ f, s.liveFace f = true → ∀ a ∈ s.triple f, s.liveVertex a = true) ∧
    ∀ v f, (s.adjacent v).count f = if s.liveFace f then (s.triple f).count v else 0

/-- The octree holds exactly the live faces. -/
def Coupled (s : DynamicMesh) : Prop :=
  s.octree.Registration ∧ ∀ f, (s.octree.nodeOf f).isSome = s.liveFace f

/-- The invariant of the dynamic mesh. -/
def MeshInv (s : DynamicMesh) : Prop :=
  Sizes s ∧ FreeLists s ∧ Adjacency s ∧ Coupled s

/-- One call of the mesh interface that returns, in exact arithmetic. With `L`,
`addFace`, `deleteFace` and `deleteVertex` are called on live ids only. -/
inductive Step (L : Prop) : DynamicMesh → DynamicMesh → Prop where
  | addVertex (s s1 : DynamicMesh) (vertex normal : Vec3) (i : Nat) :
      addVertex s vertex normal = some (s1, i) → Step L s s1
  | addFace (fuel : Nat) (s s1 : DynamicMesh) (i1 i2 i3 f : Nat) :
      (L → s.liveVertex i1 = true ∧ s.liveVertex i2 = true ∧ s.liveVertex i3 = true) →
      addFace fuel s i1 i2 i3 = some (s1, f) → Step L s s1
  | deleteFace (s s1 : DynamicMesh) (f : Nat) :
      (L → s.liveFace f = true) → deleteFace s f = some s1 → Step L s s1
  | deleteVertex (s s1 : DynamicMesh) (v : Nat) :
      (L → s.liveVertex v = true) → deleteVertex s v = some s1 → Step L s s1
  | prune (s s1 : DynamicMesh) (pv pf rv rf : Option (List Nat)) :
      prune s pv pf = some (s1, rv, rf) → Step L s s1

/-- The states reachable in exact arithmetic from `fromMesh` by calls of
`addVertex`, `addFace`, `deleteFace`, `deleteVertex` and `prune` that return,
through states whose slot counts fit `unsigned int`. With `L`, the ids passed
are live. -/
inductive ReachableWith (L : Prop) : DynamicMesh → Prop where
  | fromMesh (fuel : Nat) (normalize : Vec3 → Vec3) (isNaN : Vec3 → Bool) (s0 : DynamicMesh)
      (mesh : Mesh) (s : DynamicMesh) :
      fromMesh fuel normalize isNaN s0 mesh = some s → Fits s → ReachableWith L s
  | step (s s1 : DynamicMesh) : ReachableWith L s → Step L s s1 → Fits s1 → ReachableWith L s1

/-- Reachable, with live ids passed to `addFace`, `deleteFace` and
`deleteVertex`. -/
def Reachable (s : DynamicMesh) : Prop := ReachableWith True s

/-- Reachable, with any ids passed. -/
def ReachableAny (s : DynamicMesh) : Prop := ReachableWith False s

/-- The state of the loop of `prune` over `pFaceIndexMap` before it looks at
position `t`: `m0` is the mesh at the start of the loop, `m` the one now. The
index blocks that no earlier position was copied to are as at the start, and
the block that position `i` was copied to holds the block of `i` at the start,
sent through `vmap`. -/
def CopyInv (vmap fmap : List Nat) (m0 : Mesh) (t : Nat) (m : Mesh) : Prop :=
  m.vertices = m0.vertices ∧ m.normals = m0.normals ∧
    m.indices.length = m0.indices.length ∧
    (∀ p, (∀ i x, i < t → fmap[i]? = some x → x ≠ Util.invalidIndex →
      ¬ (3 * x ≤ p ∧ p < 3 * x + 3)) → m.indices[p]? = m0.indices[p]?) ∧
    (∀ i x k, i < t → fmap[i]? = some x → x ≠ Util.invalidIndex → k < 3 →
      ∃ a b, m0.indices[3 * i + k]? = some a ∧ mapVertex vmap a = some b ∧
        m.indices[3 * x + k]? = some b)

/-- What the loop of `prune` over `pFaceIndexMap` needs at position `t` to get
past its assertions: a copied face has its three indices in the mesh `m0`, and
`vmap` sends them to valid ids; a position that is not copied is in the free
list. -/
def CopyGood (vmap free fmap : List Nat) (m0 : Mesh) (t : Nat) : Prop :=
  (∀ x, fmap[t]? = some x → x ≠ Util.invalidIndex → ∀ k, k < 3 →
    ∃ a b, m0.indices[3 * t + k]? = some a ∧ mapVertex vmap a = some b) ∧
  (fmap[t]? = some Util.invalidIndex → t ∈ free)

/-- The face with the index triple `t` contains the directed edge from `x` to
`y` in its winding order. -/
def windingEdge (t : Nat × Nat × Nat) (x y : Nat) : Prop :=
  (t.1 = x ∧ t.2.1 = y) ∨ (t.2.1 = x ∧ t.2.2 = y) ∨ (t.2.2 = x ∧ t.1 = y)

end DynamicMesh

namespace DynamicMesh

open Octree

/-- A source mesh with one triangle. -/
def triMesh : Mesh :=
  ⟨[⟨0, 0, 0⟩, ⟨1, 0, 0⟩, ⟨0, 1, 0⟩], [⟨0, 0, 1⟩, ⟨0, 0, 1⟩, ⟨0, 0, 1⟩], [0, 1, 2]⟩

/-- A dynamic mesh without vertices and faces, with an octree without root. -/
def blank : DynamicMesh := ⟨⟨[], [], []⟩, [], [], [], [], [], [], ⟨Child.none, [], 0⟩⟩

/-- The dynamic mesh after `fromMesh (triMesh)`: one face, held by the root of
the octree. -/
def tri : DynamicMesh :=
  { mesh := triMesh
    vertexData := [⟨false, [0]⟩, ⟨false, [0]⟩, ⟨false, [0]⟩]
    vertexVisited := [0, 0, 0]
    freeVertexIndices := []
    faceData := [⟨false⟩]
    faceVisited := [0]
    freeFaceIndices := []
    octree := ⟨Child.node 0 ⟨1 / 2, 1 / 2, 0⟩ 1 0 (fun _ => Child.none) {0}, [some 0], 1⟩ }

/-- The mesh `tri` after `addVertex ((0, 0, 1), (0, 0, 1))`: the vertex 3 has no
faces. -/
def tri4 : DynamicMesh :=
  { tri with
    mesh := ⟨[⟨0, 0, 0⟩, ⟨1, 0, 0⟩, ⟨0, 1, 0⟩, ⟨0, 0, 1⟩],
      [⟨0, 0, 1⟩, ⟨0, 0, 1⟩, ⟨0, 0, 1⟩, ⟨0, 0, 1⟩], [0, 1, 2]⟩
    vertexData := [⟨false, [0]⟩, ⟨false, [0]⟩, ⟨false, [0]⟩, ⟨false, []⟩]
    vertexVisited := [0, 0, 0, 0] }

/-- The mesh `tri4` after `deleteVertex (3)`: fragmented, the slot 3 is free. -/
def frag : DynamicMesh :=
  { tri4 with
    vertexData := [⟨false, [0]⟩, ⟨false, [0]⟩, ⟨false, [0]⟩, ⟨true, []⟩]
    freeVertexIndices := [3] }

/-- The mesh `frag` after another `deleteVertex (3)`: the slot 3 is in the free
list twice. -/
def twice : DynamicMesh := { frag with freeVertexIndices := [3, 3] }

/-- The mesh `tri` after `deleteFace (0)`: no face is left, and the octree has
no root. -/
def tri0 : DynamicMesh :=
  { tri with
    vertexData := [⟨false, []⟩, ⟨false, []⟩, ⟨false, []⟩]
    faceData := [⟨true⟩]
    freeFaceIndices := [0]
    octree := ⟨Child.none, [none], 1⟩ }

/-- The mesh `tri4` after `addFace (1, 0, 3)`: the faces 0 and 1 share the edge
between the vertices 0 and 1, in opposite directions. -/
def two : DynamicMesh :=
  { tri4 with
    mesh := ⟨[⟨0, 0, 0⟩, ⟨1, 0, 0⟩, ⟨0, 1, 0⟩, ⟨0, 0, 1⟩],
      [⟨0, 0, 1⟩, ⟨0, 0, 1⟩, ⟨0, 0, 1⟩, ⟨0, 0, 1⟩], [0, 1, 2, 1, 0, 3]⟩
    vertexData := [⟨false, [0, 1]⟩, ⟨false, [0, 1]⟩, ⟨false, [0]⟩, ⟨false, [1]⟩]
    faceData := [⟨false⟩, ⟨false⟩]
    faceVisited := [0, 0]
    octree := ⟨Child.node 0 ⟨1 / 2, 1 / 2, 0⟩ 1 0 (fun _ => Child.none) {0, 1},
      [some 0, some 0], 1⟩ }

/-- The mesh `two` after `addFace (0, 1, 3)`: three live faces share the edge
between the vertices 0 and 1. -/
def fan : DynamicMesh :=
  { two with
    mesh := ⟨[⟨0, 0, 0⟩, ⟨1, 0, 0⟩, ⟨0, 1, 0⟩, ⟨0, 0, 1⟩],
      [⟨0, 0, 1⟩, ⟨0, 0, 1⟩, ⟨0, 0, 1⟩, ⟨0, 0, 1⟩], [0, 1, 2, 1, 0, 3, 0, 1, 3]⟩
    vertexData := [⟨false, [0, 1, 2]⟩, ⟨false, [0, 1, 2]⟩, ⟨false, [0]⟩, ⟨false, [1, 2]⟩]
    faceData := [⟨false⟩, ⟨false⟩, ⟨false⟩]
    faceVisited := [0, 0, 0]
    octree := ⟨Child.node 0 ⟨1 / 2, 1 / 2, 0⟩ 1 0 (fun _ => Child.none) {0, 1, 2},
      [some 0, some 0, some 0], 1⟩ }

/-- The mesh `tri4` after `addFace (0, 3, 0)`: the face 1 has the vertex 0
twice. -/
def degen : DynamicMesh :=
  { tri4 with
    mesh := ⟨[⟨0, 0, 0⟩, ⟨1, 0, 0⟩, ⟨0, 1, 0⟩, ⟨0, 0, 1⟩],
      [⟨0, 0, 1⟩, ⟨0, 0, 1⟩, ⟨0, 0, 1⟩, ⟨0, 0, 1⟩], [0, 1, 2, 0, 3, 0]⟩
    vertexData := [⟨false, [0, 1, 1]⟩, ⟨false, [0]⟩, ⟨false, [0]⟩, ⟨false, [1]⟩]
    faceData := [⟨false⟩, ⟨false⟩]
    faceVisited := [0, 0]
    octree := ⟨Child.node 0 ⟨1 / 2, 1 / 2, 0⟩ 1 0 (fun _ => Child.none) {0, 1},
      [some 0, some 0], 1⟩ }

end DynamicMesh

open Octree

namespace DynamicMesh

/-- The caller's function of a traversal, which does not touch the mesh: the
call is recorded at the end of the list of calls so far. -/
def callFn (j : Nat) (st : DynamicMesh × List Nat) : Option (DynamicMesh × List Nat) :=
  some (st.1, st.2 ++ [j])

/-- One `if (vertexVisited[j] == 0) { vertexVisited[j] = 1; f (j); }` of
`visitVertices`, with the callback `g` for `f`. The state is the mesh and the
list of calls of the caller's function so far. -/
def visitVertex (g : Nat → DynamicMesh × List Nat → Option (DynamicMesh × List Nat)) (j : Nat)
    (st : DynamicMesh × List Nat) : Option (DynamicMesh × List Nat) :=
  match st.1.vertexVisited[j]? with
  | none => none
  | some x =>
    if x = 0 then g j ({ st.1 with vertexVisited := st.1.vertexVisited.set j 1 }, st.2)
    else some st

/-- Models `DynamicMesh::Impl::visitVertices (i, f)`, with the callback `g` for
`f`. -/
def visitVertices (g : Nat → DynamicMesh × List Nat → Option (DynamicMesh × List Nat)) (i : Nat)
    (st : DynamicMesh × List Nat) : Option (DynamicMesh × List Nat) :=
  match st.1.vertexIndices i with
  | none => none
  | some (i1, i2, i3) =>
    match visitVertex g i1 st with
    | none => none
    | some st1 =>
      match visitVertex g i2 st1 with
      | none => none
      | some st2 =>
        match visitVertex g i3 st2 with
        | none => none
        | some st3 =>
          if i < st3.1.faceVisited.length then
            some ({ st3.1 with faceVisited := st3.1.faceVisited.set i 1 }, st3.2)
          else none

/-- Models `DynamicMesh::Impl::unvisitVertices`. -/
def unvisitVertices (s : DynamicMesh) : DynamicMesh :=
  { s with vertexVisited := List.replicate s.vertexVisited.length 0 }

/-- Models `DynamicMesh::Impl::unvisitFaces`. -/
def unvisitFaces (s : DynamicMesh) : DynamicMesh :=
  { s with faceVisited := List.replicate s.faceVisited.length 0 }

/-- The loop `for (unsigned int i : faces) visitVertices (i, g)`. -/
def visitLoop (g : Nat → DynamicMesh × List Nat → Option (DynamicMesh × List Nat)) :
    List Nat → DynamicMesh × List Nat → Option (DynamicMesh × List Nat)
  | [], st => some st
  | i :: rest, st =>
    match visitVertices g i st with
    | none => none
    | some st1 => visitLoop g rest st1

/-- Models `DynamicMesh::Impl::forEachVertex (faces, f)`: the mesh afterwards and
the list of the calls of `f`, in order. Modelled from the spec: `DynamicFaces`
(`dynamic/faces.hpp` is not among the sources), a collection of face ids that is
iterated in order, given as a list. -/
def forEachVertex (s : DynamicMesh) (faces : List Nat) : Option (DynamicMesh × List Nat) :=
  visitLoop callFn faces (unvisitVertices s, [])

/-- The loop over `vertexData[j].adjacentFaces` in the lambda of
`forEachVertexExt`: `if (faceVisited[a] == 0) visitVertices (a, f)`. -/
def extLoop : List Nat → DynamicMesh × List Nat → Option (DynamicMesh × List Nat)
  | [], st => some st
  | a :: rest, st =>
    match st.1.faceVisited[a]? with
    | none => none
    | some x =>
      if x = 0 then
        match visitVertices callFn a st with
        | none => none
        | some st1 => extLoop rest st1
      else extLoop rest st

/-- The lambda that `forEachVertexExt` passes to `visitVertices`: it calls `f (j)`
and then visits the vertices of the faces adjacent to `j` that are not visited
yet. -/
def extCallback (j : Nat) (st : DynamicMesh × List Nat) : Option (DynamicMesh × List Nat) :=
  match callFn j st with
  | none => none
  | some st1 =>
    match st1.1.vertexData[j]? with
    | none => none
    | some d => extLoop d.adjacentFaces st1

/-- Models `DynamicMesh::Impl::forEachVertexExt (faces, f)`: the mesh afterwards
and the list of the calls of `f`, in order. -/
def forEachVertexExt (s : DynamicMesh) (faces : List Nat) : Option (DynamicMesh × List Nat) :=
  visitLoop extCallback faces (unvisitFaces (unvisitVertices s), [])

/-- The statement `if (faceVisited[a] == 0) { f (a); faceVisited[a] = 1; }` of
`forEachFaceExt`. -/
def visitFace (a : Nat) (st : DynamicMesh × List Nat) : Option (DynamicMesh × List Nat) :=
  match st.1.faceVisited[a]? with
  | none => none
  | some x =>
    if x = 0 then
      match callFn a st with
      | none => none
      | some st1 => some ({ st1.1 with faceVisited := st1.1.faceVisited.set a 1 }, st1.2)
    else some st

/-- The loop over `vertexData[j].adjacentFaces` in the lambda of
`forEachFaceExt`. -/
def faceLoop : List Nat → DynamicMesh × List Nat → Option (DynamicMesh × List Nat)
  | [], st => some st
  | a :: rest, st =>
    match visitFace a st with
    | none => none
    | some st1 => faceLoop rest st1

/-- The lambda that `forEachFaceExt` passes to `visitVertices`. -/
def faceCallback (j : Nat) (st : DynamicMesh × List Nat) : Option (DynamicMesh × List Nat) :=
  match st.1.vertexData[j]? with
  | none => none
  | some d => faceLoop d.adjacentFaces st

/-- The loop of `forEachFaceExt` over the faces of the set. -/
def faceExtLoop : List Nat → DynamicMesh × List Nat → Option (DynamicMesh × List Nat)
  | [], st => some st
  | i :: rest, st =>
    match visitFace i st with
    | none => none
    | some st1 =>
      match visitVertices faceCallback i st1 with
      | none => none
      | some st2 => faceExtLoop rest st2

/-- Models `DynamicMesh::Impl::forEachFaceExt (faces, f)`: the mesh afterwards and
the list of the calls of `f`, in order. -/
def forEachFaceExt (s : DynamicMesh) (faces : List Nat) : Option (DynamicMesh × List Nat) :=
  faceExtLoop faces (unvisitFaces (unvisitVertices s), [])

/-- The mesh `t` differs from the mesh `s` in the values of the visited flags at
most. -/
def SameButVisited (s t : DynamicMesh) : Prop :=
  t.mesh = s.mesh ∧ t.vertexData = s.vertexData ∧
    t.freeVertexIndices = s.freeVertexIndices ∧ t.faceData = s.faceData ∧
    t.freeFaceIndices = s.freeFaceIndices ∧ t.octree = s.octree ∧
    t.vertexVisited.length = s.vertexVisited.length ∧
    t.faceVisited.length = s.faceVisited.length

/-- The state of `forEachFaceExt` between two statements, for the face flags:
only visited flags have changed since the start, no face was passed to `f`
twice, and the flag of a face is set exactly when it was passed to `f`. -/
def FaceExtInv (s : DynamicMesh) (st : DynamicMesh × List Nat) : Prop :=
  SameButVisited s st.1 ∧ st.2.Nodup ∧
    ∀ g, g < s.faceVisited.length → st.1.faceVisited[g]? = some (if g ∈ st.2 then 1 else 0)

/-- The state of `forEachFaceExt` between two visits, for the vertex flags: every
face adjacent to a vertex whose flag is set was passed to `f`. -/
def VertexDone (s : DynamicMesh) (st : DynamicMesh × List Nat) : Prop :=
  ∀ v, v < s.vertexVisited.length →
    ∃ x, st.1.vertexVisited[v]? = some x ∧ (x ≠ 0 → ∀ g ∈ s.adjacent v, g ∈ st.2)

/-- The mesh `tri4` after `addFace (1, 3, 2)`: the face 1 is adjacent to the
vertices 1 and 2 of the face 0, not to its vertex 0. -/
def wing : DynamicMesh :=
  { tri4 with
    mesh := ⟨[⟨0, 0, 0⟩, ⟨1, 0, 0⟩, ⟨0, 1, 0⟩, ⟨0, 0, 1⟩],
      [⟨0, 0, 1⟩, ⟨0, 0, 1⟩, ⟨0, 0, 1⟩, ⟨0, 0, 1⟩], [0, 1, 2, 1, 3, 2]⟩
    vertexData := [⟨false, [0]⟩, ⟨false, [0, 1]⟩, ⟨false, [0, 1]⟩, ⟨false, [1]⟩]
    faceData := [⟨false⟩, ⟨false⟩]
    faceVisited := [0, 0]
    octree := ⟨Child.node 0 ⟨1 / 2, 1 / 2, 0⟩ 1 0 (fun _ => Child.none) {0, 1},
      [some 0, some 0], 1⟩ }

end DynamicMesh

namespace MeshUtil

/-- Models `EdgeMap::findInSequence`: the value of the first pair with the key
`i` (`none` for `nullptr`). -/
def findInSequence : List (Nat × Nat) → Nat → Option Nat
  | [], _ => none
  | p :: rest, i => if p.1 = i then some p.2 else findInSequence rest i

/-- The statement `(*value)++` of `EdgeMap::increase`, through the pointer that
`findInSequence` returned: the value of the first pair with the key `i` goes up
by one (`unsigned int`). -/
def incInSequence : List (Nat × Nat) → Nat → List (Nat × Nat)
  | [], _ => []
  | p :: rest, i =>
    if p.1 = i then (p.1, (p.2 + 1) % 2 ^ 32) :: rest else p :: incInSequence rest i

/-- Models `EdgeMap::increase`, on the field `elements`. -/
def increase (elements : List (List (Nat × Nat))) (i1 i2 : Nat) :
    Option (List (List (Nat × Nat))) :=
  match elements[min i1 i2]? with
  | none => none
  | some sequence =>
    match findInSequence sequence (max i1 i2) with
    | some _ => some (elements.set (min i1 i2) (incInSequence sequence (max i1 i2)))
    | none => some (elements.set (min i1 i2) (sequence ++ [(max i1 i2, 1)]))

/-- The statement `numVertexAdjacentFaces[i]++` of `checkConsistency`. -/
def incAt (counts : List Nat) (i : Nat) : Option (List Nat) :=
  match counts[i]? with
  | none => none
  | some c => some (counts.set i ((c + 1) % 2 ^ 32))

/-- The first loop of `MeshUtil::checkConsistency`, over the indices of the mesh,
three at a time: the vector `numVertexAdjacentFaces` and the elements of the
edge map `numEdgeAdjacentFaces` afterwards. -/
def countFaces : List Nat → List Nat → List (List (Nat × Nat)) →
    Option (List Nat × List (List (Nat × Nat)))
  | i1 :: i2 :: i3 :: rest, counts, elements =>
    match incAt counts i1 with
    | none => none
    | some c1 =>
      match incAt c1 i2 with
      | none => none
      | some c2 =>
        match incAt c2 i3 with
        | none => none
        | some c3 =>
          match increase elements i1 i2 with
          | none => none
          | some e1 =>
            match increase e1 i1 i3 with
            | none => none
            | some e2 =>
              match increase e2 i2 i3 with
              | none => none
              | some e3 => countFaces rest c3 e3
  | [], counts, elements => some (counts, elements)
  | _, _, _ => none

/-- Models `MeshUtil::checkConsistency`. -/
def checkConsistency (mesh : Mesh) : Option Bool :=
  if mesh.numVertices = 0 then some false
  else
    match countFaces mesh.indices (Util.resize [] mesh.numVertices 0)
        (Util.resize [] (mesh.numVertices - 1) []) with
    | none => none
    | some (counts, elements) =>
      if counts.any (fun c => decide (c < 3)) then some false
      else if elements.any (fun sequence => sequence.any (fun p => decide (p.2 ≠ 2))) then
        some false
      else some true

/-- The triangles of an index list, three indices at a time. -/
def triangles : List Nat → List (Nat × Nat × Nat)
  | i1 :: i2 :: i3 :: rest => (i1, i2, i3) :: triangles rest
  | _ => []

/-- The vertex `v` is a corner of the triangle `t`. -/
def isCorner (v : Nat) (t : Nat × Nat × Nat) : Bool :=
  decide (t.1 = v) || decide (t.2.1 = v) || decide (t.2.2 = v)

/-- The unordered pair of `a` and `b` is an edge of the triangle `t`. -/
def hasEdge (a b : Nat) (t : Nat × Nat × Nat) : Bool :=
  decide ((t.1 = a ∧ t.2.1 = b) ∨ (t.1 = b ∧ t.2.1 = a)) ||
    decide ((t.1 = a ∧ t.2.2 = b) ∨ (t.1 = b ∧ t.2.2 = a)) ||
    decide ((t.2.1 = a ∧ t.2.2 = b) ∨ (t.2.1 = b ∧ t.2.2 = a))

/-- The vector `numVertexAdjacentFaces` over `n` vertices holds the counts
`C`. -/
def VertexCounts (n : Nat) (counts : List Nat) (C : Nat → Nat) : Prop :=
  counts.length = n ∧ ∀ v, v < n → counts[v]? = some (C v)

/-- The edge map over `n` vertices holds the counts `F`: the sequence of the
smaller vertex `a` has no key twice, and it has the key `b` exactly when
`F a b` is not zero, with the value `F a b`. -/
def EdgeCounts (n : Nat) (elements : List (List (Nat × Nat))) (F : Nat → Nat → Nat) : Prop :=
  elements.length = n - 1 ∧ ∀ a sequence, elements[a]? = some sequence →
    (sequence.map Prod.fst).Nodup ∧
      ∀ b, findInSequence sequence b = if 0 < F a b then some (F a b) else none

/-- A tetrahedron: four vertices and four triangles. -/
def tetra : Mesh :=
  ⟨[⟨0, 0, 0⟩, ⟨1, 0, 0⟩, ⟨0, 1, 0⟩, ⟨0, 0, 1⟩], [⟨0, 0, 1⟩, ⟨0, 0, 1⟩, ⟨0, 0, 1⟩, ⟨0, 0, 1⟩],
    [0, 2, 1, 0, 1, 3, 1, 2, 3, 0, 3, 2]⟩

end MeshUtil

/-- The class `PrimAABox` as built by the constructor
`PrimAABox (center, xWidth, yWidth, zWidth)`. -/
structure PrimAABox where
  center : Vec3
  xWidth : ℚ
  yWidth : ℚ
  zWidth : ℚ
deriving DecidableEq

namespace Octree

/-- The field `looseAABox` of a node: `PrimAABox (c, 2.0f * w, 2.0f * w, 2.0f * w)`. -/
def looseAABox : Child → PrimAABox
  | Child.none => ⟨⟨0, 0, 0⟩, 0, 0, 0⟩
  | Child.node _ c w _ _ _ => ⟨c, 2 * w, 2 * w, 2 * w⟩

/-- Models `IndexOctreeNode::intersectsT`: the arguments of the calls of the
callback, as a multiset (the order in which the indices of one node are
iterated, an `unordered_set`, is not specified). `intersects` stands for
`IntersectionUtil::intersects (t, ·)`. -/
def nodeIntersectsT (intersects : PrimAABox → Bool) : Child → Multiset Nat
  | Child.none => 0
  | Child.node a c w d ch idx =>
    if intersects (looseAABox (Child.node a c w d ch idx)) then
      idx.val + ((List.finRange 8).map (fun k => nodeIntersectsT intersects (ch k))).sum
    else 0

/-- Models `IndexOctreeNode::containsOrIntersectsT`: the arguments of the calls
of the callback, as a multiset. `contains` stands for `t.contains (·)` and
`intersects` for `IntersectionUtil::intersects (t, ·)`. -/
def nodeContainsOrIntersectsT (contains intersects : PrimAABox → Bool) :
    Child → Multiset (Bool × Nat)
  | Child.none => 0
  | Child.node a c w d ch idx =>
    if contains (looseAABox (Child.node a c w d ch idx)) ||
        intersects (looseAABox (Child.node a c w d ch idx)) then
      idx.val.map (fun index => (contains (looseAABox (Child.node a c w d ch idx)), index)) +
        ((List.finRange 8).map
          (fun k => nodeContainsOrIntersectsT contains intersects (ch k))).sum
    else 0

/-- The body of the loop over the indices in `IndexOctreeNode::distance`: the
radius of the sphere after the index `i`. -/
def nearer (getDistance : Nat → ℚ) (radius : ℚ) (i : Nat) : ℚ :=
  if getDistance i < radius then getDistance i else radius

/-- Models `IndexOctreeNode::distance`: the radius of the sphere afterwards.
`intersects center radius` stands for `IntersectionUtil::intersects (sphere, ·)`
on the sphere with that centre and radius. The indices of a node are visited
in ascending order (the source does not specify the order). -/
def nodeDistance (intersects : Vec3 → ℚ → PrimAABox → Bool) (getDistance : Nat → ℚ)
    (center : Vec3) : Child → ℚ → ℚ
  | Child.none, radius => radius
  | Child.node _ c _ _ ch idx, radius =>
    let r1 := (idx.sort (· ≤ ·)).foldl (nearer getDistance) radius
    let first := childIndex c center
    let r2 :=
      if (ch first).isSome && intersects center r1 (looseAABox (ch first)) then
        nodeDistance intersects getDistance center (ch first) r1
      else r1
    (List.finRange 8).foldl (fun r i =>
      if (decide (i ≠ first) && (ch i).isSome) && intersects center r (looseAABox (ch i)) then
        nodeDistance intersects getDistance center (ch i) r
      else r) r2

/-- The tree `t` has a node at address `a`, and `test` accepts the loose box of
that node and of every ancestor of it in `t`. -/
def PathAccepted (test : PrimAABox → Bool) (a : Nat) (t : Child) : Prop :=
  ∃ l, ancestors a t = some l ∧ (∀ n ∈ l, test (looseAABox n) = true) ∧
    test (looseAABox (find a t)) = true

/-- The sphere test rejects a subtree of the tree `t` only when every element
stored in that subtree has a distance of at least the radius of the sphere. -/
def RejectsOnlyFar (intersects : Vec3 → ℚ → PrimAABox → Bool) (getDistance : Nat → ℚ)
    (center : Vec3) (t : Child) : Prop :=
  ∀ b, hasAddr b t = true → ∀ radius, intersects center radius (looseAABox (find b t)) = false →
    ∀ id a, holdsAt id a (find b t) = true → radius ≤ getDistance id

end Octree

namespace Util

/-- Models `Util::maxFloat ()`: `std::numeric_limits<float>::max ()`. -/
def maxFloat : ℚ := 340282346638528859811704183484516925440

end Util

namespace DynamicOctree

open Octree

/-- Models `DynamicOctree::Impl::intersects (const PrimPlane&, f)`: the
arguments of the calls of `f`. -/
def intersectsT (intersects : PrimAABox → Bool) (o : DynamicOctree) : Multiset Nat :=
  if o.hasRoot then nodeIntersectsT intersects o.root else 0

/-- Models `DynamicOctree::Impl::intersects (const PrimSphere&, f)` and
`DynamicOctree::Impl::intersects (const PrimAABox&, f)`: the arguments of the
calls of `f`. -/
def containsOrIntersectsT (contains intersects : PrimAABox → Bool) (o : DynamicOctree) :
    Multiset (Bool × Nat) :=
  if o.hasRoot then nodeContainsOrIntersectsT contains intersects o.root else 0

/-- The octree `single` after `deleteElement (0)`: no element is registered and
the root is gone. -/
def emptied : DynamicOctree := ⟨Child.none, [none], 1⟩

/-- Models `DynamicOctree::Impl::distance`. -/
def distance (intersects : Vec3 → ℚ → PrimAABox → Bool) (o : DynamicOctree) (p : Vec3)
    (getDistance : Nat → ℚ) : Option ℚ :=
  if o.hasRoot then some (nodeDistance intersects getDistance p o.root Util.maxFloat) else none

end DynamicOctree

namespace DynamicMesh

/-- A source mesh with one triangle and a fourth vertex that is a corner of no
triangle. -/
def isoMesh : Mesh :=
  ⟨[⟨0, 0, 0⟩, ⟨1, 0, 0⟩, ⟨0, 1, 0⟩, ⟨1, 1, 0⟩],
    [⟨0, 0, 1⟩, ⟨0, 0, 1⟩, ⟨0, 0, 1⟩, ⟨0, 0, 1⟩], [0, 1, 2]⟩

/-- A source mesh with two triangles, the first of which has its three corners
at the vertex 0. -/
def pointMesh : Mesh :=
  ⟨[⟨0, 0, 0⟩, ⟨1, 0, 0⟩, ⟨0, 1, 0⟩], [⟨0, 0, 1⟩, ⟨0, 0, 1⟩, ⟨0, 0, 1⟩], [0, 0, 0, 0, 1, 2]⟩

end DynamicMesh

namespace DynamicMesh

/-- The mesh `frag` after `addFace (0, 1, 3)`: the face 1 is live and has the
free vertex slot 3 as a corner. -/
def stale : DynamicMesh :=
  { frag with
    mesh := ⟨[⟨0, 0, 0⟩, ⟨1, 0, 0⟩, ⟨0, 1, 0⟩, ⟨0, 0, 1⟩],
      [⟨0, 0, 1⟩, ⟨0, 0, 1⟩, ⟨0, 0, 1⟩, ⟨0, 0, 1⟩], [0, 1, 2, 0, 1, 3]⟩
    vertexData := [⟨false, [0, 1]⟩, ⟨false, [0, 1]⟩, ⟨false, [0]⟩, ⟨true, [1]⟩]
    faceData := [⟨false⟩, ⟨false⟩]
    faceVisited := [0, 0]
    octree := ⟨Child.node 0 ⟨1 / 2, 1 / 2, 0⟩ 1 0 (fun _ => Child.none) {0, 1},
      [some 0, some 0], 1⟩ }

end DynamicMesh

namespace DynamicMesh

/-- The loop of `forEachVertexAdjacentToVertex (i, f)` over the adjacent faces:
the arguments `f` is called with, in order; `none` when `vertexIndices` fails its
assertion or the branch `DILAY_IMPOSSIBLE` is reached. -/
def adjacentLoop (s : DynamicMesh) (i : Nat) : List Nat → Option (List Nat)
  | [] => some []
  | a :: rest =>
    match s.vertexIndices a with
    | none => none
    | some (a1, a2, a3) =>
      if i = a1 then (adjacentLoop s i rest).map (fun r => a2 :: r)
      else if i = a2 then (adjacentLoop s i rest).map (fun r => a3 :: r)
      else if i = a3 then (adjacentLoop s i rest).map (fun r => a1 :: r)
      else none

/-- Models `DynamicMesh::Impl::forEachVertexAdjacentToVertex`, a `const` member
function: the arguments `f` is called with, in order. -/
def forEachVertexAdjacentToVertex (s : DynamicMesh) (i : Nat) : Option (List Nat) :=
  if s.isFreeVertex i = some false then
    match s.vertexData[i]? with
    | some d => adjacentLoop s i d.adjacentFaces
    | none => none
  else none

end DynamicMesh

namespace Mesh

/-- Modelled from the spec: `Mesh::addVertex (v)`, append a vertex without a
normal of its own (the zero vector); returns the index of the new vertex. -/
def addVertexOnly (m : Mesh) (v : Vec3) : Mesh × Nat := m.addVertex v ⟨0, 0, 0⟩

end Mesh

namespace MeshUtil

/-- Models `MeshUtil::addFace (mesh, i1, i2, i3)`. -/
def addFace (mesh : Mesh) (i1 i2 i3 : Nat) : Mesh :=
  ((mesh.addIndex i1).addIndex i2).addIndex i3

/-- A sequence of calls of `MeshUtil::addFace`, in order. -/
def addFaceList (mesh : Mesh) : List (Nat × Nat × Nat) → Mesh
  | [] => mesh
  | t :: rest => addFaceList (addFace mesh t.1 t.2.1 t.2.2) rest

/-- Models `EdgeMap::find`, on the field `elements` (`none` for `nullptr`). -/
def find (elements : List (List (Nat × Nat))) (i1 i2 : Nat) : Option Nat :=
  match elements[min i1 i2]? with
  | some sequence => findInSequence sequence (max i1 i2)
  | none => none

/-- Models `EdgeMap::add`, on the field `elements`. -/
def add (elements : List (List (Nat × Nat))) (i1 i2 element : Nat) :
    Option (List (List (Nat × Nat))) :=
  match elements[min i1 i2]? with
  | none => none
  | some sequence =>
    match findInSequence sequence (max i1 i2) with
    | some _ => none
    | none => some (elements.set (min i1 i2) (sequence ++ [(max i1 i2, element)]))

/-- The enum `Side` of `MeshUtil::mirror`. -/
inductive Side where
  | Negative
  | Border
  | Positive
deriving DecidableEq

/-- The enum `BorderFlag` of `MeshUtil::mirror`. -/
inductive BorderFlag where
  | NoBorder
  | ConnectsNegative
  | ConnectsPositive
  | ConnectsBoth
deriving DecidableEq

/-- The lambda `side` of `MeshUtil::mirror`; `distance` stands for
`plane.distance`. -/
def side (distance : Vec3 → ℚ) (v : Vec3) : Side :=
  if distance v < -(Octree.epsilon * (1 / 2)) then Side.Negative
  else if distance v > Octree.epsilon * (1 / 2) then Side.Positive
  else Side.Border

/-- The lambda `updateBorderFlag` of `MeshUtil::mirror`, on the vector
`borderFlags`. -/
def updateBorderFlag (borderFlags : List BorderFlag) (i : Nat) (s : Side) :
    Option (List BorderFlag) :=
  match borderFlags[i]? with
  | none => none
  | some current =>
    match s with
    | Side.Border => some borderFlags
    | Side.Negative =>
      if current = BorderFlag.NoBorder then
        some (borderFlags.set i BorderFlag.ConnectsNegative)
      else if current = BorderFlag.ConnectsPositive then
        some (borderFlags.set i BorderFlag.ConnectsBoth)
      else some borderFlags
    | Side.Positive =>
      if current = BorderFlag.NoBorder then
        some (borderFlags.set i BorderFlag.ConnectsPositive)
      else if current = BorderFlag.ConnectsNegative then
        some (borderFlags.set i BorderFlag.ConnectsBoth)
      else some borderFlags

/-- The loop `update border flags` of `MeshUtil::mirror`, over the indices of the
mesh, three at a time. -/
def updateBorderFlags (sides : List Side) : List Nat → List BorderFlag →
    Option (List BorderFlag)
  | i1 :: i2 :: i3 :: rest, flags =>
    match sides[i1]?, sides[i2]?, sides[i3]? with
    | some s1, some s2, some s3 =>
      if s1 ≠ Side.Border ∨ s2 ≠ Side.Border ∨ s3 ≠ Side.Border then
        (updateBorderFlag flags i1 s2).bind fun f1 =>
        (updateBorderFlag f1 i1 s3).bind fun f2 =>
        (updateBorderFlag f2 i2 s1).bind fun f3 =>
        (updateBorderFlag f3 i2 s3).bind fun f4 =>
        (updateBorderFlag f4 i3 s1).bind fun f5 =>
        (updateBorderFlag f5 i3 s2).bind fun f6 => updateBorderFlags sides rest f6
      else none
    | _, _, _ => none
  | [], flags => some flags
  | _, _ => none

/-- The body of the loop `mirror vertices` of `MeshUtil::mirror` for the vertex
`i`: the new mesh `m` and the vector `newIndices` afterwards. `mirrorPoint`
stands for `plane.mirror`. -/
def mirrorVertex (mirrorPoint : Vec3 → Vec3) (mesh : Mesh) (sides : List Side)
    (borderFlags : List BorderFlag) (st : Mesh × List (Nat × Nat)) (i : Nat) :
    Option (Mesh × List (Nat × Nat)) :=
  match sides[i]? with
  | none => none
  | some Side.Negative => some st
  | some Side.Border =>
    match borderFlags[i]? with
    | none => none
    | some BorderFlag.NoBorder => none
    | some BorderFlag.ConnectsNegative => some st
    | some BorderFlag.ConnectsPositive =>
      match mesh.vertex i with
      | none => none
      | some v =>
        if i < st.2.length then
          some (((st.1.addVertexOnly v).1.addVertexOnly v).1,
            st.2.set i ((st.1.addVertexOnly v).2, ((st.1.addVertexOnly v).1.addVertexOnly v).2))
        else none
    | some BorderFlag.ConnectsBoth =>
      match mesh.vertex i with
      | none => none
      | some v =>
        if i < st.2.length then
          some ((st.1.addVertexOnly v).1,
            st.2.set i ((st.1.addVertexOnly v).2, (st.1.addVertexOnly v).2))
        else none
  | some Side.Positive =>
    match mesh.vertex i with
    | none => none
    | some v =>
      if i < st.2.length then
        some (((st.1.addVertexOnly v).1.addVertexOnly (mirrorPoint v)).1,
          st.2.set i ((st.1.addVertexOnly v).2,
            ((st.1.addVertexOnly v).1.addVertexOnly (mirrorPoint v)).2))
      else none

/-- The loop `mirror vertices` of `MeshUtil::mirror` over the vertices `is`. -/
def mirrorVertices (mirrorPoint : Vec3 → Vec3) (mesh : Mesh) (sides : List Side)
    (borderFlags : List BorderFlag) : List Nat → Mesh × List (Nat × Nat) →
    Option (Mesh × List (Nat × Nat))
  | [], st => some st
  | i :: rest, st =>
    match mirrorVertex mirrorPoint mesh sides borderFlags st i with
    | none => none
    | some st1 => mirrorVertices mirrorPoint mesh sides borderFlags rest st1

/-- The lambda `newBorderVertex` of `MeshUtil::mirror`: the new mesh `m` and the
elements of the edge map `newBorderVertices` afterwards, and the index returned.
`intersects v d` stands for the point `ray.pointAt (t)` of the ray from `v` in
the direction `d` when `IntersectionUtil::intersects (ray, plane, &t)` holds. -/
def newBorderVertex (intersects : Vec3 → Vec3 → Option Vec3) (mesh : Mesh)
    (st : Mesh × List (List (Nat × Nat))) (i1 i2 : Nat) :
    Option ((Mesh × List (List (Nat × Nat))) × Nat) :=
  match find st.2 i1 i2 with
  | some existentIndex => some (st, existentIndex)
  | none =>
    match mesh.vertex i1, mesh.vertex i2 with
    | some v1, some v2 =>
      let position : Vec3 :=
        match intersects v1 ⟨v2.x - v1.x, v2.y - v1.y, v2.z - v1.z⟩ with
        | some p => p
        | none => ⟨(v1.x + v2.x) * (1 / 2), (v1.y + v2.y) * (1 / 2), (v1.z + v2.z) * (1 / 2)⟩
      (add st.2 i1 i2 (st.1.addVertexOnly position).2).map
        (fun e => (((st.1.addVertexOnly position).1, e), (st.1.addVertexOnly position).2))
    | _, _ => none

/-- The branches of `MeshUtil::mirror` with two new border vertices:
`newBorderVertex (a1, a2)` for `b1`, then `newBorderVertex (c1, c2)` for `b2`,
then the calls of `addFace` given by `faces b1 b2`. -/
def withTwoBorderVertices (intersects : Vec3 → Vec3 → Option Vec3) (mesh : Mesh)
    (st : Mesh × List (List (Nat × Nat))) (a1 a2 c1 c2 : Nat)
    (faces : Nat → Nat → List (Nat × Nat × Nat)) : Option (Mesh × List (List (Nat × Nat))) :=
  (newBorderVertex intersects mesh st a1 a2).bind fun r1 =>
  (newBorderVertex intersects mesh r1.1 c1 c2).bind fun r2 =>
    some (addFaceList r2.1.1 (faces r1.2 r2.2), r2.1.2)

/-- The branches of `MeshUtil::mirror` with one new border vertex: the assertion
that the border vertex `k` has the flag `ConnectsBoth`, then
`newBorderVertex (a1, a2)` for `b`, then the calls of `addFace` given by
`faces b`. -/
def withOneBorderVertex (intersects : Vec3 → Vec3 → Option Vec3) (mesh : Mesh)
    (borderFlags : List BorderFlag) (st : Mesh × List (List (Nat × Nat))) (k a1 a2 : Nat)
    (faces : Nat → List (Nat × Nat × Nat)) : Option (Mesh × List (List (Nat × Nat))) :=
  if borderFlags[k]? = some BorderFlag.ConnectsBoth then
    (newBorderVertex intersects mesh st a1 a2).bind fun r =>
      some (addFaceList r.1.1 (faces r.2), r.1.2)
  else none

/-- The body of the loop `mirror faces` of `MeshUtil::mirror` for the face with
the indices `(oldIndex1, oldIndex2, oldIndex3)`. -/
def mirrorFace (intersects : Vec3 → Vec3 → Option Vec3) (mesh : Mesh) (sides : List Side)
    (borderFlags : List BorderFlag) (newIndices : List (Nat × Nat))
    (st : Mesh × List (List (Nat × Nat))) (oldIndex1 oldIndex2 oldIndex3 : Nat) :
    Option (Mesh × List (List (Nat × Nat))) :=
  match sides[oldIndex1]?, sides[oldIndex2]?, sides[oldIndex3]? with
  | some s1, some s2, some s3 =>
    if s1 = Side.Positive ∨ s2 = Side.Positive ∨ s3 = Side.Positive then
      match newIndices[oldIndex1]?, newIndices[oldIndex2]?, newIndices[oldIndex3]? with
      | some new1, some new2, some new3 =>
        if s1 ≠ Side.Negative ∧ s2 ≠ Side.Negative ∧ s3 ≠ Side.Negative then
          some (addFaceList st.1 [(new1.1, new2.1, new3.1), (new3.2, new2.2, new1.2)], st.2)
        else if s1 = Side.Positive ∧ s2 = Side.Positive ∧ s3 = Side.Negative then
          withTwoBorderVertices intersects mesh st oldIndex1 oldIndex3 oldIndex2 oldIndex3
            (fun b1 b2 => [(new2.1, b2, new1.1), (new1.2, b2, new2.2), (new1.1, b2, b1),
              (b1, b2, new1.2)])
        else if s1 = Side.Positive ∧ s2 = Side.Negative ∧ s3 = Side.Positive then
          withTwoBorderVertices intersects mesh st oldIndex1 oldIndex2 oldIndex2 oldIndex3
            (fun b1 b2 => [(new1.1, b1, new3.1), (new3.2, b1, new1.2), (new3.1, b1, b2),
              (b2, b1, new3.2)])
        else if s1 = Side.Negative ∧ s2 = Side.Positive ∧ s3 = Side.Positive then
          withTwoBorderVertices intersects mesh st oldIndex1 oldIndex2 oldIndex1 oldIndex3
            (fun b1 b2 => [(new3.1, b2, new2.1), (new2.2, b2, new3.2), (new2.1, b2, b1),
              (b1, b2, new2.2)])
        else if s1 = Side.Positive ∧ s2 = Side.Negative ∧ s3 = Side.Negative then
          withTwoBorderVertices intersects mesh st oldIndex1 oldIndex2 oldIndex1 oldIndex3
            (fun b1 b2 => [(new1.1, b1, b2), (b2, b1, new1.2)])
        else if s1 = Side.Negative ∧ s2 = Side.Positive ∧ s3 = Side.Negative then
          withTwoBorderVertices intersects mesh st oldIndex1 oldIndex2 oldIndex2 oldIndex3
            (fun b1 b2 => [(new2.1, b2, b1), (b1, b2, new2.2)])
        else if s1 = Side.Negative ∧ s2 = Side.Negative ∧ s3 = Side.Positive then
          withTwoBorderVertices intersects mesh st oldIndex1 oldIndex3 oldIndex2 oldIndex3
            (fun b1 b2 => [(new3.1, b1, b2), (b2, b1, new3.2)])
        else if s1 = Side.Positive ∧ s2 = Side.Border ∧ s3 = Side.Negative then
          withOneBorderVertex intersects mesh borderFlags st oldIndex2 oldIndex1 oldIndex3
            (fun b => [(new1.1, new2.1, b), (b, new2.2, new1.2)])
        else if s1 = Side.Border ∧ s2 = Side.Positive ∧ s3 = Side.Negative then
          withOneBorderVertex intersects mesh borderFlags st oldIndex1 oldIndex2 oldIndex3
            (fun b => [(new1.1, new2.1, b), (b, new2.2, new1.2)])
        else if s1 = Side.Positive ∧ s2 = Side.Negative ∧ s3 = Side.Border then
          withOneBorderVertex intersects mesh borderFlags st oldIndex3 oldIndex1 oldIndex2
            (fun b => [(new1.1, b, new3.1), (new3.2, b, new1.2)])
        else if s1 = Side.Border ∧ s2 = Side.Negative ∧ s3 = Side.Positive then
          withOneBorderVertex intersects mesh borderFlags st oldIndex1 oldIndex2 oldIndex3
            (fun b => [(new1.1, b, new3.1), (new3.2, b, new1.2)])
        else if s1 = Side.Negative ∧ s2 = Side.Positive ∧ s3 = Side.Border then
          withOneBorderVertex intersects mesh borderFlags st oldIndex3 oldIndex1 oldIndex2
            (fun b => [(new2.1, new3.1, b), (b, new3.2, new2.2)])
        else if s1 = Side.Negative ∧ s2 = Side.Border ∧ s3 = Side.Positive then
          withOneBorderVertex intersects mesh borderFlags st oldIndex2 oldIndex1 oldIndex3
            (fun b => [(new2.1, new3.1, b), (b, new3.2, new2.2)])
        else none
      | _, _, _ => none
    else some st
  | _, _, _ => none

/-- The loop `mirror faces` of `MeshUtil::mirror`, over the indices of the mesh,
three at a time. -/
def mirrorFaces (intersects : Vec3 → Vec3 → Option Vec3) (mesh : Mesh) (sides : List Side)
    (borderFlags : List BorderFlag) (newIndices : List (Nat × Nat)) :
    List Nat → Mesh × List (List (Nat × Nat)) → Option (Mesh × List (List (Nat × Nat)))
  | i1 :: i2 :: i3 :: rest, st =>
    match mirrorFace intersects mesh sides borderFlags newIndices st i1 i2 i3 with
    | none => none
    | some st1 => mirrorFaces intersects mesh sides borderFlags newIndices rest st1
  | [], st => some st
  | _, _ => none

/-- Models `MeshUtil::mirror`. `distance` and `mirrorPoint` stand for
`plane.distance` and `plane.mirror`, `intersects` for the intersection of a ray
with the plane; `copyNonGeometry` copies no vertex, normal or index. -/
def mirror (distance : Vec3 → ℚ) (mirrorPoint : Vec3 → Vec3)
    (intersects : Vec3 → Vec3 → Option Vec3) (mesh : Mesh) : Option Mesh :=
  match checkConsistency mesh with
  | some true =>
    match updateBorderFlags (mesh.vertices.map (side distance)) mesh.indices
        (List.replicate mesh.numVertices BorderFlag.NoBorder) with
    | none => none
    | some borderFlags =>
      match mirrorVertices mirrorPoint mesh (mesh.vertices.map (side distance)) borderFlags
          (List.range mesh.numVertices)
          (⟨[], [], []⟩, List.replicate mesh.numVertices (Util.invalidIndex, Util.invalidIndex))
          with
      | none => none
      | some (m1, newIndices) =>
        match mirrorFaces intersects mesh (mesh.vertices.map (side distance)) borderFlags
            newIndices mesh.indices (m1, Util.resize [] (mesh.numVertices - 1) []) with
        | none => none
        | some (m2, _) =>
          match checkConsistency m2 with
          | none => none
          | some true => some m2
          | some false => some m2.reset
  | _ => none

end MeshUtil

namespace DynamicMesh

/-- Models `DynamicMesh::Impl::pruneAndCheckConsistency`: the mesh afterwards and
the value returned (`bufferData` changes nothing of the state modelled here). -/
def pruneAndCheckConsistency (s : DynamicMesh) : Option (DynamicMesh × Bool) :=
  match prune s none none with
  | none => none
  | some (s1, _, _) =>
    match MeshUtil.checkConsistency s1.mesh with
    | none => none
    | some true =>
      some (s1, !(s1.vertexData.any (fun d => !d.isFree && d.adjacentFaces.isEmpty)))
    | some false => some (s1, false)

/-- The callback of `intersectsT` over the ids `ids` that the octree reports:
the faces inserted into `faces`. `triTest` stands for
`IntersectionUtil::intersects (t, ·)` on a triangle. -/
def collectFaces (triTest : Vec3 × Vec3 × Vec3 → Bool) (s : DynamicMesh) :
    List Nat → Option (List Nat)
  | [] => some []
  | i :: rest =>
    match s.face i with
    | none => none
    | some t => (collectFaces triTest s rest).map (fun r => if triTest t then i :: r else r)

/-- Models `DynamicMesh::Impl::intersects (const PrimPlane&, DynamicFaces&)`: the
faces collected, in ascending order (the source does not specify the order).
`boxTest` stands for `IntersectionUtil::intersects (plane, ·)` on a box. -/
def intersectsPlane (boxTest : PrimAABox → Bool) (triTest : Vec3 × Vec3 × Vec3 → Bool)
    (s : DynamicMesh) : Option (List Nat) :=
  collectFaces triTest s ((DynamicOctree.intersectsT boxTest s.octree).sort (· ≤ ·))

/-- The lambda `inBorder` of `mirror`; `distance` stands for `plane.distance`. -/
def inBorder (distance : Vec3 → ℚ) (s : DynamicMesh) (f : Nat) : Option Bool :=
  match s.vertexIndices f with
  | none => none
  | some (i1, i2, i3) =>
    match s.mesh.vertex i1, s.mesh.vertex i2, s.mesh.vertex i3 with
    | some v1, some v2, some v3 =>
      some (decide (|distance v1| ≤ epsilon) && decide (|distance v2| ≤ epsilon) &&
        decide (|distance v3| ≤ epsilon))
    | _, _, _ => none

/-- Modelled from the spec: `faces.filter (inBorder)`, which keeps the faces for
which `inBorder` holds. -/
def filterInBorder (distance : Vec3 → ℚ) (s : DynamicMesh) : List Nat → Option (List Nat)
  | [] => some []
  | f :: rest =>
    match inBorder distance s f with
    | none => none
    | some b => (filterInBorder distance s rest).map (fun r => if b then f :: r else r)

/-- The `do ... while` loop of `mirror`. `deleteFacesAction` stands for
`ToolSculptAction::deleteFaces`; the first argument bounds the number of
rounds. -/
def mirrorLoop (distance : Vec3 → ℚ) (boxTest : PrimAABox → Bool)
    (triTest : Vec3 × Vec3 × Vec3 → Bool)
    (deleteFacesAction : DynamicMesh → List Nat → Option (DynamicMesh × Bool)) :
    Nat → DynamicMesh → Option DynamicMesh
  | 0, _ => none
  | fuel + 1, s =>
    match intersectsPlane boxTest triTest s with
    | none => none
    | some faces =>
      if faces.isEmpty then some s
      else
        match filterInBorder distance s faces with
        | none => none
        | some border =>
          if border.isEmpty then some s
          else
            match deleteFacesAction s border with
            | none => none
            | some (s1, true) => mirrorLoop distance boxTest triTest deleteFacesAction fuel s1
            | some (s1, false) => some s1

/-- Models `DynamicMesh::Impl::mirror`: the mesh afterwards and the value
returned. `distance`, `mirrorPoint`, `intersects`, `boxTest` and `triTest` stand
for the operations of the plane, `deleteFacesAction` for
`ToolSculptAction::deleteFaces`; `fuel` bounds the rounds of the loop and is
handed to `fromMesh`. -/
def mirror (normalize : Vec3 → Vec3) (isNaN : Vec3 → Bool) (distance : Vec3 → ℚ)
    (mirrorPoint : Vec3 → Vec3) (intersects : Vec3 → Vec3 → Option Vec3)
    (boxTest : PrimAABox → Bool) (triTest : Vec3 × Vec3 × Vec3 → Bool)
    (deleteFacesAction : DynamicMesh → List Nat → Option (DynamicMesh × Bool))
    (fuel : Nat) (s : DynamicMesh) : Option (DynamicMesh × Bool) :=
  match pruneAndCheckConsistency s with
  | some (s1, true) =>
    match mirrorLoop distance boxTest triTest deleteFacesAction fuel s1 with
    | none => none
    | some s2 =>
      match pruneAndCheckConsistency s2 with
      | some (s3, true) =>
        match prune s3 none none with
        | none => none
        | some (s4, _, _) =>
          match MeshUtil.mirror distance mirrorPoint intersects s4.mesh with
          | none => none
          | some mirrored =>
            if mirrored.numVertices = 0 then
              (setAllNormals normalize isNaN (List.range s4.vertexData.length) s4).map
                (fun s5 => (s5, false))
            else
              match fromMesh fuel normalize isNaN s4 mirrored with
              | none => none
              | some s5 =>
                match pruneAndCheckConsistency s5 with
                | some (s6, true) => some (s6, true)
                | _ => none
      | _ => none
  | _ => none

/-- The mesh `two` after `addFace (1, 2, 3)`. -/
def tet3 : DynamicMesh :=
  { two with
    mesh := ⟨[⟨0, 0, 0⟩, ⟨1, 0, 0⟩, ⟨0, 1, 0⟩, ⟨0, 0, 1⟩],
      [⟨0, 0, 1⟩, ⟨0, 0, 1⟩, ⟨0, 0, 1⟩, ⟨0, 0, 1⟩], [0, 1, 2, 1, 0, 3, 1, 2, 3]⟩
    vertexData := [⟨false, [0, 1]⟩, ⟨false, [0, 1, 2]⟩, ⟨false, [0, 2]⟩, ⟨false, [1, 2]⟩]
    faceData := [⟨false⟩, ⟨false⟩, ⟨false⟩]
    faceVisited := [0, 0, 0]
    octree := ⟨Child.node 0 ⟨1 / 2, 1 / 2, 0⟩ 1 0 (fun _ => Child.none) {0, 1, 2},
      [some 0, some 0, some 0], 1⟩ }

/-- The mesh `tet3` after `addFace (2, 0, 3)`: a closed tetrahedron, every edge
in two faces. -/
def tet4 : DynamicMesh :=
  { tet3 with
    mesh := ⟨[⟨0, 0, 0⟩, ⟨1, 0, 0⟩, ⟨0, 1, 0⟩, ⟨0, 0, 1⟩],
      [⟨0, 0, 1⟩, ⟨0, 0, 1⟩, ⟨0, 0, 1⟩, ⟨0, 0, 1⟩], [0, 1, 2, 1, 0, 3, 1, 2, 3, 2, 0, 3]⟩
    vertexData := [⟨false, [0, 1, 3]⟩, ⟨false, [0, 1, 2]⟩, ⟨false, [0, 2, 3]⟩,
      ⟨false, [1, 2, 3]⟩]
    faceData := [⟨false⟩, ⟨false⟩, ⟨false⟩, ⟨false⟩]
    faceVisited := [0, 0, 0, 0]
    octree := ⟨Child.node 0 ⟨1 / 2, 1 / 2, 0⟩ 1 0 (fun _ => Child.none) {0, 1, 2, 3},
      [some 0, some 0, some 0, some 0], 1⟩ }

end DynamicMesh
open Octree

namespace DynamicMesh

/-- The mesh `two` after `forEachVertex` on the faces 0 and 1: the visited flags
of all four vertices and of both faces are set. -/
def twoVisited : DynamicMesh :=
  { two with vertexVisited := [1, 1, 1, 1], faceVisited := [1, 1] }

/-- The mesh `wing` after `forEachFaceExt` on the face 0: the visited flags of
the vertices 0, 1, 2 and of both faces are set. -/
def wingVisited : DynamicMesh :=
  { wing with vertexVisited := [1, 1, 1, 0], faceVisited := [1, 1] }

end DynamicMesh

namespace Float32

/-- The integer nearest to `y`, the even one of the two when `y` lies halfway
between two integers. -/
def roundEven (y : ℚ) : ℤ :=
  if y - ⌊y⌋ < 1 / 2 then ⌊y⌋
  else if 1 / 2 < y - ⌊y⌋ then ⌊y⌋ + 1
  else if ⌊y⌋ % 2 = 0 then ⌊y⌋ else ⌊y⌋ + 1

/-- The spacing of the numbers of type `float` (IEEE 754 binary32) around `x`:
`2 ^ (e - 23)` for `2 ^ e ≤ |x| < 2 ^ (e + 1)`, and `2 ^ (-149)` for `|x|` below
`2 ^ (-126)`. -/
def ulp (x : ℚ) : ℚ := 2 ^ (max (Int.log 2 |x|) (-126) - 23)

/-- The value of type `float` that an operation with the exact result `x` yields:
`x` rounded to the nearest binary32 number, ties to even. Results of magnitude
`2 ^ 128` and more, which binary32 turns into an infinity, are rounded without
the bound on the exponent. -/
def round (x : ℚ) : ℚ := roundEven (x / ulp x) * ulp x

end Float32

namespace Octree

/-- Models `Util::epsilon ()` in float arithmetic: the value of the literal `0.0001f`. -/
def epsilonF (R : ℚ → ℚ) : ℚ := R (1 / 10000)

/-- Models `IndexOctreeNode::approxContains` in float arithmetic: `R` gives the value
of type `float` of the exact result of an operation, and is applied to the
result of every multiplication, addition and subtraction of the source
(`0.5f` is `1 / 2` exactly). -/
def approxContainsF (R : ℚ → ℚ) (center : Vec3) (width : ℚ) (position : Vec3)
    (maxDimExtent : ℚ) : Bool :=
  let h := R (epsilonF R + R (width * (1 / 2)))
  (decide (R (center.x - h) ≤ position.x) && decide (R (center.y - h) ≤ position.y)
      && decide (R (center.z - h) ≤ position.z))
    && (decide (position.x ≤ R (center.x + h)) && decide (position.y ≤ R (center.y + h))
      && decide (position.z ≤ R (center.z + h)))
    && decide (maxDimExtent ≤ width)

/-- Models `IndexOctreeNode::insertIntoChild (float)` in float arithmetic. -/
def insertIntoChildF (R : ℚ → ℚ) (width : ℚ) (maxDimExtent : ℚ) : Bool :=
  decide (maxDimExtent ≤ R (width * relativeMinElementExtent))

/-- The centre given to the child in slot `k` by the `switch` of
`IndexOctreeNode::insertIntoChild`, in float arithmetic:
`center + glm::vec3 (±q, ±q, ±q)`, each sum rounded. -/
def childCenterF (R : ℚ → ℚ) (center : Vec3) (q : ℚ) (k : Fin 8) : Vec3 :=
  match k with
  | 0 => ⟨R (center.x + -q), R (center.y + -q), R (center.z + -q)⟩
  | 1 => ⟨R (center.x + -q), R (center.y + -q), R (center.z + q)⟩
  | 2 => ⟨R (center.x + -q), R (center.y + q), R (center.z + -q)⟩
  | 3 => ⟨R (center.x + -q), R (center.y + q), R (center.z + q)⟩
  | 4 => ⟨R (center.x + q), R (center.y + -q), R (center.z + -q)⟩
  | 5 => ⟨R (center.x + q), R (center.y + -q), R (center.z + q)⟩
  | 6 => ⟨R (center.x + q), R (center.y + q), R (center.z + -q)⟩
  | 7 => ⟨R (center.x + q), R (center.y + q), R (center.z + q)⟩

/-- The first half of `IndexOctreeNode::insertIntoChild (index, position,
maxDimExtent)` in float arithmetic: the child in slot `k`, made at the next free
address `next` with `q = width * 0.25f` and the width `width * 0.5f` when the
slot is empty; with the next free address afterwards. -/
def childOrMakeF (R : ℚ → ℚ) (next : Nat) (c : Vec3) (w : ℚ) (d : Int) (ch : Fin 8 → Child)
    (k : Fin 8) : Option (Child × Nat) :=
  if (ch k).isSome then some (ch k, next)
  else (mkNode next (childCenterF R c (R (w * (1 / 4))) k) (R (w * (1 / 2))) (d + 1)).map
    (fun n => (n, next + 1))

/-- Models `IndexOctreeNode::addElement` together with
`IndexOctreeNode::insertIntoChild (index, position, maxDimExtent)`, in float
arithmetic. The first argument after `R` bounds the depth of the descent,
`next` is the next free address. Returns the node, the address of the node that
took the index, and the next free address; `none` when the assertion
`approxContains (position, maxDimExtent)` or `w > 0` fails. -/
def nodeAddElementF (R : ℚ → ℚ) : Nat → Nat → Vec3 → ℚ → Nat → Child →
    Option (Child × Nat × Nat)
  | 0, _, _, _, _, _ => Option.none
  | _ + 1, _, _, _, _, Child.none => Option.none
  | fuel + 1, index, position, maxDimExtent, next, Child.node a c w d ch idx =>
    if approxContainsF R c w position maxDimExtent then
      if insertIntoChildF R w maxDimExtent then
        match childOrMakeF R next c w d ch (childIndex c position) with
        | Option.none => Option.none
        | some (child, next1) =>
          match nodeAddElementF R fuel index position maxDimExtent next1 child with
          | Option.none => Option.none
          | some (child1, a1, next2) =>
            some (Child.node a c w d (Function.update ch (childIndex c position) child1) idx,
              a1, next2)
      else some (Child.node a c w d ch (insert index idx), a, next)
    else Option.none

end Octree

namespace DynamicOctree

open Octree

/-- The `parentCenter` computed by `DynamicOctree::Impl::makeParent`, in float
arithmetic. -/
def parentCenterF (R : ℚ → ℚ) (rootCenter : Vec3) (halfRootWidth : ℚ) (position : Vec3) :
    Vec3 :=
  ⟨if rootCenter.x < position.x then R (rootCenter.x + halfRootWidth)
      else R (rootCenter.x - halfRootWidth),
    if rootCenter.y < position.y then R (rootCenter.y + halfRootWidth)
      else R (rootCenter.y - halfRootWidth),
    if rootCenter.z < position.z then R (rootCenter.z + halfRootWidth)
      else R (rootCenter.z - halfRootWidth)⟩

/-- Models `DynamicOctree::Impl::makeParent` in float arithmetic:
`halfRootWidth = width * 0.5f`, and the new root has the width
`rootWidth * 2.0f`. -/
def makeParentF (R : ℚ → ℚ) (o : DynamicOctree) (position : Vec3) : Option DynamicOctree :=
  match o.root with
  | Child.none => none
  | Child.node a c w d ch idx =>
    (mkNode o.heapNext (parentCenterF R c (R (w * (1 / 2))) position) (R (w * 2)) (d - 1)).map
      (fun newRoot =>
        { o with
          root := setChild (parentIndex c position) (Child.node a c w d ch idx) newRoot
          heapNext := o.heapNext + 1 })

/-- Models `DynamicOctree::Impl::addElement` in float arithmetic; the first argument
after `R` bounds the number of `makeParent` rounds plus the depth of the
descent. -/
def addElementF (R : ℚ → ℚ) : Nat → DynamicOctree → Nat → Vec3 → ℚ → Option DynamicOctree
  | 0, _, _, _, _ => none
  | fuel + 1, o, index, position, maxDimExtent =>
    match o.root with
    | Child.none => none
    | Child.node _ c w _ _ _ =>
      if approxContainsF R c w position maxDimExtent then
        match nodeAddElementF R (fuel + 1) index position maxDimExtent o.heapNext o.root with
        | none => none
        | some (r, a, next) =>
          (addToElementNodeMap o.elementNodeMap index a).map
            (fun enm => { root := r, elementNodeMap := enm, heapNext := next })
      else
        match makeParentF R o position with
        | none => none
        | some o1 => addElementF R fuel o1 index position maxDimExtent

/-- Models `DynamicOctree::Impl::realignElement` in float arithmetic; the first
argument after `R` is handed to `addElement`. -/
def realignElementF (R : ℚ → ℚ) (fuel : Nat) (o : DynamicOctree) (index : Nat)
    (position : Vec3) (maxDimExtent : ℚ) : Option DynamicOctree :=
  if o.hasRoot then
    match o.elementNodeMap[index]? with
    | some (some a) =>
      match find a o.root with
      | Child.none => none
      | Child.node _ c w _ _ _ =>
        if approxContainsF R c w position maxDimExtent = false ||
            insertIntoChildF R w maxDimExtent then
          match deleteElement o index with
          | none => none
          | some o1 => addElementF R fuel o1 index position maxDimExtent
        else some o
    | _ => none
  else none

end DynamicOctree

namespace Octree

/-- The centre that `DynamicOctree::Impl::makeParent` gives to the parent of a
node with the centre `c1` that it puts into the slot `k`, in float arithmetic
with `h = width * 0.5f`: on each axis the parent lies below the node when the
bit of the axis is set in `k` (4 for `x`, 2 for `y`, 1 for `z`), above it
otherwise. -/
def parentCenterOf (R : ℚ → ℚ) (c1 : Vec3) (h : ℚ) (k : Fin 8) : Vec3 :=
  ⟨if 4 ≤ k.val then R (c1.x - h) else R (c1.x + h),
    if 2 ≤ k.val % 4 then R (c1.y - h) else R (c1.y + h),
    if k.val % 2 = 1 then R (c1.z - h) else R (c1.z + h)⟩

/-- The geometry of a node (centre `c`, width `w`) and its child in slot `k`
(centre `c1`, width `w1`) as the float operations make it. Either the child was
made by `insertIntoChild`: its width is `w * 0.5f` and its centre
`c + (±q, ±q, ±q)` with `q = w * 0.25f` and the signs of the slot; or the node
was made by `makeParent` for the child: its width is `w1 * 2.0f` and its centre
`c1 ∓ w1 * 0.5f`. -/
def LinkF (R : ℚ → ℚ) (c : Vec3) (w : ℚ) (k : Fin 8) (c1 : Vec3) (w1 : ℚ) : Prop :=
  (w1 = R (w * (1 / 2)) ∧ c1 = childCenterF R c (R (w * (1 / 4))) k) ∨
    (w = R (w1 * 2) ∧ c = parentCenterOf R c1 (R (w1 * (1 / 2))) k)

/-- The geometry of the tree in float arithmetic: every width is positive, and
the child in slot `k` of a node has depth one greater and the width and centre
that `insertIntoChild` or `makeParent` computed. -/
def GeomF (R : ℚ → ℚ) : Child → Prop
  | Child.none => True
  | Child.node _ c w d ch _ =>
    0 < w ∧ ∀ k, GeomF R (ch k) ∧
      ((ch k).isSome = true →
        (ch k).depth = d + 1 ∧ LinkF R c w k (ch k).center (ch k).width)

end Octree

namespace DynamicOctree

open Octree

/-- One call of the octree interface that returns, in the float arithmetic `R`;
`updateIndices` is called on maps that satisfy `P`. -/
inductive StepF (R : ℚ → ℚ) (P : DynamicOctree → List Nat → Prop) :
    DynamicOctree → DynamicOctree → Prop where
  | addElement (fuel : Nat) (o o1 : DynamicOctree) (index : Nat) (position : Vec3)
      (maxDimExtent : ℚ) :
      addElementF R fuel o index position maxDimExtent = some o1 → StepF R P o o1
  | deleteElement (o o1 : DynamicOctree) (index : Nat) :
      deleteElement o index = some o1 → StepF R P o o1
  | realignElement (fuel : Nat) (o o1 : DynamicOctree) (index : Nat) (position : Vec3)
      (maxDimExtent : ℚ) :
      realignElementF R fuel o index position maxDimExtent = some o1 → StepF R P o o1
  | deleteEmptyChildren (o : DynamicOctree) : StepF R P o (deleteEmptyChildren o)
  | shrinkRoot (o : DynamicOctree) : StepF R P o (shrinkRoot o)
  | updateIndices (o o1 : DynamicOctree) (newIndices : List Nat) :
      P o newIndices → updateIndices o newIndices = some o1 → StepF R P o o1

/-- The octree states reachable in the float arithmetic `R` from `setupRoot` on
a fresh octree by calls of `addElement`, `deleteElement`, `realignElement`,
`deleteEmptyChildren`, `shrinkRoot` and `updateIndices` that return,
`updateIndices` on maps that satisfy `P`. -/
inductive ReachableWithF (R : ℚ → ℚ) (P : DynamicOctree → List Nat → Prop) :
    DynamicOctree → Prop where
  | setupRoot (next : Nat) (position : Vec3) (width : ℚ) (o : DynamicOctree) :
      setupRoot ⟨Child.none, [], next⟩ position width = some o → ReachableWithF R P o
  | step (o o1 : DynamicOctree) : ReachableWithF R P o → StepF R P o o1 → ReachableWithF R P o1

/-- Reachable in the float arithmetic `R`, with `updateIndices` called on
permutations with holes only. -/
def ReachableF (R : ℚ → ℚ) (o : DynamicOctree) : Prop := ReachableWithF R PermWithHoles o

end DynamicOctree

namespace DynamicOctree

/-- The octree after `setupRoot ((1, 1, 1), 1)`. -/
def rootAtOne : DynamicOctree := ⟨Child.node 0 ⟨1, 1, 1⟩ 1 0 (fun _ => Child.none) ∅, [], 1⟩

/-- The octree after `setupRoot` with the centre `(2 ^ 25, 2 ^ 25, 2 ^ 25)` and the
width 1. -/
def rootFar : DynamicOctree :=
  ⟨Child.node 0 ⟨33554432, 33554432, 33554432⟩ 1 0 (fun _ => Child.none) ∅, [], 1⟩

/-- The octree after `setupRoot` with the width 1 and the centre
`(0.1f, 0.1f, 0.1f)`, where `0.1f` is `13421773 / 134217728`. -/
def rootAtTenth : DynamicOctree :=
  ⟨Child.node 0 ⟨13421773 / 134217728, 13421773 / 134217728, 13421773 / 134217728⟩ 1 0
    (fun _ => Child.none) ∅, [], 1⟩

end DynamicOctree

namespace DynamicOctree

/-- The octree `rootAtTenth` after `addElement (0, (1/4, 1/4, 1/4), 1/4)` in
binary32 arithmetic: the element is in a child of the root in the slot 7. -/
def tenthNested : DynamicOctree :=
  ⟨Child.node 0 ⟨13421773 / 134217728, 13421773 / 134217728, 13421773 / 134217728⟩ 1 0
    (Function.update (fun _ => Child.none) 7
      (Child.node 1 ⟨11744051 / 33554432, 11744051 / 33554432, 11744051 / 33554432⟩
        (1 / 2) 1 (fun _ => Child.none) {0})) ∅, [some 1], 2⟩

end DynamicOctree

namespace PrimTriangle

/-- Modelled from the spec: `PrimTriangle::center` in float arithmetic, the sum
of the corners divided by 3, with every operation rounded by `R`
(`primitive/triangle.hpp` is not among the sources). -/
def centerF (R : ℚ → ℚ) (v1 v2 v3 : Vec3) : Vec3 :=
  ⟨R (R (R (v1.x + v2.x) + v3.x) / 3), R (R (R (v1.y + v2.y) + v3.y) / 3),
    R (R (R (v1.z + v2.z) + v3.z) / 3)⟩

/-- Modelled from the spec: `PrimTriangle::maxDimExtent` in float arithmetic, the
largest extent of the triangle along an axis, the subtraction rounded by `R`. -/
def maxDimExtentF (R : ℚ → ℚ) (v1 v2 v3 : Vec3) : ℚ :=
  max (max (R (max v1.x (max v2.x v3.x) - min v1.x (min v2.x v3.x)))
    (R (max v1.y (max v2.y v3.y) - min v1.y (min v2.y v3.y))))
    (R (max v1.z (max v2.z v3.z) - min v1.z (min v2.z v3.z)))

end PrimTriangle

namespace DynamicMesh

/-- Models `DynamicMesh::Impl::setupOctreeRoot (const Mesh&)` in float
arithmetic: `center = (maxVertex + minVertex) * 0.5f`,
`delta = maxVertex - minVertex`, every operation rounded by `R`. -/
def setupOctreeRootF (R : ℚ → ℚ) (s : DynamicMesh) (mesh : Mesh) : Option DynamicMesh :=
  if s.octree.hasRoot = false then
    match mesh.minMax with
    | some (minVertex, maxVertex) =>
      let center : Vec3 := ⟨R (R (maxVertex.x + minVertex.x) * (1 / 2)),
        R (R (maxVertex.y + minVertex.y) * (1 / 2)), R (R (maxVertex.z + minVertex.z) * (1 / 2))⟩
      let width : ℚ := max (max (R (maxVertex.x - minVertex.x)) (R (maxVertex.y - minVertex.y)))
        (R (maxVertex.z - minVertex.z))
      (s.octree.setupRoot center width).map (fun o => { s with octree := o })
    | none => none
  else none

/-- Models `DynamicMesh::Impl::addFaceToOctree` in float arithmetic; the first
argument after `R` is handed to the octree's `addElement`. -/
def addFaceToOctreeF (R : ℚ → ℚ) (fuel : Nat) (s : DynamicMesh) (i : Nat) : Option DynamicMesh :=
  match s.face i with
  | some (v1, v2, v3) =>
    (s.octree.addElementF R fuel i (PrimTriangle.centerF R v1 v2 v3)
      (PrimTriangle.maxDimExtentF R v1 v2 v3)).map (fun o => { s with octree := o })
  | none => none

/-- Models `DynamicMesh::Impl::addFace` in float arithmetic: the mesh afterwards
and the returned index; the first argument after `R` is handed to the octree's
`addElement`. -/
def addFaceF (R : ℚ → ℚ) (fuel : Nat) (s : DynamicMesh) (i1 i2 i3 : Nat) :
    Option (DynamicMesh × Nat) :=
  if i1 < s.mesh.numVertices ∧ i2 < s.mesh.numVertices ∧ i3 < s.mesh.numVertices ∧
      3 * s.faceData.length = s.mesh.numIndices ∧ s.faceData.length = s.faceVisited.length then
    match addFaceSlot s i1 i2 i3 with
    | none => none
    | some (s1, index) =>
      if index < s1.faceData.length then
        match addAdjacent s1.vertexData i1 i2 i3 index with
        | none => none
        | some vd =>
          (addFaceToOctreeF R fuel
            { s1 with faceData := s1.faceData.set index ⟨false⟩, vertexData := vd } index).map
            (fun s2 => (s2, index))
      else none
  else none

/-- The loop of `fromMesh` over the indices of the source mesh, three at a
time, in float arithmetic. -/
def addFacesF (R : ℚ → ℚ) (fuel : Nat) : List Nat → DynamicMesh → Option DynamicMesh
  | i1 :: i2 :: i3 :: rest, s =>
    match addFaceF R fuel s i1 i2 i3 with
    | none => none
    | some (s1, _) => addFacesF R fuel rest s1
  | [], s => some s
  | _, _ => none

/-- Models `DynamicMesh::Impl::fromMesh` in float arithmetic; `fuel` is handed to
every `addFace`, `normalize` and `isNaN` stand for `glm::normalize` and
`Util::isNaN`. -/
def fromMeshF (R : ℚ → ℚ) (fuel : Nat) (normalize : Vec3 → Vec3) (isNaN : Vec3 → Bool)
    (s : DynamicMesh) (mesh : Mesh) : Option DynamicMesh :=
  match setupOctreeRootF R (reset s) mesh with
  | none => none
  | some s1 =>
    if mesh.normals.length = mesh.vertices.length then
      match addVertices (mesh.vertices.zip mesh.normals) s1 with
      | none => none
      | some s2 =>
        if mesh.numIndices % 3 = 0 then
          match addFacesF R fuel mesh.indices s2 with
          | none => none
          | some s3 => setAllNormals normalize isNaN (List.range s3.vertexData.length) s3
        else none
    else none

/-- One call of the mesh interface that returns, in the float arithmetic `R`.
With `L`, `addFace`, `deleteFace` and `deleteVertex` are called on live ids
only. -/
inductive StepF (R : ℚ → ℚ) (L : Prop) : DynamicMesh → DynamicMesh → Prop where
  | addVertex (s s1 : DynamicMesh) (vertex normal : Vec3) (i : Nat) :
      addVertex s vertex normal = some (s1, i) → StepF R L s s1
  | addFace (fuel : Nat) (s s1 : DynamicMesh) (i1 i2 i3 f : Nat) :
      (L → s.liveVertex i1 = true ∧ s.liveVertex i2 = true ∧ s.liveVertex i3 = true) →
      addFaceF R fuel s i1 i2 i3 = some (s1, f) → StepF R L s s1
  | deleteFace (s s1 : DynamicMesh) (f : Nat) :
      (L → s.liveFace f = true) → deleteFace s f = some s1 → StepF R L s s1
  | deleteVertex (s s1 : DynamicMesh) (v : Nat) :
      (L → s.liveVertex v = true) → deleteVertex s v = some s1 → StepF R L s s1
  | prune (s s1 : DynamicMesh) (pv pf rv rf : Option (List Nat)) :
      prune s pv pf = some (s1, rv, rf) → StepF R L s s1

/-- The states reachable in the float arithmetic `R` from `fromMesh` by calls of
`addVertex`, `addFace`, `deleteFace`, `deleteVertex` and `prune` that return,
through states whose slot counts fit `unsigned int`. With `L`, the ids passed
are live. -/
inductive ReachableWithF (R : ℚ → ℚ) (L : Prop) : DynamicMesh → Prop where
  | fromMesh (fuel : Nat) (normalize : Vec3 → Vec3) (isNaN : Vec3 → Bool) (s0 : DynamicMesh)
      (mesh : Mesh) (s : DynamicMesh) :
      fromMeshF R fuel normalize isNaN s0 mesh = some s → Fits s → ReachableWithF R L s
  | step (s s1 : DynamicMesh) :
      ReachableWithF R L s → StepF R L s s1 → Fits s1 → ReachableWithF R L s1

/-- Reachable in the float arithmetic `R`, with live ids passed to `addFace`,
`deleteFace` and `deleteVertex`. -/
def ReachableF (R : ℚ → ℚ) (s : DynamicMesh) : Prop := ReachableWithF R True s

end DynamicMesh

namespace DynamicMesh

/-- A source mesh inside the box from `4096` to `4096 + 9 / 2048` on every axis,
where neighbouring binary32 numbers are `1 / 2048` apart: two triangles that
span the box, and a small triangle in the face `x = 4096 + 9 / 2048` of the
box. -/
def gridMesh : Mesh :=
  ⟨[⟨4096, 4096, 4096⟩, ⟨4096, 8388617 / 2048, 8388617 / 2048⟩,
      ⟨8388617 / 2048, 4096, 4194305 / 1024⟩, ⟨8388617 / 2048, 8388609 / 2048, 4096⟩,
      ⟨8388617 / 2048, 4194305 / 1024, 8388609 / 2048⟩],
    [⟨0, 0, 1⟩, ⟨0, 0, 1⟩, ⟨0, 0, 1⟩, ⟨0, 0, 1⟩, ⟨0, 0, 1⟩], [2, 3, 0, 4, 0, 1, 2, 3, 4]⟩

/-- The source mesh `gridMesh` without its small triangle. -/
def gridPair : Mesh := { gridMesh with indices := [2, 3, 0, 4, 0, 1] }

end DynamicMesh

namespace DynamicOctree

/-- The octree of `fromMesh (gridMesh)` in binary32 arithmetic: one node with the
centre `4096 + 4 / 2048` on every axis and the width `9 / 2048`, that holds the
indices `idx`. -/
def gridRoot (idx : Finset Nat) (enm : List (Option Nat)) : DynamicOctree :=
  ⟨Child.node 0 ⟨2097153 / 512, 2097153 / 512, 2097153 / 512⟩ (9 / 2048) 0
    (fun _ => Child.none) idx, enm, 1⟩

end DynamicOctree

namespace Util

theorem getElem?_lt_of_some {α : Type} {v : List α} {i : Nat} {x : α} (h : v[i]? = some x) :
    i < v.length := by
  rcases Nat.lt_or_ge i v.length with h1 | h1
  · exact h1
  · rw [List.getElem?_eq_none h1] at h; simp at h

theorem decLast_spec {α : Type} (p : α → Bool) (v : List α) :
    ∀ l l1, decLast p v l = some l1 →
      l1 < l ∧ (∃ y, v[l1]? = some y ∧ p y = false) ∧
        ∀ j, l1 < j → j < l → ∃ x, v[j]? = some x ∧ p x = true := by
  intro l
  induction l with
  | zero => intro l1 h; simp [decLast] at h
  | succ l ih =>
    intro l1 h
    rw [decLast] at h
    cases hx : v[l]? with
    | none => simp [hx] at h
    | some x =>
      simp only [hx] at h
      by_cases hp : p x = true
      · simp only [hp, if_true] at h
        obtain ⟨h1, h2, h3⟩ := ih l1 h
        refine ⟨by omega, h2, ?_⟩
        intro j hj1 hj2
        by_cases hjl : j = l
        · subst hjl; exact ⟨x, hx, hp⟩
        · exact h3 j hj1 (by omega)
      · simp only [hp] at h
        simp at h
        subst h
        refine ⟨by omega, ⟨x, hx, by simpa using hp⟩, ?_⟩
        intro j hj1 hj2; omega

theorem decLast_exists {α : Type} (p : α → Bool) (v : List α) :
    ∀ l i y, l ≤ v.length → i < l → v[i]? = some y → p y = false →
      ∃ l1, decLast p v l = some l1 ∧ i ≤ l1 := by
  intro l
  induction l with
  | zero => intro i y _ h; omega
  | succ l ih =>
    intro i y hl hi hy hp
    rw [decLast]
    have hlt : l < v.length := by omega
    rw [List.getElem?_eq_getElem hlt]
    simp only
    by_cases hq : p v[l] = true
    · simp only [hq, if_true]
      have hil : i ≠ l := by
        rintro rfl
        rw [List.getElem?_eq_getElem hlt] at hy
        simp at hy; subst hy; simp [hq] at hp
      exact ih i y (by omega) (by omega) hy hp
    · simp only [hq]
      exact ⟨l, by simp, by omega⟩

theorem drop_take_cons {α : Type} (v : List α) (i last : Nat) (x : α)
    (hi : i ≤ last) (hx : v[i]? = some x) :
    List.drop i (List.take (last + 1) v) = x :: List.drop (i + 1) (List.take (last + 1) v) := by
  have hlen : i < v.length := by
    rcases Nat.lt_or_ge i v.length with h | h
    · exact h
    · rw [List.getElem?_eq_none h] at hx; simp at hx
  have h1 : i < (List.take (last + 1) v).length := by
    rw [List.length_take]; omega
  rw [List.drop_eq_getElem_cons h1]
  congr 1
  rw [List.getElem_take]
  rw [List.getElem?_eq_getElem hlen] at hx
  simpa using hx

theorem filter_segment_dead {α : Type} (p : α → Bool) (v : List α) (a b : Nat)
    (hdead : ∀ j, a ≤ j → j < b → ∃ x, v[j]? = some x ∧ p x = true) :
    List.filter (fun x => !p x) (List.drop a (List.take b v)) = [] := by
  rw [List.filter_eq_nil_iff]
  intro x hx
  rw [List.mem_iff_getElem?] at hx
  obtain ⟨k, hk⟩ := hx
  rw [List.getElem?_drop, List.getElem?_take] at hk
  split at hk
  · rename_i hlt
    obtain ⟨x', hx', hp⟩ := hdead (a + k) (by omega) hlt
    rw [hx'] at hk
    simp at hk; subst hk; simp [hp]
  · simp at hk

theorem filter_segment_split {α : Type} (p : α → Bool) (v : List α) (i last1 last : Nat) (y : α)
    (h1 : i ≤ last1) (h2 : last1 < last) (hy : v[last]? = some y) (hpy : p y = false)
    (hdead : ∀ j, last1 < j → j < last → ∃ x, v[j]? = some x ∧ p x = true) :
    List.filter (fun x => !p x) (List.drop (i + 1) (List.take (last + 1) v)) =
      List.filter (fun x => !p x) (List.drop (i + 1) (List.take (last1 + 1) v)) ++ [y] := by
  have hlen : last < v.length := by
    rcases Nat.lt_or_ge last v.length with h | h
    · exact h
    · rw [List.getElem?_eq_none h] at hy; simp at hy
  have e1 : List.take (last + 1) v = List.take last v ++ [y] := by
    rw [List.take_succ, hy]; rfl
  have e2 : List.take last v =
      List.take (last1 + 1) v ++ List.drop (last1 + 1) (List.take last v) := by
    conv_lhs => rw [← List.take_append_drop (last1 + 1) (List.take last v)]
    rw [List.take_take]
    congr 2
    omega
  rw [e1, e2, List.append_assoc]
  rw [List.drop_append_of_le_length (by rw [List.length_take]; omega)]
  rw [List.filter_append, List.filter_append]
  rw [filter_segment_dead p v (last1 + 1) last (fun j hj1 hj2 => hdead j (by omega) hj2)]
  simp [hpy]

theorem loopPost_done {α : Type} (p : α → Bool) (i last : Nat) (v : List α) (m : List Nat)
    (h : i = last + 1) : LoopPost p i last v m v m last := by
  subst h
  refine ⟨rfl, rfl, le_refl _, le_refl _, fun _ _ => rfl, fun _ _ => rfl, ?_, ?_, ?_, ?_, ?_⟩
  · intro j x h1 h2; omega
  · intro j x h1 h2; omega
  · intro j1 j2 x1 x2 q h1 h2; omega
  · intro q h1 h2; omega
  · have : List.drop (last + 1) (List.take (last + 1) v) = [] := by
      rw [List.drop_eq_nil_iff, List.length_take]; omega
    rw [this]; simp

theorem loopPost_keep {α : Type} (p : α → Bool) (i last : Nat) (v : List α) (m : List Nat)
    (v1 : List α) (m1 : List Nat) (last1 : Nat) (x : α)
    (hi : i ≤ last) (hm : m.length = v.length) (hx : v[i]? = some x) (hp : p x = false)
    (h : LoopPost p (i + 1) last v (m.set i i) v1 m1 last1) :
    LoopPost p i last v m v1 m1 last1 := by
  obtain ⟨p1, p2, p3, p3', p4, p5, p6, p7, p8, p9, p10⟩ := h
  have hil : i < v.length := getElem?_lt_of_some hx
  have hmi : m1[i]? = some i := by
    rw [p5 i (Or.inl (by omega)), List.getElem?_set_self (by omega)]
  refine ⟨p1, by simpa using p2, by omega, p3', fun j hj => p4 j (by omega), ?_, ?_, ?_, ?_, ?_, ?_⟩
  · intro j hj
    rw [p5 j (by omega), List.getElem?_set_ne (by omega)]
  · intro j y h1 h2 hy hpy
    by_cases hji : j = i
    · subst hji
      rw [hx] at hy; simp at hy; subst hy
      exact ⟨j, hmi, le_refl _, by omega, by rw [p4 j (by omega), hx], fun _ => rfl⟩
    · obtain ⟨q, q1, q2, q3, q4, q5⟩ := p6 j y (by omega) h2 hy hpy
      exact ⟨q, q1, by omega, q3, q4, q5⟩
  · intro j y h1 h2 hy hpy
    have hji : j ≠ i := by
      rintro rfl; rw [hx] at hy; simp at hy; subst hy; simp [hp] at hpy
    obtain ⟨q1, q2⟩ := p7 j y (by omega) h2 hy hpy
    refine ⟨q1, fun hl => ?_⟩
    rw [q2 hl, List.getElem?_set_ne (by omega)]
  · intro j1 j2 x1 x2 q h1 h2 h3 h4 hx1 hp1 hx2 hp2 hq1 hq2
    by_cases e1 : j1 = i
    · by_cases e2 : j2 = i
      · omega
      · obtain ⟨q', q1, q2, _⟩ := p6 j2 x2 (by omega) h4 hx2 hp2
        subst e1
        rw [hmi] at hq1; rw [q1] at hq2
        simp at hq1 hq2; omega
    · by_cases e2 : j2 = i
      · obtain ⟨q', q1, q2, _⟩ := p6 j1 x1 (by omega) h2 hx1 hp1
        subst e2
        rw [hmi] at hq2; rw [q1] at hq1
        simp at hq1 hq2; omega
      · exact p8 j1 j2 x1 x2 q (by omega) h2 (by omega) h4 hx1 hp1 hx2 hp2 hq1 hq2
  · intro q h1 h2
    by_cases e : q = i
    · subst e
      exact ⟨q, x, le_refl _, hi, hx, hp, hmi⟩
    · obtain ⟨j, y, q1, q2, q3, q4, q5⟩ := p9 q (by omega) h2
      exact ⟨j, y, by omega, q2, q3, q4, q5⟩
  · have hv1 : v1[i]? = some x := by rw [p4 i (by omega), hx]
    rw [drop_take_cons v1 i last1 x (by omega) hv1, drop_take_cons v i last x hi hx]
    rw [List.filter_cons_of_pos (by simp [hp])]
    exact List.Perm.cons x p10

theorem loopPost_move {α : Type} (p : α → Bool) (i last l1 : Nat) (v : List α) (m : List Nat)
    (v1 : List α) (m1 : List Nat) (last1 : Nat) (x y : α)
    (hm : m.length = v.length) (hx : v[i]? = some x) (hp : p x = true)
    (hy : v[last]? = some y) (hpy : p y = false)
    (hl1 : i ≤ l1) (hl2 : l1 < last)
    (hdead : ∀ j, l1 < j → j < last → ∃ z, (v.set i y)[j]? = some z ∧ p z = true)
    (h : LoopPost p (i + 1) l1 (v.set i y) ((m.set i invalidIndex).set last i) v1 m1 last1) :
    LoopPost p i last v m v1 m1 last1 := by
  obtain ⟨p1, p2, p3, p3', p4, p5, p6, p7, p8, p9, p10⟩ := h
  have hil : i < v.length := getElem?_lt_of_some hx
  have hll : last < v.length := getElem?_lt_of_some hy
  have hdead' : ∀ j, l1 < j → j < last → ∃ z, v[j]? = some z ∧ p z = true := by
    intro j h1 h2
    obtain ⟨z, hz, hpz⟩ := hdead j h1 h2
    rw [List.getElem?_set_ne (by omega)] at hz
    exact ⟨z, hz, hpz⟩
  have hmlast : m1[last]? = some i := by
    rw [p5 last (Or.inr hl2), List.getElem?_set_self (by simp; omega)]
  have hmi : m1[i]? = some invalidIndex := by
    rw [p5 i (Or.inl (by omega)), List.getElem?_set_ne (by omega),
      List.getElem?_set_self (by omega)]
  have hv1i : v1[i]? = some y := by
    rw [p4 i (by omega), List.getElem?_set_self hil]
  have hlive : ∀ j z, i ≤ j → j ≤ last → v[j]? = some z → p z = false →
      j = last ∨ (i + 1 ≤ j ∧ j ≤ l1 ∧ (v.set i y)[j]? = some z) := by
    intro j z h1 h2 hz hpz
    by_cases e : j = last
    · exact Or.inl e
    · right
      have hji : j ≠ i := by
        rintro rfl; rw [hx] at hz; simp at hz; subst hz; simp [hp] at hpz
      by_cases hjl : j ≤ l1
      · exact ⟨by omega, hjl, by rw [List.getElem?_set_ne (by omega)]; exact hz⟩
      · obtain ⟨z', hz', hpz'⟩ := hdead' j (by omega) (by omega)
        rw [hz] at hz'; simp at hz'; subst hz'; simp [hpz] at hpz'
  refine ⟨by simpa using p1, by simpa using p2, by omega, by omega,
    fun j hj => ?_, ?_, ?_, ?_, ?_, ?_, ?_⟩
  · rw [p4 j (by omega), List.getElem?_set_ne (by omega)]
  · intro j hj
    rw [p5 j (by omega), List.getElem?_set_ne (by omega), List.getElem?_set_ne (by omega)]
  · intro j z h1 h2 hz hpz
    rcases hlive j z h1 h2 hz hpz with e | ⟨e1, e2, e3⟩
    · subst e
      rw [hy] at hz; simp at hz; subst hz
      exact ⟨i, hmlast, le_refl _, by omega, hv1i, fun h => by omega⟩
    · obtain ⟨q, q1, q2, q3, q4, q5⟩ := p6 j z e1 e2 e3 hpz
      exact ⟨q, q1, by omega, q3, q4, q5⟩
  · intro j z h1 h2 hz hpz
    by_cases hji : j = i
    · subst hji
      exact ⟨fun _ => hmi, fun h => by omega⟩
    · have hjl : j ≠ last := by
        rintro rfl; rw [hy] at hz; simp at hz; subst hz; simp [hpy] at hpz
      by_cases hj1 : j ≤ l1
      · obtain ⟨q1, q2⟩ := p7 j z (by omega) hj1
          (by rw [List.getElem?_set_ne (by omega)]; exact hz) hpz
        refine ⟨q1, fun hl => ?_⟩
        rw [q2 hl, List.getElem?_set_ne (by omega), List.getElem?_set_ne (by omega)]
      · refine ⟨fun h => by omega, fun _ => ?_⟩
        rw [p5 j (Or.inr (by omega)), List.getElem?_set_ne (by omega),
          List.getElem?_set_ne (by omega)]
  · intro j1 j2 x1 x2 q h1 h2 h3 h4 hx1 hp1 hx2 hp2 hq1 hq2
    rcases hlive j1 x1 h1 h2 hx1 hp1 with e | ⟨e1, e2, e3⟩
    · rcases hlive j2 x2 h3 h4 hx2 hp2 with f | ⟨f1, f2, f3⟩
      · omega
      · obtain ⟨q', q1, q2, _⟩ := p6 j2 x2 f1 f2 f3 hp2
        subst e
        rw [hmlast] at hq1; rw [q1] at hq2
        simp at hq1 hq2; omega
    · rcases hlive j2 x2 h3 h4 hx2 hp2 with f | ⟨f1, f2, f3⟩
      · obtain ⟨q', q1, q2, _⟩ := p6 j1 x1 e1 e2 e3 hp1
        subst f
        rw [hmlast] at hq2; rw [q1] at hq1
        simp at hq1 hq2; omega
      · exact p8 j1 j2 x1 x2 q e1 e2 f1 f2 e3 hp1 f3 hp2 hq1 hq2
  · intro q h1 h2
    by_cases e : q = i
    · subst e
      exact ⟨last, y, by omega, le_refl _, hy, hpy, hmlast⟩
    · obtain ⟨j, z, q1, q2, q3, q4, q5⟩ := p9 q (by omega) h2
      rw [List.getElem?_set_ne (by omega)] at q3
      exact ⟨j, z, by omega, by omega, q3, q4, q5⟩
  · rw [drop_take_cons v1 i last1 y (by omega) hv1i, drop_take_cons v i last x (by omega) hx]
    rw [List.filter_cons_of_neg (by simp [hp])]
    rw [filter_segment_split p v i l1 last y hl1 hl2 hy hpy hdead']
    have e : List.drop (i + 1) (List.take (l1 + 1) (v.set i y)) =
        List.drop (i + 1) (List.take (l1 + 1) v) := by
      apply List.ext_getElem?
      intro k
      simp only [List.getElem?_drop, List.getElem?_take]
      split
      · rw [List.getElem?_set_ne (by omega)]
      · rfl
    rw [e] at p10
    exact (List.Perm.cons y p10).trans (List.perm_append_singleton y _).symm

theorem pruneLoop_spec {α : Type} (p : α → Bool) :
    ∀ fuel i last (v : List α) (m : List Nat),
      i ≤ last + 1 → last < v.length → m.length = v.length →
      (∃ y, v[last]? = some y ∧ p y = false) → last + 1 - i ≤ fuel →
      ∃ v1 m1 last1, pruneLoop p fuel i last v (some m) = some (v1, some m1, last1) ∧
        LoopPost p i last v m v1 m1 last1 := by
  intro fuel
  induction fuel with
  | zero =>
    intro i last v m h1 h2 h3 h4 h5
    refine ⟨v, m, last, ?_, loopPost_done p i last v m (by omega)⟩
    rw [pruneLoop, if_neg (by omega)]
  | succ fuel ih =>
    intro i last v m h1 h2 h3 h4 h5
    by_cases hi : i ≤ last
    · have hiv : i < v.length := by omega
      obtain ⟨y, hy, hpy⟩ := h4
      rw [pruneLoop, if_pos hi, List.getElem?_eq_getElem hiv]
      simp only
      by_cases hp : p v[i] = true
      · simp only [hp, if_true, hy, Option.map_some']
        have hne : i ≠ last := by
          rintro rfl
          rw [List.getElem?_eq_getElem hiv] at hy
          simp at hy; subst hy; simp [hp] at hpy
        obtain ⟨l1, hl1, hil1⟩ := decLast_exists p (v.set i y) last i y (by simp; omega)
          (by omega) (List.getElem?_set_self hiv) hpy
        obtain ⟨d1, d2, d3⟩ := decLast_spec p (v.set i y) last l1 hl1
        simp only [hl1]
        obtain ⟨v1, m1, last1, e, post⟩ := ih (i + 1) l1 (v.set i y)
          ((m.set i invalidIndex).set last i) (by omega) (by simp; omega) (by simp; omega)
          d2 (by omega)
        exact ⟨v1, m1, last1, e, loopPost_move p i last l1 v m v1 m1 last1 v[i] y h3
          (List.getElem?_eq_getElem hiv) hp hy hpy hil1 d1 d3 post⟩
      · simp only [hp, Option.map_some']
        obtain ⟨v1, m1, last1, e, post⟩ := ih (i + 1) last v (m.set i i) (by omega) h2
          (by simp; omega) ⟨y, hy, hpy⟩ (by omega)
        refine ⟨v1, m1, last1, by simpa using e, loopPost_keep p i last v m v1 m1 last1 v[i] hi h3
          (List.getElem?_eq_getElem hiv) (by simpa using hp) post⟩
    · refine ⟨v, m, last, ?_, loopPost_done p i last v m (by omega)⟩
      rw [pruneLoop, if_neg hi]

theorem findIfNot_none {α : Type} (p : α → Bool) :
    ∀ l : List α, findIfNot p l = none → ∀ x ∈ l, p x = true := by
  intro l
  induction l with
  | nil => intro _ x hx; simp at hx
  | cons a l ih =>
    intro h x hx
    rw [findIfNot] at h
    by_cases hp : p a = true
    · simp only [hp, if_true, Option.map_eq_none'] at h
      rcases List.mem_cons.mp hx with e | e
      · subst e; exact hp
      · exact ih h x e
    · simp [hp] at h

theorem findIfNot_some {α : Type} (p : α → Bool) :
    ∀ (l : List α) k, findIfNot p l = some k →
      (∃ y, l[k]? = some y ∧ p y = false) ∧ ∀ j, j < k → ∃ x, l[j]? = some x ∧ p x = true := by
  intro l
  induction l with
  | nil => intro k h; simp [findIfNot] at h
  | cons a l ih =>
    intro k h
    rw [findIfNot] at h
    by_cases hp : p a = true
    · simp only [hp, if_true, Option.map_eq_some'] at h
      obtain ⟨k', hk', rfl⟩ := h
      obtain ⟨h1, h2⟩ := ih k' hk'
      refine ⟨by simpa using h1, ?_⟩
      intro j hj
      cases j with
      | zero => exact ⟨a, by simp, hp⟩
      | succ j => simpa using h2 j (by omega)
    · simp only [hp] at h
      simp at h
      subst h
      exact ⟨⟨a, by simp, by simpa using hp⟩, fun j hj => by omega⟩

theorem length_resize {α : Type} (v : List α) (n : Nat) (x : α) : (resize v n x).length = n := by
  simp [resize]; omega

theorem prune_spec {α : Type} (p : α → Bool) (v : List α) (m0 : List Nat)
    (hv : v.length < 2 ^ 32) :
    ∃ v1 m1, prune p v (some m0) = some (v1, some m1) ∧ PruneSpec p v m0 v1 m1 := by
  unfold prune
  cases hf : findIfNot p v.reverse with
  | none =>
    have hall := findIfNot_none p v.reverse hf
    refine ⟨[], resize m0 v.length invalidIndex, by simp, ?_⟩
    have hall' : ∀ x ∈ v, p x = true := fun x hx => hall x (by simpa using hx)
    refine ⟨?_, length_resize _ _ _, ?_, ?_, ?_, ?_⟩
    · rw [List.filter_eq_nil_iff.mpr]
      intro a ha; simp [hall' a ha]
    · intro j x hx hp
      have := hall' x (List.getElem?_mem hx)
      simp [this] at hp
    · intro j x hx hp
      exact ⟨fun h => by simp at h, fun _ => rfl⟩
    · intro j1 j2 x1 x2 q hx1 hp1
      have := hall' x1 (List.getElem?_mem hx1)
      simp [this] at hp1
    · intro q hq; simp at hq
  | some k =>
    obtain ⟨⟨y, hy, hpy⟩, hdead⟩ := findIfNot_some p v.reverse k hf
    have hk : k < v.length := by
      have := getElem?_lt_of_some hy
      simpa using this
    rw [List.getElem?_reverse hk] at hy
    have hlast : (v.length - k - 1) % 2 ^ 32 = v.length - 1 - k :=
      by rw [Nat.mod_eq_of_lt (by omega)]; omega
    simp only [hlast, Option.map_some']
    have hdead' : ∀ j, v.length - 1 - k < j → j < v.length → ∃ x, v[j]? = some x ∧ p x = true := by
      intro j h1 h2
      obtain ⟨x, hx, hpx⟩ := hdead (v.length - 1 - j) (by omega)
      rw [List.getElem?_reverse (by omega)] at hx
      have e : v.length - 1 - (v.length - 1 - j) = j := by omega
      rw [e] at hx
      exact ⟨x, hx, hpx⟩
    obtain ⟨v1, m1, last1, e, post⟩ := pruneLoop_spec p (v.length - 1 - k + 1) 0 (v.length - 1 - k) v
      (resize m0 v.length invalidIndex) (by omega) (by omega) (length_resize _ _ _)
      ⟨y, hy, hpy⟩ (by omega)
    obtain ⟨p1, p2, p3, p3', p4, p5, p6, p7, p8, p9, p10⟩ := post
    refine ⟨v1.take (last1 + 1), m1, by simp [e], ?_⟩
    have hlen : (v1.take (last1 + 1)).length = last1 + 1 := by
      rw [List.length_take]; omega
    have hlive : ∀ j x, v[j]? = some x → p x = false → j ≤ v.length - 1 - k := by
      intro j x hx hp
      by_contra hc
      obtain ⟨x', hx', hp'⟩ := hdead' j (by omega) (getElem?_lt_of_some hx)
      rw [hx] at hx'; simp at hx'; subst hx'; simp [hp] at hp'
    refine ⟨?_, by rw [p2, length_resize], ?_, ?_, ?_, ?_⟩
    · simp only [List.drop_zero] at p10
      refine p10.trans ?_
      have e2 : v = List.take (v.length - 1 - k + 1) v ++ List.drop (v.length - 1 - k + 1) v :=
        (List.take_append_drop _ _).symm
      conv_rhs => rw [e2]
      rw [List.filter_append]
      have e3 : List.filter (fun x => !p x) (List.drop (v.length - 1 - k + 1) v) = [] := by
        have := filter_segment_dead p v (v.length - 1 - k + 1) v.length
          (fun j h1 h2 => hdead' j (by omega) h2)
        simpa using this
      rw [e3]; simp
    · intro j x hx hp
      obtain ⟨q, q1, q2, q3, q4, q5⟩ := p6 j x (Nat.zero_le _) (hlive j x hx hp) hx hp
      refine ⟨q, q1, by omega, ?_, fun h => q5 (by omega)⟩
      rw [List.getElem?_take_of_lt (by omega)]; exact q4
    · intro j x hx hp
      have hjl := getElem?_lt_of_some hx
      by_cases hj : j ≤ v.length - 1 - k
      · obtain ⟨q1, q2⟩ := p7 j x (Nat.zero_le _) hj hx hp
        exact ⟨fun h => q1 (by omega), fun h => q2 (by omega)⟩
      · refine ⟨fun h => by omega, fun _ => p5 j (Or.inr (by omega))⟩
    · intro j1 j2 x1 x2 q hx1 hp1 hx2 hp2 hq1 hq2
      exact p8 j1 j2 x1 x2 q (Nat.zero_le _) (hlive j1 x1 hx1 hp1) (Nat.zero_le _)
        (hlive j2 x2 hx2 hp2) hx1 hp1 hx2 hp2 hq1 hq2
    · intro q hq
      obtain ⟨j, x, _, _, q3, q4, q5⟩ := p9 q (Nat.zero_le _) (by omega)
      exact ⟨j, x, q3, q4, q5⟩

end Util

open Octree


namespace Octree

theorem hasAddr_node (a b : Nat) (c : Vec3) (w : ℚ) (d : Int) (ch : Fin 8 → Child)
    (idx : Finset Nat) :
    hasAddr a (Child.node b c w d ch idx) = true ↔ b = a ∨ ∃ k, hasAddr a (ch k) = true := by
  simp [hasAddr, List.any_eq_true]

theorem holdsAt_node (id a b : Nat) (c : Vec3) (w : ℚ) (d : Int) (ch : Fin 8 → Child)
    (idx : Finset Nat) :
    holdsAt id a (Child.node b c w d ch idx) = true ↔
      (b = a ∧ id ∈ idx) ∨ ∃ k, holdsAt id a (ch k) = true := by
  simp [holdsAt, List.any_eq_true]

theorem hasAddr_none (a : Nat) : hasAddr a Child.none = false := rfl

theorem holdsAt_none (id a : Nat) : holdsAt id a Child.none = false := rfl

theorem holdsAt_hasAddr (id a : Nat) : ∀ t, holdsAt id a t = true → hasAddr a t = true := by
  intro t
  induction t with
  | none => intro h; simp [holdsAt] at h
  | node b c w d ch idx ih =>
    intro h
    rw [holdsAt_node] at h
    rw [hasAddr_node]
    rcases h with ⟨h1, _⟩ | ⟨k, hk⟩
    · exact Or.inl h1
    · exact Or.inr ⟨k, ih k hk⟩

theorem nodeAddElement_spec (index : Nat) (position : Vec3) (e : ℚ) :
    ∀ fuel next t t1 a next1,
      nodeAddElement fuel index position e next t = some (t1, a, next1) →
      UniqAddr t → (∀ b, hasAddr b t = true → b < next) →
      UniqAddr t1 ∧ next ≤ next1 ∧ (∀ b, hasAddr b t1 = true → b < next1) ∧
        (∀ b, hasAddr b t1 = true ↔ (hasAddr b t = true ∨ (next ≤ b ∧ hasAddr b t1 = true))) ∧
        (∀ b, hasAddr b t = true → hasAddr b t1 = true) ∧
        (∀ id b, holdsAt id b t1 = true ↔ (holdsAt id b t = true ∨ (id = index ∧ b = a))) ∧
        hasAddr a t1 = true := by
  intro fuel
  induction fuel with
  | zero => intro next t t1 a next1 h; simp [nodeAddElement] at h
  | succ fuel ih =>
    intro next t t1 a next1 h hu hb
    cases t with
    | none => simp [nodeAddElement] at h
    | node b c w d ch idx =>
      rw [nodeAddElement] at h
      split at h
      · split at h
        · -- descend
          rename_i hins
          split at h
          · simp at h
          · rename_i child nx hmade
            split at h
            · simp at h
            · rename_i child1 a1 next2 hrec
              simp only [Option.some.injEq, Prod.mk.injEq] at h
              obtain ⟨rfl, rfl, rfl⟩ := h
              obtain ⟨hu1, hu2, hu3⟩ := hu
              -- facts about the child before insertion
              have hchild : UniqAddr child ∧ (∀ x, hasAddr x child = true → x < nx) ∧ next ≤ nx ∧
                  (∀ x, hasAddr x child = true ↔
                    (hasAddr x (ch (childIndex c position)) = true ∨
                      (x = next ∧ (ch (childIndex c position)).isSome = false ∧ nx = next + 1))) ∧
                  (∀ id x, holdsAt id x child = true ↔
                    holdsAt id x (ch (childIndex c position)) = true) := by
                unfold childOrMake at hmade
                by_cases hs : (ch (childIndex c position)).isSome = true
                · simp only [hs, if_true, Option.some.injEq, Prod.mk.injEq] at hmade
                  obtain ⟨rfl, rfl⟩ := hmade
                  refine ⟨hu2 _, fun x hx => hb x ?_, le_refl _, ?_, fun _ _ => Iff.rfl⟩
                  · rw [hasAddr_node]; exact Or.inr ⟨_, hx⟩
                  · intro x; simp [hs]
                · simp only [hs, Bool.false_eq_true, if_false, Option.map_eq_some'] at hmade
                  obtain ⟨n, hn, hn2⟩ := hmade
                  simp only [Prod.mk.injEq] at hn2
                  obtain ⟨rfl, rfl⟩ := hn2
                  have hnone : ch (childIndex c position) = Child.none := by
                    cases hc : ch (childIndex c position) with
                    | none => rfl
                    | node _ _ _ _ _ _ => rw [hc] at hs; simp [Child.isSome] at hs
                  unfold mkNode at hn
                  split at hn
                  · simp only [Option.some.injEq] at hn
                    subst hn
                    refine ⟨?_, ?_, by omega, ?_, ?_⟩
                    · simp [UniqAddr, hasAddr]
                    · intro x hx
                      simp [hasAddr] at hx
                      omega
                    · intro x
                      rw [hnone]
                      simp [hasAddr, Child.isSome]
                      exact eq_comm
                    · intro id x
                      rw [hnone]
                      simp [holdsAt]
                  · simp at hn
              obtain ⟨c1, c2, c3, c4, c5⟩ := hchild
              obtain ⟨r1, r2, r3, r4, r5, r6, r7⟩ := ih nx child child1 a1 next2 hrec c1 c2
              -- address facts for the updated children
              have hupd : ∀ k x, hasAddr x (Function.update ch (childIndex c position) child1 k)
                  = true → (hasAddr x (ch k) = true ∨ (k = childIndex c position ∧ next ≤ x ∧
                    hasAddr x child1 = true)) := by
                intro k x hx
                by_cases hk : k = childIndex c position
                · subst hk
                  rw [Function.update_same] at hx
                  rcases (r4 x).mp hx with h1 | ⟨h1, h2⟩
                  · rcases (c4 x).mp h1 with h3 | ⟨h3, _, _⟩
                    · exact Or.inl h3
                    · exact Or.inr ⟨rfl, by omega, hx⟩
                  · exact Or.inr ⟨rfl, by omega, hx⟩
                · rw [Function.update_noteq hk] at hx
                  exact Or.inl hx
              have hfresh : ∀ k x, hasAddr x (ch k) = true → x < next := by
                intro k x hx
                exact hb x (by rw [hasAddr_node]; exact Or.inr ⟨k, hx⟩)
              refine ⟨?_, by omega, ?_, ?_, ?_, ?_, ?_⟩
              · refine ⟨?_, ?_, ?_⟩
                · intro k
                  by_contra hcon
                  rw [Bool.not_eq_false] at hcon
                  rcases hupd k b hcon with h1 | ⟨_, h2, _⟩
                  · rw [hu1 k] at h1; simp at h1
                  · have := hb b (by rw [hasAddr_node]; exact Or.inl rfl)
                    omega
                · intro k
                  by_cases hk : k = childIndex c position
                  · subst hk; rw [Function.update_same]; exact r1
                  · rw [Function.update_noteq hk]; exact hu2 k
                · intro k1 k2 x hne hx1
                  by_contra hcon
                  rw [Bool.not_eq_false] at hcon
                  rcases hupd k1 x hx1 with h1 | ⟨h1, h2, h3⟩
                  · rcases hupd k2 x hcon with g1 | ⟨g1, g2, g3⟩
                    · rw [hu3 k1 k2 x hne h1] at g1; simp at g1
                    · have := hfresh k1 x h1; omega
                  · rcases hupd k2 x hcon with g1 | ⟨g1, g2, g3⟩
                    · have := hfresh k2 x g1; omega
                    · exact hne (h1.trans g1.symm)
              · intro x hx
                rw [hasAddr_node] at hx
                rcases hx with rfl | ⟨k, hk⟩
                · have := hb b (by rw [hasAddr_node]; exact Or.inl rfl); omega
                · rcases hupd k x hk with h1 | ⟨_, _, h3⟩
                  · have := hfresh k x h1; omega
                  · exact r3 x h3
              · intro x
                constructor
                · intro hx
                  by_cases hlt : next ≤ x
                  · exact Or.inr ⟨hlt, hx⟩
                  · left
                    rw [hasAddr_node] at hx ⊢
                    rcases hx with rfl | ⟨k, hk⟩
                    · exact Or.inl rfl
                    · rcases hupd k x hk with h1 | ⟨_, h2, _⟩
                      · exact Or.inr ⟨k, h1⟩
                      · omega
                · rintro (hx | ⟨_, hx⟩)
                  · rw [hasAddr_node] at hx ⊢
                    rcases hx with rfl | ⟨k, hk⟩
                    · exact Or.inl rfl
                    · right
                      refine ⟨k, ?_⟩
                      by_cases hkk : k = childIndex c position
                      · subst hkk
                        rw [Function.update_same]
                        exact r5 x ((c4 x).mpr (Or.inl hk))
                      · rw [Function.update_noteq hkk]; exact hk
                  · exact hx
              · intro x hx
                rw [hasAddr_node] at hx ⊢
                rcases hx with rfl | ⟨k, hk⟩
                · exact Or.inl rfl
                · right
                  refine ⟨k, ?_⟩
                  by_cases hkk : k = childIndex c position
                  · subst hkk
                    rw [Function.update_same]
                    exact r5 x ((c4 x).mpr (Or.inl hk))
                  · rw [Function.update_noteq hkk]; exact hk
              · intro id x
                rw [holdsAt_node, holdsAt_node]
                constructor
                · rintro (h1 | ⟨k, hk⟩)
                  · exact Or.inl (Or.inl h1)
                  · by_cases hkk : k = childIndex c position
                    · subst hkk
                      rw [Function.update_same] at hk
                      rcases (r6 id x).mp hk with h2 | h2
                      · exact Or.inl (Or.inr ⟨_, (c5 id x).mp h2⟩)
                      · exact Or.inr h2
                    · rw [Function.update_noteq hkk] at hk
                      exact Or.inl (Or.inr ⟨k, hk⟩)
                · rintro ((h1 | ⟨k, hk⟩) | h2)
                  · exact Or.inl h1
                  · right
                    refine ⟨k, ?_⟩
                    by_cases hkk : k = childIndex c position
                    · subst hkk
                      rw [Function.update_same]
                      exact (r6 id x).mpr (Or.inl ((c5 id x).mpr hk))
                    · rw [Function.update_noteq hkk]; exact hk
                  · right
                    refine ⟨childIndex c position, ?_⟩
                    rw [Function.update_same]
                    exact (r6 id x).mpr (Or.inr h2)
              · rw [hasAddr_node]
                right
                exact ⟨childIndex c position, by rw [Function.update_same]; exact r7⟩
        · -- store here
          simp only [Option.some.injEq, Prod.mk.injEq] at h
          obtain ⟨rfl, rfl, rfl⟩ := h
          refine ⟨hu, le_refl _, ?_, ?_, ?_, ?_, ?_⟩
          · intro x hx
            exact hb x (by rw [hasAddr_node] at hx ⊢; exact hx)
          · intro x
            simp only [hasAddr_node]
            tauto
          · intro x hx
            rw [hasAddr_node] at hx ⊢; exact hx
          · intro id x
            rw [holdsAt_node, holdsAt_node, Finset.mem_insert]
            constructor
            · rintro (⟨h1, h2 | h2⟩ | h3)
              · exact Or.inr ⟨h2, h1.symm⟩
              · exact Or.inl (Or.inl ⟨h1, h2⟩)
              · exact Or.inl (Or.inr h3)
            · rintro ((⟨h1, h2⟩ | h3) | ⟨h4, h5⟩)
              · exact Or.inl ⟨h1, Or.inr h2⟩
              · exact Or.inr h3
              · exact Or.inl ⟨h5.symm, Or.inl h4⟩
          · rw [hasAddr_node]; exact Or.inl rfl
      · simp at h

end Octree

namespace Util

theorem getD_resize_none {α : Type} (v : List (Option α)) (n id : Nat) :
    (resize v n none).getD id none = if id < n then v.getD id none else none := by
  unfold resize
  rw [List.getD_eq_getElem?_getD, List.getD_eq_getElem?_getD, List.getElem?_append]
  simp only [List.length_take, List.getElem?_take, List.getElem?_replicate]
  by_cases h1 : id < n
  · by_cases h2 : id < v.length
    · simp [h1, h2]
    · have h3 : ¬ id < min n v.length := by omega
      have h4 : v[id]? = none := List.getElem?_eq_none (by omega)
      simp only [h3, if_false, h1, if_true, h4]
      split <;> rfl
  · have h3 : ¬ id < min n v.length := by omega
    simp only [h3, if_false, h1]
    have h4 : ¬ id - min n v.length < n - v.length := by omega
    simp [h4]

end Util

namespace DynamicOctree

theorem addToElementNodeMap_spec (enm enm1 : List (Option Nat)) (index a : Nat)
    (h : addToElementNodeMap enm index a = some enm1) :
    enm.getD index none = none ∧
      ∀ id, enm1.getD id none = if id = index then some a else enm.getD id none := by
  unfold addToElementNodeMap at h
  by_cases hge : index ≥ enm.length
  · simp only [hge, if_true] at h
    split at h
    · rename_i hget
      simp only [Option.some.injEq] at h
      subst h
      refine ⟨?_, ?_⟩
      · rw [List.getD_eq_getElem?_getD, List.getElem?_eq_none hge]; rfl
      · intro id
        have hlen : (Util.resize enm (index + 1) none).length = index + 1 := by
          simp [Util.resize]; omega
        by_cases hid : id = index
        · subst hid
          rw [List.getD_eq_getElem?_getD, List.getElem?_set_self (by omega)]
          simp
        · rw [List.getD_eq_getElem?_getD, List.getElem?_set_ne (Ne.symm hid),
            ← List.getD_eq_getElem?_getD, Util.getD_resize_none]
          simp only [hid, if_false]
          split
          · rfl
          · rw [List.getD_eq_getElem?_getD, List.getElem?_eq_none (by omega)]; rfl
    · simp at h
  · simp only [hge, if_false] at h
    split at h
    · rename_i hget
      simp only [Option.some.injEq] at h
      subst h
      refine ⟨?_, ?_⟩
      · rw [List.getD_eq_getElem?_getD, hget]; rfl
      · intro id
        by_cases hid : id = index
        · subst hid
          rw [List.getD_eq_getElem?_getD, List.getElem?_set_self (by omega)]
          simp
        · rw [List.getD_eq_getElem?_getD, List.getElem?_set_ne (Ne.symm hid),
            ← List.getD_eq_getElem?_getD]
          simp [hid]
    · simp at h

theorem parentIndex_lt (c position : Vec3) : parentIndex c position < 8 := by
  unfold parentIndex
  split <;> split <;> split <;> omega

theorem makeParent_spec (o o1 : DynamicOctree) (position : Vec3)
    (h : makeParent o position = some o1) (hr : Registration o) :
    Registration o1 ∧ o1.elementNodeMap = o.elementNodeMap ∧
      (∀ id a, holdsAt id a o1.root = true ↔ holdsAt id a o.root = true) ∧
      o.heapNext ≤ o1.heapNext := by
  unfold makeParent at h
  obtain ⟨hu, hb, hreg⟩ := hr
  cases hroot : o.root with
  | none => rw [hroot] at h; simp at h
  | node a c w d ch idx =>
    rw [hroot] at h
    simp only [Option.map_eq_some'] at h
    obtain ⟨n, hn, rfl⟩ := h
    unfold mkNode at hn
    split at hn
    · simp only [Option.some.injEq] at hn
      subst hn
      rw [hroot] at hu hb hreg
      have hold : ∀ id b, holdsAt id b
          (setChild (parentIndex c position) (Child.node a c w d ch idx)
            (Child.node o.heapNext (parentCenter c (w * (1 / 2)) position) (w * 2) (d - 1)
              (fun _ => Child.none) ∅)) = true ↔
          holdsAt id b (Child.node a c w d ch idx) = true := by
        intro id b
        simp only [setChild]
        rw [holdsAt_node]
        constructor
        · rintro (⟨_, h2⟩ | ⟨k, hk⟩)
          · simp at h2
          · split at hk
            · exact hk
            · simp [holdsAt] at hk
        · intro h1
          right
          exact ⟨⟨parentIndex c position, parentIndex_lt c position⟩, by simpa using h1⟩
      refine ⟨⟨?_, ?_, ?_⟩, rfl, ?_, by simp⟩
      · simp only [setChild]
        refine ⟨?_, ?_, ?_⟩
        · intro k
          dsimp only
          split
          · by_contra hcon
            rw [Bool.not_eq_false] at hcon
            have := hb _ hcon
            omega
          · rfl
        · intro k
          dsimp only
          split
          · exact hu
          · trivial
        · intro k1 k2 x hne hx
          dsimp only at hx ⊢
          split at hx
          · rename_i h1
            split
            · rename_i h2
              exact absurd (Fin.ext (h1.trans h2.symm)) hne
            · rfl
          · simp [hasAddr] at hx
      · intro x hx
        simp only [setChild] at hx
        rw [hasAddr_node] at hx
        rcases hx with rfl | ⟨k, hk⟩
        · simp
        · split at hk
          · have := hb x hk
            simp; omega
          · simp [hasAddr] at hk
      · intro id b
        rw [hold id b]
        exact hreg id b
      · intro id b
        exact hold id b
    · simp at hn

theorem addElement_registration :
    ∀ fuel (o o1 : DynamicOctree) (index : Nat) (position : Vec3) (e : ℚ),
      addElement fuel o index position e = some o1 → Registration o →
      Registration o1 ∧ o.nodeOf index = none ∧ (∃ a, o1.nodeOf index = some a) ∧
        (∀ id, id ≠ index → o1.nodeOf id = o.nodeOf id) ∧ o.heapNext ≤ o1.heapNext := by
  intro fuel
  induction fuel with
  | zero => intro o o1 index position e h; simp [addElement] at h
  | succ fuel ih =>
    intro o o1 index position e h hr
    rw [addElement] at h
    split at h
    · simp at h
    · rename_i a c w d ch idx hroot
      split at h
      · split at h
        · simp at h
        · rename_i r a1 next hnode
          simp only [Option.map_eq_some'] at h
          obtain ⟨enm, henm, rfl⟩ := h
          obtain ⟨hu, hb, hreg⟩ := hr
          obtain ⟨r1, r2, r3, r4, r5, r6, r7⟩ :=
            nodeAddElement_spec index position e (fuel + 1) o.heapNext o.root r a1 next hnode hu hb
          obtain ⟨m1, m2⟩ := addToElementNodeMap_spec _ _ _ _ henm
          refine ⟨⟨r1, r3, ?_⟩, m1, ⟨a1, ?_⟩, ?_, r2⟩
          · intro id b
            simp only [nodeOf] at hreg ⊢
            rw [r6 id b, m2 id, hreg id b]
            by_cases hid : id = index
            · subst hid
              simp only [if_true, Option.some.injEq]
              rw [m1]
              constructor
              · rintro (h1 | ⟨_, h2⟩)
                · simp at h1
                · exact h2.symm
              · intro h1; exact Or.inr ⟨trivial, h1.symm⟩
            · simp [hid]
          · simp only [nodeOf]; rw [m2]; simp
          · intro id hid
            simp only [nodeOf]; rw [m2]; simp [hid]
      · split at h
        · simp at h
        · rename_i o2 hmp
          obtain ⟨p1, p2, p3, p4⟩ := makeParent_spec o o2 position hmp hr
          obtain ⟨q1, q2, q3, q4, q5⟩ := ih o2 o1 index position e h p1
          refine ⟨q1, ?_, q3, ?_, by omega⟩
          · simpa [nodeOf, p2] using q2
          · intro id hid
            rw [q4 id hid]
            simp [nodeOf, p2]

end DynamicOctree

namespace Octree

theorem isSome_eq_false {t : Child} (h : t.isSome = false) : t = Child.none := by
  cases t with
  | none => rfl
  | node _ _ _ _ _ _ => simp [Child.isSome] at h

theorem hasChildren_false (ch : Fin 8 → Child) (h : hasChildren ch = false) :
    ∀ k, ch k = Child.none := by
  intro k
  apply isSome_eq_false
  simp only [hasChildren, Bool.or_eq_false_iff] at h
  obtain ⟨⟨⟨⟨⟨⟨⟨h0, h1⟩, h2⟩, h3⟩, h4⟩, h5⟩, h6⟩, h7⟩ := h
  fin_cases k <;> assumption

theorem hasChildren_true (ch : Fin 8 → Child) (k : Fin 8) (h : (ch k).isSome = true) :
    hasChildren ch = true := by
  simp only [hasChildren, Bool.or_eq_true]
  fin_cases k <;> simp_all

theorem isEmpty_holdsAt (t : Child) (h : isEmpty t = true) (id b : Nat) :
    holdsAt id b t = false := by
  cases t with
  | none => rfl
  | node a c w d ch idx =>
    simp only [isEmpty, Bool.and_eq_true, decide_eq_true_eq, Bool.not_eq_true'] at h
    obtain ⟨h1, h2⟩ := h
    have hn := hasChildren_false ch h2
    rw [Bool.eq_false_iff]
    intro hcon
    rw [holdsAt_node] at hcon
    rcases hcon with ⟨_, h3⟩ | ⟨k, hk⟩
    · rw [h1] at h3; simp at h3
    · rw [hn k] at hk; simp [holdsAt] at hk

theorem eraseAt_hasAddr (a id b : Nat) : ∀ t, hasAddr b (eraseAt a id t) = hasAddr b t := by
  intro t
  induction t with
  | none => rfl
  | node b0 c w d ch idx ih =>
    rw [eraseAt]
    split
    · simp [hasAddr]
    · simp only [hasAddr]
      congr 2
      funext k
      exact ih k

theorem eraseAt_uniq (a id : Nat) : ∀ t, UniqAddr t → UniqAddr (eraseAt a id t) := by
  intro t
  induction t with
  | none => intro h; exact h
  | node b0 c w d ch idx ih =>
    intro h
    rw [eraseAt]
    split
    · exact h
    · obtain ⟨h1, h2, h3⟩ := h
      refine ⟨?_, ?_, ?_⟩
      · intro k; rw [eraseAt_hasAddr]; exact h1 k
      · intro k; exact ih k (h2 k)
      · intro k1 k2 x hne hx
        rw [eraseAt_hasAddr] at hx ⊢
        exact h3 k1 k2 x hne hx

theorem eraseAt_holdsAt (a id : Nat) :
    ∀ t, UniqAddr t → ∀ j b,
      (holdsAt j b (eraseAt a id t) = true ↔ (holdsAt j b t = true ∧ ¬ (j = id ∧ b = a))) := by
  intro t
  induction t with
  | none => intro _ j b; simp [eraseAt, holdsAt]
  | node b0 c w d ch idx ih =>
    intro hu j b
    obtain ⟨h1, h2, h3⟩ := hu
    rw [eraseAt]
    split
    · rename_i hb
      subst hb
      rw [holdsAt_node, holdsAt_node, Finset.mem_erase]
      constructor
      · rintro (⟨e1, e2, e3⟩ | ⟨k, hk⟩)
        · exact ⟨Or.inl ⟨e1, e3⟩, fun hc => e2 hc.1⟩
        · refine ⟨Or.inr ⟨k, hk⟩, fun hc => ?_⟩
          have := holdsAt_hasAddr j b _ hk
          rw [hc.2, h1 k] at this
          simp at this
      · rintro ⟨⟨e1, e3⟩ | ⟨k, hk⟩, hn⟩
        · exact Or.inl ⟨e1, fun hc => hn ⟨hc, e1.symm⟩, e3⟩
        · exact Or.inr ⟨k, hk⟩
    · rename_i hb
      rw [holdsAt_node, holdsAt_node]
      constructor
      · rintro (⟨e1, e2⟩ | ⟨k, hk⟩)
        · exact ⟨Or.inl ⟨e1, e2⟩, fun hc => hb (e1.trans hc.2)⟩
        · obtain ⟨g1, g2⟩ := (ih k (h2 k) j b).mp hk
          exact ⟨Or.inr ⟨k, g1⟩, g2⟩
      · rintro ⟨⟨e1, e2⟩ | ⟨k, hk⟩, hn⟩
        · exact Or.inl ⟨e1, e2⟩
        · exact Or.inr ⟨k, (ih k (h2 k) j b).mpr ⟨hk, hn⟩⟩

theorem firstSome_spec (L : List Child) :
    (L.foldr (fun t acc => if t.isSome then t else acc) Child.none = Child.none ∧
      ∀ t ∈ L, t.isSome = false) ∨
    (L.foldr (fun t acc => if t.isSome then t else acc) Child.none ∈ L ∧
      (L.foldr (fun t acc => if t.isSome then t else acc) Child.none).isSome = true) := by
  induction L with
  | nil => left; simp
  | cons x L ih =>
    simp only [List.foldr_cons]
    by_cases hx : x.isSome = true
    · right; simp [hx]
    · simp only [hx, Bool.false_eq_true, if_false]
      rcases ih with ⟨h1, h2⟩ | ⟨h1, h2⟩
      · left
        refine ⟨h1, ?_⟩
        intro t ht
        rcases List.mem_cons.mp ht with rfl | h3
        · simpa using hx
        · exact h2 t h3
      · right
        exact ⟨List.mem_cons_of_mem _ h1, h2⟩

theorem find_isSome (a : Nat) : ∀ t, (find a t).isSome = hasAddr a t := by
  intro t
  induction t with
  | none => rfl
  | node b c w d ch idx ih =>
    rw [find]
    split
    · rename_i hb; simp [Child.isSome, hasAddr, hb]
    · rename_i hb
      rcases firstSome_spec ((List.finRange 8).map (fun k => find a (ch k))) with ⟨h1, h2⟩ | ⟨h1, h2⟩
      · rw [h1]
        symm
        show hasAddr a (Child.node b c w d ch idx) = false
        rw [Bool.eq_false_iff]
        intro hcon
        rw [hasAddr_node] at hcon
        rcases hcon with h3 | ⟨k, hk⟩
        · exact hb h3
        · have := h2 (find a (ch k)) (by simp)
          rw [ih k, hk] at this
          simp at this
      · rw [h2]
        symm
        rw [hasAddr_node]
        right
        simp only [List.mem_map, List.mem_finRange, true_and] at h1
        obtain ⟨k, hk⟩ := h1
        refine ⟨k, ?_⟩
        rw [← ih k, hk, h2]

theorem find_indices (a id : Nat) :
    ∀ t, UniqAddr t → (id ∈ (find a t).indices ↔ holdsAt id a t = true) := by
  intro t
  induction t with
  | none => intro _; simp [find, Child.indices, holdsAt]
  | node b c w d ch idx ih =>
    intro hu
    obtain ⟨h1, h2, h3⟩ := hu
    rw [find, holdsAt_node]
    split
    · rename_i hb
      subst hb
      simp only [Child.indices]
      constructor
      · intro h; exact Or.inl ⟨trivial, h⟩
      · rintro (⟨_, h⟩ | ⟨k, hk⟩)
        · exact h
        · have := holdsAt_hasAddr id b _ hk
          rw [h1 k] at this; simp at this
    · rename_i hb
      rcases firstSome_spec ((List.finRange 8).map (fun k => find a (ch k))) with ⟨g1, g2⟩ | ⟨g1, g2⟩
      · rw [g1]
        simp only [Child.indices, Finset.not_mem_empty, false_iff]
        rintro (⟨e, _⟩ | ⟨k, hk⟩)
        · exact hb e
        · have := g2 (find a (ch k)) (by simp)
          rw [find_isSome, holdsAt_hasAddr id a _ hk] at this
          simp at this
      · simp only [List.mem_map, List.mem_finRange, true_and] at g1
        obtain ⟨k, hk⟩ := g1
        rw [← hk]
        rw [← hk, find_isSome] at g2
        rw [ih k (h2 k)]
        constructor
        · intro h; exact Or.inr ⟨k, h⟩
        · rintro (⟨e, _⟩ | ⟨k', hk'⟩)
          · exact absurd e hb
          · by_cases hkk : k' = k
            · subst hkk; exact hk'
            · have := h3 k k' a (Ne.symm hkk) g2
              rw [holdsAt_hasAddr id a _ hk'] at this
              simp at this

theorem shrinkRootNode_spec :
    ∀ t, (∀ id b, holdsAt id b (shrinkRootNode t) = holdsAt id b t) ∧
      (∀ b, hasAddr b (shrinkRootNode t) = true → hasAddr b t = true) ∧
      (UniqAddr t → UniqAddr (shrinkRootNode t)) := by
  intro t
  induction t with
  | none => simp [shrinkRootNode]
  | node a c w d ch idx ih =>
    rw [shrinkRootNode]
    split
    · rename_i hcond
      simp only [Bool.and_eq_true, decide_eq_true_eq] at hcond
      split
      · rename_i k hk
        obtain ⟨i1, i2, i3⟩ := ih k
        have hothers : ∀ k', k' ≠ k → ∀ id b, holdsAt id b (ch k') = false := by
          intro k' hne id b
          have hnot : k' ∉ (List.finRange 8).filter
              (fun i => (ch i).isSome && !isEmpty (ch i)) := by
            rw [hk]; simpa using hne
          simp only [List.mem_filter, List.mem_finRange, true_and, Bool.and_eq_true,
            Bool.not_eq_true', not_and, Bool.not_eq_false] at hnot
          by_cases hs : (ch k').isSome = true
          · exact isEmpty_holdsAt _ (hnot hs) id b
          · have hn : ch k' = Child.none := isSome_eq_false (by simpa using hs)
            rw [hn]; rfl
        refine ⟨?_, ?_, ?_⟩
        · intro id b
          rw [i1 id b]
          rw [Bool.eq_iff_iff, holdsAt_node]
          constructor
          · intro h; exact Or.inr ⟨k, h⟩
          · rintro (⟨_, h⟩ | ⟨k', hk'⟩)
            · rw [hcond.1] at h; simp at h
            · by_cases hkk : k' = k
              · subst hkk; exact hk'
              · rw [hothers k' hkk id b] at hk'; simp at hk'
        · intro b hb
          rw [hasAddr_node]
          exact Or.inr ⟨k, i2 b hb⟩
        · intro hu
          exact i3 (hu.2.1 k)
      · exact ⟨fun _ _ => rfl, fun _ h => h, fun h => h⟩
    · exact ⟨fun _ _ => rfl, fun _ h => h, fun h => h⟩

end Octree

namespace DynamicOctree

theorem nodeOf_set (enm : List (Option Nat)) (index id : Nat) (x : Option Nat)
    (h : index < enm.length) :
    (enm.set index x).getD id none = if id = index then x else enm.getD id none := by
  rw [List.getD_eq_getElem?_getD, List.getD_eq_getElem?_getD]
  by_cases hid : id = index
  · subst hid
    rw [List.getElem?_set_self h]; simp
  · rw [List.getElem?_set_ne (Ne.symm hid)]; simp [hid]

theorem deleteElement_registration (o o1 : DynamicOctree) (index : Nat)
    (h : deleteElement o index = some o1) (hr : Registration o) :
    Registration o1 ∧ o1.nodeOf index = none ∧ (∃ a, o.nodeOf index = some a) ∧
      (∀ id, id ≠ index → o1.nodeOf id = o.nodeOf id) ∧ o1.heapNext = o.heapNext := by
  unfold deleteElement at h
  obtain ⟨hu, hb, hreg⟩ := hr
  split at h
  · rename_i a hget
    have hlt : index < o.elementNodeMap.length := Util.getElem?_lt_of_some hget
    split at h
    · rename_i hmem
      have hnode : ∀ id, (o.elementNodeMap.set index none).getD id none =
          if id = index then none else o.nodeOf id := by
        intro id; rw [nodeOf_set _ _ _ _ hlt]; rfl
      have hoa : o.nodeOf index = some a := by
        simp [nodeOf, List.getD_eq_getElem?_getD, hget]
      have hreg1 : ∀ id b, holdsAt id b (eraseAt a index o.root) = true ↔
          (o.elementNodeMap.set index none).getD id none = some b := by
        intro id b
        rw [eraseAt_holdsAt a index o.root hu id b, hreg id b, hnode id]
        by_cases hid : id = index
        · subst hid
          simp only [if_true]
          constructor
          · rintro ⟨h1, h2⟩
            rw [hoa] at h1
            simp only [Option.some.injEq] at h1
            exact absurd ⟨trivial, h1.symm⟩ h2
          · intro h1; simp at h1
        · simp [hid]
      have hu1 := eraseAt_uniq a index o.root hu
      have hb1 : ∀ x, hasAddr x (eraseAt a index o.root) = true → x < o.heapNext := by
        intro x hx; rw [eraseAt_hasAddr] at hx; exact hb x hx
      have hcommon : ∀ (r : Child), (∀ id b, holdsAt id b r = holdsAt id b (eraseAt a index o.root)) →
          (∀ b, hasAddr b r = true → hasAddr b (eraseAt a index o.root) = true) → UniqAddr r →
          Registration ⟨r, o.elementNodeMap.set index none, o.heapNext⟩ ∧
            nodeOf ⟨r, o.elementNodeMap.set index none, o.heapNext⟩ index = none ∧
            (∃ a, o.nodeOf index = some a) ∧
            (∀ id, id ≠ index →
              nodeOf ⟨r, o.elementNodeMap.set index none, o.heapNext⟩ id = o.nodeOf id) ∧
            o.heapNext = o.heapNext := by
        intro r hr1 hr2 hr3
        refine ⟨⟨hr3, fun x hx => hb1 x (hr2 x hx), ?_⟩, ?_, ⟨a, hoa⟩, ?_, rfl⟩
        · intro id b
          simp only [nodeOf]
          rw [hr1 id b]; exact hreg1 id b
        · simp only [nodeOf]; rw [hnode]; simp
        · intro id hid
          simp only [nodeOf]; rw [hnode]; simp [hid, nodeOf]
      simp only at h
      split at h
      · split at h
        · rename_i hempty
          simp only [Option.some.injEq] at h
          subst h
          refine hcommon Child.none ?_ ?_ trivial
          · intro id b
            rw [isEmpty_holdsAt _ hempty]; rfl
          · intro b hb'; simp [hasAddr] at hb'
        · simp only [Option.some.injEq] at h
          subst h
          obtain ⟨s1, s2, s3⟩ := shrinkRootNode_spec (eraseAt a index o.root)
          exact hcommon _ s1 s2 (s3 hu1)
      · simp only [Option.some.injEq] at h
        subst h
        exact hcommon _ (fun _ _ => rfl) (fun _ h => h) hu1
    · simp at h
  · simp at h

end DynamicOctree

namespace Octree

theorem nodeDeleteEmptyChildren_spec :
    ∀ t, (∀ id b, holdsAt id b (nodeDeleteEmptyChildren t).1 = holdsAt id b t) ∧
      ((nodeDeleteEmptyChildren t).2 = true → ∀ id b, holdsAt id b t = false) ∧
      (∀ b, hasAddr b (nodeDeleteEmptyChildren t).1 = true → hasAddr b t = true) ∧
      (UniqAddr t → UniqAddr (nodeDeleteEmptyChildren t).1) := by
  intro t
  induction t with
  | none => simp [nodeDeleteEmptyChildren, holdsAt]
  | node a c w d ch idx ih =>
    have hchild : ∀ k id b, holdsAt id b
        (if (ch k).isSome then
          if (nodeDeleteEmptyChildren (ch k)).2 then Child.none
          else (nodeDeleteEmptyChildren (ch k)).1
        else Child.none) = holdsAt id b (ch k) := by
      intro k id b
      by_cases hs : (ch k).isSome = true
      · simp only [hs, if_true]
        by_cases hf : (nodeDeleteEmptyChildren (ch k)).2 = true
        · simp only [hf, if_true]
          rw [(ih k).2.1 hf id b]; rfl
        · simp only [hf, Bool.false_eq_true, if_false]
          exact (ih k).1 id b
      · simp only [hs, Bool.false_eq_true, if_false]
        have hn : ch k = Child.none := isSome_eq_false (by simpa using hs)
        rw [hn]
    have haddr : ∀ k b, hasAddr b
        (if (ch k).isSome then
          if (nodeDeleteEmptyChildren (ch k)).2 then Child.none
          else (nodeDeleteEmptyChildren (ch k)).1
        else Child.none) = true → hasAddr b (ch k) = true := by
      intro k b hb
      by_cases hs : (ch k).isSome = true
      · simp only [hs, if_true] at hb
        by_cases hf : (nodeDeleteEmptyChildren (ch k)).2 = true
        · simp [hf, hasAddr] at hb
        · simp only [hf, Bool.false_eq_true, if_false] at hb
          exact (ih k).2.2.1 b hb
      · simp [hs, hasAddr] at hb
    simp only [nodeDeleteEmptyChildren]
    refine ⟨?_, ?_, ?_, ?_⟩
    · intro id b
      rw [Bool.eq_iff_iff, holdsAt_node, holdsAt_node]
      constructor
      · rintro (h | ⟨k, hk⟩)
        · exact Or.inl h
        · exact Or.inr ⟨k, by rw [← hchild k id b]; exact hk⟩
      · rintro (h | ⟨k, hk⟩)
        · exact Or.inl h
        · exact Or.inr ⟨k, by rw [hchild k id b]; exact hk⟩
    · intro hflag id b
      simp only [Bool.and_eq_true, decide_eq_true_eq] at hflag
      obtain ⟨h1, h2⟩ := hflag
      rw [Bool.eq_false_iff]
      intro hcon
      rw [holdsAt_node] at hcon
      rcases hcon with ⟨_, h3⟩ | ⟨k, hk⟩
      · rw [h2] at h3; simp at h3
      · by_cases hs : (ch k).isSome = true
        · rw [(ih k).2.1 (h1 k hs) id b] at hk; simp at hk
        · have hn : ch k = Child.none := isSome_eq_false (by simpa using hs)
          rw [hn] at hk; simp [holdsAt] at hk
    · intro b hb
      rw [hasAddr_node] at hb ⊢
      rcases hb with h | ⟨k, hk⟩
      · exact Or.inl h
      · exact Or.inr ⟨k, haddr k b hk⟩
    · rintro ⟨h1, h2, h3⟩
      refine ⟨?_, ?_, ?_⟩
      · intro k
        rw [Bool.eq_false_iff]
        intro hcon
        have := haddr k a hcon
        rw [h1 k] at this; simp at this
      · intro k
        dsimp only
        by_cases hs : (ch k).isSome = true
        · simp only [hs, if_true]
          by_cases hf : (nodeDeleteEmptyChildren (ch k)).2 = true
          · simp only [hf, if_true]; trivial
          · simp only [hf, Bool.false_eq_true, if_false]
            exact (ih k).2.2.2 (h2 k)
        · simp only [hs, Bool.false_eq_true, if_false]; trivial
      · intro k1 k2 x hne hx
        rw [Bool.eq_false_iff]
        intro hcon
        have e1 := haddr k1 x hx
        have e2 := haddr k2 x hcon
        rw [h3 k1 k2 x hne e1] at e2
        simp at e2

theorem nodeUpdateIndices_spec (m : List Nat) :
    ∀ t t1, nodeUpdateIndices m t = some t1 →
      (∀ b, hasAddr b t1 = hasAddr b t) ∧ (UniqAddr t → UniqAddr t1) ∧
      (∀ j b, holdsAt j b t1 = true ↔
        ∃ i, holdsAt i b t = true ∧ m.getD i Util.invalidIndex = j) ∧
      (∀ i b, holdsAt i b t = true → ∃ j, m[i]? = some j ∧ j ≠ Util.invalidIndex) := by
  intro t
  induction t with
  | none =>
    intro t1 h
    simp only [nodeUpdateIndices, Option.some.injEq] at h
    subst h
    simp [holdsAt]
  | node a c w d ch idx ih =>
    intro t1 h
    rw [nodeUpdateIndices] at h
    split at h
    · rename_i hcond
      obtain ⟨hc1, hc2⟩ := hcond
      simp only [Option.some.injEq] at h
      subst h
      have hk : ∀ k, nodeUpdateIndices m (ch k) =
          some ((nodeUpdateIndices m (ch k)).getD Child.none) := by
        intro k
        have := hc2 k
        cases hx : nodeUpdateIndices m (ch k) with
        | none => rw [hx] at this; simp at this
        | some x => simp
      refine ⟨?_, ?_, ?_, ?_⟩
      · intro b
        simp only [hasAddr]
        congr 2
        funext k
        exact (ih k _ (hk k)).1 b
      · rintro ⟨h1, h2, h3⟩
        refine ⟨?_, ?_, ?_⟩
        · intro k; rw [(ih k _ (hk k)).1]; exact h1 k
        · intro k; exact (ih k _ (hk k)).2.1 (h2 k)
        · intro k1 k2 x hne hx
          rw [(ih k1 _ (hk k1)).1] at hx
          rw [(ih k2 _ (hk k2)).1]
          exact h3 k1 k2 x hne hx
      · intro j b
        rw [holdsAt_node]
        constructor
        · rintro (⟨e1, e2⟩ | ⟨k, hk'⟩)
          · rw [Finset.mem_image] at e2
            obtain ⟨i, hi, hij⟩ := e2
            exact ⟨i, by rw [holdsAt_node]; exact Or.inl ⟨e1, hi⟩, hij⟩
          · obtain ⟨i, hi, hij⟩ := ((ih k _ (hk k)).2.2.1 j b).mp hk'
            exact ⟨i, by rw [holdsAt_node]; exact Or.inr ⟨k, hi⟩, hij⟩
        · rintro ⟨i, hi, hij⟩
          rw [holdsAt_node] at hi
          rcases hi with ⟨e1, e2⟩ | ⟨k, hk'⟩
          · exact Or.inl ⟨e1, Finset.mem_image.mpr ⟨i, e2, hij⟩⟩
          · exact Or.inr ⟨k, ((ih k _ (hk k)).2.2.1 j b).mpr ⟨i, hk', hij⟩⟩
      · intro i b hi
        rw [holdsAt_node] at hi
        rcases hi with ⟨_, e2⟩ | ⟨k, hk'⟩
        · exact hc1 i e2
        · exact (ih k _ (hk k)).2.2.2 i b hk'
    · simp at h

end Octree

namespace DynamicOctree

theorem getD_set_set (enm : List (Option Nat)) (p q s : Nat) (x y : Option Nat)
    (hp : p < enm.length) (hq : q < enm.length) :
    ((enm.set p x).set q y).getD s none =
      if s = q then y else if s = p then x else enm.getD s none := by
  rw [nodeOf_set _ _ _ _ (by simpa using hq)]
  split
  · rfl
  · rw [nodeOf_set _ _ _ _ hp]

theorem getD_of_getElem? (enm : List (Option Nat)) (i : Nat) (x : Option Nat)
    (h : enm[i]? = some x) : enm.getD i none = x := by
  rw [List.getD_eq_getElem?_getD, h]; rfl

theorem updateMapLoop_spec (m : List Nat) (enm0 : List (Option Nat))
    (R1 : ∀ id a, enm0.getD id none = some a → ∃ j, m[id]? = some j ∧ j ≠ Util.invalidIndex)
    (R2 : ∀ id j, enm0.getD id none = none → m[id]? = some j → j = Util.invalidIndex ∨ j = id)
    (R3 : ∀ id1 id2 a1 a2 j, enm0.getD id1 none = some a1 → enm0.getD id2 none = some a2 →
      m[id1]? = some j → m[id2]? = some j → id1 = id2) :
    ∀ k t enm enm1, t + k = m.length → MapInv m enm0 t enm →
      updateMapLoop (m.drop t) t enm = some enm1 → MapInv m enm0 m.length enm1 := by
  intro k
  induction k with
  | zero =>
    intro t enm enm1 ht hinv h
    have : t = m.length := by omega
    subst this
    simp only [List.drop_length, updateMapLoop, Option.some.injEq] at h
    subst h
    exact hinv
  | succ k ih =>
    intro t enm enm1 ht hinv h
    have htl : t < m.length := by omega
    rw [List.drop_eq_getElem_cons htl, updateMapLoop] at h
    have hmt : m[t]? = some m[t] := List.getElem?_eq_getElem htl
    obtain ⟨p1, p2, p3⟩ := hinv
    -- no registered id below `t` is sent to `t` when `t` is registered
    have hnot : ∀ a0, enm0.getD t none = some a0 →
        ∀ i a, i < t → enm0.getD i none = some a → m[i]? ≠ some t := by
      intro a0 ha0 i a hi ha hmi
      rcases p3 i a t hi ha hmi (by omega) with h1 | h1
      · omega
      · rw [ha0] at h1; simp at h1
    split at h
    · rename_i hcond
      obtain ⟨hc1, hc2⟩ := hcond
      -- `t` is registered
      have hreg : ∃ a0, enm0.getD t none = some a0 := by
        cases hx : enm0.getD t none with
        | none =>
          rcases R2 t _ hx hmt with h1 | h1
          · exact absurd h1 hc1
          · exact absurd h1 hc2
        | some a0 => exact ⟨a0, rfl⟩
      obtain ⟨a0, ha0⟩ := hreg
      have hent : enm.getD t none = some a0 := by
        rw [p2 t (hnot a0 ha0), if_neg (by omega), ha0]
      split at h
      · rename_i a hget1 hget2
        have e1 := getD_of_getElem? _ _ _ hget1
        have e2 := getD_of_getElem? _ _ _ hget2
        have hl1 := Util.getElem?_lt_of_some hget1
        have hl2 := Util.getElem?_lt_of_some hget2
        rw [hent] at e1
        simp only [Option.some.injEq] at e1
        subst e1
        have hnew : ∀ i a, i < t → enm0.getD i none = some a → m[i]? ≠ some m[t] := by
          intro i a hi ha hmi
          have := R3 i t a a0 m[t] ha ha0 hmi hmt
          omega
        refine ih (t + 1) _ enm1 (by omega) ⟨?_, ?_, ?_⟩ h
        · intro i a s hi ha hs
          rw [getD_set_set _ _ _ _ _ _ hl2 hl1]
          by_cases hit : i = t
          · subst hit
            rw [hmt] at hs
            simp only [Option.some.injEq] at hs
            subst hs
            rw [ha0] at ha
            simp only [Option.some.injEq] at ha
            subst ha
            rw [if_neg hc2, if_pos rfl]
          · have hi' : i < t := by omega
            have hst : s ≠ t := by
              rintro rfl
              exact hnot a0 ha0 i a hi' ha hs
            have hsn : s ≠ m[t] := by
              rintro rfl
              exact hnew i a hi' ha hs
            rw [if_neg hst, if_neg hsn]
            exact p1 i a s hi' ha hs
        · intro s hs
          rw [getD_set_set _ _ _ _ _ _ hl2 hl1]
          have hsn : s ≠ m[t] := by
            rintro rfl
            exact hs t a0 (by omega) ha0 hmt
          by_cases hst : s = t
          · subst hst
            rw [if_pos rfl, if_pos (by omega)]
          · rw [if_neg hst, if_neg hsn, p2 s (fun i a hi ha => hs i a (by omega) ha)]
            by_cases hlt : s < t
            · rw [if_pos hlt, if_pos (by omega)]
            · rw [if_neg hlt, if_neg (by omega)]
        · intro i a s hi ha hs hne
          by_cases hit : i = t
          · subst hit
            rw [hmt] at hs
            simp only [Option.some.injEq] at hs
            subst hs
            have := p2 m[i] hnew
            rw [e2] at this
            by_cases hlt : m[i] < i
            · exact Or.inl hlt
            · rw [if_neg hlt] at this
              exact Or.inr this.symm
          · exact p3 i a s (by omega) ha hs hne
      · simp at h
    · rename_i hcond
      refine ih (t + 1) enm enm1 (by omega) ⟨?_, ?_, ?_⟩ h
      · intro i a s hi ha hs
        by_cases hit : i = t
        · subst hit
          obtain ⟨j, hj1, hj2⟩ := R1 i a ha
          rw [hmt] at hj1 hs
          simp only [Option.some.injEq] at hj1 hs
          have hst : s = i := by
            by_contra hne
            exact hcond ⟨by rw [hj1]; exact hj2, by rw [hs]; exact hne⟩
          subst hst
          rw [p2 s (hnot a ha), if_neg (by omega), ha]
        · exact p1 i a s (by omega) ha hs
      · intro s hs
        rw [p2 s (fun i a hi ha => hs i a (by omega) ha)]
        by_cases hst : s = t
        · subst hst
          rw [if_neg (by omega), if_pos (by omega)]
          cases hx : enm0.getD s none with
          | none => rfl
          | some a =>
            exfalso
            obtain ⟨j, hj1, hj2⟩ := R1 s a hx
            rw [hmt] at hj1
            simp only [Option.some.injEq] at hj1
            have hjs : m[s] = s := by
              by_contra hne
              exact hcond ⟨by rw [hj1]; exact hj2, hne⟩
            exact hs s a (by omega) hx (by rw [hmt, hjs])
        · by_cases hlt : s < t
          · rw [if_pos hlt, if_pos (by omega)]
          · rw [if_neg hlt, if_neg (by omega)]
      · intro i a s hi ha hs hne
        by_cases hit : i = t
        · subst hit
          exfalso
          obtain ⟨j, hj1, hj2⟩ := R1 i a ha
          rw [hmt] at hj1 hs
          simp only [Option.some.injEq] at hj1 hs
          exact hcond ⟨by rw [hj1]; exact hj2, by rw [hs]; exact hne⟩
        · exact p3 i a s (by omega) ha hs hne

end DynamicOctree

namespace DynamicOctree

theorem registration_noRoot (o : DynamicOctree) (hr : Registration o) (h : o.hasRoot = false)
    (id : Nat) : o.nodeOf id = none := by
  obtain ⟨_, _, hreg⟩ := hr
  have hn : o.root = Child.none := isSome_eq_false h
  cases hx : o.nodeOf id with
  | none => rfl
  | some a =>
    have := (hreg id a).mpr hx
    rw [hn] at this
    simp [holdsAt] at this

theorem updateIndices_registration (o o1 : DynamicOctree) (m : List Nat)
    (h : updateIndices o m = some o1) (hr : Registration o) (hp : PermWithHoles o m) :
    Registration o1 ∧
      (∀ i a j, o.nodeOf i = some a → m[i]? = some j → o1.nodeOf j = some a) ∧
      (∀ j a, o1.nodeOf j = some a → ∃ i, o.nodeOf i = some a ∧ m[i]? = some j) ∧
      o1.heapNext = o.heapNext := by
  obtain ⟨R1, R4, R2, R3⟩ := hp
  unfold updateIndices at h
  split at h
  · simp at h
  · rename_i enm hloop
    have hinv0 : MapInv m o.elementNodeMap 0 o.elementNodeMap := by
      refine ⟨?_, ?_, ?_⟩
      · intro i a s hi; omega
      · intro s _; simp
      · intro i a s hi; omega
    have hinv := updateMapLoop_spec m o.elementNodeMap R1 R2 R3 m.length 0 o.elementNodeMap enm
      (by omega) hinv0 (by simpa using hloop)
    obtain ⟨p1, p2, _⟩ := hinv
    have hfwd : ∀ i a j, o.nodeOf i = some a → m[i]? = some j →
        (Util.resize enm m.length none).getD j none = some a := by
      intro i a j hi hj
      rw [Util.getD_resize_none, if_pos (R4 i a j hi hj)]
      exact p1 i a j (Util.getElem?_lt_of_some hj) hi hj
    have hbwd : ∀ j a, (Util.resize enm m.length none).getD j none = some a →
        ∃ i, o.nodeOf i = some a ∧ m[i]? = some j := by
      intro j a hj
      rw [Util.getD_resize_none] at hj
      split at hj
      · rename_i hlt
        by_contra hcon
        push_neg at hcon
        by_cases hex : ∃ i a', o.nodeOf i = some a' ∧ m[i]? = some j
        · obtain ⟨i, a', hi, hmi⟩ := hex
          have := p1 i a' j (Util.getElem?_lt_of_some hmi) hi hmi
          rw [hj] at this
          simp only [Option.some.injEq] at this
          subst this
          exact hcon i hi hmi
        · push_neg at hex
          have := p2 j (fun i a' _ hi => hex i a' hi)
          rw [if_pos hlt, hj] at this
          simp at this
      · simp at hj
    obtain ⟨hu, hb, hreg⟩ := hr
    simp only at h
    split at h
    · rename_i hroot
      simp only [Option.map_eq_some'] at h
      obtain ⟨r, hr', rfl⟩ := h
      obtain ⟨n1, n2, n3, n4⟩ := nodeUpdateIndices_spec m o.root r hr'
      refine ⟨⟨n2 hu, ?_, ?_⟩, hfwd, hbwd, rfl⟩
      · intro a ha
        rw [n1] at ha
        exact hb a ha
      · intro id a
        simp only [nodeOf]
        rw [n3]
        constructor
        · rintro ⟨i, hi, hij⟩
          have hi' := (hreg i a).mp hi
          obtain ⟨j, hj, _⟩ := R1 i a hi'
          have : m.getD i Util.invalidIndex = j := by
            rw [List.getD_eq_getElem?_getD, hj]; rfl
          rw [this] at hij
          subst hij
          exact hfwd i a j hi' hj
        · intro hx
          obtain ⟨i, hi, hmi⟩ := hbwd id a hx
          refine ⟨i, (hreg i a).mpr hi, ?_⟩
          rw [List.getD_eq_getElem?_getD, hmi]; rfl
    · rename_i hroot
      simp only [Option.some.injEq] at h
      subst h
      have hnr : ∀ id, o.nodeOf id = none :=
        registration_noRoot o ⟨hu, hb, hreg⟩ (by simpa using hroot)
      refine ⟨⟨hu, hb, ?_⟩, hfwd, hbwd, rfl⟩
      intro id a
      rw [hreg id a, hnr id]
      simp only [nodeOf]
      constructor
      · intro hx; simp at hx
      · intro hx
        obtain ⟨i, hi, _⟩ := hbwd id a hx
        rw [hnr i] at hi
        simp at hi

theorem deleteEmptyChildren_registration (o : DynamicOctree) (hr : Registration o) :
    Registration (deleteEmptyChildren o) ∧
      (deleteEmptyChildren o).elementNodeMap = o.elementNodeMap := by
  obtain ⟨hu, hb, hreg⟩ := hr
  obtain ⟨s1, s2, s3, s4⟩ := nodeDeleteEmptyChildren_spec o.root
  unfold deleteEmptyChildren
  split
  · split
    · rename_i hflag
      refine ⟨⟨trivial, ?_, ?_⟩, rfl⟩
      · intro a ha; simp [hasAddr] at ha
      · intro id a
        simp only [nodeOf]
        rw [← nodeOf, ← hreg id a, s2 hflag id a]
        simp [holdsAt]
    · refine ⟨⟨s4 hu, fun a ha => hb a (s3 a ha), ?_⟩, rfl⟩
      intro id a
      simp only [nodeOf]
      rw [s1 id a]
      exact hreg id a
  · exact ⟨⟨hu, hb, hreg⟩, rfl⟩

theorem shrinkRoot_registration (o : DynamicOctree) (hr : Registration o) :
    Registration (shrinkRoot o) ∧ (shrinkRoot o).elementNodeMap = o.elementNodeMap := by
  obtain ⟨hu, hb, hreg⟩ := hr
  obtain ⟨s1, s2, s3⟩ := shrinkRootNode_spec o.root
  refine ⟨⟨s3 hu, fun a ha => hb a (s2 a ha), ?_⟩, rfl⟩
  intro id a
  simp only [shrinkRoot, nodeOf]
  rw [s1 id a]
  exact hreg id a

theorem realignElement_registration (fuel : Nat) (o o1 : DynamicOctree) (index : Nat)
    (position : Vec3) (e : ℚ) (h : realignElement fuel o index position e = some o1)
    (hr : Registration o) :
    Registration o1 ∧ (∀ id, id ≠ index → o1.nodeOf id = o.nodeOf id) := by
  unfold realignElement at h
  split at h
  · split at h
    · split at h
      · simp at h
      · split at h
        · split at h
          · simp at h
          · rename_i o2 hdel
            obtain ⟨d1, d2, d3, d4, d5⟩ := deleteElement_registration o o2 index hdel hr
            obtain ⟨a1, a2, a3, a4, a5⟩ := addElement_registration fuel o2 o1 index position e h d1
            exact ⟨a1, fun id hid => by rw [a4 id hid, d4 id hid]⟩
        · simp only [Option.some.injEq] at h
          subst h
          exact ⟨hr, fun _ _ => rfl⟩
    · simp at h
  · simp at h

theorem setupRoot_registration (next : Nat) (position : Vec3) (width : ℚ) (o : DynamicOctree)
    (h : setupRoot ⟨Child.none, [], next⟩ position width = some o) : Registration o := by
  unfold setupRoot at h
  simp only [hasRoot, Child.isSome, Bool.false_eq_true, if_false, Option.map_eq_some'] at h
  obtain ⟨r, hr, rfl⟩ := h
  unfold mkNode at hr
  split at hr
  · simp only [Option.some.injEq] at hr
    subst hr
    refine ⟨?_, ?_, ?_⟩
    · simp [UniqAddr, hasAddr]
    · intro a ha
      simp [hasAddr] at ha
      simp; omega
    · intro id a
      simp [holdsAt, nodeOf]
  · simp at hr

theorem step_registration (o o1 : DynamicOctree) (h : Step PermWithHoles o o1)
    (hr : Registration o) : Registration o1 := by
  cases h with
  | addElement fuel _ _ index position e h => exact (addElement_registration fuel o o1 index position e h hr).1
  | deleteElement _ _ index h => exact (deleteElement_registration o o1 index h hr).1
  | realignElement fuel _ _ index position e h =>
    exact (realignElement_registration fuel o o1 index position e h hr).1
  | deleteEmptyChildren => exact (deleteEmptyChildren_registration o hr).1
  | shrinkRoot => exact (shrinkRoot_registration o hr).1
  | updateIndices _ _ m hp h => exact (updateIndices_registration o o1 m h hr hp).1

theorem reachable_registration (o : DynamicOctree) (h : Reachable o) : Registration o := by
  induction h with
  | setupRoot next position width o h => exact setupRoot_registration next position width o h
  | step o o1 _ hs ih => exact step_registration o o1 hs ih

end DynamicOctree

namespace Octree

theorem geomWF_node (a : Nat) (c : Vec3) (w : ℚ) (d : Int) (ch : Fin 8 → Child)
    (idx : Finset Nat) :
    GeomWF (Child.node a c w d ch idx) ↔
      (0 < w ∧ ∀ k, GeomWF (ch k) ∧
        ((ch k).isSome = true →
          (ch k).width = w * (1 / 2) ∧ (ch k).depth = d + 1 ∧
            (ch k).center = childCenter c (w * (1 / 4)) k)) := by
  simp only [GeomWF]

theorem childOrMake_geom (next : Nat) (c : Vec3) (w : ℚ) (d : Int) (ch : Fin 8 → Child)
    (k : Fin 8) (child : Child) (next1 : Nat)
    (h : childOrMake next c w d ch k = some (child, next1))
    (hg : GeomWF (Child.node 0 c w d ch ∅)) :
    GeomWF child ∧ child.isSome = true ∧ child.width = w * (1 / 2) ∧ child.depth = d + 1 ∧
      child.center = childCenter c (w * (1 / 4)) k := by
  rw [geomWF_node] at hg
  obtain ⟨hw, hk⟩ := hg
  unfold childOrMake at h
  by_cases hs : (ch k).isSome = true
  · simp only [hs, if_true, Option.some.injEq, Prod.mk.injEq] at h
    obtain ⟨rfl, rfl⟩ := h
    obtain ⟨g1, g2⟩ := hk k
    obtain ⟨e1, e2, e3⟩ := g2 hs
    exact ⟨g1, hs, e1, e2, e3⟩
  · simp only [hs, Bool.false_eq_true, if_false, Option.map_eq_some'] at h
    obtain ⟨n, hn, hn2⟩ := h
    simp only [Prod.mk.injEq] at hn2
    obtain ⟨rfl, rfl⟩ := hn2
    unfold mkNode at hn
    split at hn
    · simp only [Option.some.injEq] at hn
      subst hn
      rename_i hpos
      refine ⟨?_, rfl, rfl, rfl, rfl⟩
      rw [geomWF_node]
      exact ⟨hpos, fun _ => ⟨trivial, fun h => by simp [Child.isSome] at h⟩⟩
    · simp at hn

theorem geomWF_irrel (a a1 : Nat) (c : Vec3) (w : ℚ) (d : Int) (ch : Fin 8 → Child)
    (idx idx1 : Finset Nat) (h : GeomWF (Child.node a c w d ch idx)) :
    GeomWF (Child.node a1 c w d ch idx1) := by
  rw [geomWF_node] at h ⊢
  exact h

theorem nodeAddElement_fields (index : Nat) (position : Vec3) (e : ℚ) :
    ∀ fuel next t t1 a next1,
      nodeAddElement fuel index position e next t = some (t1, a, next1) →
      t1.isSome = true ∧ t1.width = t.width ∧ t1.depth = t.depth ∧ t1.center = t.center ∧
        t1.addr = t.addr := by
  intro fuel next t t1 a next1 h
  cases fuel with
  | zero => simp [nodeAddElement] at h
  | succ fuel =>
    cases t with
    | none => simp [nodeAddElement] at h
    | node b c w d ch idx =>
      rw [nodeAddElement] at h
      split at h
      · split at h
        · split at h
          · simp at h
          · split at h
            · simp at h
            · simp only [Option.some.injEq, Prod.mk.injEq] at h
              obtain ⟨rfl, _, _⟩ := h
              simp [Child.isSome, Child.width, Child.depth, Child.center, Child.addr]
        · simp only [Option.some.injEq, Prod.mk.injEq] at h
          obtain ⟨rfl, _, _⟩ := h
          simp [Child.isSome, Child.width, Child.depth, Child.center, Child.addr]
      · simp at h

theorem nodeAddElement_geom (index : Nat) (position : Vec3) (e : ℚ) :
    ∀ fuel next t t1 a next1,
      nodeAddElement fuel index position e next t = some (t1, a, next1) →
      GeomWF t → GeomWF t1 := by
  intro fuel
  induction fuel with
  | zero => intro next t t1 a next1 h; simp [nodeAddElement] at h
  | succ fuel ih =>
    intro next t t1 a next1 h hg
    cases t with
    | none => simp [nodeAddElement] at h
    | node b c w d ch idx =>
      rw [nodeAddElement] at h
      split at h
      · split at h
        · split at h
          · simp at h
          · rename_i child nx hmade
            split at h
            · simp at h
            · rename_i child1 a1 next2 hrec
              simp only [Option.some.injEq, Prod.mk.injEq] at h
              obtain ⟨rfl, rfl, rfl⟩ := h
              obtain ⟨c1, c2, c3, c4, c5⟩ :=
                childOrMake_geom next c w d ch _ child nx hmade (geomWF_irrel _ _ _ _ _ _ _ _ hg)
              have g1 := ih nx child child1 a1 next2 hrec c1
              obtain ⟨f1, f2, f3, f4, _⟩ := nodeAddElement_fields index position e fuel nx child
                child1 a1 next2 hrec
              rw [geomWF_node] at hg ⊢
              refine ⟨hg.1, fun k => ?_⟩
              by_cases hk : k = childIndex c position
              · subst hk
                rw [Function.update_same]
                exact ⟨g1, fun _ => ⟨by rw [f2, c3], by rw [f3, c4], by rw [f4, c5]⟩⟩
              · rw [Function.update_noteq hk]
                exact hg.2 k
        · simp only [Option.some.injEq, Prod.mk.injEq] at h
          obtain ⟨rfl, _, _⟩ := h
          exact geomWF_irrel _ _ _ _ _ _ _ _ hg
      · simp at h

theorem eraseAt_fields (a id : Nat) (t : Child) :
    (eraseAt a id t).isSome = t.isSome ∧ (eraseAt a id t).width = t.width ∧
      (eraseAt a id t).depth = t.depth ∧ (eraseAt a id t).center = t.center := by
  cases t with
  | none => simp [eraseAt]
  | node b c w d ch idx =>
    rw [eraseAt]
    split <;> simp [Child.isSome, Child.width, Child.depth, Child.center]

theorem eraseAt_geom (a id : Nat) : ∀ t, GeomWF t → GeomWF (eraseAt a id t) := by
  intro t
  induction t with
  | none => intro h; exact h
  | node b c w d ch idx ih =>
    intro h
    rw [eraseAt]
    split
    · exact geomWF_irrel _ _ _ _ _ _ _ _ h
    · rw [geomWF_node] at h ⊢
      refine ⟨h.1, fun k => ⟨ih k (h.2 k).1, ?_⟩⟩
      obtain ⟨e1, e2, e3, e4⟩ := eraseAt_fields a id (ch k)
      rw [e1, e2, e3, e4]
      exact (h.2 k).2

theorem shrinkRootNode_geom : ∀ t, GeomWF t → GeomWF (shrinkRootNode t) := by
  intro t
  induction t with
  | none => intro h; exact h
  | node a c w d ch idx ih =>
    intro h
    rw [shrinkRootNode]
    split
    · split
      · rename_i k _
        rw [geomWF_node] at h
        exact ih k (h.2 k).1
      · exact h
    · exact h

theorem nodeDeleteEmptyChildren_fields (t : Child) :
    (nodeDeleteEmptyChildren t).1.isSome = t.isSome ∧
      (nodeDeleteEmptyChildren t).1.width = t.width ∧
      (nodeDeleteEmptyChildren t).1.depth = t.depth ∧
      (nodeDeleteEmptyChildren t).1.center = t.center := by
  cases t with
  | none => simp [nodeDeleteEmptyChildren]
  | node b c w d ch idx =>
    simp [nodeDeleteEmptyChildren, Child.isSome, Child.width, Child.depth, Child.center]

theorem nodeDeleteEmptyChildren_geom :
    ∀ t, GeomWF t → GeomWF (nodeDeleteEmptyChildren t).1 := by
  intro t
  induction t with
  | none => intro h; exact h
  | node a c w d ch idx ih =>
    intro h
    rw [geomWF_node] at h
    simp only [nodeDeleteEmptyChildren]
    rw [geomWF_node]
    refine ⟨h.1, fun k => ?_⟩
    by_cases hs : (ch k).isSome = true
    · simp only [hs, if_true]
      by_cases hf : (nodeDeleteEmptyChildren (ch k)).2 = true
      · simp only [hf, if_true]
        exact ⟨trivial, fun h' => by simp [Child.isSome] at h'⟩
      · simp only [hf, Bool.false_eq_true, if_false]
        obtain ⟨e1, e2, e3, e4⟩ := nodeDeleteEmptyChildren_fields (ch k)
        refine ⟨ih k (h.2 k).1, fun _ => ?_⟩
        rw [e2, e3, e4]
        exact (h.2 k).2 hs
    · simp only [hs, Bool.false_eq_true, if_false]
      exact ⟨trivial, fun h' => by simp [Child.isSome] at h'⟩

theorem nodeUpdateIndices_fields (m : List Nat) (t t1 : Child)
    (h : nodeUpdateIndices m t = some t1) :
    t1.isSome = t.isSome ∧ t1.width = t.width ∧ t1.depth = t.depth ∧ t1.center = t.center := by
  cases t with
  | none =>
    simp only [nodeUpdateIndices, Option.some.injEq] at h
    subst h; simp
  | node b c w d ch idx =>
    rw [nodeUpdateIndices] at h
    split at h
    · simp only [Option.some.injEq] at h
      subst h
      simp [Child.isSome, Child.width, Child.depth, Child.center]
    · simp at h

theorem nodeUpdateIndices_geom (m : List Nat) :
    ∀ t t1, nodeUpdateIndices m t = some t1 → GeomWF t → GeomWF t1 := by
  intro t
  induction t with
  | none =>
    intro t1 h hg
    simp only [nodeUpdateIndices, Option.some.injEq] at h
    subst h; exact hg
  | node a c w d ch idx ih =>
    intro t1 h hg
    rw [nodeUpdateIndices] at h
    split at h
    · rename_i hcond
      simp only [Option.some.injEq] at h
      subst h
      have hk : ∀ k, nodeUpdateIndices m (ch k) =
          some ((nodeUpdateIndices m (ch k)).getD Child.none) := by
        intro k
        have := hcond.2 k
        cases hx : nodeUpdateIndices m (ch k) with
        | none => rw [hx] at this; simp at this
        | some x => simp
      rw [geomWF_node] at hg ⊢
      refine ⟨hg.1, fun k => ⟨ih k _ (hk k) (hg.2 k).1, ?_⟩⟩
      obtain ⟨e1, e2, e3, e4⟩ := nodeUpdateIndices_fields m _ _ (hk k)
      rw [e1, e2, e3, e4]
      exact (hg.2 k).2
    · simp at h

end Octree

namespace DynamicOctree

theorem parent_child_center (c position : Vec3) (w : ℚ) (k : Fin 8)
    (hk : k.val = parentIndex c position) :
    childCenter (parentCenter c (w * (1 / 2)) position) (w * 2 * (1 / 4)) k = c := by
  obtain ⟨x, y, z⟩ := c
  unfold parentIndex at hk
  unfold parentCenter
  fin_cases k <;> simp only [childCenter] <;> simp at hk <;>
    split_ifs at hk ⊢ <;> first | omega | (simp only [Vec3.mk.injEq]; refine ⟨?_, ?_, ?_⟩ <;> ring)

theorem makeParent_geom (o o1 : DynamicOctree) (position : Vec3)
    (h : makeParent o position = some o1) (hg : GeomWF o.root) : GeomWF o1.root := by
  unfold makeParent at h
  cases hroot : o.root with
  | none => rw [hroot] at h; simp at h
  | node a c w d ch idx =>
    rw [hroot] at h hg
    simp only [Option.map_eq_some'] at h
    obtain ⟨n, hn, rfl⟩ := h
    unfold mkNode at hn
    split at hn
    · rename_i hpos
      simp only [Option.some.injEq] at hn
      subst hn
      simp only [setChild]
      rw [geomWF_node]
      refine ⟨hpos, fun k => ?_⟩
      split
      · rename_i hk
        refine ⟨hg, fun _ => ⟨?_, ?_, ?_⟩⟩
        · simp only [Child.width]; ring
        · simp only [Child.depth]; ring
        · simp only [Child.center]
          exact (parent_child_center c position w k hk).symm
      · exact ⟨trivial, fun h' => by simp [Child.isSome] at h'⟩
    · simp at hn

theorem addElement_geom :
    ∀ fuel (o o1 : DynamicOctree) (index : Nat) (position : Vec3) (e : ℚ),
      addElement fuel o index position e = some o1 → GeomWF o.root → GeomWF o1.root := by
  intro fuel
  induction fuel with
  | zero => intro o o1 index position e h; simp [addElement] at h
  | succ fuel ih =>
    intro o o1 index position e h hg
    rw [addElement] at h
    split at h
    · simp at h
    · split at h
      · split at h
        · simp at h
        · rename_i r a1 next hnode
          simp only [Option.map_eq_some'] at h
          obtain ⟨enm, _, rfl⟩ := h
          exact nodeAddElement_geom index position e _ _ _ _ _ _ hnode hg
      · split at h
        · simp at h
        · rename_i o2 hmp
          exact ih o2 o1 index position e h (makeParent_geom o o2 position hmp hg)

theorem deleteElement_geom (o o1 : DynamicOctree) (index : Nat)
    (h : deleteElement o index = some o1) (hg : GeomWF o.root) : GeomWF o1.root := by
  unfold deleteElement at h
  split at h
  · rename_i a _
    split at h
    · simp only at h
      have hg1 := eraseAt_geom a index o.root hg
      split at h
      · split at h
        · simp only [Option.some.injEq] at h
          subst h; trivial
        · simp only [Option.some.injEq] at h
          subst h
          exact shrinkRootNode_geom _ hg1
      · simp only [Option.some.injEq] at h
        subst h; exact hg1
    · simp at h
  · simp at h

theorem realignElement_geom (fuel : Nat) (o o1 : DynamicOctree) (index : Nat)
    (position : Vec3) (e : ℚ) (h : realignElement fuel o index position e = some o1)
    (hg : GeomWF o.root) : GeomWF o1.root := by
  unfold realignElement at h
  split at h
  · split at h
    · split at h
      · simp at h
      · split at h
        · split at h
          · simp at h
          · rename_i o2 hdel
            exact addElement_geom fuel o2 o1 index position e h (deleteElement_geom o o2 index hdel hg)
        · simp only [Option.some.injEq] at h
          subst h; exact hg
    · simp at h
  · simp at h

theorem step_geom (P : DynamicOctree → List Nat → Prop) (o o1 : DynamicOctree)
    (h : Step P o o1) (hg : GeomWF o.root) : GeomWF o1.root := by
  cases h with
  | addElement fuel _ _ index position e h => exact addElement_geom fuel o o1 index position e h hg
  | deleteElement _ _ index h => exact deleteElement_geom o o1 index h hg
  | realignElement fuel _ _ index position e h =>
    exact realignElement_geom fuel o o1 index position e h hg
  | deleteEmptyChildren =>
    unfold deleteEmptyChildren
    split
    · split
      · trivial
      · exact nodeDeleteEmptyChildren_geom _ hg
    · exact hg
  | shrinkRoot => exact shrinkRootNode_geom _ hg
  | updateIndices _ _ m _ h =>
    unfold updateIndices at h
    split at h
    · simp at h
    · simp only at h
      split at h
      · simp only [Option.map_eq_some'] at h
        obtain ⟨r, hr, rfl⟩ := h
        exact nodeUpdateIndices_geom m _ _ hr hg
      · simp only [Option.some.injEq] at h
        subst h; exact hg

theorem reachable_geom (P : DynamicOctree → List Nat → Prop) (o : DynamicOctree)
    (h : ReachableWith P o) : GeomWF o.root := by
  induction h with
  | setupRoot next position width o h =>
    unfold setupRoot at h
    simp only [hasRoot, Child.isSome, Bool.false_eq_true, if_false, Option.map_eq_some'] at h
    obtain ⟨r, hr, rfl⟩ := h
    unfold mkNode at hr
    split at hr
    · rename_i hpos
      simp only [Option.some.injEq] at hr
      subst hr
      simp only
      rw [geomWF_node]
      exact ⟨hpos, fun _ => ⟨trivial, fun h' => by simp [Child.isSome] at h'⟩⟩
    · simp at hr
  | step o o1 _ hs ih => exact step_geom P o o1 hs ih

end DynamicOctree

namespace Octree

theorem find_child (a b : Nat) (c : Vec3) (w : ℚ) (d : Int) (ch : Fin 8 → Child)
    (idx : Finset Nat) (k : Fin 8) (hu : UniqAddr (Child.node b c w d ch idx))
    (ha : hasAddr a (ch k) = true) :
    find a (Child.node b c w d ch idx) = find a (ch k) := by
  obtain ⟨h1, h2, h3⟩ := hu
  have hba : b ≠ a := by
    rintro rfl
    rw [h1 k] at ha; simp at ha
  rw [find, if_neg hba]
  rcases firstSome_spec ((List.finRange 8).map (fun k => find a (ch k))) with ⟨g1, g2⟩ | ⟨g1, g2⟩
  · have := g2 (find a (ch k)) (by simp)
    rw [find_isSome, ha] at this
    simp at this
  · simp only [List.mem_map, List.mem_finRange, true_and] at g1
    obtain ⟨k', hk'⟩ := g1
    rw [← hk'] at g2 ⊢
    rw [find_isSome] at g2
    by_cases hkk : k' = k
    · rw [hkk]
    · have := h3 k' k a hkk g2
      rw [ha] at this; simp at this

theorem firstSomeOpt_spec {α : Type} (L : List (Option α)) :
    (L.foldr (fun t acc => if t.isSome then t else acc) none = none ∧
      ∀ t ∈ L, t.isSome = false) ∨
    (L.foldr (fun t acc => if t.isSome then t else acc) none ∈ L ∧
      (L.foldr (fun t acc => if t.isSome then t else acc) none).isSome = true) := by
  induction L with
  | nil => left; simp
  | cons x L ih =>
    simp only [List.foldr_cons]
    by_cases hx : x.isSome = true
    · right; simp [hx]
    · simp only [hx, Bool.false_eq_true, if_false]
      rcases ih with ⟨h1, h2⟩ | ⟨h1, h2⟩
      · left
        refine ⟨h1, ?_⟩
        intro t ht
        rcases List.mem_cons.mp ht with rfl | h3
        · simpa using hx
        · exact h2 t h3
      · right
        exact ⟨List.mem_cons_of_mem _ h1, h2⟩

theorem ancestors_isSome (a : Nat) : ∀ t, (ancestors a t).isSome = hasAddr a t := by
  intro t
  induction t with
  | none => rfl
  | node b c w d ch idx ih =>
    rw [ancestors]
    split
    · rename_i hb; simp [hasAddr, hb]
    · rename_i hb
      rw [Option.isSome_map']
      rcases firstSomeOpt_spec ((List.finRange 8).map (fun k => ancestors a (ch k)))
        with ⟨h1, h2⟩ | ⟨h1, h2⟩
      · rw [h1]
        symm
        show hasAddr a (Child.node b c w d ch idx) = false
        rw [Bool.eq_false_iff]
        intro hcon
        rw [hasAddr_node] at hcon
        rcases hcon with h3 | ⟨k, hk⟩
        · exact hb h3
        · have := h2 (ancestors a (ch k)) (by simp)
          rw [ih k, hk] at this
          simp at this
      · rw [h2]
        symm
        rw [hasAddr_node]
        right
        simp only [List.mem_map, List.mem_finRange, true_and] at h1
        obtain ⟨k, hk⟩ := h1
        refine ⟨k, ?_⟩
        rw [← ih k, hk, h2]

theorem ancestors_child (a b : Nat) (c : Vec3) (w : ℚ) (d : Int) (ch : Fin 8 → Child)
    (idx : Finset Nat) (k : Fin 8) (hu : UniqAddr (Child.node b c w d ch idx))
    (ha : hasAddr a (ch k) = true) :
    ancestors a (Child.node b c w d ch idx) =
      (ancestors a (ch k)).map (fun l => Child.node b c w d ch idx :: l) := by
  obtain ⟨h1, h2, h3⟩ := hu
  have hba : b ≠ a := by
    rintro rfl
    rw [h1 k] at ha; simp at ha
  rw [ancestors, if_neg hba]
  congr 1
  rcases firstSomeOpt_spec ((List.finRange 8).map (fun k => ancestors a (ch k)))
    with ⟨g1, g2⟩ | ⟨g1, g2⟩
  · have := g2 (ancestors a (ch k)) (by simp)
    rw [ancestors_isSome, ha] at this
    simp at this
  · simp only [List.mem_map, List.mem_finRange, true_and] at g1
    obtain ⟨k', hk'⟩ := g1
    rw [← hk'] at g2 ⊢
    rw [ancestors_isSome] at g2
    by_cases hkk : k' = k
    · rw [hkk]
    · have := h3 k' k a hkk g2
      rw [ha] at this; simp at this

theorem nodeAddElement_placement (index : Nat) (position : Vec3) (e : ℚ) :
    ∀ fuel next t t1 a next1,
      nodeAddElement fuel index position e next t = some (t1, a, next1) →
      UniqAddr t → (∀ b, hasAddr b t = true → b < next) →
      index ∈ (find a t1).indices ∧
        approxContains (find a t1).center (find a t1).width position e = true ∧
        insertIntoChild (find a t1).width e = false ∧
        ∃ anc, ancestors a t1 = some anc ∧ ∀ n ∈ anc, insertIntoChild n.width e = true := by
  intro fuel
  induction fuel with
  | zero => intro next t t1 a next1 h; simp [nodeAddElement] at h
  | succ fuel ih =>
    intro next t t1 a next1 h hu hb
    obtain ⟨s1, s2, s3, s4, s5, s6, s7⟩ :=
      nodeAddElement_spec index position e (fuel + 1) next t t1 a next1 h hu hb
    cases t with
    | none => simp [nodeAddElement] at h
    | node b c w d ch idx =>
      rw [nodeAddElement] at h
      split at h
      · rename_i happ
        split at h
        · rename_i hins
          split at h
          · simp at h
          · rename_i child nx hmade
            split at h
            · simp at h
            · rename_i child1 a1 next2 hrec
              simp only [Option.some.injEq, Prod.mk.injEq] at h
              obtain ⟨rfl, rfl, rfl⟩ := h
              -- the child before the insertion
              have hchild : UniqAddr child ∧ (∀ x, hasAddr x child = true → x < nx) := by
                unfold childOrMake at hmade
                by_cases hs : (ch (childIndex c position)).isSome = true
                · simp only [hs, if_true, Option.some.injEq, Prod.mk.injEq] at hmade
                  obtain ⟨rfl, rfl⟩ := hmade
                  exact ⟨hu.2.1 _, fun x hx => hb x (by rw [hasAddr_node]; exact Or.inr ⟨_, hx⟩)⟩
                · simp only [hs, Bool.false_eq_true, if_false, Option.map_eq_some'] at hmade
                  obtain ⟨n, hn, hn2⟩ := hmade
                  simp only [Prod.mk.injEq] at hn2
                  obtain ⟨rfl, rfl⟩ := hn2
                  unfold mkNode at hn
                  split at hn
                  · simp only [Option.some.injEq] at hn
                    subst hn
                    refine ⟨by simp [UniqAddr, hasAddr], ?_⟩
                    intro x hx
                    simp [hasAddr] at hx
                    omega
                  · simp at hn
              obtain ⟨r1, r2, r3, r4, r5, r6, r7⟩ := nodeAddElement_spec index position e fuel nx
                child child1 a1 next2 hrec hchild.1 hchild.2
              obtain ⟨i1, i2, i3, anc, i4, i5⟩ := ih nx child child1 a1 next2 hrec hchild.1 hchild.2
              have hin : hasAddr a1 (Function.update ch (childIndex c position) child1
                  (childIndex c position)) = true := by
                rw [Function.update_same]; exact r7
              rw [find_child a1 b c w d _ idx (childIndex c position) s1 hin,
                ancestors_child a1 b c w d _ idx (childIndex c position) s1 hin,
                Function.update_same]
              refine ⟨i1, i2, i3, _ :: anc, by rw [i4]; rfl, ?_⟩
              intro n hn
              rcases List.mem_cons.mp hn with rfl | hn'
              · exact hins
              · exact i5 n hn'
        · rename_i hins
          simp only [Option.some.injEq, Prod.mk.injEq] at h
          obtain ⟨rfl, rfl, rfl⟩ := h
          simp only [find, if_true, Child.indices, Child.center, Child.width, ancestors]
          refine ⟨Finset.mem_insert_self _ _, happ, by simpa using hins, [], rfl, ?_⟩
          intro n hn; simp at hn
      · simp at h

end Octree

namespace Octree

theorem approxContains_iff (c : Vec3) (w : ℚ) (p : Vec3) (e : ℚ) :
    approxContains c w p e = true ↔
      (c.x - (epsilon + w * (1 / 2)) ≤ p.x ∧ c.y - (epsilon + w * (1 / 2)) ≤ p.y ∧
        c.z - (epsilon + w * (1 / 2)) ≤ p.z) ∧
      (p.x ≤ c.x + (epsilon + w * (1 / 2)) ∧ p.y ≤ c.y + (epsilon + w * (1 / 2)) ∧
        p.z ≤ c.z + (epsilon + w * (1 / 2))) ∧ e ≤ w := by
  simp only [approxContains, Bool.and_eq_true, decide_eq_true_eq]
  tauto

theorem insertIntoChild_iff (w e : ℚ) : insertIntoChild w e = true ↔ e ≤ w * (1 / 4) := by
  simp [insertIntoChild, relativeMinElementExtent]

theorem epsilon_pos : 0 < epsilon := by norm_num [epsilon]

theorem descent_safe (c : Vec3) (w : ℚ) (p : Vec3) (e : ℚ) (hw : 0 < w)
    (h1 : approxContains c w p e = true) (h2 : insertIntoChild w e = true) :
    approxContains (childCenter c (w * (1 / 4)) (childIndex c p)) (w * (1 / 2)) p e = true := by
  rw [approxContains_iff] at h1 ⊢
  rw [insertIntoChild_iff] at h2
  obtain ⟨⟨a1, a2, a3⟩, ⟨b1, b2, b3⟩, _⟩ := h1
  have heps := epsilon_pos
  unfold childIndex
  by_cases hx : c.x < p.x <;> by_cases hy : c.y < p.y <;> by_cases hz : c.z < p.z <;>
    simp only [hx, hy, hz, decide_True, decide_False, childCenter] <;>
    refine ⟨⟨?_, ?_, ?_⟩, ⟨?_, ?_, ?_⟩, ?_⟩ <;> linarith

theorem nodeAddElement_total (index : Nat) (p : Vec3) (e : ℚ) :
    ∀ k t next, GeomWF t → t.isSome = true → approxContains t.center t.width p e = true →
      t.width < 4 * e * 2 ^ k →
      ∃ r, nodeAddElement (k + 1) index p e next t = some r := by
  intro k
  induction k with
  | zero =>
    intro t next hg hs happ hw
    cases t with
    | none => simp [Child.isSome] at hs
    | node b c w d ch idx =>
      simp only [Child.center, Child.width] at happ hw
      have hins : insertIntoChild w e = false := by
        rw [Bool.eq_false_iff, Ne, insertIntoChild_iff]
        intro hc
        simp at hw
        linarith
      rw [nodeAddElement]
      simp [happ, hins]
  | succ k ih =>
    intro t next hg hs happ hw
    cases t with
    | none => simp [Child.isSome] at hs
    | node b c w d ch idx =>
      simp only [Child.center, Child.width] at happ hw
      rw [nodeAddElement]
      simp only [happ, if_true]
      by_cases hins : insertIntoChild w e = true
      · simp only [hins, if_true]
        have hw0 : 0 < w := by rw [geomWF_node] at hg; exact hg.1
        have hmade : ∃ child nx, childOrMake next c w d ch (childIndex c p) = some (child, nx) := by
          unfold childOrMake
          by_cases hcs : (ch (childIndex c p)).isSome = true
          · simp [hcs]
          · have : 0 < w * (1 / 2) := by linarith
            simp [hcs, mkNode, this, hw0]
        obtain ⟨child, nx, hmade⟩ := hmade
        obtain ⟨c1, c2, c3, c4, c5⟩ :=
          childOrMake_geom next c w d ch _ child nx hmade (geomWF_irrel _ _ _ _ _ _ _ _ hg)
        have hsafe := descent_safe c w p e hw0 happ hins
        rw [← c5, ← c3] at hsafe
        have hw' : child.width < 4 * e * 2 ^ k := by
          rw [c3]
          rw [pow_succ] at hw
          linarith
        obtain ⟨⟨r1, r2, r3⟩, hr⟩ := ih child nx c1 c2 hsafe hw'
        simp [hmade, hr]
      · simp [hins]

theorem nodeAddElement_mono (index : Nat) (p : Vec3) (e : ℚ) :
    ∀ fuel fuel1 next t r, fuel ≤ fuel1 → nodeAddElement fuel index p e next t = some r →
      nodeAddElement fuel1 index p e next t = some r := by
  intro fuel
  induction fuel with
  | zero => intro fuel1 next t r _ h; simp [nodeAddElement] at h
  | succ fuel ih =>
    intro fuel1 next t r hle h
    cases fuel1 with
    | zero => omega
    | succ fuel1 =>
      cases t with
      | none => simp [nodeAddElement] at h
      | node b c w d ch idx =>
        rw [nodeAddElement] at h ⊢
        by_cases happ : approxContains c w p e = true
        · simp only [happ, if_true] at h ⊢
          by_cases hins : insertIntoChild w e = true
          · simp only [hins, if_true] at h ⊢
            cases hm : childOrMake next c w d ch (childIndex c p) with
            | none => simp [hm] at h
            | some cn =>
              obtain ⟨child, nx⟩ := cn
              simp only [hm] at h ⊢
              cases hrec : nodeAddElement fuel index p e nx child with
              | none => simp [hrec] at h
              | some r1 =>
                rw [ih fuel1 nx child r1 (by omega) hrec]
                simpa [hrec] using h
          · simp only [hins, Bool.false_eq_true, if_false] at h ⊢
            exact h
        · simp [happ] at h

end Octree

namespace DynamicOctree

theorem addToElementNodeMap_total (enm : List (Option Nat)) (index a : Nat)
    (h : enm.getD index none = none) : ∃ enm1, addToElementNodeMap enm index a = some enm1 := by
  unfold addToElementNodeMap
  by_cases hge : index ≥ enm.length
  · simp only [hge, if_true]
    have : (Util.resize enm (index + 1) none)[index]? = some none := by
      unfold Util.resize
      rw [List.getElem?_append_right (by simp; omega)]
      simp only [List.length_take, List.getElem?_replicate]
      rw [if_pos (by omega)]
    simp [this]
  · simp only [hge, if_false]
    have hlt : index < enm.length := by omega
    have : enm[index]? = some none := by
      rw [List.getD_eq_getElem?_getD, List.getElem?_eq_getElem hlt] at h
      rw [List.getElem?_eq_getElem hlt]
      simpa using h
    simp [this]

theorem growBound_zero (c : Vec3) (w : ℚ) (p : Vec3) (e : ℚ) (h : GrowBound 0 c w p e) :
    approxContains c w p e = true := by
  rw [approxContains_iff]
  obtain ⟨h0, ⟨x1, x2⟩, ⟨y1, y2⟩, ⟨z1, z2⟩⟩ := h
  simp only [pow_zero, one_mul] at h0 x1 x2 y1 y2 z1 z2
  refine ⟨⟨?_, ?_, ?_⟩, ⟨?_, ?_, ?_⟩, h0⟩ <;> linarith

theorem growBound_step (n : Nat) (c : Vec3) (w : ℚ) (p : Vec3) (e : ℚ) (hw : 0 < w)
    (h : GrowBound (n + 1) c w p e) :
    GrowBound n (parentCenter c (w * (1 / 2)) p) (w * 2) p e := by
  obtain ⟨h0, ⟨x1, x2⟩, ⟨y1, y2⟩, ⟨z1, z2⟩⟩ := h
  have heps := epsilon_pos
  have h2 : (1 : ℚ) ≤ 2 ^ n := one_le_pow₀ (by norm_num)
  have h3 : w ≤ 2 ^ n * w := by
    have := mul_le_mul_of_nonneg_right h2 hw.le
    linarith
  have e1 : (2 : ℚ) ^ (n + 1) * w = 2 ^ n * (w * 2) := by rw [pow_succ]; ring
  rw [e1] at h0 x1 x2 y1 y2 z1 z2
  unfold parentCenter
  refine ⟨h0, ⟨?_, ?_⟩, ⟨?_, ?_⟩, ⟨?_, ?_⟩⟩ <;> dsimp only <;> split_ifs <;> linarith

theorem growBound_exists (c : Vec3) (w : ℚ) (p : Vec3) (e : ℚ) (hw : 0 < w) :
    ∃ n, GrowBound n c w p e := by
  obtain ⟨n, hn⟩ := pow_unbounded_of_one_lt
    ((|e| + |p.x - c.x| + |p.y - c.y| + |p.z - c.z| + w) / w) (by norm_num : (1 : ℚ) < 2)
  rw [div_lt_iff₀ hw] at hn
  have heps := epsilon_pos
  have a0 := abs_nonneg e
  have a1 := abs_nonneg (p.x - c.x)
  have a2 := abs_nonneg (p.y - c.y)
  have a3 := abs_nonneg (p.z - c.z)
  have b0 := le_abs_self e
  have b1 := abs_le.mp (le_refl |p.x - c.x|)
  have b2 := abs_le.mp (le_refl |p.y - c.y|)
  have b3 := abs_le.mp (le_refl |p.z - c.z|)
  refine ⟨n, ?_, ⟨?_, ?_⟩, ⟨?_, ?_⟩, ⟨?_, ?_⟩⟩ <;> linarith [b1.1, b1.2, b2.1, b2.2, b3.1, b3.2]

theorem addElement_total_aux (index : Nat) (p : Vec3) (e : ℚ) (k K : Nat) (hK : k + 1 ≤ K) :
    ∀ n (o : DynamicOctree), GeomWF o.root → o.root.isSome = true →
      GrowBound n o.root.center o.root.width p e → 2 ^ n * o.root.width < 4 * e * 2 ^ k →
      o.nodeOf index = none → ∃ o1, addElement (n + K) o index p e = some o1 := by
  have hinsert : ∀ F (o : DynamicOctree), k + 1 ≤ F + 1 → GeomWF o.root → o.root.isSome = true →
      approxContains o.root.center o.root.width p e = true → o.root.width < 4 * e * 2 ^ k →
      o.nodeOf index = none → ∃ o1, addElement (F + 1) o index p e = some o1 := by
    intro F o hF hg hs happ hw hn
    cases hroot : o.root with
    | none => rw [hroot] at hs; simp [Child.isSome] at hs
    | node a c w d ch idx =>
      rw [hroot] at happ hw hs hg
      simp only [Child.center, Child.width] at happ hw
      obtain ⟨r, hr⟩ := nodeAddElement_total index p e k (Child.node a c w d ch idx) o.heapNext
        hg hs happ hw
      have hr' := nodeAddElement_mono index p e (k + 1) (F + 1) o.heapNext _ r hF hr
      obtain ⟨enm1, he1⟩ := addToElementNodeMap_total o.elementNodeMap index r.2.1 hn
      rw [addElement]
      simp only [hroot, happ, if_true, hr', he1, Option.map_some']
      exact ⟨_, rfl⟩
  intro n
  induction n with
  | zero =>
    intro o hg hs hb hw hn
    obtain ⟨F, rfl⟩ : ∃ F, K = F + 1 := ⟨K - 1, by omega⟩
    simp only [pow_zero, one_mul] at hw
    rw [Nat.zero_add]
    exact hinsert F o (by omega) hg hs (growBound_zero _ _ _ _ hb) hw hn
  | succ n ih =>
    intro o hg hs hb hw hn
    have hw0 : 0 < o.root.width := by
      cases hroot : o.root with
      | none => rw [hroot] at hs; simp [Child.isSome] at hs
      | node a c w d ch idx =>
        rw [hroot, geomWF_node] at hg
        exact hg.1
    by_cases happ : approxContains o.root.center o.root.width p e = true
    · have e1 : n + 1 + K = (n + K) + 1 := by omega
      rw [e1]
      refine hinsert (n + K) o (by omega) hg hs happ ?_ hn
      have h2 : (1 : ℚ) ≤ 2 ^ (n + 1) := one_le_pow₀ (by norm_num)
      have := mul_le_mul_of_nonneg_right h2 hw0.le
      linarith
    · cases hroot : o.root with
      | none => rw [hroot] at hs; simp [Child.isSome] at hs
      | node a c w d ch idx =>
        rw [hroot] at happ hb hw hw0
        simp only [Child.center, Child.width] at happ hb hw hw0
        have hmp : ∃ o2, makeParent o p = some o2 ∧
            o2.root.center = parentCenter c (w * (1 / 2)) p ∧ o2.root.width = w * 2 ∧
            o2.root.isSome = true ∧ o2.elementNodeMap = o.elementNodeMap := by
          unfold makeParent
          have : 0 < w * 2 := by linarith
          simp only [hroot, mkNode, this, if_true, Option.map_some']
          exact ⟨_, rfl, rfl, rfl, rfl, rfl⟩
        obtain ⟨o2, hmp, m1, m2, m3, m4⟩ := hmp
        have hg2 := makeParent_geom o o2 p hmp hg
        have hb2 := growBound_step n c w p e hw0 hb
        rw [← m1, ← m2] at hb2
        have hw2 : 2 ^ n * o2.root.width < 4 * e * 2 ^ k := by
          rw [m2]
          rw [pow_succ] at hw
          linarith
        have hn2 : o2.nodeOf index = none := by
          simpa [nodeOf, m4] using hn
        obtain ⟨o1, ho1⟩ := ih o2 hg2 m3 hb2 hw2 hn2
        refine ⟨o1, ?_⟩
        have e1 : n + 1 + K = (n + K) + 1 := by omega
        rw [e1, addElement]
        simp only [hroot, happ, Bool.false_eq_true, if_false, hmp]
        exact ho1

theorem addElement_total (o : DynamicOctree) (index : Nat) (p : Vec3) (e : ℚ)
    (hg : GeomWF o.root) (hs : o.root.isSome = true) (he : 0 < e) (hn : o.nodeOf index = none) :
    ∃ fuel o1, addElement fuel o index p e = some o1 := by
  have hw0 : 0 < o.root.width := by
    cases hroot : o.root with
    | none => rw [hroot] at hs; simp [Child.isSome] at hs
    | node a c w d ch idx =>
      rw [hroot, geomWF_node] at hg
      exact hg.1
  obtain ⟨n, hn1⟩ := growBound_exists o.root.center o.root.width p e hw0
  obtain ⟨k, hk⟩ := pow_unbounded_of_one_lt (2 ^ n * o.root.width / (4 * e))
    (by norm_num : (1 : ℚ) < 2)
  rw [div_lt_iff₀ (by linarith)] at hk
  obtain ⟨o1, ho1⟩ := addElement_total_aux index p e k (k + 1) (le_refl _) n o hg hs hn1
    (by linarith) hn
  exact ⟨_, o1, ho1⟩

theorem addElement_placement :
    ∀ fuel (o o1 : DynamicOctree) (index : Nat) (p : Vec3) (e : ℚ),
      addElement fuel o index p e = some o1 → Registration o →
      ∃ a, o1.nodeOf index = some a ∧ index ∈ (find a o1.root).indices ∧
        approxContains (find a o1.root).center (find a o1.root).width p e = true ∧
        insertIntoChild (find a o1.root).width e = false ∧
        ∃ anc, ancestors a o1.root = some anc ∧ ∀ n ∈ anc, insertIntoChild n.width e = true := by
  intro fuel
  induction fuel with
  | zero => intro o o1 index p e h; simp [addElement] at h
  | succ fuel ih =>
    intro o o1 index p e h hr
    rw [addElement] at h
    split at h
    · simp at h
    · split at h
      · split at h
        · simp at h
        · rename_i r a1 next hnode
          simp only [Option.map_eq_some'] at h
          obtain ⟨enm, henm, rfl⟩ := h
          obtain ⟨hu, hb, _⟩ := hr
          obtain ⟨_, m2⟩ := addToElementNodeMap_spec _ _ _ _ henm
          refine ⟨a1, by simp only [nodeOf]; rw [m2]; simp, ?_⟩
          exact nodeAddElement_placement index p e _ _ _ _ _ _ hnode hu hb
      · split at h
        · simp at h
        · rename_i o2 hmp
          exact ih o2 o1 index p e h (makeParent_spec o o2 p hmp hr).1

end DynamicOctree

namespace DynamicOctree

theorem childIndex_parent (c p : Vec3) (w : ℚ) (hw : 0 < w) :
    (childIndex (parentCenter c (w * (1 / 2)) p) c).val = parentIndex c p := by
  unfold childIndex parentCenter parentIndex
  by_cases hx : c.x < p.x <;> by_cases hy : c.y < p.y <;> by_cases hz : c.z < p.z <;>
    simp only [hx, hy, hz, if_true, if_false] <;>
    · have e1 : ¬ (c.x + w * (1 / 2) < c.x) := by linarith
      have e2 : ¬ (c.y + w * (1 / 2) < c.y) := by linarith
      have e3 : ¬ (c.z + w * (1 / 2) < c.z) := by linarith
      have f1 : c.x - w * (1 / 2) < c.x := by linarith
      have f2 : c.y - w * (1 / 2) < c.y := by linarith
      have f3 : c.z - w * (1 / 2) < c.z := by linarith
      simp only [e1, e2, e3, f1, f2, f3, decide_True, decide_False]
      rfl

theorem makeParent_shape (o : DynamicOctree) (a : Nat) (c : Vec3) (w : ℚ) (d : Int)
    (ch : Fin 8 → Child) (idx : Finset Nat) (p : Vec3)
    (hroot : o.root = Child.node a c w d ch idx) (hw : 0 < w) :
    makeParent o p = some
      { root := Child.node o.heapNext (parentCenter c (w * (1 / 2)) p) (w * 2) (d - 1)
          (fun k => if k = childIndex (parentCenter c (w * (1 / 2)) p) c then o.root
            else Child.none) ∅
        elementNodeMap := o.elementNodeMap
        heapNext := o.heapNext + 1 } := by
  unfold makeParent
  have h2 : 0 < w * 2 := by linarith
  simp only [hroot, mkNode, h2, if_true, Option.map_some', setChild, Option.some.injEq]
  congr 2
  funext k
  have := childIndex_parent c p w hw
  by_cases hk : k = childIndex (parentCenter c (w * (1 / 2)) p) c
  · rw [if_pos hk, if_pos (by rw [hk]; exact this)]
  · rw [if_neg hk, if_neg]
    intro hc
    exact hk (Fin.ext (hc.trans this.symm))

theorem addElement_unfold_grow (fuel : Nat) (o : DynamicOctree) (a : Nat) (c : Vec3) (w : ℚ)
    (d : Int) (ch : Fin 8 → Child) (idx : Finset Nat) (index : Nat) (p : Vec3) (e : ℚ)
    (hroot : o.root = Child.node a c w d ch idx) (hnot : approxContains c w p e = false) :
    addElement (fuel + 1) o index p e = (makeParent o p).bind (fun o2 => addElement fuel o2 index p e) := by
  rw [addElement]
  simp only [hroot, hnot, Bool.false_eq_true, if_false]
  cases makeParent o p <;> rfl

theorem addElement_root_contains :
    ∀ fuel (o o1 : DynamicOctree) (index : Nat) (p : Vec3) (e : ℚ),
      addElement fuel o index p e = some o1 →
      approxContains o1.root.center o1.root.width p e = true := by
  intro fuel
  induction fuel with
  | zero => intro o o1 index p e h; simp [addElement] at h
  | succ fuel ih =>
    intro o o1 index p e h
    rw [addElement] at h
    split at h
    · simp at h
    · rename_i a c w d ch idx hroot
      split at h
      · rename_i happ
        split at h
        · simp at h
        · rename_i r a1 next hnode
          simp only [Option.map_eq_some'] at h
          obtain ⟨enm, _, rfl⟩ := h
          obtain ⟨_, f2, _, f4, _⟩ := nodeAddElement_fields index p e _ _ _ _ _ _ hnode
          simp only
          rw [f2, f4, hroot]
          exact happ
      · split at h
        · simp at h
        · rename_i o2 hmp
          exact ih o2 o1 index p e h

theorem registration_holdsAt_eq (o o1 : DynamicOctree) (hr : Registration o)
    (hr1 : Registration o1) (id : Nat) (h : o1.nodeOf id = o.nodeOf id) (b : Nat) :
    holdsAt id b o1.root = holdsAt id b o.root := by
  rw [Bool.eq_iff_iff, hr.2.2 id b, hr1.2.2 id b, h]

end DynamicOctree

namespace DynamicMesh

open VertexData

theorem liveVertex_lt (s : DynamicMesh) (v : Nat) (h : s.liveVertex v = true) :
    v < s.vertexData.length := by
  unfold liveVertex VertexData.liveIn at h
  split at h
  · rename_i d hd; exact Util.getElem?_lt_of_some hd
  · simp at h

theorem liveFace_lt (s : DynamicMesh) (f : Nat) (h : s.liveFace f = true) :
    f < s.faceData.length := by
  unfold liveFace at h
  split at h
  · rename_i d hd; exact Util.getElem?_lt_of_some hd
  · simp at h

theorem adjacent_ge (s : DynamicMesh) (v : Nat) (h : s.vertexData.length ≤ v) :
    s.adjacent v = [] := by
  unfold adjacent VertexData.adjacentIn
  rw [List.getElem?_eq_none h]

theorem getElem?_append_singleton {α : Type} (l : List α) (x : α) (v : Nat) :
    (l ++ [x])[v]? = if v = l.length then some x else l[v]? := by
  by_cases hv : v < l.length
  · rw [List.getElem?_append_left hv, if_neg (by omega)]
  · rw [List.getElem?_append_right (by omega)]
    by_cases hv2 : v = l.length
    · subst hv2; simp
    · rw [if_neg hv2, List.getElem?_eq_none (by omega : l.length ≤ v)]
      have : v - l.length = (v - l.length - 1) + 1 := by omega
      rw [this]; rfl

theorem nodup_dropLast_mem {l : List Nat} {x : Nat} (hn : l.Nodup) (hx : l.getLast? = some x) :
    l.dropLast.Nodup ∧ ∀ j, j ∈ l.dropLast ↔ (j ∈ l ∧ j ≠ x) := by
  have hl : l = l.dropLast ++ [x] := (List.dropLast_append_getLast? x hx).symm
  rw [hl] at hn
  have h2 := List.nodup_append.mp hn
  refine ⟨h2.1, fun j => ?_⟩
  constructor
  · intro hj
    refine ⟨by rw [hl]; exact List.mem_append_left _ hj, ?_⟩
    rintro rfl
    exact h2.2.2 hj (by simp)
  · rintro ⟨hj, hne⟩
    rw [hl] at hj
    rcases List.mem_append.mp hj with h3 | h3
    · exact h3
    · simp at h3; exact absurd h3 hne

theorem addVertex_frame (s s1 : DynamicMesh) (vertex normal : Vec3) (i : Nat)
    (h : addVertex s vertex normal = some (s1, i)) (hs : Sizes s) (hf : FreeLists s) :
    s1.faceData = s.faceData ∧ s1.mesh.indices = s.mesh.indices ∧ s1.octree = s.octree ∧
      s1.freeFaceIndices = s.freeFaceIndices ∧ Sizes s1 ∧ s.liveVertex i = false ∧
      (∀ v, s1.liveVertex v = if v = i then true else s.liveVertex v) ∧
      (∀ v, s1.adjacent v = if v = i then [] else s.adjacent v) ∧
      s1.freeVertexIndices.Nodup ∧
      (∀ j, j ∈ s1.freeVertexIndices ↔ (j ∈ s.freeVertexIndices ∧ j ≠ i)) ∧
      i < s1.vertexData.length ∧ s.vertexData.length ≤ s1.vertexData.length ∧
      (s.freeVertexIndices = [] → i = s.vertexData.length ∧
        s1.vertexData.length = s.vertexData.length + 1) ∧
      (s.freeVertexIndices ≠ [] → s.freeVertexIndices.getLast? = some i ∧
        s1.vertexData.length = s.vertexData.length) ∧
      s1.mesh.vertices[i]? = some vertex ∧ s1.mesh.normals[i]? = some normal ∧
      (∀ v, v ≠ i → s1.mesh.vertices[v]? = s.mesh.vertices[v]? ∧
        s1.mesh.normals[v]? = s.mesh.normals[v]?) := by
  obtain ⟨z1, z2, z3, z4, z5⟩ := hs
  obtain ⟨f1, f2, f3, f4⟩ := hf
  unfold addVertex at h
  split at h
  · split at h
    · rename_i hlast
      have hnil : s.freeVertexIndices = [] := by
        cases hfl : s.freeVertexIndices with
        | nil => rfl
        | cons a l => rw [hfl] at hlast; simp [List.getLast?_cons] at hlast
      simp only [Option.some.injEq, Prod.mk.injEq] at h
      obtain ⟨rfl, rfl⟩ := h
      have hall : ∀ j, j < s.vertexData.length → s.liveVertex j = true := by
        intro j hj
        by_contra hc
        have := (f2 j).mpr ⟨hj, by simpa using hc⟩
        rw [hnil] at this; simp at this
      refine ⟨rfl, rfl, rfl, rfl, ?_, ?_, ?_, ?_, ?_, ?_, ?_, ?_, ?_, ?_, ?_, ?_, ?_⟩
      · refine ⟨?_, ?_, ?_, z4, z5⟩ <;> simp [Mesh.addVertex] <;> omega
      · simp only [liveVertex, VertexData.liveIn, Mesh.addVertex]
        rw [z1, List.getElem?_eq_none (le_refl _)]
      · intro v
        simp only [liveVertex, VertexData.liveIn, Mesh.addVertex]
        rw [getElem?_append_singleton, z1]
        by_cases hv : v = s.vertexData.length
        · rw [if_pos hv, if_pos hv]; rfl
        · rw [if_neg hv, if_neg hv]
      · intro v
        simp only [adjacent, VertexData.adjacentIn, Mesh.addVertex]
        rw [getElem?_append_singleton, z1]
        by_cases hv : v = s.vertexData.length
        · rw [if_pos hv, if_pos hv]
        · rw [if_neg hv, if_neg hv]
      · exact f1
      · intro j; rw [hnil]; simp
      · simp [Mesh.addVertex]; omega
      · simp
      · intro _; simp [Mesh.addVertex]; omega
      · intro hne; exact absurd hnil hne
      · simp only [Mesh.addVertex]
        rw [List.getElem?_append_right (le_refl _)]; simp
      · simp only [Mesh.addVertex]
        rw [List.getElem?_append_right (by omega)]
        have : s.mesh.vertices.length - s.mesh.normals.length = 0 := by omega
        rw [this]; simp
      · intro v hv
        simp only [Mesh.addVertex] at hv ⊢
        constructor
        · by_cases hlt : v < s.mesh.vertices.length
          · rw [List.getElem?_append_left hlt]
          · rw [List.getElem?_eq_none (by simp; omega), List.getElem?_eq_none (by omega)]
        · by_cases hlt : v < s.mesh.normals.length
          · rw [List.getElem?_append_left hlt]
          · rw [List.getElem?_eq_none (by simp; omega), List.getElem?_eq_none (by omega)]
    · rename_i index hlast
      split at h
      · simp at h
      · rename_i m1 hm1
        split at h
        · simp at h
        · rename_i m2 hm2
          split at h
          · rename_i hidx
            simp only [Option.some.injEq, Prod.mk.injEq] at h
            obtain ⟨rfl, rfl⟩ := h
            obtain ⟨d1, d2⟩ := nodup_dropLast_mem f1 hlast
            have hmem : index ∈ s.freeVertexIndices := List.mem_of_getLast?_eq_some hlast
            have hdead := (f2 index).mp hmem
            unfold Mesh.setVertex at hm1
            split at hm1
            · simp only [Option.some.injEq] at hm1
              subst hm1
              unfold Mesh.setNormal at hm2
              split at hm2
              · simp only [Option.some.injEq] at hm2
                subst hm2
                refine ⟨rfl, rfl, rfl, rfl, ?_, hdead.2, ?_, ?_, d1, d2, ?_, ?_, ?_, ?_, ?_, ?_, ?_⟩
                · refine ⟨?_, ?_, ?_, z4, z5⟩ <;> simp <;> omega
                · intro v
                  simp only [liveVertex, VertexData.liveIn]
                  by_cases hv : v = index
                  · subst hv
                    rw [List.getElem?_set_self hidx.1]; simp
                  · rw [List.getElem?_set_ne (Ne.symm hv), if_neg hv]
                · intro v
                  simp only [adjacent, VertexData.adjacentIn]
                  by_cases hv : v = index
                  · subst hv
                    rw [List.getElem?_set_self hidx.1]; simp
                  · rw [List.getElem?_set_ne (Ne.symm hv), if_neg hv]
                · simp; exact hidx.1
                · simp
                · intro hnil; rw [hnil] at hmem; simp at hmem
                · intro _; exact ⟨hlast, by simp⟩
                · simp only
                  rw [List.getElem?_set_self (by omega)]
                · simp only
                  rw [List.getElem?_set_self (by omega)]
                · intro v hv
                  simp only
                  rw [List.getElem?_set_ne (Ne.symm hv), List.getElem?_set_ne (Ne.symm hv)]
                  exact ⟨rfl, rfl⟩
              · simp at hm2
            · simp at hm1
          · simp at h
  · simp at h

theorem liveFace_congr (s s1 : DynamicMesh) (h : s1.faceData = s.faceData) (f : Nat) :
    s1.liveFace f = s.liveFace f := by
  simp only [liveFace, h]

theorem triple_congr (s s1 : DynamicMesh) (h : s1.mesh.indices = s.mesh.indices) (f : Nat) :
    s1.triple f = s.triple f := by
  simp only [triple, h]

theorem liveVertex_congr (s s1 : DynamicMesh) (h : s1.vertexData = s.vertexData) (v : Nat) :
    s1.liveVertex v = s.liveVertex v := by
  simp only [liveVertex, h]

theorem adjacent_congr (s s1 : DynamicMesh) (h : s1.vertexData = s.vertexData) (v : Nat) :
    s1.adjacent v = s.adjacent v := by
  simp only [adjacent, h]

theorem addVertex_inv (s s1 : DynamicMesh) (vertex normal : Vec3) (i : Nat)
    (h : addVertex s vertex normal = some (s1, i)) (hinv : MeshInv s) : MeshInv s1 := by
  obtain ⟨hs, hf, ⟨a1, a2⟩, ⟨c1, c2⟩⟩ := hinv
  obtain ⟨e1, e2, e3, e4, e5, e6, e7, e8, e9, e10, e11, e12, e13, e14, _⟩ :=
    addVertex_frame s s1 vertex normal i h hs hf
  obtain ⟨f1, f2, f3, f4⟩ := hf
  refine ⟨e5, ⟨e9, ?_, ?_, ?_⟩, ⟨?_, ?_⟩, ⟨?_, ?_⟩⟩
  · intro j
    rw [e10 j, f2 j, e7 j]
    by_cases hj : j = i
    · subst hj; simp
    · simp only [hj, if_false, ne_eq, not_false_eq_true, and_true]
      constructor
      · rintro ⟨h1, h2⟩; exact ⟨by omega, h2⟩
      · rintro ⟨h1, h2⟩
        refine ⟨?_, h2⟩
        by_cases hnil : s.freeVertexIndices = []
        · obtain ⟨g1, g2⟩ := e13 hnil
          omega
        · obtain ⟨_, g2⟩ := e14 hnil
          omega
  · rw [e4]; exact f3
  · intro j
    rw [e4, e1, liveFace_congr s s1 e1]
    exact f4 j
  · intro f hf' a ha
    rw [liveFace_congr s s1 e1] at hf'
    rw [triple_congr s s1 e2] at ha
    rw [e7]
    split
    · rfl
    · exact a1 f hf' a ha
  · intro v f
    rw [e8, liveFace_congr s s1 e1, triple_congr s s1 e2]
    by_cases hv : v = i
    · subst hv
      simp only [if_true, List.count_nil]
      split
      · rename_i hl
        symm
        rw [List.count_eq_zero]
        intro hmem
        have := a1 f hl v hmem
        rw [e6] at this
        simp at this
      · rfl
    · simp only [hv, if_false]
      exact a2 v f
  · rw [e3]; exact c1
  · intro f
    rw [e3, liveFace_congr s s1 e1]
    exact c2 f

theorem setAdjacent_spec (vd : List VertexData) (i f : Nat) (d : VertexData)
    (h : vd[i]? = some d) :
    (∀ v, liveIn (vd.set i (d.addAdjacentFace f)) v = liveIn vd v) ∧
      ∀ v g, (adjacentIn (vd.set i (d.addAdjacentFace f)) v).count g =
        (adjacentIn vd v).count g + (if g = f ∧ v = i then 1 else 0) := by
  have hi := Util.getElem?_lt_of_some h
  refine ⟨fun v => ?_, fun v g => ?_⟩
  · simp only [liveIn]
    by_cases hv : v = i
    · subst hv
      rw [List.getElem?_set_self hi, h]
      rfl
    · rw [List.getElem?_set_ne (Ne.symm hv)]
  · simp only [adjacentIn]
    by_cases hv : v = i
    · subst hv
      rw [List.getElem?_set_self hi, h]
      simp only [addAdjacentFace, List.count_append, and_true]
      by_cases hg : g = f
      · subst hg; simp
      · rw [if_neg hg, List.count_singleton]
        simp [Ne.symm hg]
    · rw [List.getElem?_set_ne (Ne.symm hv)]
      simp [hv]

theorem count_three (i1 i2 i3 v : Nat) :
    [i1, i2, i3].count v =
      (if v = i1 then 1 else 0) + (if v = i2 then 1 else 0) + (if v = i3 then 1 else 0) := by
  simp only [List.count_cons, List.count_nil, beq_iff_eq]
  have e : ∀ i : Nat, (if i = v then 1 else 0) = (if v = i then 1 else 0) := by
    intro i
    by_cases h : v = i
    · rw [if_pos h, if_pos h.symm]
    · rw [if_neg h, if_neg (Ne.symm h)]
  rw [e i1, e i2, e i3]
  omega

theorem addAdjacent_spec (vd vd1 : List VertexData) (i1 i2 i3 f : Nat)
    (h : addAdjacent vd i1 i2 i3 f = some vd1) :
    vd1.length = vd.length ∧ i1 < vd.length ∧ i2 < vd.length ∧ i3 < vd.length ∧
      (∀ v, liveIn vd1 v = liveIn vd v) ∧
      ∀ v g, (adjacentIn vd1 v).count g =
        (adjacentIn vd v).count g + (if g = f then [i1, i2, i3].count v else 0) := by
  unfold addAdjacent at h
  split at h
  · simp at h
  · rename_i d1 h1
    simp only at h
    split at h
    · simp at h
    · rename_i d2 h2
      split at h
      · simp at h
      · rename_i d3 h3
        simp only [Option.some.injEq] at h
        subst h
        obtain ⟨a1, a2⟩ := setAdjacent_spec vd i1 f d1 h1
        obtain ⟨b1, b2⟩ := setAdjacent_spec _ i2 f d2 h2
        obtain ⟨c1, c2⟩ := setAdjacent_spec _ i3 f d3 h3
        have l1 := Util.getElem?_lt_of_some h1
        have l2 := Util.getElem?_lt_of_some h2
        have l3 := Util.getElem?_lt_of_some h3
        simp only [List.length_set] at l2 l3
        refine ⟨by simp, l1, l2, l3, fun v => by rw [c1, b1, a1], fun v g => ?_⟩
        rw [c2, b2, a2]
        by_cases hg : g = f
        · subst hg
          simp only [true_and, if_true]
          rw [count_three]
          omega
        · simp [hg]

theorem ite_three_neg {p q r : Prop} [Decidable p] [Decidable q] [Decidable r] {x y z w : Nat}
    (hp : ¬p) (hq : ¬q) (hr : ¬r) :
    (if p then x else if q then y else if r then z else w) = w := by
  rw [if_neg hp, if_neg hq, if_neg hr]

theorem getD_append3 (l : List Nat) (x y z : Nat) (k : Nat) :
    (((l ++ [x]) ++ [y]) ++ [z]).getD k 0 =
      if k = l.length then x else if k = l.length + 1 then y
      else if k = l.length + 2 then z else l.getD k 0 := by
  rw [List.getD_eq_getElem?_getD, getElem?_append_singleton, getElem?_append_singleton,
    getElem?_append_singleton]
  simp only [List.length_append, List.length_singleton]
  by_cases h2 : k = l.length + 1 + 1
  · rw [if_pos h2, if_neg (by omega), if_neg (by omega), if_pos (by omega)]; rfl
  · rw [if_neg h2]
    by_cases h1 : k = l.length + 1
    · rw [if_pos h1, if_neg (by omega), if_pos h1]; rfl
    · rw [if_neg h1]
      by_cases h0 : k = l.length
      · rw [if_pos h0, if_pos h0]; rfl
      · rw [if_neg h0, if_neg h0, if_neg h1, if_neg (by omega), List.getD_eq_getElem?_getD]

theorem getD_set3 (l : List Nat) (a b c x y z : Nat) (k : Nat) (ha : a < l.length)
    (hb : b < l.length) (hc : c < l.length) (hab : a ≠ b) (hac : a ≠ c) (hbc : b ≠ c) :
    (((l.set a x).set b y).set c z).getD k 0 =
      if k = a then x else if k = b then y else if k = c then z else l.getD k 0 := by
  rw [List.getD_eq_getElem?_getD, List.getElem?_set, List.getElem?_set, List.getElem?_set]
  simp only [List.length_set]
  by_cases h2 : c = k
  · subst h2
    rw [if_pos rfl, if_pos hc, if_neg (Ne.symm hac), if_neg (Ne.symm hbc), if_pos rfl]; rfl
  · rw [if_neg h2]
    by_cases h1 : b = k
    · subst h1
      rw [if_pos rfl, if_pos hb, if_neg (Ne.symm hab), if_pos rfl]; rfl
    · rw [if_neg h1]
      by_cases h0 : a = k
      · subst h0
        rw [if_pos rfl, if_pos ha, if_pos rfl]; rfl
      · rw [if_neg h0, if_neg (Ne.symm h0), if_neg (Ne.symm h1), if_neg (Ne.symm h2),
          List.getD_eq_getElem?_getD]

theorem addFaceSlot_spec (s s1 : DynamicMesh) (i1 i2 i3 f : Nat)
    (h : addFaceSlot s i1 i2 i3 = some (s1, f)) (hs : Sizes s) (hf : FreeLists s) :
    s1.vertexData = s.vertexData ∧ s1.vertexVisited = s.vertexVisited ∧
      s1.freeVertexIndices = s.freeVertexIndices ∧ s1.octree = s.octree ∧
      s1.mesh.vertices = s.mesh.vertices ∧ s1.mesh.normals = s.mesh.normals ∧
      f < s1.faceData.length ∧ (∀ g, g ≠ f → s1.faceData[g]? = s.faceData[g]?) ∧
      s.liveFace f = false ∧ s1.mesh.indices.length = 3 * s1.faceData.length ∧
      s1.faceVisited.length = s1.faceData.length ∧ s1.triple f = [i1, i2, i3] ∧
      (∀ g, g ≠ f → s1.triple g = s.triple g) ∧ s1.freeFaceIndices.Nodup ∧
      (∀ j, j ∈ s1.freeFaceIndices ↔ (j ∈ s.freeFaceIndices ∧ j ≠ f)) ∧
      s.faceData.length ≤ s1.faceData.length ∧
      (∀ j, j < s1.faceData.length → j ≠ f → j < s.faceData.length) ∧
      (s.freeFaceIndices = [] → f = s.faceData.length) ∧
      (s.freeFaceIndices ≠ [] → s.freeFaceIndices.getLast? = some f ∧
        s1.faceData.length = s.faceData.length) := by
  obtain ⟨z1, z2, z3, z4, z5⟩ := hs
  obtain ⟨f1, f2, f3, f4⟩ := hf
  unfold addFaceSlot at h
  split at h
  · rename_i hlast
    have hnil : s.freeFaceIndices = [] := by
      cases hfl : s.freeFaceIndices with
      | nil => rfl
      | cons a l => rw [hfl] at hlast; simp [List.getLast?_cons] at hlast
    simp only [numFaces, hnil, List.length_nil, ge_iff_le, Nat.zero_le, if_true, Nat.sub_zero,
      Option.map_some', Option.some.injEq, Prod.mk.injEq] at h
    obtain ⟨rfl, rfl⟩ := h
    refine ⟨rfl, rfl, rfl, rfl, rfl, rfl, ?_, ?_, ?_, ?_, ?_, ?_, ?_, ?_, ?_, ?_, ?_, ?_, ?_⟩
    · simp
    · intro g hg
      simp only
      rw [getElem?_append_singleton, if_neg hg]
    · simp only [liveFace]
      rw [List.getElem?_eq_none (le_refl _)]
    · simp [Mesh.addIndex]; omega
    · simp; omega
    · simp only [triple, Mesh.addIndex, getD_append3, z4]
      simp
    · intro g hg
      simp only [triple, Mesh.addIndex, getD_append3, z4]
      rw [ite_three_neg (by omega) (by omega) (by omega),
        ite_three_neg (by omega) (by omega) (by omega),
        ite_three_neg (by omega) (by omega) (by omega)]
    · exact List.nodup_nil
    · intro j; simp [hnil]
    · simp
    · intro j hj hne
      simp at hj
      omega
    · intro _; rfl
    · intro hne; exact absurd hnil hne
  · rename_i index hlast
    split at h
    · rename_i hidx
      have hi0 : 3 * index + 0 < s.mesh.indices.length := by omega
      have hi1 : 3 * index + 1 < s.mesh.indices.length := by omega
      have hi2 : 3 * index + 2 < s.mesh.indices.length := by omega
      simp only [Mesh.setIndex, hi0, if_true, List.length_set, hi1, hi2, Option.some.injEq,
        Prod.mk.injEq] at h
      obtain ⟨rfl, rfl⟩ := h
      obtain ⟨d1, d2⟩ := nodup_dropLast_mem f3 hlast
      have hmem : index ∈ s.freeFaceIndices := List.mem_of_getLast?_eq_some hlast
      have hdead := (f4 index).mp hmem
      refine ⟨rfl, rfl, rfl, rfl, rfl, rfl, ?_, ?_, hdead.2, ?_, ?_, ?_, ?_, d1, d2, ?_, ?_, ?_, ?_⟩
      · simp; exact hidx.1
      · intro g hg
        simp only
        rw [List.getElem?_set_ne (Ne.symm hg)]
      · simp; omega
      · simp; omega
      · simp only [triple]
        rw [getD_set3 _ _ _ _ _ _ _ _ hi0 hi1 hi2 (by omega) (by omega) (by omega),
          getD_set3 _ _ _ _ _ _ _ _ hi0 hi1 hi2 (by omega) (by omega) (by omega),
          getD_set3 _ _ _ _ _ _ _ _ hi0 hi1 hi2 (by omega) (by omega) (by omega)]
        simp
      · intro g hg
        simp only [triple]
        rw [getD_set3 _ _ _ _ _ _ _ _ hi0 hi1 hi2 (by omega) (by omega) (by omega),
          getD_set3 _ _ _ _ _ _ _ _ hi0 hi1 hi2 (by omega) (by omega) (by omega),
          getD_set3 _ _ _ _ _ _ _ _ hi0 hi1 hi2 (by omega) (by omega) (by omega)]
        rw [ite_three_neg (by omega) (by omega) (by omega),
          ite_three_neg (by omega) (by omega) (by omega),
          ite_three_neg (by omega) (by omega) (by omega)]
      · simp
      · intro j hj _
        simpa using hj
      · intro hnil; rw [hnil] at hmem; simp at hmem
      · intro _; exact ⟨hlast, by simp⟩
    · simp at h

theorem addFace_frame (fuel : Nat) (s s1 : DynamicMesh) (i1 i2 i3 f : Nat)
    (h : addFace fuel s i1 i2 i3 = some (s1, f)) (hs : Sizes s) (hf : FreeLists s) :
    (∃ c e, s.octree.addElement fuel f c e = some s1.octree) ∧
      s1.freeVertexIndices = s.freeVertexIndices ∧ s1.mesh.vertices = s.mesh.vertices ∧
      s1.mesh.normals = s.mesh.normals ∧ Sizes s1 ∧ s.liveFace f = false ∧
      (∀ g, s1.liveFace g = if g = f then true else s.liveFace g) ∧
      s1.triple f = [i1, i2, i3] ∧ (∀ g, g ≠ f → s1.triple g = s.triple g) ∧
      (∀ v, s1.liveVertex v = s.liveVertex v) ∧
      (∀ v g, (s1.adjacent v).count g =
        (s.adjacent v).count g + (if g = f then [i1, i2, i3].count v else 0)) ∧
      s1.freeFaceIndices.Nodup ∧
      (∀ j, j ∈ s1.freeFaceIndices ↔ (j ∈ s.freeFaceIndices ∧ j ≠ f)) ∧
      s.faceData.length ≤ s1.faceData.length ∧
      (∀ j, j < s1.faceData.length → j ≠ f → j < s.faceData.length) ∧
      s1.vertexData.length = s.vertexData.length ∧ f < s1.faceData.length ∧
      (s.freeFaceIndices = [] → f = s.faceData.length) ∧
      (s.freeFaceIndices ≠ [] → s.freeFaceIndices.getLast? = some f ∧
        s1.faceData.length = s.faceData.length) := by
  unfold addFace at h
  split at h
  · split at h
    · simp at h
    · rename_i s0 index hslot
      obtain ⟨p1, p2, p3, p4, p5, p6, p7, p8, p9, p10, p11, p12, p13, p14, p15, p16, p17, p18,
        p19⟩ := addFaceSlot_spec s s0 i1 i2 i3 index hslot hs hf
      split at h
      · split at h
        · simp at h
        · rename_i vd hvd
          obtain ⟨q1, q2, q3, q4, q5, q6⟩ := addAdjacent_spec _ _ _ _ _ _ hvd
          simp only [Option.map_eq_some', Prod.mk.injEq] at h
          obtain ⟨s2, hs2, rfl, rfl⟩ := h
          unfold addFaceToOctree at hs2
          split at hs2
          · rename_i v1 v2 v3 _
            simp only [Option.map_eq_some'] at hs2
            obtain ⟨o, ho, rfl⟩ := hs2
            rw [show ({ s0 with faceData := s0.faceData.set index ⟨false⟩, vertexData := vd } :
              DynamicMesh).octree = s.octree from p4] at ho
            obtain ⟨z1, z2, z3, z4, z5⟩ := hs
            refine ⟨⟨_, _, ho⟩, p3, p5, p6, ?_, p9, ?_, ?_, ?_, ?_, ?_, p14, p15, ?_, ?_, ?_, ?_,
              p18, ?_⟩
            · refine ⟨?_, ?_, ?_, ?_, ?_⟩
              · simp only; rw [p5, q1, p1]; exact z1
              · simp only; rw [p6, q1, p1]; exact z2
              · simp only; rw [p2, q1, p1]; exact z3
              · simp only [List.length_set]; exact p10
              · simp only [List.length_set]; exact p11
            · intro g
              simp only [liveFace]
              by_cases hg : g = index
              · subst hg
                rw [List.getElem?_set_self p7]; simp
              · rw [List.getElem?_set_ne (Ne.symm hg), if_neg hg, p8 g hg]
            · simpa [triple] using p12
            · intro g hg
              have := p13 g hg
              simpa [triple] using this
            · intro v
              simp only [liveVertex]
              rw [q5 v, p1]
            · intro v g
              simp only [adjacent]
              rw [q6 v g, p1]
            · simpa using p16
            · intro j hj hne
              exact p17 j (by simpa using hj) hne
            · show vd.length = s.vertexData.length
              rw [q1, p1]
            · simpa using p7
            · intro hne
              obtain ⟨g1, g2⟩ := p19 hne
              exact ⟨g1, by simpa using g2⟩
          · simp at hs2
      · contradiction
  · simp at h

theorem addFace_inv (fuel : Nat) (s s1 : DynamicMesh) (i1 i2 i3 f : Nat)
    (h : addFace fuel s i1 i2 i3 = some (s1, f))
    (hlive : s.liveVertex i1 = true ∧ s.liveVertex i2 = true ∧ s.liveVertex i3 = true)
    (hinv : MeshInv s) : MeshInv s1 := by
  obtain ⟨hs, hf, ⟨a1, a2⟩, ⟨c1, c2⟩⟩ := hinv
  obtain ⟨⟨c, e, ho⟩, e1, _, _, e4, e5, e6, e7, e8, e9, e10, e11, e12, e13, e14, e15, e16, _, _⟩ :=
    addFace_frame fuel s s1 i1 i2 i3 f h hs hf
  obtain ⟨f1, f2, f3, f4⟩ := hf
  obtain ⟨r1, r2, r3, r4, _⟩ := DynamicOctree.addElement_registration fuel _ _ f c e ho c1
  refine ⟨e4, ⟨?_, ?_, e11, ?_⟩, ⟨?_, ?_⟩, ⟨r1, ?_⟩⟩
  · rw [e1]; exact f1
  · intro j
    rw [e1, f2 j, e9 j, e15]
  · intro j
    rw [e12 j, f4 j, e6 j]
    by_cases hj : j = f
    · subst hj; simp
    · simp only [hj, if_false, ne_eq, not_false_eq_true, and_true]
      constructor
      · rintro ⟨h1, h2⟩; exact ⟨by omega, h2⟩
      · rintro ⟨h1, h2⟩; exact ⟨e14 j h1 hj, h2⟩
  · intro g hg a ha
    rw [e9]
    rw [e6] at hg
    by_cases hgf : g = f
    · subst hgf
      rw [e7] at ha
      simp only [List.mem_cons, List.mem_singleton, List.not_mem_nil, or_false] at ha
      rcases ha with rfl | rfl | rfl
      · exact hlive.1
      · exact hlive.2.1
      · exact hlive.2.2
    · rw [if_neg hgf] at hg
      rw [e8 g hgf] at ha
      exact a1 g hg a ha
  · intro v g
    rw [e10 v g, e6 g, a2 v g]
    by_cases hgf : g = f
    · subst hgf
      rw [e5, e7]
      simp
    · rw [if_neg hgf, if_neg hgf, e8 g hgf]
      simp
  · intro g
    rw [e6 g]
    by_cases hgf : g = f
    · subst hgf
      obtain ⟨a, ha⟩ := r3
      rw [ha]; simp
    · rw [if_neg hgf, r4 g hgf]
      exact c2 g

theorem deleteAdjacent_spec (m : Mesh) (vd vd1 : List VertexData) (k i : Nat)
    (h : deleteAdjacent m vd k i = some vd1) :
    ∃ v, m.indices[k]? = some v ∧ v < vd.length ∧ vd1.length = vd.length ∧
      (∀ u, liveIn vd1 u = liveIn vd u) ∧
      (∀ u g, (adjacentIn vd1 u).count g + (if g = i ∧ u = v then 1 else 0) =
        (adjacentIn vd u).count g) := by
  unfold deleteAdjacent Mesh.index at h
  split at h
  · simp at h
  · rename_i v hv
    split at h
    · simp at h
    · rename_i d hd
      have hlt : v < vd.length := Util.getElem?_lt_of_some hd
      unfold VertexData.deleteAdjacentFace at h
      split at h
      · rename_i hmem
        simp only [Option.map_some', Option.some.injEq] at h
        subst h
        refine ⟨v, hv, hlt, by simp, ?_, ?_⟩
        · intro u
          unfold liveIn
          by_cases hu : u = v
          · subst hu; rw [List.getElem?_set_self hlt, hd]
          · rw [List.getElem?_set_ne (Ne.symm hu)]
        · intro u g
          unfold adjacentIn
          by_cases hu : u = v
          · subst hu
            rw [List.getElem?_set_self hlt, hd]
            simp only [and_true]
            rw [List.count_erase]
            by_cases hg : g = i
            · subst hg
              have := List.count_pos_iff.mpr hmem
              simp; omega
            · have : ¬ ((i == g) = true) := by simpa using Ne.symm hg
              simp [hg, this]
          · rw [List.getElem?_set_ne (Ne.symm hu)]
            simp [hu]
      · simp at h

theorem getD_zero_of_getElem? {l : List Nat} {k v : Nat} (h : l[k]? = some v) : l.getD k 0 = v := by
  rw [List.getD_eq_getElem?_getD, h]; rfl

theorem deleteFace_frame (s s1 : DynamicMesh) (f : Nat) (h : deleteFace s f = some s1) :
    s.octree.deleteElement f = some s1.octree ∧ s1.mesh = s.mesh ∧
      s1.freeVertexIndices = s.freeVertexIndices ∧
      s1.vertexVisited = s.vertexVisited ∧
      s1.vertexData.length = s.vertexData.length ∧ s1.faceData = s.faceData.set f ⟨true⟩ ∧
      s1.faceVisited.length = s.faceVisited.length ∧
      f < s.faceData.length ∧ s1.freeFaceIndices = s.freeFaceIndices ++ [f] ∧
      (∀ u, s1.liveVertex u = s.liveVertex u) ∧
      (∀ g, s1.liveFace g = if g = f then false else s.liveFace g) ∧
      (∀ u g, (s1.adjacent u).count g + (if g = f then (s.triple f).count u else 0) =
        (s.adjacent u).count g) := by
  unfold deleteFace at h
  split at h
  · rename_i hlt
    split at h
    · simp at h
    · rename_i vd1 h1
      split at h
      · simp at h
      · rename_i vd2 h2
        split at h
        · simp at h
        · rename_i vd3 h3
          simp only [Option.map_eq_some'] at h
          obtain ⟨o, ho, rfl⟩ := h
          obtain ⟨v1, p1, _, l1, q1, r1⟩ := deleteAdjacent_spec _ _ _ _ _ h1
          obtain ⟨v2, p2, _, l2, q2, r2⟩ := deleteAdjacent_spec _ _ _ _ _ h2
          obtain ⟨v3, p3, _, l3, q3, r3⟩ := deleteAdjacent_spec _ _ _ _ _ h3
          refine ⟨ho, rfl, rfl, rfl, by simp only; omega, rfl, by simp, hlt.1, rfl, ?_, ?_, ?_⟩
          · intro u
            show liveIn vd3 u = liveIn s.vertexData u
            rw [q3, q2, q1]
          · intro g
            unfold liveFace
            simp only
            by_cases hg : g = f
            · subst hg; rw [List.getElem?_set_self hlt.1]; simp
            · rw [List.getElem?_set_ne (Ne.symm hg), if_neg hg]
          · intro u g
            show (adjacentIn vd3 u).count g + _ = (adjacentIn s.vertexData u).count g
            have t : s.triple f = [v1, v2, v3] := by
              unfold triple
              have p1' : s.mesh.indices[3 * f]? = some v1 := p1
              rw [getD_zero_of_getElem? p1', getD_zero_of_getElem? p2, getD_zero_of_getElem? p3]
            rw [t, ← r1 u g, ← r2 u g, ← r3 u g, count_three]
            by_cases hg : g = f
            · subst hg
              simp only [true_and, if_true]
              omega
            · simp [hg]
  · simp at h

theorem deleteFace_inv (s s1 : DynamicMesh) (f : Nat) (h : deleteFace s f = some s1)
    (hlive : s.liveFace f = true) (hinv : MeshInv s) : MeshInv s1 := by
  obtain ⟨hs, hf, ⟨a1, a2⟩, ⟨c1, c2⟩⟩ := hinv
  obtain ⟨ho, e1, e2, e3, e4, e5, e6, e7, e8, e9, e10, e11⟩ := deleteFace_frame s s1 f h
  obtain ⟨f1, f2, f3, f4⟩ := hf
  obtain ⟨z1, z2, z3, z4, z5⟩ := hs
  obtain ⟨r1, r2, r3, r4, _⟩ := DynamicOctree.deleteElement_registration _ _ f ho c1
  have hfl : s1.faceData.length = s.faceData.length := by rw [e5]; simp
  have htr : ∀ g, s1.triple g = s.triple g := fun g => triple_congr s s1 (by rw [e1]) g
  refine ⟨⟨?_, ?_, ?_, ?_, ?_⟩, ⟨?_, ?_, ?_, ?_⟩, ⟨?_, ?_⟩, ⟨r1, ?_⟩⟩
  · rw [e1, e4]; exact z1
  · rw [e1, e4]; exact z2
  · rw [e3, e4]; exact z3
  · rw [e1, hfl]; exact z4
  · rw [e6, hfl]; exact z5
  · rw [e2]; exact f1
  · intro j; rw [e2, f2 j, e9 j, e4]
  · rw [e8]
    refine List.nodup_append.mpr ⟨f3, List.nodup_singleton f, ?_⟩
    intro a ha hb
    simp only [List.mem_singleton] at hb
    subst hb
    have := ((f4 a).mp ha).2
    rw [hlive] at this; simp at this
  · intro j
    rw [e8, e10 j, hfl, List.mem_append, f4 j]
    by_cases hj : j = f
    · subst hj; simp [e7]
    · simp [hj]
  · intro g hg a ha
    rw [e10] at hg
    by_cases hgf : g = f
    · rw [if_pos hgf] at hg; simp at hg
    · rw [if_neg hgf] at hg
      rw [htr] at ha
      rw [e9]; exact a1 g hg a ha
  · intro v g
    have := e11 v g
    rw [a2 v g] at this
    rw [e10 g, htr]
    by_cases hgf : g = f
    · subst hgf
      rw [hlive] at this
      simp only [if_true] at this
      simp only [if_true, Bool.false_eq_true, if_false]
      omega
    · simp only [if_neg hgf, Nat.add_zero] at this
      rw [if_neg hgf]; exact this
  · intro g
    rw [e10 g]
    by_cases hgf : g = f
    · subst hgf; rw [r2]; simp
    · rw [if_neg hgf, r4 g hgf]; exact c2 g

theorem deleteFace_live (s s1 : DynamicMesh) (f : Nat) (h : deleteFace s f = some s1)
    (hinv : MeshInv s) : s.liveFace f = true := by
  obtain ⟨_, _, ⟨_, a2⟩, _⟩ := hinv
  obtain ⟨_, _, _, _, _, _, _, _, _, _, _, e11⟩ := deleteFace_frame s s1 f h
  have h1 := e11 (s.mesh.indices.getD (3 * f) 0) f
  rw [a2] at h1
  by_cases hl : s.liveFace f = true
  · exact hl
  · simp only [hl, if_false, Bool.false_eq_true] at h1
    simp [triple] at h1

theorem deleteFaces_inv (fs : List Nat) : ∀ (s s1 : DynamicMesh), deleteFaces fs s = some s1 →
    MeshInv s → MeshInv s1 ∧ s1.mesh = s.mesh ∧ s1.freeVertexIndices = s.freeVertexIndices ∧
      s1.vertexVisited = s.vertexVisited ∧ s1.vertexData.length = s.vertexData.length ∧
      (∀ u, s1.liveVertex u = s.liveVertex u) ∧
      (∀ g, s1.liveFace g = (s.liveFace g && decide (g ∉ fs))) := by
  induction fs with
  | nil =>
    intro s s1 h hinv
    simp only [deleteFaces, Option.some.injEq] at h
    subst h
    simp [hinv]
  | cons f fs ih =>
    intro s s1 h hinv
    simp only [deleteFaces] at h
    split at h
    · simp at h
    · rename_i s2 h2
      have hl := deleteFace_live s s2 f h2 hinv
      have hinv2 := deleteFace_inv s s2 f h2 hl hinv
      obtain ⟨_, e1, e2, e3, e4, _, _, _, _, e9, e10, _⟩ := deleteFace_frame s s2 f h2
      obtain ⟨i1, i2, i3, i4, i5, i6, i7⟩ := ih s2 s1 h hinv2
      refine ⟨i1, by rw [i2, e1], by rw [i3, e2], by rw [i4, e3], by rw [i5, e4], ?_, ?_⟩
      · intro u; rw [i6, e9]
      · intro g
        rw [i7, e10]
        by_cases hg : g = f
        · subst hg; simp
        · simp [hg]

theorem deleteVertex_frame (s s1 : DynamicMesh) (i : Nat) (h : deleteVertex s i = some s1) :
    ∃ s2, deleteFaces (s.adjacent i) s = some s2 ∧ i < s.vertexData.length ∧
      s1 = { s2 with
        vertexData := s2.vertexData.set i ⟨true, []⟩
        vertexVisited := s2.vertexVisited.set i 0
        freeVertexIndices := s2.freeVertexIndices ++ [i] } := by
  unfold deleteVertex at h
  split at h
  · rename_i hlt
    split at h
    · simp at h
    · rename_i d hd
      have hadj : s.adjacent i = d.adjacentFaces := by
        unfold adjacent adjacentIn; rw [hd]
      split at h
      · simp at h
      · rename_i s2 h2
        split at h
        · simp only [Option.some.injEq] at h
          exact ⟨s2, by rw [hadj]; exact h2, hlt.1, h.symm⟩
        · simp at h
  · simp at h

theorem deleteVertex_adjacent (s s2 : DynamicMesh) (i : Nat)
    (h : deleteFaces (s.adjacent i) s = some s2) (hinv : MeshInv s) (g : Nat) :
    (s2.adjacent i).count g = 0 := by
  obtain ⟨i1, i2, _, _, _, _, i7⟩ := deleteFaces_inv _ s s2 h hinv
  obtain ⟨_, _, ⟨_, a2⟩, _⟩ := hinv
  obtain ⟨_, _, ⟨_, b2⟩, _⟩ := i1
  rw [b2 i g, i7 g]
  by_cases hl : s.liveFace g = true
  · by_cases hm : g ∈ s.adjacent i
    · simp [hm]
    · have := a2 i g
      rw [List.count_eq_zero_of_not_mem hm, if_pos hl] at this
      rw [triple_congr s s2 (by rw [i2]) g, ← this]
      simp
  · simp [hl]

theorem liveIn_set (vd : List VertexData) (i : Nat) (d : VertexData) (h : i < vd.length)
    (u : Nat) : liveIn (vd.set i d) u = if u = i then !d.isFree else liveIn vd u := by
  unfold liveIn
  by_cases hu : u = i
  · subst hu; rw [List.getElem?_set_self h]; simp
  · rw [List.getElem?_set_ne (Ne.symm hu), if_neg hu]

theorem adjacentIn_set (vd : List VertexData) (i : Nat) (d : VertexData) (h : i < vd.length)
    (u : Nat) :
    adjacentIn (vd.set i d) u = if u = i then d.adjacentFaces else adjacentIn vd u := by
  unfold adjacentIn
  by_cases hu : u = i
  · subst hu; rw [List.getElem?_set_self h]; simp
  · rw [List.getElem?_set_ne (Ne.symm hu), if_neg hu]

theorem deleteVertex_inv (s s1 : DynamicMesh) (i : Nat) (h : deleteVertex s i = some s1)
    (hlive : s.liveVertex i = true) (hinv : MeshInv s) : MeshInv s1 := by
  obtain ⟨s2, h2, hlt, rfl⟩ := deleteVertex_frame s s1 i h
  have hadj := deleteVertex_adjacent s s2 i h2 hinv
  obtain ⟨i1, i2, i3, i4, i5, i6, i7⟩ := deleteFaces_inv _ s s2 h2 hinv
  obtain ⟨⟨z1, z2, z3, z4, z5⟩, ⟨f1, f2, f3, f4⟩, ⟨a1, a2⟩, ⟨c1, c2⟩⟩ := i1
  have hlt2 : i < s2.vertexData.length := by omega
  have hlive2 : s2.liveVertex i = true := by rw [i6]; exact hlive
  have hnot : ∀ g, s2.liveFace g = true → (s2.triple g).count i = 0 := by
    intro g hg
    have := a2 i g
    rw [hadj g, if_pos hg] at this
    exact this.symm
  refine ⟨⟨?_, ?_, ?_, z4, z5⟩, ⟨?_, ?_, f3, f4⟩, ⟨?_, ?_⟩, ⟨c1, c2⟩⟩
  · simp only [List.length_set]; exact z1
  · simp only [List.length_set]; exact z2
  · simp only [List.length_set]; exact z3
  · refine List.nodup_append.mpr ⟨f1, List.nodup_singleton i, ?_⟩
    intro a ha hb
    simp only [List.mem_singleton] at hb
    subst hb
    have := ((f2 a).mp ha).2
    rw [hlive2] at this; simp at this
  · intro j
    simp only [List.mem_append, List.mem_singleton, List.length_set]
    rw [f2 j]
    show _ ↔ _ ∧ liveIn _ j = false
    rw [liveIn_set _ _ _ hlt2]
    by_cases hj : j = i
    · subst hj; simp [hlt2]
    · simp only [hj, or_false, if_false]; rfl
  · intro g hg a ha
    show liveIn _ a = true
    rw [liveIn_set _ _ _ hlt2]
    have hg2 : s2.liveFace g = true := hg
    have ha2 : a ∈ s2.triple g := ha
    by_cases hai : a = i
    · subst hai
      have := hnot g hg2
      exact absurd ha2 (List.count_eq_zero.mp this)
    · rw [if_neg hai]; exact a1 g hg2 a ha2
  · intro v g
    show (adjacentIn _ v).count g = if s2.liveFace g then (s2.triple g).count v else 0
    rw [adjacentIn_set _ _ _ hlt2]
    by_cases hv : v = i
    · subst hv
      simp only [if_true, List.count_nil]
      by_cases hg : s2.liveFace g = true
      · rw [if_pos hg, hnot g hg]
      · simp [hg]
    · rw [if_neg hv]; exact a2 v g

theorem remapAdjacent_spec (fmap : List Nat) : ∀ adj adj1, remapAdjacent fmap adj = some adj1 →
    adj1 = adj.map (fun f => fmap.getD f Util.invalidIndex) ∧
      ∀ f ∈ adj, ∃ g, fmap[f]? = some g ∧ g ≠ Util.invalidIndex := by
  intro adj
  induction adj with
  | nil =>
    intro adj1 h
    simp only [remapAdjacent, Option.some.injEq] at h
    subst h; simp
  | cons f fs ih =>
    intro adj1 h
    simp only [remapAdjacent] at h
    split at h
    · rename_i g hg
      split at h
      · rename_i hne
        simp only [Option.map_eq_some'] at h
        obtain ⟨gs, hgs, rfl⟩ := h
        obtain ⟨i1, i2⟩ := ih gs hgs
        refine ⟨?_, ?_⟩
        · simp only [List.map_cons, List.cons.injEq]
          exact ⟨by rw [List.getD_eq_getElem?_getD, hg]; rfl, i1⟩
        · intro x hx
          rcases List.mem_cons.mp hx with rfl | hx
          · exact ⟨g, hg, hne⟩
          · exact i2 x hx
      · simp at h
    · simp at h

theorem remapAdjacent_total (fmap : List Nat) : ∀ adj,
    (∀ f ∈ adj, ∃ g, fmap[f]? = some g ∧ g ≠ Util.invalidIndex) →
    ∃ adj1, remapAdjacent fmap adj = some adj1 := by
  intro adj
  induction adj with
  | nil => intro _; exact ⟨[], rfl⟩
  | cons f fs ih =>
    intro h
    obtain ⟨g, hg, hne⟩ := h f (List.mem_cons_self f fs)
    obtain ⟨gs, hgs⟩ := ih (fun x hx => h x (List.mem_cons_of_mem f hx))
    refine ⟨g :: gs, ?_⟩
    simp only [remapAdjacent, hg, hgs, ne_eq, hne, not_false_eq_true, if_true, Option.map_some']

theorem remapAllAdjacent_spec (fmap : List Nat) : ∀ vd vd1, remapAllAdjacent fmap vd = some vd1 →
    vd1.length = vd.length ∧ ∀ q, liveIn vd1 q = liveIn vd q ∧
      adjacentIn vd1 q = (adjacentIn vd q).map (fun f => fmap.getD f Util.invalidIndex) ∧
      ∀ f ∈ adjacentIn vd q, ∃ g, fmap[f]? = some g ∧ g ≠ Util.invalidIndex := by
  intro vd
  induction vd with
  | nil =>
    intro vd1 h
    simp only [remapAllAdjacent, Option.some.injEq] at h
    subst h
    simp [liveIn, adjacentIn]
  | cons d ds ih =>
    intro vd1 h
    simp only [remapAllAdjacent] at h
    split at h
    · rename_i adj hadj
      simp only [Option.map_eq_some'] at h
      obtain ⟨ds1, hds1, rfl⟩ := h
      obtain ⟨i1, i2⟩ := ih ds1 hds1
      obtain ⟨j1, j2⟩ := remapAdjacent_spec fmap _ _ hadj
      refine ⟨by simp [i1], ?_⟩
      intro q
      cases q with
      | zero =>
        simp only [liveIn, adjacentIn, List.getElem?_cons_zero]
        exact ⟨trivial, j1, j2⟩
      | succ q =>
        simp only [liveIn, adjacentIn, List.getElem?_cons_succ]
        exact i2 q
    · simp at h

theorem remapAllAdjacent_total (fmap : List Nat) : ∀ vd,
    (∀ q, ∀ f ∈ adjacentIn vd q, ∃ g, fmap[f]? = some g ∧ g ≠ Util.invalidIndex) →
    ∃ vd1, remapAllAdjacent fmap vd = some vd1 := by
  intro vd
  induction vd with
  | nil => intro _; exact ⟨[], rfl⟩
  | cons d ds ih =>
    intro h
    obtain ⟨adj, hadj⟩ := remapAdjacent_total fmap d.adjacentFaces (by
      intro f hf
      have := h 0 f
      simp only [adjacentIn, List.getElem?_cons_zero] at this
      exact this hf)
    obtain ⟨ds1, hds1⟩ := ih (by
      intro q f hf
      have := h (q + 1) f
      simp only [adjacentIn, List.getElem?_cons_succ] at this
      exact this hf)
    exact ⟨{ d with adjacentFaces := adj } :: ds1,
      by simp only [remapAllAdjacent, hadj, hds1, Option.map_some']⟩

theorem copyVertices_spec (free : List Nat) : ∀ rest i m m1,
    copyVertices free rest i m = some m1 →
    m1.indices = m.indices ∧ m1.vertices.length = m.vertices.length ∧
      m1.normals.length = m.normals.length := by
  intro rest
  induction rest with
  | nil =>
    intro i m m1 h
    simp only [copyVertices, Option.some.injEq] at h
    subst h; simp
  | cons newV rest ih =>
    intro i m m1 h
    simp only [copyVertices] at h
    split at h
    · split at h
      · simp at h
      · rename_i v hv
        split at h
        · simp at h
        · rename_i ma hma
          split at h
          · simp at h
          · rename_i n hn
            split at h
            · simp at h
            · rename_i mb hmb
              obtain ⟨i1, i2, i3⟩ := ih _ _ _ h
              unfold Mesh.setVertex at hma
              unfold Mesh.setNormal at hmb
              split at hma
              · split at hmb
                · simp only [Option.some.injEq] at hma hmb
                  subst hma
                  subst hmb
                  simp only [List.length_set] at i1 i2 i3
                  exact ⟨i1, i2, i3⟩
                · simp at hmb
              · simp at hma
    · split at h
      · exact ih _ _ _ h
      · simp at h

theorem copyVertices_total (free : List Nat) (vmap : List Nat) (n : Nat)
    (h1 : ∀ i x, vmap[i]? = some x → x ≠ Util.invalidIndex → x < n ∧ i < n)
    (h2 : ∀ i, vmap[i]? = some Util.invalidIndex → i ∈ free) :
    ∀ k t m, t + k = vmap.length → m.vertices.length = n → m.normals.length = n →
      ∃ m1, copyVertices free (vmap.drop t) t m = some m1 := by
  intro k
  induction k with
  | zero =>
    intro t m ht _ _
    have : t = vmap.length := by omega
    subst this
    exact ⟨m, by simp [copyVertices]⟩
  | succ k ih =>
    intro t m ht hv hn
    have hlt : t < vmap.length := by omega
    rw [List.drop_eq_getElem_cons hlt]
    have hget : vmap[t]? = some vmap[t] := List.getElem?_eq_getElem hlt
    simp only [copyVertices]
    by_cases hx : vmap[t] ≠ Util.invalidIndex
    · obtain ⟨b1, b2⟩ := h1 t _ hget hx
      rw [if_pos hx]
      have e1 : m.vertex t = some m.vertices[t] := by
        unfold Mesh.vertex; exact List.getElem?_eq_getElem (by omega)
      have e2 : m.normal t = some m.normals[t] := by
        unfold Mesh.normal; exact List.getElem?_eq_getElem (by omega)
      simp only [e1, Mesh.setVertex, hv, b1, if_true, Mesh.normal, Mesh.setNormal, hn]
      rw [List.getElem?_eq_getElem (by omega : t < m.normals.length)]
      simp only []
      exact ih (t + 1) _ (by omega) (by simp [hv]) (by simp [hn])
    · rw [if_neg hx]
      have hx' : vmap[t] = Util.invalidIndex := by
        by_contra hc; exact hx hc
      rw [if_pos (h2 t (by rw [hget, hx']))]
      exact ih (t + 1) m (by omega) hv hn

theorem getElem?_set3 (l : List Nat) (a x y z p : Nat) (h : 3 * a + 2 < l.length) :
    (((l.set (3 * a + 0) x).set (3 * a + 1) y).set (3 * a + 2) z)[p]? =
      if p = 3 * a then some x else if p = 3 * a + 1 then some y
        else if p = 3 * a + 2 then some z else l[p]? := by
  rw [Nat.add_zero]
  by_cases h0 : p = 3 * a
  · subst h0
    rw [List.getElem?_set_ne (by omega), List.getElem?_set_ne (by omega),
      List.getElem?_set_self (by omega), if_pos rfl]
  · by_cases h1 : p = 3 * a + 1
    · subst h1
      rw [List.getElem?_set_ne (by omega), List.getElem?_set_self (by simp; omega), if_neg h0,
        if_pos rfl]
    · by_cases h2 : p = 3 * a + 2
      · subst h2
        rw [List.getElem?_set_self (by simp; omega), if_neg h0, if_neg h1, if_pos rfl]
      · rw [List.getElem?_set_ne (by omega), List.getElem?_set_ne (by omega),
          List.getElem?_set_ne (by omega), if_neg h0, if_neg h1, if_neg h2]

theorem copyFaces_step (vmap free fmap : List Nat) (m0 : Mesh)
    (H1 : ∀ i x, fmap[i]? = some x → x ≠ Util.invalidIndex → x ≤ i)
    (H2 : ∀ (i1 i2 x : Nat), fmap[i1]? = some x → fmap[i2]? = some x → x ≠ Util.invalidIndex → i1 = i2)
    (t : Nat) (m : Mesh) (hlt : t < fmap.length) (hinv : CopyInv vmap fmap m0 t m) :
    (∃ m1, CopyInv vmap fmap m0 (t + 1) m1 ∧
        copyFaces vmap free (fmap.drop t) t m = copyFaces vmap free (fmap.drop (t + 1)) (t + 1) m1) ∨
      (copyFaces vmap free (fmap.drop t) t m = none ∧ ¬ CopyGood vmap free fmap m0 t) := by
  obtain ⟨c1, c2, c3, c4, c5⟩ := hinv
  have hget : fmap[t]? = some fmap[t] := List.getElem?_eq_getElem hlt
  rw [List.drop_eq_getElem_cons hlt]
  simp only [copyFaces]
  have hun : ∀ k, k < 3 → m.indices[3 * t + k]? = m0.indices[3 * t + k]? := by
    intro k hk
    apply c4
    intro i x hi hx hv
    have := H1 i x hx hv
    omega
  by_cases hx : fmap[t] ≠ Util.invalidIndex
  · rw [if_pos hx]
    have hle := H1 t _ hget hx
    by_cases hgood : ∀ k, k < 3 →
        ∃ a b, m0.indices[3 * t + k]? = some a ∧ mapVertex vmap a = some b
    · left
      obtain ⟨a0, b0, p0, q0⟩ := hgood 0 (by omega)
      obtain ⟨a1, b1, p1, q1⟩ := hgood 1 (by omega)
      obtain ⟨a2, b2, p2, q2⟩ := hgood 2 (by omega)
      have hlen : 3 * t + 2 < m.indices.length := by
        rw [c3]; exact Util.getElem?_lt_of_some p2
      have r0 := hun 0 (by omega)
      have r1 := hun 1 (by omega)
      have r2 := hun 2 (by omega)
      rw [p0] at r0; rw [p1] at r1; rw [p2] at r2
      have s0 : 3 * fmap[t] + 0 < m.indices.length := by omega
      have s1 : 3 * fmap[t] + 1 < m.indices.length := by omega
      have s2 : 3 * fmap[t] + 2 < m.indices.length := by omega
      simp only [Mesh.index, r0, r1, r2, q0, q1, q2, Mesh.setIndex, s0, s1, s2, if_true,
        List.length_set]
      refine ⟨{ m with indices := ((m.indices.set (3 * fmap[t] + 0) b0).set
        (3 * fmap[t] + 1) b1).set (3 * fmap[t] + 2) b2 },
        ⟨c1, c2, by simp only [List.length_set]; exact c3, ?_, ?_⟩, rfl⟩
      · intro p hp
        simp only
        rw [getElem?_set3 _ _ _ _ _ _ s2]
        have hpt := hp t _ (by omega) hget hx
        rw [if_neg (by omega), if_neg (by omega), if_neg (by omega)]
        apply c4
        intro i x hi hxi hv
        exact hp i x (by omega) hxi hv
      · intro i x k hi hxi hv hk
        simp only
        rw [getElem?_set3 _ _ _ _ _ _ s2]
        by_cases hit : i = t
        · subst hit
          have hxe : x = fmap[i] := by rw [hget] at hxi; exact (Option.some.inj hxi).symm
          subst hxe
          have hk3 : k = 0 ∨ k = 1 ∨ k = 2 := by omega
          rcases hk3 with rfl | rfl | rfl
          · exact ⟨a0, b0, p0, q0, by rw [if_pos (by omega)]⟩
          · exact ⟨a1, b1, p1, q1, by rw [if_neg (by omega), if_pos (by omega)]⟩
          · exact ⟨a2, b2, p2, q2, by rw [if_neg (by omega), if_neg (by omega), if_pos (by omega)]⟩
        · have hne : x ≠ fmap[t] := by
            intro he
            rw [he] at hxi
            exact hit (H2 i t _ hxi hget hx)
          obtain ⟨a, b, pa, qa, ra⟩ := c5 i x k (by omega) hxi hv hk
          refine ⟨a, b, pa, qa, ?_⟩
          rw [if_neg (by omega), if_neg (by omega), if_neg (by omega)]
          exact ra
    · right
      refine ⟨?_, ?_⟩
      · split
        · rename_i o1 o2 o3 e0 e1 e2
          split
          · rename_i n1 n2 n3 g0 g1 g2
            exfalso
            apply hgood
            intro k hk
            have hk3 : k = 0 ∨ k = 1 ∨ k = 2 := by omega
            unfold Mesh.index at e0 e1 e2
            rcases hk3 with rfl | rfl | rfl
            · exact ⟨_, _, by rw [← hun 0 (by omega)]; exact e0, g0⟩
            · exact ⟨_, _, by rw [← hun 1 (by omega)]; exact e1, g1⟩
            · exact ⟨_, _, by rw [← hun 2 (by omega)]; exact e2, g2⟩
          · rfl
        · rfl
      · intro hg
        exact hgood (hg.1 _ hget hx)
  · have hx' : fmap[t] = Util.invalidIndex := by
      by_contra hc; exact hx hc
    rw [if_neg hx]
    by_cases hfree : t ∈ free
    · left
      rw [if_pos hfree]
      refine ⟨m, ⟨c1, c2, c3, ?_, ?_⟩, rfl⟩
      · intro p hp
        apply c4
        intro i x hi hxi hv
        exact hp i x (by omega) hxi hv
      · intro i x k hi hxi hv hk
        have hit : i < t := by
          rcases Nat.lt_succ_iff_lt_or_eq.mp hi with h | h
          · exact h
          · subst h
            rw [hget] at hxi
            exact absurd (Option.some.inj hxi ▸ hx') hv
        exact c5 i x k hit hxi hv hk
    · right
      rw [if_neg hfree]
      refine ⟨rfl, ?_⟩
      intro hg
      exact hfree (hg.2 (by rw [hget, hx']))

theorem copyInv_zero (vmap fmap : List Nat) (m0 : Mesh) : CopyInv vmap fmap m0 0 m0 :=
  ⟨rfl, rfl, rfl, fun _ _ => rfl, fun i _ _ hi => absurd hi (Nat.not_lt_zero i)⟩

theorem copyFaces_spec (vmap free fmap : List Nat) (m0 : Mesh)
    (H1 : ∀ i x, fmap[i]? = some x → x ≠ Util.invalidIndex → x ≤ i)
    (H2 : ∀ (i1 i2 x : Nat), fmap[i1]? = some x → fmap[i2]? = some x → x ≠ Util.invalidIndex → i1 = i2) :
    ∀ k t m m3, t + k = fmap.length → CopyInv vmap fmap m0 t m →
      copyFaces vmap free (fmap.drop t) t m = some m3 → CopyInv vmap fmap m0 fmap.length m3 := by
  intro k
  induction k with
  | zero =>
    intro t m m3 ht hinv h
    have : t = fmap.length := by omega
    subst this
    simp only [List.drop_length, copyFaces, Option.some.injEq] at h
    subst h; exact hinv
  | succ k ih =>
    intro t m m3 ht hinv h
    rcases copyFaces_step vmap free fmap m0 H1 H2 t m (by omega) hinv with ⟨m1, i1, i2⟩ | ⟨i1, _⟩
    · rw [i2] at h
      exact ih (t + 1) m1 m3 (by omega) i1 h
    · rw [i1] at h; simp at h

theorem copyFaces_total (vmap free fmap : List Nat) (m0 : Mesh)
    (H1 : ∀ i x, fmap[i]? = some x → x ≠ Util.invalidIndex → x ≤ i)
    (H2 : ∀ (i1 i2 x : Nat), fmap[i1]? = some x → fmap[i2]? = some x → x ≠ Util.invalidIndex → i1 = i2)
    (H3 : ∀ t, t < fmap.length → CopyGood vmap free fmap m0 t) :
    ∀ k t m, t + k = fmap.length → CopyInv vmap fmap m0 t m →
      ∃ m3, copyFaces vmap free (fmap.drop t) t m = some m3 := by
  intro k
  induction k with
  | zero =>
    intro t m ht _
    have : t = fmap.length := by omega
    subst this
    exact ⟨m, by simp [copyFaces]⟩
  | succ k ih =>
    intro t m ht hinv
    rcases copyFaces_step vmap free fmap m0 H1 H2 t m (by omega) hinv with ⟨m1, i1, i2⟩ | ⟨_, i2⟩
    · rw [i2]
      exact ih (t + 1) m1 (by omega) i1
    · exact absurd (H3 t (by omega)) i2

end DynamicMesh

namespace DynamicOctree

theorem getElem?_of_getD_some (enm : List (Option Nat)) (i a : Nat)
    (h : enm.getD i none = some a) : enm[i]? = some (some a) := by
  rw [List.getD_eq_getElem?_getD] at h
  cases hx : enm[i]? with
  | none => rw [hx] at h; simp at h
  | some y => rw [hx] at h; simp only [Option.getD_some] at h; rw [h]

theorem updateMapLoop_benign (m : List Nat) (enm0 : List (Option Nat)) (n : Nat)
    (ha : ∀ (i a x : Nat), enm0.getD i none = some a → m[i]? = some x →
      x ≠ Util.invalidIndex → x < n)
    (hb : ∀ (i x : Nat), enm0.getD i none = none → i < n → m[i]? = some x →
      x = Util.invalidIndex ∨ x = i) :
    ∀ k t enm enm1, t + k = m.length →
      (∀ s, enm0.getD s none = none → n ≤ s → enm.getD s none = none) →
      updateMapLoop (m.drop t) t enm = some enm1 →
      ∀ (i x : Nat), t ≤ i → enm0.getD i none = none → m[i]? = some x →
        x = Util.invalidIndex ∨ x = i := by
  intro k
  induction k with
  | zero =>
    intro t enm enm1 ht _ _ i x hi _ hx
    have := Util.getElem?_lt_of_some hx
    omega
  | succ k ih =>
    intro t enm enm1 ht hJ h i x hi hdead hx
    have hlt : t < m.length := by omega
    have hget : m[t]? = some m[t] := List.getElem?_eq_getElem hlt
    rw [List.drop_eq_getElem_cons hlt] at h
    simp only [updateMapLoop] at h
    by_cases hmove : m[t] ≠ Util.invalidIndex ∧ m[t] ≠ t
    · rw [if_pos hmove] at h
      split at h
      · rename_i a e1 e2
        have g1 : enm.getD t none = some a := getD_of_getElem? _ _ _ e1
        have hl1 : t < enm.length := Util.getElem?_lt_of_some e1
        have hl2 : m[t] < enm.length := Util.getElem?_lt_of_some e2
        have htlive : ∃ b, enm0.getD t none = some b := by
          cases h0 : enm0.getD t none with
          | some b => exact ⟨b, rfl⟩
          | none =>
            exfalso
            by_cases htn : t < n
            · rcases hb t _ h0 htn hget with h1 | h1
              · exact hmove.1 h1
              · exact hmove.2 h1
            · have := hJ t h0 (by omega)
              rw [g1] at this; simp at this
        obtain ⟨b, hb0⟩ := htlive
        have hxn : m[t] < n := ha t b _ hb0 hget hmove.1
        have hJ1 : ∀ s, enm0.getD s none = none → n ≤ s →
            ((enm.set m[t] (some a)).set t none).getD s none = none := by
          intro s hs hns
          rw [getD_set_set _ _ _ _ _ _ hl2 hl1]
          by_cases hst : s = t
          · rw [if_pos hst]
          · rw [if_neg hst, if_neg (by omega)]
            exact hJ s hs hns
        by_cases hit : i = t
        · subst hit
          rw [hb0] at hdead; simp at hdead
        · exact ih (t + 1) _ enm1 (by omega) hJ1 h i x (by omega) hdead hx
      · simp at h
    · rw [if_neg hmove] at h
      by_cases hit : i = t
      · subst hit
        rw [hget] at hx
        have hxe : m[i] = x := Option.some.inj hx
        rw [← hxe]
        by_contra hc
        push_neg at hc
        exact hmove hc
      · exact ih (t + 1) enm enm1 (by omega) hJ h i x (by omega) hdead hx

theorem updateMapLoop_total (m : List Nat) (enm0 : List (Option Nat))
    (T1 : ∀ (t x : Nat), m[t]? = some x → x ≠ Util.invalidIndex → x ≠ t →
      (∃ a, enm0.getD t none = some a) ∧ x < t ∧ enm0.getD x none = none)
    (T2 : ∀ (i1 i2 x : Nat), m[i1]? = some x → m[i2]? = some x → x ≠ Util.invalidIndex →
      i1 = i2) :
    ∀ k t enm, t + k = m.length → enm.length = enm0.length →
      (∀ s, t ≤ s → enm.getD s none = enm0.getD s none) →
      (∀ s, enm0.getD s none = none →
        (∀ i, i < t → m[i]? = some s → s ≠ Util.invalidIndex → s = i) →
        enm.getD s none = none) →
      ∃ enm1, updateMapLoop (m.drop t) t enm = some enm1 := by
  intro k
  induction k with
  | zero =>
    intro t enm ht _ _ _
    have : t = m.length := by omega
    subst this
    exact ⟨enm, by simp [updateMapLoop]⟩
  | succ k ih =>
    intro t enm ht hlen K2 K3
    have hlt : t < m.length := by omega
    have hget : m[t]? = some m[t] := List.getElem?_eq_getElem hlt
    rw [List.drop_eq_getElem_cons hlt]
    simp only [updateMapLoop]
    by_cases hmove : m[t] ≠ Util.invalidIndex ∧ m[t] ≠ t
    · rw [if_pos hmove]
      obtain ⟨⟨a, h1⟩, h2, h3⟩ := T1 t _ hget hmove.1 hmove.2
      have g1 : enm[t]? = some (some a) := getElem?_of_getD_some _ _ _ (by rw [K2 t (le_refl t), h1])
      have hl1 : t < enm.length := Util.getElem?_lt_of_some g1
      have hl2 : m[t] < enm.length := by omega
      have g2 : enm.getD m[t] none = none := by
        apply K3 _ h3
        intro i hi hx _
        have := T2 i t _ hx hget hmove.1
        omega
      have g3 : enm[m[t]]? = some none := by
        rw [List.getElem?_eq_getElem hl2]
        rw [List.getD_eq_getElem?_getD, List.getElem?_eq_getElem hl2] at g2
        simp only [Option.getD_some] at g2
        rw [g2]
      rw [g1, g3]
      simp only []
      apply ih (t + 1) _ (by omega) (by simp [hlen])
      · intro s hs
        rw [getD_set_set _ _ _ _ _ _ hl2 hl1, if_neg (by omega), if_neg (by omega)]
        exact K2 s (by omega)
      · intro s hs hno
        rw [getD_set_set _ _ _ _ _ _ hl2 hl1]
        by_cases hst : s = t
        · rw [if_pos hst]
        · rw [if_neg hst]
          by_cases hsx : s = m[t]
          · exfalso
            have := hno t (by omega) (by rw [hget, hsx]) (by rw [hsx]; exact hmove.1)
            exact hst this
          · rw [if_neg hsx]
            apply K3 s hs
            intro i hi hx hv
            exact hno i (by omega) hx hv
    · rw [if_neg hmove]
      apply ih (t + 1) enm (by omega) hlen
      · intro s hs; exact K2 s (by omega)
      · intro s hs hno
        apply K3 s hs
        intro i hi hx hv
        exact hno i (by omega) hx hv

end DynamicOctree

namespace Octree

theorem nodeUpdateIndices_total (m : List Nat) :
    ∀ t, (∀ i b, holdsAt i b t = true → ∃ j, m[i]? = some j ∧ j ≠ Util.invalidIndex) →
      ∃ t1, nodeUpdateIndices m t = some t1 := by
  intro t
  induction t with
  | none => intro _; exact ⟨Child.none, rfl⟩
  | node a c w d ch idx ih =>
    intro h
    rw [nodeUpdateIndices]
    have h1 : ∀ i ∈ idx, ∃ j, m[i]? = some j ∧ j ≠ Util.invalidIndex := by
      intro i hi
      exact h i a (by rw [holdsAt_node]; exact Or.inl ⟨rfl, hi⟩)
    have h2 : ∀ k, (nodeUpdateIndices m (ch k)).isSome := by
      intro k
      obtain ⟨t1, ht1⟩ := ih k (fun i b hib => h i b (by rw [holdsAt_node]; exact Or.inr ⟨k, hib⟩))
      rw [ht1]; rfl
    rw [if_pos ⟨h1, h2⟩]
    exact ⟨_, rfl⟩

end Octree

namespace DynamicOctree

open Octree

theorem updateIndices_total (o : DynamicOctree) (m : List Nat) (hr : Registration o)
    (T0 : ∀ id a, o.nodeOf id = some a → ∃ j, m[id]? = some j ∧ j ≠ Util.invalidIndex)
    (T1 : ∀ (t x : Nat), m[t]? = some x → x ≠ Util.invalidIndex → x ≠ t →
      (∃ a, o.nodeOf t = some a) ∧ x < t ∧ o.nodeOf x = none)
    (T2 : ∀ (i1 i2 x : Nat), m[i1]? = some x → m[i2]? = some x → x ≠ Util.invalidIndex →
      i1 = i2) :
    ∃ o1, updateIndices o m = some o1 := by
  obtain ⟨enm, henm⟩ := updateMapLoop_total m o.elementNodeMap T1 T2 m.length 0
    o.elementNodeMap (by omega) rfl (fun _ _ => rfl) (fun s hs _ => hs)
  rw [List.drop_zero] at henm
  unfold updateIndices
  rw [henm]
  simp only []
  by_cases hroot : o.hasRoot = true
  · rw [if_pos hroot]
    obtain ⟨t1, ht1⟩ := nodeUpdateIndices_total m o.root (by
      intro i b hib
      exact T0 i b ((hr.2.2 i b).mp hib))
    rw [ht1]
    exact ⟨_, rfl⟩
  · rw [if_neg hroot]
    exact ⟨_, rfl⟩

end DynamicOctree

namespace DynamicMesh

open VertexData

theorem prune_unfold (s s1 : DynamicMesh) (pv pf rv rf : Option (List Nat))
    (h : prune s pv pf = some (s1, rv, rf)) (hnp : s.isPruned = false) :
    ∃ vd vmap fd fmap vd1 m1 m3 o,
      Util.prune (fun d => d.isFree) s.vertexData (some (pv.getD [])) = some (vd, some vmap) ∧
      Util.prune (fun d => d.isFree) s.faceData (some (pf.getD [])) = some (fd, some fmap) ∧
      remapAllAdjacent fmap vd = some vd1 ∧
      copyVertices s.freeVertexIndices vmap 0 s.mesh = some m1 ∧
      (m1.shrinkVertices vd1.length).numVertices = vd1.length ∧
      copyFaces vmap s.freeFaceIndices fmap 0 (m1.shrinkVertices vd1.length) = some m3 ∧
      s.octree.updateIndices fmap = some o ∧
      s1 = { mesh := m3.shrinkIndices (3 * fd.length)
             vertexData := vd1
             vertexVisited := Util.resize s.vertexVisited vd1.length 0
             freeVertexIndices := []
             faceData := fd
             faceVisited := Util.resize s.faceVisited fd.length 0
             freeFaceIndices := []
             octree := o } ∧
      rv = pv.map (fun _ => vmap) ∧ rf = pf.map (fun _ => fmap) := by
  unfold prune at h
  rw [if_pos hnp] at h
  split at h
  · rename_i vd vmap fd fmap e1 e2
    split at h
    · simp at h
    · rename_i vd1 e3
      split at h
      · simp at h
      · rename_i m1 e4
        simp only [] at h
        split at h
        · rename_i e5
          split at h
          · simp at h
          · rename_i m3 e6
            split at h
            · simp at h
            · rename_i o e7
              simp only [Option.some.injEq, Prod.mk.injEq] at h
              obtain ⟨h1, h2, h3⟩ := h
              exact ⟨vd, vmap, fd, fmap, vd1, m1, m3, o, e1, e2, e3, e4, e5, e6, e7, h1.symm,
                h2.symm, h3.symm⟩
        · simp at h
  · simp at h

theorem prune_fold (s : DynamicMesh) (pv pf : Option (List Nat)) (hnp : s.isPruned = false)
    (vd : List VertexData) (vmap : List Nat) (fd : List FaceData) (fmap : List Nat)
    (vd1 : List VertexData) (m1 m3 : Mesh) (o : DynamicOctree)
    (e1 : Util.prune (fun d => d.isFree) s.vertexData (some (pv.getD [])) = some (vd, some vmap))
    (e2 : Util.prune (fun d => d.isFree) s.faceData (some (pf.getD [])) = some (fd, some fmap))
    (e3 : remapAllAdjacent fmap vd = some vd1)
    (e4 : copyVertices s.freeVertexIndices vmap 0 s.mesh = some m1)
    (e5 : (m1.shrinkVertices vd1.length).numVertices = vd1.length)
    (e6 : copyFaces vmap s.freeFaceIndices fmap 0 (m1.shrinkVertices vd1.length) = some m3)
    (e7 : s.octree.updateIndices fmap = some o) :
    ∃ s1, prune s pv pf = some (s1, pv.map (fun _ => vmap), pf.map (fun _ => fmap)) := by
  unfold prune
  rw [if_pos hnp, e1, e2]
  simp only [e3, e4, e5, e6, e7, if_true]
  exact ⟨_, rfl⟩

theorem prune_pruned (s s1 : DynamicMesh) (pv pf rv rf : Option (List Nat))
    (h : prune s pv pf = some (s1, rv, rf)) (hp : s.isPruned = true) :
    s1 = s ∧ rv = pv ∧ rf = pf := by
  unfold prune at h
  rw [if_neg (by rw [hp]; simp)] at h
  simp only [Option.some.injEq, Prod.mk.injEq] at h
  exact ⟨h.1.symm, h.2.1.symm, h.2.2.symm⟩

end DynamicMesh

namespace Util

theorem pruneSpec_facts {α : Type} (p : α → Bool) (v : List α) (m0 : List Nat) (v1 : List α)
    (m1 : List Nat) (h : PruneSpec p v m0 v1 m1) :
    v1.length ≤ v.length ∧ (∀ x ∈ v1, p x = false) ∧
      (∀ (j : Nat) (x : α) (q : Nat), v[j]? = some x → p x = false → m1[j]? = some q →
        q ≤ j ∧ q < v1.length ∧ v1[q]? = some x) := by
  obtain ⟨h1, h2, h3, h4, h5, h6⟩ := h
  refine ⟨?_, ?_, ?_⟩
  · rw [h1.length_eq]; exact List.length_filter_le _ _
  · intro x hx
    have := (h1.mem_iff.mp hx)
    rw [List.mem_filter] at this
    simpa using this.2
  · intro j x q hx hp hq
    obtain ⟨q1, e1, e2, e3, e4⟩ := h3 j x hx hp
    rw [hq] at e1
    have : q = q1 := Option.some.inj e1
    subst this
    refine ⟨?_, e2, e3⟩
    by_cases hj : j < v1.length
    · rw [e4 hj]
    · omega

end Util

namespace DynamicMesh

open VertexData

theorem liveIn_iff (vd : List VertexData) (v : Nat) :
    liveIn vd v = true ↔ ∃ d, vd[v]? = some d ∧ d.isFree = false := by
  unfold liveIn
  cases h : vd[v]? with
  | none => simp
  | some d => simp

theorem liveIn_false_iff (vd : List VertexData) (v : Nat) (hv : v < vd.length) :
    liveIn vd v = false ↔ ∃ d, vd[v]? = some d ∧ d.isFree = true := by
  unfold liveIn
  rw [List.getElem?_eq_getElem hv]
  simp

theorem liveFace_iff (s : DynamicMesh) (f : Nat) :
    s.liveFace f = true ↔ ∃ d, s.faceData[f]? = some d ∧ d.isFree = false := by
  unfold liveFace
  cases h : s.faceData[f]? with
  | none => simp
  | some d => simp

theorem liveFace_false_iff (s : DynamicMesh) (f : Nat) (hf : f < s.faceData.length) :
    s.liveFace f = false ↔ ∃ d, s.faceData[f]? = some d ∧ d.isFree = true := by
  unfold liveFace
  rw [List.getElem?_eq_getElem hf]
  simp

theorem prune_vertexData (vd0 : List VertexData) (m0 : List Nat) (vd : List VertexData)
    (vmap fmap : List Nat) (vd1 : List VertexData)
    (hs : Util.PruneSpec (fun d => d.isFree) vd0 m0 vd vmap)
    (hr : remapAllAdjacent fmap vd = some vd1) :
    vd1.length = (vd0.filter (fun d => !d.isFree)).length ∧ vd1.length ≤ vd0.length ∧
      vmap.length = vd0.length ∧
      (∀ q, liveIn vd1 q = decide (q < vd1.length)) ∧
      (∀ v, liveIn vd0 v = true → ∃ q, vmap[v]? = some q ∧ q < vd1.length ∧ q ≤ v ∧
        (v < vd1.length → q = v) ∧
        adjacentIn vd1 q = (adjacentIn vd0 v).map (fun f => fmap.getD f Util.invalidIndex) ∧
        ∀ f ∈ adjacentIn vd0 v, ∃ g, fmap[f]? = some g ∧ g ≠ Util.invalidIndex) ∧
      (∀ (v1 v2 q : Nat), liveIn vd0 v1 = true → liveIn vd0 v2 = true → vmap[v1]? = some q →
        vmap[v2]? = some q → v1 = v2) ∧
      (∀ q, q < vd1.length → ∃ v, liveIn vd0 v = true ∧ vmap[v]? = some q) ∧
      (∀ v, v < vd0.length → liveIn vd0 v = false →
        (v < vd1.length → vmap[v]? = some Util.invalidIndex) ∧
        (vd1.length ≤ v → vmap[v]? = (Util.resize m0 vd0.length Util.invalidIndex)[v]?)) := by
  obtain ⟨f1, f2, f3⟩ := Util.pruneSpec_facts _ _ _ _ _ hs
  obtain ⟨h1, h2, h3, h4, h5, h6⟩ := hs
  obtain ⟨r1, r2⟩ := remapAllAdjacent_spec fmap vd vd1 hr
  refine ⟨by rw [r1, h1.length_eq], by omega, h2, ?_, ?_, ?_, ?_, ?_⟩
  · intro q
    rw [(r2 q).1]
    by_cases hq : q < vd1.length
    · have hq' : q < vd.length := by omega
      simp only [hq, decide_True]
      rw [liveIn_iff]
      exact ⟨vd[q], List.getElem?_eq_getElem hq', f2 _ (List.getElem_mem hq')⟩
    · simp only [hq, decide_False]
      unfold liveIn
      rw [List.getElem?_eq_none (by omega)]
  · intro v hv
    obtain ⟨d, hd, hfree⟩ := (liveIn_iff _ _).mp hv
    obtain ⟨q, e1, e2, e3, e4⟩ := h3 v d hd hfree
    obtain ⟨g1, _, _⟩ := f3 v d q hd hfree e1
    have hadj : adjacentIn vd q = adjacentIn vd0 v := by
      unfold adjacentIn; rw [e3, hd]
    refine ⟨q, e1, by omega, g1, fun hlt => e4 (by omega), ?_, ?_⟩
    · rw [(r2 q).2.1, hadj]
    · rw [← hadj]; exact (r2 q).2.2
  · intro v1 v2 q hv1 hv2 e1 e2
    obtain ⟨d1, hd1, hf1⟩ := (liveIn_iff _ _).mp hv1
    obtain ⟨d2, hd2, hf2⟩ := (liveIn_iff _ _).mp hv2
    exact h5 v1 v2 d1 d2 q hd1 hf1 hd2 hf2 e1 e2
  · intro q hq
    obtain ⟨j, x, e1, e2, e3⟩ := h6 q (by omega)
    exact ⟨j, (liveIn_iff _ _).mpr ⟨x, e1, e2⟩, e3⟩
  · intro v hv hdead
    obtain ⟨d, hd, hfree⟩ := (liveIn_false_iff _ _ hv).mp hdead
    rw [r1]
    exact h4 v d hd hfree

theorem prune_faceData (s : DynamicMesh) (m0 : List Nat) (fd : List FaceData) (fmap : List Nat)
    (hs : Util.PruneSpec (fun d => d.isFree) s.faceData m0 fd fmap) :
    fd.length = (s.faceData.filter (fun d => !d.isFree)).length ∧
      fd.length ≤ s.faceData.length ∧ fmap.length = s.faceData.length ∧
      (∀ (q : Nat) (d : FaceData), fd[q]? = some d → d.isFree = false) ∧
      (∀ f, s.liveFace f = true → ∃ q, fmap[f]? = some q ∧ q < fd.length ∧ q ≤ f ∧
        (f < fd.length → q = f)) ∧
      (∀ (f1 f2 q : Nat), s.liveFace f1 = true → s.liveFace f2 = true → fmap[f1]? = some q →
        fmap[f2]? = some q → f1 = f2) ∧
      (∀ q, q < fd.length → ∃ f, s.liveFace f = true ∧ fmap[f]? = some q) ∧
      (∀ f, f < s.faceData.length → s.liveFace f = false →
        (f < fd.length → fmap[f]? = some Util.invalidIndex) ∧
        (fd.length ≤ f → fmap[f]? = (Util.resize m0 s.faceData.length Util.invalidIndex)[f]?)) := by
  obtain ⟨f1, f2, f3⟩ := Util.pruneSpec_facts _ _ _ _ _ hs
  obtain ⟨h1, h2, h3, h4, h5, h6⟩ := hs
  refine ⟨h1.length_eq, f1, h2, ?_, ?_, ?_, ?_, ?_⟩
  · intro q d hd
    exact f2 d (List.getElem?_mem hd)
  · intro f hf
    obtain ⟨d, hd, hfree⟩ := (liveFace_iff _ _).mp hf
    obtain ⟨q, e1, e2, e3, e4⟩ := h3 f d hd hfree
    obtain ⟨g1, _, _⟩ := f3 f d q hd hfree e1
    exact ⟨q, e1, e2, g1, e4⟩
  · intro v1 v2 q hv1 hv2 e1 e2
    obtain ⟨d1, hd1, hf1⟩ := (liveFace_iff _ _).mp hv1
    obtain ⟨d2, hd2, hf2⟩ := (liveFace_iff _ _).mp hv2
    exact h5 v1 v2 d1 d2 q hd1 hf1 hd2 hf2 e1 e2
  · intro q hq
    obtain ⟨j, x, e1, e2, e3⟩ := h6 q hq
    exact ⟨j, (liveFace_iff _ _).mpr ⟨x, e1, e2⟩, e3⟩
  · intro v hv hdead
    obtain ⟨d, hd, hfree⟩ := (liveFace_false_iff _ _ hv).mp hdead
    exact h4 v d hd hfree

theorem mapVertex_spec (vmap : List Nat) (a b : Nat) :
    mapVertex vmap a = some b ↔ vmap[a]? = some b ∧ b ≠ Util.invalidIndex := by
  unfold mapVertex
  cases h : vmap[a]? with
  | none => simp
  | some x =>
    by_cases hx : x = Util.invalidIndex
    · simp only [hx, ne_eq, not_true_eq_false, if_false, Option.some.injEq, false_iff, not_and,
        not_not]
      constructor
      · intro h1; exact absurd h1 (by simp)
      · rintro ⟨h1, h2⟩; exact absurd h1.symm h2
    · simp only [ne_eq, hx, not_false_eq_true, if_true, Option.some.injEq]
      constructor
      · intro h1; subst h1; exact ⟨rfl, hx⟩
      · intro h1; exact h1.1

theorem nodeOf_live (s : DynamicMesh) (hc : Coupled s) (f : Nat) :
    (s.liveFace f = true ↔ ∃ a, s.octree.nodeOf f = some a) ∧
      (s.liveFace f = false ↔ s.octree.nodeOf f = none) := by
  have := hc.2 f
  cases h : s.octree.nodeOf f with
  | none => rw [h] at this; simp at this; simp [this]
  | some a => rw [h] at this; simp at this; simp [this]

theorem prune_benign (s : DynamicMesh) (o : DynamicOctree) (m0 : List Nat) (fd : List FaceData)
    (fmap : List Nat) (hc : Coupled s)
    (hs : Util.PruneSpec (fun d => d.isFree) s.faceData m0 fd fmap)
    (ho : s.octree.updateIndices fmap = some o) :
    ∀ (f x : Nat), s.liveFace f = false → fmap[f]? = some x → x = Util.invalidIndex ∨ x = f := by
  obtain ⟨b1, b2, b3, b4, b5, b6, b7, b8⟩ := prune_faceData s m0 fd fmap hs
  unfold DynamicOctree.updateIndices at ho
  split at ho
  · simp at ho
  · rename_i enm hloop
    intro f x hdead hx
    refine DynamicOctree.updateMapLoop_benign fmap s.octree.elementNodeMap fd.length ?_ ?_
      fmap.length 0 s.octree.elementNodeMap enm (by omega) (fun _ h _ => h)
      (by rw [List.drop_zero]; exact hloop) f x (Nat.zero_le f) ?_ hx
    · intro i a y hi hy _
      obtain ⟨q, e1, e2, _⟩ := b5 i ((nodeOf_live s hc i).1.mpr ⟨a, hi⟩)
      rw [hy] at e1
      rw [Option.some.inj e1]; exact e2
    · intro i y hi hlt hy
      have hd : s.liveFace i = false := (nodeOf_live s hc i).2.mpr hi
      have := (b8 i (by omega) hd).1 hlt
      rw [hy] at this
      exact Or.inl (Option.some.inj this)
    · exact (nodeOf_live s hc f).2.mp hdead

theorem prune_fmap (s : DynamicMesh) (m0 : List Nat) (fd : List FaceData)
    (fmap : List Nat)
    (hs : Util.PruneSpec (fun d => d.isFree) s.faceData m0 fd fmap)
    (hb : ∀ (f x : Nat), s.liveFace f = false → fmap[f]? = some x →
      x = Util.invalidIndex ∨ x = f) :
    (∀ (i x : Nat), fmap[i]? = some x → x ≠ Util.invalidIndex → x ≤ i) ∧
      (∀ (i1 i2 x : Nat), fmap[i1]? = some x → fmap[i2]? = some x → x ≠ Util.invalidIndex →
        i1 = i2) := by
  obtain ⟨b1, b2, b3, b4, b5, b6, b7, b8⟩ := prune_faceData s m0 fd fmap hs
  have key : ∀ (i x : Nat), fmap[i]? = some x → x ≠ Util.invalidIndex →
      (s.liveFace i = true ∧ x < fd.length ∧ x ≤ i) ∨
      (s.liveFace i = false ∧ x = i ∧ fd.length ≤ i) := by
    intro i x hx hv
    have hlt : i < s.faceData.length := by rw [← b3]; exact Util.getElem?_lt_of_some hx
    by_cases hl : s.liveFace i = true
    · obtain ⟨q, e1, e2, e3, _⟩ := b5 i hl
      rw [hx] at e1
      have := Option.some.inj e1
      subst this
      exact Or.inl ⟨hl, e2, e3⟩
    · have hl' : s.liveFace i = false := by simpa using hl
      rcases hb i x hl' hx with h1 | h1
      · exact absurd h1 hv
      · refine Or.inr ⟨hl', h1, ?_⟩
        by_contra hc1
        have := (b8 i hlt hl').1 (by omega)
        rw [hx] at this
        exact hv (Option.some.inj this)
  refine ⟨?_, ?_⟩
  · intro i x hx hv
    rcases key i x hx hv with ⟨_, _, h⟩ | ⟨_, h, _⟩
    · exact h
    · omega
  · intro i1 i2 x h1 h2 hv
    rcases key i1 x h1 hv with ⟨l1, p1, _⟩ | ⟨l1, p1, q1⟩
    · rcases key i2 x h2 hv with ⟨l2, p2, _⟩ | ⟨l2, p2, q2⟩
      · exact b6 i1 i2 x l1 l2 h1 h2
      · omega
    · rcases key i2 x h2 hv with ⟨l2, p2, _⟩ | ⟨l2, p2, q2⟩
      · omega
      · omega

theorem prune_frame (s s1 : DynamicMesh) (pv pf rv rf : Option (List Nat))
    (h : prune s pv pf = some (s1, rv, rf)) (hnp : s.isPruned = false) (hinv : MeshInv s)
    (hfit : Fits s) :
    ∃ vmap fmap, rv = pv.map (fun _ => vmap) ∧ rf = pf.map (fun _ => fmap) ∧
      vmap.length = s.vertexData.length ∧ fmap.length = s.faceData.length ∧
      s1.freeVertexIndices = [] ∧ s1.freeFaceIndices = [] ∧ Sizes s1 ∧ Coupled s1 ∧
      s1.vertexData.length = (s.vertexData.filter (fun d => !d.isFree)).length ∧
      s1.faceData.length = (s.faceData.filter (fun d => !d.isFree)).length ∧
      (∀ q, s1.liveVertex q = decide (q < s1.vertexData.length)) ∧
      (∀ q, s1.liveFace q = decide (q < s1.faceData.length)) ∧
      (∀ v, s.liveVertex v = true → ∃ q, vmap[v]? = some q ∧ q < s1.vertexData.length ∧ q ≤ v ∧
        (v < s1.vertexData.length → q = v) ∧
        s1.adjacent q = (s.adjacent v).map (fun f => fmap.getD f Util.invalidIndex)) ∧
      (∀ (v1 v2 q : Nat), s.liveVertex v1 = true → s.liveVertex v2 = true →
        vmap[v1]? = some q → vmap[v2]? = some q → v1 = v2) ∧
      (∀ q, q < s1.vertexData.length → ∃ v, s.liveVertex v = true ∧ vmap[v]? = some q) ∧
      (∀ v, v < s.vertexData.length → s.liveVertex v = false →
        (v < s1.vertexData.length → vmap[v]? = some Util.invalidIndex) ∧
        (s1.vertexData.length ≤ v →
          vmap[v]? = (Util.resize (pv.getD []) s.vertexData.length Util.invalidIndex)[v]?)) ∧
      (∀ f, s.liveFace f = true → ∃ q, fmap[f]? = some q ∧ q < s1.faceData.length ∧ q ≤ f ∧
        (f < s1.faceData.length → q = f) ∧
        s1.triple q = (s.triple f).map (fun a => vmap.getD a Util.invalidIndex)) ∧
      (∀ (f1 f2 q : Nat), s.liveFace f1 = true → s.liveFace f2 = true →
        fmap[f1]? = some q → fmap[f2]? = some q → f1 = f2) ∧
      (∀ q, q < s1.faceData.length → ∃ f, s.liveFace f = true ∧ fmap[f]? = some q) ∧
      (∀ f, f < s.faceData.length → s.liveFace f = false →
        (f < s1.faceData.length → fmap[f]? = some Util.invalidIndex) ∧
        (s1.faceData.length ≤ f →
          fmap[f]? = (Util.resize (pf.getD []) s.faceData.length Util.invalidIndex)[f]?)) ∧
      (∀ (f x : Nat), s.liveFace f = false → fmap[f]? = some x →
        x = Util.invalidIndex ∨ x = f) := by
  obtain ⟨vd, vmap, fd, fmap, vd1, m1, m3, o, e1, e2, e3, e4, e5, e6, e7, rfl, rfl, rfl⟩ :=
    prune_unfold s s1 pv pf rv rf h hnp
  obtain ⟨⟨z1, z2, z3, z4, z5⟩, _, ⟨a1, a2⟩, hc⟩ := hinv
  obtain ⟨vd', vmap', hp1, hsV⟩ := Util.prune_spec (fun d : VertexData => d.isFree)
    s.vertexData (pv.getD []) hfit.1
  rw [e1] at hp1
  simp only [Option.some.injEq, Prod.mk.injEq] at hp1
  obtain ⟨rfl, rfl⟩ := hp1
  obtain ⟨fd', fmap', hp2, hsF⟩ := Util.prune_spec (fun d : FaceData => d.isFree)
    s.faceData (pf.getD []) hfit.2
  rw [e2] at hp2
  simp only [Option.some.injEq, Prod.mk.injEq] at hp2
  obtain ⟨rfl, rfl⟩ := hp2
  obtain ⟨v1, v2, v3, v4, v5, v6, v7, v8⟩ :=
    prune_vertexData s.vertexData (pv.getD []) vd vmap fmap vd1 hsV e3
  obtain ⟨b1, b2, b3, b4, b5, b6, b7, b8⟩ := prune_faceData s (pf.getD []) fd fmap hsF
  have hben := prune_benign s o (pf.getD []) fd fmap hc hsF e7
  obtain ⟨H1, H2⟩ := prune_fmap s (pf.getD []) fd fmap hsF hben
  obtain ⟨k1, k2, k3⟩ := copyVertices_spec _ _ _ _ _ e4
  have hcopy := copyFaces_spec vmap s.freeFaceIndices fmap (m1.shrinkVertices vd1.length) H1 H2
    fmap.length 0 (m1.shrinkVertices vd1.length) m3 (by omega) (copyInv_zero _ _ _)
    (by rw [List.drop_zero]; exact e6)
  obtain ⟨c1, c2, c3, _, c5⟩ := hcopy
  have hidx : (m1.shrinkVertices vd1.length).indices = s.mesh.indices := k1
  have hlf : ∀ q, liveFace
      { mesh := m3.shrinkIndices (3 * fd.length), vertexData := vd1,
        vertexVisited := Util.resize s.vertexVisited vd1.length 0, freeVertexIndices := [],
        faceData := fd, faceVisited := Util.resize s.faceVisited fd.length 0,
        freeFaceIndices := [], octree := o } q = decide (q < fd.length) := by
    intro q
    unfold liveFace
    simp only
    by_cases hq : q < fd.length
    · rw [List.getElem?_eq_getElem hq]
      simp only [hq, decide_True, Bool.not_eq_true']
      exact b4 q _ (List.getElem?_eq_getElem hq)
    · rw [List.getElem?_eq_none (by omega)]
      simp [hq]
  have hpwh : DynamicOctree.PermWithHoles s.octree fmap := by
    refine ⟨?_, ?_, ?_, ?_⟩
    · intro id a hid
      obtain ⟨q, q1, q2, _⟩ := b5 id ((nodeOf_live s hc id).1.mpr ⟨a, hid⟩)
      refine ⟨q, q1, ?_⟩
      have := hfit.2
      unfold Util.invalidIndex
      norm_num at this
      omega
    · intro id a j hid hj
      obtain ⟨q, q1, q2, _⟩ := b5 id ((nodeOf_live s hc id).1.mpr ⟨a, hid⟩)
      rw [hj] at q1
      rw [Option.some.inj q1]; omega
    · intro id j hid hj
      exact hben id j ((nodeOf_live s hc id).2.mpr hid) hj
    · intro id1 id2 a1 a2 j h1 h2 g1 g2
      exact b6 id1 id2 j ((nodeOf_live s hc id1).1.mpr ⟨a1, h1⟩)
        ((nodeOf_live s hc id2).1.mpr ⟨a2, h2⟩) g1 g2
  obtain ⟨r1, r2, r3, _⟩ := DynamicOctree.updateIndices_registration _ _ _ e7 hc.1 hpwh
  refine ⟨vmap, fmap, rfl, rfl, v3, b3, rfl, rfl, ⟨?_, ?_, ?_, ?_, ?_⟩, ⟨r1, ?_⟩, v1, b1, v4,
    hlf, ?_, v6, v7, v8, ?_, b6, b7, b8, hben⟩
  · show (m3.shrinkIndices (3 * fd.length)).vertices.length = vd1.length
    show m3.vertices.length = vd1.length
    rw [c1]; exact e5
  · show m3.normals.length = vd1.length
    rw [c2]
    show (m1.normals.take vd1.length).length = vd1.length
    rw [List.length_take, k3, z2]; omega
  · exact Util.length_resize _ _ _
  · show (m3.indices.take (3 * fd.length)).length = 3 * fd.length
    rw [List.length_take, c3, hidx, z4]; omega
  · exact Util.length_resize _ _ _
  · intro q
    rw [hlf q]
    show (o.nodeOf q).isSome = decide (q < fd.length)
    by_cases hq : q < fd.length
    · obtain ⟨f, hf1, hf2⟩ := b7 q hq
      obtain ⟨a, ha⟩ := (nodeOf_live s hc f).1.mp hf1
      rw [r2 f a q ha hf2]; simp [hq]
    · cases hx : o.nodeOf q with
      | none => simp [hq]
      | some a =>
        exfalso
        obtain ⟨i, hi1, hi2⟩ := r3 q a hx
        obtain ⟨q', q1, q2, _⟩ := b5 i ((nodeOf_live s hc i).1.mpr ⟨a, hi1⟩)
        rw [hi2] at q1
        have := Option.some.inj q1
        omega
  · intro v hv
    obtain ⟨q, q1, q2, q3, q4, q5, _⟩ := v5 v hv
    exact ⟨q, q1, q2, q3, q4, q5⟩
  · intro f hf
    obtain ⟨q, q1, q2, q3, q4⟩ := b5 f hf
    have hvalid : q ≠ Util.invalidIndex := by
      have := hfit.2
      unfold Util.invalidIndex
      norm_num at this
      omega
    have hfl : f < fmap.length := Util.getElem?_lt_of_some q1
    refine ⟨q, q1, q2, q3, q4, ?_⟩
    obtain ⟨x0, y0, g0, g0', g0''⟩ := c5 f q 0 hfl q1 hvalid (by omega)
    obtain ⟨x1, y1, g1, g1', g1''⟩ := c5 f q 1 hfl q1 hvalid (by omega)
    obtain ⟨x2, y2, g2, g2', g2''⟩ := c5 f q 2 hfl q1 hvalid (by omega)
    rw [hidx] at g0 g1 g2
    rw [Nat.add_zero] at g0 g0''
    have t0 : (m3.indices.take (3 * fd.length))[3 * q]? = some y0 := by
      rw [List.getElem?_take_of_lt (by omega)]; exact g0''
    have t1 : (m3.indices.take (3 * fd.length))[3 * q + 1]? = some y1 := by
      rw [List.getElem?_take_of_lt (by omega)]; exact g1''
    have t2 : (m3.indices.take (3 * fd.length))[3 * q + 2]? = some y2 := by
      rw [List.getElem?_take_of_lt (by omega)]; exact g2''
    have u0 : vmap.getD x0 Util.invalidIndex = y0 := by
      rw [List.getD_eq_getElem?_getD, ((mapVertex_spec _ _ _).mp g0').1]; rfl
    have u1 : vmap.getD x1 Util.invalidIndex = y1 := by
      rw [List.getD_eq_getElem?_getD, ((mapVertex_spec _ _ _).mp g1').1]; rfl
    have u2 : vmap.getD x2 Util.invalidIndex = y2 := by
      rw [List.getD_eq_getElem?_getD, ((mapVertex_spec _ _ _).mp g2').1]; rfl
    unfold triple
    show [(m3.indices.take (3 * fd.length)).getD (3 * q) 0,
      (m3.indices.take (3 * fd.length)).getD (3 * q + 1) 0,
      (m3.indices.take (3 * fd.length)).getD (3 * q + 2) 0] = _
    rw [getD_zero_of_getElem? t0, getD_zero_of_getElem? t1, getD_zero_of_getElem? t2,
      getD_zero_of_getElem? g0, getD_zero_of_getElem? g1, getD_zero_of_getElem? g2]
    simp only [List.map_cons, List.map_nil, u0, u1, u2]

theorem count_map_of_inj_on (F : Nat → Nat) (g : Nat) :
    ∀ l : List Nat, (∀ x ∈ l, F x = F g → x = g) → (l.map F).count (F g) = l.count g := by
  intro l
  induction l with
  | nil => intro _; rfl
  | cons y ys ih =>
    intro h
    have hy := h y (List.mem_cons_self y ys)
    have := ih (fun x hx => h x (List.mem_cons_of_mem y hx))
    simp only [List.map_cons, List.count_cons, this, beq_iff_eq]
    by_cases hyg : y = g
    · subst hyg; simp
    · have : F y ≠ F g := fun hc => hyg (hy hc)
      simp [hyg, this]

theorem getD_of_some (m : List Nat) (i q : Nat) (h : m[i]? = some q) :
    m.getD i Util.invalidIndex = q := by
  rw [List.getD_eq_getElem?_getD, h]; rfl

theorem adjacent_live (s : DynamicMesh) (ha : Adjacency s) (v g : Nat) (h : g ∈ s.adjacent v) :
    s.liveFace g = true ∧ v ∈ s.triple g := by
  have h1 := ha.2 v g
  have h2 : 0 < (s.adjacent v).count g := List.count_pos_iff.mpr h
  by_cases hl : s.liveFace g = true
  · rw [if_pos hl] at h1
    exact ⟨hl, List.count_pos_iff.mp (by omega)⟩
  · rw [if_neg hl] at h1; omega

theorem prune_inv (s s1 : DynamicMesh) (pv pf rv rf : Option (List Nat))
    (h : prune s pv pf = some (s1, rv, rf)) (hinv : MeshInv s) (hfit : Fits s) :
    MeshInv s1 := by
  by_cases hnp : s.isPruned = false
  · obtain ⟨vmap, fmap, _, _, _, _, p1, p2, hsz, hco, _, _, lv, lf, V, Vinj, Vsur, _, F, Finj,
      Fsur, _, _⟩ := prune_frame s s1 pv pf rv rf h hnp hinv hfit
    obtain ⟨_, _, ⟨a1, a2⟩, _⟩ := hinv
    have hadj : Adjacency s := ⟨a1, a2⟩
    have A1 : ∀ f, s1.liveFace f = true → ∀ a ∈ s1.triple f, s1.liveVertex a = true := by
      intro g' hg' a' ha'
      rw [lf] at hg'
      obtain ⟨g, hg, hgm⟩ := Fsur g' (by simpa using hg')
      obtain ⟨q, q1, _, _, _, q5⟩ := F g hg
      rw [hgm] at q1
      have := Option.some.inj q1
      subst this
      rw [q5, List.mem_map] at ha'
      obtain ⟨a, ha, rfl⟩ := ha'
      obtain ⟨qa, r1, r2, _⟩ := V a (a1 g hg a ha)
      rw [getD_of_some _ _ _ r1, lv]
      simpa using r2
    refine ⟨hsz, ⟨?_, ?_, ?_, ?_⟩, ⟨A1, ?_⟩, hco⟩
    · rw [p1]; exact List.nodup_nil
    · intro i
      rw [p1, lv]
      simp
    · rw [p2]; exact List.nodup_nil
    · intro i
      rw [p2, lf]
      simp
    · intro v' g'
      by_cases hv' : v' < s1.vertexData.length
      · obtain ⟨v, hv, hvm⟩ := Vsur v' hv'
        obtain ⟨q, q1, _, _, _, q5⟩ := V v hv
        rw [hvm] at q1
        have := Option.some.inj q1
        subst this
        rw [q5]
        have hFx : ∀ x ∈ s.adjacent v, ∃ y, fmap[x]? = some y ∧ y < s1.faceData.length ∧
            s.liveFace x = true := by
          intro x hx
          obtain ⟨hl, _⟩ := adjacent_live s hadj v x hx
          obtain ⟨y, y1, y2, _⟩ := F x hl
          exact ⟨y, y1, y2, hl⟩
        by_cases hg' : g' < s1.faceData.length
        · obtain ⟨g, hg, hgm⟩ := Fsur g' hg'
          obtain ⟨w, w1, _, _, _, w5⟩ := F g hg
          rw [hgm] at w1
          have := Option.some.inj w1
          subst this
          rw [lf, w5]
          simp only [hg', decide_True, if_true]
          have c1 := count_map_of_inj_on (fun f => fmap.getD f Util.invalidIndex) g
            (s.adjacent v) (by
              intro x hx hxe
              simp only at hxe
              obtain ⟨y, y1, _, hl⟩ := hFx x hx
              rw [getD_of_some _ _ _ y1, getD_of_some _ _ _ hgm] at hxe
              subst hxe
              exact Finj x g y hl hg y1 hgm)
          have c2 := count_map_of_inj_on (fun a => vmap.getD a Util.invalidIndex) v
            (s.triple g) (by
              intro x hx hxe
              simp only at hxe
              have hxl := a1 g hg x hx
              obtain ⟨y, y1, _⟩ := V x hxl
              rw [getD_of_some _ _ _ y1, getD_of_some _ _ _ hvm] at hxe
              subst hxe
              exact Vinj x v y hxl hv y1 hvm)
          simp only [getD_of_some _ _ _ hgm] at c1
          simp only [getD_of_some _ _ _ hvm] at c2
          rw [c1, c2, a2 v g, if_pos hg]
        · rw [lf]
          simp only [hg', decide_False, Bool.false_eq_true, if_false]
          apply List.count_eq_zero_of_not_mem
          intro hmem
          rw [List.mem_map] at hmem
          obtain ⟨x, hx, hxe⟩ := hmem
          obtain ⟨y, y1, y2, _⟩ := hFx x hx
          rw [getD_of_some _ _ _ y1] at hxe
          omega
      · rw [adjacent_ge s1 v' (by omega)]
        simp only [List.count_nil]
        by_cases hg' : s1.liveFace g' = true
        · rw [if_pos hg']
          symm
          apply List.count_eq_zero_of_not_mem
          intro hmem
          have := A1 g' hg' v' hmem
          rw [lv] at this
          simp at this
          omega
        · rw [if_neg hg']
  · have hp : s.isPruned = true := by simpa using hnp
    obtain ⟨rfl, _, _⟩ := prune_pruned s s1 pv pf rv rf h hp
    exact hinv

theorem meshInv_normals (s : DynamicMesh) (ns : List Vec3) (hinv : MeshInv s)
    (hn : ns.length = s.mesh.normals.length) :
    MeshInv { s with mesh := { s.mesh with normals := ns } } := by
  obtain ⟨⟨z1, z2, z3, z4, z5⟩, hf, ha, hc⟩ := hinv
  exact ⟨⟨z1, by rw [← z2, ← hn], z3, z4, z5⟩, hf, ha, hc⟩

theorem setAllNormals_frame (normalize : Vec3 → Vec3) (isNaN : Vec3 → Bool) :
    ∀ (is : List Nat) (s s1 : DynamicMesh), setAllNormals normalize isNaN is s = some s1 →
      ∃ ns, ns.length = s.mesh.normals.length ∧
        s1 = { s with mesh := { s.mesh with normals := ns } } := by
  intro is
  induction is with
  | nil =>
    intro s s1 h
    simp only [setAllNormals, Option.some.injEq] at h
    subst h
    exact ⟨s.mesh.normals, rfl, rfl⟩
  | cons i is ih =>
    intro s s1 h
    simp only [setAllNormals] at h
    split at h
    · split at h
      · simp at h
      · rename_i s2 h2
        unfold setVertexNormal at h2
        split at h2
        · simp at h2
        · rename_i avg _
          simp only [Option.map_eq_some'] at h2
          obtain ⟨m, hm, rfl⟩ := h2
          unfold Mesh.setNormal at hm
          split at hm
          · simp only [Option.some.injEq] at hm
            subst hm
            obtain ⟨ns, hns, rfl⟩ := ih _ s1 h
            exact ⟨ns, by simpa using hns, rfl⟩
          · simp at hm
    · exact ih s s1 h
    · simp at h

theorem setupOctreeRoot_reset_inv (s s1 : DynamicMesh) (mesh : Mesh)
    (h : setupOctreeRoot (reset s) mesh = some s1) :
    MeshInv s1 ∧ s1.freeVertexIndices = [] := by
  unfold setupOctreeRoot at h
  split at h
  · split at h
    · rename_i minVertex maxVertex _
      simp only [Option.map_eq_some'] at h
      obtain ⟨o, ho, rfl⟩ := h
      have hreg := DynamicOctree.setupRoot_registration s.octree.heapNext _ _ o ho
      have hmap : o.elementNodeMap = [] := by
        unfold DynamicOctree.setupRoot at ho
        split at ho
        · simp at ho
        · simp only [Option.map_eq_some'] at ho
          obtain ⟨r, _, rfl⟩ := ho
          rfl
      refine ⟨⟨⟨rfl, rfl, rfl, rfl, rfl⟩, ⟨List.nodup_nil, ?_, List.nodup_nil, ?_⟩, ⟨?_, ?_⟩,
        ⟨hreg, ?_⟩⟩, rfl⟩
      · intro i; simp [reset]
      · intro i; simp [reset]
      · intro f hf; simp [liveFace, reset] at hf
      · intro v f; simp [adjacent, adjacentIn, liveFace, reset]
      · intro f
        simp [DynamicOctree.nodeOf, hmap, liveFace, reset]
    · simp at h
  · simp at h

theorem free_nil_live (s : DynamicMesh) (hf : FreeLists s) (h0 : s.freeVertexIndices = [])
    (i : Nat) (hi : i < s.vertexData.length) : s.liveVertex i = true := by
  by_contra hc
  have : i ∈ s.freeVertexIndices := (hf.2.1 i).mpr ⟨hi, by simpa using hc⟩
  rw [h0] at this
  simp at this

theorem addVertices_inv : ∀ (vs : List (Vec3 × Vec3)) (s s1 : DynamicMesh),
    addVertices vs s = some s1 → MeshInv s → s.freeVertexIndices = [] →
    MeshInv s1 ∧ s1.freeVertexIndices = [] := by
  intro vs
  induction vs with
  | nil =>
    intro s s1 h hinv h0
    simp only [addVertices, Option.some.injEq] at h
    subst h; exact ⟨hinv, h0⟩
  | cons p vs ih =>
    intro s s1 h hinv h0
    obtain ⟨v, n⟩ := p
    simp only [addVertices] at h
    split at h
    · simp at h
    · rename_i s2 i h2
      have hinv2 := addVertex_inv s s2 v n i h2 hinv
      obtain ⟨_, _, _, _, _, _, _, _, _, e10, _⟩ := addVertex_frame s s2 v n i h2 hinv.1 hinv.2.1
      have h02 : s2.freeVertexIndices = [] := by
        apply List.eq_nil_iff_forall_not_mem.mpr
        intro j hj
        have := ((e10 j).mp hj).1
        rw [h0] at this; simp at this
      exact ih s2 s1 h hinv2 h02

theorem addFace_lt (fuel : Nat) (s : DynamicMesh) (i1 i2 i3 : Nat) (r : DynamicMesh × Nat)
    (h : addFace fuel s i1 i2 i3 = some r) :
    i1 < s.mesh.vertices.length ∧ i2 < s.mesh.vertices.length ∧ i3 < s.mesh.vertices.length := by
  unfold addFace at h
  split at h
  · rename_i hc
    exact ⟨hc.1, hc.2.1, hc.2.2.1⟩
  · simp at h

theorem addFaces_inv (fuel : Nat) : ∀ (is : List Nat) (s s1 : DynamicMesh),
    addFaces fuel is s = some s1 → MeshInv s → s.freeVertexIndices = [] →
    MeshInv s1 ∧ s1.freeVertexIndices = []
  | [], s, s1, h, hinv, h0 => by
    simp only [addFaces, Option.some.injEq] at h
    subst h; exact ⟨hinv, h0⟩
  | [_], s, s1, h, _, _ => by simp [addFaces] at h
  | [_, _], s, s1, h, _, _ => by simp [addFaces] at h
  | i1 :: i2 :: i3 :: rest, s, s1, h, hinv, h0 => by
    simp only [addFaces] at h
    split at h
    · simp at h
    · rename_i s2 f h2
      obtain ⟨l1, l2, l3⟩ := addFace_lt fuel s i1 i2 i3 _ h2
      have hz := hinv.1.1
      have hlive : s.liveVertex i1 = true ∧ s.liveVertex i2 = true ∧ s.liveVertex i3 = true :=
        ⟨free_nil_live s hinv.2.1 h0 i1 (by omega), free_nil_live s hinv.2.1 h0 i2 (by omega),
          free_nil_live s hinv.2.1 h0 i3 (by omega)⟩
      have hinv2 := addFace_inv fuel s s2 i1 i2 i3 f h2 hlive hinv
      obtain ⟨_, e1, _⟩ := addFace_frame fuel s s2 i1 i2 i3 f h2 hinv.1 hinv.2.1
      exact addFaces_inv fuel rest s2 s1 h hinv2 (by rw [e1, h0])

theorem fromMesh_inv (fuel : Nat) (normalize : Vec3 → Vec3) (isNaN : Vec3 → Bool)
    (s0 : DynamicMesh) (mesh : Mesh) (s : DynamicMesh)
    (h : fromMesh fuel normalize isNaN s0 mesh = some s) : MeshInv s := by
  unfold fromMesh at h
  split at h
  · simp at h
  · rename_i s1 h1
    obtain ⟨i1, f1⟩ := setupOctreeRoot_reset_inv s0 s1 mesh h1
    split at h
    · split at h
      · simp at h
      · rename_i s2 h2
        obtain ⟨i2, f2⟩ := addVertices_inv _ s1 s2 h2 i1 f1
        split at h
        · split at h
          · simp at h
          · rename_i s3 h3
            obtain ⟨i3, _⟩ := addFaces_inv fuel _ s2 s3 h3 i2 f2
            obtain ⟨ns, hns, rfl⟩ := setAllNormals_frame normalize isNaN _ s3 s h
            exact meshInv_normals s3 ns i3 hns
        · simp at h
    · simp at h

theorem reachable_inv (s : DynamicMesh) (h : Reachable s) : MeshInv s := by
  unfold Reachable at h
  induction h with
  | fromMesh fuel normalize isNaN s0 mesh s h _ => exact fromMesh_inv fuel normalize isNaN s0 mesh s h
  | step s s1 hr hstep _ ih =>
    have hfit : Fits s := by
      cases hr with
      | fromMesh _ _ _ _ _ _ _ hf => exact hf
      | step _ _ _ _ hf => exact hf
    cases hstep with
    | addVertex _ _ vertex normal i h => exact addVertex_inv s s1 vertex normal i h ih
    | addFace fuel _ _ i1 i2 i3 f hl h => exact addFace_inv fuel s s1 i1 i2 i3 f h (hl trivial) ih
    | deleteFace _ _ f hl h => exact deleteFace_inv s s1 f h (hl trivial) ih
    | deleteVertex _ _ v hl h => exact deleteVertex_inv s s1 v h (hl trivial) ih
    | prune _ _ pv pf rv rf h => exact prune_inv s s1 pv pf rv rf h ih hfit

theorem reachable_fits (L : Prop) (s : DynamicMesh) (h : ReachableWith L s) : Fits s := by
  cases h with
  | fromMesh _ _ _ _ _ _ _ hf => exact hf
  | step _ _ _ _ hf => exact hf

end DynamicMesh

namespace Util

theorem pruneSpec_slot {α : Type} (p : α → Bool) (v : List α) (m0 : List Nat) (v1 : List α)
    (m1 : List Nat) (h : PruneSpec p v m0 v1 m1) (q : Nat) (hq : q < v1.length) :
    ∃ (j : Nat) (x : α), v[j]? = some x ∧ p x = false ∧ m1[j]? = some q ∧ v1[q]? = some x := by
  obtain ⟨_, _, f3⟩ := pruneSpec_facts p v m0 v1 m1 h
  obtain ⟨_, _, _, _, _, h6⟩ := h
  obtain ⟨j, x, e1, e2, e3⟩ := h6 q hq
  exact ⟨j, x, e1, e2, e3, (f3 j x q e1 e2 e3).2.2⟩

theorem getElem?_resize_nil (n j : Nat) (hj : j < n) :
    (resize ([] : List Nat) n invalidIndex)[j]? = some invalidIndex := by
  unfold resize
  simp [hj]

end Util

namespace DynamicMesh

open VertexData

theorem prune_total (s : DynamicMesh) (pv pf : Option (List Nat)) (hinv : MeshInv s)
    (hfit : Fits s) (hpv : pv.getD [] = []) (hpf : pf.getD [] = []) :
    ∃ r, prune s pv pf = some r := by
  by_cases hnp : s.isPruned = false
  swap
  · exact ⟨_, by unfold prune; rw [if_neg hnp]⟩
  obtain ⟨⟨z1, z2, z3, z4, z5⟩, ⟨f1, f2, f3, f4⟩, ⟨a1, a2⟩, hc⟩ := hinv
  have hadj : Adjacency s := ⟨a1, a2⟩
  obtain ⟨vd, vmap, e1, hsV⟩ := Util.prune_spec (fun d : VertexData => d.isFree)
    s.vertexData (pv.getD []) hfit.1
  obtain ⟨fd, fmap, e2, hsF⟩ := Util.prune_spec (fun d : FaceData => d.isFree)
    s.faceData (pf.getD []) hfit.2
  obtain ⟨b1, b2, b3, b4, b5, b6, b7, b8⟩ := prune_faceData s (pf.getD []) fd fmap hsF
  have hfv : ∀ q, q < fd.length → q ≠ Util.invalidIndex := by
    intro q hq
    have := hfit.2
    unfold Util.invalidIndex
    norm_num at this
    omega
  -- the dead face slots hold the invalid index
  have hdeadF : ∀ (f x : Nat), s.liveFace f = false → fmap[f]? = some x →
      x = Util.invalidIndex := by
    intro f x hd hx
    have hlt : f < s.faceData.length := by rw [← b3]; exact Util.getElem?_lt_of_some hx
    by_cases hf : f < fd.length
    · have := (b8 f hlt hd).1 hf
      rw [hx] at this; exact Option.some.inj this
    · have := (b8 f hlt hd).2 (by omega)
      rw [hpf, Util.getElem?_resize_nil _ _ hlt, hx] at this
      exact Option.some.inj this
  have hben : ∀ (f x : Nat), s.liveFace f = false → fmap[f]? = some x →
      x = Util.invalidIndex ∨ x = f := fun f x hd hx => Or.inl (hdeadF f x hd hx)
  obtain ⟨H1, H2⟩ := prune_fmap s (pf.getD []) fd fmap hsF hben
  -- the first loop
  obtain ⟨vd1, e3⟩ := remapAllAdjacent_total fmap vd (by
    intro q f hf
    by_cases hq : q < vd.length
    · obtain ⟨j, x, g1, g2, g3, g4⟩ := Util.pruneSpec_slot _ _ _ _ _ hsV q hq
      have hfa : f ∈ s.adjacent j := by
        unfold adjacent adjacentIn
        rw [g1]
        unfold adjacentIn at hf
        rw [g4] at hf
        exact hf
      obtain ⟨hl, _⟩ := adjacent_live s hadj j f hfa
      obtain ⟨y, y1, y2, _⟩ := b5 f hl
      exact ⟨y, y1, hfv y y2⟩
    · unfold adjacentIn at hf
      rw [List.getElem?_eq_none (by omega)] at hf
      simp at hf)
  obtain ⟨v1, v2, v3, v4, v5, v6, v7, v8⟩ :=
    prune_vertexData s.vertexData (pv.getD []) vd vmap fmap vd1 hsV e3
  have hvv : ∀ q, q < vd1.length → q ≠ Util.invalidIndex := by
    intro q hq
    have := hfit.1
    unfold Util.invalidIndex
    norm_num at this
    omega
  have hdeadV : ∀ (v x : Nat), s.liveVertex v = false → vmap[v]? = some x →
      x = Util.invalidIndex := by
    intro v x hd hx
    have hlt : v < s.vertexData.length := by rw [← v3]; exact Util.getElem?_lt_of_some hx
    by_cases hf : v < vd1.length
    · have := (v8 v hlt hd).1 hf
      rw [hx] at this; exact Option.some.inj this
    · have := (v8 v hlt hd).2 (by omega)
      rw [hpv, Util.getElem?_resize_nil _ _ hlt, hx] at this
      exact Option.some.inj this
  -- the loop over the vertex map
  obtain ⟨m1, e4⟩ := copyVertices_total s.freeVertexIndices vmap s.vertexData.length (by
      intro i x hx hv
      have hlt : i < s.vertexData.length := by rw [← v3]; exact Util.getElem?_lt_of_some hx
      refine ⟨?_, hlt⟩
      by_cases hl : s.liveVertex i = true
      · obtain ⟨q, q1, q2, _⟩ := v5 i hl
        rw [hx] at q1
        rw [Option.some.inj q1]; omega
      · exact absurd (hdeadV i x (by simpa using hl) hx) hv)
    (by
      intro i hx
      have hlt : i < s.vertexData.length := by rw [← v3]; exact Util.getElem?_lt_of_some hx
      refine (f2 i).mpr ⟨hlt, ?_⟩
      by_contra hl
      have hl' : s.liveVertex i = true := by simpa using hl
      obtain ⟨q, q1, q2, _⟩ := v5 i hl'
      rw [hx] at q1
      exact hvv q q2 (Option.some.inj q1).symm)
    vmap.length 0 s.mesh (by omega) z1 z2
  rw [List.drop_zero] at e4
  obtain ⟨k1, k2, k3⟩ := copyVertices_spec _ _ _ _ _ e4
  have e5 : (m1.shrinkVertices vd1.length).numVertices = vd1.length := by
    show (m1.vertices.take vd1.length).length = vd1.length
    rw [List.length_take, k2, z1]; omega
  have hidx : (m1.shrinkVertices vd1.length).indices = s.mesh.indices := k1
  -- the loop over the face map
  obtain ⟨m3, e6⟩ := copyFaces_total vmap s.freeFaceIndices fmap (m1.shrinkVertices vd1.length)
    H1 H2 (by
      intro t ht
      refine ⟨?_, ?_⟩
      · intro x hx hv k hk
        have hl : s.liveFace t = true := by
          by_contra hl
          exact hv (hdeadF t x (by simpa using hl) hx)
        have hlt : 3 * t + k < s.mesh.indices.length := by
          rw [z4]; have := liveFace_lt s t hl; omega
        have hmem : s.mesh.indices[3 * t + k] ∈ s.triple t := by
          have hk3 : k = 0 ∨ k = 1 ∨ k = 2 := by omega
          unfold triple
          rcases hk3 with rfl | rfl | rfl
          · rw [getD_zero_of_getElem? (List.getElem?_eq_getElem (by omega : 3 * t < _))]
            simp
          · rw [getD_zero_of_getElem? (List.getElem?_eq_getElem hlt)]
            simp
          · rw [getD_zero_of_getElem? (List.getElem?_eq_getElem hlt)]
            simp
        obtain ⟨q, q1, q2, _⟩ := v5 _ (a1 t hl _ hmem)
        refine ⟨s.mesh.indices[3 * t + k], q, ?_, (mapVertex_spec _ _ _).mpr ⟨q1, hvv q q2⟩⟩
        rw [hidx]; exact List.getElem?_eq_getElem hlt
      · intro hx
        have hlt : t < s.faceData.length := by rw [← b3]; exact ht
        refine (f4 t).mpr ⟨hlt, ?_⟩
        by_contra hl
        have hl' : s.liveFace t = true := by simpa using hl
        obtain ⟨q, q1, q2, _⟩ := b5 t hl'
        rw [hx] at q1
        exact hfv q q2 (Option.some.inj q1).symm)
    fmap.length 0 (m1.shrinkVertices vd1.length) (by omega) (copyInv_zero _ _ _)
  rw [List.drop_zero] at e6
  -- the octree
  obtain ⟨o, e7⟩ := DynamicOctree.updateIndices_total s.octree fmap hc.1 (by
      intro id a hid
      obtain ⟨q, q1, q2, _⟩ := b5 id ((nodeOf_live s hc id).1.mpr ⟨a, hid⟩)
      exact ⟨q, q1, hfv q q2⟩)
    (by
      intro t x hx hv hne
      have hl : s.liveFace t = true := by
        by_contra hl
        exact hv (hdeadF t x (by simpa using hl) hx)
      obtain ⟨q, q1, q2, q3, q4⟩ := b5 t hl
      rw [hx] at q1
      have hxq := Option.some.inj q1
      subst hxq
      refine ⟨(nodeOf_live s hc t).1.mp hl, by omega, ?_⟩
      apply (nodeOf_live s hc x).2.mp
      by_contra hlx
      have hlx' : s.liveFace x = true := by simpa using hlx
      obtain ⟨y, y1, y2, y3, y4⟩ := b5 x hlx'
      have hyx := y4 q2
      subst hyx
      exact hne (b6 y t y hlx' hl y1 hx))
    H2
  obtain ⟨s1, hs1⟩ := prune_fold s pv pf hnp vd vmap fd fmap vd1 m1 m3 o e1 e2 e3 e4 e5 e6 e7
  exact ⟨_, hs1⟩

end DynamicMesh

namespace Util

theorem free_count {α : Type} (free : α → Bool) :
    ∀ (v : List α) (l : List Nat), l.Nodup →
      (∀ (i : Nat), i ∈ l ↔ ∃ x, v[i]? = some x ∧ free x = true) →
      l.length = v.countP free := by
  intro v
  induction v using List.reverseRecOn with
  | nil =>
    intro l _ hm
    have : l = [] := by
      apply List.eq_nil_iff_forall_not_mem.mpr
      intro i hi
      obtain ⟨x, hx, _⟩ := (hm i).mp hi
      simp at hx
    rw [this]; rfl
  | append_singleton v d ih =>
    intro l hn hm
    have hget : ∀ (i : Nat), (v ++ [d])[i]? = if i = v.length then some d else v[i]? := by
      intro i
      by_cases hi : i < v.length
      · rw [List.getElem?_append_left hi, if_neg (by omega)]
      · by_cases hi2 : i = v.length
        · subst hi2; simp
        · rw [if_neg hi2, List.getElem?_eq_none (by simp; omega),
            List.getElem?_eq_none (by omega)]
    have hm' : ∀ (i : Nat), i ∈ l.erase v.length ↔ ∃ x, v[i]? = some x ∧ free x = true := by
      intro i
      rw [hn.mem_erase_iff, hm i, hget i]
      constructor
      · rintro ⟨hne, x, hx, hf⟩
        rw [if_neg hne] at hx
        exact ⟨x, hx, hf⟩
      · rintro ⟨x, hx, hf⟩
        have hlt := getElem?_lt_of_some hx
        have hne : i ≠ v.length := by omega
        exact ⟨hne, x, by rw [if_neg hne]; exact hx, hf⟩
    have := ih (l.erase v.length) (hn.erase _) hm'
    rw [List.countP_append, ← this]
    by_cases hd : free d = true
    · have hmem : v.length ∈ l := (hm v.length).mpr ⟨d, by rw [hget, if_pos rfl], hd⟩
      rw [List.length_erase_of_mem hmem]
      have hpos : 0 < l.length := List.length_pos_of_mem hmem
      simp [List.countP_cons, hd]
      omega
    · have hmem : v.length ∉ l := by
        intro hc
        obtain ⟨x, hx, hf⟩ := (hm v.length).mp hc
        rw [hget, if_pos rfl] at hx
        rw [← Option.some.inj hx] at hf
        exact hd hf
      rw [List.erase_of_not_mem hmem]
      simp [List.countP_cons, hd]

end Util

namespace DynamicMesh

open VertexData

theorem numVertices_eq (s : DynamicMesh) (hinv : MeshInv s) :
    s.numVertices = some (s.vertexData.countP (fun d => !d.isFree)) ∧
      s.freeVertexIndices.length + s.vertexData.countP (fun d => !d.isFree) =
        s.vertexData.length := by
  obtain ⟨⟨z1, _, _, _, _⟩, ⟨f1, f2, _, _⟩, _, _⟩ := hinv
  have hc := Util.free_count (fun d : VertexData => d.isFree) s.vertexData s.freeVertexIndices f1
    (by
      intro i
      rw [f2 i]
      constructor
      · rintro ⟨h1, h2⟩; exact (liveIn_false_iff _ _ h1).mp h2
      · rintro ⟨x, hx, hf⟩
        have hlt := Util.getElem?_lt_of_some hx
        exact ⟨hlt, (liveIn_false_iff _ _ hlt).mpr ⟨x, hx, hf⟩⟩)
  have hsum := List.length_eq_countP_add_countP (fun d : VertexData => d.isFree) s.vertexData
  have hnot : s.vertexData.countP (fun d => decide ¬(d.isFree = true)) =
      s.vertexData.countP (fun d => !d.isFree) := by
    congr 1; funext d; cases d.isFree <;> rfl
  rw [hnot] at hsum
  refine ⟨?_, by omega⟩
  unfold numVertices Mesh.numVertices
  rw [if_pos ⟨by omega, z1⟩]
  congr 1
  omega

theorem numFaces_eq (s : DynamicMesh) (hinv : MeshInv s) :
    s.numFaces = some (s.faceData.countP (fun d => !d.isFree)) ∧
      s.freeFaceIndices.length + s.faceData.countP (fun d => !d.isFree) =
        s.faceData.length := by
  obtain ⟨_, ⟨_, _, f3, f4⟩, _, _⟩ := hinv
  have hc := Util.free_count (fun d : FaceData => d.isFree) s.faceData s.freeFaceIndices f3
    (by
      intro i
      rw [f4 i]
      constructor
      · rintro ⟨h1, h2⟩; exact (liveFace_false_iff _ _ h1).mp h2
      · rintro ⟨x, hx, hf⟩
        have hlt := Util.getElem?_lt_of_some hx
        exact ⟨hlt, (liveFace_false_iff _ _ hlt).mpr ⟨x, hx, hf⟩⟩)
  have hsum := List.length_eq_countP_add_countP (fun d : FaceData => d.isFree) s.faceData
  have hnot : s.faceData.countP (fun d => decide ¬(d.isFree = true)) =
      s.faceData.countP (fun d => !d.isFree) := by
    congr 1; funext d; cases d.isFree <;> rfl
  rw [hnot] at hsum
  refine ⟨?_, by omega⟩
  unfold numFaces
  rw [if_pos (by omega)]
  congr 1
  omega

theorem vertexIndices_iff (s : DynamicMesh) (hs : Sizes s) (f a b c : Nat) :
    s.vertexIndices f = some (a, b, c) ↔ (s.liveFace f = true ∧ s.triple f = [a, b, c]) := by
  unfold vertexIndices isFreeFace liveFace triple Mesh.index
  by_cases hf : f < s.faceData.length
  · have h0 : 3 * f + 0 < s.mesh.indices.length := by rw [hs.2.2.2.1]; omega
    have h1 : 3 * f + 1 < s.mesh.indices.length := by rw [hs.2.2.2.1]; omega
    have h2 : 3 * f + 2 < s.mesh.indices.length := by rw [hs.2.2.2.1]; omega
    rw [List.getElem?_eq_getElem hf, List.getElem?_eq_getElem h0, List.getElem?_eq_getElem h1,
      List.getElem?_eq_getElem h2]
    rw [getD_zero_of_getElem? (List.getElem?_eq_getElem (by omega : 3 * f < _)),
      getD_zero_of_getElem? (List.getElem?_eq_getElem h1),
      getD_zero_of_getElem? (List.getElem?_eq_getElem h2)]
    cases hfree : s.faceData[f].isFree <;> simp [hfree]
  · rw [List.getElem?_eq_none (by omega)]
    simp

end DynamicMesh

namespace Util

/-- C5. Packing algorithm: for every vector `v` (of a length that fits
`unsigned int`) and predicate `p`, `Util::prune` called with an empty index map
returns a vector that is a permutation of the input elements that do not
satisfy `p` (its length is their count); for every input index `i` with `p`
false, `indexMap[i]` is a position below the new length that holds the old
`v[i]`, distinct such indices get distinct positions; for every input index with
`p` true, `indexMap[i]` is the invalid index. -/
theorem prune_packs {α : Type} (p : α → Bool) (v : List α) (hv : v.length < 2 ^ 32) :
    ∃ v1 m1, Util.prune p v (some []) = some (v1, some m1) ∧
      v1.Perm (v.filter (fun x => !p x)) ∧ v1.length = v.countP (fun x => !p x) ∧
      m1.length = v.length ∧
      (∀ (i : Nat) (x : α), v[i]? = some x → p x = false →
        ∃ q, m1[i]? = some q ∧ q < v1.length ∧ v1[q]? = some x) ∧
      (∀ (i j : Nat) (x y : α), v[i]? = some x → p x = false → v[j]? = some y → p y = false →
        i ≠ j → m1[i]? ≠ m1[j]?) ∧
      (∀ (i : Nat) (x : α), v[i]? = some x → p x = true → m1[i]? = some Util.invalidIndex) := by
  obtain ⟨v1, m1, h, s1, s2, s3, s4, s5, s6⟩ := Util.prune_spec p v [] hv
  refine ⟨v1, m1, h, s1, ?_, s2, ?_, ?_, ?_⟩
  · rw [s1.length_eq, List.countP_eq_length_filter]
  · intro i x hx hp
    obtain ⟨q, q1, q2, q3, _⟩ := s3 i x hx hp
    exact ⟨q, q1, q2, q3⟩
  · intro i j x y hx hp hy hq hij hc
    obtain ⟨q, q1, _⟩ := s3 i x hx hp
    exact hij (s5 i j x y q hx hp hy hq q1 (by rw [← hc]; exact q1))
  · intro i x hx hp
    obtain ⟨t1, t2⟩ := s4 i x hx hp
    by_cases hl : i < v1.length
    · exact t1 hl
    · rw [t2 (by omega)]
      have hi := Util.getElem?_lt_of_some hx
      simp [Util.resize, hi]

/-- C5, at the vector `[1, 0, 2, 0]` with `p x := (x == 0)`. -/
theorem prune_packs_witness :
    ([1, 0, 2, 0] : List Nat).length < 2 ^ 32 ∧
    ∃ v1 m1, Util.prune (fun x => x == 0) [1, 0, 2, 0] (some []) = some (v1, some m1) ∧
      v1.Perm (([1, 0, 2, 0] : List Nat).filter (fun x => !(x == 0))) ∧
      v1.length = ([1, 0, 2, 0] : List Nat).countP (fun x => !(x == 0)) ∧
      m1.length = ([1, 0, 2, 0] : List Nat).length ∧
      (∀ (i : Nat) (x : Nat), ([1, 0, 2, 0] : List Nat)[i]? = some x → (x == 0) = false →
        ∃ q, m1[i]? = some q ∧ q < v1.length ∧ v1[q]? = some x) ∧
      (∀ (i j : Nat) (x y : Nat), ([1, 0, 2, 0] : List Nat)[i]? = some x → (x == 0) = false →
        ([1, 0, 2, 0] : List Nat)[j]? = some y → (y == 0) = false →
        i ≠ j → m1[i]? ≠ m1[j]?) ∧
      (∀ (i : Nat) (x : Nat), ([1, 0, 2, 0] : List Nat)[i]? = some x → (x == 0) = true →
        m1[i]? = some Util.invalidIndex) :=
  ⟨by decide, prune_packs (fun x => x == 0) [1, 0, 2, 0] (by decide)⟩

end Util

open Octree

namespace DynamicOctree

theorem unitRoot_approx (e : ℚ) (h1 : e ≤ 1) : approxContains origin 1 origin e = true := by
  simp [approxContains, origin, epsilon, h1]
  norm_num

theorem trace0_eq : setupRoot ⟨Child.none, [], 0⟩ origin 1 = some trace0 := by
  simp [setupRoot, hasRoot, Child.isSome, mkNode, trace0, unitRoot]

theorem trace1_eq : addElement 1 trace0 2 origin (1 / 2) = some trace1 := by
  have h := unitRoot_approx (1 / 2) (by norm_num)
  simp [addElement, trace0, unitRoot, nodeAddElement, insertIntoChild,
    relativeMinElementExtent, addToElementNodeMap, Util.resize, trace1]
  norm_num
  simp only [h, if_true]

theorem trace2_eq : addElement 1 trace1 0 origin (1 / 2) = some trace2 := by
  have h := unitRoot_approx (1 / 2) (by norm_num)
  simp [addElement, trace1, unitRoot, nodeAddElement, insertIntoChild,
    relativeMinElementExtent, addToElementNodeMap, Util.resize, trace2]
  norm_num
  simp only [h, if_true]

theorem trace3_eq : deleteElement trace2 2 = some trace3 := by
  have h : ({0, 2} : Finset ℕ).erase 2 = {0} := by decide
  simp [deleteElement, trace2, unitRoot, find, Child.indices, eraseAt, hasRoot, Child.isSome,
    isEmpty, shrinkRoot, shrinkRootNode, trace3, h]

theorem trace4_eq : updateIndices trace3 [1, 2, Util.invalidIndex] = some trace4 := by
  simp [updateIndices, trace3, updateMapLoop, Util.invalidIndex, Util.resize, hasRoot, unitRoot,
    Child.isSome, nodeUpdateIndices, trace4]

theorem single_eq : addElement 1 trace0 0 origin (1 / 2) = some single := by
  have h := unitRoot_approx (1 / 2) (by norm_num)
  simp [addElement, trace0, unitRoot, nodeAddElement, insertIntoChild,
    relativeMinElementExtent, addToElementNodeMap, Util.resize, single]
  norm_num
  simp only [h, if_true]

theorem trace0_reachable (P : DynamicOctree → List Nat → Prop) : ReachableWith P trace0 :=
  ReachableWith.setupRoot 0 origin 1 trace0 trace0_eq

theorem trace3_reachable (P : DynamicOctree → List Nat → Prop) : ReachableWith P trace3 := by
  refine ReachableWith.step trace2 trace3 ?_ (Step.deleteElement _ _ _ trace3_eq)
  refine ReachableWith.step trace1 trace2 ?_ (Step.addElement _ _ _ _ _ _ trace2_eq)
  exact ReachableWith.step trace0 trace1 (trace0_reachable P) (Step.addElement _ _ _ _ _ _ trace1_eq)

theorem single_reachable (P : DynamicOctree → List Nat → Prop) : ReachableWith P single :=
  ReachableWith.step trace0 single (trace0_reachable P) (Step.addElement _ _ _ _ _ _ single_eq)

theorem single_realign (fuel : Nat) : realignElement fuel single 0 origin (1 / 10) = none := by
  have h := unitRoot_approx (1 / 10) (by norm_num)
  have hi : insertIntoChild 1 (1 / 10) = true := by
    simp [insertIntoChild, relativeMinElementExtent]; norm_num
  have hd : deleteElement single 0 = some ⟨Child.none, [none], 1⟩ := by
    simp [deleteElement, single, unitRoot, find, Child.indices, eraseAt, hasRoot, Child.isSome,
      isEmpty, hasChildren]
  unfold realignElement
  simp only [single, unitRoot, hasRoot, Child.isSome, if_true, List.getElem?_cons_zero, find]
  simp only [h, hi, Bool.or_true, if_true]
  have hd' : deleteElement ⟨Child.node 0 origin 1 0 (fun _ => Child.none) {0}, [some 0], 1⟩ 0 =
      some ⟨Child.none, [none], 1⟩ := hd
  rw [hd']
  cases fuel <;> simp [addElement]

/-- C7, as amended. In every octree state reachable from `setupRoot` by calls
that return of `addElement`, `deleteElement`, `realignElement`,
`deleteEmptyChildren`, `shrinkRoot`, and `updateIndices` on permutations with
holes: the nodes of the tree are distinct objects, an id is in the index set of
at most one node, and `elementNodeMap[id]` is the address `a` exactly when the
node at `a` in the tree under the root has `id` in its index set. -/
theorem registration_invariant (o : DynamicOctree) (h : Reachable o) :
    UniqAddr o.root ∧
      (∀ id a b, holdsAt id a o.root = true → holdsAt id b o.root = true → a = b) ∧
      (∀ id a, o.nodeOf id = some a ↔ holdsAt id a o.root = true) := by
  obtain ⟨h1, _, h3⟩ := reachable_registration o h
  refine ⟨h1, ?_, fun id a => (h3 id a).symm⟩
  intro id a b ha hb
  have e1 := (h3 id a).mp ha
  have e2 := (h3 id b).mp hb
  rw [e1] at e2
  exact Option.some.inj e2

/-- C7, at the octree that holds the ids 0 and 2 in its root. -/
theorem registration_invariant_witness :
    Reachable trace3 ∧ UniqAddr trace3.root ∧
      (∀ id a b, holdsAt id a trace3.root = true → holdsAt id b trace3.root = true → a = b) ∧
      (∀ id a, trace3.nodeOf id = some a ↔ holdsAt id a trace3.root = true) :=
  ⟨trace3_reachable PermWithHoles, registration_invariant trace3 (trace3_reachable PermWithHoles)⟩

/-- C7 as stated fails: with `updateIndices` called on any map, the octree that
holds id 0, after `updateIndices ({1, 2, invalid})`, has `elementNodeMap[2]`
set although no node holds id 2 (and id 1 held by the root although
`elementNodeMap[1]` is null). -/
theorem registration_counterexample :
    ¬ (∀ o, ReachableAny o → ∀ id a, o.nodeOf id = some a ↔ holdsAt id a o.root = true) := by
  intro h
  have hr : ReachableAny trace4 :=
    ReachableWith.step trace3 trace4 (trace3_reachable _)
      (Step.updateIndices _ _ _ trivial trace4_eq)
  have := (h trace4 hr 2 0).mp (by simp [trace4, nodeOf])
  simp [trace4, unitRoot, holdsAt] at this

/-- Placement in exact arithmetic: for a reachable octree with a root (its width
is positive) and `maxDimExtent > 0`, `addElement (id, position, maxDimExtent)`
returns when `id` is not registered, and whenever it returns, the node that
`elementNodeMap[id]` designates holds `id`, approx-contains the element, has
`maxDimExtent > 0.25 × width`, and every proper ancestor of it has
`maxDimExtent ≤ 0.25 × width`. -/
theorem addElement_places_exact (o : DynamicOctree) (index : Nat) (position : Vec3) (e : ℚ)
    (hreach : Reachable o) (hroot : o.hasRoot = true) (he : 0 < e) :
    (o.nodeOf index = none → ∃ fuel o1, addElement fuel o index position e = some o1) ∧
    ∀ fuel o1, addElement fuel o index position e = some o1 →
      ∃ a, o1.nodeOf index = some a ∧ index ∈ (find a o1.root).indices ∧
        approxContains (find a o1.root).center (find a o1.root).width position e = true ∧
        (find a o1.root).width * (1 / 4) < e ∧
        ∃ anc, ancestors a o1.root = some anc ∧ ∀ n ∈ anc, e ≤ n.width * (1 / 4) := by
  refine ⟨fun hn => addElement_total o index position e (reachable_geom _ o hreach) hroot he hn,
    fun fuel o1 h => ?_⟩
  obtain ⟨a, p1, p2, p3, p4, anc, p5, p6⟩ :=
    addElement_placement fuel o o1 index position e h (reachable_registration o hreach)
  refine ⟨a, p1, p2, p3, ?_, anc, p5, fun n hn => (insertIntoChild_iff _ _).mp (p6 n hn)⟩
  rw [Bool.eq_false_iff, Ne, insertIntoChild_iff] at p4
  exact not_le.mp p4

/-- C10, at its failing input: the reachable octree `single` holds only id 0, in
its root of width 1; `realignElement (0, origin, 1/10)` has to move the element
into a child, deletes it, discards the root that is then empty, and
`addElement` fails its assertion `hasRoot`, with any number of steps allowed. -/
theorem realignElement_only_element :
    Reachable single ∧ single.nodeOf 0 = some 0 ∧
      ∀ fuel, realignElement fuel single 0 origin (1 / 10) = none :=
  ⟨single_reachable _, rfl, single_realign⟩

end DynamicOctree

namespace DynamicMesh
open Octree

theorem tri_root : setupOctreeRoot (reset blank) triMesh =
    some { blank with octree := ⟨Child.node 0 ⟨1 / 2, 1 / 2, 0⟩ 1 0 (fun _ => Child.none) ∅, [], 1⟩ } := by
  simp [setupOctreeRoot, reset, blank, DynamicOctree.reset, DynamicOctree.hasRoot, Child.isSome,
    Mesh.minMax, triMesh, Mesh.reset, DynamicOctree.setupRoot, mkNode]

theorem tri_vertices :
    addVertices (triMesh.vertices.zip triMesh.normals)
      { blank with octree := ⟨Child.node 0 ⟨1 / 2, 1 / 2, 0⟩ 1 0 (fun _ => Child.none) ∅, [], 1⟩ } =
    some { tri with
      mesh := ⟨triMesh.vertices, triMesh.normals, []⟩
      vertexData := [⟨false, []⟩, ⟨false, []⟩, ⟨false, []⟩]
      faceData := []
      faceVisited := []
      octree := ⟨Child.node 0 ⟨1 / 2, 1 / 2, 0⟩ 1 0 (fun _ => Child.none) ∅, [], 1⟩ } := by
  rfl

theorem tri_face :
    addFace 1 { tri with
      mesh := ⟨triMesh.vertices, triMesh.normals, []⟩
      vertexData := [⟨false, []⟩, ⟨false, []⟩, ⟨false, []⟩]
      faceData := []
      faceVisited := []
      octree := ⟨Child.node 0 ⟨1 / 2, 1 / 2, 0⟩ 1 0 (fun _ => Child.none) ∅, [], 1⟩ } 0 1 2 =
    some (tri, 0) := by
  have h : approxContains ⟨1 / 2, 1 / 2, 0⟩ 1 ⟨1 / 3, 1 / 3, 0⟩ 1 = true := by
    simp [approxContains, epsilon]
    norm_num
  simp [addFace, tri, triMesh, Mesh.numVertices, Mesh.numIndices, addFaceSlot, numFaces,
    Mesh.addIndex, addAdjacent, VertexData.addAdjacentFace, addFaceToOctree, face, vertexIndices,
    isFreeFace, Mesh.index, Mesh.vertex, PrimTriangle.center, PrimTriangle.maxDimExtent,
    DynamicOctree.addElement, DynamicOctree.hasRoot, Child.isSome, nodeAddElement,
    insertIntoChild, relativeMinElementExtent, DynamicOctree.addToElementNodeMap, Util.resize]
  norm_num
  simp only [h, if_true]

theorem tri_normals :
    setAllNormals id (fun _ => false) (List.range tri.vertexData.length) tri = some tri := by
  have hr : List.range tri.vertexData.length = [0, 1, 2] := by rfl
  have hn : ∀ i, i < 3 → setVertexNormal id (fun _ => false) tri i = some tri := by
    intro i hi
    have hi3 : i = 0 ∨ i = 1 ∨ i = 2 := by omega
    rcases hi3 with rfl | rfl | rfl <;>
      simp [setVertexNormal, averageNormal, tri, triMesh, sumNormals, face, vertexIndices,
        isFreeFace, Mesh.index, Mesh.vertex, cross, Mesh.setNormal]
  have hf : ∀ i, i < 3 → tri.isFreeVertex i = some false := by
    intro i hi
    have hi3 : i = 0 ∨ i = 1 ∨ i = 2 := by omega
    rcases hi3 with rfl | rfl | rfl <;> rfl
  rw [hr]
  simp only [setAllNormals, hf 0 (by omega), hf 1 (by omega), hf 2 (by omega),
    hn 0 (by omega), hn 1 (by omega), hn 2 (by omega)]

theorem tri_eq : fromMesh 1 id (fun _ => false) blank triMesh = some tri := by
  unfold fromMesh
  rw [tri_root]
  simp only []
  rw [if_pos (by rfl), tri_vertices]
  simp only []
  rw [if_pos (by rfl)]
  have : triMesh.indices = [0, 1, 2] := rfl
  rw [this]
  simp only [addFaces, tri_face]
  exact tri_normals

theorem tri4_eq : addVertex tri ⟨0, 0, 1⟩ ⟨0, 0, 1⟩ = some (tri4, 3) := by
  rfl

theorem frag_eq : deleteVertex tri4 3 = some frag := by
  rfl

theorem twice_eq : deleteVertex frag 3 = some twice := by
  rfl

theorem tri_fits : Fits tri := by
  unfold Fits tri; simp

theorem tri_reachable (L : Prop) : ReachableWith L tri :=
  ReachableWith.fromMesh 1 id (fun _ => false) blank triMesh tri tri_eq tri_fits

theorem tri4_reachable (L : Prop) : ReachableWith L tri4 :=
  ReachableWith.step tri tri4 (tri_reachable L) (Step.addVertex _ _ _ _ _ tri4_eq)
    (by unfold Fits tri4 tri; simp)

theorem frag_reachable (L : Prop) : ReachableWith L frag :=
  ReachableWith.step tri4 frag (tri4_reachable L)
    (Step.deleteVertex _ _ 3 (fun _ => rfl) frag_eq) (by unfold Fits frag tri4 tri; simp)

theorem isFreeVertex_false_iff (s : DynamicMesh) (v : Nat) :
    s.isFreeVertex v = some false ↔ s.liveVertex v = true := by
  unfold isFreeVertex liveVertex VertexData.liveIn
  cases h : s.vertexData[v]? with
  | none => simp
  | some d => simp

theorem isFreeVertex_true_iff (s : DynamicMesh) (v : Nat) :
    s.isFreeVertex v = some true ↔ (v < s.vertexData.length ∧ s.liveVertex v = false) := by
  unfold isFreeVertex liveVertex VertexData.liveIn
  by_cases hv : v < s.vertexData.length
  · rw [List.getElem?_eq_getElem hv]; simp [hv]
  · rw [List.getElem?_eq_none (by omega)]; simp [hv]

theorem isFreeFace_false_iff (s : DynamicMesh) (f : Nat) :
    s.isFreeFace f = some false ↔ s.liveFace f = true := by
  unfold isFreeFace liveFace
  cases h : s.faceData[f]? with
  | none => simp
  | some d => simp

theorem isFreeFace_true_iff (s : DynamicMesh) (f : Nat) :
    s.isFreeFace f = some true ↔ (f < s.faceData.length ∧ s.liveFace f = false) := by
  unfold isFreeFace liveFace
  by_cases hv : f < s.faceData.length
  · rw [List.getElem?_eq_getElem hv]; simp [hv]
  · rw [List.getElem?_eq_none (by omega)]; simp [hv]

theorem count_nodup (l : List Nat) (hn : l.Nodup) (i : Nat) :
    l.count i = if i ∈ l then 1 else 0 := by
  by_cases hi : i ∈ l
  · rw [if_pos hi]; exact List.count_eq_one_of_mem hn hi
  · rw [if_neg hi]; exact List.count_eq_zero_of_not_mem hi

theorem prune_fresh (s : DynamicMesh) (hinv : MeshInv s) (hfit : Fits s)
    (hnp : s.isPruned = false) :
    ∃ s1 vmap fmap, prune s (some []) (some []) = some (s1, some vmap, some fmap) := by
  obtain ⟨⟨s1, rv, rf⟩, hr⟩ := prune_total s (some []) (some []) hinv hfit rfl rfl
  obtain ⟨vmap, fmap, h1, h2, _⟩ := prune_frame s s1 _ _ rv rf hr hnp hinv hfit
  rw [h1, h2] at hr
  exact ⟨s1, vmap, fmap, hr⟩

theorem pruned_facts (s : DynamicMesh) (hinv : MeshInv s) (h1 : s.freeVertexIndices = [])
    (h2 : s.freeFaceIndices = []) :
    (∀ i, i < s.vertexData.length → s.isFreeVertex i = some false) ∧
    (∀ i, i < s.faceData.length → s.isFreeFace i = some false) ∧
    s.numVertices = some s.vertexData.length ∧ s.numFaces = some s.faceData.length := by
  obtain ⟨n1, n2⟩ := numVertices_eq s hinv
  obtain ⟨n3, n4⟩ := numFaces_eq s hinv
  rw [h1] at n2
  rw [h2] at n4
  simp only [List.length_nil, Nat.zero_add] at n2 n4
  rw [n2] at n1
  rw [n4] at n3
  refine ⟨?_, ?_, n1, n3⟩
  · intro i hi
    exact (isFreeVertex_false_iff s i).mpr (free_nil_live s hinv.2.1 h1 i hi)
  · intro i hi
    apply (isFreeFace_false_iff s i).mpr
    by_contra hc
    have : i ∈ s.freeFaceIndices := (hinv.2.1.2.2.2 i).mpr ⟨hi, by simpa using hc⟩
    rw [h2] at this
    simp at this

/-- C1. Adjacency symmetry is an invariant: in every state reachable from
`fromMesh` by calls that return of `addVertex`, `addFace` (on live vertex ids),
`deleteFace` and `deleteVertex` (on live ids) and `prune` (with any output
vectors), through states with fewer than `2^32` vertex and face slots, every
live face `f` with index triple `(a, b, c)` occurs in the adjacency lists of
`a`, `b` and `c`, and every entry `g` in the adjacency list of a vertex `v` is
a live face whose triple contains `v`. -/
theorem adjacency_symmetric (s : DynamicMesh) (h : Reachable s) :
    (∀ f a b c, s.vertexIndices f = some (a, b, c) →
      f ∈ s.adjacent a ∧ f ∈ s.adjacent b ∧ f ∈ s.adjacent c) ∧
    (∀ v g, g ∈ s.adjacent v →
      ∃ a b c, s.vertexIndices g = some (a, b, c) ∧ (v = a ∨ v = b ∨ v = c)) := by
  obtain ⟨hs, _, ha, _⟩ := reachable_inv s h
  refine ⟨?_, ?_⟩
  · intro f a b c hf
    obtain ⟨hl, ht⟩ := (vertexIndices_iff s hs f a b c).mp hf
    have key : ∀ x, x ∈ [a, b, c] → f ∈ s.adjacent x := by
      intro x hx
      apply List.count_pos_iff.mp
      rw [ha.2 x f, if_pos hl, ht]
      exact List.count_pos_iff.mpr hx
    exact ⟨key a (by simp), key b (by simp), key c (by simp)⟩
  · intro v g hg
    obtain ⟨hl, hv⟩ := adjacent_live s ha v g hg
    refine ⟨_, _, _, (vertexIndices_iff s hs g _ _ _).mpr ⟨hl, rfl⟩, ?_⟩
    simpa [triple] using hv

/-- C1, at the mesh `tri` made by `fromMesh` from one triangle. -/
theorem adjacency_symmetric_witness :
    Reachable tri ∧
    (∀ f a b c, tri.vertexIndices f = some (a, b, c) →
      f ∈ tri.adjacent a ∧ f ∈ tri.adjacent b ∧ f ∈ tri.adjacent c) ∧
    (∀ v g, g ∈ tri.adjacent v →
      ∃ a b c, tri.vertexIndices g = some (a, b, c) ∧ (v = a ∨ v = b ∨ v = c)) :=
  ⟨tri_reachable True, adjacency_symmetric tri (tri_reachable True)⟩

/-- C2, as amended. In every state reachable from `fromMesh` by calls that
return of `addVertex`, `addFace` (on live vertex ids), `deleteFace` and
`deleteVertex` (on live ids) and `prune`, through states with fewer than `2^32`
vertex and face slots, a vertex slot id occurs in `freeVertexIndices` exactly
once if its `isFree` flag is set and not at all otherwise, and `numVertices ()`
is the number of vertex slots whose flag is false; the same holds for face
slots, `freeFaceIndices` and `numFaces ()`. -/
theorem freeList_invariant (s : DynamicMesh) (h : Reachable s) :
    (∀ i, s.freeVertexIndices.count i = if s.isFreeVertex i = some true then 1 else 0) ∧
    s.numVertices = some (s.vertexData.countP (fun d => !d.isFree)) ∧
    (∀ i, s.freeFaceIndices.count i = if s.isFreeFace i = some true then 1 else 0) ∧
    s.numFaces = some (s.faceData.countP (fun d => !d.isFree)) := by
  have hinv := reachable_inv s h
  obtain ⟨f1, f2, f3, f4⟩ := hinv.2.1
  refine ⟨?_, (numVertices_eq s hinv).1, ?_, (numFaces_eq s hinv).1⟩
  · intro i
    rw [count_nodup _ f1]
    by_cases hi : i ∈ s.freeVertexIndices
    · rw [if_pos hi, if_pos ((isFreeVertex_true_iff s i).mpr ((f2 i).mp hi))]
    · rw [if_neg hi, if_neg (fun hc => hi ((f2 i).mpr ((isFreeVertex_true_iff s i).mp hc)))]
  · intro i
    rw [count_nodup _ f3]
    by_cases hi : i ∈ s.freeFaceIndices
    · rw [if_pos hi, if_pos ((isFreeFace_true_iff s i).mpr ((f4 i).mp hi))]
    · rw [if_neg hi, if_neg (fun hc => hi ((f4 i).mpr ((isFreeFace_true_iff s i).mp hc)))]

/-- C2 as amended, at the fragmented mesh `frag`. -/
theorem freeList_invariant_witness :
    Reachable frag ∧
    (∀ i, frag.freeVertexIndices.count i = if frag.isFreeVertex i = some true then 1 else 0) ∧
    frag.numVertices = some (frag.vertexData.countP (fun d => !d.isFree)) ∧
    (∀ i, frag.freeFaceIndices.count i = if frag.isFreeFace i = some true then 1 else 0) ∧
    frag.numFaces = some (frag.faceData.countP (fun d => !d.isFree)) :=
  ⟨frag_reachable True, freeList_invariant frag (frag_reachable True)⟩

/-- C2 as stated fails: `deleteVertex (3)` on the mesh `frag`, whose slot 3 is
free already, returns and leaves the id 3 in `freeVertexIndices` twice, and
`numVertices ()` is 2 while three slots have their flag false. -/
theorem freeList_counterexample :
    ReachableAny twice ∧ deleteVertex frag 3 = some twice ∧
    twice.isFreeVertex 3 = some true ∧ twice.freeVertexIndices.count 3 = 2 ∧
    twice.numVertices = some 2 ∧ twice.vertexData.countP (fun d => !d.isFree) = 3 :=
  ⟨ReachableWith.step frag twice (frag_reachable False)
      (Step.deleteVertex _ _ 3 (fun hf => hf.elim) twice_eq) (by unfold Fits twice frag tri4 tri; simp),
    twice_eq, rfl, rfl, rfl, rfl⟩

/-- C3. For every reachable mesh state (reached by calls on live ids, through
states with fewer than `2^32` vertex and face slots), `prune` called with null
or empty output vectors returns; and after any call of `prune` that returns
(whatever the output vectors hold), both free
lists are empty, no vertex or face slot is flagged free, the slot arrays hold
exactly `numVertices ()` and `numFaces ()` entries, and `numVertices ()` and
`numFaces ()` have the same values as before the call. -/
theorem prune_postconditions (s : DynamicMesh) (h : Reachable s) :
    (∀ pv pf : Option (List Nat), pv.getD [] = [] → pf.getD [] = [] →
      ∃ r, prune s pv pf = some r) ∧
    ∀ pv pf s1 rv rf, prune s pv pf = some (s1, rv, rf) →
      s1.freeVertexIndices = [] ∧ s1.freeFaceIndices = [] ∧
      (∀ i, i < s1.vertexData.length → s1.isFreeVertex i = some false) ∧
      (∀ i, i < s1.faceData.length → s1.isFreeFace i = some false) ∧
      s1.numVertices = some s1.vertexData.length ∧ s1.numFaces = some s1.faceData.length ∧
      s1.mesh.numVertices = s1.vertexData.length ∧
      s1.mesh.numIndices = 3 * s1.faceData.length ∧
      s1.numVertices = s.numVertices ∧ s1.numFaces = s.numFaces := by
  have hinv := reachable_inv s h
  have hfit := reachable_fits True s h
  refine ⟨fun pv pf hpv hpf => prune_total s pv pf hinv hfit hpv hpf, ?_⟩
  intro pv pf s1 rv rf hp
  have hinv1 := prune_inv s s1 pv pf rv rf hp hinv hfit
  by_cases hnp : s.isPruned = false
  · obtain ⟨vmap, fmap, _, _, _, _, p1, p2, hsz, _, c1, c2, _⟩ :=
      prune_frame s s1 pv pf rv rf hp hnp hinv hfit
    obtain ⟨q1, q2, q3, q4⟩ := pruned_facts s1 hinv1 p1 p2
    refine ⟨p1, p2, q1, q2, q3, q4, hsz.1, hsz.2.2.2.1, ?_, ?_⟩
    · rw [q3, (numVertices_eq s hinv).1, c1, List.countP_eq_length_filter]
    · rw [q4, (numFaces_eq s hinv).1, c2, List.countP_eq_length_filter]
  · have hp1 : s.isPruned = true := by simpa using hnp
    obtain ⟨rfl, _, _⟩ := prune_pruned s s1 pv pf rv rf hp hp1
    unfold isPruned at hp1
    simp only [Bool.and_eq_true, List.isEmpty_iff] at hp1
    obtain ⟨q1, q2, q3, q4⟩ := pruned_facts s1 hinv1 hp1.2 hp1.1
    exact ⟨hp1.2, hp1.1, q1, q2, q3, q4, hinv.1.1, hinv.1.2.2.2.1, rfl, rfl⟩

/-- C3, at the fragmented mesh `frag`. -/
theorem prune_postconditions_witness :
    Reachable frag ∧
    (∀ pv pf : Option (List Nat), pv.getD [] = [] → pf.getD [] = [] →
      ∃ r, prune frag pv pf = some r) ∧
    ∀ pv pf s1 rv rf, prune frag pv pf = some (s1, rv, rf) →
      s1.freeVertexIndices = [] ∧ s1.freeFaceIndices = [] ∧
      (∀ i, i < s1.vertexData.length → s1.isFreeVertex i = some false) ∧
      (∀ i, i < s1.faceData.length → s1.isFreeFace i = some false) ∧
      s1.numVertices = some s1.vertexData.length ∧ s1.numFaces = some s1.faceData.length ∧
      s1.mesh.numVertices = s1.vertexData.length ∧
      s1.mesh.numIndices = 3 * s1.faceData.length ∧
      s1.numVertices = frag.numVertices ∧ s1.numFaces = frag.numFaces :=
  ⟨frag_reachable True, prune_postconditions frag (frag_reachable True)⟩

/-- C4. Compaction round trip: a fragmented reachable mesh is pruned with empty
output vectors, the call returns and leaves the maps `vmap` and `fmap` in them;
each face `f` that was live before has, at the id `fmap[f]` afterwards, the
index triple `(vmap[a], vmap[b], vmap[c])` where `(a, b, c)` was the triple of
`f`; and for every vertex `v` that was live before, the adjacency list of
`vmap[v]` afterwards is the old adjacency list of `v` mapped element-wise
through `fmap`. -/
theorem prune_round_trip (s : DynamicMesh) (h : Reachable s) (hfrag : s.isPruned = false) :
    ∃ s1 vmap fmap, prune s (some []) (some []) = some (s1, some vmap, some fmap) ∧
      (∀ f a b c, s.vertexIndices f = some (a, b, c) →
        ∃ f1 a1 b1 c1, fmap[f]? = some f1 ∧ vmap[a]? = some a1 ∧ vmap[b]? = some b1 ∧
          vmap[c]? = some c1 ∧ s1.vertexIndices f1 = some (a1, b1, c1)) ∧
      (∀ v, s.isFreeVertex v = some false →
        ∃ v1, vmap[v]? = some v1 ∧ s1.isFreeVertex v1 = some false ∧
          (s.adjacent v).map (fun f => fmap[f]?) = (s1.adjacent v1).map some) := by
  have hinv := reachable_inv s h
  have hfit := reachable_fits True s h
  obtain ⟨s1, vmap, fmap, hp⟩ := prune_fresh s hinv hfit hfrag
  obtain ⟨vmap1, fmap1, e1, e2, _, _, _, _, hsz, _, _, _, lv, lf, V, _, _, _, F, _, _, _, _⟩ :=
    prune_frame s s1 _ _ _ _ hp hfrag hinv hfit
  simp only [Option.map_some', Option.some.injEq] at e1 e2
  subst e1
  subst e2
  refine ⟨s1, vmap, fmap, hp, ?_, ?_⟩
  · intro f a b c hf
    obtain ⟨hl, ht⟩ := (vertexIndices_iff s hinv.1 f a b c).mp hf
    obtain ⟨q, q1, q2, _, _, q5⟩ := F f hl
    have hcorner : ∀ x, x ∈ [a, b, c] →
        ∃ y, vmap[x]? = some y ∧ vmap.getD x Util.invalidIndex = y := by
      intro x hx
      obtain ⟨y, y1, _⟩ := V x (hinv.2.2.1.1 f hl x (by rw [ht]; exact hx))
      exact ⟨y, y1, getD_of_some _ _ _ y1⟩
    obtain ⟨a1, ha1, ga⟩ := hcorner a (by simp)
    obtain ⟨b1, hb1, gb⟩ := hcorner b (by simp)
    obtain ⟨c1, hc1, gc⟩ := hcorner c (by simp)
    refine ⟨q, a1, b1, c1, q1, ha1, hb1, hc1, ?_⟩
    apply (vertexIndices_iff s1 hsz q a1 b1 c1).mpr
    refine ⟨by rw [lf]; simpa using q2, ?_⟩
    rw [q5, ht]
    simp only [List.map_cons, List.map_nil, ga, gb, gc]
  · intro v hv
    have hl := (isFreeVertex_false_iff s v).mp hv
    obtain ⟨q, q1, q2, _, _, q5⟩ := V v hl
    refine ⟨q, q1, ?_, ?_⟩
    · apply (isFreeVertex_false_iff s1 q).mpr
      rw [lv]; simpa using q2
    · rw [q5, List.map_map]
      apply List.map_congr_left
      intro f hf
      obtain ⟨hlf, _⟩ := adjacent_live s hinv.2.2.1 v f hf
      obtain ⟨y, y1, _⟩ := F f hlf
      simp only [Function.comp_apply]
      rw [y1, getD_of_some _ _ _ y1]

/-- C4, at the fragmented mesh `frag`. -/
theorem prune_round_trip_witness :
    Reachable frag ∧ frag.isPruned = false ∧
    ∃ s1 vmap fmap, prune frag (some []) (some []) = some (s1, some vmap, some fmap) ∧
      (∀ f a b c, frag.vertexIndices f = some (a, b, c) →
        ∃ f1 a1 b1 c1, fmap[f]? = some f1 ∧ vmap[a]? = some a1 ∧ vmap[b]? = some b1 ∧
          vmap[c]? = some c1 ∧ s1.vertexIndices f1 = some (a1, b1, c1)) ∧
      (∀ v, frag.isFreeVertex v = some false →
        ∃ v1, vmap[v]? = some v1 ∧ s1.isFreeVertex v1 = some false ∧
          (frag.adjacent v).map (fun f => fmap[f]?) = (s1.adjacent v1).map some) :=
  ⟨frag_reachable True, rfl, prune_round_trip frag (frag_reachable True) rfl⟩

/-- C6, as amended. For a reachable mesh that is pruned already, `prune` returns
and leaves the output vectors of the caller as they are. For a reachable mesh
that is fragmented and output vectors that are empty before the call, `prune`
returns and leaves in them a full old-to-new map per entity: one entry per slot
that existed before the call, holding for each live slot its new id (a slot of
the mesh afterwards, different live slots getting different ids) and the
invalid index for each removed slot. -/
theorem prune_maps (s : DynamicMesh) (h : Reachable s) :
    (s.isPruned = true → ∀ pv pf, prune s pv pf = some (s, pv, pf)) ∧
    (s.isPruned = false →
      ∃ s1 vmap fmap, prune s (some []) (some []) = some (s1, some vmap, some fmap) ∧
        vmap.length = s.vertexData.length ∧ fmap.length = s.faceData.length ∧
        (∀ v, s.isFreeVertex v = some false →
          ∃ q, vmap[v]? = some q ∧ q ≠ Util.invalidIndex ∧ q < s1.vertexData.length) ∧
        (∀ v, s.isFreeVertex v = some true → vmap[v]? = some Util.invalidIndex) ∧
        (∀ v w, s.isFreeVertex v = some false → s.isFreeVertex w = some false → v ≠ w →
          vmap[v]? ≠ vmap[w]?) ∧
        (∀ f, s.isFreeFace f = some false →
          ∃ q, fmap[f]? = some q ∧ q ≠ Util.invalidIndex ∧ q < s1.faceData.length) ∧
        (∀ f, s.isFreeFace f = some true → fmap[f]? = some Util.invalidIndex) ∧
        (∀ f g, s.isFreeFace f = some false → s.isFreeFace g = some false → f ≠ g →
          fmap[f]? ≠ fmap[g]?)) := by
  have hinv := reachable_inv s h
  have hfit := reachable_fits True s h
  refine ⟨?_, ?_⟩
  · intro hp pv pf
    unfold prune
    rw [if_neg (by rw [hp]; simp)]
  · intro hfrag
    obtain ⟨s1, vmap, fmap, hp⟩ := prune_fresh s hinv hfit hfrag
    obtain ⟨vmap1, fmap1, e1, e2, l1, l2, _, _, _, _, c1, c2, _, _, V, Vinj, _, Vdead, F, Finj, _,
      Fdead, _⟩ := prune_frame s s1 _ _ _ _ hp hfrag hinv hfit
    simp only [Option.map_some', Option.some.injEq] at e1 e2
    subst e1
    subst e2
    have hv32 : ∀ q, q < s1.vertexData.length → q ≠ Util.invalidIndex := by
      intro q hq
      have h1 := hfit.1
      have h2 := List.length_filter_le (fun d : VertexData => !d.isFree) s.vertexData
      unfold Util.invalidIndex
      norm_num at h1
      omega
    have hf32 : ∀ q, q < s1.faceData.length → q ≠ Util.invalidIndex := by
      intro q hq
      have h1 := hfit.2
      have h2 := List.length_filter_le (fun d : FaceData => !d.isFree) s.faceData
      unfold Util.invalidIndex
      norm_num at h1
      omega
    refine ⟨s1, vmap, fmap, hp, l1, l2, ?_, ?_, ?_, ?_, ?_, ?_⟩
    · intro v hv
      obtain ⟨q, q1, q2, _⟩ := V v ((isFreeVertex_false_iff s v).mp hv)
      exact ⟨q, q1, hv32 q q2, q2⟩
    · intro v hv
      obtain ⟨hlt, hd⟩ := (isFreeVertex_true_iff s v).mp hv
      by_cases hq : v < s1.vertexData.length
      · exact (Vdead v hlt hd).1 hq
      · rw [(Vdead v hlt hd).2 (by omega)]
        exact Util.getElem?_resize_nil _ _ hlt
    · intro v w hv hw hne hc
      have hlv := (isFreeVertex_false_iff s v).mp hv
      obtain ⟨q, q1, _⟩ := V v hlv
      exact hne (Vinj v w q hlv ((isFreeVertex_false_iff s w).mp hw) q1 (by rw [← hc]; exact q1))
    · intro f hf
      obtain ⟨q, q1, q2, _⟩ := F f ((isFreeFace_false_iff s f).mp hf)
      exact ⟨q, q1, hf32 q q2, q2⟩
    · intro f hf
      obtain ⟨hlt, hd⟩ := (isFreeFace_true_iff s f).mp hf
      by_cases hq : f < s1.faceData.length
      · exact (Fdead f hlt hd).1 hq
      · rw [(Fdead f hlt hd).2 (by omega)]
        exact Util.getElem?_resize_nil _ _ hlt
    · intro f g hf hg hne hc
      have hlf := (isFreeFace_false_iff s f).mp hf
      obtain ⟨q, q1, _⟩ := F f hlf
      exact hne (Finj f g q hlf ((isFreeFace_false_iff s g).mp hg) q1 (by rw [← hc]; exact q1))

/-- C6 as amended, at the fragmented mesh `frag`. -/
theorem prune_maps_witness :
    Reachable frag ∧
    (frag.isPruned = true → ∀ pv pf, prune frag pv pf = some (frag, pv, pf)) ∧
    (frag.isPruned = false →
      ∃ s1 vmap fmap, prune frag (some []) (some []) = some (s1, some vmap, some fmap) ∧
        vmap.length = frag.vertexData.length ∧ fmap.length = frag.faceData.length ∧
        (∀ v, frag.isFreeVertex v = some false →
          ∃ q, vmap[v]? = some q ∧ q ≠ Util.invalidIndex ∧ q < s1.vertexData.length) ∧
        (∀ v, frag.isFreeVertex v = some true → vmap[v]? = some Util.invalidIndex) ∧
        (∀ v w, frag.isFreeVertex v = some false → frag.isFreeVertex w = some false → v ≠ w →
          vmap[v]? ≠ vmap[w]?) ∧
        (∀ f, frag.isFreeFace f = some false →
          ∃ q, fmap[f]? = some q ∧ q ≠ Util.invalidIndex ∧ q < s1.faceData.length) ∧
        (∀ f, frag.isFreeFace f = some true → fmap[f]? = some Util.invalidIndex) ∧
        (∀ f g, frag.isFreeFace f = some false → frag.isFreeFace g = some false → f ≠ g →
          fmap[f]? ≠ fmap[g]?)) :=
  ⟨frag_reachable True, prune_maps frag (frag_reachable True)⟩

/-- C6 as stated fails: on the mesh `tri`, which is pruned already, `prune`
called with the output vectors `[7]` and `[7]` returns and leaves both as they
were, while `tri` has three vertex slots and one face slot, all live. -/
theorem prune_maps_counterexample :
    Reachable tri ∧ prune tri (some [7]) (some [7]) = some (tri, some [7], some [7]) ∧
    tri.vertexData.length = 3 ∧ tri.faceData.length = 1 ∧
    (∀ v, v < 3 → tri.isFreeVertex v = some false) ∧ tri.isFreeFace 0 = some false :=
  ⟨tri_reachable True, rfl, rfl, rfl, by decide, rfl⟩

end DynamicMesh

open Octree

namespace Octree

theorem shrinkRootNode_isSome : ∀ t, t.isSome = true → (shrinkRootNode t).isSome = true := by
  intro t
  induction t with
  | none => intro h; simp [Child.isSome] at h
  | node a c w d ch idx ih =>
    intro _
    rw [shrinkRootNode]
    split
    · split
      · rename_i k hk
        have hmem : k ∈ (List.finRange 8).filter (fun i => (ch i).isSome && !isEmpty (ch i)) := by
          rw [hk]; simp
        rw [List.mem_filter] at hmem
        have h1 := hmem.2
        simp only [Bool.and_eq_true] at h1
        exact ih k h1.1
      · rfl
    · rfl

end Octree

namespace DynamicOctree

theorem trace2_reachable (P : DynamicOctree → List Nat → Prop) : ReachableWith P trace2 :=
  ReachableWith.step trace1 trace2
    (ReachableWith.step trace0 trace1 (trace0_reachable P) (Step.addElement _ _ _ _ _ _ trace1_eq))
    (Step.addElement _ _ _ _ _ _ trace2_eq)

theorem deleteElement_unfold (o : DynamicOctree) (index a : Nat) (hr : Registration o)
    (hreg : o.nodeOf index = some a) :
    deleteElement o index =
      some (if isEmpty (eraseAt a index o.root) = true then
          { o with root := Child.none, elementNodeMap := o.elementNodeMap.set index none }
        else shrinkRoot { o with root := eraseAt a index o.root
                                 elementNodeMap := o.elementNodeMap.set index none }) ∧
      (eraseAt a index o.root).isSome = true := by
  have hget := getElem?_of_getD_some _ _ _ hreg
  have hhold : holdsAt index a o.root = true := (hr.2.2 index a).mpr hreg
  have hmem : index ∈ (find a o.root).indices := (find_indices a index o.root hr.1).mpr hhold
  have hsome : (eraseAt a index o.root).isSome = true := by
    cases hroot : o.root with
    | none => rw [hroot] at hhold; simp [holdsAt] at hhold
    | node b c w d ch idx =>
      rw [eraseAt]
      split <;> rfl
  refine ⟨?_, hsome⟩
  unfold deleteElement
  rw [hget]
  simp only [hmem, if_true, hasRoot, hsome]
  by_cases he : isEmpty (eraseAt a index o.root) = true
  · rw [if_pos he, if_pos he]
  · rw [if_neg he, if_neg he]

end DynamicOctree

namespace DynamicOctree

theorem isEmpty_iff (t : Child) (h : t.isSome = true) :
    isEmpty t = true ↔ (t.indices = ∅ ∧ hasChildren t.children = false) := by
  cases t with
  | none => simp [Child.isSome] at h
  | node a c w d ch idx => simp [isEmpty, Child.indices, Child.children]

/-- C11. For every id registered in a reachable octree, in the node at address
`a`: `deleteElement (id)` returns; it removes the id from the index set of that
node (the tree after the removal is `eraseAt a id root`) and clears
`elementNodeMap[id]`; every other id stays registered in the same node; the
root is discarded exactly when, after the removal, the root holds no index and
has no child node, and otherwise the root is what `shrinkRoot` makes of the
tree after the removal. -/
theorem deleteElement_effect (o : DynamicOctree) (index a : Nat) (hreach : Reachable o)
    (hreg : o.nodeOf index = some a) :
    ∃ o1, deleteElement o index = some o1 ∧
      o1.nodeOf index = none ∧ (∀ b, holdsAt index b o1.root = false) ∧
      (∀ id, id ≠ index →
        o1.nodeOf id = o.nodeOf id ∧ ∀ b, holdsAt id b o1.root = holdsAt id b o.root) ∧
      (∀ id b, holdsAt id b (eraseAt a index o.root) = true ↔
        (holdsAt id b o.root = true ∧ ¬ (id = index ∧ b = a))) ∧
      (o1.hasRoot = false ↔ ((eraseAt a index o.root).indices = ∅ ∧
        hasChildren (eraseAt a index o.root).children = false)) ∧
      (o1.hasRoot = true → o1.root = shrinkRootNode (eraseAt a index o.root)) := by
  have hr := reachable_registration o hreach
  obtain ⟨hun, hsome⟩ := deleteElement_unfold o index a hr hreg
  obtain ⟨r1, r2, _, r4, _⟩ := deleteElement_registration o _ index hun hr
  refine ⟨_, hun, r2, ?_, ?_, eraseAt_holdsAt a index o.root hr.1, ?_, ?_⟩
  · intro b
    cases hb : holdsAt index b _ with
    | false => rfl
    | true =>
      have := (r1.2.2 index b).mp hb
      rw [r2] at this; simp at this
  · intro id hid
    exact ⟨r4 id hid, registration_holdsAt_eq o _ hr r1 id (r4 id hid)⟩
  · rw [← isEmpty_iff _ hsome]
    by_cases he : isEmpty (eraseAt a index o.root) = true
    · simp [he, hasRoot, Child.isSome]
    · simp only [he, if_false, hasRoot, shrinkRoot, Bool.false_eq_true, iff_false]
      rw [shrinkRootNode_isSome _ hsome]
      simp
  · intro h1
    by_cases he : isEmpty (eraseAt a index o.root) = true
    · simp [he, hasRoot, Child.isSome] at h1
    · simp only [he, if_false, shrinkRoot, Bool.false_eq_true]

/-- C11, at the octree `trace2` (ids 0 and 2 in the root) and the id 2. -/
theorem deleteElement_effect_witness :
    Reachable trace2 ∧ trace2.nodeOf 2 = some 0 ∧
    ∃ o1, deleteElement trace2 2 = some o1 ∧
      o1.nodeOf 2 = none ∧ (∀ b, holdsAt 2 b o1.root = false) ∧
      (∀ id, id ≠ 2 →
        o1.nodeOf id = trace2.nodeOf id ∧
          ∀ b, holdsAt id b o1.root = holdsAt id b trace2.root) ∧
      (∀ id b, holdsAt id b (eraseAt 0 2 trace2.root) = true ↔
        (holdsAt id b trace2.root = true ∧ ¬ (id = 2 ∧ b = 0))) ∧
      (o1.hasRoot = false ↔ ((eraseAt 0 2 trace2.root).indices = ∅ ∧
        hasChildren (eraseAt 0 2 trace2.root).children = false)) ∧
      (o1.hasRoot = true → o1.root = shrinkRootNode (eraseAt 0 2 trace2.root)) :=
  ⟨trace2_reachable _, rfl, deleteElement_effect trace2 2 0 (trace2_reachable _) rfl⟩

end DynamicOctree

namespace DynamicOctree

theorem trace1_reachable (P : DynamicOctree → List Nat → Prop) : ReachableWith P trace1 :=
  ReachableWith.step trace0 trace1 (trace0_reachable P) (Step.addElement _ _ _ _ _ _ trace1_eq)

theorem trace1_nodeOf (i a : Nat) (h : trace1.nodeOf i = some a) : i = 2 ∧ a = 0 := by
  unfold nodeOf trace1 at h
  match i with
  | 0 => simp at h
  | 1 => simp at h
  | 2 => simp at h; exact ⟨rfl, h.symm⟩
  | n + 3 => simp at h

end DynamicOctree

namespace Octree

theorem le_foldr_max (L : List Nat) (x : Nat) (h : x ∈ L) : x ≤ L.foldr max 0 := by
  induction L with
  | nil => simp at h
  | cons y ys ih =>
    simp only [List.foldr_cons]
    rcases List.mem_cons.mp h with rfl | h1
    · exact le_max_left _ _
    · exact le_trans (ih h1) (le_max_right _ _)

theorem levels_child (a : Nat) (c : Vec3) (w : ℚ) (d : Int) (ch : Fin 8 → Child)
    (idx : Finset Nat) (k : Fin 8) : levels (ch k) < levels (Child.node a c w d ch idx) := by
  rw [levels]
  have := le_foldr_max ((List.finRange 8).map (fun k => levels (ch k))) (levels (ch k))
    (List.mem_map.mpr ⟨k, List.mem_finRange k, rfl⟩)
  omega

theorem hasAddr_self (t : Child) (h : t.isSome = true) : hasAddr t.addr t = true := by
  cases t with
  | none => simp [Child.isSome] at h
  | node a c w d ch idx => simp [hasAddr, Child.addr]

theorem find_self (a : Nat) (c : Vec3) (w : ℚ) (d : Int) (ch : Fin 8 → Child)
    (idx : Finset Nat) : find a (Child.node a c w d ch idx) = Child.node a c w d ch idx := by
  rw [find, if_pos rfl]

theorem isEmpty_node (t : Child) (hs : t.isSome = true) (he : isEmpty t = true) (b : Nat)
    (hb : hasAddr b t = true) :
    find b t = t ∧ t.indices = ∅ ∧ hasChildren t.children = false := by
  cases t with
  | none => simp [Child.isSome] at hs
  | node a c w d ch idx =>
    simp only [isEmpty, Bool.and_eq_true, decide_eq_true_eq, Bool.not_eq_true'] at he
    have hnone := hasChildren_false ch he.2
    rw [hasAddr_node] at hb
    rcases hb with rfl | ⟨k, hk⟩
    · exact ⟨find_self _ _ _ _ _ _, he.1, he.2⟩
    · rw [hnone k] at hk; simp [hasAddr] at hk

theorem shrinkRootNode_cases (a : Nat) (c : Vec3) (w : ℚ) (d : Int) (ch : Fin 8 → Child)
    (idx : Finset Nat) :
    (shrinkRootNode (Child.node a c w d ch idx) = Child.node a c w d ch idx ∧
      ¬ (idx = ∅ ∧ ((List.finRange 8).filter
        (fun i => (ch i).isSome && !isEmpty (ch i))).length = 1)) ∨
    (∃ k, shrinkRootNode (Child.node a c w d ch idx) = shrinkRootNode (ch k) ∧ idx = ∅ ∧
      (List.finRange 8).filter (fun i => (ch i).isSome && !isEmpty (ch i)) = [k] ∧
      (ch k).isSome = true ∧ isEmpty (ch k) = false) := by
  rw [shrinkRootNode]
  by_cases hc : (decide (idx = ∅) && hasChildren ch) = true
  · rw [if_pos hc]
    simp only [Bool.and_eq_true, decide_eq_true_eq] at hc
    split
    · rename_i k hk
      right
      have hmem : k ∈ (List.finRange 8).filter (fun i => (ch i).isSome && !isEmpty (ch i)) := by
        rw [hk]; simp
      rw [List.mem_filter] at hmem
      have h1 := hmem.2
      simp only [Bool.and_eq_true, Bool.not_eq_true'] at h1
      exact ⟨k, rfl, hc.1, hk, h1.1, h1.2⟩
    · rename_i hne
      left
      refine ⟨rfl, ?_⟩
      rintro ⟨_, hl⟩
      obtain ⟨k, hk⟩ := List.length_eq_one.mp hl
      exact hne k hk
  · rw [if_neg hc]
    left
    refine ⟨rfl, ?_⟩
    rintro ⟨h0, hl⟩
    obtain ⟨k, hk⟩ := List.length_eq_one.mp hl
    have hmem : k ∈ (List.finRange 8).filter (fun i => (ch i).isSome && !isEmpty (ch i)) := by
      rw [hk]; simp
    rw [List.mem_filter] at hmem
    have h1 := hmem.2
    simp only [Bool.and_eq_true, Bool.not_eq_true'] at h1
    apply hc
    simp only [Bool.and_eq_true, decide_eq_true_eq]
    exact ⟨h0, hasChildren_true ch k h1.1⟩

theorem shrinkRootNode_final : ∀ t a c w d ch idx,
    shrinkRootNode t = Child.node a c w d ch idx →
    ¬ (idx = ∅ ∧ ((List.finRange 8).filter
      (fun i => (ch i).isSome && !isEmpty (ch i))).length = 1) := by
  intro t
  induction t with
  | none => intro a c w d ch idx h; simp [shrinkRootNode] at h
  | node a0 c0 w0 d0 ch0 idx0 ih =>
    intro a c w d ch idx h
    rcases shrinkRootNode_cases a0 c0 w0 d0 ch0 idx0 with ⟨h1, h2⟩ | ⟨k, h1, _⟩
    · rw [h1] at h
      simp only [Child.node.injEq] at h
      obtain ⟨_, _, _, _, rfl, rfl⟩ := h
      exact h2
    · rw [h1] at h
      exact ih k a c w d ch idx h

theorem shrinkRootNode_levels : ∀ t, levels (shrinkRootNode t) ≤ levels t := by
  intro t
  induction t with
  | none => simp [shrinkRootNode]
  | node a c w d ch idx ih =>
    rcases shrinkRootNode_cases a c w d ch idx with ⟨h1, _⟩ | ⟨k, h1, _⟩
    · rw [h1]
    · rw [h1]
      exact le_trans (ih k) (le_of_lt (levels_child a c w d ch idx k))

theorem shrinkRootNode_discards : ∀ t, UniqAddr t → ∀ b, hasAddr b t = true →
    hasAddr b (shrinkRootNode t) = false →
    (find b t).indices = ∅ ∧
      (hasChildren (find b t).children = false ∨
        hasAddr (shrinkRootNode t).addr (find b t) = true) := by
  intro t
  induction t with
  | none => intro _ b hb; simp [hasAddr] at hb
  | node a c w d ch idx ih =>
    intro hu b hb hnb
    rcases shrinkRootNode_cases a c w d ch idx with ⟨h1, _⟩ | ⟨k, h1, h2, h3, h4, h5⟩
    · rw [h1, hb] at hnb; simp at hnb
    · have hsome := shrinkRootNode_isSome (ch k) h4
      have hin : hasAddr (shrinkRootNode (ch k)).addr (ch k) = true :=
        (shrinkRootNode_spec (ch k)).2.1 _ (hasAddr_self _ hsome)
      rw [h1] at hnb ⊢
      rw [hasAddr_node] at hb
      rcases hb with rfl | ⟨k', hk'⟩
      · rw [find_self]
        refine ⟨h2, Or.inr ?_⟩
        rw [hasAddr_node]
        exact Or.inr ⟨k, hin⟩
      · rw [find_child b a c w d ch idx k' hu hk']
        by_cases hkk : k' = k
        · subst hkk
          exact ih k' (hu.2.1 k') b hk' hnb
        · have hsk : (ch k').isSome = true := by
            cases hx : ch k' with
            | none => rw [hx] at hk'; simp [hasAddr] at hk'
            | node _ _ _ _ _ _ => rfl
          have hek : isEmpty (ch k') = true := by
            by_contra he
            have hmem : k' ∈ (List.finRange 8).filter
                (fun i => (ch i).isSome && !isEmpty (ch i)) := by
              rw [List.mem_filter]
              refine ⟨List.mem_finRange k', ?_⟩
              simp only [Bool.and_eq_true, Bool.not_eq_true']
              exact ⟨hsk, by simpa using he⟩
            rw [h3] at hmem
            simp at hmem
            exact hkk hmem
          obtain ⟨e1, e2, e3⟩ := isEmpty_node (ch k') hsk hek b hk'
          rw [e1]
          exact ⟨e2, Or.inl e3⟩

end Octree

namespace DynamicOctree

theorem nested_eq : addElement 2 trace0 0 ⟨1 / 4, 1 / 4, 1 / 4⟩ (1 / 5) = some nested := by
  have h1 : approxContains origin 1 ⟨1 / 4, 1 / 4, 1 / 4⟩ (1 / 5) = true := by
    simp [approxContains, origin, epsilon]; norm_num
  have h2 : approxContains ⟨1 / 4, 1 / 4, 1 / 4⟩ (1 / 2) ⟨1 / 4, 1 / 4, 1 / 4⟩ (1 / 5) = true := by
    simp [approxContains, epsilon]; norm_num
  have h3 : insertIntoChild 1 (1 / 5) = true := by
    simp [insertIntoChild, relativeMinElementExtent]; norm_num
  have h4 : insertIntoChild (1 / 2) (1 / 5) = false := by
    simp [insertIntoChild, relativeMinElementExtent]; norm_num
  have h5 : childIndex origin ⟨1 / 4, 1 / 4, 1 / 4⟩ = 7 := by
    simp [childIndex, origin]
  have h6 : childCenter origin (1 * (1 / 4)) 7 = ⟨1 / 4, 1 / 4, 1 / 4⟩ := by
    simp [childCenter, origin]
  have h7 : mkNode 1 ⟨1 / 4, 1 / 4, 1 / 4⟩ (1 * (1 / 2)) (0 + 1) =
      some (Child.node 1 ⟨1 / 4, 1 / 4, 1 / 4⟩ (1 / 2) 1 (fun _ => Child.none) ∅) := by
    simp [mkNode]
  simp only [addElement, trace0, unitRoot, h1, if_true, nodeAddElement, h3, h5, childOrMake,
    Child.isSome, Bool.false_eq_true, if_false, h6, h7, Option.map_some', h2, h4]
  simp [addToElementNodeMap, Util.resize, nested]

theorem nested_reachable (P : DynamicOctree → List Nat → Prop) : ReachableWith P nested :=
  ReachableWith.step trace0 nested (trace0_reachable P) (Step.addElement _ _ _ _ _ _ nested_eq)

theorem nested_shrink : shrinkRoot nested = nestedShrunk := by
  have hf : (List.finRange 8).filter (fun i =>
      ((Function.update (fun _ => Child.none) 7
        (Child.node 1 ⟨1 / 4, 1 / 4, 1 / 4⟩ (1 / 2) 1 (fun _ => Child.none) {0}) :
          Fin 8 → Child) i).isSome &&
      !isEmpty ((Function.update (fun _ => Child.none) 7
        (Child.node 1 ⟨1 / 4, 1 / 4, 1 / 4⟩ (1 / 2) 1 (fun _ => Child.none) {0}) :
          Fin 8 → Child) i)) = [7] := by
    decide
  unfold shrinkRoot nested nestedShrunk
  simp only [DynamicOctree.mk.injEq, and_true]
  rw [shrinkRootNode]
  have hc : hasChildren (Function.update (fun _ => Child.none) 7
      (Child.node 1 ⟨1 / 4, 1 / 4, 1 / 4⟩ (1 / 2) 1 (fun _ => Child.none) {0})) = true :=
    hasChildren_true _ 7 (by simp [Child.isSome])
  simp only [hc, decide_True, Bool.and_self, if_true, hf]
  simp [shrinkRootNode, hasChildren, Child.isSome]

end DynamicOctree

namespace DynamicOctree

/-- C13, as amended. On a reachable octree `shrinkRoot` leaves every registered
id in the node it was in and `elementNodeMap` as it is; every node it discards
holds no index, and has no children unless the new root is below it (it is one
of the roots that were replaced); the number of levels of the tree does not go
up; and on return it is not the case that the root holds no index while having
exactly one non-empty child. -/
theorem shrinkRoot_effect (o : DynamicOctree) (hreach : Reachable o) :
    (shrinkRoot o).elementNodeMap = o.elementNodeMap ∧
    (∀ id a, o.nodeOf id = some a →
      (shrinkRoot o).nodeOf id = some a ∧ holdsAt id a (shrinkRoot o).root = true) ∧
    (∀ b, hasAddr b o.root = true → hasAddr b (shrinkRoot o).root = false →
      (find b o.root).indices = ∅ ∧
        (hasChildren (find b o.root).children = false ∨
          hasAddr (shrinkRoot o).root.addr (find b o.root) = true)) ∧
    levels (shrinkRoot o).root ≤ levels o.root ∧
    (∀ a c w d ch idx, (shrinkRoot o).root = Child.node a c w d ch idx →
      ¬ (idx = ∅ ∧ ((List.finRange 8).filter
        (fun i => (ch i).isSome && !isEmpty (ch i))).length = 1)) := by
  have hr := reachable_registration o hreach
  obtain ⟨r1, r2⟩ := shrinkRoot_registration o hr
  refine ⟨r2, ?_, ?_, shrinkRootNode_levels o.root, ?_⟩
  · intro id a hid
    have h1 : (shrinkRoot o).nodeOf id = some a := by
      unfold nodeOf; rw [r2]; exact hid
    exact ⟨h1, (r1.2.2 id a).mpr h1⟩
  · intro b hb hnb
    exact shrinkRootNode_discards o.root hr.1 b hb hnb
  · intro a c w d ch idx h
    exact shrinkRootNode_final o.root a c w d ch idx h

/-- C13 as amended, at the octree `nested`, whose root holds no index and has one
child, which holds the id 0. -/
theorem shrinkRoot_effect_witness :
    Reachable nested ∧
    (shrinkRoot nested).elementNodeMap = nested.elementNodeMap ∧
    (∀ id a, nested.nodeOf id = some a →
      (shrinkRoot nested).nodeOf id = some a ∧ holdsAt id a (shrinkRoot nested).root = true) ∧
    (∀ b, hasAddr b nested.root = true → hasAddr b (shrinkRoot nested).root = false →
      (find b nested.root).indices = ∅ ∧
        (hasChildren (find b nested.root).children = false ∨
          hasAddr (shrinkRoot nested).root.addr (find b nested.root) = true)) ∧
    levels (shrinkRoot nested).root ≤ levels nested.root ∧
    (∀ a c w d ch idx, (shrinkRoot nested).root = Child.node a c w d ch idx →
      ¬ (idx = ∅ ∧ ((List.finRange 8).filter
        (fun i => (ch i).isSome && !isEmpty (ch i))).length = 1)) :=
  ⟨nested_reachable _, shrinkRoot_effect nested (nested_reachable _)⟩

/-- C13 as stated fails: `shrinkRoot` on the octree `nested` makes the child the
root and discards the old root, the node at address 0, which has a child. -/
theorem shrinkRoot_counterexample :
    Reachable nested ∧ shrinkRoot nested = nestedShrunk ∧
    hasAddr 0 nested.root = true ∧ hasAddr 0 (shrinkRoot nested).root = false ∧
    hasChildren (find 0 nested.root).children = true := by
  refine ⟨nested_reachable _, nested_shrink, ?_, ?_, ?_⟩
  · simp [nested, hasAddr]
  · rw [nested_shrink]; simp [nestedShrunk, hasAddr]
  · simp only [nested, find_self, Child.children]
    exact hasChildren_true _ 7 (by simp [Child.isSome])

end DynamicOctree

namespace Octree

theorem holdsAny_node (a : Nat) (c : Vec3) (w : ℚ) (d : Int) (ch : Fin 8 → Child)
    (idx : Finset Nat) :
    holdsAny (Child.node a c w d ch idx) = true ↔ (idx ≠ ∅ ∨ ∃ k, holdsAny (ch k) = true) := by
  simp [holdsAny, List.any_eq_true]

theorem holdsAny_iff : ∀ t, holdsAny t = true ↔ ∃ id b, holdsAt id b t = true := by
  intro t
  induction t with
  | none => simp [holdsAny, holdsAt]
  | node a c w d ch idx ih =>
    rw [holdsAny_node]
    constructor
    · rintro (h | ⟨k, hk⟩)
      · obtain ⟨id, hid⟩ := Finset.nonempty_iff_ne_empty.mpr h
        exact ⟨id, a, by rw [holdsAt_node]; exact Or.inl ⟨rfl, hid⟩⟩
      · obtain ⟨id, b, hb⟩ := (ih k).mp hk
        exact ⟨id, b, by rw [holdsAt_node]; exact Or.inr ⟨k, hb⟩⟩
    · rintro ⟨id, b, hb⟩
      rw [holdsAt_node] at hb
      rcases hb with ⟨_, h⟩ | ⟨k, hk⟩
      · exact Or.inl (Finset.nonempty_iff_ne_empty.mp ⟨id, h⟩)
      · exact Or.inr ⟨k, (ih k).mpr ⟨id, b, hk⟩⟩

theorem nodeDeleteEmptyChildren_flag (t : Child) :
    (nodeDeleteEmptyChildren t).2 = !holdsAny t := by
  induction t with
  | none => simp [nodeDeleteEmptyChildren, holdsAny]
  | node a c w d ch idx ih =>
    have hk : ∀ k, (nodeDeleteEmptyChildren (ch k)).2 = !holdsAny (ch k) := fun k => ih k
    rw [Bool.eq_iff_iff]
    simp only [nodeDeleteEmptyChildren, Bool.and_eq_true, decide_eq_true_eq, Bool.not_eq_true']
    rw [← Bool.not_eq_true, holdsAny_node]
    constructor
    · rintro ⟨h2, h3⟩
      rintro (h4 | ⟨k, h4⟩)
      · exact h4 h3
      · have hs : (ch k).isSome = true := by
          cases hx : ch k with
          | none => rw [hx] at h4; simp [holdsAny] at h4
          | node _ _ _ _ _ _ => rfl
        have := h2 k hs
        rw [hk k, h4] at this
        simp at this
    · intro h2
      push_neg at h2
      refine ⟨fun k _ => ?_, h2.1⟩
      rw [hk k]
      have := h2.2 k
      simpa using this

theorem nodeDeleteEmptyChildren_root (a : Nat) (c : Vec3) (w : ℚ) (d : Int)
    (ch : Fin 8 → Child) (idx : Finset Nat) :
    (nodeDeleteEmptyChildren (Child.node a c w d ch idx)).1 =
      Child.node a c w d
        (fun i => if holdsAny (ch i) = true then (nodeDeleteEmptyChildren (ch i)).1
          else Child.none) idx := by
  simp only [nodeDeleteEmptyChildren]
  congr 1
  funext i
  by_cases hs : (ch i).isSome = true
  · rw [if_pos hs, nodeDeleteEmptyChildren_flag]
    cases holdsAny (ch i) <;> simp
  · rw [if_neg hs]
    have hn : ch i = Child.none := isSome_eq_false (by simpa using hs)
    rw [hn]
    simp [holdsAny]

theorem holdsAny_nodeDeleteEmptyChildren (t : Child) :
    holdsAny (nodeDeleteEmptyChildren t).1 = holdsAny t := by
  rw [Bool.eq_iff_iff, holdsAny_iff, holdsAny_iff]
  simp only [(nodeDeleteEmptyChildren_spec t).1]

theorem holdsAny_sub : ∀ t, UniqAddr t → holdsAny t = false → ∀ b, hasAddr b t = true →
    holdsAny (find b t) = false := by
  intro t
  induction t with
  | none => intro _ _ b hb; simp [hasAddr] at hb
  | node a c w d ch idx ih =>
    intro hu hf b hb
    have hf' := hf
    rw [← Bool.not_eq_true, holdsAny_node] at hf'
    push_neg at hf'
    rw [hasAddr_node] at hb
    rcases hb with rfl | ⟨k, hk⟩
    · rw [find_self]; exact hf
    · rw [find_child b a c w d ch idx k hu hk]
      exact ih k (hu.2.1 k) (by simpa using hf'.2 k) b hk

theorem nodeDeleteEmptyChildren_kept : ∀ t, UniqAddr t → holdsAny t = true →
    ∀ b, hasAddr b (nodeDeleteEmptyChildren t).1 = true →
      holdsAny (find b (nodeDeleteEmptyChildren t).1) = true := by
  intro t
  induction t with
  | none => intro _ h; simp [holdsAny] at h
  | node a c w d ch idx ih =>
    intro hu hf b hb
    have hu1 := (nodeDeleteEmptyChildren_spec (Child.node a c w d ch idx)).2.2.2 hu
    have hroot := holdsAny_nodeDeleteEmptyChildren (Child.node a c w d ch idx)
    rw [nodeDeleteEmptyChildren_root] at hb hu1 hroot ⊢
    rw [hasAddr_node] at hb
    rcases hb with rfl | ⟨k, hk⟩
    · rw [find_self, hroot]; exact hf
    · rw [find_child b a c w d _ idx k hu1 hk]
      by_cases hh : holdsAny (ch k) = true
      · simp only [hh, if_true] at hk ⊢
        exact ih k (hu.2.1 k) hh b hk
      · simp [hh, hasAddr] at hk

theorem nodeDeleteEmptyChildren_removed : ∀ t, UniqAddr t → ∀ b, hasAddr b t = true →
    hasAddr b (nodeDeleteEmptyChildren t).1 = false → holdsAny (find b t) = false := by
  intro t
  induction t with
  | none => intro _ b hb; simp [hasAddr] at hb
  | node a c w d ch idx ih =>
    intro hu b hb hnb
    rw [nodeDeleteEmptyChildren_root] at hnb
    have hnb' : ¬ (hasAddr b (Child.node a c w d
        (fun i => if holdsAny (ch i) = true then (nodeDeleteEmptyChildren (ch i)).1
          else Child.none) idx) = true) := by rw [hnb]; simp
    rw [hasAddr_node] at hb hnb'
    push_neg at hnb'
    rcases hb with rfl | ⟨k, hk⟩
    · exact absurd rfl hnb'.1
    · rw [find_child b a c w d ch idx k hu hk]
      by_cases hh : holdsAny (ch k) = true
      · have := hnb'.2 k
        simp only [hh, if_true] at this
        exact ih k (hu.2.1 k) b hk (by simpa using this)
      · exact holdsAny_sub (ch k) (hu.2.1 k) (by simpa using hh) b hk

end Octree

namespace DynamicOctree

theorem deleteEmptyChildren_root (o : DynamicOctree) :
    (deleteEmptyChildren o).root =
      if holdsAny o.root = true then (nodeDeleteEmptyChildren o.root).1 else Child.none := by
  unfold deleteEmptyChildren
  by_cases hroot : o.hasRoot = true
  · rw [if_pos hroot, nodeDeleteEmptyChildren_flag]
    cases holdsAny o.root <;> simp
  · rw [if_neg hroot]
    have hn : o.root = Child.none := isSome_eq_false (by simpa [hasRoot] using hroot)
    rw [hn]
    simp [holdsAny]

/-- C14. After `deleteEmptyChildren` on a reachable octree, every node still in
the tree holds an index or has a descendant that does, every node that was
removed had no index in its subtree, every registered id is still in the same
node, and the root is discarded exactly when no id is registered. -/
theorem deleteEmptyChildren_effect (o : DynamicOctree) (hreach : Reachable o) :
    (∀ b, hasAddr b (deleteEmptyChildren o).root = true →
      holdsAny (find b (deleteEmptyChildren o).root) = true) ∧
    (∀ b, hasAddr b o.root = true → hasAddr b (deleteEmptyChildren o).root = false →
      holdsAny (find b o.root) = false) ∧
    (∀ id a, o.nodeOf id = some a →
      (deleteEmptyChildren o).nodeOf id = some a ∧
        holdsAt id a (deleteEmptyChildren o).root = true) ∧
    ((deleteEmptyChildren o).hasRoot = false ↔ ∀ id, o.nodeOf id = none) := by
  have hr := reachable_registration o hreach
  obtain ⟨r1, r2⟩ := deleteEmptyChildren_registration o hr
  have hroot := deleteEmptyChildren_root o
  refine ⟨?_, ?_, ?_, ?_⟩
  · intro b hb
    rw [hroot] at hb ⊢
    by_cases hh : holdsAny o.root = true
    · rw [if_pos hh] at hb ⊢
      exact nodeDeleteEmptyChildren_kept o.root hr.1 hh b hb
    · rw [if_neg hh] at hb; simp [hasAddr] at hb
  · intro b hb hnb
    rw [hroot] at hnb
    by_cases hh : holdsAny o.root = true
    · rw [if_pos hh] at hnb
      exact nodeDeleteEmptyChildren_removed o.root hr.1 b hb hnb
    · exact holdsAny_sub o.root hr.1 (by simpa using hh) b hb
  · intro id a hid
    have h1 : (deleteEmptyChildren o).nodeOf id = some a := by
      unfold nodeOf; rw [r2]; exact hid
    exact ⟨h1, (r1.2.2 id a).mpr h1⟩
  · rw [hasRoot, hroot]
    by_cases hh : holdsAny o.root = true
    · rw [if_pos hh]
      have hs : (nodeDeleteEmptyChildren o.root).1.isSome = true := by
        cases hx : o.root with
        | none => rw [hx] at hh; simp [holdsAny] at hh
        | node a c w d ch idx => rw [nodeDeleteEmptyChildren_root]; rfl
      rw [hs]
      simp only [Bool.true_eq_false, false_iff]
      obtain ⟨id, b, hb⟩ := (holdsAny_iff o.root).mp hh
      intro hall
      have := (hr.2.2 id b).mp hb
      rw [hall id] at this
      simp at this
    · rw [if_neg hh]
      simp only [Child.isSome, true_iff]
      intro id
      cases hn : o.nodeOf id with
      | none => rfl
      | some a =>
        exfalso
        exact hh ((holdsAny_iff o.root).mpr ⟨id, a, (hr.2.2 id a).mpr hn⟩)

/-- C14, at the octree `nested`. -/
theorem deleteEmptyChildren_effect_witness :
    Reachable nested ∧
    (∀ b, hasAddr b (deleteEmptyChildren nested).root = true →
      holdsAny (find b (deleteEmptyChildren nested).root) = true) ∧
    (∀ b, hasAddr b nested.root = true → hasAddr b (deleteEmptyChildren nested).root = false →
      holdsAny (find b nested.root) = false) ∧
    (∀ id a, nested.nodeOf id = some a →
      (deleteEmptyChildren nested).nodeOf id = some a ∧
        holdsAt id a (deleteEmptyChildren nested).root = true) ∧
    ((deleteEmptyChildren nested).hasRoot = false ↔ ∀ id, nested.nodeOf id = none) :=
  ⟨nested_reachable _, deleteEmptyChildren_effect nested (nested_reachable _)⟩

end DynamicOctree

namespace DynamicMesh

theorem tri0_eq : deleteFace tri 0 = some tri0 := by
  have h : ({0} : Finset ℕ).erase 0 = ∅ := by decide
  simp [deleteFace, tri, triMesh, deleteAdjacent, Mesh.index, VertexData.deleteAdjacentFace,
    DynamicOctree.deleteElement, find, Child.indices, eraseAt, DynamicOctree.hasRoot,
    Child.isSome, isEmpty, hasChildren, tri0, h]

theorem tri0_addFace (fuel : Nat) : addFace fuel tri0 0 1 2 = none := by
  have h : ∀ s : DynamicMesh, s.octree.root = Child.none → addFaceToOctree fuel s 0 = none := by
    intro s hs
    unfold addFaceToOctree
    split
    · cases fuel with
      | zero => simp [DynamicOctree.addElement]
      | succ n => simp [DynamicOctree.addElement, hs]
    · rfl
  simp [addFace, tri0, tri, triMesh, Mesh.numVertices, Mesh.numIndices, addFaceSlot,
    Mesh.setIndex, addAdjacent, VertexData.addAdjacentFace, h]

end DynamicMesh

namespace DynamicMesh

theorem addVertex_cases (s : DynamicMesh) (hinv : MeshInv s) (vertex normal : Vec3) :
    (s.freeVertexIndices = [] ∧
      addVertex s vertex normal = some ({ s with
        vertexData := s.vertexData ++ [⟨false, []⟩]
        vertexVisited := s.vertexVisited ++ [0]
        mesh := ⟨s.mesh.vertices ++ [vertex], s.mesh.normals ++ [normal], s.mesh.indices⟩ },
        s.vertexData.length)) ∨
    (∃ index, s.freeVertexIndices.getLast? = some index ∧ index < s.vertexData.length ∧
      addVertex s vertex normal = some ({ s with
        mesh := ⟨s.mesh.vertices.set index vertex, s.mesh.normals.set index normal,
          s.mesh.indices⟩
        vertexData := s.vertexData.set index ⟨false, []⟩
        vertexVisited := s.vertexVisited.set index 0
        freeVertexIndices := s.freeVertexIndices.dropLast }, index)) := by
  obtain ⟨⟨z1, z2, z3, _, _⟩, ⟨_, f2, _, _⟩, _, _⟩ := hinv
  unfold addVertex
  rw [if_pos ⟨z1.symm, by rw [z3]; exact z1.symm⟩]
  cases hl : s.freeVertexIndices.getLast? with
  | none =>
    left
    have hnil : s.freeVertexIndices = [] := by
      cases hfl : s.freeVertexIndices with
      | nil => rfl
      | cons a l => rw [hfl] at hl; simp [List.getLast?_cons] at hl
    refine ⟨hnil, ?_⟩
    simp only [Mesh.addVertex, z1]
  | some index =>
    right
    have hmem : index ∈ s.freeVertexIndices := List.mem_of_getLast?_eq_some hl
    have hlt : index < s.vertexData.length := ((f2 index).mp hmem).1
    refine ⟨index, rfl, hlt, ?_⟩
    have h1 : index < s.mesh.vertices.length := by omega
    have h2 : index < s.mesh.normals.length := by omega
    have h3 : index < s.vertexVisited.length := by omega
    simp only [Mesh.setVertex, h1, if_true, Mesh.setNormal, h2, hlt, h3, and_self]

/-- C16. On a reachable mesh `addVertex` returns. When the free list is not
empty it returns the id at its back (the slot freed most recently), takes it
from the list, and the slot count stays; otherwise it returns the former slot
count and there is one slot more. The slot returned is live, has an empty
adjacency list and a cleared visited flag, and holds the position and the
normal given. The data of every other vertex slot, the faces and the octree are
unchanged, and `numVertices ()` grows by exactly 1. -/
theorem addVertex_effect (s : DynamicMesh) (h : Reachable s) (vertex normal : Vec3) :
    ∃ s1 i, addVertex s vertex normal = some (s1, i) ∧
      (∀ f, s.freeVertexIndices.getLast? = some f →
        i = f ∧ s1.vertexData.length = s.vertexData.length ∧
          s1.freeVertexIndices = s.freeVertexIndices.dropLast) ∧
      (s.freeVertexIndices = [] →
        i = s.vertexData.length ∧ s1.vertexData.length = s.vertexData.length + 1 ∧
          s1.freeVertexIndices = []) ∧
      s1.vertexData[i]? = some ⟨false, []⟩ ∧ s1.vertexVisited[i]? = some 0 ∧
      s1.mesh.vertex i = some vertex ∧ s1.mesh.normal i = some normal ∧
      (∀ v, v ≠ i → s1.vertexData[v]? = s.vertexData[v]? ∧
        s1.vertexVisited[v]? = s.vertexVisited[v]? ∧ s1.mesh.vertex v = s.mesh.vertex v ∧
        s1.mesh.normal v = s.mesh.normal v) ∧
      s1.faceData = s.faceData ∧ s1.faceVisited = s.faceVisited ∧
      s1.freeFaceIndices = s.freeFaceIndices ∧ s1.mesh.indices = s.mesh.indices ∧
      s1.octree = s.octree ∧
      ∃ n, s.numVertices = some n ∧ s1.numVertices = some (n + 1) := by
  have hinv := reachable_inv s h
  obtain ⟨z1, z2, z3, _, _⟩ := hinv.1
  rcases addVertex_cases s hinv vertex normal with ⟨hnil, heq⟩ | ⟨index, hl, hlt, heq⟩
  · have hinv1 := addVertex_inv s _ vertex normal _ heq hinv
    obtain ⟨n1, n2⟩ := numVertices_eq s hinv
    obtain ⟨m1, m2⟩ := numVertices_eq _ hinv1
    refine ⟨_, _, heq, ?_, fun _ => ⟨rfl, by simp, hnil⟩, ?_, ?_, ?_, ?_, ?_, rfl, rfl, rfl, rfl,
      rfl, ⟨_, n1, ?_⟩⟩
    · intro f hf; rw [hnil] at hf; simp at hf
    · simp
    · show (s.vertexVisited ++ [0])[s.vertexData.length]? = some 0
      rw [← z3]; simp
    · show (s.mesh.vertices ++ [vertex])[s.vertexData.length]? = some vertex
      rw [← z1]; simp
    · show (s.mesh.normals ++ [normal])[s.vertexData.length]? = some normal
      rw [← z2]; simp
    · intro v hv
      simp only [Mesh.vertex, Mesh.normal]
      rw [getElem?_append_singleton, getElem?_append_singleton, getElem?_append_singleton,
        getElem?_append_singleton, if_neg hv, if_neg (by omega), if_neg (by omega),
        if_neg (by omega)]
      exact ⟨rfl, rfl, rfl, rfl⟩
    · rw [m1]
      congr 1
      dsimp only at m2 ⊢
      simp only [hnil, List.length_nil, List.length_append, List.length_singleton] at n2 m2
      omega
  · have hinv1 := addVertex_inv s _ vertex normal _ heq hinv
    obtain ⟨n1, n2⟩ := numVertices_eq s hinv
    obtain ⟨m1, m2⟩ := numVertices_eq _ hinv1
    have hne : s.freeVertexIndices ≠ [] := by
      intro hc; rw [hc] at hl; simp at hl
    have hpos : 0 < s.freeVertexIndices.length := List.length_pos.mpr hne
    refine ⟨_, _, heq, ?_, ?_, ?_, ?_, ?_, ?_, ?_, rfl, rfl, rfl, rfl, rfl, ⟨_, n1, ?_⟩⟩
    · intro f hf
      rw [hl] at hf
      exact ⟨Option.some.inj hf, by simp, rfl⟩
    · intro hnil; exact absurd hnil hne
    · simp only; rw [List.getElem?_set_self hlt]
    · simp only; rw [List.getElem?_set_self (by omega)]
    · simp only [Mesh.vertex]; rw [List.getElem?_set_self (by omega)]
    · simp only [Mesh.normal]; rw [List.getElem?_set_self (by omega)]
    · intro v hv
      simp only [Mesh.vertex, Mesh.normal]
      rw [List.getElem?_set_ne (Ne.symm hv), List.getElem?_set_ne (Ne.symm hv),
        List.getElem?_set_ne (Ne.symm hv), List.getElem?_set_ne (Ne.symm hv)]
      exact ⟨rfl, rfl, rfl, rfl⟩
    · rw [m1]
      congr 1
      dsimp only at m2 ⊢
      simp only [List.length_dropLast, List.length_set] at n2 m2
      omega

/-- C16, at the fragmented mesh `frag`, whose free list holds the slot 3. -/
theorem addVertex_effect_witness :
    Reachable frag ∧
    ∃ s1 i, addVertex frag ⟨1, 1, 1⟩ ⟨0, 0, 1⟩ = some (s1, i) ∧
      (∀ f, frag.freeVertexIndices.getLast? = some f →
        i = f ∧ s1.vertexData.length = frag.vertexData.length ∧
          s1.freeVertexIndices = frag.freeVertexIndices.dropLast) ∧
      (frag.freeVertexIndices = [] →
        i = frag.vertexData.length ∧ s1.vertexData.length = frag.vertexData.length + 1 ∧
          s1.freeVertexIndices = []) ∧
      s1.vertexData[i]? = some ⟨false, []⟩ ∧ s1.vertexVisited[i]? = some 0 ∧
      s1.mesh.vertex i = some ⟨1, 1, 1⟩ ∧ s1.mesh.normal i = some ⟨0, 0, 1⟩ ∧
      (∀ v, v ≠ i → s1.vertexData[v]? = frag.vertexData[v]? ∧
        s1.vertexVisited[v]? = frag.vertexVisited[v]? ∧
        s1.mesh.vertex v = frag.mesh.vertex v ∧ s1.mesh.normal v = frag.mesh.normal v) ∧
      s1.faceData = frag.faceData ∧ s1.faceVisited = frag.faceVisited ∧
      s1.freeFaceIndices = frag.freeFaceIndices ∧ s1.mesh.indices = frag.mesh.indices ∧
      s1.octree = frag.octree ∧
      ∃ n, frag.numVertices = some n ∧ s1.numVertices = some (n + 1) :=
  ⟨frag_reachable True, addVertex_effect frag (frag_reachable True) ⟨1, 1, 1⟩ ⟨0, 0, 1⟩⟩

end DynamicMesh

namespace DynamicMesh

open VertexData

theorem deleteAdjacent_exact (m : Mesh) (vd vd1 : List VertexData) (k i : Nat)
    (h : deleteAdjacent m vd k i = some vd1) :
    ∃ v, m.indices[k]? = some v ∧ i ∈ adjacentIn vd v ∧
      ∀ u, adjacentIn vd1 u =
        if u = v then (adjacentIn vd u).erase i else adjacentIn vd u := by
  unfold deleteAdjacent Mesh.index at h
  split at h
  · simp at h
  · rename_i v hv
    split at h
    · simp at h
    · rename_i d hd
      have hlt : v < vd.length := Util.getElem?_lt_of_some hd
      unfold VertexData.deleteAdjacentFace at h
      split at h
      · rename_i hmem
        simp only [Option.map_some', Option.some.injEq] at h
        subst h
        refine ⟨v, hv, by unfold adjacentIn; rw [hd]; exact hmem, ?_⟩
        intro u
        rw [adjacentIn_set _ _ _ hlt]
        by_cases hu : u = v
        · subst hu
          rw [if_pos rfl, if_pos rfl]
          unfold adjacentIn; rw [hd]
        · rw [if_neg hu, if_neg hu]
      · simp at h

theorem deleteAdjacent_total (m : Mesh) (vd : List VertexData) (k i v : Nat)
    (hk : m.indices[k]? = some v) (hi : i ∈ adjacentIn vd v) :
    ∃ vd1, deleteAdjacent m vd k i = some vd1 := by
  unfold deleteAdjacent Mesh.index
  rw [hk]
  simp only
  unfold adjacentIn at hi
  cases hd : vd[v]? with
  | none => rw [hd] at hi; simp at hi
  | some d =>
    rw [hd] at hi
    simp only [VertexData.deleteAdjacentFace, hi, if_true, Option.map_some']
    exact ⟨_, rfl⟩

theorem triple_indices (s : DynamicMesh) (hs : Sizes s) (f : Nat) (hf : f < s.faceData.length) :
    s.mesh.indices[3 * f + 0]? = some (s.mesh.indices.getD (3 * f) 0) ∧
      s.mesh.indices[3 * f + 1]? = some (s.mesh.indices.getD (3 * f + 1) 0) ∧
      s.mesh.indices[3 * f + 2]? = some (s.mesh.indices.getD (3 * f + 2) 0) := by
  have h0 : 3 * f < s.mesh.indices.length := by rw [hs.2.2.2.1]; omega
  have h1 : 3 * f + 1 < s.mesh.indices.length := by rw [hs.2.2.2.1]; omega
  have h2 : 3 * f + 2 < s.mesh.indices.length := by rw [hs.2.2.2.1]; omega
  rw [Nat.add_zero, getD_zero_of_getElem? (List.getElem?_eq_getElem h0),
    getD_zero_of_getElem? (List.getElem?_eq_getElem h1),
    getD_zero_of_getElem? (List.getElem?_eq_getElem h2)]
  exact ⟨List.getElem?_eq_getElem h0, List.getElem?_eq_getElem h1, List.getElem?_eq_getElem h2⟩

theorem deleteFace_exact (s s1 : DynamicMesh) (f a b c : Nat) (hs : Sizes s)
    (h : deleteFace s f = some s1) (ht : s.triple f = [a, b, c]) (u : Nat) :
    s1.adjacent u =
      (fun l => if u = c then l.erase f else l)
        ((fun l => if u = b then l.erase f else l)
          ((fun l => if u = a then l.erase f else l) (s.adjacent u))) := by
  obtain ⟨_, _, _, _, _, _, _, hlt, _⟩ := deleteFace_frame s s1 f h
  obtain ⟨t0, t1, t2⟩ := triple_indices s hs f hlt
  unfold triple at ht
  simp only [List.cons.injEq, and_true] at ht
  rw [ht.1] at t0
  rw [ht.2.1] at t1
  rw [ht.2.2] at t2
  unfold deleteFace at h
  split at h
  · split at h
    · simp at h
    · rename_i vd1 h1
      split at h
      · simp at h
      · rename_i vd2 h2
        split at h
        · simp at h
        · rename_i vd3 h3
          simp only [Option.map_eq_some'] at h
          obtain ⟨o, _, rfl⟩ := h
          obtain ⟨v1, p1, _, r1⟩ := deleteAdjacent_exact _ _ _ _ _ h1
          obtain ⟨v2, p2, _, r2⟩ := deleteAdjacent_exact _ _ _ _ _ h2
          obtain ⟨v3, p3, _, r3⟩ := deleteAdjacent_exact _ _ _ _ _ h3
          rw [t0] at p1
          rw [t1] at p2
          rw [t2] at p3
          have e1 := Option.some.inj p1
          have e2 := Option.some.inj p2
          have e3 := Option.some.inj p3
          subst e1
          subst e2
          subst e3
          show adjacentIn vd3 u = _
          rw [r3 u, r2 u, r1 u]
          rfl
  · simp at h

theorem deleteFace_total (s : DynamicMesh) (hinv : MeshInv s) (f : Nat)
    (hl : s.liveFace f = true) : ∃ s1, deleteFace s f = some s1 := by
  obtain ⟨hs, _, ⟨a1, a2⟩, ⟨c1, c2⟩⟩ := hinv
  have hlt := liveFace_lt s f hl
  obtain ⟨t0, t1, t2⟩ := triple_indices s hs f hlt
  have hcount : ∀ v, (s.adjacent v).count f = (s.triple f).count v := by
    intro v; rw [a2 v f, if_pos hl]
  have ht : s.triple f = [s.mesh.indices.getD (3 * f) 0, s.mesh.indices.getD (3 * f + 1) 0,
      s.mesh.indices.getD (3 * f + 2) 0] := rfl
  generalize s.mesh.indices.getD (3 * f) 0 = a at t0 ht
  generalize s.mesh.indices.getD (3 * f + 1) 0 = b at t1 ht
  generalize s.mesh.indices.getD (3 * f + 2) 0 = c at t2 ht
  rw [ht] at hcount
  simp only [count_three] at hcount
  obtain ⟨vd1, h1⟩ := deleteAdjacent_total s.mesh s.vertexData _ f a t0 (by
    apply List.count_pos_iff.mp
    have := hcount a
    unfold adjacent at this
    rw [this]; simp)
  obtain ⟨_, p1, _, r1⟩ := deleteAdjacent_exact _ _ _ _ _ h1
  rw [t0] at p1
  have e1 := Option.some.inj p1
  subst e1
  obtain ⟨vd2, h2⟩ := deleteAdjacent_total s.mesh vd1 _ f b t1 (by
    apply List.count_pos_iff.mp
    rw [r1 b]
    have := hcount b
    unfold adjacent at this
    rw [if_pos rfl] at this
    by_cases hba : b = a
    · rw [if_pos hba, List.count_erase_self]
      rw [if_pos hba] at this
      omega
    · rw [if_neg hba]
      omega)
  obtain ⟨_, p2, _, r2⟩ := deleteAdjacent_exact _ _ _ _ _ h2
  rw [t1] at p2
  have e2 := Option.some.inj p2
  subst e2
  obtain ⟨vd3, h3⟩ := deleteAdjacent_total s.mesh vd2 _ f c t2 (by
    apply List.count_pos_iff.mp
    rw [r2 c, r1 c]
    have := hcount c
    unfold adjacent at this
    rw [if_pos rfl] at this
    by_cases hcb : c = b
    · rw [if_pos hcb, List.count_erase_self]
      rw [if_pos hcb] at this
      by_cases hca : c = a
      · rw [if_pos hca, List.count_erase_self]
        rw [if_pos hca] at this
        omega
      · rw [if_neg hca]
        omega
    · rw [if_neg hcb]
      by_cases hca : c = a
      · rw [if_pos hca, List.count_erase_self]
        rw [if_pos hca] at this
        omega
      · rw [if_neg hca]
        omega)
  obtain ⟨n, hn⟩ := (nodeOf_live s ⟨c1, c2⟩ f).1.mp hl
  obtain ⟨ho, _⟩ := DynamicOctree.deleteElement_unfold s.octree f n c1 hn
  unfold deleteFace
  rw [if_pos ⟨hlt, by rw [hs.2.2.2.2]; exact hlt⟩, h1]
  simp only [h2, h3, ho, Option.map_some']
  exact ⟨_, rfl⟩

end DynamicMesh

namespace DynamicMesh

open VertexData

/-- C18. For every live face `f` of a reachable mesh, with triple `(a, b, c)`:
`deleteFace (f)` returns; the adjacency list of every vertex afterwards is the
one before with one occurrence of `f` erased for each of the corners `a`, `b`,
`c` that the vertex is (so the lists of all other vertices are unchanged); `f`
is flagged free and pushed onto the free-face list, and is not registered in
the octree any more; the flag and the octree registration of every other face,
the rendering mesh (the index triples of all faces, the positions and normals
of all vertices), the liveness of all vertices and the free-vertex list are
unchanged. -/
theorem deleteFace_effect (s : DynamicMesh) (h : Reachable s) (f a b c : Nat)
    (hf : s.vertexIndices f = some (a, b, c)) :
    ∃ s1, deleteFace s f = some s1 ∧
      (∀ u, s1.adjacent u =
        (fun l => if u = c then l.erase f else l)
          ((fun l => if u = b then l.erase f else l)
            ((fun l => if u = a then l.erase f else l) (s.adjacent u)))) ∧
      s1.isFreeFace f = some true ∧ s1.freeFaceIndices = s.freeFaceIndices ++ [f] ∧
      s1.octree.nodeOf f = none ∧
      (∀ g, g ≠ f → s1.isFreeFace g = s.isFreeFace g ∧
        s1.octree.nodeOf g = s.octree.nodeOf g) ∧
      s1.mesh = s.mesh ∧ (∀ u, s1.isFreeVertex u = s.isFreeVertex u) ∧
      s1.freeVertexIndices = s.freeVertexIndices := by
  have hinv := reachable_inv s h
  obtain ⟨hl, ht⟩ := (vertexIndices_iff s hinv.1 f a b c).mp hf
  obtain ⟨s1, hs1⟩ := deleteFace_total s hinv f hl
  obtain ⟨ho, e1, e2, _, e4, e5, _, e7, e8, _, _, _⟩ := deleteFace_frame s s1 f hs1
  obtain ⟨_, r2, _, r4, _⟩ := DynamicOctree.deleteElement_registration _ _ f ho hinv.2.2.2.1
  refine ⟨s1, hs1, deleteFace_exact s s1 f a b c hinv.1 hs1 ht, ?_, e8, r2, ?_, e1, ?_, e2⟩
  · unfold isFreeFace
    rw [e5, List.getElem?_set_self e7]; rfl
  · intro g hg
    refine ⟨?_, r4 g hg⟩
    unfold isFreeFace
    rw [e5, List.getElem?_set_ne (Ne.symm hg)]
  · intro u
    unfold deleteFace at hs1
    split at hs1
    · split at hs1
      · simp at hs1
      · rename_i vd1 h1
        split at hs1
        · simp at hs1
        · rename_i vd2 h2
          split at hs1
          · simp at hs1
          · rename_i vd3 h3
            simp only [Option.map_eq_some'] at hs1
            obtain ⟨o, _, rfl⟩ := hs1
            obtain ⟨v1, _, hv1, l1, q1, _⟩ := deleteAdjacent_spec _ _ _ _ _ h1
            obtain ⟨v2, _, hv2, l2, q2, _⟩ := deleteAdjacent_spec _ _ _ _ _ h2
            obtain ⟨v3, _, hv3, l3, q3, _⟩ := deleteAdjacent_spec _ _ _ _ _ h3
            have hlen : vd3.length = s.vertexData.length := by omega
            have hlive : liveIn vd3 u = liveIn s.vertexData u := by rw [q3, q2, q1]
            unfold isFreeVertex
            show (vd3[u]?).map (·.isFree) = _
            unfold liveIn at hlive
            by_cases hu : u < s.vertexData.length
            · rw [List.getElem?_eq_getElem hu, List.getElem?_eq_getElem (by omega)] at hlive ⊢
              simp only [Option.map_some', Option.some.injEq]
              simpa using hlive
            · rw [List.getElem?_eq_none (by omega), List.getElem?_eq_none (by omega)]
    · simp at hs1

/-- C18, at the mesh `tri` and its face 0. -/
theorem deleteFace_effect_witness :
    Reachable tri ∧ tri.vertexIndices 0 = some (0, 1, 2) ∧
    ∃ s1, deleteFace tri 0 = some s1 ∧
      (∀ u, s1.adjacent u =
        (fun l => if u = 2 then l.erase 0 else l)
          ((fun l => if u = 1 then l.erase 0 else l)
            ((fun l => if u = 0 then l.erase 0 else l) (tri.adjacent u)))) ∧
      s1.isFreeFace 0 = some true ∧ s1.freeFaceIndices = tri.freeFaceIndices ++ [0] ∧
      s1.octree.nodeOf 0 = none ∧
      (∀ g, g ≠ 0 → s1.isFreeFace g = tri.isFreeFace g ∧
        s1.octree.nodeOf g = tri.octree.nodeOf g) ∧
      s1.mesh = tri.mesh ∧ (∀ u, s1.isFreeVertex u = tri.isFreeVertex u) ∧
      s1.freeVertexIndices = tri.freeVertexIndices :=
  ⟨tri_reachable True, rfl, deleteFace_effect tri (tri_reachable True) 0 0 1 2 rfl⟩

end DynamicMesh

namespace DynamicMesh

open VertexData

theorem deleteFaces_total : ∀ (fs : List Nat) (s : DynamicMesh), MeshInv s → fs.Nodup →
    (∀ g ∈ fs, s.liveFace g = true) → ∃ s1, deleteFaces fs s = some s1 := by
  intro fs
  induction fs with
  | nil => intro s _ _ _; exact ⟨s, rfl⟩
  | cons f fs ih =>
    intro s hinv hn hl
    obtain ⟨s2, h2⟩ := deleteFace_total s hinv f (hl f (List.mem_cons_self f fs))
    have hinv2 := deleteFace_inv s s2 f h2 (hl f (List.mem_cons_self f fs)) hinv
    obtain ⟨_, _, _, _, _, _, _, _, _, _, e10, _⟩ := deleteFace_frame s s2 f h2
    have hn' := List.nodup_cons.mp hn
    obtain ⟨s1, h1⟩ := ih s2 hinv2 hn'.2 (by
      intro g hg
      rw [e10 g, if_neg (by rintro rfl; exact hn'.1 hg)]
      exact hl g (List.mem_cons_of_mem f hg))
    exact ⟨s1, by simp only [deleteFaces, h2, h1]⟩

theorem deleteFaces_free : ∀ (fs : List Nat) (s s1 : DynamicMesh),
    deleteFaces fs s = some s1 →
    s1.freeFaceIndices = s.freeFaceIndices ++ fs ∧ s1.faceData.length = s.faceData.length := by
  intro fs
  induction fs with
  | nil =>
    intro s s1 h
    simp only [deleteFaces, Option.some.injEq] at h
    subst h; simp
  | cons f fs ih =>
    intro s s1 h
    simp only [deleteFaces] at h
    split at h
    · simp at h
    · rename_i s2 h2
      obtain ⟨_, _, _, _, _, e5, _, _, e8, _⟩ := deleteFace_frame s s2 f h2
      obtain ⟨i1, i2⟩ := ih s2 s1 h
      rw [i1, i2, e8, e5]
      simp

theorem adjacent_nodup (s : DynamicMesh) (hinv : MeshInv s)
    (hd : ∀ f, s.liveFace f = true → (s.triple f).Nodup) (v : Nat) : (s.adjacent v).Nodup := by
  rw [List.nodup_iff_count_le_one]
  intro g
  rw [hinv.2.2.1.2 v g]
  by_cases hl : s.liveFace g = true
  · rw [if_pos hl]
    exact List.nodup_iff_count_le_one.mp (hd g hl) v
  · rw [if_neg hl]; omega

/-- C17. For every live vertex `v` of a reachable mesh whose live faces each have
three distinct vertices: `deleteVertex (v)` returns; afterwards the live faces
are the faces that were live and not adjacent to `v`; no adjacency list holds a
face that was adjacent to `v`, and every other face occurs in every list as
often as before; `v` is flagged free and has an empty adjacency list;
`numFaces ()` has dropped by the former `valence (v)` and `numVertices ()` by
1. -/
theorem deleteVertex_effect (s : DynamicMesh) (h : Reachable s)
    (hd : ∀ f, s.liveFace f = true → (s.triple f).Nodup) (v : Nat)
    (hv : s.isFreeVertex v = some false) :
    ∃ s1, deleteVertex s v = some s1 ∧
      (∀ g, s1.isFreeFace g = some false ↔ (s.isFreeFace g = some false ∧ g ∉ s.adjacent v)) ∧
      (∀ u g, (s1.adjacent u).count g =
        if g ∈ s.adjacent v then 0 else (s.adjacent u).count g) ∧
      s1.isFreeVertex v = some true ∧ s1.adjacent v = [] ∧
      (∀ u, u ≠ v → s1.isFreeVertex u = s.isFreeVertex u) ∧
      (∃ n k, s.numFaces = some n ∧ s.valence v = some k ∧ k ≤ n ∧
        s1.numFaces = some (n - k)) ∧
      (∃ m, s.numVertices = some m ∧ 1 ≤ m ∧ s1.numVertices = some (m - 1)) := by
  have hinv := reachable_inv s h
  have hlv := (isFreeVertex_false_iff s v).mp hv
  have hlt := liveVertex_lt s v hlv
  have hnd := adjacent_nodup s hinv hd v
  obtain ⟨s2, h2⟩ := deleteFaces_total (s.adjacent v) s hinv hnd
    (fun g hg => (adjacent_live s hinv.2.2.1 v g hg).1)
  obtain ⟨i1, i2, i3, i4, i5, i6, i7⟩ := deleteFaces_inv _ s s2 h2 hinv
  obtain ⟨j1, j2⟩ := deleteFaces_free _ s s2 h2
  have hadj := deleteVertex_adjacent s s2 v h2 hinv
  have hlt2 : v < s2.vertexData.length := by omega
  have hs1 : deleteVertex s v = some { s2 with
      vertexData := s2.vertexData.set v ⟨true, []⟩
      vertexVisited := s2.vertexVisited.set v 0
      freeVertexIndices := s2.freeVertexIndices ++ [v] } := by
    unfold deleteVertex
    have hz := hinv.1.2.2.1
    rw [if_pos ⟨hlt, by omega⟩, List.getElem?_eq_getElem hlt]
    simp only
    have had : s.vertexData[v].adjacentFaces = s.adjacent v := by
      unfold adjacent adjacentIn
      rw [List.getElem?_eq_getElem hlt]
    rw [had, h2]
    simp only
    rw [if_pos ⟨hlt2, by rw [i4]; omega⟩]
  have hinv1 := deleteVertex_inv s _ v hs1 hlv hinv
  refine ⟨_, hs1, ?_, ?_, ?_, ?_, ?_, ?_, ?_⟩
  · intro g
    rw [isFreeFace_false_iff, isFreeFace_false_iff]
    show s2.liveFace g = true ↔ _
    rw [i7 g]
    simp
  · intro u g
    show (adjacentIn _ u).count g = _
    rw [adjacentIn_set _ _ _ hlt2]
    have hs2 := i1.2.2.1.2 u g
    by_cases hu : u = v
    · subst hu
      rw [if_pos rfl]
      simp only [List.count_nil]
      by_cases hg : g ∈ s.adjacent u
      · rw [if_pos hg]
      · rw [if_neg hg, List.count_eq_zero_of_not_mem hg]
    · rw [if_neg hu]
      show (s2.adjacent u).count g = _
      rw [hs2, i7 g, triple_congr s s2 (by rw [i2]) g]
      by_cases hg : g ∈ s.adjacent v
      · simp [hg]
      · simp only [hg, not_false_eq_true, decide_True, Bool.and_true, if_false]
        rw [hinv.2.2.1.2 u g]
  · unfold isFreeVertex
    simp only
    rw [List.getElem?_set_self hlt2]; rfl
  · show adjacentIn _ v = []
    rw [adjacentIn_set _ _ _ hlt2, if_pos rfl]
  · intro u hu
    unfold isFreeVertex
    simp only
    rw [List.getElem?_set_ne (Ne.symm hu)]
    have := i6 u
    unfold liveVertex liveIn at this
    by_cases hul : u < s.vertexData.length
    · rw [List.getElem?_eq_getElem hul, List.getElem?_eq_getElem (by omega)] at this ⊢
      simp only [Option.map_some', Option.some.injEq]
      simpa using this
    · rw [List.getElem?_eq_none (by omega), List.getElem?_eq_none (by omega)]
  · obtain ⟨n1, n2⟩ := numFaces_eq s hinv
    obtain ⟨m1, m2⟩ := numFaces_eq _ hinv1
    dsimp only at m2
    refine ⟨_, (s.adjacent v).length, n1, ?_, ?_, ?_⟩
    · unfold valence
      rw [List.getElem?_eq_getElem hlt]
      have hfree : s.vertexData[v].isFree = false := by
        have := hlv
        unfold liveVertex liveIn at this
        rw [List.getElem?_eq_getElem hlt] at this
        simpa using this
      simp only [hfree, if_true]
      unfold adjacent adjacentIn
      rw [List.getElem?_eq_getElem hlt]
    · rw [j1, j2, List.length_append] at m2
      omega
    · rw [m1]
      congr 1
      dsimp only
      rw [j1, j2, List.length_append] at m2
      omega
  · obtain ⟨n1, n2⟩ := numVertices_eq s hinv
    obtain ⟨m1, m2⟩ := numVertices_eq _ hinv1
    dsimp only at m2
    rw [i3, List.length_append, List.length_set, i5] at m2
    simp only [List.length_singleton] at m2
    refine ⟨_, n1, by omega, ?_⟩
    rw [m1]
    congr 1
    dsimp only
    omega

/-- C17, at the mesh `tri` and its vertex 0. -/
theorem deleteVertex_effect_witness :
    Reachable tri ∧ (∀ f, tri.liveFace f = true → (tri.triple f).Nodup) ∧
    tri.isFreeVertex 0 = some false ∧
    ∃ s1, deleteVertex tri 0 = some s1 ∧
      (∀ g, s1.isFreeFace g = some false ↔
        (tri.isFreeFace g = some false ∧ g ∉ tri.adjacent 0)) ∧
      (∀ u g, (s1.adjacent u).count g =
        if g ∈ tri.adjacent 0 then 0 else (tri.adjacent u).count g) ∧
      s1.isFreeVertex 0 = some true ∧ s1.adjacent 0 = [] ∧
      (∀ u, u ≠ 0 → s1.isFreeVertex u = tri.isFreeVertex u) ∧
      (∃ n k, tri.numFaces = some n ∧ tri.valence 0 = some k ∧ k ≤ n ∧
        s1.numFaces = some (n - k)) ∧
      (∃ m, tri.numVertices = some m ∧ 1 ≤ m ∧ s1.numVertices = some (m - 1)) :=
  have hd : ∀ f, tri.liveFace f = true → (tri.triple f).Nodup := by
    intro f hf
    have hlt := liveFace_lt tri f hf
    have hf0 : f = 0 := by
      have : tri.faceData.length = 1 := rfl
      omega
    subst hf0
    decide
  ⟨tri_reachable True, hd, rfl, deleteVertex_effect tri (tri_reachable True) hd 0 rfl⟩

end DynamicMesh

namespace DynamicMesh

theorem root_approx (p : Vec3) (hx : 0 ≤ p.x ∧ p.x ≤ 1) (hy : 0 ≤ p.y ∧ p.y ≤ 1)
    (hz : -(1 / 2) ≤ p.z ∧ p.z ≤ 1 / 2) :
    approxContains ⟨1 / 2, 1 / 2, 0⟩ 1 p 1 = true := by
  simp only [approxContains, epsilon, Bool.and_eq_true, decide_eq_true_eq]
  refine ⟨⟨⟨⟨?_, ?_⟩, ?_⟩, ⟨?_, ?_⟩, ?_⟩, le_refl _⟩ <;> norm_num <;> linarith [hx.1, hx.2, hy.1,
    hy.2, hz.1, hz.2]

theorem two_eq : addFace 1 tri4 1 0 3 = some (two, 1) := by
  have h := root_approx ⟨1 / 3, 0, 1 / 3⟩ (by norm_num) (by norm_num) (by norm_num)
  have hi : (insert 1 {0} : Finset ℕ) = {0, 1} := by decide
  simp [addFace, tri4, tri, triMesh, Mesh.numVertices, Mesh.numIndices, addFaceSlot, numFaces,
    Mesh.addIndex, addAdjacent, VertexData.addAdjacentFace, addFaceToOctree, face, vertexIndices,
    isFreeFace, Mesh.index, Mesh.vertex, PrimTriangle.center, PrimTriangle.maxDimExtent,
    DynamicOctree.addElement, DynamicOctree.hasRoot, Child.isSome, nodeAddElement,
    insertIntoChild, relativeMinElementExtent, DynamicOctree.addToElementNodeMap, Util.resize,
    two]
  norm_num
  simp only [h, if_true, hi]

theorem fan_eq : addFace 1 two 0 1 3 = some (fan, 2) := by
  have h := root_approx ⟨1 / 3, 0, 1 / 3⟩ (by norm_num) (by norm_num) (by norm_num)
  have hi : (insert 2 {0, 1} : Finset ℕ) = {0, 1, 2} := by decide
  simp [addFace, two, tri4, tri, triMesh, Mesh.numVertices, Mesh.numIndices, addFaceSlot,
    numFaces, Mesh.addIndex, addAdjacent, VertexData.addAdjacentFace, addFaceToOctree, face,
    vertexIndices, isFreeFace, Mesh.index, Mesh.vertex, PrimTriangle.center,
    PrimTriangle.maxDimExtent, DynamicOctree.addElement, DynamicOctree.hasRoot, Child.isSome,
    nodeAddElement, insertIntoChild, relativeMinElementExtent,
    DynamicOctree.addToElementNodeMap, Util.resize, fan]
  norm_num
  simp only [h, if_true, hi]

theorem degen_eq : addFace 1 tri4 0 3 0 = some (degen, 1) := by
  have h := root_approx ⟨0, 0, 1 / 3⟩ (by norm_num) (by norm_num) (by norm_num)
  have hi : (insert 1 {0} : Finset ℕ) = {0, 1} := by decide
  simp [addFace, tri4, tri, triMesh, Mesh.numVertices, Mesh.numIndices, addFaceSlot, numFaces,
    Mesh.addIndex, addAdjacent, VertexData.addAdjacentFace, addFaceToOctree, face, vertexIndices,
    isFreeFace, Mesh.index, Mesh.vertex, PrimTriangle.center, PrimTriangle.maxDimExtent,
    DynamicOctree.addElement, DynamicOctree.hasRoot, Child.isSome, nodeAddElement,
    insertIntoChild, relativeMinElementExtent, DynamicOctree.addToElementNodeMap, Util.resize,
    degen]
  norm_num
  simp only [h, if_true, hi]

theorem two_reachable (L : Prop) : ReachableWith L two :=
  ReachableWith.step tri4 two (tri4_reachable L)
    (Step.addFace 1 _ _ 1 0 3 1 (fun _ => ⟨rfl, rfl, rfl⟩) two_eq)
    (by unfold Fits two tri4 tri; simp)

theorem fan_reachable (L : Prop) : ReachableWith L fan :=
  ReachableWith.step two fan (two_reachable L)
    (Step.addFace 1 _ _ 0 1 3 2 (fun _ => ⟨rfl, rfl, rfl⟩) fan_eq)
    (by unfold Fits fan two tri4 tri; simp)

theorem degen_reachable (L : Prop) : ReachableWith L degen :=
  ReachableWith.step tri4 degen (tri4_reachable L)
    (Step.addFace 1 _ _ 0 3 0 1 (fun _ => ⟨rfl, rfl, rfl⟩) degen_eq)
    (by unfold Fits degen tri4 tri; simp)

theorem fan_findAdjacent : findAdjacent fan 0 1 = some (2, 3, 1, 3) := by
  simp [findAdjacent, fan, two, tri4, tri, isFreeVertex, findAdjacentLoop, vertexIndices,
    isFreeFace, Mesh.index, findAdjacentStep, Util.invalidIndex]

theorem degen_findAdjacent : findAdjacent degen 0 3 = none := by
  simp [findAdjacent, degen, tri4, tri, isFreeVertex, findAdjacentLoop, vertexIndices,
    isFreeFace, Mesh.index, findAdjacentStep, Util.invalidIndex]

end DynamicMesh

namespace DynamicMesh

theorem findAdjacentStep_id (e1 e2 a i1 i2 i3 : Nat) (r : Nat × Nat × Nat × Nat)
    (hl : ¬ windingEdge (i1, i2, i3) e1 e2) (hr : ¬ windingEdge (i1, i2, i3) e2 e1) :
    findAdjacentStep e1 e2 a i1 i2 i3 r = r := by
  simp only [windingEdge] at hl hr
  unfold findAdjacentStep
  split_ifs <;> first | rfl | (exfalso; omega)

theorem findAdjacentStep_left (e1 e2 a i1 i2 i3 : Nat)
    (hl : windingEdge (i1, i2, i3) e1 e2) (hr : ¬ windingEdge (i1, i2, i3) e2 e1) :
    ∃ lv, (∀ r : Nat × Nat × Nat × Nat,
        findAdjacentStep e1 e2 a i1 i2 i3 r = (a, lv, r.2.2.1, r.2.2.2)) ∧
      ((i1, i2, i3) = (e1, e2, lv) ∨ (i1, i2, i3) = (lv, e1, e2) ∨
        (i1, i2, i3) = (e2, lv, e1)) ∧ lv ≠ e1 ∧ lv ≠ e2 := by
  simp only [windingEdge] at hl hr
  simp only [Prod.mk.injEq]
  rcases hl with h | h | h
  · refine ⟨i3, fun r => ?_, by omega, by omega, by omega⟩
    unfold findAdjacentStep
    split_ifs <;> first | rfl | (exfalso; omega)
  · refine ⟨i1, fun r => ?_, by omega, by omega, by omega⟩
    unfold findAdjacentStep
    split_ifs <;> first | rfl | (exfalso; omega)
  · refine ⟨i2, fun r => ?_, by omega, by omega, by omega⟩
    unfold findAdjacentStep
    split_ifs <;> first | rfl | (exfalso; omega)

theorem findAdjacentStep_right (e1 e2 a i1 i2 i3 : Nat)
    (hl : ¬ windingEdge (i1, i2, i3) e1 e2) (hr : windingEdge (i1, i2, i3) e2 e1) :
    ∃ rv, (∀ r : Nat × Nat × Nat × Nat,
        findAdjacentStep e1 e2 a i1 i2 i3 r = (r.1, r.2.1, a, rv)) ∧
      ((i1, i2, i3) = (e2, e1, rv) ∨ (i1, i2, i3) = (rv, e2, e1) ∨
        (i1, i2, i3) = (e1, rv, e2)) ∧ rv ≠ e1 ∧ rv ≠ e2 := by
  simp only [windingEdge] at hl hr
  simp only [Prod.mk.injEq]
  rcases hr with h | h | h
  · refine ⟨i3, fun r => ?_, by omega, by omega, by omega⟩
    unfold findAdjacentStep
    split_ifs <;> first | rfl | (exfalso; omega)
  · refine ⟨i1, fun r => ?_, by omega, by omega, by omega⟩
    unfold findAdjacentStep
    split_ifs <;> first | rfl | (exfalso; omega)
  · refine ⟨i2, fun r => ?_, by omega, by omega, by omega⟩
    unfold findAdjacentStep
    split_ifs <;> first | rfl | (exfalso; omega)

/-- A face without the edge from `e1` to `e2` leaves the left results alone. -/
theorem findAdjacentStep_keeps_left (e1 e2 a i1 i2 i3 : Nat) (r : Nat × Nat × Nat × Nat)
    (hl : ¬ windingEdge (i1, i2, i3) e1 e2) :
    (findAdjacentStep e1 e2 a i1 i2 i3 r).1 = r.1 := by
  simp only [windingEdge] at hl
  unfold findAdjacentStep
  split_ifs <;> first | rfl | (exfalso; omega)

/-- A face without the edge from `e2` to `e1` leaves the right results alone. -/
theorem findAdjacentStep_keeps_right (e1 e2 a i1 i2 i3 : Nat) (r : Nat × Nat × Nat × Nat)
    (hr : ¬ windingEdge (i1, i2, i3) e2 e1) :
    (findAdjacentStep e1 e2 a i1 i2 i3 r).2.2.1 = r.2.2.1 := by
  simp only [windingEdge] at hr
  unfold findAdjacentStep
  split_ifs <;> first | rfl | (exfalso; omega)

/-- The branch a face takes depends on its indices only: it leaves the left
results alone, or it leaves the right results alone. -/
theorem findAdjacentStep_kind (e1 e2 i1 i2 i3 : Nat) :
    (∀ (a : Nat) (r : Nat × Nat × Nat × Nat), (findAdjacentStep e1 e2 a i1 i2 i3 r).1 = r.1) ∨
      (∀ (a : Nat) (r : Nat × Nat × Nat × Nat),
        (findAdjacentStep e1 e2 a i1 i2 i3 r).2.2.1 = r.2.2.1) := by
  unfold findAdjacentStep
  by_cases h1 : e1 = i1 ∧ e2 = i2
  · right; intro a r; rw [if_pos h1]
  by_cases h2 : e1 = i2 ∧ e2 = i1
  · left; intro a r; rw [if_neg h1, if_pos h2]
  by_cases h3 : e1 = i2 ∧ e2 = i3
  · right; intro a r; rw [if_neg h1, if_neg h2, if_pos h3]
  by_cases h4 : e1 = i3 ∧ e2 = i2
  · left; intro a r; rw [if_neg h1, if_neg h2, if_neg h3, if_pos h4]
  by_cases h5 : e1 = i3 ∧ e2 = i1
  · right; intro a r; rw [if_neg h1, if_neg h2, if_neg h3, if_neg h4, if_pos h5]
  by_cases h6 : e1 = i1 ∧ e2 = i3
  · left; intro a r; rw [if_neg h1, if_neg h2, if_neg h3, if_neg h4, if_neg h5, if_pos h6]
  · left; intro a r; rw [if_neg h1, if_neg h2, if_neg h3, if_neg h4, if_neg h5, if_neg h6]

/-- The loop of `findAdjacent` over faces of which only `fl` sets the left
results, to `(fl, lv)`, and only `fr` the right ones, to `(fr, rv)`. -/
theorem findAdjacentLoop_spec (s : DynamicMesh) (e1 e2 fl lv fr rv : Nat)
    (tl tr : Nat × Nat × Nat) (hlt : s.vertexIndices fl = some tl)
    (hrt : s.vertexIndices fr = some tr)
    (hsl : ∀ r : Nat × Nat × Nat × Nat,
      findAdjacentStep e1 e2 fl tl.1 tl.2.1 tl.2.2 r = (fl, lv, r.2.2.1, r.2.2.2))
    (hsr : ∀ r : Nat × Nat × Nat × Nat,
      findAdjacentStep e1 e2 fr tr.1 tr.2.1 tr.2.2 r = (r.1, r.2.1, fr, rv))
    (l : List Nat)
    (hother : ∀ a ∈ l, a ≠ fl → a ≠ fr → ∃ t, s.vertexIndices a = some t ∧
      ∀ r : Nat × Nat × Nat × Nat, findAdjacentStep e1 e2 a t.1 t.2.1 t.2.2 r = r)
    (r : Nat × Nat × Nat × Nat) :
    ∃ r1, findAdjacentLoop s e1 e2 l r = some r1 ∧
      ((fl ∈ l ∨ (r.1 = fl ∧ r.2.1 = lv)) → (r1.1 = fl ∧ r1.2.1 = lv)) ∧
      ((fr ∈ l ∨ (r.2.2.1 = fr ∧ r.2.2.2 = rv)) → (r1.2.2.1 = fr ∧ r1.2.2.2 = rv)) := by
  induction l generalizing r with
  | nil =>
    refine ⟨r, rfl, ?_, ?_⟩
    · rintro (h | h)
      · simp at h
      · exact h
    · rintro (h | h)
      · simp at h
      · exact h
  | cons a rest ih =>
    have hrest : ∀ b ∈ rest, b ≠ fl → b ≠ fr → ∃ t, s.vertexIndices b = some t ∧
        ∀ r : Nat × Nat × Nat × Nat, findAdjacentStep e1 e2 b t.1 t.2.1 t.2.2 r = r :=
      fun b hb => hother b (List.mem_cons_of_mem a hb)
    by_cases hal : a = fl
    · subst hal
      obtain ⟨r1, h1, h2, h3⟩ := ih hrest (findAdjacentStep e1 e2 a tl.1 tl.2.1 tl.2.2 r)
      refine ⟨r1, ?_, ?_, ?_⟩
      · show (match s.vertexIndices a with
          | some (i1, i2, i3) =>
            findAdjacentLoop s e1 e2 rest (findAdjacentStep e1 e2 a i1 i2 i3 r)
          | none => none) = some r1
        rw [hlt]; exact h1
      · intro _
        apply h2
        right
        rw [hsl r]
        exact ⟨rfl, rfl⟩
      · rintro (h | h)
        · rw [List.mem_cons] at h
          rcases h with h | h
          · apply h3
            right
            rw [hsl r]
            subst h
            rw [hrt] at hlt
            cases hlt
            have := hsr r
            rw [hsl r] at this
            simp only [Prod.mk.injEq] at this
            exact ⟨this.2.2.1, this.2.2.2⟩
          · exact h3 (Or.inl h)
        · apply h3
          right
          rw [hsl r]
          exact h
    · by_cases har : a = fr
      · subst har
        obtain ⟨r1, h1, h2, h3⟩ := ih hrest (findAdjacentStep e1 e2 a tr.1 tr.2.1 tr.2.2 r)
        refine ⟨r1, ?_, ?_, ?_⟩
        · show (match s.vertexIndices a with
            | some (i1, i2, i3) =>
              findAdjacentLoop s e1 e2 rest (findAdjacentStep e1 e2 a i1 i2 i3 r)
            | none => none) = some r1
          rw [hrt]; exact h1
        · rintro (h | h)
          · rw [List.mem_cons] at h
            rcases h with h | h
            · exact absurd h.symm hal
            · exact h2 (Or.inl h)
          · apply h2
            right
            rw [hsr r]
            exact h
        · intro _
          apply h3
          right
          rw [hsr r]
          exact ⟨rfl, rfl⟩
      · obtain ⟨t, ht, hst⟩ := hother a (List.mem_cons_self a rest) hal har
        obtain ⟨r1, h1, h2, h3⟩ := ih hrest r
        refine ⟨r1, ?_, ?_, ?_⟩
        · show (match s.vertexIndices a with
            | some (i1, i2, i3) =>
              findAdjacentLoop s e1 e2 rest (findAdjacentStep e1 e2 a i1 i2 i3 r)
            | none => none) = some r1
          rw [ht]
          show findAdjacentLoop s e1 e2 rest (findAdjacentStep e1 e2 a t.1 t.2.1 t.2.2 r) = some r1
          rw [hst r]; exact h1
        · rintro (h | h)
          · rw [List.mem_cons] at h
            rcases h with h | h
            · exact absurd h.symm hal
            · exact h2 (Or.inl h)
          · exact h2 (Or.inr h)
        · rintro (h | h)
          · rw [List.mem_cons] at h
            rcases h with h | h
            · exact absurd h.symm har
            · exact h3 (Or.inl h)
          · exact h3 (Or.inr h)

/-- The loop of `findAdjacent` over faces that leave the left results alone. -/
theorem findAdjacentLoop_keeps_left (s : DynamicMesh) (e1 e2 : Nat) (l : List Nat)
    (h : ∀ a ∈ l, ∀ t, s.vertexIndices a = some t → ∀ r : Nat × Nat × Nat × Nat,
      (findAdjacentStep e1 e2 a t.1 t.2.1 t.2.2 r).1 = r.1)
    (r r1 : Nat × Nat × Nat × Nat) (hr : findAdjacentLoop s e1 e2 l r = some r1) :
    r1.1 = r.1 := by
  induction l generalizing r with
  | nil =>
    have : some r = some r1 := hr
    cases this; rfl
  | cons a rest ih =>
    have hr1 : (match s.vertexIndices a with
        | some (i1, i2, i3) =>
          findAdjacentLoop s e1 e2 rest (findAdjacentStep e1 e2 a i1 i2 i3 r)
        | none => none) = some r1 := hr
    cases ht : s.vertexIndices a with
    | none => rw [ht] at hr1; cases hr1
    | some t =>
      rw [ht] at hr1
      have h2 := ih (fun b hb => h b (List.mem_cons_of_mem a hb)) _ hr1
      rw [h2]
      exact h a (List.mem_cons_self a rest) t ht r

/-- The loop of `findAdjacent` over faces that leave the right results alone. -/
theorem findAdjacentLoop_keeps_right (s : DynamicMesh) (e1 e2 : Nat) (l : List Nat)
    (h : ∀ a ∈ l, ∀ t, s.vertexIndices a = some t → ∀ r : Nat × Nat × Nat × Nat,
      (findAdjacentStep e1 e2 a t.1 t.2.1 t.2.2 r).2.2.1 = r.2.2.1)
    (r r1 : Nat × Nat × Nat × Nat) (hr : findAdjacentLoop s e1 e2 l r = some r1) :
    r1.2.2.1 = r.2.2.1 := by
  induction l generalizing r with
  | nil =>
    have : some r = some r1 := hr
    cases this; rfl
  | cons a rest ih =>
    have hr1 : (match s.vertexIndices a with
        | some (i1, i2, i3) =>
          findAdjacentLoop s e1 e2 rest (findAdjacentStep e1 e2 a i1 i2 i3 r)
        | none => none) = some r1 := hr
    cases ht : s.vertexIndices a with
    | none => rw [ht] at hr1; cases hr1
    | some t =>
      rw [ht] at hr1
      have h2 := ih (fun b hb => h b (List.mem_cons_of_mem a hb)) _ hr1
      rw [h2]
      exact h a (List.mem_cons_self a rest) t ht r

theorem findAdjacent_unfold (s : DynamicMesh) (e1 e2 : Nat)
    (he1 : s.isFreeVertex e1 = some false) (he2 : s.isFreeVertex e2 = some false) :
    findAdjacent s e1 e2 =
      match findAdjacentLoop s e1 e2 (s.adjacent e1)
          (Util.invalidIndex, Util.invalidIndex, Util.invalidIndex, Util.invalidIndex) with
      | some (leftFace, leftVertex, rightFace, rightVertex) =>
        if leftFace ≠ Util.invalidIndex ∧ leftVertex ≠ Util.invalidIndex ∧
            rightFace ≠ Util.invalidIndex ∧ rightVertex ≠ Util.invalidIndex then
          some (leftFace, leftVertex, rightFace, rightVertex)
        else none
      | none => none := by
  unfold findAdjacent adjacent VertexData.adjacentIn
  rw [if_pos ⟨he1, he2⟩]
  unfold isFreeVertex at he1
  cases hd : s.vertexData[e1]? with
  | none => rw [hd] at he1; simp at he1
  | some d => rfl

/-- When the loop leaves the left face invalid, `findAdjacent` aborts. -/
theorem findAdjacent_none_of_left (s : DynamicMesh) (e1 e2 : Nat)
    (he1 : s.isFreeVertex e1 = some false) (he2 : s.isFreeVertex e2 = some false)
    (h : ∀ a ∈ s.adjacent e1, ∀ t, s.vertexIndices a = some t → ∀ r : Nat × Nat × Nat × Nat,
      (findAdjacentStep e1 e2 a t.1 t.2.1 t.2.2 r).1 = r.1) :
    findAdjacent s e1 e2 = none := by
  rw [findAdjacent_unfold s e1 e2 he1 he2]
  cases hl : findAdjacentLoop s e1 e2 (s.adjacent e1)
      (Util.invalidIndex, Util.invalidIndex, Util.invalidIndex, Util.invalidIndex) with
  | none => rfl
  | some r1 =>
    have h1 := findAdjacentLoop_keeps_left s e1 e2 _ h _ r1 hl
    obtain ⟨a, b, c, d⟩ := r1
    have h2 : a = Util.invalidIndex := h1
    show (if a ≠ Util.invalidIndex ∧ b ≠ Util.invalidIndex ∧
        c ≠ Util.invalidIndex ∧ d ≠ Util.invalidIndex then some (a, b, c, d) else none) = none
    rw [if_neg]
    intro h3
    exact h3.1 h2

/-- When the loop leaves the right face invalid, `findAdjacent` aborts. -/
theorem findAdjacent_none_of_right (s : DynamicMesh) (e1 e2 : Nat)
    (he1 : s.isFreeVertex e1 = some false) (he2 : s.isFreeVertex e2 = some false)
    (h : ∀ a ∈ s.adjacent e1, ∀ t, s.vertexIndices a = some t → ∀ r : Nat × Nat × Nat × Nat,
      (findAdjacentStep e1 e2 a t.1 t.2.1 t.2.2 r).2.2.1 = r.2.2.1) :
    findAdjacent s e1 e2 = none := by
  rw [findAdjacent_unfold s e1 e2 he1 he2]
  cases hl : findAdjacentLoop s e1 e2 (s.adjacent e1)
      (Util.invalidIndex, Util.invalidIndex, Util.invalidIndex, Util.invalidIndex) with
  | none => rfl
  | some r1 =>
    have h1 := findAdjacentLoop_keeps_right s e1 e2 _ h _ r1 hl
    obtain ⟨a, b, c, d⟩ := r1
    have h2 : c = Util.invalidIndex := h1
    show (if a ≠ Util.invalidIndex ∧ b ≠ Util.invalidIndex ∧
        c ≠ Util.invalidIndex ∧ d ≠ Util.invalidIndex then some (a, b, c, d) else none) = none
    rw [if_neg]
    intro h3
    exact h3.2.2.1 h2

/-- The corners of a live face are below the invalid index. -/
theorem corner_valid (s : DynamicMesh) (hinv : MeshInv s) (hfit : Fits s) (f : Nat)
    (t : Nat × Nat × Nat) (ht : s.vertexIndices f = some t) :
    f ≠ Util.invalidIndex ∧ t.1 ≠ Util.invalidIndex ∧ t.2.1 ≠ Util.invalidIndex ∧
      t.2.2 ≠ Util.invalidIndex := by
  obtain ⟨a, b, c⟩ := t
  obtain ⟨hl, htr⟩ := (vertexIndices_iff s hinv.1 f a b c).mp ht
  have hf := liveFace_lt s f hl
  have hv : ∀ x ∈ s.triple f, x < s.vertexData.length :=
    fun x hx => liveVertex_lt s x (hinv.2.2.1.1 f hl x hx)
  rw [htr] at hv
  have ha := hv a (by simp)
  have hb := hv b (by simp)
  have hc := hv c (by simp)
  have h1 := hfit.1
  have h2 := hfit.2
  unfold Util.invalidIndex
  dsimp only
  refine ⟨?_, ?_, ?_, ?_⟩ <;> omega

end DynamicMesh

namespace DynamicMesh

theorem two_adjacent : two.adjacent 0 = [0, 1] := rfl

theorem two_face0 : two.vertexIndices 0 = some (0, 1, 2) := rfl

theorem two_face1 : two.vertexIndices 1 = some (1, 0, 3) := rfl

theorem degen_adjacent : degen.adjacent 0 = [0, 1, 1] := rfl

theorem degen_face0 : degen.vertexIndices 0 = some (0, 1, 2) := rfl

theorem degen_face1 : degen.vertexIndices 1 = some (0, 3, 0) := rfl

theorem tri_faces (f : Nat) (t : Nat × Nat × Nat) (h : tri.vertexIndices f = some t) :
    f = 0 ∧ t = (0, 1, 2) := by
  rcases f with _ | f
  · have h1 : tri.vertexIndices 0 = some (0, 1, 2) := rfl
    rw [h1] at h
    cases h
    exact ⟨rfl, rfl⟩
  · have h1 : tri.vertexIndices (f + 1) = none := by
      simp [vertexIndices, isFreeFace, tri]
    rw [h1] at h
    cases h

/-- C19, amended: in a reachable mesh, let `e1` and `e2` be live vertices such
that exactly one face adjacent to `e1`, the face `fl`, contains the directed edge
from `e1` to `e2` in its winding order, exactly one, the face `fr`, contains the
edge from `e2` to `e1`, and `fl` and `fr` are two different faces. Then
`findAdjacent (e1, e2)` returns `fl` as `leftFace` and `fr` as `rightFace`, and
`leftVertex` and `rightVertex` are the third corners of these faces: the indices
of `fl` are `(e1, e2, leftVertex)` up to rotation, those of `fr` are
`(e2, e1, rightVertex)` up to rotation, and both third corners differ from `e1`
and from `e2`. -/
theorem findAdjacent_faces (s : DynamicMesh) (h : Reachable s) (e1 e2 fl fr : Nat)
    (tl tr : Nat × Nat × Nat)
    (he1 : s.isFreeVertex e1 = some false) (he2 : s.isFreeVertex e2 = some false)
    (hl : fl ∈ s.adjacent e1) (hlt : s.vertexIndices fl = some tl)
    (hlw : windingEdge tl e1 e2)
    (hlu : ∀ a ∈ s.adjacent e1, ∀ t, s.vertexIndices a = some t → windingEdge t e1 e2 → a = fl)
    (hr : fr ∈ s.adjacent e1) (hrt : s.vertexIndices fr = some tr)
    (hrw : windingEdge tr e2 e1)
    (hru : ∀ a ∈ s.adjacent e1, ∀ t, s.vertexIndices a = some t → windingEdge t e2 e1 → a = fr)
    (hne : fl ≠ fr) :
    ∃ lv rv, findAdjacent s e1 e2 = some (fl, lv, fr, rv) ∧
      (tl = (e1, e2, lv) ∨ tl = (lv, e1, e2) ∨ tl = (e2, lv, e1)) ∧ lv ≠ e1 ∧ lv ≠ e2 ∧
      (tr = (e2, e1, rv) ∨ tr = (rv, e2, e1) ∨ tr = (e1, rv, e2)) ∧ rv ≠ e1 ∧ rv ≠ e2 := by
  have hinv := reachable_inv s h
  have hfit := reachable_fits True s h
  have hlnr : ¬ windingEdge tl e2 e1 := fun hw => hne (hru fl hl tl hlt hw)
  have hrnl : ¬ windingEdge tr e1 e2 := fun hw => hne (hlu fr hr tr hrt hw).symm
  have hcl := corner_valid s hinv hfit fl tl hlt
  have hcr := corner_valid s hinv hfit fr tr hrt
  obtain ⟨l1, l2, l3⟩ := tl
  obtain ⟨r1, r2, r3⟩ := tr
  obtain ⟨lv, hsl, hrotl, hl1, hl2⟩ := findAdjacentStep_left e1 e2 fl l1 l2 l3 hlw hlnr
  obtain ⟨rv, hsr, hrotr, hr1, hr2⟩ := findAdjacentStep_right e1 e2 fr r1 r2 r3 hrnl hrw
  have hother : ∀ a ∈ s.adjacent e1, a ≠ fl → a ≠ fr → ∃ t, s.vertexIndices a = some t ∧
      ∀ r : Nat × Nat × Nat × Nat, findAdjacentStep e1 e2 a t.1 t.2.1 t.2.2 r = r := by
    intro a ha hal har
    have hlive := (adjacent_live s hinv.2.2.1 e1 a ha).1
    have ht : s.vertexIndices a = some (s.mesh.indices.getD (3 * a) 0,
        s.mesh.indices.getD (3 * a + 1) 0, s.mesh.indices.getD (3 * a + 2) 0) :=
      (vertexIndices_iff s hinv.1 a _ _ _).mpr ⟨hlive, rfl⟩
    refine ⟨_, ht, fun r => ?_⟩
    exact findAdjacentStep_id e1 e2 a _ _ _ r (fun hw => hal (hlu a ha _ ht hw))
      (fun hw => har (hru a ha _ ht hw))
  obtain ⟨q, hq, hql, hqr⟩ := findAdjacentLoop_spec s e1 e2 fl lv fr rv (l1, l2, l3)
    (r1, r2, r3) hlt hrt hsl hsr (s.adjacent e1) hother
    (Util.invalidIndex, Util.invalidIndex, Util.invalidIndex, Util.invalidIndex)
  have hql1 := hql (Or.inl hl)
  have hqr1 := hqr (Or.inl hr)
  obtain ⟨q1, q2, q3, q4⟩ := q
  dsimp only at hql1 hqr1
  obtain ⟨rfl, rfl⟩ := hql1
  obtain ⟨rfl, rfl⟩ := hqr1
  have hlvv : q2 ≠ Util.invalidIndex := by
    simp only [Prod.mk.injEq] at hrotl
    dsimp only at hcl
    rcases hrotl with hx | hx | hx
    · rw [← hx.2.2]; exact hcl.2.2.2
    · rw [← hx.1]; exact hcl.2.1
    · rw [← hx.2.1]; exact hcl.2.2.1
  have hrvv : q4 ≠ Util.invalidIndex := by
    simp only [Prod.mk.injEq] at hrotr
    dsimp only at hcr
    rcases hrotr with hx | hx | hx
    · rw [← hx.2.2]; exact hcr.2.2.2
    · rw [← hx.1]; exact hcr.2.1
    · rw [← hx.2.1]; exact hcr.2.2.1
  refine ⟨q2, q4, ?_, hrotl, hl1, hl2, hrotr, hr1, hr2⟩
  rw [findAdjacent_unfold s e1 e2 he1 he2, hq]
  show (if q1 ≠ Util.invalidIndex ∧ q2 ≠ Util.invalidIndex ∧
      q3 ≠ Util.invalidIndex ∧ q4 ≠ Util.invalidIndex then some (q1, q2, q3, q4) else none) = _
  rw [if_pos ⟨hcl.1, hlvv, hcr.1, hrvv⟩]

/-- C19, at the mesh `two` and the edge between its vertices 0 and 1: the face 0
with the indices `(0, 1, 2)` is the left face, the face 1 with the indices
`(1, 0, 3)` the right one. -/
theorem findAdjacent_faces_witness :
    Reachable two ∧ two.isFreeVertex 0 = some false ∧ two.isFreeVertex 1 = some false ∧
    0 ∈ two.adjacent 0 ∧ two.vertexIndices 0 = some (0, 1, 2) ∧ windingEdge (0, 1, 2) 0 1 ∧
    1 ∈ two.adjacent 0 ∧ two.vertexIndices 1 = some (1, 0, 3) ∧ windingEdge (1, 0, 3) 1 0 ∧
    ∃ lv rv, findAdjacent two 0 1 = some (0, lv, 1, rv) ∧
      (((0, 1, 2) : Nat × Nat × Nat) = (0, 1, lv) ∨ ((0, 1, 2) : Nat × Nat × Nat) = (lv, 0, 1) ∨
        ((0, 1, 2) : Nat × Nat × Nat) = (1, lv, 0)) ∧ lv ≠ 0 ∧ lv ≠ 1 ∧
      (((1, 0, 3) : Nat × Nat × Nat) = (1, 0, rv) ∨ ((1, 0, 3) : Nat × Nat × Nat) = (rv, 1, 0) ∨
        ((1, 0, 3) : Nat × Nat × Nat) = (0, rv, 1)) ∧ rv ≠ 0 ∧ rv ≠ 1 := by
  have hw0 : windingEdge (0, 1, 2) 0 1 := by unfold windingEdge; decide
  have hw1 : windingEdge (1, 0, 3) 1 0 := by unfold windingEdge; decide
  have hm0 : 0 ∈ two.adjacent 0 := by rw [two_adjacent]; decide
  have hm1 : 1 ∈ two.adjacent 0 := by rw [two_adjacent]; decide
  have hu0 : ∀ a ∈ two.adjacent 0, ∀ t, two.vertexIndices a = some t →
      windingEdge t 0 1 → a = 0 := by
    intro a ha t ht hw
    rw [two_adjacent] at ha
    simp only [List.mem_cons, List.mem_singleton, List.not_mem_nil, or_false] at ha
    rcases ha with rfl | rfl
    · rfl
    · rw [two_face1] at ht
      cases ht
      revert hw
      unfold windingEdge
      decide
  have hu1 : ∀ a ∈ two.adjacent 0, ∀ t, two.vertexIndices a = some t →
      windingEdge t 1 0 → a = 1 := by
    intro a ha t ht hw
    rw [two_adjacent] at ha
    simp only [List.mem_cons, List.mem_singleton, List.not_mem_nil, or_false] at ha
    rcases ha with rfl | rfl
    · rw [two_face0] at ht
      cases ht
      revert hw
      unfold windingEdge
      decide
    · rfl
  exact ⟨two_reachable True, rfl, rfl, hm0, two_face0, hw0, hm1, two_face1, hw1,
    findAdjacent_faces two (two_reachable True) 0 1 0 1 (0, 1, 2) (1, 0, 3) rfl rfl hm0
      two_face0 hw0 hu0 hm1 two_face1 hw1 hu1 (by decide)⟩

/-- C19 as worded fails at the mesh `degen`, reached by `addFace (0, 3, 0)`: its
face 1 with the indices `(0, 3, 0)` is the one face adjacent to the vertex 0 that
contains the edge from 0 to 3, and the one face that contains the edge from 3 to
0, but `findAdjacent (0, 3)` aborts, the face takes the first branch of the loop
only and no right face is found. -/
theorem findAdjacent_faces_counterexample :
    Reachable degen ∧ degen.isFreeVertex 0 = some false ∧ degen.isFreeVertex 3 = some false ∧
    1 ∈ degen.adjacent 0 ∧ degen.vertexIndices 1 = some (0, 3, 0) ∧
    windingEdge (0, 3, 0) 0 3 ∧ windingEdge (0, 3, 0) 3 0 ∧
    (∀ a ∈ degen.adjacent 0, ∀ t, degen.vertexIndices a = some t →
      windingEdge t 0 3 → a = 1) ∧
    (∀ a ∈ degen.adjacent 0, ∀ t, degen.vertexIndices a = some t →
      windingEdge t 3 0 → a = 1) ∧
    findAdjacent degen 0 3 = none := by
  refine ⟨degen_reachable True, rfl, rfl, by rw [degen_adjacent]; decide, degen_face1,
    by unfold windingEdge; decide, by unfold windingEdge; decide, ?_, ?_, degen_findAdjacent⟩
  · intro a ha t ht hw
    rw [degen_adjacent] at ha
    simp only [List.mem_cons, List.mem_singleton, List.not_mem_nil, or_false] at ha
    rcases ha with rfl | rfl | rfl
    · rw [degen_face0] at ht
      cases ht
      revert hw
      unfold windingEdge
      decide
    · rfl
    · rfl
  · intro a ha t ht hw
    rw [degen_adjacent] at ha
    simp only [List.mem_cons, List.mem_singleton, List.not_mem_nil, or_false] at ha
    rcases ha with rfl | rfl | rfl
    · rw [degen_face0] at ht
      cases ht
      revert hw
      unfold windingEdge
      decide
    · rfl
    · rfl

/-- C20, amended: for live vertices `e1` and `e2`, `findAdjacent (e1, e2)` aborts
whenever no live face contains the directed edge from `e1` to `e2` in its winding
order, or no live face contains the edge from `e2` to `e1`, or at most one live
face contains the edge in either direction. (With three live faces on the edge it
can return.) -/
theorem findAdjacent_fails (s : DynamicMesh) (e1 e2 : Nat)
    (he1 : s.isFreeVertex e1 = some false) (he2 : s.isFreeVertex e2 = some false)
    (h : (∀ f t, s.vertexIndices f = some t → ¬ windingEdge t e1 e2) ∨
      (∀ f t, s.vertexIndices f = some t → ¬ windingEdge t e2 e1) ∨
      (∀ f g tf tg, s.vertexIndices f = some tf → s.vertexIndices g = some tg →
        (windingEdge tf e1 e2 ∨ windingEdge tf e2 e1) →
        (windingEdge tg e1 e2 ∨ windingEdge tg e2 e1) → f = g)) :
    findAdjacent s e1 e2 = none := by
  rcases h with h | h | h
  · exact findAdjacent_none_of_left s e1 e2 he1 he2
      (fun a _ t ht r => findAdjacentStep_keeps_left e1 e2 a t.1 t.2.1 t.2.2 r (h a t ht))
  · exact findAdjacent_none_of_right s e1 e2 he1 he2
      (fun a _ t ht r => findAdjacentStep_keeps_right e1 e2 a t.1 t.2.1 t.2.2 r (h a t ht))
  · by_cases hex : ∃ g tg, s.vertexIndices g = some tg ∧
        (windingEdge tg e1 e2 ∨ windingEdge tg e2 e1)
    · obtain ⟨g, tg, hg, hwg⟩ := hex
      have hall : ∀ a t, s.vertexIndices a = some t →
          (windingEdge t e1 e2 ∨ windingEdge t e2 e1) → t = tg := by
        intro a t ht hw
        have := h a g t tg ht hg hw hwg
        subst this
        rw [hg] at ht
        cases ht
        rfl
      rcases findAdjacentStep_kind e1 e2 tg.1 tg.2.1 tg.2.2 with hk | hk
      · refine findAdjacent_none_of_left s e1 e2 he1 he2 (fun a _ t ht r => ?_)
        by_cases hw : windingEdge t e1 e2 ∨ windingEdge t e2 e1
        · rw [hall a t ht hw]; exact hk a r
        · exact findAdjacentStep_keeps_left e1 e2 a t.1 t.2.1 t.2.2 r
            (fun hx => hw (Or.inl hx))
      · refine findAdjacent_none_of_right s e1 e2 he1 he2 (fun a _ t ht r => ?_)
        by_cases hw : windingEdge t e1 e2 ∨ windingEdge t e2 e1
        · rw [hall a t ht hw]; exact hk a r
        · exact findAdjacentStep_keeps_right e1 e2 a t.1 t.2.1 t.2.2 r
            (fun hx => hw (Or.inr hx))
    · refine findAdjacent_none_of_left s e1 e2 he1 he2 (fun a _ t ht r => ?_)
      exact findAdjacentStep_keeps_left e1 e2 a t.1 t.2.1 t.2.2 r
        (fun hx => hex ⟨a, t, ht, Or.inl hx⟩)

/-- C20, at the mesh `tri` and the edge between its vertices 0 and 1: the face 0
with the indices `(0, 1, 2)` is the only live face, and `findAdjacent (0, 1)`
aborts. -/
theorem findAdjacent_fails_witness :
    tri.isFreeVertex 0 = some false ∧ tri.isFreeVertex 1 = some false ∧
    (∀ f g tf tg, tri.vertexIndices f = some tf → tri.vertexIndices g = some tg →
      (windingEdge tf 0 1 ∨ windingEdge tf 1 0) →
      (windingEdge tg 0 1 ∨ windingEdge tg 1 0) → f = g) ∧
    findAdjacent tri 0 1 = none := by
  have hu : ∀ f g tf tg, tri.vertexIndices f = some tf → tri.vertexIndices g = some tg →
      (windingEdge tf 0 1 ∨ windingEdge tf 1 0) →
      (windingEdge tg 0 1 ∨ windingEdge tg 1 0) → f = g := by
    intro f g tf tg hf hg _ _
    rw [(tri_faces f tf hf).1, (tri_faces g tg hg).1]
  exact ⟨rfl, rfl, hu, findAdjacent_fails tri 0 1 rfl rfl (Or.inr (Or.inr hu))⟩

/-- C20 as worded fails at the mesh `fan`, reached by `addFace (1, 0, 3)` and
`addFace (0, 1, 3)`: the three live faces 0, 1 and 2 share the edge between the
vertices 0 and 1, and `findAdjacent (0, 1)` returns the faces 2 and 1. -/
theorem findAdjacent_fails_counterexample :
    Reachable fan ∧ fan.isFreeVertex 0 = some false ∧ fan.isFreeVertex 1 = some false ∧
    fan.vertexIndices 0 = some (0, 1, 2) ∧ fan.vertexIndices 1 = some (1, 0, 3) ∧
    fan.vertexIndices 2 = some (0, 1, 3) ∧
    windingEdge (0, 1, 2) 0 1 ∧ windingEdge (1, 0, 3) 1 0 ∧ windingEdge (0, 1, 3) 0 1 ∧
    findAdjacent fan 0 1 = some (2, 3, 1, 3) :=
  ⟨fan_reachable True, rfl, rfl, rfl, rfl, rfl, by unfold windingEdge; decide,
    by unfold windingEdge; decide, by unfold windingEdge; decide, fan_findAdjacent⟩

end DynamicMesh

open Octree

namespace DynamicMesh

/-- In a mesh that satisfies the invariant a free vertex slot has an empty
adjacency list. -/
theorem free_adjacent_nil (s : DynamicMesh) (hinv : MeshInv s) (v : Nat)
    (hv : s.liveVertex v = false) : s.adjacent v = [] := by
  rw [List.eq_nil_iff_forall_not_mem]
  intro g hg
  obtain ⟨hl, hm⟩ := adjacent_live s hinv.2.2.1 v g hg
  have := hinv.2.2.1.1 g hl v hm
  rw [hv] at this
  cases this

/-- C30, amended: `deleteVertex` asserts only that the id is below the slot
count. Called on a vertex slot of a reachable mesh that is free already it
returns: the slot is pushed onto the free-vertex list a second time, its visited
flag is cleared and nothing else changes. Called with an id that is not below
the slot count it aborts. -/
theorem deleteVertex_free (s : DynamicMesh) (h : Reachable s) (v : Nat)
    (hv : s.isFreeVertex v = some true) :
    deleteVertex s v = some { s with
      vertexVisited := s.vertexVisited.set v 0
      freeVertexIndices := s.freeVertexIndices ++ [v] } ∧
    s.freeVertexIndices.count v = 1 ∧ (s.freeVertexIndices ++ [v]).count v = 2 ∧
    ∀ i, s.vertexData.length ≤ i → deleteVertex s i = none := by
  have hinv := reachable_inv s h
  obtain ⟨hlt, hfree⟩ := (isFreeVertex_true_iff s v).mp hv
  have hadj := free_adjacent_nil s hinv v hfree
  have hvis : v < s.vertexVisited.length := by rw [hinv.1.2.2.1]; exact hlt
  have hd : s.vertexData[v]? = some ⟨true, []⟩ := by
    unfold isFreeVertex at hv
    unfold adjacent VertexData.adjacentIn at hadj
    cases hx : s.vertexData[v]? with
    | none => rw [hx] at hv; simp at hv
    | some d =>
      rw [hx] at hv hadj
      obtain ⟨fr, ad⟩ := d
      simp only [Option.map_some', Option.some.injEq] at hv
      dsimp only at hadj
      rw [hv, hadj]
  have hc1 : s.freeVertexIndices.count v = 1 := by
    rw [count_nodup _ hinv.2.1.1, if_pos ((hinv.2.1.2.1 v).mpr ⟨hlt, hfree⟩)]
  refine ⟨?_, hc1, ?_, ?_⟩
  · unfold deleteVertex
    rw [if_pos ⟨hlt, hvis⟩, hd]
    simp only [deleteFaces]
    rw [if_pos ⟨hlt, hvis⟩]
    have hset : s.vertexData.set v ⟨true, []⟩ = s.vertexData := by
      apply List.ext_getElem?
      intro i
      by_cases hi : i = v
      · subst hi; rw [List.getElem?_set_self hlt, hd]
      · rw [List.getElem?_set_ne (Ne.symm hi)]
    rw [hset]
  · rw [List.count_append, hc1]
    simp
  · intro i hi
    unfold deleteVertex
    rw [if_neg (by omega)]

/-- C30 as amended, at the mesh `frag`, whose slot 3 is free. -/
theorem deleteVertex_free_witness :
    Reachable frag ∧ frag.isFreeVertex 3 = some true ∧
    deleteVertex frag 3 = some { frag with
      vertexVisited := frag.vertexVisited.set 3 0
      freeVertexIndices := frag.freeVertexIndices ++ [3] } ∧
    frag.freeVertexIndices.count 3 = 1 ∧ (frag.freeVertexIndices ++ [3]).count 3 = 2 ∧
    ∀ i, frag.vertexData.length ≤ i → deleteVertex frag i = none :=
  ⟨frag_reachable True, rfl, deleteVertex_free frag (frag_reachable True) 3 rfl⟩

/-- C30 as stated fails: the slot 3 of the reachable mesh `frag` is free, and
`deleteVertex (3)` does not abort; it returns the mesh `twice`, whose free-vertex
list holds the slot 3 twice. -/
theorem deleteVertex_free_counterexample :
    Reachable frag ∧ frag.isFreeVertex 3 = some true ∧ frag.freeVertexIndices = [3] ∧
    deleteVertex frag 3 = some twice ∧ twice.freeVertexIndices = [3, 3] :=
  ⟨frag_reachable True, rfl, rfl, twice_eq, rfl⟩

end DynamicMesh

namespace Util

/-- The number of positions of `v` whose element passes the test `q` is the
number of elements that pass it. -/
theorem card_filter_range {α : Type} (q : α → Bool) (v : List α) :
    ((Finset.range v.length).filter (fun i => (v[i]?).map q = some true)).card = v.countP q := by
  induction v using List.reverseRecOn with
  | nil => simp
  | append_singleton l x ih =>
    rw [List.length_append, List.length_singleton, Finset.range_succ, Finset.filter_insert]
    have hx : ((l ++ [x])[l.length]?).map q = some (q x) := by
      rw [List.getElem?_append_right (le_refl _)]; simp
    have hl : (Finset.range l.length).filter (fun i => ((l ++ [x])[i]?).map q = some true) =
        (Finset.range l.length).filter (fun i => (l[i]?).map q = some true) := by
      apply Finset.filter_congr
      intro i hi
      rw [Finset.mem_range] at hi
      rw [List.getElem?_append_left hi]
    rw [hx, hl, List.countP_append]
    by_cases hq : q x = true
    · rw [if_pos (by rw [hq]), Finset.card_insert_of_not_mem (by simp), ih]
      simp [hq]
    · rw [if_neg (by simp [hq]), ih]
      simp [hq]

/-- C29. Relocation bound of `Util::prune`, for every vector `v` of a length that
fits `unsigned int` and every index map passed in: the packed vector has as many
elements as `v` has kept ones; every kept element whose index is below that
number stays at its index, `indexMap[i] = i`; the number of kept elements that
change index equals the number of removed entries below the new length, and so
does not exceed the number of removed entries. -/
theorem prune_relocation {α : Type} (p : α → Bool) (v : List α) (m0 : List Nat)
    (hv : v.length < 2 ^ 32) :
    ∃ v1 m1, prune p v (some m0) = some (v1, some m1) ∧
      v1.length = v.countP (fun x => !p x) ∧
      (∀ (i : Nat) (x : α), v[i]? = some x → p x = false → i < v1.length → m1[i]? = some i) ∧
      ((Finset.range v.length).filter
        (fun i => (v[i]?).map p = some false ∧ m1[i]? ≠ some i)).card =
        ((Finset.range v1.length).filter (fun i => (v[i]?).map p = some true)).card ∧
      ((Finset.range v1.length).filter (fun i => (v[i]?).map p = some true)).card ≤
        v.countP p := by
  obtain ⟨v1, m1, h, s1, s2, s3, s4, s5, s6⟩ := prune_spec p v m0 hv
  have hL : v1.length = v.countP (fun x => !p x) := by
    rw [s1.length_eq, List.countP_eq_length_filter]
  have hLn : v1.length ≤ v.length := by rw [hL]; exact List.countP_le_length _
  refine ⟨v1, m1, h, hL, ?_, ?_, ?_⟩
  · intro i x hx hp hi
    obtain ⟨q, q1, _, _, q4⟩ := s3 i x hx hp
    rw [q1, q4 hi]
  · have hA : (Finset.range v.length).filter
          (fun i => (v[i]?).map p = some false ∧ m1[i]? ≠ some i) =
        ((Finset.range v.length).filter (fun i => (v[i]?).map p = some false)).filter
          (fun i => ¬ i < v1.length) := by
      rw [Finset.filter_filter]
      apply Finset.filter_congr
      intro i _
      constructor
      · rintro ⟨hk, hm⟩
        refine ⟨hk, fun hi => hm ?_⟩
        cases hx : v[i]? with
        | none => rw [hx] at hk; simp at hk
        | some x =>
          rw [hx] at hk
          simp only [Option.map_some', Option.some.injEq] at hk
          obtain ⟨q, q1, _, _, q4⟩ := s3 i x hx hk
          rw [q1, q4 hi]
      · rintro ⟨hk, hi⟩
        refine ⟨hk, fun hm => hi ?_⟩
        cases hx : v[i]? with
        | none => rw [hx] at hk; simp at hk
        | some x =>
          rw [hx] at hk
          simp only [Option.map_some', Option.some.injEq] at hk
          obtain ⟨q, q1, q2, _, _⟩ := s3 i x hx hk
          rw [q1] at hm
          cases hm
          exact q2
    have hK : ((Finset.range v.length).filter (fun i => (v[i]?).map p = some false)).card =
        v1.length := by
      rw [hL, ← card_filter_range (fun x => !p x) v]
      congr 1
      apply Finset.filter_congr
      intro i _
      cases v[i]? with
      | none => simp
      | some x => simp
    have hC : ((Finset.range v.length).filter (fun i => (v[i]?).map p = some false)).filter
          (fun i => i < v1.length) =
        (Finset.range v1.length).filter (fun i => (v[i]?).map p = some false) := by
      ext i
      simp only [Finset.mem_filter, Finset.mem_range]
      constructor
      · rintro ⟨⟨_, hk⟩, hi⟩; exact ⟨hi, hk⟩
      · rintro ⟨hi, hk⟩; exact ⟨⟨by omega, hk⟩, hi⟩
    have hB : (Finset.range v1.length).filter (fun i => ¬ (v[i]?).map p = some false) =
        (Finset.range v1.length).filter (fun i => (v[i]?).map p = some true) := by
      apply Finset.filter_congr
      intro i hi
      rw [Finset.mem_range] at hi
      rw [List.getElem?_eq_getElem (by omega)]
      cases p v[i] <;> simp
    have e1 := Finset.filter_card_add_filter_neg_card_eq_card
      (s := (Finset.range v.length).filter (fun i => (v[i]?).map p = some false))
      (fun i => i < v1.length)
    have e2 := Finset.filter_card_add_filter_neg_card_eq_card
      (s := Finset.range v1.length) (fun i => (v[i]?).map p = some false)
    rw [hC, hK] at e1
    rw [hB, Finset.card_range] at e2
    rw [hA]
    omega
  · rw [← card_filter_range p v]
    apply Finset.card_le_card
    intro i
    simp only [Finset.mem_filter, Finset.mem_range]
    rintro ⟨hi, hk⟩
    exact ⟨by omega, hk⟩

/-- C29, at the vector `[1, 0, 2, 0]` with `p x := (x == 0)` and an empty index
map. -/
theorem prune_relocation_witness :
    ([1, 0, 2, 0] : List Nat).length < 2 ^ 32 ∧
    ∃ v1 m1, prune (fun x => x == 0) ([1, 0, 2, 0] : List Nat) (some []) = some (v1, some m1) ∧
      v1.length = ([1, 0, 2, 0] : List Nat).countP (fun x => !(x == 0)) ∧
      (∀ (i : Nat) (x : Nat), ([1, 0, 2, 0] : List Nat)[i]? = some x → (x == 0) = false →
        i < v1.length → m1[i]? = some i) ∧
      ((Finset.range ([1, 0, 2, 0] : List Nat).length).filter
        (fun i => (([1, 0, 2, 0] : List Nat)[i]?).map (fun x => x == 0) = some false ∧
          m1[i]? ≠ some i)).card =
        ((Finset.range v1.length).filter
          (fun i => (([1, 0, 2, 0] : List Nat)[i]?).map (fun x => x == 0) = some true)).card ∧
      ((Finset.range v1.length).filter
        (fun i => (([1, 0, 2, 0] : List Nat)[i]?).map (fun x => x == 0) = some true)).card ≤
        ([1, 0, 2, 0] : List Nat).countP (fun x => x == 0) :=
  ⟨by decide, prune_relocation (fun x => x == 0) [1, 0, 2, 0] [] (by decide)⟩

end Util

namespace DynamicMesh

theorem sameButVisited_refl (s : DynamicMesh) : SameButVisited s s :=
  ⟨rfl, rfl, rfl, rfl, rfl, rfl, rfl, rfl⟩

theorem sameButVisited_vertexIndices (s t : DynamicMesh) (h : SameButVisited s t) (i : Nat) :
    t.vertexIndices i = s.vertexIndices i := by
  unfold vertexIndices isFreeFace
  rw [h.1, h.2.2.2.1]

theorem sameButVisited_setV (s t : DynamicMesh) (h : SameButVisited s t) (j x : Nat) :
    SameButVisited s { t with vertexVisited := t.vertexVisited.set j x } := by
  obtain ⟨h1, h2, h3, h4, h5, h6, h7, h8⟩ := h
  exact ⟨h1, h2, h3, h4, h5, h6, by simp [h7], h8⟩

theorem sameButVisited_setF (s t : DynamicMesh) (h : SameButVisited s t) (j x : Nat) :
    SameButVisited s { t with faceVisited := t.faceVisited.set j x } := by
  obtain ⟨h1, h2, h3, h4, h5, h6, h7, h8⟩ := h
  exact ⟨h1, h2, h3, h4, h5, h6, h7, by simp [h8]⟩

/-- The state of `forEachVertex (faces, f)` between two visits: only visited
flags have changed, no vertex was passed to `f` twice, and the flag of a vertex
is set exactly when it was passed to `f`. -/
theorem visitVertex_callFn (s : DynamicMesh) (st : DynamicMesh × List Nat) (j : Nat)
    (hj : j < s.vertexVisited.length) (hf : SameButVisited s st.1) (hn : st.2.Nodup)
    (hv : ∀ v, v < s.vertexVisited.length →
      st.1.vertexVisited[v]? = some (if v ∈ st.2 then 1 else 0)) :
    ∃ st1, visitVertex callFn j st = some st1 ∧ SameButVisited s st1.1 ∧ st1.2.Nodup ∧
      (∀ v, v < s.vertexVisited.length →
        st1.1.vertexVisited[v]? = some (if v ∈ st1.2 then 1 else 0)) ∧
      st1.1.faceVisited = st.1.faceVisited ∧
      ∀ v, v ∈ st1.2 ↔ (v ∈ st.2 ∨ v = j) := by
  unfold visitVertex
  rw [hv j hj]
  by_cases hm : j ∈ st.2
  · rw [if_pos hm]
    simp only [one_ne_zero, if_false]
    refine ⟨st, rfl, hf, hn, hv, rfl, fun v => ?_⟩
    constructor
    · exact fun h => Or.inl h
    · rintro (h | h)
      · exact h
      · rw [h]; exact hm
  · rw [if_neg hm]
    simp only [if_true]
    refine ⟨_, rfl, sameButVisited_setV s st.1 hf j 1, ?_, ?_, rfl, ?_⟩
    · show (st.2 ++ [j]).Nodup
      rw [List.nodup_append]
      refine ⟨hn, List.nodup_singleton j, ?_⟩
      intro a ha hb
      rw [List.mem_singleton] at hb
      subst hb
      exact hm ha
    · intro v hlt
      show (st.1.vertexVisited.set j 1)[v]? = some (if v ∈ st.2 ++ [j] then 1 else 0)
      by_cases hvj : v = j
      · subst hvj
        rw [List.getElem?_set_self (by rw [hf.2.2.2.2.2.2.1]; exact hj)]
        simp
      · rw [List.getElem?_set_ne (Ne.symm hvj), hv v hlt]
        simp [hvj]
    · intro v
      show v ∈ st.2 ++ [j] ↔ _
      simp

theorem visitVertices_callFn (s : DynamicMesh) (hinv : MeshInv s)
    (st : DynamicMesh × List Nat) (i : Nat)
    (hi : s.liveFace i = true) (hf : SameButVisited s st.1) (hn : st.2.Nodup)
    (hv : ∀ v, v < s.vertexVisited.length →
      st.1.vertexVisited[v]? = some (if v ∈ st.2 then 1 else 0)) :
    ∃ st1, visitVertices callFn i st = some st1 ∧ SameButVisited s st1.1 ∧ st1.2.Nodup ∧
      (∀ v, v < s.vertexVisited.length →
        st1.1.vertexVisited[v]? = some (if v ∈ st1.2 then 1 else 0)) ∧
      ∀ v, v ∈ st1.2 ↔ (v ∈ st.2 ∨ v ∈ s.triple i) := by
  have hidx : s.vertexIndices i = some (s.mesh.indices.getD (3 * i) 0,
      s.mesh.indices.getD (3 * i + 1) 0, s.mesh.indices.getD (3 * i + 2) 0) :=
    (vertexIndices_iff s hinv.1 i _ _ _).mpr ⟨hi, rfl⟩
  have hlt : ∀ x ∈ s.triple i, x < s.vertexVisited.length := by
    intro x hx
    rw [hinv.1.2.2.1]
    exact liveVertex_lt s x (hinv.2.2.1.1 i hi x hx)
  have ha := hlt (s.mesh.indices.getD (3 * i) 0) (by simp [triple])
  have hb := hlt (s.mesh.indices.getD (3 * i + 1) 0) (by simp [triple])
  have hc := hlt (s.mesh.indices.getD (3 * i + 2) 0) (by simp [triple])
  obtain ⟨st1, e1, f1, n1, v1, w1, m1⟩ := visitVertex_callFn s st _ ha hf hn hv
  obtain ⟨st2, e2, f2, n2, v2, w2, m2⟩ := visitVertex_callFn s st1 _ hb f1 n1 v1
  obtain ⟨st3, e3, f3, n3, v3, w3, m3⟩ := visitVertex_callFn s st2 _ hc f2 n2 v2
  have hfl : i < st3.1.faceVisited.length := by
    rw [f3.2.2.2.2.2.2.2, hinv.1.2.2.2.2]
    exact liveFace_lt s i hi
  refine ⟨({ st3.1 with faceVisited := st3.1.faceVisited.set i 1 }, st3.2), ?_,
    sameButVisited_setF s st3.1 f3 i 1, n3, v3, ?_⟩
  · unfold visitVertices
    rw [sameButVisited_vertexIndices s st.1 hf, hidx]
    simp only [e1, e2, e3]
    rw [if_pos hfl]
  · intro v
    show v ∈ st3.2 ↔ _
    rw [m3, m2, m1]
    simp only [triple, List.mem_cons, List.mem_singleton, List.not_mem_nil, or_false]
    tauto

theorem visitLoop_callFn (s : DynamicMesh) (hinv : MeshInv s) :
    ∀ (faces : List Nat) (st : DynamicMesh × List Nat),
      (∀ f ∈ faces, s.liveFace f = true) → SameButVisited s st.1 → st.2.Nodup →
      (∀ v, v < s.vertexVisited.length →
        st.1.vertexVisited[v]? = some (if v ∈ st.2 then 1 else 0)) →
      ∃ st1, visitLoop callFn faces st = some st1 ∧ SameButVisited s st1.1 ∧ st1.2.Nodup ∧
        ∀ v, v ∈ st1.2 ↔ (v ∈ st.2 ∨ ∃ f ∈ faces, v ∈ s.triple f) := by
  intro faces
  induction faces with
  | nil =>
    intro st _ hf hn _
    exact ⟨st, rfl, hf, hn, fun v => by simp⟩
  | cons i rest ih =>
    intro st hl hf hn hv
    obtain ⟨st1, e1, f1, n1, v1, m1⟩ :=
      visitVertices_callFn s hinv st i (hl i (List.mem_cons_self i rest)) hf hn hv
    obtain ⟨st2, e2, f2, n2, m2⟩ :=
      ih st1 (fun f hfm => hl f (List.mem_cons_of_mem i hfm)) f1 n1 v1
    refine ⟨st2, ?_, f2, n2, ?_⟩
    · show (match visitVertices callFn i st with
        | none => none
        | some st1 => visitLoop callFn rest st1) = some st2
      rw [e1]; exact e2
    · intro v
      rw [m2, m1]
      simp only [List.mem_cons, exists_eq_or_imp]
      tauto

end DynamicMesh

namespace DynamicMesh

theorem wing_eq : addFace 1 tri4 1 3 2 = some (wing, 1) := by
  have h := root_approx ⟨1 / 3, 1 / 3, 1 / 3⟩ (by norm_num) (by norm_num) (by norm_num)
  have hi : (insert 1 {0} : Finset ℕ) = {0, 1} := by decide
  simp [addFace, tri4, tri, triMesh, Mesh.numVertices, Mesh.numIndices, addFaceSlot, numFaces,
    Mesh.addIndex, addAdjacent, VertexData.addAdjacentFace, addFaceToOctree, face, vertexIndices,
    isFreeFace, Mesh.index, Mesh.vertex, PrimTriangle.center, PrimTriangle.maxDimExtent,
    DynamicOctree.addElement, DynamicOctree.hasRoot, Child.isSome, nodeAddElement,
    insertIntoChild, relativeMinElementExtent, DynamicOctree.addToElementNodeMap, Util.resize,
    wing]
  norm_num
  simp only [h, if_true, hi]

theorem wing_reachable (L : Prop) : ReachableWith L wing :=
  ReachableWith.step tri4 wing (tri4_reachable L)
    (Step.addFace 1 _ _ 1 3 2 1 (fun _ => ⟨rfl, rfl, rfl⟩) wing_eq)
    (by unfold Fits wing tri4 tri; simp)

end DynamicMesh

namespace DynamicMesh

theorem visitFace_spec (s : DynamicMesh) (st : DynamicMesh × List Nat) (a : Nat)
    (ha : a < s.faceVisited.length) (hI : FaceExtInv s st) :
    ∃ st1, visitFace a st = some st1 ∧ FaceExtInv s st1 ∧
      st1.1.vertexVisited = st.1.vertexVisited ∧ ∀ g, g ∈ st1.2 ↔ (g ∈ st.2 ∨ g = a) := by
  obtain ⟨hf, hn, hv⟩ := hI
  unfold visitFace
  rw [hv a ha]
  by_cases hm : a ∈ st.2
  · rw [if_pos hm]
    simp only [one_ne_zero, if_false]
    refine ⟨st, rfl, ⟨hf, hn, hv⟩, rfl, fun g => ?_⟩
    constructor
    · exact fun h => Or.inl h
    · rintro (h | h)
      · exact h
      · rw [h]; exact hm
  · rw [if_neg hm]
    simp only [if_true, callFn]
    refine ⟨_, rfl, ⟨sameButVisited_setF s st.1 hf a 1, ?_, ?_⟩, rfl, ?_⟩
    · show (st.2 ++ [a]).Nodup
      rw [List.nodup_append]
      refine ⟨hn, List.nodup_singleton a, ?_⟩
      intro b hb hc
      rw [List.mem_singleton] at hc
      subst hc
      exact hm hb
    · intro g hlt
      show (st.1.faceVisited.set a 1)[g]? = some (if g ∈ st.2 ++ [a] then 1 else 0)
      by_cases hga : g = a
      · subst hga
        rw [List.getElem?_set_self (by rw [hf.2.2.2.2.2.2.2]; exact ha)]
        simp
      · rw [List.getElem?_set_ne (Ne.symm hga), hv g hlt]
        simp [hga]
    · intro g
      show g ∈ st.2 ++ [a] ↔ _
      simp

theorem faceLoop_spec (s : DynamicMesh) :
    ∀ (l : List Nat) (st : DynamicMesh × List Nat), (∀ a ∈ l, a < s.faceVisited.length) →
      FaceExtInv s st →
      ∃ st1, faceLoop l st = some st1 ∧ FaceExtInv s st1 ∧
        st1.1.vertexVisited = st.1.vertexVisited ∧ ∀ g, g ∈ st1.2 ↔ (g ∈ st.2 ∨ g ∈ l) := by
  intro l
  induction l with
  | nil =>
    intro st _ hI
    exact ⟨st, rfl, hI, rfl, fun g => by simp⟩
  | cons a rest ih =>
    intro st hl hI
    obtain ⟨st1, e1, i1, v1, m1⟩ := visitFace_spec s st a (hl a (List.mem_cons_self a rest)) hI
    obtain ⟨st2, e2, i2, v2, m2⟩ := ih st1 (fun b hb => hl b (List.mem_cons_of_mem a hb)) i1
    refine ⟨st2, ?_, i2, by rw [v2, v1], ?_⟩
    · show (match visitFace a st with
        | none => none
        | some st1 => faceLoop rest st1) = some st2
      rw [e1]; exact e2
    · intro g
      rw [m2, m1, List.mem_cons]
      tauto

theorem faceCallback_spec (s : DynamicMesh) (hinv : MeshInv s) (st : DynamicMesh × List Nat)
    (j : Nat) (hj : j < s.vertexData.length) (hI : FaceExtInv s st) :
    ∃ st1, faceCallback j st = some st1 ∧ FaceExtInv s st1 ∧
      st1.1.vertexVisited = st.1.vertexVisited ∧
      ∀ g, g ∈ st1.2 ↔ (g ∈ st.2 ∨ g ∈ s.adjacent j) := by
  have hd : st.1.vertexData[j]? = some s.vertexData[j] := by
    rw [hI.1.2.1, List.getElem?_eq_getElem hj]
  have hadj : s.vertexData[j].adjacentFaces = s.adjacent j := by
    unfold adjacent VertexData.adjacentIn
    rw [List.getElem?_eq_getElem hj]
  have hl : ∀ a ∈ s.adjacent j, a < s.faceVisited.length := by
    intro a ha
    rw [hinv.1.2.2.2.2]
    exact liveFace_lt s a (adjacent_live s hinv.2.2.1 j a ha).1
  obtain ⟨st1, e1, i1, v1, m1⟩ := faceLoop_spec s (s.adjacent j) st hl hI
  refine ⟨st1, ?_, i1, v1, m1⟩
  unfold faceCallback
  rw [hd]
  show faceLoop s.vertexData[j].adjacentFaces st = some st1
  rw [hadj]
  exact e1

theorem visitVertex_faceCallback (s : DynamicMesh) (hinv : MeshInv s)
    (st : DynamicMesh × List Nat) (j : Nat) (hj : j < s.vertexData.length)
    (hI : FaceExtInv s st) (hV : VertexDone s st) :
    ∃ st1, visitVertex faceCallback j st = some st1 ∧ FaceExtInv s st1 ∧ VertexDone s st1 ∧
      ∀ g, g ∈ st1.2 ↔ (g ∈ st.2 ∨ g ∈ s.adjacent j) := by
  have hjv : j < s.vertexVisited.length := by rw [hinv.1.2.2.1]; exact hj
  obtain ⟨x, hx, hxa⟩ := hV j hjv
  unfold visitVertex
  rw [hx]
  dsimp only
  by_cases h0 : x = 0
  · rw [if_pos h0]
    have hI1 : FaceExtInv s
        ({ st.1 with vertexVisited := st.1.vertexVisited.set j 1 }, st.2) :=
      ⟨sameButVisited_setV s st.1 hI.1 j 1, hI.2.1, hI.2.2⟩
    obtain ⟨st1, e1, i1, v1, m1⟩ := faceCallback_spec s hinv _ j hj hI1
    refine ⟨st1, e1, i1, ?_, m1⟩
    intro v hv
    rw [v1]
    show ∃ y, (st.1.vertexVisited.set j 1)[v]? = some y ∧ _
    by_cases hvj : v = j
    · subst hvj
      refine ⟨1, List.getElem?_set_self (by rw [hI.1.2.2.2.2.2.2.1]; exact hjv), ?_⟩
      intro _ g hg
      exact (m1 g).mpr (Or.inr hg)
    · obtain ⟨y, hy, hya⟩ := hV v hv
      refine ⟨y, by rw [List.getElem?_set_ne (Ne.symm hvj)]; exact hy, ?_⟩
      intro hy0 g hg
      exact (m1 g).mpr (Or.inl (hya hy0 g hg))
  · rw [if_neg h0]
    refine ⟨st, rfl, hI, hV, fun g => ?_⟩
    constructor
    · exact fun h => Or.inl h
    · rintro (h | h)
      · exact h
      · exact hxa h0 g h

theorem visitVertices_faceCallback (s : DynamicMesh) (hinv : MeshInv s)
    (st : DynamicMesh × List Nat) (i : Nat) (hi : s.liveFace i = true) (hm : i ∈ st.2)
    (hI : FaceExtInv s st) (hV : VertexDone s st) :
    ∃ st1, visitVertices faceCallback i st = some st1 ∧ FaceExtInv s st1 ∧
      VertexDone s st1 ∧
      ∀ g, g ∈ st1.2 ↔ (g ∈ st.2 ∨ ∃ v ∈ s.triple i, g ∈ s.adjacent v) := by
  have hidx : s.vertexIndices i = some (s.mesh.indices.getD (3 * i) 0,
      s.mesh.indices.getD (3 * i + 1) 0, s.mesh.indices.getD (3 * i + 2) 0) :=
    (vertexIndices_iff s hinv.1 i _ _ _).mpr ⟨hi, rfl⟩
  have hlt : ∀ x ∈ s.triple i, x < s.vertexData.length :=
    fun x hx => liveVertex_lt s x (hinv.2.2.1.1 i hi x hx)
  have ha := hlt (s.mesh.indices.getD (3 * i) 0) (by simp [triple])
  have hb := hlt (s.mesh.indices.getD (3 * i + 1) 0) (by simp [triple])
  have hc := hlt (s.mesh.indices.getD (3 * i + 2) 0) (by simp [triple])
  obtain ⟨st1, e1, i1, d1, m1⟩ := visitVertex_faceCallback s hinv st _ ha hI hV
  obtain ⟨st2, e2, i2, d2, m2⟩ := visitVertex_faceCallback s hinv st1 _ hb i1 d1
  obtain ⟨st3, e3, i3, d3, m3⟩ := visitVertex_faceCallback s hinv st2 _ hc i2 d2
  have hif : i < s.faceVisited.length := by
    rw [hinv.1.2.2.2.2]; exact liveFace_lt s i hi
  have hfl : i < st3.1.faceVisited.length := by
    rw [i3.1.2.2.2.2.2.2.2]; exact hif
  have hm3 : i ∈ st3.2 := by
    rw [m3, m2, m1]; exact Or.inl (Or.inl (Or.inl hm))
  have hset : st3.1.faceVisited.set i 1 = st3.1.faceVisited := by
    apply List.ext_getElem?
    intro g
    by_cases hg : g = i
    · subst hg
      rw [List.getElem?_set_self hfl, i3.2.2 g hif, if_pos hm3]
    · rw [List.getElem?_set_ne (Ne.symm hg)]
  refine ⟨st3, ?_, i3, d3, ?_⟩
  · unfold visitVertices
    rw [sameButVisited_vertexIndices s st.1 hI.1, hidx]
    simp only [e1, e2, e3]
    rw [if_pos hfl, hset]
  · intro g
    rw [m3, m2, m1]
    simp only [triple, List.mem_cons, List.mem_singleton, List.not_mem_nil, or_false,
      exists_eq_or_imp, exists_eq_left]
    tauto

theorem faceExtLoop_spec (s : DynamicMesh) (hinv : MeshInv s) :
    ∀ (faces : List Nat) (st : DynamicMesh × List Nat),
      (∀ f ∈ faces, s.liveFace f = true) → FaceExtInv s st → VertexDone s st →
      ∃ st1, faceExtLoop faces st = some st1 ∧ FaceExtInv s st1 ∧
        ∀ g, g ∈ st1.2 ↔
          (g ∈ st.2 ∨ g ∈ faces ∨ ∃ f ∈ faces, ∃ v ∈ s.triple f, g ∈ s.adjacent v) := by
  intro faces
  induction faces with
  | nil =>
    intro st _ hI _
    exact ⟨st, rfl, hI, fun g => by simp⟩
  | cons i rest ih =>
    intro st hl hI hV
    have hi := hl i (List.mem_cons_self i rest)
    have hif : i < s.faceVisited.length := by
      rw [hinv.1.2.2.2.2]; exact liveFace_lt s i hi
    obtain ⟨st1, e1, i1, v1, m1⟩ := visitFace_spec s st i hif hI
    have hV1 : VertexDone s st1 := by
      intro v hv
      obtain ⟨x, hx, hxa⟩ := hV v hv
      exact ⟨x, by rw [v1]; exact hx, fun h0 g hg => (m1 g).mpr (Or.inl (hxa h0 g hg))⟩
    obtain ⟨st2, e2, i2, d2, m2⟩ :=
      visitVertices_faceCallback s hinv st1 i hi ((m1 i).mpr (Or.inr rfl)) i1 hV1
    obtain ⟨st3, e3, i3, m3⟩ :=
      ih st2 (fun f hf => hl f (List.mem_cons_of_mem i hf)) i2 d2
    refine ⟨st3, ?_, i3, ?_⟩
    · show (match visitFace i st with
        | none => none
        | some st1 =>
          match visitVertices faceCallback i st1 with
          | none => none
          | some st2 => faceExtLoop rest st2) = some st3
      rw [e1]
      simp only [e2]
      exact e3
    · intro g
      have hx : (∃ f ∈ i :: rest, ∃ v ∈ s.triple f, g ∈ s.adjacent v) ↔
          ((∃ v ∈ s.triple i, g ∈ s.adjacent v) ∨
            ∃ f ∈ rest, ∃ v ∈ s.triple f, g ∈ s.adjacent v) := by
        simp only [List.mem_cons, exists_eq_or_imp]
      rw [m3, m2, m1, hx, List.mem_cons]
      generalize (∃ v ∈ s.triple i, g ∈ s.adjacent v) = P
      generalize (∃ f ∈ rest, ∃ v ∈ s.triple f, g ∈ s.adjacent v) = Q
      tauto

/-- C22, at its failing input: in the reachable mesh `wing` the face 1 with the
indices `(1, 3, 2)` is adjacent to the vertex 1 of the face 0 with the indices
`(0, 1, 2)`, so the vertex 3 belongs to the one-ring extension of the face 0;
`forEachVertexExt` on the face 0 calls `f` on the vertices 0, 1 and 2 only. The
lambda runs for the vertex 0, where the nested `visitVertices (0, f)` marks the
vertices 1 and 2 before the lambda could run for them. -/
theorem forEachVertexExt_misses :
    Reachable wing ∧ wing.isFreeFace 0 = some false ∧
    wing.vertexIndices 0 = some (0, 1, 2) ∧ wing.vertexIndices 1 = some (1, 3, 2) ∧
    1 ∈ wing.adjacent 1 ∧
    (forEachVertexExt wing [0]).map (fun r => r.2) = some [0, 1, 2] :=
  ⟨wing_reachable True, rfl, rfl, rfl, by decide, rfl⟩

end DynamicMesh

namespace MeshUtil

theorem findInSequence_none_iff (i : Nat) : ∀ (l : List (Nat × Nat)),
    findInSequence l i = none ↔ i ∉ l.map Prod.fst := by
  intro l
  induction l with
  | nil => simp [findInSequence]
  | cons p rest ih =>
    unfold findInSequence
    by_cases hp : p.1 = i
    · rw [if_pos hp]; simp [hp]
    · rw [if_neg hp, ih]
      simp only [List.map_cons, List.mem_cons, not_or]
      constructor
      · exact fun h => ⟨fun hc => hp hc.symm, h⟩
      · exact fun h => h.2

theorem findInSequence_append (k x i : Nat) : ∀ (l : List (Nat × Nat)),
    findInSequence l k = none →
    findInSequence (l ++ [(k, x)]) i = if i = k then some x else findInSequence l i := by
  intro l
  induction l with
  | nil =>
    intro _
    simp only [List.nil_append, findInSequence]
    by_cases h : k = i
    · rw [if_pos h, if_pos h.symm]
    · rw [if_neg h, if_neg (fun hc => h hc.symm)]
  | cons p rest ih =>
    intro hk
    unfold findInSequence at hk
    by_cases hp : p.1 = k
    · rw [if_pos hp] at hk; cases hk
    · rw [if_neg hp] at hk
      show findInSequence (p :: (rest ++ [(k, x)])) i = _
      unfold findInSequence
      by_cases hpi : p.1 = i
      · rw [if_pos hpi, if_pos hpi, if_neg (by rw [← hpi]; exact hp)]
      · rw [if_neg hpi, if_neg hpi]
        exact ih hk

theorem findInSequence_inc (k i : Nat) : ∀ (l : List (Nat × Nat)),
    findInSequence (incInSequence l k) i =
      if i = k then (findInSequence l k).map (fun c => (c + 1) % 2 ^ 32)
      else findInSequence l i := by
  intro l
  induction l with
  | nil => simp [incInSequence, findInSequence]
  | cons p rest ih =>
    unfold incInSequence
    by_cases hp : p.1 = k
    · rw [if_pos hp]
      unfold findInSequence
      dsimp only
      by_cases hi : i = k
      · rw [if_pos (by rw [hp, hi]), if_pos hi, if_pos hp]; rfl
      · rw [if_neg (by rw [hp]; exact fun hc => hi hc.symm), if_neg hi,
          if_neg (by rw [hp]; exact fun hc => hi hc.symm)]
    · rw [if_neg hp]
      unfold findInSequence
      by_cases hi : i = k
      · rw [if_neg (by rw [hi]; exact hp), if_pos hi, if_neg hp, ih, if_pos hi]
      · rw [if_neg hi]
        by_cases hpi : p.1 = i
        · rw [if_pos hpi, if_pos hpi]
        · rw [if_neg hpi, if_neg hpi, ih, if_neg hi]

theorem keys_incInSequence (k : Nat) : ∀ (l : List (Nat × Nat)),
    (incInSequence l k).map Prod.fst = l.map Prod.fst := by
  intro l
  induction l with
  | nil => rfl
  | cons p rest ih =>
    unfold incInSequence
    by_cases hp : p.1 = k
    · rw [if_pos hp]; rfl
    · rw [if_neg hp, List.map_cons, List.map_cons, ih]

theorem mem_iff_findInSequence : ∀ (l : List (Nat × Nat)), (l.map Prod.fst).Nodup →
    ∀ p : Nat × Nat, p ∈ l ↔ findInSequence l p.1 = some p.2 := by
  intro l
  induction l with
  | nil => intro _ p; simp [findInSequence]
  | cons q rest ih =>
    intro hn p
    rw [List.map_cons, List.nodup_cons] at hn
    unfold findInSequence
    by_cases hq : q.1 = p.1
    · rw [if_pos hq, List.mem_cons]
      constructor
      · rintro (h | h)
        · rw [h]
        · exact absurd (List.mem_map_of_mem Prod.fst h) (by rw [← hq]; exact hn.1)
      · intro h
        left
        simp only [Option.some.injEq] at h
        exact (Prod.ext hq h).symm
    · rw [if_neg hq, List.mem_cons, ← ih hn.2 p]
      constructor
      · rintro (h | h)
        · exact absurd (by rw [h]) hq
        · exact h
      · exact fun h => Or.inr h

theorem vertexCounts_congr (n : Nat) (counts : List Nat) (C C1 : Nat → Nat)
    (h : VertexCounts n counts C) (hc : ∀ v, C v = C1 v) : VertexCounts n counts C1 :=
  ⟨h.1, fun v hv => by rw [← hc v]; exact h.2 v hv⟩

theorem edgeCounts_congr (n : Nat) (e : List (List (Nat × Nat))) (F F1 : Nat → Nat → Nat)
    (h : EdgeCounts n e F) (hc : ∀ a b, F a b = F1 a b) : EdgeCounts n e F1 :=
  ⟨h.1, fun a sequence hs => ⟨(h.2 a sequence hs).1, fun b => by
    rw [← hc a b]; exact (h.2 a sequence hs).2 b⟩⟩

theorem incAt_spec (n : Nat) (counts : List Nat) (C : Nat → Nat) (i : Nat)
    (h : VertexCounts n counts C) (hi : i < n) (hb : C i + 1 < 2 ^ 32) :
    ∃ c1, incAt counts i = some c1 ∧
      VertexCounts n c1 (fun v => C v + if v = i then 1 else 0) := by
  unfold incAt
  rw [h.2 i hi]
  refine ⟨_, rfl, by simp [h.1], ?_⟩
  intro v hv
  dsimp only
  by_cases hvi : v = i
  · subst hvi
    rw [List.getElem?_set_self (by rw [h.1]; exact hv), if_pos rfl, Nat.mod_eq_of_lt hb]
  · rw [List.getElem?_set_ne (Ne.symm hvi), h.2 v hv, if_neg hvi, Nat.add_zero]

theorem increase_spec (n : Nat) (e : List (List (Nat × Nat))) (F : Nat → Nat → Nat)
    (i1 i2 : Nat) (h : EdgeCounts n e F) (hne : i1 ≠ i2) (h1 : i1 < n) (h2 : i2 < n)
    (hb : F (min i1 i2) (max i1 i2) + 1 < 2 ^ 32) :
    ∃ e1, increase e i1 i2 = some e1 ∧
      EdgeCounts n e1 (fun a b => F a b + if a = min i1 i2 ∧ b = max i1 i2 then 1 else 0) := by
  have hlt : min i1 i2 < e.length := by
    rw [h.1]
    rcases Nat.lt_or_gt_of_ne hne with hc | hc
    · rw [Nat.min_eq_left (Nat.le_of_lt hc)]; omega
    · rw [Nat.min_eq_right (Nat.le_of_lt hc)]; omega
  have hs := h.2 (min i1 i2) e[min i1 i2] (List.getElem?_eq_getElem hlt)
  unfold increase
  rw [List.getElem?_eq_getElem hlt]
  dsimp only
  by_cases hF : 0 < F (min i1 i2) (max i1 i2)
  · rw [hs.2 (max i1 i2), if_pos hF]
    dsimp only
    refine ⟨_, rfl, by simp [h.1], ?_⟩
    intro a sequence ha
    by_cases ham : a = min i1 i2
    · subst ham
      rw [List.getElem?_set_self hlt] at ha
      cases ha
      refine ⟨by rw [keys_incInSequence]; exact hs.1, fun b => ?_⟩
      rw [findInSequence_inc]
      dsimp only
      by_cases hbm : b = max i1 i2
      · subst hbm
        rw [if_pos rfl, hs.2, if_pos hF, if_pos (⟨rfl, rfl⟩ : min i1 i2 = min i1 i2 ∧ _),
          if_pos (by omega)]
        simp only [Option.map_some', Nat.mod_eq_of_lt hb]
      · rw [if_neg hbm, hs.2 b,
          if_neg (fun hc : min i1 i2 = min i1 i2 ∧ b = max i1 i2 => hbm hc.2), Nat.add_zero]
    · rw [List.getElem?_set_ne (Ne.symm ham)] at ha
      refine ⟨(h.2 a sequence ha).1, fun b => ?_⟩
      dsimp only
      rw [(h.2 a sequence ha).2 b,
        if_neg (fun hc : a = min i1 i2 ∧ b = max i1 i2 => ham hc.1), Nat.add_zero]
  · rw [hs.2 (max i1 i2), if_neg hF]
    dsimp only
    have hnone : findInSequence e[min i1 i2] (max i1 i2) = none := by
      rw [hs.2, if_neg hF]
    refine ⟨_, rfl, by simp [h.1], ?_⟩
    intro a sequence ha
    by_cases ham : a = min i1 i2
    · subst ham
      rw [List.getElem?_set_self hlt] at ha
      cases ha
      constructor
      · rw [List.map_append, List.nodup_append]
        refine ⟨hs.1, List.nodup_singleton _, ?_⟩
        intro x hx hy
        simp only [List.map_cons, List.map_nil, List.mem_singleton] at hy
        subst hy
        exact (findInSequence_none_iff _ _).mp hnone hx
      · intro b
        rw [findInSequence_append _ _ _ _ hnone]
        dsimp only
        by_cases hbm : b = max i1 i2
        · subst hbm
          have hz : F (min i1 i2) (max i1 i2) = 0 := by omega
          rw [if_pos rfl, if_pos (⟨rfl, rfl⟩ : min i1 i2 = min i1 i2 ∧ _), hz,
            if_pos (by omega)]
        · rw [if_neg hbm, hs.2 b,
            if_neg (fun hc : min i1 i2 = min i1 i2 ∧ b = max i1 i2 => hbm hc.2), Nat.add_zero]
    · rw [List.getElem?_set_ne (Ne.symm ham)] at ha
      refine ⟨(h.2 a sequence ha).1, fun b => ?_⟩
      dsimp only
      rw [(h.2 a sequence ha).2 b,
        if_neg (fun hc : a = min i1 i2 ∧ b = max i1 i2 => ham hc.1), Nat.add_zero]

end MeshUtil

namespace MeshUtil

theorem countP_snoc {α : Type} (p : α → Bool) (l : List α) (x : α) :
    (l ++ [x]).countP p = l.countP p + if p x = true then 1 else 0 := by
  rw [List.countP_append, List.countP_cons, List.countP_nil, Nat.zero_add]

theorem isCorner_sum (v i1 i2 i3 : Nat) (h12 : i1 ≠ i2) (h13 : i1 ≠ i3) (h23 : i2 ≠ i3) :
    ((if v = i1 then 1 else 0) + (if v = i2 then 1 else 0) + if v = i3 then 1 else 0) =
      if isCorner v (i1, i2, i3) = true then 1 else 0 := by
  unfold isCorner
  simp only [Bool.or_eq_true, decide_eq_true_eq]
  split_ifs <;> omega

theorem hasEdge_sum (a b i1 i2 i3 : Nat) (h12 : i1 ≠ i2) (h13 : i1 ≠ i3) (h23 : i2 ≠ i3) :
    ((if a = min i1 i2 ∧ b = max i1 i2 then 1 else 0) +
      (if a = min i1 i3 ∧ b = max i1 i3 then 1 else 0) +
      if a = min i2 i3 ∧ b = max i2 i3 then 1 else 0) =
      if a < b then (if hasEdge a b (i1, i2, i3) = true then 1 else 0) else 0 := by
  unfold hasEdge
  simp only [Bool.or_eq_true, decide_eq_true_eq, Nat.min_def, Nat.max_def]
  split_ifs <;> omega

theorem mem_triangles : ∀ (l : List Nat) (t : Nat × Nat × Nat), t ∈ triangles l →
    t.1 ∈ l ∧ t.2.1 ∈ l ∧ t.2.2 ∈ l
  | [], t, h => by simp [triangles] at h
  | [_], t, h => by simp [triangles] at h
  | [_, _], t, h => by simp [triangles] at h
  | i1 :: i2 :: i3 :: rest, t, h => by
    rw [triangles, List.mem_cons] at h
    rcases h with h | h
    · subst h; simp
    · have := mem_triangles rest t h
      simp [this.1, this.2.1, this.2.2]

theorem length_triangles : ∀ (l : List Nat), (triangles l).length ≤ l.length
  | [] => by simp [triangles]
  | [_] => by simp [triangles]
  | [_, _] => by simp [triangles]
  | _ :: _ :: _ :: rest => by
    have := length_triangles rest
    simp only [triangles, List.length_cons]
    omega

/-- The first loop of `checkConsistency`, after the triangles `P`, over the
indices `l`: it gets past every assertion, and ends with the corner counts and
the edge counts of all triangles. -/
theorem countFaces_spec (n : Nat) : ∀ (l : List Nat) (P : List (Nat × Nat × Nat))
    (counts : List Nat) (e : List (List (Nat × Nat))),
    l.length % 3 = 0 → (∀ x ∈ l, x < n) →
    (∀ t ∈ triangles l, t.1 ≠ t.2.1 ∧ t.1 ≠ t.2.2 ∧ t.2.1 ≠ t.2.2) →
    P.length + l.length < 2 ^ 32 →
    VertexCounts n counts (fun v => P.countP (isCorner v)) →
    EdgeCounts n e (fun a b => if a < b then P.countP (hasEdge a b) else 0) →
    ∃ c1 e1, countFaces l counts e = some (c1, e1) ∧
      VertexCounts n c1 (fun v => (P ++ triangles l).countP (isCorner v)) ∧
      EdgeCounts n e1 (fun a b => if a < b then (P ++ triangles l).countP (hasEdge a b) else 0)
  | [], P, counts, e, _, _, _, _, hc, he => by
    refine ⟨counts, e, rfl, ?_, ?_⟩
    · simpa [triangles] using hc
    · simpa [triangles] using he
  | [_], _, _, _, h3, _, _, _, _, _ => by simp at h3
  | [_, _], _, _, _, h3, _, _, _, _, _ => by simp at h3
  | i1 :: i2 :: i3 :: rest, P, counts, e, h3, hv, hd, hb, hc, he => by
    have hd0 := hd (i1, i2, i3) (by simp [triangles])
    obtain ⟨h12, h13, h23⟩ := hd0
    dsimp only at h12 h13 h23
    have v1 : i1 < n := hv i1 (by simp)
    have v2 : i2 < n := hv i2 (by simp)
    have v3 : i3 < n := hv i3 (by simp)
    have hlen : P.length + 3 < 2 ^ 32 := by
      simp only [List.length_cons] at hb; omega
    have cle : ∀ v, P.countP (isCorner v) ≤ P.length := fun v => List.countP_le_length _
    have ele : ∀ a b, P.countP (hasEdge a b) ≤ P.length := fun a b => List.countP_le_length _
    obtain ⟨c1, e1, k1⟩ := incAt_spec n counts _ i1 hc v1 (by have := cle i1; omega)
    obtain ⟨c2, e2, k2⟩ := incAt_spec n c1 _ i2 k1 v2 (by
      have := cle i2; rw [if_neg (Ne.symm h12)]; omega)
    obtain ⟨c3, e3, k3⟩ := incAt_spec n c2 _ i3 k2 v3 (by
      have := cle i3; rw [if_neg (Ne.symm h13), if_neg (Ne.symm h23)]; omega)
    obtain ⟨d1, f1, g1⟩ := increase_spec n e _ i1 i2 he h12 v1 v2 (by
      have := ele (min i1 i2) (max i1 i2); split_ifs <;> omega)
    obtain ⟨d2, f2, g2⟩ := increase_spec n d1 _ i1 i3 g1 h13 v1 v3 (by
      have := ele (min i1 i3) (max i1 i3); split_ifs <;> omega)
    obtain ⟨d3, f3, g3⟩ := increase_spec n d2 _ i2 i3 g2 h23 v2 v3 (by
      have := ele (min i2 i3) (max i2 i3); split_ifs <;> omega)
    have k3' : VertexCounts n c3 (fun v => (P ++ [(i1, i2, i3)]).countP (isCorner v)) := by
      apply vertexCounts_congr n c3 _ _ k3
      intro v
      dsimp only
      rw [countP_snoc, ← isCorner_sum v i1 i2 i3 h12 h13 h23]
      omega
    have g3' : EdgeCounts n d3
        (fun a b => if a < b then (P ++ [(i1, i2, i3)]).countP (hasEdge a b) else 0) := by
      apply edgeCounts_congr n d3 _ _ g3
      intro a b
      dsimp only
      have hs := hasEdge_sum a b i1 i2 i3 h12 h13 h23
      rw [countP_snoc]
      by_cases hab : a < b
      · rw [if_pos hab] at hs ⊢
        rw [if_pos hab, ← hs]
        omega
      · rw [if_neg hab] at hs ⊢
        rw [if_neg hab]
        omega
    obtain ⟨c4, e4, r1, r2, r3⟩ := countFaces_spec n rest (P ++ [(i1, i2, i3)]) c3 d3
      (by simp only [List.length_cons] at h3; omega)
      (fun x hx => hv x (by simp [hx]))
      (fun t ht => hd t (by rw [triangles]; exact List.mem_cons_of_mem _ ht))
      (by simp only [List.length_cons, List.length_append, List.length_nil] at hb ⊢; omega)
      k3' g3'
    refine ⟨c4, e4, ?_, ?_, ?_⟩
    · rw [countFaces]
      simp only [e1, e2, e3, f1, f2, f3]
      exact r1
    · rw [triangles, List.append_cons]
      exact r2
    · rw [triangles, List.append_cons]
      exact r3

end MeshUtil

namespace MeshUtil

theorem hasEdge_comm (a b : Nat) (t : Nat × Nat × Nat) : hasEdge a b t = hasEdge b a t := by
  rw [Bool.eq_iff_iff]
  unfold hasEdge
  simp only [Bool.or_eq_true, decide_eq_true_eq]
  tauto

theorem hasEdge_lt (n a b : Nat) (t : Nat × Nat × Nat) (h : hasEdge a b t = true)
    (ht : t.1 < n ∧ t.2.1 < n ∧ t.2.2 < n) : a < n ∧ b < n := by
  unfold hasEdge at h
  simp only [Bool.or_eq_true, decide_eq_true_eq] at h
  omega

/-- C25. For every mesh whose index list has fewer than `2^32` entries, a
multiple of 3, all of them valid vertex ids, forming triangles with three
distinct vertices: `MeshUtil::checkConsistency` returns, and it returns true
exactly when the mesh has at least one vertex, every vertex is a corner of at
least 3 triangles, and every unordered pair of vertices that is an edge of some
triangle is an edge of exactly 2 triangles. -/
theorem checkConsistency_iff (m : Mesh) (hlen : m.indices.length < 2 ^ 32)
    (h3 : m.indices.length % 3 = 0) (hvalid : ∀ x ∈ m.indices, x < m.numVertices)
    (hdist : ∀ t ∈ triangles m.indices, t.1 ≠ t.2.1 ∧ t.1 ≠ t.2.2 ∧ t.2.1 ≠ t.2.2) :
    ∃ r, checkConsistency m = some r ∧
      (r = true ↔ (0 < m.numVertices ∧
        (∀ v, v < m.numVertices → 3 ≤ (triangles m.indices).countP (isCorner v)) ∧
        (∀ a b, a ≠ b → (∃ t ∈ triangles m.indices, hasEdge a b t = true) →
          (triangles m.indices).countP (hasEdge a b) = 2))) := by
  unfold checkConsistency
  by_cases hn : m.numVertices = 0
  · rw [if_pos hn]
    refine ⟨false, rfl, ?_⟩
    constructor
    · intro h; cases h
    · intro h; omega
  rw [if_neg hn]
  have hc0 : VertexCounts m.numVertices (Util.resize [] m.numVertices 0)
      (fun v => ([] : List (Nat × Nat × Nat)).countP (isCorner v)) := by
    refine ⟨by simp [Util.resize], fun v hv => ?_⟩
    simp [Util.resize, List.getElem?_replicate, hv]
  have he0 : EdgeCounts m.numVertices (Util.resize [] (m.numVertices - 1) [])
      (fun a b => if a < b then ([] : List (Nat × Nat × Nat)).countP (hasEdge a b) else 0) := by
    refine ⟨by simp [Util.resize], fun a sequence hs => ?_⟩
    simp only [Util.resize, List.take_nil, List.length_nil, Nat.sub_zero, List.nil_append,
      List.getElem?_replicate] at hs
    split at hs
    · cases hs
      refine ⟨by simp, fun b => ?_⟩
      simp [findInSequence]
    · cases hs
  obtain ⟨c1, e1, hcf, hC, hE⟩ := countFaces_spec m.numVertices m.indices [] _ _ h3 hvalid hdist
    (by simpa using hlen) hc0 he0
  rw [List.nil_append] at hC hE
  rw [hcf]
  dsimp only
  have hA : c1.any (fun c => decide (c < 3)) = true ↔
      ∃ v, v < m.numVertices ∧ (triangles m.indices).countP (isCorner v) < 3 := by
    rw [List.any_eq_true]
    constructor
    · rintro ⟨c, hc, hlt⟩
      obtain ⟨v, hv⟩ := List.mem_iff_getElem?.mp hc
      have hvn : v < m.numVertices := by
        rw [← hC.1]; exact Util.getElem?_lt_of_some hv
      rw [hC.2 v hvn] at hv
      cases hv
      exact ⟨v, hvn, by simpa using hlt⟩
    · rintro ⟨v, hvn, hlt⟩
      exact ⟨_, List.mem_iff_getElem?.mpr ⟨v, hC.2 v hvn⟩, by simpa using hlt⟩
  have hB : e1.any (fun sequence => sequence.any (fun p => decide (p.2 ≠ 2))) = true ↔
      ∃ a b, a ≠ b ∧ (∃ t ∈ triangles m.indices, hasEdge a b t = true) ∧
        (triangles m.indices).countP (hasEdge a b) ≠ 2 := by
    rw [List.any_eq_true]
    constructor
    · rintro ⟨sequence, hs, hp⟩
      rw [List.any_eq_true] at hp
      obtain ⟨p, hp, hne⟩ := hp
      obtain ⟨a, ha⟩ := List.mem_iff_getElem?.mp hs
      obtain ⟨hnd, hfind⟩ := hE.2 a sequence ha
      have hf := (mem_iff_findInSequence sequence hnd p).mp hp
      rw [hfind] at hf
      dsimp only at hf
      by_cases hab : a < p.1
      · rw [if_pos hab] at hf
        split at hf
        · rename_i hpos
          simp only [Option.some.injEq] at hf
          refine ⟨a, p.1, by omega, ?_, ?_⟩
          · obtain ⟨t, ht, hte⟩ := List.countP_pos_iff.mp hpos
            exact ⟨t, ht, hte⟩
          · rw [hf]; simpa using hne
        · cases hf
      · rw [if_neg hab] at hf
        simp at hf
    · rintro ⟨a, b, hab, ⟨t, ht, hte⟩, hne⟩
      have htl : t.1 < m.numVertices ∧ t.2.1 < m.numVertices ∧ t.2.2 < m.numVertices := by
        obtain ⟨m1, m2, m3⟩ := mem_triangles m.indices t ht
        exact ⟨hvalid _ m1, hvalid _ m2, hvalid _ m3⟩
      obtain ⟨han, hbn⟩ := hasEdge_lt m.numVertices a b t hte htl
      have key : ∀ x y, x < y → y < m.numVertices → hasEdge x y t = true →
          (triangles m.indices).countP (hasEdge x y) ≠ 2 →
          ∃ sequence, sequence ∈ e1 ∧
            sequence.any (fun p => decide (p.2 ≠ 2)) = true := by
        intro x y hxy hyn hxe hxne
        have hxl : x < e1.length := by rw [hE.1]; omega
        refine ⟨e1[x], List.getElem_mem hxl, ?_⟩
        obtain ⟨hnd, hfind⟩ := hE.2 x e1[x] (List.getElem?_eq_getElem hxl)
        have hpos : 0 < (triangles m.indices).countP (hasEdge x y) :=
          List.countP_pos_iff.mpr ⟨t, ht, hxe⟩
        have hf := hfind y
        dsimp only at hf
        rw [if_pos hxy, if_pos hpos] at hf
        rw [List.any_eq_true]
        refine ⟨(y, (triangles m.indices).countP (hasEdge x y)),
          (mem_iff_findInSequence _ hnd _).mpr hf, ?_⟩
        simpa using hxne
      rcases Nat.lt_or_gt_of_ne hab with hlt | hlt
      · exact key a b hlt hbn hte hne
      · refine key b a hlt han (by rw [hasEdge_comm]; exact hte) ?_
        have : (triangles m.indices).countP (hasEdge b a) =
            (triangles m.indices).countP (hasEdge a b) := by
          congr 1
          funext t1
          exact hasEdge_comm b a t1
        rw [this]; exact hne
  by_cases h1 : c1.any (fun c => decide (c < 3)) = true
  · rw [if_pos h1]
    refine ⟨false, rfl, ?_⟩
    constructor
    · intro h; cases h
    · rintro ⟨_, hv, _⟩
      obtain ⟨v, hvn, hlt⟩ := hA.mp h1
      have := hv v hvn
      omega
  · rw [if_neg h1]
    by_cases h2 : e1.any (fun sequence => sequence.any (fun p => decide (p.2 ≠ 2))) = true
    · rw [if_pos h2]
      refine ⟨false, rfl, ?_⟩
      constructor
      · intro h; cases h
      · rintro ⟨_, _, he⟩
        obtain ⟨a, b, hab, hex, hne⟩ := hB.mp h2
        exact (hne (he a b hab hex)).elim
    · rw [if_neg h2]
      refine ⟨true, rfl, ?_⟩
      constructor
      · intro _
        refine ⟨Nat.pos_of_ne_zero hn, ?_, ?_⟩
        · intro v hvn
          by_contra hc
          exact h1 (hA.mpr ⟨v, hvn, by omega⟩)
        · intro a b hab hex
          by_contra hc
          exact h2 (hB.mpr ⟨a, b, hab, hex, hc⟩)
      · intro _; rfl

/-- C25, at the tetrahedron `tetra`. -/
theorem checkConsistency_iff_witness :
    tetra.indices.length < 2 ^ 32 ∧ tetra.indices.length % 3 = 0 ∧
    (∀ x ∈ tetra.indices, x < tetra.numVertices) ∧
    (∀ t ∈ triangles tetra.indices, t.1 ≠ t.2.1 ∧ t.1 ≠ t.2.2 ∧ t.2.1 ≠ t.2.2) ∧
    ∃ r, checkConsistency tetra = some r ∧
      (r = true ↔ (0 < tetra.numVertices ∧
        (∀ v, v < tetra.numVertices → 3 ≤ (triangles tetra.indices).countP (isCorner v)) ∧
        (∀ a b, a ≠ b → (∃ t ∈ triangles tetra.indices, hasEdge a b t = true) →
          (triangles tetra.indices).countP (hasEdge a b) = 2))) :=
  ⟨by decide, by decide, by decide, by decide,
    checkConsistency_iff tetra (by decide) (by decide) (by decide) (by decide)⟩

end MeshUtil

namespace Octree

theorem foldl_nearer (gd : Nat → ℚ) : ∀ (l : List Nat) (r : ℚ),
    l.foldl (nearer gd) r ≤ r ∧ (∀ i ∈ l, l.foldl (nearer gd) r ≤ gd i) ∧
      (l.foldl (nearer gd) r = r ∨ ∃ i ∈ l, l.foldl (nearer gd) r = gd i) := by
  intro l
  induction l with
  | nil => intro r; simp
  | cons x rest ih =>
    intro r
    obtain ⟨h1, h2, h3⟩ := ih (nearer gd r x)
    have hle : nearer gd r x ≤ r := by
      unfold nearer; split_ifs with h
      · exact le_of_lt h
      · exact le_refl r
    have hx : nearer gd r x ≤ gd x := by
      unfold nearer; split_ifs with h
      · exact le_refl _
      · exact not_lt.mp h
    have hor : nearer gd r x = r ∨ nearer gd r x = gd x := by
      unfold nearer; split_ifs with h
      · right; rfl
      · left; rfl
    rw [List.foldl_cons]
    refine ⟨le_trans h1 hle, ?_, ?_⟩
    · intro i hi
      rw [List.mem_cons] at hi
      rcases hi with hi | hi
      · rw [hi]; exact le_trans h1 hx
      · exact h2 i hi
    · rcases h3 with h3 | ⟨i, hi, h3⟩
      · rcases hor with hor | hor
        · left; rw [h3, hor]
        · right; exact ⟨x, List.mem_cons_self x rest, by rw [h3, hor]⟩
      · right; exact ⟨i, List.mem_cons_of_mem x hi, h3⟩

theorem rejectsOnlyFar_child (I : Vec3 → ℚ → PrimAABox → Bool) (gd : Nat → ℚ) (p : Vec3)
    (b : Nat) (c : Vec3) (w : ℚ) (d : Int) (ch : Fin 8 → Child) (idx : Finset Nat)
    (hu : UniqAddr (Child.node b c w d ch idx))
    (h : RejectsOnlyFar I gd p (Child.node b c w d ch idx)) (k : Fin 8) :
    RejectsOnlyFar I gd p (ch k) ∧
      ((ch k).isSome = true → ∀ r, I p r (looseAABox (ch k)) = false →
        ∀ id a, holdsAt id a (ch k) = true → r ≤ gd id) := by
  have hsub : RejectsOnlyFar I gd p (ch k) := by
    intro a ha r hr id a1 hid
    have hf := find_child a b c w d ch idx k hu ha
    have ha2 : hasAddr a (Child.node b c w d ch idx) = true :=
      (hasAddr_node a b c w d ch idx).mpr (Or.inr ⟨k, ha⟩)
    exact h a ha2 r (by rw [hf]; exact hr) id a1 (by rw [hf]; exact hid)
  refine ⟨hsub, ?_⟩
  intro hs r hr id a hid
  cases hk : ch k with
  | none => rw [hk] at hs; simp [Child.isSome] at hs
  | node b1 c1 w1 d1 ch1 idx1 =>
    have := hsub b1 (by rw [hk]; simp [hasAddr]) r
    rw [hk, find_self] at this
    rw [hk] at hr hid
    exact this hr id a hid

/-- What a visit of a subtree with the radius `r` leaves as the radius `r1`: the
radius has not grown, it is at most the distance of every element of the subtree,
and it is the old radius or the distance of an element of the subtree. -/
theorem nodeDistance_spec (I : Vec3 → ℚ → PrimAABox → Bool) (gd : Nat → ℚ) (p : Vec3) :
    ∀ t, UniqAddr t → RejectsOnlyFar I gd p t → ∀ r,
      nodeDistance I gd p t r ≤ r ∧
      (∀ id a, holdsAt id a t = true → nodeDistance I gd p t r ≤ gd id) ∧
      (nodeDistance I gd p t r = r ∨
        ∃ id a, holdsAt id a t = true ∧ nodeDistance I gd p t r = gd id) := by
  intro t
  induction t with
  | none =>
    intro _ _ r
    refine ⟨le_refl r, ?_, Or.inl rfl⟩
    intro id a h
    simp [holdsAt] at h
  | node b c w d ch idx ih =>
    intro hu hH r
    have hch := rejectsOnlyFar_child I gd p b c w d ch idx hu hH
    have visit := fun (k : Fin 8) (ρ : ℚ) => ih k (hu.2.1 k) (hch k).1 ρ
    have skip : ∀ (k : Fin 8) (ρ : ℚ),
        ((ch k).isSome = false ∨ I p ρ (looseAABox (ch k)) = false) →
        ∀ id a, holdsAt id a (ch k) = true → ρ ≤ gd id := by
      intro k ρ hv id a hid
      have hs : (ch k).isSome = true := by
        cases hk : ch k with
        | none => rw [hk] at hid; simp [holdsAt] at hid
        | node _ _ _ _ _ _ => rfl
      rcases hv with hv | hv
      · rw [hs] at hv; cases hv
      · exact (hch k).2 hs ρ hv id a hid
    have loop : ∀ (f : ℚ → Fin 8 → ℚ),
        (∀ r i, f r i =
          if ((decide (i ≠ childIndex c p) && (ch i).isSome) &&
              I p r (looseAABox (ch i))) = true then
            nodeDistance I gd p (ch i) r
          else r) →
        ∀ (L : List (Fin 8)) (ρ : ℚ),
          L.foldl f ρ ≤ ρ ∧
          (∀ k ∈ L, k ≠ childIndex c p → ∀ id a, holdsAt id a (ch k) = true →
            L.foldl f ρ ≤ gd id) ∧
          (L.foldl f ρ = ρ ∨ ∃ k id a, holdsAt id a (ch k) = true ∧ L.foldl f ρ = gd id) := by
      intro f hf L
      induction L with
      | nil =>
        intro ρ
        exact ⟨le_refl ρ, fun k hk => absurd hk (List.not_mem_nil k), Or.inl rfl⟩
      | cons k rest ihL =>
        intro ρ
        rw [List.foldl_cons]
        obtain ⟨g1, g2, g3⟩ := ihL (f ρ k)
        have hA : f ρ k ≤ ρ ∧
            (k ≠ childIndex c p → ∀ id a, holdsAt id a (ch k) = true → f ρ k ≤ gd id) ∧
            (f ρ k = ρ ∨ ∃ id a, holdsAt id a (ch k) = true ∧ f ρ k = gd id) := by
          rw [hf ρ k]
          by_cases hv : ((decide (k ≠ childIndex c p) && (ch k).isSome) &&
              I p ρ (looseAABox (ch k))) = true
          · rw [if_pos hv]
            obtain ⟨a1, a2, a3⟩ := visit k ρ
            exact ⟨a1, fun _ => a2, a3⟩
          · rw [if_neg hv]
            refine ⟨le_refl ρ, ?_, Or.inl rfl⟩
            intro hkf
            apply skip k ρ
            by_cases h1 : (ch k).isSome = true
            · right
              by_contra h2
              apply hv
              simp only [Bool.not_eq_false] at h2
              simp [hkf, h1, h2]
            · left; simpa using h1
        refine ⟨le_trans g1 hA.1, ?_, ?_⟩
        · intro j hj hjf id a hid
          rw [List.mem_cons] at hj
          rcases hj with hj | hj
          · subst hj
            exact le_trans g1 (hA.2.1 hjf id a hid)
          · exact g2 j hj hjf id a hid
        · rcases g3 with g3 | ⟨j, id, a, hid, g3⟩
          · rcases hA.2.2 with h3 | ⟨id, a, hid, h3⟩
            · left; rw [g3, h3]
            · right; exact ⟨k, id, a, hid, by rw [g3, h3]⟩
          · right; exact ⟨j, id, a, hid, g3⟩
    obtain ⟨x1, x2, x3⟩ := foldl_nearer gd (idx.sort (· ≤ ·)) r
    generalize hr1 : (idx.sort (· ≤ ·)).foldl (nearer gd) r = r1 at x1 x2 x3
    obtain ⟨r2, hr2⟩ : ∃ r2, (if ((ch (childIndex c p)).isSome &&
            I p r1 (looseAABox (ch (childIndex c p)))) = true then
          nodeDistance I gd p (ch (childIndex c p)) r1
        else r1) = r2 := ⟨_, rfl⟩
    have hB : r2 ≤ r1 ∧
        (∀ id a, holdsAt id a (ch (childIndex c p)) = true → r2 ≤ gd id) ∧
        (r2 = r1 ∨ ∃ id a, holdsAt id a (ch (childIndex c p)) = true ∧ r2 = gd id) := by
      rw [← hr2]
      by_cases hv : ((ch (childIndex c p)).isSome &&
          I p r1 (looseAABox (ch (childIndex c p)))) = true
      · rw [if_pos hv]
        exact visit (childIndex c p) r1
      · rw [if_neg hv]
        refine ⟨le_refl r1, ?_, Or.inl rfl⟩
        apply skip (childIndex c p) r1
        by_cases h1 : (ch (childIndex c p)).isSome = true
        · right
          by_contra h2
          apply hv
          simp only [Bool.not_eq_false] at h2
          simp [h1, h2]
        · left; simpa using h1
    obtain ⟨y1, y2, y3⟩ := loop _ (fun _ _ => rfl) (List.finRange 8) r2
    have hval : nodeDistance I gd p (Child.node b c w d ch idx) r =
        (List.finRange 8).foldl (fun r i =>
          if ((decide (i ≠ childIndex c p) && (ch i).isSome) &&
              I p r (looseAABox (ch i))) = true then
            nodeDistance I gd p (ch i) r
          else r) r2 := by
      rw [nodeDistance]
      simp only [hr1, hr2]
    rw [hval]
    refine ⟨le_trans y1 (le_trans hB.1 x1), ?_, ?_⟩
    · intro id a hid
      rw [holdsAt_node] at hid
      rcases hid with ⟨_, hid⟩ | ⟨k, hid⟩
      · exact le_trans y1 (le_trans hB.1 (x2 id ((Finset.mem_sort _).mpr hid)))
      · by_cases hk : k = childIndex c p
        · subst hk
          exact le_trans y1 (hB.2.1 id a hid)
        · exact y2 k (List.mem_finRange k) hk id a hid
    · rcases y3 with y3 | ⟨k, id, a, hid, y3⟩
      · rcases hB.2.2 with z3 | ⟨id, a, hid, z3⟩
        · rcases x3 with w3 | ⟨i, hi, w3⟩
          · left; rw [y3, z3, w3]
          · right
            refine ⟨i, b, (holdsAt_node i b b c w d ch idx).mpr
              (Or.inl ⟨rfl, (Finset.mem_sort _).mp hi⟩), by rw [y3, z3, w3]⟩
        · right
          exact ⟨id, a, (holdsAt_node id a b c w d ch idx).mpr (Or.inr ⟨_, hid⟩),
            by rw [y3, z3]⟩
      · right
        exact ⟨id, a, (holdsAt_node id a b c w d ch idx).mpr (Or.inr ⟨k, hid⟩), y3⟩

end Octree

namespace DynamicOctree

theorem emptied_eq : deleteElement single 0 = some emptied := by
  simp [deleteElement, single, unitRoot, find, Child.indices, eraseAt, hasRoot, Child.isSome,
    isEmpty, hasChildren, emptied]

theorem emptied_reachable (P : DynamicOctree → List Nat → Prop) : ReachableWith P emptied :=
  ReachableWith.step single emptied (single_reachable P) (Step.deleteElement _ _ 0 emptied_eq)

theorem rejectsOnlyFar_all (gd : Nat → ℚ) (p : Vec3) (t : Child) :
    RejectsOnlyFar (fun _ _ _ => true) gd p t := by
  intro b _ r hr
  cases hr

/-- C27, amended: on a reachable octree that has a root, assuming the sphere test
rejects a subtree only when every element stored in it has a distance of at
least the current radius of the sphere, `distance (p, getDistance)` returns the
minimum of the initial radius `Util::maxFloat ()` and of `getDistance` over all
registered elements: the result is at most the distance of every registered
element, and it is the distance of a registered element or the initial radius,
the latter when no element is registered. -/
theorem distance_nearest (I : Vec3 → ℚ → PrimAABox → Bool) (gd : Nat → ℚ) (p : Vec3)
    (o : DynamicOctree) (h : Reachable o) (hroot : o.hasRoot = true)
    (hI : RejectsOnlyFar I gd p o.root) :
    ∃ m, distance I o p gd = some m ∧ m ≤ Util.maxFloat ∧
      (∀ id a, o.nodeOf id = some a → m ≤ gd id) ∧
      (m = Util.maxFloat ∨ ∃ id a, o.nodeOf id = some a ∧ m = gd id) ∧
      ((∀ id, o.nodeOf id = none) → m = Util.maxFloat) := by
  have hr := reachable_registration o h
  obtain ⟨s1, s2, s3⟩ := nodeDistance_spec I gd p o.root hr.1 hI Util.maxFloat
  have h4 : nodeDistance I gd p o.root Util.maxFloat = Util.maxFloat ∨
      ∃ id a, o.nodeOf id = some a ∧ nodeDistance I gd p o.root Util.maxFloat = gd id := by
    rcases s3 with s3 | ⟨id, a, hid, s3⟩
    · exact Or.inl s3
    · exact Or.inr ⟨id, a, (hr.2.2 id a).mp hid, s3⟩
  refine ⟨_, by unfold distance; rw [if_pos hroot], s1, ?_, h4, ?_⟩
  · intro id a hid
    exact s2 id a ((hr.2.2 id a).mpr hid)
  · intro hnone
    rcases h4 with h4 | ⟨id, a, hid, _⟩
    · exact h4
    · rw [hnone id] at hid; cases hid

/-- C27 as amended, at the octree `trace2` (the ids 0 and 2 in the root), with
the distance `id + 5` of the element `id` and a sphere test that accepts every
box. -/
theorem distance_nearest_witness :
    Reachable trace2 ∧ trace2.hasRoot = true ∧
    RejectsOnlyFar (fun _ _ _ => true) (fun i => (i : ℚ) + 5) origin trace2.root ∧
    ∃ m, distance (fun _ _ _ => true) trace2 origin (fun i => (i : ℚ) + 5) = some m ∧
      m ≤ Util.maxFloat ∧
      (∀ id a, trace2.nodeOf id = some a → m ≤ (fun i : Nat => (i : ℚ) + 5) id) ∧
      (m = Util.maxFloat ∨
        ∃ id a, trace2.nodeOf id = some a ∧ m = (fun i : Nat => (i : ℚ) + 5) id) ∧
      ((∀ id, trace2.nodeOf id = none) → m = Util.maxFloat) :=
  ⟨trace2_reachable _, rfl, rejectsOnlyFar_all _ _ _,
    distance_nearest (fun _ _ _ => true) (fun i => (i : ℚ) + 5) origin trace2
      (trace2_reachable _) rfl (rejectsOnlyFar_all _ _ _)⟩

/-- C27 as stated fails: in the reachable octree `emptied` no element is
registered, the sphere test that accepts every box satisfies the assumption, and
`distance` does not return the initial radius: it fails its assertion
`hasRoot ()`. -/
theorem distance_counterexample :
    Reachable emptied ∧ (∀ id, emptied.nodeOf id = none) ∧
    RejectsOnlyFar (fun _ _ _ => true) (fun _ => (0 : ℚ)) origin emptied.root ∧
    distance (fun _ _ _ => true) emptied origin (fun _ => (0 : ℚ)) = none := by
  refine ⟨emptied_reachable _, ?_, rejectsOnlyFar_all _ _ _, rfl⟩
  intro id
  unfold nodeOf emptied
  rcases id with _ | id
  · rfl
  · rfl

end DynamicOctree

namespace Octree

theorem count_list_sum {β : Type} [DecidableEq β] (x : β) : ∀ (L : List (Multiset β)),
    Multiset.count x L.sum = (L.map (Multiset.count x)).sum := by
  intro L
  induction L with
  | nil => simp
  | cons m rest ih => simp [ih]

theorem sum_children (f : Fin 8 → Nat) :
    ((List.finRange 8).map f).sum = ∑ k, f k := by
  rw [Fin.sum_univ_def]

theorem pathAccepted_self (test : PrimAABox → Bool) (b : Nat) (c : Vec3) (w : ℚ) (d : Int)
    (ch : Fin 8 → Child) (idx : Finset Nat) :
    PathAccepted test b (Child.node b c w d ch idx) ↔
      test (looseAABox (Child.node b c w d ch idx)) = true := by
  unfold PathAccepted
  rw [find_self]
  have ha : ancestors b (Child.node b c w d ch idx) = some [] := by
    rw [ancestors, if_pos rfl]
  constructor
  · rintro ⟨l, _, _, h⟩; exact h
  · intro h
    exact ⟨[], ha, fun n hn => absurd hn (List.not_mem_nil n), h⟩

theorem pathAccepted_child (test : PrimAABox → Bool) (a b : Nat) (c : Vec3) (w : ℚ) (d : Int)
    (ch : Fin 8 → Child) (idx : Finset Nat) (k : Fin 8)
    (hu : UniqAddr (Child.node b c w d ch idx)) (ha : hasAddr a (ch k) = true) :
    PathAccepted test a (Child.node b c w d ch idx) ↔
      (test (looseAABox (Child.node b c w d ch idx)) = true ∧ PathAccepted test a (ch k)) := by
  unfold PathAccepted
  rw [find_child a b c w d ch idx k hu ha, ancestors_child a b c w d ch idx k hu ha]
  constructor
  · rintro ⟨l, hl, hall, hf⟩
    cases hx : ancestors a (ch k) with
    | none => rw [hx] at hl; cases hl
    | some l1 =>
      rw [hx] at hl
      simp only [Option.map_some', Option.some.injEq] at hl
      subst hl
      exact ⟨hall _ (List.mem_cons_self _ _), l1, rfl,
        fun n hn => hall n (List.mem_cons_of_mem _ hn), hf⟩
  · rintro ⟨ht, l1, hl1, hall, hf⟩
    refine ⟨_ :: l1, by rw [hl1]; rfl, ?_, hf⟩
    intro n hn
    rw [List.mem_cons] at hn
    rcases hn with hn | hn
    · rw [hn]; exact ht
    · exact hall n hn

open Classical in
/-- How often `containsOrIntersectsT` on the tree `t` calls the callback with the
flag `flag` and the id `id`, which at most one node of `t` holds. -/
theorem nodeContainsOrIntersectsT_count (C I : PrimAABox → Bool) (id : Nat) :
    ∀ t, UniqAddr t →
      (∀ a1 a2, holdsAt id a1 t = true → holdsAt id a2 t = true → a1 = a2) →
      ∀ flag, Multiset.count (flag, id) (nodeContainsOrIntersectsT C I t) =
        if ∃ a, holdsAt id a t = true ∧ PathAccepted (fun x => C x || I x) a t ∧
            flag = C (looseAABox (find a t)) then 1 else 0 := by
  intro t
  induction t with
  | none =>
    intro _ _ flag
    rw [if_neg]
    · simp [nodeContainsOrIntersectsT]
    · rintro ⟨a, ha, _⟩
      simp [holdsAt] at ha
  | node b c w d ch idx ih =>
    intro hu huniq flag
    have hchild : ∀ k a, holdsAt id a (ch k) = true →
        holdsAt id a (Child.node b c w d ch idx) = true :=
      fun k a h => (holdsAt_node id a b c w d ch idx).mpr (Or.inr ⟨k, h⟩)
    have ihk := fun (k : Fin 8) => ih k (hu.2.1 k)
      (fun a1 a2 h1 h2 => huniq a1 a2 (hchild k a1 h1) (hchild k a2 h2)) flag
    rw [nodeContainsOrIntersectsT]
    by_cases hacc : (C (looseAABox (Child.node b c w d ch idx)) ||
        I (looseAABox (Child.node b c w d ch idx))) = true
    · rw [if_pos hacc, Multiset.count_add, count_list_sum, List.map_map, sum_children]
      have hfun : ∀ k, (Multiset.count (flag, id) ∘
          fun k => nodeContainsOrIntersectsT C I (ch k)) k =
          if ∃ a, holdsAt id a (ch k) = true ∧ PathAccepted (fun x => C x || I x) a (ch k) ∧
            flag = C (looseAABox (find a (ch k))) then 1 else 0 := fun k => ihk k
      rw [Finset.sum_congr rfl (fun k _ => hfun k)]
      by_cases hid : id ∈ idx
      · have hb : holdsAt id b (Child.node b c w d ch idx) = true :=
          (holdsAt_node id b b c w d ch idx).mpr (Or.inl ⟨rfl, hid⟩)
        have hno : ∀ k a, holdsAt id a (ch k) = true → False := by
          intro k a h
          have hab := huniq a b (hchild k a h) hb
          have h1 := holdsAt_hasAddr id a (ch k) h
          rw [hab, hu.1 k] at h1
          cases h1
        have hz : ∑ k : Fin 8, (if ∃ a, holdsAt id a (ch k) = true ∧
            PathAccepted (fun x => C x || I x) a (ch k) ∧
            flag = C (looseAABox (find a (ch k))) then 1 else 0) = 0 := by
          apply Finset.sum_eq_zero
          intro k _
          rw [if_neg]
          rintro ⟨a, h, _⟩
          exact hno k a h
        rw [hz, Nat.add_zero]
        by_cases hflag : flag = C (looseAABox (Child.node b c w d ch idx))
        · rw [if_pos ⟨b, hb, (pathAccepted_self _ b c w d ch idx).mpr hacc,
            by rw [find_self]; exact hflag⟩]
          rw [hflag, Multiset.count_map_eq_count' _ _ (fun x y h => (Prod.mk.inj h).2),
            Multiset.count_eq_one_of_mem idx.nodup (Finset.mem_val.mpr hid)]
        · rw [if_neg]
          · rw [Multiset.count_eq_zero]
            intro hm
            obtain ⟨i, _, hi⟩ := Multiset.mem_map.mp hm
            exact hflag (Prod.mk.inj hi).1.symm
          · rintro ⟨a, ha, _, hf⟩
            have hab := huniq a b ha hb
            rw [hab, find_self] at hf
            exact hflag hf
      · have hc0 : Multiset.count (flag, id) (idx.val.map
            (fun index => (C (looseAABox (Child.node b c w d ch idx)), index))) = 0 := by
          rw [Multiset.count_eq_zero]
          intro hm
          obtain ⟨i, hi, hi2⟩ := Multiset.mem_map.mp hm
          rw [(Prod.mk.inj hi2).2] at hi
          exact hid (Finset.mem_val.mp hi)
        rw [hc0, Nat.zero_add]
        have hiff : ∀ k a, holdsAt id a (ch k) = true →
            ((PathAccepted (fun x => C x || I x) a (Child.node b c w d ch idx) ∧
              flag = C (looseAABox (find a (Child.node b c w d ch idx)))) ↔
            (PathAccepted (fun x => C x || I x) a (ch k) ∧
              flag = C (looseAABox (find a (ch k))))) := by
          intro k a h
          have h1 := holdsAt_hasAddr id a (ch k) h
          rw [pathAccepted_child _ a b c w d ch idx k hu h1,
            find_child a b c w d ch idx k hu h1]
          constructor
          · rintro ⟨⟨_, h2⟩, h3⟩; exact ⟨h2, h3⟩
          · rintro ⟨h2, h3⟩; exact ⟨⟨hacc, h2⟩, h3⟩
        by_cases hex : ∃ k a, holdsAt id a (ch k) = true ∧
            PathAccepted (fun x => C x || I x) a (ch k) ∧
            flag = C (looseAABox (find a (ch k)))
        · obtain ⟨k0, a0, h0, h1, h2⟩ := hex
          rw [if_pos ⟨a0, hchild k0 a0 h0, (hiff k0 a0 h0).mpr ⟨h1, h2⟩⟩]
          rw [Finset.sum_eq_single k0, if_pos ⟨a0, h0, h1, h2⟩]
          · intro k _ hk
            rw [if_neg]
            rintro ⟨a, h, _⟩
            have hab := huniq a a0 (hchild k a h) (hchild k0 a0 h0)
            have g1 := holdsAt_hasAddr id a (ch k) h
            have g2 := holdsAt_hasAddr id a0 (ch k0) h0
            rw [hab, hu.2.2 k0 k a0 (Ne.symm hk) g2] at g1
            cases g1
          · intro hk
            exact absurd (Finset.mem_univ k0) hk
        · rw [if_neg, Finset.sum_eq_zero]
          · intro k _
            rw [if_neg]
            rintro ⟨a, h⟩
            exact hex ⟨k, a, h⟩
          · rintro ⟨a, ha, hp, hf⟩
            rw [holdsAt_node] at ha
            rcases ha with ⟨_, ha⟩ | ⟨k, ha⟩
            · exact hid ha
            · exact hex ⟨k, a, ha, (hiff k a ha).mp ⟨hp, hf⟩⟩
    · rw [if_neg hacc, if_neg]
      · simp
      · rintro ⟨a, ha, hp, _⟩
        apply hacc
        rw [holdsAt_node] at ha
        rcases ha with ⟨hba, _⟩ | ⟨k, ha⟩
        · subst hba
          exact (pathAccepted_self _ b c w d ch idx).mp hp
        · exact ((pathAccepted_child _ a b c w d ch idx k hu
            (holdsAt_hasAddr id a (ch k) ha)).mp hp).1

/-- The calls of `intersectsT` are those of `containsOrIntersectsT` with a test
`contains` that never holds. -/
theorem nodeIntersectsT_count (I : PrimAABox → Bool) (id : Nat) :
    ∀ t, Multiset.count id (nodeIntersectsT I t) =
      Multiset.count (false, id) (nodeContainsOrIntersectsT (fun _ => false) I t) := by
  intro t
  induction t with
  | none => simp [nodeIntersectsT, nodeContainsOrIntersectsT]
  | node b c w d ch idx ih =>
    rw [nodeIntersectsT, nodeContainsOrIntersectsT]
    simp only [Bool.false_or]
    by_cases hacc : I (looseAABox (Child.node b c w d ch idx)) = true
    · rw [if_pos hacc, if_pos hacc, Multiset.count_add, Multiset.count_add, count_list_sum,
        count_list_sum, List.map_map, List.map_map,
        Multiset.count_map_eq_count' (fun index => (false, index)) _
          (fun x y h => (Prod.mk.inj h).2)]
      congr 2
      apply List.map_congr_left
      intro k _
      exact ih k
    · rw [if_neg hacc, if_neg hacc]
      simp

end Octree

namespace DynamicOctree

/-- C28. Volume queries on a reachable octree, with any tests `intersects` and
`contains` for the volume against a loose box. The plane query calls its
callback exactly once for each registered id whose node and all ancestors of
that node have a loose box that intersects the plane, and for no other id. The
sphere and box queries call theirs exactly once for each registered id whose
node and all ancestors of that node have a loose box that the volume contains
or intersects, with the flag that tells whether the volume contains the loose
box of the node of the id, and for no other id. -/
theorem queries_report (o : DynamicOctree) (h : Reachable o)
    (contains intersects : PrimAABox → Bool) :
    (∀ id a, o.nodeOf id = some a → PathAccepted intersects a o.root →
      Multiset.count id (intersectsT intersects o) = 1) ∧
    (∀ id, (¬ ∃ a, o.nodeOf id = some a ∧ PathAccepted intersects a o.root) →
      Multiset.count id (intersectsT intersects o) = 0) ∧
    (∀ id a, o.nodeOf id = some a →
      PathAccepted (fun x => contains x || intersects x) a o.root →
      Multiset.count (contains (looseAABox (find a o.root)), id)
        (containsOrIntersectsT contains intersects o) = 1 ∧
      Multiset.count (!contains (looseAABox (find a o.root)), id)
        (containsOrIntersectsT contains intersects o) = 0) ∧
    (∀ id, (¬ ∃ a, o.nodeOf id = some a ∧
        PathAccepted (fun x => contains x || intersects x) a o.root) →
      ∀ flag, Multiset.count (flag, id) (containsOrIntersectsT contains intersects o) = 0) := by
  have hr := reachable_registration o h
  have huniq : ∀ id a1 a2, holdsAt id a1 o.root = true → holdsAt id a2 o.root = true →
      a1 = a2 := by
    intro id a1 a2 h1 h2
    have e1 := (hr.2.2 id a1).mp h1
    have e2 := (hr.2.2 id a2).mp h2
    rw [e1] at e2
    exact Option.some.inj e2
  have hI : ∀ t, (if t.isSome = true then nodeIntersectsT intersects t else 0) =
      nodeIntersectsT intersects t := by
    intro t
    cases t with
    | none => simp [nodeIntersectsT]
    | node _ _ _ _ _ _ => simp [Child.isSome]
  have hC : ∀ t, (if t.isSome = true then nodeContainsOrIntersectsT contains intersects t
      else 0) = nodeContainsOrIntersectsT contains intersects t := by
    intro t
    cases t with
    | none => simp [nodeContainsOrIntersectsT]
    | node _ _ _ _ _ _ => simp [Child.isSome]
  have hP : ∀ id, Multiset.count id (intersectsT intersects o) =
      Multiset.count (false, id) (nodeContainsOrIntersectsT (fun _ => false) intersects o.root) := by
    intro id
    unfold intersectsT hasRoot
    rw [hI, nodeIntersectsT_count]
  have hV : containsOrIntersectsT contains intersects o =
      nodeContainsOrIntersectsT contains intersects o.root := by
    unfold containsOrIntersectsT hasRoot
    rw [hC]
  have hfun : (fun x => (fun _ : PrimAABox => false) x || intersects x) = intersects := by
    funext x; simp
  refine ⟨?_, ?_, ?_, ?_⟩
  · intro id a ha hp
    rw [hP, nodeContainsOrIntersectsT_count _ _ id o.root hr.1 (huniq id), if_pos]
    exact ⟨a, (hr.2.2 id a).mpr ha, by rw [hfun]; exact hp, rfl⟩
  · intro id hn
    rw [hP, nodeContainsOrIntersectsT_count _ _ id o.root hr.1 (huniq id), if_neg]
    rintro ⟨a, ha, hp, _⟩
    rw [hfun] at hp
    exact hn ⟨a, (hr.2.2 id a).mp ha, hp⟩
  · intro id a ha hp
    rw [hV]
    constructor
    · rw [nodeContainsOrIntersectsT_count _ _ id o.root hr.1 (huniq id), if_pos]
      exact ⟨a, (hr.2.2 id a).mpr ha, hp, rfl⟩
    · rw [nodeContainsOrIntersectsT_count _ _ id o.root hr.1 (huniq id), if_neg]
      rintro ⟨a1, ha1, _, hf⟩
      have := huniq id a1 a ha1 ((hr.2.2 id a).mpr ha)
      rw [this] at hf
      cases hx : contains (looseAABox (find a o.root)) <;> rw [hx] at hf <;> cases hf
  · intro id hn flag
    rw [hV, nodeContainsOrIntersectsT_count _ _ id o.root hr.1 (huniq id), if_neg]
    rintro ⟨a, ha, hp, _⟩
    exact hn ⟨a, (hr.2.2 id a).mp ha, hp⟩

/-- C28, at the octree `nested`, whose child in slot 7 holds the id 0, with a
volume that intersects every box and contains the boxes of width 1 at most. -/
theorem queries_report_witness :
    Reachable nested ∧
    (∀ id a, nested.nodeOf id = some a → PathAccepted (fun _ => true) a nested.root →
      Multiset.count id (intersectsT (fun _ => true) nested) = 1) ∧
    (∀ id, (¬ ∃ a, nested.nodeOf id = some a ∧ PathAccepted (fun _ => true) a nested.root) →
      Multiset.count id (intersectsT (fun _ => true) nested) = 0) ∧
    (∀ id a, nested.nodeOf id = some a →
      PathAccepted (fun x => decide (x.xWidth ≤ 1) || (fun _ => true) x) a nested.root →
      Multiset.count (decide ((looseAABox (find a nested.root)).xWidth ≤ 1), id)
        (containsOrIntersectsT (fun x => decide (x.xWidth ≤ 1)) (fun _ => true) nested) = 1 ∧
      Multiset.count (!decide ((looseAABox (find a nested.root)).xWidth ≤ 1), id)
        (containsOrIntersectsT (fun x => decide (x.xWidth ≤ 1)) (fun _ => true) nested) = 0) ∧
    (∀ id, (¬ ∃ a, nested.nodeOf id = some a ∧
        PathAccepted (fun x => decide (x.xWidth ≤ 1) || (fun _ => true) x) a nested.root) →
      ∀ flag, Multiset.count (flag, id)
        (containsOrIntersectsT (fun x => decide (x.xWidth ≤ 1)) (fun _ => true) nested) = 0) :=
  ⟨nested_reachable _,
    queries_report nested (nested_reachable _) (fun x => decide (x.xWidth ≤ 1)) (fun _ => true)⟩

end DynamicOctree

namespace Octree

/-- With the extent 0 the descent of `addElement` never stops: it fails for
every bound on its depth. -/
theorem nodeAddElement_zero (index : Nat) (p : Vec3) :
    ∀ fuel next t, nodeAddElement fuel index p 0 next t = none := by
  intro fuel
  induction fuel with
  | zero => intro next t; simp [nodeAddElement]
  | succ fuel ih =>
    intro next t
    cases t with
    | none => simp [nodeAddElement]
    | node a c w d ch idx =>
      rw [nodeAddElement]
      by_cases happ : approxContains c w p 0 = true
      · rw [if_pos happ]
        have hw : (0 : ℚ) ≤ w := by
          simp only [approxContains, Bool.and_eq_true, decide_eq_true_eq] at happ
          exact happ.2
        have hins : insertIntoChild w 0 = true := by
          simp only [insertIntoChild, relativeMinElementExtent, decide_eq_true_eq]
          positivity
        rw [if_pos hins]
        cases hc : childOrMake next c w d ch (childIndex c p) with
        | none => rfl
        | some r =>
          obtain ⟨child, next1⟩ := r
          simp only [ih]
      · rw [if_neg happ]

end Octree

namespace DynamicOctree

theorem addElement_zero (index : Nat) (p : Vec3) :
    ∀ fuel o, addElement fuel o index p 0 = none := by
  intro fuel
  induction fuel with
  | zero => intro o; simp [addElement]
  | succ fuel ih =>
    intro o
    rw [addElement]
    cases hr : o.root with
    | none => rfl
    | node a c w d ch idx =>
      simp only
      by_cases happ : approxContains c w p 0 = true
      · rw [if_pos happ, nodeAddElement_zero]
      · rw [if_neg happ]
        cases hm : makeParent o p with
        | none => rfl
        | some o1 => simp only [ih]

theorem addElement_mono (index : Nat) (p : Vec3) (e : ℚ) :
    ∀ fuel fuel1 o o1, fuel ≤ fuel1 → addElement fuel o index p e = some o1 →
      addElement fuel1 o index p e = some o1 := by
  intro fuel
  induction fuel with
  | zero => intro fuel1 o o1 _ h; simp [addElement] at h
  | succ fuel ih =>
    intro fuel1 o o1 hle h
    cases fuel1 with
    | zero => omega
    | succ fuel1 =>
      rw [addElement] at h ⊢
      cases hr : o.root with
      | none => rw [hr] at h; simp at h
      | node a c w d ch idx =>
        rw [hr] at h
        simp only at h ⊢
        by_cases happ : approxContains c w p e = true
        · rw [if_pos happ] at h ⊢
          cases hn : nodeAddElement (fuel + 1) index p e o.heapNext (Child.node a c w d ch idx) with
          | none => rw [hn] at h; simp at h
          | some r =>
            rw [hn] at h
            rw [nodeAddElement_mono index p e (fuel + 1) (fuel1 + 1) _ _ r (by omega) hn]
            exact h
        · rw [if_neg happ] at h ⊢
          cases hm : makeParent o p with
          | none => rw [hm] at h; simp at h
          | some o2 =>
            rw [hm] at h
            simp only at h ⊢
            exact ih fuel1 o2 o1 (by omega) h

end DynamicOctree

namespace DynamicMesh

theorem addFace_mono (fuel fuel1 : Nat) (s : DynamicMesh) (i1 i2 i3 : Nat)
    (r : DynamicMesh × Nat) (hle : fuel ≤ fuel1) (h : addFace fuel s i1 i2 i3 = some r) :
    addFace fuel1 s i1 i2 i3 = some r := by
  unfold addFace at h ⊢
  split at h
  · rename_i hc
    rw [if_pos hc]
    cases hs : addFaceSlot s i1 i2 i3 with
    | none => rw [hs] at h; simp at h
    | some q =>
      obtain ⟨s1, index⟩ := q
      rw [hs] at h
      simp only at h ⊢
      split at h
      · rename_i hi
        rw [if_pos hi]
        cases ha : addAdjacent s1.vertexData i1 i2 i3 index with
        | none => rw [ha] at h; simp at h
        | some vd =>
          rw [ha] at h
          simp only at h ⊢
          unfold addFaceToOctree at h ⊢
          cases hf : face { s1 with faceData := s1.faceData.set index ⟨false⟩, vertexData := vd }
              index with
          | none => rw [hf] at h; simp at h
          | some t =>
            obtain ⟨v1, v2, v3⟩ := t
            rw [hf] at h
            simp only at h ⊢
            cases he : DynamicOctree.addElement fuel
                ({ s1 with faceData := s1.faceData.set index ⟨false⟩, vertexData := vd }).octree
                index (PrimTriangle.center v1 v2 v3) (PrimTriangle.maxDimExtent v1 v2 v3) with
            | none => rw [he] at h; simp at h
            | some o1 =>
              rw [he] at h
              rw [DynamicOctree.addElement_mono _ _ _ fuel fuel1 _ o1 hle he]
              exact h
      · simp at h
  · simp at h

theorem addFaces_mono (fuel fuel1 : Nat) (hle : fuel ≤ fuel1) :
    ∀ (l : List Nat) (s s1 : DynamicMesh), addFaces fuel l s = some s1 →
      addFaces fuel1 l s = some s1
  | [], s, s1, h => by simpa [addFaces] using h
  | [_], s, s1, h => by simp [addFaces] at h
  | [_, _], s, s1, h => by simp [addFaces] at h
  | i1 :: i2 :: i3 :: rest, s, s1, h => by
    rw [addFaces] at h ⊢
    cases ha : addFace fuel s i1 i2 i3 with
    | none => rw [ha] at h; simp at h
    | some r =>
      rw [ha] at h
      rw [addFace_mono fuel fuel1 s i1 i2 i3 r hle ha]
      obtain ⟨s2, f⟩ := r
      simp only at h ⊢
      exact addFaces_mono fuel fuel1 hle rest s2 s1 h

end DynamicMesh

namespace DynamicMesh

theorem addAdjacent_total (vd : List VertexData) (i1 i2 i3 f : Nat) (h1 : i1 < vd.length)
    (h2 : i2 < vd.length) (h3 : i3 < vd.length) : ∃ vd1, addAdjacent vd i1 i2 i3 f = some vd1 := by
  unfold addAdjacent
  rw [List.getElem?_eq_getElem h1]
  dsimp only
  rw [List.getElem?_eq_getElem (by simpa using h2)]
  dsimp only
  rw [List.getElem?_eq_getElem (by simpa using h3)]
  exact ⟨_, rfl⟩

theorem getElem?_append3 (l : List Nat) (a b c : Nat) :
    (((l ++ [a]) ++ [b]) ++ [c])[l.length + 0]? = some a ∧
    (((l ++ [a]) ++ [b]) ++ [c])[l.length + 1]? = some b ∧
    (((l ++ [a]) ++ [b]) ++ [c])[l.length + 2]? = some c := by
  refine ⟨?_, ?_, ?_⟩
  · rw [List.append_assoc, List.append_assoc, List.getElem?_append_right (by omega)]
    simp
  · rw [List.append_assoc, List.append_assoc, List.getElem?_append_right (by omega)]
    simp
  · rw [List.append_assoc, List.append_assoc, List.getElem?_append_right (by omega)]
    simp

/-- In a mesh without free face slots `addFace` on three vertex ids in range
returns when it is given enough steps, provided the octree has a root and the
triangle has a positive extent; the face gets the next slot. -/
theorem addFace_total (s : DynamicMesh) (hinv : MeshInv s) (hfree : s.freeFaceIndices = [])
    (i1 i2 i3 : Nat) (h1 : i1 < s.vertexData.length) (h2 : i2 < s.vertexData.length)
    (h3 : i3 < s.vertexData.length) (hg : GeomWF s.octree.root)
    (hroot : s.octree.hasRoot = true) (v1 v2 v3 : Vec3)
    (p1 : s.mesh.vertices[i1]? = some v1) (p2 : s.mesh.vertices[i2]? = some v2)
    (p3 : s.mesh.vertices[i3]? = some v3) (hext : 0 < PrimTriangle.maxDimExtent v1 v2 v3) :
    ∃ fuel s1, addFace fuel s i1 i2 i3 = some (s1, s.faceData.length) ∧
      s1.mesh.indices = s.mesh.indices ++ [i1, i2, i3] ∧
      s1.mesh.vertices = s.mesh.vertices ∧ s1.freeFaceIndices = [] ∧
      s1.freeVertexIndices = s.freeVertexIndices ∧
      s1.vertexData.length = s.vertexData.length ∧
      s1.faceData.length = s.faceData.length + 1 ∧
      DynamicOctree.addElement fuel s.octree s.faceData.length (PrimTriangle.center v1 v2 v3)
        (PrimTriangle.maxDimExtent v1 v2 v3) = some s1.octree := by
  obtain ⟨⟨z1, z2, z3, z4, z5⟩, hf, ha, hc⟩ := hinv
  obtain ⟨vd, hvd⟩ := addAdjacent_total s.vertexData i1 i2 i3 s.faceData.length h1 h2 h3
  have hnone : s.octree.nodeOf s.faceData.length = none := by
    have := hc.2 s.faceData.length
    have hl : s.liveFace s.faceData.length = false := by
      unfold liveFace
      rw [List.getElem?_eq_none (le_refl _)]
    rw [hl] at this
    cases hx : s.octree.nodeOf s.faceData.length with
    | none => rfl
    | some a => rw [hx] at this; simp at this
  obtain ⟨fuel, o1, ho1⟩ := DynamicOctree.addElement_total s.octree s.faceData.length
    (PrimTriangle.center v1 v2 v3) (PrimTriangle.maxDimExtent v1 v2 v3) hg hroot hext hnone
  have hslot : addFaceSlot s i1 i2 i3 = some ({ s with
      faceData := s.faceData ++ [⟨true⟩]
      faceVisited := s.faceVisited ++ [0]
      mesh := ((s.mesh.addIndex i1).addIndex i2).addIndex i3 }, s.faceData.length) := by
    unfold addFaceSlot numFaces
    rw [hfree]
    simp
  have hidx := getElem?_append3 s.mesh.indices i1 i2 i3
  rw [z4] at hidx
  have hface : face { s with
      faceData := (s.faceData ++ [FaceData.mk true]).set s.faceData.length (FaceData.mk false)
      faceVisited := s.faceVisited ++ [0]
      mesh := ((s.mesh.addIndex i1).addIndex i2).addIndex i3
      vertexData := vd } s.faceData.length = some (v1, v2, v3) := by
    unfold face vertexIndices isFreeFace Mesh.index Mesh.vertex Mesh.addIndex
    dsimp only
    rw [List.getElem?_set_self (by simp)]
    simp only [Option.map_some']
    rw [hidx.1, hidx.2.1, hidx.2.2]
    simp only
    rw [p1, p2, p3]
  refine ⟨fuel, { s with
      faceData := (s.faceData ++ [FaceData.mk true]).set s.faceData.length (FaceData.mk false)
      faceVisited := s.faceVisited ++ [0]
      mesh := ((s.mesh.addIndex i1).addIndex i2).addIndex i3
      vertexData := vd
      octree := o1 }, ?_, ?_, rfl, hfree, rfl, ?_, ?_, ho1⟩
  rotate_left
  · show ((s.mesh.indices ++ [i1]) ++ [i2]) ++ [i3] = _
    simp
  · have := (addAdjacent_spec s.vertexData vd i1 i2 i3 s.faceData.length hvd).1
    exact this
  · simp
  unfold addFace
  rw [if_pos ⟨by unfold Mesh.numVertices; omega, by unfold Mesh.numVertices; omega,
    by unfold Mesh.numVertices; omega, by unfold Mesh.numIndices; omega, by omega⟩, hslot]
  dsimp only
  rw [if_pos (by simp), hvd]
  dsimp only
  unfold addFaceToOctree
  rw [hface]
  dsimp only
  rw [ho1]
  rfl

end DynamicMesh

namespace DynamicOctree

theorem addElement_hasRoot (fuel : Nat) (o o1 : DynamicOctree) (index : Nat) (p : Vec3) (e : ℚ)
    (h : addElement fuel o index p e = some o1) (hr : Registration o) : o1.hasRoot = true := by
  obtain ⟨r1, _, ⟨a, ha⟩, _⟩ := addElement_registration fuel o o1 index p e h hr
  have := (r1.2.2 index a).mpr ha
  unfold hasRoot
  cases hx : o1.root with
  | none => rw [hx] at this; simp [holdsAt] at this
  | node _ _ _ _ _ _ => rfl

end DynamicOctree

namespace DynamicMesh

theorem free_nil_liveFace (s : DynamicMesh) (hf : FreeLists s) (h0 : s.freeFaceIndices = [])
    (i : Nat) (hi : i < s.faceData.length) : s.liveFace i = true := by
  by_contra hc
  have : i ∈ s.freeFaceIndices := (hf.2.2.2 i).mpr ⟨hi, by simpa using hc⟩
  rw [h0] at this
  simp at this

/-- The loop of `fromMesh` over the indices returns when it is given enough
steps, for valid indices and triangles of positive extent. -/
theorem addFaces_total (src : List Vec3) : ∀ (l : List Nat) (s : DynamicMesh),
    l.length % 3 = 0 → (∀ x ∈ l, x < src.length) →
    (∀ t ∈ MeshUtil.triangles l, ∀ v1 v2 v3, src[t.1]? = some v1 → src[t.2.1]? = some v2 →
      src[t.2.2]? = some v3 → 0 < PrimTriangle.maxDimExtent v1 v2 v3) →
    MeshInv s → s.freeVertexIndices = [] → s.freeFaceIndices = [] → s.mesh.vertices = src →
    GeomWF s.octree.root → s.octree.hasRoot = true →
    ∃ fuel s1, addFaces fuel l s = some s1 ∧ MeshInv s1 ∧ s1.freeVertexIndices = [] ∧
      s1.freeFaceIndices = [] ∧ s1.mesh.vertices = src ∧
      s1.mesh.indices = s.mesh.indices ++ l ∧
      s1.faceData.length = s.faceData.length + l.length / 3 ∧
      s1.vertexData.length = s.vertexData.length
  | [], s, _, _, _, hinv, hv0, hf0, hsrc, _, _ =>
    ⟨0, s, rfl, hinv, hv0, hf0, hsrc, by simp, by simp, rfl⟩
  | [_], _, h3, _, _, _, _, _, _, _, _ => by simp at h3
  | [_, _], _, h3, _, _, _, _, _, _, _, _ => by simp at h3
  | i1 :: i2 :: i3 :: rest, s, h3, hval, hext, hinv, hv0, hf0, hsrc, hg, hroot => by
    have hlen : src.length = s.vertexData.length := by rw [← hsrc]; exact hinv.1.1
    have l1 : i1 < src.length := hval i1 (by simp)
    have l2 : i2 < src.length := hval i2 (by simp)
    have l3 : i3 < src.length := hval i3 (by simp)
    have hpos := hext (i1, i2, i3) (by simp [MeshUtil.triangles]) src[i1] src[i2] src[i3]
      (List.getElem?_eq_getElem l1) (List.getElem?_eq_getElem l2) (List.getElem?_eq_getElem l3)
    obtain ⟨f1, s2, e1, a1, a2, a3, a4, a5, a6, a7⟩ := addFace_total s hinv hf0 i1 i2 i3
      (by omega) (by omega) (by omega) hg hroot src[i1] src[i2] src[i3]
      (by rw [hsrc]; exact List.getElem?_eq_getElem l1)
      (by rw [hsrc]; exact List.getElem?_eq_getElem l2)
      (by rw [hsrc]; exact List.getElem?_eq_getElem l3) hpos
    have hinv2 : MeshInv s2 := addFace_inv f1 s s2 i1 i2 i3 _ e1
      ⟨free_nil_live s hinv.2.1 hv0 i1 (by omega), free_nil_live s hinv.2.1 hv0 i2 (by omega),
        free_nil_live s hinv.2.1 hv0 i3 (by omega)⟩ hinv
    obtain ⟨f2, s3, e2, b1, b2, b3, b4, b5, b6, b7⟩ := addFaces_total src rest s2
      (by simp only [List.length_cons] at h3; omega)
      (fun x hx => hval x (by simp [hx]))
      (fun t ht => hext t (by rw [MeshUtil.triangles]; exact List.mem_cons_of_mem _ ht))
      hinv2 (by rw [a4]; exact hv0) a3 (by rw [a2]; exact hsrc)
      (DynamicOctree.addElement_geom f1 _ _ _ _ _ a7 hg)
      (DynamicOctree.addElement_hasRoot f1 _ _ _ _ _ a7 hinv.2.2.2.1)
    refine ⟨max f1 f2, s3, ?_, b1, b2, b3, b4, ?_, ?_, by rw [b7, a5]⟩
    · rw [addFaces, addFace_mono f1 (max f1 f2) s i1 i2 i3 _ (le_max_left _ _) e1]
      exact addFaces_mono f2 (max f1 f2) (le_max_right _ _) rest s2 s3 e2
    · rw [b5, a1]; simp
    · rw [b6, a6]
      simp only [List.length_cons]
      omega

theorem addVertices_total : ∀ (vs : List (Vec3 × Vec3)) (s : DynamicMesh),
    s.vertexData.length = s.mesh.numVertices → s.vertexVisited.length = s.mesh.numVertices →
    s.freeVertexIndices = [] →
    ∃ s1, addVertices vs s = some s1 ∧
      s1.mesh.vertices = s.mesh.vertices ++ vs.map Prod.fst ∧
      s1.mesh.indices = s.mesh.indices ∧ s1.freeFaceIndices = s.freeFaceIndices ∧
      s1.octree = s.octree ∧ s1.faceData = s.faceData := by
  intro vs
  induction vs with
  | nil => intro s _ _ _; exact ⟨s, rfl, by simp, rfl, rfl, rfl, rfl⟩
  | cons p vs ih =>
    intro s h1 h2 h0
    obtain ⟨v, n⟩ := p
    have hstep : addVertex s v n = some ({ s with
        vertexData := s.vertexData ++ [⟨false, []⟩]
        vertexVisited := s.vertexVisited ++ [0]
        mesh := (s.mesh.addVertex v n).1 }, (s.mesh.addVertex v n).2) := by
      unfold addVertex
      rw [if_pos ⟨h1, h2⟩, h0]
      rfl
    obtain ⟨s1, e1, a1, a2, a3, a4, a5⟩ := ih { s with
        vertexData := s.vertexData ++ [⟨false, []⟩]
        vertexVisited := s.vertexVisited ++ [0]
        mesh := (s.mesh.addVertex v n).1 }
      (by simp [Mesh.addVertex, Mesh.numVertices] at h1 ⊢; exact h1)
      (by simp [Mesh.addVertex, Mesh.numVertices] at h2 ⊢; exact h2) h0
    refine ⟨s1, ?_, ?_, a2, a3, a4, a5⟩
    · rw [addVertices, hstep]
      exact e1
    · rw [a1]
      simp [Mesh.addVertex]

end DynamicMesh

namespace DynamicMesh

theorem face_total (s : DynamicMesh) (hinv : MeshInv s) (f : Nat) (hl : s.liveFace f = true) :
    ∃ t, s.face f = some t := by
  have hidx : s.vertexIndices f = some (s.mesh.indices.getD (3 * f) 0,
      s.mesh.indices.getD (3 * f + 1) 0, s.mesh.indices.getD (3 * f + 2) 0) :=
    (vertexIndices_iff s hinv.1 f _ _ _).mpr ⟨hl, rfl⟩
  have hlt : ∀ x ∈ s.triple f, x < s.mesh.vertices.length := by
    intro x hx
    rw [hinv.1.1]
    exact liveVertex_lt s x (hinv.2.2.1.1 f hl x hx)
  have ha := hlt (s.mesh.indices.getD (3 * f) 0) (by simp [triple])
  have hb := hlt (s.mesh.indices.getD (3 * f + 1) 0) (by simp [triple])
  have hc := hlt (s.mesh.indices.getD (3 * f + 2) 0) (by simp [triple])
  unfold face
  rw [hidx]
  unfold Mesh.vertex
  dsimp only
  rw [List.getElem?_eq_getElem ha, List.getElem?_eq_getElem hb, List.getElem?_eq_getElem hc]
  exact ⟨_, rfl⟩

theorem sumNormals_total (s : DynamicMesh) : ∀ (fs : List Nat) (acc : Vec3),
    (∀ f ∈ fs, ∃ t, s.face f = some t) → ∃ r, sumNormals s fs acc = some r := by
  intro fs
  induction fs with
  | nil => intro acc _; exact ⟨acc, rfl⟩
  | cons f fs ih =>
    intro acc h
    obtain ⟨t, ht⟩ := h f (List.mem_cons_self f fs)
    obtain ⟨v1, v2, v3⟩ := t
    rw [sumNormals, ht]
    exact ih _ (fun g hg => h g (List.mem_cons_of_mem f hg))

theorem setAllNormals_total (normalize : Vec3 → Vec3) (isNaN : Vec3 → Bool) :
    ∀ (is : List Nat) (s : DynamicMesh), MeshInv s →
      (∀ i ∈ is, s.liveVertex i = true ∧ s.adjacent i ≠ []) →
      ∃ s1, setAllNormals normalize isNaN is s = some s1 := by
  intro is
  induction is with
  | nil => intro s _ _; exact ⟨s, rfl⟩
  | cons i is ih =>
    intro s hinv h
    obtain ⟨hl, hadj⟩ := h i (List.mem_cons_self i is)
    have hlt := liveVertex_lt s i hl
    have hfree : s.isFreeVertex i = some false := (isFreeVertex_false_iff s i).mpr hl
    have hd : s.vertexData[i]? = some s.vertexData[i] := List.getElem?_eq_getElem hlt
    have hadjeq : s.vertexData[i].adjacentFaces = s.adjacent i := by
      unfold adjacent VertexData.adjacentIn
      rw [hd]
    have hisfree : s.vertexData[i].isFree = false := by
      unfold isFreeVertex at hfree
      rw [hd] at hfree
      simpa using hfree
    obtain ⟨r, hr⟩ := sumNormals_total s (s.adjacent i) ⟨0, 0, 0⟩
      (fun f hf => face_total s hinv f (adjacent_live s hinv.2.2.1 i f hf).1)
    have havg : averageNormal normalize s i = some (normalize r) := by
      unfold averageNormal
      rw [hd]
      dsimp only
      rw [if_pos ⟨hisfree, by rw [hadjeq]; exact List.length_pos.mpr hadj⟩, hadjeq, hr]
      rfl
    have hn : i < s.mesh.normals.length := by rw [hinv.1.2.1]; exact hlt
    have hset : setVertexNormal normalize isNaN s i = some { s with
        mesh := { s.mesh with
          normals := s.mesh.normals.set i (if isNaN (normalize r) then ⟨0, 0, 0⟩
            else normalize r) } } := by
      unfold setVertexNormal
      rw [havg]
      unfold Mesh.setNormal
      dsimp only
      rw [if_pos hn]
      rfl
    have hinv1 := meshInv_normals s (s.mesh.normals.set i
      (if isNaN (normalize r) then ⟨0, 0, 0⟩ else normalize r)) hinv (by simp)
    obtain ⟨s1, h1⟩ := ih _ hinv1 (fun j hj => h j (List.mem_cons_of_mem i hj))
    refine ⟨s1, ?_⟩
    rw [setAllNormals, hfree]
    dsimp only
    rw [hset]
    exact h1

theorem setupOctreeRoot_reset (s0 : DynamicMesh) (mesh : Mesh) (mn mx : Vec3)
    (hbox : mesh.minMax = some (mn, mx))
    (hwidth : 0 < max (max (mx.x - mn.x) (mx.y - mn.y)) (mx.z - mn.z)) :
    ∃ s1, setupOctreeRoot (reset s0) mesh = some s1 ∧ s1.mesh = ⟨[], [], []⟩ ∧
      s1.vertexData = [] ∧ s1.vertexVisited = [] ∧ s1.faceData = [] ∧
      s1.freeFaceIndices = [] ∧ GeomWF s1.octree.root ∧ s1.octree.hasRoot = true := by
  refine ⟨{ reset s0 with octree :=
      { root := Child.node s0.octree.heapNext
          ⟨(mx.x + mn.x) * (1 / 2), (mx.y + mn.y) * (1 / 2), (mx.z + mn.z) * (1 / 2)⟩
          (max (max (mx.x - mn.x) (mx.y - mn.y)) (mx.z - mn.z)) 0 (fun _ => Child.none) ∅
        elementNodeMap := []
        heapNext := s0.octree.heapNext + 1 } }, ?_, rfl, rfl, rfl, rfl, rfl, ?_, rfl⟩
  · unfold setupOctreeRoot
    have h0 : (reset s0).octree.hasRoot = false := rfl
    rw [if_pos h0, hbox]
    dsimp only
    unfold DynamicOctree.setupRoot
    rw [h0]
    simp only [Bool.false_eq_true, if_false]
    unfold mkNode
    rw [if_pos hwidth]
    rfl
  · show GeomWF (Child.node _ _ _ _ _ _)
    rw [geomWF_node]
    exact ⟨hwidth, fun _ => ⟨trivial, fun h => by simp [Child.isSome] at h⟩⟩

end DynamicMesh

namespace DynamicMesh

theorem mem_triple_of_index (s : DynamicMesh) (p : Nat) (hp : p < s.mesh.indices.length) :
    s.mesh.indices[p] ∈ s.triple (p / 3) := by
  have h3 : p = 3 * (p / 3) + p % 3 := (Nat.div_add_mod p 3).symm
  have hm : p % 3 < 3 := Nat.mod_lt _ (by norm_num)
  have hget : s.mesh.indices[p] = s.mesh.indices.getD p 0 := by
    rw [List.getD_eq_getElem?_getD, List.getElem?_eq_getElem hp]; rfl
  rw [hget]
  unfold triple
  rcases (by omega : p % 3 = 0 ∨ p % 3 = 1 ∨ p % 3 = 2) with h | h | h
  · have : p = 3 * (p / 3) := by omega
    rw [List.mem_cons]; left; rw [← this]
  · have : p = 3 * (p / 3) + 1 := by omega
    rw [List.mem_cons, List.mem_cons]; right; left; rw [← this]
  · have : p = 3 * (p / 3) + 2 := by omega
    rw [List.mem_cons, List.mem_cons, List.mem_cons]; right; right; left; rw [← this]

/-- The mesh built by `fromMesh` in exact arithmetic: for every source mesh with
a bounding box of positive extent,
as many normals as vertices and a valid triangle index list, in which every
vertex is a corner of a triangle and no triangle has all its corners at one
position, `fromMesh` returns when it is given enough steps, and yields a pruned
mesh with the vertex count of the source and a third of its index count as face
count, in which the face `i` has the source triple, the vertex `i` the source
position, a face occurs in the adjacency list of a vertex as often as the
vertex occurs in its triple, and every face is registered in the octree. -/
theorem fromMesh_builds_exact (normalize : Vec3 → Vec3) (isNaN : Vec3 → Bool) (s0 : DynamicMesh)
    (mesh : Mesh) (mn mx : Vec3) (hbox : mesh.minMax = some (mn, mx))
    (hwidth : 0 < max (max (mx.x - mn.x) (mx.y - mn.y)) (mx.z - mn.z))
    (hnorm : mesh.normals.length = mesh.vertices.length)
    (h3 : mesh.indices.length % 3 = 0) (hval : ∀ x ∈ mesh.indices, x < mesh.vertices.length)
    (huse : ∀ v, v < mesh.vertices.length → v ∈ mesh.indices)
    (hext : ∀ t ∈ MeshUtil.triangles mesh.indices, ∀ v1 v2 v3, mesh.vertices[t.1]? = some v1 →
      mesh.vertices[t.2.1]? = some v2 → mesh.vertices[t.2.2]? = some v3 →
      0 < PrimTriangle.maxDimExtent v1 v2 v3) :
    ∃ fuel s, (∀ fuel1, fuel ≤ fuel1 → fromMesh fuel1 normalize isNaN s0 mesh = some s) ∧
      s.isPruned = true ∧ s.numVertices = some mesh.vertices.length ∧
      s.numFaces = some (mesh.indices.length / 3) ∧
      (∀ i, i < mesh.indices.length / 3 →
        s.vertexIndices i = some (mesh.indices.getD (3 * i) 0, mesh.indices.getD (3 * i + 1) 0,
          mesh.indices.getD (3 * i + 2) 0)) ∧
      (∀ i, i < mesh.vertices.length → s.mesh.vertex i = mesh.vertex i) ∧
      (∀ v f, (s.adjacent v).count f =
        if f < mesh.indices.length / 3 then
          [mesh.indices.getD (3 * f) 0, mesh.indices.getD (3 * f + 1) 0,
            mesh.indices.getD (3 * f + 2) 0].count v
        else 0) ∧
      (∀ f, f < mesh.indices.length / 3 → ∃ a, s.octree.nodeOf f = some a) := by
  obtain ⟨s1, e1, m1, vd1, vv1, fd1, ff1, g1, r1⟩ :=
    setupOctreeRoot_reset s0 mesh mn mx hbox hwidth
  obtain ⟨inv1, fv1⟩ := setupOctreeRoot_reset_inv s0 s1 mesh e1
  obtain ⟨s2, e2, a1, a2, a3, a4, a5⟩ := addVertices_total (mesh.vertices.zip mesh.normals) s1
    (by rw [vd1, m1]; rfl) (by rw [vv1, m1]; rfl) fv1
  obtain ⟨inv2, fv2⟩ := addVertices_inv _ s1 s2 e2 inv1 fv1
  have hv2 : s2.mesh.vertices = mesh.vertices := by
    rw [a1, m1, List.map_fst_zip _ _ (by omega)]
    rfl
  obtain ⟨fuel, s3, e3, inv3, fv3, ff3, hv3, hi3, hfl3, hvl3⟩ :=
    addFaces_total mesh.vertices mesh.indices s2 h3 hval hext inv2 fv2 (by rw [a3, ff1]) hv2
      (by rw [a4]; exact g1) (by rw [a4]; exact r1)
  have hi3' : s3.mesh.indices = mesh.indices := by rw [hi3, a2, m1]; rfl
  have hfl3' : s3.faceData.length = mesh.indices.length / 3 := by rw [hfl3, a5, fd1]; simp
  have hvl3' : s3.vertexData.length = mesh.vertices.length := by
    rw [← inv3.1.1, hv3]
  have hadj3 : ∀ i, i < s3.vertexData.length → s3.adjacent i ≠ [] := by
    intro i hi
    obtain ⟨p, hp, hpi⟩ := List.mem_iff_getElem.mp (huse i (by omega))
    have hp3 : p < s3.mesh.indices.length := by rw [hi3']; exact hp
    have hmem := mem_triple_of_index s3 p hp3
    have hpi3 : s3.mesh.indices[p] = i := by
      have : s3.mesh.indices[p]? = mesh.indices[p]? := by rw [hi3']
      rw [List.getElem?_eq_getElem hp3, List.getElem?_eq_getElem hp, hpi] at this
      exact Option.some.inj this
    rw [hpi3] at hmem
    have hlive : s3.liveFace (p / 3) = true :=
      free_nil_liveFace s3 inv3.2.1 ff3 (p / 3) (by rw [hfl3']; omega)
    have hc := inv3.2.2.1.2 i (p / 3)
    rw [if_pos hlive] at hc
    have hpos : 0 < (s3.triple (p / 3)).count i := List.count_pos_iff.mpr hmem
    intro hnil
    rw [hnil] at hc
    simp at hc
    omega
  obtain ⟨s4, e4⟩ := setAllNormals_total normalize isNaN (List.range s3.vertexData.length) s3 inv3
    (fun i hi => ⟨free_nil_live s3 inv3.2.1 fv3 i (List.mem_range.mp hi),
      hadj3 i (List.mem_range.mp hi)⟩)
  obtain ⟨ns, hns, hs4⟩ := setAllNormals_frame normalize isNaN _ s3 s4 e4
  have hfrom : ∀ fuel1, fuel ≤ fuel1 → fromMesh fuel1 normalize isNaN s0 mesh = some s4 := by
    intro fuel1 hle
    unfold fromMesh
    rw [e1]
    dsimp only
    rw [if_pos hnorm, e2]
    dsimp only
    rw [if_pos (by unfold Mesh.numIndices; exact h3),
      addFaces_mono fuel fuel1 hle mesh.indices s2 s3 e3]
    exact e4
  have inv4 := fromMesh_inv fuel normalize isNaN s0 mesh s4 (hfrom fuel (le_refl _))
  have q1 : s4.freeVertexIndices = [] := by rw [hs4]; exact fv3
  have q2 : s4.freeFaceIndices = [] := by rw [hs4]; exact ff3
  have q3 : s4.mesh.vertices = mesh.vertices := by rw [hs4]; exact hv3
  have q4 : s4.mesh.indices = mesh.indices := by rw [hs4]; exact hi3'
  have q5 : s4.faceData.length = mesh.indices.length / 3 := by rw [hs4]; exact hfl3'
  have q6 : s4.vertexData.length = mesh.vertices.length := by rw [hs4]; exact hvl3'
  have hlive4 : ∀ f, s4.liveFace f = true ↔ f < mesh.indices.length / 3 := by
    intro f
    constructor
    · intro h; rw [← q5]; exact liveFace_lt s4 f h
    · intro h; exact free_nil_liveFace s4 inv4.2.1 q2 f (by rw [q5]; exact h)
  refine ⟨fuel, s4, hfrom, ?_, ?_, ?_, ?_, ?_, ?_, ?_⟩
  · unfold isPruned
    rw [q1, q2]
    rfl
  · unfold numVertices Mesh.numVertices
    rw [q1, q3, q6]
    simp
  · unfold numFaces
    rw [q2, q5]
    simp
  · intro i hi
    have := (vertexIndices_iff s4 inv4.1 i _ _ _).mpr ⟨(hlive4 i).mpr hi, rfl⟩
    rw [q4] at this
    exact this
  · intro i _
    unfold Mesh.vertex
    rw [q3]
  · intro v f
    rw [inv4.2.2.1.2 v f]
    by_cases hf : f < mesh.indices.length / 3
    · rw [if_pos ((hlive4 f).mpr hf), if_pos hf]
      unfold triple
      rw [q4]
    · rw [if_neg hf, if_neg]
      intro h
      exact hf ((hlive4 f).mp h)
  · intro f hf
    have := inv4.2.2.2.2 f
    rw [(hlive4 f).mpr hf] at this
    cases hx : s4.octree.nodeOf f with
    | none => rw [hx] at this; simp at this
    | some a => exact ⟨a, rfl⟩

end DynamicMesh

namespace DynamicMesh

theorem triMesh_minMax : triMesh.minMax = some (⟨0, 0, 0⟩, ⟨1, 1, 0⟩) := by
  simp [Mesh.minMax, triMesh]

theorem triMesh_extent (t : Nat × Nat × Nat) (ht : t ∈ MeshUtil.triangles triMesh.indices)
    (v1 v2 v3 : Vec3) (h1 : triMesh.vertices[t.1]? = some v1)
    (h2 : triMesh.vertices[t.2.1]? = some v2) (h3 : triMesh.vertices[t.2.2]? = some v3) :
    0 < PrimTriangle.maxDimExtent v1 v2 v3 := by
  have : t = (0, 1, 2) := by
    simpa [MeshUtil.triangles, triMesh] using ht
  subst this
  simp [triMesh] at h1 h2 h3
  subst h1 h2 h3
  simp [PrimTriangle.maxDimExtent]

theorem setAllNormals_isolated (normalize : Vec3 → Vec3) (isNaN : Vec3 → Bool) (v : Nat) :
    ∀ (is : List Nat) (s : DynamicMesh), v ∈ is → s.vertexData[v]? = some ⟨false, []⟩ →
      setAllNormals normalize isNaN is s = none := by
  intro is
  induction is with
  | nil => intro s hv; simp at hv
  | cons i is ih =>
    intro s hv hd
    have hfree : s.isFreeVertex v = some false := by
      simp [isFreeVertex, hd]
    have havg : averageNormal normalize s v = none := by
      simp [averageNormal, hd]
    by_cases hiv : i = v
    · subst hiv
      simp [setAllNormals, hfree, setVertexNormal, havg]
    · have hv1 : v ∈ is := by
        rcases List.mem_cons.mp hv with h | h
        · exact absurd h.symm hiv
        · exact h
      rw [setAllNormals]
      cases hf : s.isFreeVertex i with
      | none => rfl
      | some b =>
        cases b with
        | true => exact ih s hv1 hd
        | false =>
          dsimp only
          cases hs : setVertexNormal normalize isNaN s i with
          | none => rfl
          | some s1 =>
            dsimp only
            apply ih s1 hv1
            unfold setVertexNormal at hs
            cases ha : averageNormal normalize s i with
            | none => rw [ha] at hs; simp at hs
            | some avg =>
              rw [ha] at hs
              simp only [Option.map_eq_some'] at hs
              obtain ⟨m, _, rfl⟩ := hs
              exact hd

theorem iso_root : setupOctreeRoot (reset blank) isoMesh =
    some { blank with octree := ⟨Child.node 0 ⟨1 / 2, 1 / 2, 0⟩ 1 0 (fun _ => Child.none) ∅, [], 1⟩ } := by
  simp [setupOctreeRoot, reset, blank, DynamicOctree.reset, DynamicOctree.hasRoot, Child.isSome,
    Mesh.minMax, isoMesh, Mesh.reset, DynamicOctree.setupRoot, mkNode]

theorem iso_vertices :
    addVertices (isoMesh.vertices.zip isoMesh.normals)
      { blank with octree := ⟨Child.node 0 ⟨1 / 2, 1 / 2, 0⟩ 1 0 (fun _ => Child.none) ∅, [], 1⟩ } =
    some { tri with
      mesh := ⟨isoMesh.vertices, isoMesh.normals, []⟩
      vertexData := [⟨false, []⟩, ⟨false, []⟩, ⟨false, []⟩, ⟨false, []⟩]
      vertexVisited := [0, 0, 0, 0]
      faceData := []
      faceVisited := []
      octree := ⟨Child.node 0 ⟨1 / 2, 1 / 2, 0⟩ 1 0 (fun _ => Child.none) ∅, [], 1⟩ } := by
  rfl

theorem iso_face :
    addFace 1 { tri with
      mesh := ⟨isoMesh.vertices, isoMesh.normals, []⟩
      vertexData := [⟨false, []⟩, ⟨false, []⟩, ⟨false, []⟩, ⟨false, []⟩]
      vertexVisited := [0, 0, 0, 0]
      faceData := []
      faceVisited := []
      octree := ⟨Child.node 0 ⟨1 / 2, 1 / 2, 0⟩ 1 0 (fun _ => Child.none) ∅, [], 1⟩ } 0 1 2 =
    some ({ tri with
      mesh := isoMesh
      vertexData := [⟨false, [0]⟩, ⟨false, [0]⟩, ⟨false, [0]⟩, ⟨false, []⟩]
      vertexVisited := [0, 0, 0, 0] }, 0) := by
  have h : approxContains ⟨1 / 2, 1 / 2, 0⟩ 1 ⟨1 / 3, 1 / 3, 0⟩ 1 = true := by
    simp [approxContains, epsilon]
    norm_num
  simp [addFace, tri, isoMesh, Mesh.numVertices, Mesh.numIndices, addFaceSlot, numFaces,
    Mesh.addIndex, addAdjacent, VertexData.addAdjacentFace, addFaceToOctree, face, vertexIndices,
    isFreeFace, Mesh.index, Mesh.vertex, PrimTriangle.center, PrimTriangle.maxDimExtent,
    DynamicOctree.addElement, DynamicOctree.hasRoot, Child.isSome, nodeAddElement,
    insertIntoChild, relativeMinElementExtent, DynamicOctree.addToElementNodeMap, Util.resize]
  norm_num
  simp only [h, if_true]

theorem iso_none (normalize : Vec3 → Vec3) (isNaN : Vec3 → Bool) (fuel : Nat) :
    fromMesh fuel normalize isNaN blank isoMesh = none := by
  unfold fromMesh
  rw [iso_root]
  dsimp only
  rw [if_pos (by rfl), iso_vertices]
  dsimp only
  rw [if_pos (by rfl)]
  cases h : addFaces fuel isoMesh.indices { tri with
      mesh := ⟨isoMesh.vertices, isoMesh.normals, []⟩
      vertexData := [⟨false, []⟩, ⟨false, []⟩, ⟨false, []⟩, ⟨false, []⟩]
      vertexVisited := [0, 0, 0, 0]
      faceData := []
      faceVisited := []
      octree := ⟨Child.node 0 ⟨1 / 2, 1 / 2, 0⟩ 1 0 (fun _ => Child.none) ∅, [], 1⟩ } with
  | none => rfl
  | some s3 =>
    dsimp only
    have h1 := addFaces_mono fuel (max fuel 1) (le_max_left _ _) _ _ _ h
    have h2 : addFaces 1 isoMesh.indices { tri with
        mesh := ⟨isoMesh.vertices, isoMesh.normals, []⟩
        vertexData := [⟨false, []⟩, ⟨false, []⟩, ⟨false, []⟩, ⟨false, []⟩]
        vertexVisited := [0, 0, 0, 0]
        faceData := []
        faceVisited := []
        octree := ⟨Child.node 0 ⟨1 / 2, 1 / 2, 0⟩ 1 0 (fun _ => Child.none) ∅, [], 1⟩ } =
        some { tri with
          mesh := isoMesh
          vertexData := [⟨false, [0]⟩, ⟨false, [0]⟩, ⟨false, [0]⟩, ⟨false, []⟩]
          vertexVisited := [0, 0, 0, 0] } := by
      have : isoMesh.indices = [0, 1, 2] := rfl
      rw [this]
      simp only [addFaces, iso_face]
    have h3 := addFaces_mono 1 (max fuel 1) (le_max_right _ _) _ _ _ h2
    rw [h1] at h3
    injection h3 with h3
    subst h3
    exact setAllNormals_isolated normalize isNaN 3 _ _ (by simp) rfl

theorem point_none (normalize : Vec3 → Vec3) (isNaN : Vec3 → Bool) (fuel : Nat) :
    fromMesh fuel normalize isNaN blank pointMesh = none := by
  unfold fromMesh
  have hr : setupOctreeRoot (reset blank) pointMesh = setupOctreeRoot (reset blank) triMesh := rfl
  rw [hr, tri_root]
  dsimp only
  have hv : pointMesh.vertices.zip pointMesh.normals = triMesh.vertices.zip triMesh.normals := rfl
  rw [if_pos (by rfl), hv, tri_vertices]
  dsimp only
  rw [if_pos (by rfl)]
  have hi : pointMesh.indices = [0, 0, 0, 0, 1, 2] := rfl
  rw [hi, addFaces]
  have hf : addFace fuel { tri with
      mesh := ⟨triMesh.vertices, triMesh.normals, []⟩
      vertexData := [⟨false, []⟩, ⟨false, []⟩, ⟨false, []⟩]
      faceData := []
      faceVisited := []
      octree := ⟨Child.node 0 ⟨1 / 2, 1 / 2, 0⟩ 1 0 (fun _ => Child.none) ∅, [], 1⟩ } 0 0 0 =
      none := by
    simp [addFace, tri, triMesh, Mesh.numVertices, Mesh.numIndices, addFaceSlot, numFaces,
      Mesh.addIndex, addAdjacent, VertexData.addAdjacentFace, addFaceToOctree, face, vertexIndices,
      isFreeFace, Mesh.index, Mesh.vertex, PrimTriangle.center, PrimTriangle.maxDimExtent,
      DynamicOctree.addElement_zero]
  rw [hf]

end DynamicMesh

namespace DynamicMesh

theorem tri0_reachable (L : Prop) : ReachableWith L tri0 :=
  ReachableWith.step tri tri0 (tri_reachable L) (Step.deleteFace _ _ 0 (fun _ => rfl) tri0_eq)
    (by unfold Fits tri0 tri; simp)

theorem deleteAdjacent_free (s : DynamicMesh) (hadj : Adjacency s) (f : Nat)
    (hfree : s.liveFace f = false) (k : Nat) : deleteAdjacent s.mesh s.vertexData k f = none := by
  unfold deleteAdjacent
  cases hi : s.mesh.index k with
  | none => rfl
  | some v =>
    dsimp only
    cases hd : s.vertexData[v]? with
    | none => rfl
    | some d =>
      dsimp only
      rw [Option.map_eq_none']
      unfold VertexData.deleteAdjacentFace
      have hc := hadj.2 v f
      rw [hfree] at hc
      have hnot : f ∉ d.adjacentFaces := by
        have : s.adjacent v = d.adjacentFaces := by
          simp [adjacent, VertexData.adjacentIn, hd]
        rw [this] at hc
        simpa [List.count_eq_zero] using hc
      rw [if_neg hnot]

/-- C31: in a state with the adjacency invariant, `deleteFace` on a face slot
that is free fails at the first `deleteAdjacentFace`, so nothing is pushed onto
the list of free faces. -/
theorem deleteFace_free (s : DynamicMesh) (hadj : Adjacency s) (f : Nat)
    (hfree : s.isFreeFace f = some true) : deleteFace s f = none := by
  have hl : s.liveFace f = false := by
    unfold isFreeFace at hfree
    unfold liveFace
    cases hd : s.faceData[f]? with
    | none => rfl
    | some d =>
      rw [hd] at hfree
      simp only [Option.map_some', Option.some.injEq] at hfree
      simp [hfree]
  unfold deleteFace
  split
  · rw [deleteAdjacent_free s hadj f hl]
  · rfl

/-- C31, at the mesh `tri0`, whose only face slot is free. -/
theorem deleteFace_free_witness :
    Adjacency tri0 ∧ tri0.isFreeFace 0 = some true ∧ deleteFace tri0 0 = none :=
  ⟨(reachable_inv tri0 (tri0_reachable True)).2.2.1, rfl,
    deleteFace_free tri0 (reachable_inv tri0 (tri0_reachable True)).2.2.1 0 rfl⟩

end DynamicMesh

namespace DynamicMesh

theorem stale_eq : addFace 1 frag 0 1 3 = some (stale, 1) := by
  have h := root_approx ⟨1 / 3, 0, 1 / 3⟩ (by norm_num) (by norm_num) (by norm_num)
  have hi : (insert 1 {0} : Finset ℕ) = {0, 1} := by decide
  simp [addFace, frag, tri4, tri, triMesh, Mesh.numVertices, Mesh.numIndices, addFaceSlot,
    numFaces, Mesh.addIndex, addAdjacent, VertexData.addAdjacentFace, addFaceToOctree, face,
    vertexIndices, isFreeFace, Mesh.index, Mesh.vertex, PrimTriangle.center,
    PrimTriangle.maxDimExtent, DynamicOctree.addElement, DynamicOctree.hasRoot, Child.isSome,
    nodeAddElement, insertIntoChild, relativeMinElementExtent,
    DynamicOctree.addToElementNodeMap, Util.resize, stale]
  norm_num
  simp only [h, if_true, hi]

/-- C32, amended: `addFace` fails on every vertex id that is out of range,
whatever the state and the number of steps it is given. -/
theorem addFace_rejects (fuel : Nat) (s : DynamicMesh) (i1 i2 i3 : Nat)
    (h : s.mesh.numVertices ≤ i1 ∨ s.mesh.numVertices ≤ i2 ∨ s.mesh.numVertices ≤ i3) :
    addFace fuel s i1 i2 i3 = none := by
  unfold addFace
  rw [if_neg]
  intro hc
  omega

/-- C32, at the mesh `frag` of four vertex slots and the vertex id 4. -/
theorem addFace_rejects_witness :
    (frag.mesh.numVertices ≤ 0 ∨ frag.mesh.numVertices ≤ 1 ∨ frag.mesh.numVertices ≤ 4) ∧
      addFace 1 frag 0 1 4 = none :=
  ⟨Or.inr (Or.inr (by decide)), addFace_rejects 1 frag 0 1 4 (Or.inr (Or.inr (by decide)))⟩

/-- C32, refuted as stated: in the reachable mesh `frag` the vertex slot 3 is
free and in range; `addFace (0, 1, 3)` returns the face 1, which is live and has
the free slot 3 as a corner. -/
theorem addFace_counterexample :
    Reachable frag ∧ frag.isFreeVertex 3 = some true ∧ addFace 1 frag 0 1 3 = some (stale, 1) ∧
      stale.isFreeFace 1 = some false ∧ stale.vertexIndices 1 = some (0, 1, 3) ∧
      stale.isFreeVertex 3 = some true :=
  ⟨frag_reachable True, rfl, stale_eq, rfl, rfl, rfl⟩

end DynamicMesh

namespace DynamicMesh

theorem adjacentLoop_spec (s : DynamicMesh) (hs : Sizes s) (v : Nat) :
    ∀ l : List Nat, (∀ a ∈ l, s.liveFace a = true ∧ v ∈ s.triple a) →
      ∃ calls, adjacentLoop s v l = some calls ∧
        List.Forall₂ (fun a x => ∃ t, s.vertexIndices a = some t ∧ windingEdge t v x) l calls := by
  intro l
  induction l with
  | nil => intro _; exact ⟨[], rfl, List.Forall₂.nil⟩
  | cons a rest ih =>
    intro h
    obtain ⟨calls, hc, hall⟩ := ih (fun b hb => h b (List.mem_cons_of_mem _ hb))
    obtain ⟨hl, hv⟩ := h a (List.mem_cons_self _ _)
    have ht : s.vertexIndices a = some (s.mesh.indices.getD (3 * a) 0,
        s.mesh.indices.getD (3 * a + 1) 0, s.mesh.indices.getD (3 * a + 2) 0) :=
      (vertexIndices_iff s hs a _ _ _).mpr ⟨hl, rfl⟩
    unfold triple at hv
    rw [adjacentLoop, ht, hc]
    dsimp only
    by_cases h1 : v = s.mesh.indices.getD (3 * a) 0
    · rw [if_pos h1]
      exact ⟨_, rfl, List.Forall₂.cons ⟨_, ht, Or.inl ⟨h1.symm, rfl⟩⟩ hall⟩
    · rw [if_neg h1]
      by_cases h2 : v = s.mesh.indices.getD (3 * a + 1) 0
      · rw [if_pos h2]
        exact ⟨_, rfl, List.Forall₂.cons ⟨_, ht, Or.inr (Or.inl ⟨h2.symm, rfl⟩)⟩ hall⟩
      · rw [if_neg h2]
        by_cases h3 : v = s.mesh.indices.getD (3 * a + 2) 0
        · rw [if_pos h3]
          exact ⟨_, rfl, List.Forall₂.cons ⟨_, ht, Or.inr (Or.inr ⟨h3.symm, rfl⟩)⟩ hall⟩
        · exfalso
          simp only [List.mem_cons, List.mem_singleton, List.not_mem_nil, or_false] at hv
          rcases hv with h | h | h
          · exact h1 h
          · exact h2 h
          · exact h3 h

/-- C34: in a state whose parallel arrays have matching sizes and that satisfies
the adjacency invariant, `forEachVertexAdjacentToVertex (v, fn)` on a live
vertex `v` returns, and calls `fn` once per entry of the adjacency list of `v`,
in the order of the list, `valence (v)` times in all, each time with a vertex
that follows `v` in the winding order of the face of that entry. -/
theorem forEachVertexAdjacentToVertex_calls (s : DynamicMesh) (hs : Sizes s) (ha : Adjacency s)
    (v : Nat) (hv : s.isFreeVertex v = some false) :
    ∃ calls, forEachVertexAdjacentToVertex s v = some calls ∧
      s.valence v = some calls.length ∧
      List.Forall₂ (fun a x => ∃ t, s.vertexIndices a = some t ∧ windingEdge t v x)
        (s.adjacent v) calls := by
  unfold forEachVertexAdjacentToVertex
  rw [if_pos hv]
  unfold isFreeVertex at hv
  cases hd : s.vertexData[v]? with
  | none => rw [hd] at hv; simp at hv
  | some d =>
    rw [hd] at hv
    simp only [Option.map_some', Option.some.injEq] at hv
    have hadj : s.adjacent v = d.adjacentFaces := by
      simp [adjacent, VertexData.adjacentIn, hd]
    obtain ⟨calls, hc, hall⟩ := adjacentLoop_spec s hs v d.adjacentFaces
      (fun a h => adjacent_live s ha v a (by rw [hadj]; exact h))
    refine ⟨calls, hc, ?_, by rw [hadj]; exact hall⟩
    unfold valence
    rw [hd]
    dsimp only
    rw [if_pos hv, hall.length_eq]

/-- C34, at the vertex 0 of the mesh `degen`, which is twice a corner of the
face 1. -/
theorem forEachVertexAdjacentToVertex_calls_witness :
    Sizes degen ∧ Adjacency degen ∧ degen.isFreeVertex 0 = some false ∧
    ∃ calls, forEachVertexAdjacentToVertex degen 0 = some calls ∧
      degen.valence 0 = some calls.length ∧
      List.Forall₂ (fun a x => ∃ t, degen.vertexIndices a = some t ∧ windingEdge t 0 x)
        (degen.adjacent 0) calls :=
  ⟨(reachable_inv degen (degen_reachable True)).1, (reachable_inv degen (degen_reachable True)).2.2.1,
    rfl,
    forEachVertexAdjacentToVertex_calls degen (reachable_inv degen (degen_reachable True)).1
      (reachable_inv degen (degen_reachable True)).2.2.1 0 rfl⟩

end DynamicMesh

namespace Octree

theorem descent_any (c : Vec3) (w : ℚ) (p : Vec3) (e : ℚ)
    (h1 : approxContains c w p e = true) (h2 : e ≤ relativeMinElementExtent * w) :
    approxContains (childCenter c (w * (1 / 4)) (childIndex c p)) (w * (1 / 2)) p e = true := by
  rw [approxContains_iff] at h1 ⊢
  unfold relativeMinElementExtent at h2
  obtain ⟨⟨a1, a2, a3⟩, ⟨b1, b2, b3⟩, b4⟩ := h1
  have heps := epsilon_pos
  unfold childIndex
  by_cases hx : c.x < p.x <;> by_cases hy : c.y < p.y <;> by_cases hz : c.z < p.z <;>
    simp only [hx, hy, hz, decide_True, decide_False, childCenter] <;>
    refine ⟨⟨?_, ?_, ?_⟩, ⟨?_, ?_, ?_⟩, ?_⟩ <;> linarith

theorem childOrMake_total (next : Nat) (c : Vec3) (w : ℚ) (d : Int) (ch : Fin 8 → Child)
    (k : Fin 8) (hw : 0 < w) : ∃ r, childOrMake next c w d ch k = some r := by
  unfold childOrMake
  by_cases hs : (ch k).isSome = true
  · rw [if_pos hs]; exact ⟨_, rfl⟩
  · rw [if_neg hs]
    unfold mkNode
    rw [if_pos (by linarith)]
    exact ⟨_, rfl⟩

/-- Descent in exact arithmetic: when a node of a tree with the child geometry
approx-contains
`(position, maxDimExtent)` and `maxDimExtent` is at most a quarter of its width,
the child that `insertIntoChild` selects or makes for `childIndex (position)`
has half the width and the centre a quarter of the width away, and
approx-contains `(position, maxDimExtent)` too; and for a positive
`maxDimExtent` the descent of `addElement` from a node that approx-contains the
element returns, so no assertion fails on the way. -/
theorem descent_containment_exact (a next index : Nat) (c : Vec3) (w : ℚ) (d : Int)
    (ch : Fin 8 → Child) (idx : Finset Nat) (p : Vec3) (e : ℚ)
    (hg : GeomWF (Child.node a c w d ch idx)) (h1 : approxContains c w p e = true) :
    (e ≤ relativeMinElementExtent * w →
      approxContains (childCenter c (w * (1 / 4)) (childIndex c p)) (w * (1 / 2)) p e = true ∧
      ∃ child next1, childOrMake next c w d ch (childIndex c p) = some (child, next1) ∧
        child.isSome = true ∧ child.width = w * (1 / 2) ∧
        child.center = childCenter c (w * (1 / 4)) (childIndex c p) ∧
        approxContains child.center child.width p e = true) ∧
    (0 < e → ∃ fuel r, ∀ fuel1, fuel ≤ fuel1 →
      nodeAddElement fuel1 index p e next (Child.node a c w d ch idx) = some r) := by
  constructor
  · intro h2
    have hsafe := descent_any c w p e h1 h2
    refine ⟨hsafe, ?_⟩
    have hw : 0 < w := ((geomWF_node _ _ _ _ _ _).mp hg).1
    obtain ⟨⟨child, next1⟩, hc⟩ := childOrMake_total next c w d ch (childIndex c p) hw
    obtain ⟨_, g2, g3, _, g5⟩ := childOrMake_geom next c w d ch _ child next1 hc
      (geomWF_irrel _ _ _ _ _ _ _ _ hg)
    exact ⟨child, next1, hc, g2, g3, g5, by rw [g3, g5]; exact hsafe⟩
  · intro he
    obtain ⟨k, hk⟩ := pow_unbounded_of_one_lt (w / (4 * e)) (by norm_num : (1 : ℚ) < 2)
    rw [div_lt_iff₀ (by linarith)] at hk
    obtain ⟨r, hr⟩ := nodeAddElement_total index p e k (Child.node a c w d ch idx) next hg rfl h1
      (by simp only [Child.width]; linarith)
    exact ⟨k + 1, r, fun fuel1 hf => nodeAddElement_mono index p e _ _ _ _ _ hf hr⟩

theorem nodeAddElement_nonpos (index : Nat) (p : Vec3) (e : ℚ) (he : e ≤ 0) :
    ∀ fuel next t, nodeAddElement fuel index p e next t = none := by
  intro fuel
  induction fuel with
  | zero => intro next t; simp [nodeAddElement]
  | succ fuel ih =>
    intro next t
    cases t with
    | none => simp [nodeAddElement]
    | node a c w d ch idx =>
      rw [nodeAddElement]
      by_cases happ : approxContains c w p e = true
      · rw [if_pos happ]
        have hw : e ≤ w := ((approxContains_iff _ _ _ _).mp happ).2.2
        have hins : insertIntoChild w e = true := by
          rw [insertIntoChild_iff]
          by_cases h0 : 0 ≤ w
          · linarith
          · linarith
        rw [if_pos hins]
        cases hc : childOrMake next c w d ch (childIndex c p) with
        | none => rfl
        | some r =>
          obtain ⟨child, next1⟩ := r
          simp only [ih]
      · rw [if_neg happ]

end Octree

namespace DynamicOctree

theorem addElement_nonpos (index : Nat) (p : Vec3) (e : ℚ) (he : e ≤ 0) :
    ∀ fuel o, addElement fuel o index p e = none := by
  intro fuel
  induction fuel with
  | zero => intro o; simp [addElement]
  | succ fuel ih =>
    intro o
    rw [addElement]
    cases hr : o.root with
    | none => rfl
    | node a c w d ch idx =>
      simp only
      by_cases happ : approxContains c w p e = true
      · rw [if_pos happ, nodeAddElement_nonpos index p e he]
      · rw [if_neg happ]
        cases hm : makeParent o p with
        | none => rfl
        | some o1 => simp only [ih]

theorem addElement_width (index : Nat) (p : Vec3) (e : ℚ) :
    ∀ fuel (o o1 : DynamicOctree), addElement fuel o index p e = some o1 →
      ∃ n : Nat, o1.root.width = 2 ^ n * o.root.width := by
  intro fuel
  induction fuel with
  | zero => intro o o1 h; simp [addElement] at h
  | succ fuel ih =>
    intro o o1 h
    rw [addElement] at h
    split at h
    · simp at h
    · rename_i a c w d ch idx hroot
      split at h
      · split at h
        · simp at h
        · rename_i r a1 next hnode
          simp only [Option.map_eq_some'] at h
          obtain ⟨enm, _, rfl⟩ := h
          obtain ⟨_, f2, _, _, _⟩ := nodeAddElement_fields index p e _ _ _ _ _ _ hnode
          exact ⟨0, by simp only [pow_zero, one_mul]; exact f2⟩
      · split at h
        · simp at h
        · rename_i o2 hmp
          obtain ⟨n, hn⟩ := ih o2 o1 h
          refine ⟨n + 1, ?_⟩
          rw [hn]
          have hw2 : o2.root.width = w * 2 := by
            unfold makeParent at hmp
            rw [hroot] at hmp
            simp only [Option.map_eq_some'] at hmp
            obtain ⟨nr, hnr, rfl⟩ := hmp
            unfold mkNode at hnr
            split at hnr
            · simp only [Option.some.injEq] at hnr
              subst hnr
              simp [setChild, Child.width]
            · simp at hnr
          rw [hw2, hroot]
          simp only [Child.width]
          ring

/-- C36: in a reachable octree with a root, `addElement` of an id that is not
registered returns, given enough steps, exactly when `maxDimExtent` is
positive, and fails for every number of steps otherwise; when it returns, the
root has been doubled finitely often, the node that holds the id has a width
below `4 * maxDimExtent`, and every ancestor of that node a width of at least
`4 * maxDimExtent`. -/
theorem addElement_terminates (o : DynamicOctree) (index : Nat) (p : Vec3) (e : ℚ)
    (hr : Reachable o) (hs : o.hasRoot = true) (hn : o.nodeOf index = none) :
    ((∃ fuel o1, ∀ fuel1, fuel ≤ fuel1 → addElement fuel1 o index p e = some o1) ↔ 0 < e) ∧
    (e ≤ 0 → ∀ fuel, addElement fuel o index p e = none) ∧
    ∀ fuel o1, addElement fuel o index p e = some o1 →
      (∃ n : Nat, o1.root.width = 2 ^ n * o.root.width) ∧
      ∃ a, o1.nodeOf index = some a ∧ index ∈ (find a o1.root).indices ∧
        (find a o1.root).width < 4 * e ∧
        ∃ anc, ancestors a o1.root = some anc ∧ ∀ m ∈ anc, 4 * e ≤ m.width := by
  refine ⟨⟨?_, ?_⟩, fun he fuel => addElement_nonpos index p e he fuel o, ?_⟩
  · rintro ⟨fuel, o1, h⟩
    by_contra hc
    have := addElement_nonpos index p e (not_lt.mp hc) fuel o
    rw [h fuel (le_refl _)] at this
    simp at this
  · intro he
    obtain ⟨fuel, o1, h⟩ := addElement_total o index p e (reachable_geom _ o hr) hs he hn
    exact ⟨fuel, o1, fun fuel1 hf => addElement_mono index p e _ _ _ _ hf h⟩
  · intro fuel o1 h
    refine ⟨addElement_width index p e fuel o o1 h, ?_⟩
    obtain ⟨a, h1, h2, _, h4, anc, h5, h6⟩ :=
      addElement_placement fuel o o1 index p e h (reachable_registration o hr)
    refine ⟨a, h1, h2, ?_, anc, h5, ?_⟩
    · have : ¬ insertIntoChild (find a o1.root).width e = true := by rw [h4]; simp
      rw [insertIntoChild_iff] at this
      linarith
    · intro m hm
      have := h6 m hm
      rw [insertIntoChild_iff] at this
      linarith

/-- C36, at the octree `trace0`, the id 0, the position (1/4, 1/4, 1/4) and the
extent 1/5. -/
theorem addElement_terminates_witness :
    Reachable trace0 ∧ trace0.hasRoot = true ∧ trace0.nodeOf 0 = none ∧
    ((∃ fuel o1, ∀ fuel1, fuel ≤ fuel1 →
      addElement fuel1 trace0 0 ⟨1 / 4, 1 / 4, 1 / 4⟩ (1 / 5) = some o1) ↔ (0 : ℚ) < 1 / 5) ∧
    ((1 / 5 : ℚ) ≤ 0 → ∀ fuel, addElement fuel trace0 0 ⟨1 / 4, 1 / 4, 1 / 4⟩ (1 / 5) = none) ∧
    ∀ fuel o1, addElement fuel trace0 0 ⟨1 / 4, 1 / 4, 1 / 4⟩ (1 / 5) = some o1 →
      (∃ n : Nat, o1.root.width = 2 ^ n * trace0.root.width) ∧
      ∃ a, o1.nodeOf 0 = some a ∧ 0 ∈ (find a o1.root).indices ∧
        (find a o1.root).width < 4 * (1 / 5) ∧
        ∃ anc, ancestors a o1.root = some anc ∧ ∀ m ∈ anc, 4 * (1 / 5) ≤ m.width :=
  ⟨ReachableWith.setupRoot 0 origin 1 trace0 trace0_eq, rfl, rfl,
    addElement_terminates trace0 0 ⟨1 / 4, 1 / 4, 1 / 4⟩ (1 / 5)
      (ReachableWith.setupRoot 0 origin 1 trace0 trace0_eq) rfl rfl⟩

end DynamicOctree

namespace Octree

theorem hasAddr_cases (a b : Nat) (c : Vec3) (w : ℚ) (d : Int) (ch : Fin 8 → Child)
    (idx : Finset Nat) (h : hasAddr a (Child.node b c w d ch idx) = true) :
    b = a ∨ ∃ k, hasAddr a (ch k) = true := by
  rw [hasAddr] at h
  simp only [Bool.or_eq_true, decide_eq_true_eq, List.any_eq_true] at h
  rcases h with h | ⟨k, _, hk⟩
  · exact Or.inl h
  · exact Or.inr ⟨k, hk⟩

theorem childCenter_signs (c : Vec3) (q : ℚ) (k : Fin 8) :
    childCenter c q k =
      ⟨c.x + (if 4 ≤ k.val then q else -q), c.y + (if 2 ≤ k.val % 4 then q else -q),
        c.z + (if k.val % 2 = 1 then q else -q)⟩ := by
  fin_cases k <;> simp [childCenter]

end Octree

namespace DynamicOctree

end DynamicOctree

namespace DynamicOctree

theorem deleteElement_nodeOf (o o1 : DynamicOctree) (index : Nat)
    (h : deleteElement o index = some o1) (id : Nat) (hid : id ≠ index) :
    o1.nodeOf id = o.nodeOf id := by
  unfold deleteElement at h
  cases he : o.elementNodeMap[index]? with
  | none => rw [he] at h; simp at h
  | some x =>
    cases x with
    | none => rw [he] at h; simp at h
    | some a =>
      rw [he] at h
      have hlt : index < o.elementNodeMap.length := by
        by_contra hc
        rw [List.getElem?_eq_none (by omega)] at he
        cases he
      have hset : (o.elementNodeMap.set index none).getD id none = o.elementNodeMap.getD id none := by
        rw [nodeOf_set _ _ _ _ hlt, if_neg hid]
      simp only at h
      split at h
      · split at h
        · split at h
          · simp only [Option.some.injEq] at h
            subst h
            exact hset
          · simp only [Option.some.injEq] at h
            subst h
            exact hset
        · simp only [Option.some.injEq] at h
          subst h
          exact hset
      · simp at h

/-- C39, amended: in every reachable octree state, if an id is registered then
the octree has a root; after `deleteElement` every node that held another id
is still in the tree and holds it, and after `shrinkRoot` every node that held
an id is still in the tree and holds it. -/
theorem root_exists (o : DynamicOctree) (h : Reachable o) :
    ((∃ id a, o.nodeOf id = some a) → o.hasRoot = true) ∧
    (∀ index o1, deleteElement o index = some o1 → ∀ id a, id ≠ index →
      holdsAt id a o.root = true → o1.nodeOf id = some a ∧ holdsAt id a o1.root = true) ∧
    (∀ id a, holdsAt id a o.root = true →
      (shrinkRoot o).nodeOf id = some a ∧ holdsAt id a (shrinkRoot o).root = true) := by
  have hr := reachable_registration o h
  refine ⟨?_, ?_, ?_⟩
  · rintro ⟨id, a, hn⟩
    have hh := (hr.2.2 id a).mpr hn
    unfold hasRoot
    cases hc : o.root with
    | none => rw [hc] at hh; simp [holdsAt] at hh
    | node _ _ _ _ _ _ => rfl
  · intro index o1 hd id a hid hh
    have hr1 := reachable_registration o1
      (ReachableWith.step o o1 h (Step.deleteElement o o1 index hd))
    have hn : o1.nodeOf id = some a := by
      rw [deleteElement_nodeOf o o1 index hd id hid]
      exact (hr.2.2 id a).mp hh
    exact ⟨hn, (hr1.2.2 id a).mpr hn⟩
  · intro id a hh
    have hr1 := reachable_registration (shrinkRoot o)
      (ReachableWith.step o (shrinkRoot o) h (Step.shrinkRoot o))
    have hn : (shrinkRoot o).nodeOf id = some a := (hr.2.2 id a).mp hh
    exact ⟨hn, (hr1.2.2 id a).mpr hn⟩

/-- C39, at the octree `nested`, whose child in slot 7 holds the id 0. -/
theorem root_exists_witness :
    Reachable nested ∧
    ((∃ id a, nested.nodeOf id = some a) → nested.hasRoot = true) ∧
    (∀ index o1, deleteElement nested index = some o1 → ∀ id a, id ≠ index →
      holdsAt id a nested.root = true → o1.nodeOf id = some a ∧ holdsAt id a o1.root = true) ∧
    (∀ id a, holdsAt id a nested.root = true →
      (shrinkRoot nested).nodeOf id = some a ∧ holdsAt id a (shrinkRoot nested).root = true) :=
  ⟨nested_reachable _, root_exists nested (nested_reachable _)⟩

/-- C39, refuted as stated: in the reachable octree `nested` the root, at
address 0, has the child at address 1, which holds the id 0; `shrinkRoot`
discards the root. -/
theorem root_exists_counterexample :
    Reachable nested ∧ hasAddr 0 nested.root = true ∧ find 0 nested.root = nested.root ∧
    hasAddr 1 nested.root = true ∧ 1 ≠ nested.root.addr ∧ holdsAt 0 1 nested.root = true ∧
    hasAddr 0 (shrinkRoot nested).root = false := by
  refine ⟨nested_reachable _, ?_, rfl, ?_, by decide, ?_, ?_⟩
  · simp [nested, hasAddr]
  · simp only [nested, hasAddr]
    simp only [List.any_eq_true, Bool.or_eq_true, decide_eq_true_eq]
    right
    exact ⟨7, List.mem_finRange _, by simp [Function.update, hasAddr]⟩
  · simp only [nested, holdsAt]
    simp only [List.any_eq_true, Bool.or_eq_true, Bool.and_eq_true, decide_eq_true_eq]
    right
    exact ⟨7, List.mem_finRange _, by simp [Function.update, holdsAt]⟩
  · rw [nested_shrink]
    simp [nestedShrunk, hasAddr]

end DynamicOctree

namespace DynamicMesh

theorem copyFaces_vertices (vmap free : List Nat) : ∀ rest i m m3,
    copyFaces vmap free rest i m = some m3 →
    m3.vertices = m.vertices ∧ m3.normals = m.normals := by
  intro rest
  induction rest with
  | nil =>
    intro i m m3 h
    simp only [copyFaces, Option.some.injEq] at h
    subst h; exact ⟨rfl, rfl⟩
  | cons newF rest ih =>
    intro i m m3 h
    simp only [copyFaces] at h
    split at h
    · split at h
      · split at h
        · split at h
          · simp at h
          · rename_i ma hma
            split at h
            · simp at h
            · rename_i mb hmb
              split at h
              · simp at h
              · rename_i mc hmc
                obtain ⟨i1, i2⟩ := ih _ _ _ h
                unfold Mesh.setIndex at hma hmb hmc
                split at hma
                · split at hmb
                  · split at hmc
                    · simp only [Option.some.injEq] at hma hmb hmc
                      subst hma
                      subst hmb
                      subst hmc
                      exact ⟨i1, i2⟩
                    · simp at hmc
                  · simp at hmb
                · simp at hma
        · simp at h
      · simp at h
    · split at h
      · exact ih _ _ _ h
      · simp at h

theorem copyVertices_geometry (free vmap : List Nat) (m0 : Mesh)
    (H1 : ∀ i x, vmap[i]? = some x → x ≠ Util.invalidIndex → x ≤ i)
    (H2 : ∀ (i1 i2 x : Nat), vmap[i1]? = some x → vmap[i2]? = some x →
      x ≠ Util.invalidIndex → i1 = i2) :
    ∀ (k t : Nat) (m mF : Mesh), t + k = vmap.length →
      (∀ j, t ≤ j → m.vertices[j]? = m0.vertices[j]? ∧ m.normals[j]? = m0.normals[j]?) →
      (∀ i x, i < t → vmap[i]? = some x → x ≠ Util.invalidIndex →
        x < m.vertices.length ∧ x < m.normals.length ∧
        m.vertices[x]? = m0.vertices[i]? ∧ m.normals[x]? = m0.normals[i]?) →
      copyVertices free (vmap.drop t) t m = some mF →
      ∀ (i x : Nat), vmap[i]? = some x → x ≠ Util.invalidIndex →
        x < mF.vertices.length ∧ x < mF.normals.length ∧
        mF.vertices[x]? = m0.vertices[i]? ∧ mF.normals[x]? = m0.normals[i]? := by
  intro k
  induction k with
  | zero =>
    intro t m mF ht _ hdone h
    have : t = vmap.length := by omega
    subst this
    simp only [List.drop_length, copyVertices, Option.some.injEq] at h
    subst h
    intro i x hi hx
    have hlt : i < vmap.length := by
      by_contra hc
      rw [List.getElem?_eq_none (by omega)] at hi
      cases hi
    exact hdone i x hlt hi hx
  | succ k ih =>
    intro t m mF ht hrest hdone h
    have hlt : t < vmap.length := by omega
    rw [List.drop_eq_getElem_cons hlt] at h
    have hget : vmap[t]? = some vmap[t] := List.getElem?_eq_getElem hlt
    simp only [copyVertices] at h
    split at h
    · rename_i hx
      split at h
      · simp at h
      · rename_i v hv
        split at h
        · simp at h
        · rename_i ma hma
          split at h
          · simp at h
          · rename_i n hn
            split at h
            · simp at h
            · rename_i mb hmb
              have hle := H1 t _ hget hx
              unfold Mesh.setVertex at hma
              split at hma
              swap
              · simp at hma
              rename_i hxv
              simp only [Option.some.injEq] at hma
              subst hma
              unfold Mesh.setNormal at hmb
              split at hmb
              swap
              · simp at hmb
              rename_i hxn
              simp only [Option.some.injEq] at hmb
              subst hmb
              simp only at hxn
              unfold Mesh.vertex at hv
              unfold Mesh.normal at hn
              simp only at hn
              apply ih (t + 1) _ mF (by omega) ?_ ?_ h
              · intro j hj
                simp only
                rw [List.getElem?_set_ne (by omega), List.getElem?_set_ne (by omega)]
                exact hrest j (by omega)
              · intro i x hi hix hxne
                simp only [List.length_set]
                by_cases hit : i = t
                · subst hit
                  rw [hget] at hix
                  simp only [Option.some.injEq] at hix
                  subst hix
                  refine ⟨hxv, hxn, ?_, ?_⟩
                  · rw [List.getElem?_set_self hxv, ← hv]
                    exact (hrest i (le_refl _)).1
                  · rw [List.getElem?_set_self hxn, ← hn]
                    exact (hrest i (le_refl _)).2
                · have hne : vmap[t] ≠ x := by
                    intro hc
                    exact hit (H2 i t x hix (by rw [hget, hc]) hxne)
                  obtain ⟨d1, d2, d3, d4⟩ := hdone i x (by omega) hix hxne
                  refine ⟨d1, d2, ?_, ?_⟩
                  · rw [List.getElem?_set_ne hne]; exact d3
                  · rw [List.getElem?_set_ne hne]; exact d4
    · rename_i hx
      split at h
      · apply ih (t + 1) m mF (by omega) (fun j hj => hrest j (by omega)) ?_ h
        intro i x hi hix hxne
        by_cases hit : i = t
        · subst hit
          rw [hget] at hix
          simp only [Option.some.injEq] at hix
          exact absurd hix.symm (by
            intro hc
            apply hx
            rw [← hc]
            exact hxne)
        · exact hdone i x (by omega) hix hxne
      · simp at h

/-- C40: a fragmented reachable mesh is pruned with empty output vectors; the
call returns, and for every vertex `v` that was live before, the position and
the normal stored at `vmap[v]` afterwards are those stored at `v` before. The
copy loop writes, for the old slot `i`, to the slot `vmap[i]` only, and this is
the slot `i` itself or a slot below `i` that was free; so it never writes to
the slot of a live vertex other than the one it copies. -/
theorem prune_geometry (s : DynamicMesh) (h : Reachable s) (hfrag : s.isPruned = false) :
    ∃ s1 vmap fmap, prune s (some []) (some []) = some (s1, some vmap, some fmap) ∧
      (∀ v, s.isFreeVertex v = some false →
        ∃ q p n, vmap[v]? = some q ∧ s.mesh.vertex v = some p ∧ s.mesh.normal v = some n ∧
          s1.mesh.vertex q = some p ∧ s1.mesh.normal q = some n) ∧
      (∀ i q, vmap[i]? = some q → q ≠ Util.invalidIndex →
        s.isFreeVertex i = some false ∧ (q = i ∨ (q < i ∧ s.isFreeVertex q = some true))) := by
  have hinv := reachable_inv s h
  have hfit := reachable_fits True s h
  obtain ⟨s1, vmap, fmap, hp⟩ := prune_fresh s hinv hfit hfrag
  obtain ⟨vmap1, fmap1, e1, e2, l1, _, _, _, hsz, _, c1, _, lv, _, V, Vinj, _, Vdead, _⟩ :=
    prune_frame s s1 _ _ _ _ hp hfrag hinv hfit
  simp only [Option.map_some', Option.some.injEq] at e1 e2
  subst e1
  subst e2
  obtain ⟨vd, vmap', fd, fmap', vd1, m1, m3, o, _, _, _, e4, _, e6, _, hs1, hrv, _⟩ :=
    prune_unfold s s1 _ _ _ _ hp hfrag
  simp only [Option.map_some', Option.some.injEq] at hrv
  subst hrv
  have hlive : ∀ i q, vmap[i]? = some q → q ≠ Util.invalidIndex → s.liveVertex i = true := by
    intro i q hi hq
    have hlt : i < vmap.length := by
      by_contra hc
      rw [List.getElem?_eq_none (by omega)] at hi
      cases hi
    rw [l1] at hlt
    by_contra hc
    have hc' : s.liveVertex i = false := by simpa using hc
    obtain ⟨d1, d2⟩ := Vdead i hlt hc'
    by_cases hi1 : i < s1.vertexData.length
    · rw [d1 hi1] at hi
      exact hq (Option.some.inj hi).symm
    · rw [d2 (by omega)] at hi
      simp only [Option.getD_some] at hi
      rw [Util.getElem?_resize_nil _ _ hlt] at hi
      exact hq (Option.some.inj hi).symm
  have H1 : ∀ i x, vmap[i]? = some x → x ≠ Util.invalidIndex → x ≤ i := by
    intro i x hi hx
    obtain ⟨q, q1, _, q3, _⟩ := V i (hlive i x hi hx)
    rw [hi] at q1
    rw [Option.some.inj q1]
    exact q3
  have H2 : ∀ (i1 i2 x : Nat), vmap[i1]? = some x → vmap[i2]? = some x →
      x ≠ Util.invalidIndex → i1 = i2 :=
    fun i1 i2 x h1 h2 hx => Vinj i1 i2 x (hlive i1 x h1 hx) (hlive i2 x h2 hx) h1 h2
  have hcopy := copyVertices_geometry s.freeVertexIndices vmap s.mesh H1 H2 vmap.length 0 s.mesh
    m1 (by omega) (fun j _ => ⟨rfl, rfl⟩) (fun i x hi => absurd hi (Nat.not_lt_zero i))
    (by rw [List.drop_zero]; exact e4)
  obtain ⟨g1, g2⟩ := copyFaces_vertices _ _ _ _ _ _ e6
  have hlen : s1.vertexData.length = vd1.length := by rw [hs1]
  have hmv : s1.mesh.vertices = m1.vertices.take vd1.length := by
    rw [hs1]
    simp only [Mesh.shrinkIndices]
    rw [g1]
    rfl
  have hmn : s1.mesh.normals = m1.normals.take vd1.length := by
    rw [hs1]
    simp only [Mesh.shrinkIndices]
    rw [g2]
    rfl
  refine ⟨s1, vmap, fmap, hp, ?_, ?_⟩
  · intro v hv
    have hl := (isFreeVertex_false_iff s v).mp hv
    obtain ⟨q, q1, q2, _, _, _⟩ := V v hl
    have hvlt : v < s.vertexData.length := by
      unfold liveVertex VertexData.liveIn at hl
      by_contra hc
      rw [List.getElem?_eq_none (by omega)] at hl
      simp at hl
    have hqne : q ≠ Util.invalidIndex := by
      intro hc
      have := hfit.1
      have hle : s1.vertexData.length ≤ s.vertexData.length := by
        rw [c1]; exact List.length_filter_le _ _
      rw [hc] at q2
      unfold Util.invalidIndex at q2
      omega
    obtain ⟨_, _, x3, x4⟩ := hcopy v q q1 hqne
    have hpv : v < s.mesh.vertices.length := by rw [hinv.1.1]; exact hvlt
    have hpn : v < s.mesh.normals.length := by rw [hinv.1.2.1]; exact hvlt
    refine ⟨q, s.mesh.vertices[v], s.mesh.normals[v], q1, ?_, ?_, ?_, ?_⟩
    · unfold Mesh.vertex; exact List.getElem?_eq_getElem hpv
    · unfold Mesh.normal; exact List.getElem?_eq_getElem hpn
    · unfold Mesh.vertex
      rw [hmv, List.getElem?_take_of_lt (by rw [← hlen]; exact q2), x3]
      exact List.getElem?_eq_getElem hpv
    · unfold Mesh.normal
      rw [hmn, List.getElem?_take_of_lt (by rw [← hlen]; exact q2), x4]
      exact List.getElem?_eq_getElem hpn
  · intro i q hi hq
    have hl := hlive i q hi hq
    refine ⟨(isFreeVertex_false_iff s i).mpr hl, ?_⟩
    obtain ⟨q', q1, q2, q3, q4, _⟩ := V i hl
    rw [hi] at q1
    have hqq := Option.some.inj q1
    subst hqq
    by_cases hqi : q = i
    · exact Or.inl hqi
    · right
      refine ⟨by omega, ?_⟩
      have hle : s1.vertexData.length ≤ s.vertexData.length := by
        rw [c1]; exact List.length_filter_le _ _
      rw [isFreeVertex_true_iff]
      refine ⟨by omega, ?_⟩
      by_contra hc
      have hlq : s.liveVertex q = true := by simpa using hc
      obtain ⟨r, r1, _, _, r4, _⟩ := V q hlq
      have hrq : r = q := r4 q2
      subst hrq
      exact hqi (Vinj i r r hl hlq hi r1).symm

/-- C40, at the fragmented mesh `frag`. -/
theorem prune_geometry_witness :
    Reachable frag ∧ frag.isPruned = false ∧
    ∃ s1 vmap fmap, prune frag (some []) (some []) = some (s1, some vmap, some fmap) ∧
      (∀ v, frag.isFreeVertex v = some false →
        ∃ q p n, vmap[v]? = some q ∧ frag.mesh.vertex v = some p ∧ frag.mesh.normal v = some n ∧
          s1.mesh.vertex q = some p ∧ s1.mesh.normal q = some n) ∧
      (∀ i q, vmap[i]? = some q → q ≠ Util.invalidIndex →
        frag.isFreeVertex i = some false ∧
          (q = i ∨ (q < i ∧ frag.isFreeVertex q = some true))) :=
  ⟨frag_reachable True, rfl, prune_geometry frag (frag_reachable True) rfl⟩

end DynamicMesh

namespace MeshUtil

theorem tetra_consistent : checkConsistency tetra = some true := by
  decide

theorem tetra_sides :
    tetra.vertices.map (side (fun v => v.x + 1)) =
      [Side.Positive, Side.Positive, Side.Positive, Side.Positive] := by
  simp [tetra, side, Octree.epsilon]
  norm_num

theorem tetra_mirror :
    (mirror (fun v => v.x + 1) (fun v => ⟨-2 - v.x, v.y, v.z⟩) (fun _ _ => none) tetra).map
      (fun m => m.numVertices) = some 8 := by
  unfold mirror
  rw [tetra_consistent]
  simp only [tetra_sides]
  decide

theorem incAt_length (counts : List Nat) (i : Nat) (c : List Nat)
    (h : incAt counts i = some c) : c.length = counts.length ∧ i < counts.length := by
  unfold incAt at h
  cases hg : counts[i]? with
  | none => rw [hg] at h; cases h
  | some x =>
    rw [hg] at h
    simp only [Option.some.injEq] at h
    subst h
    refine ⟨List.length_set _ _ _, ?_⟩
    by_contra hc
    rw [List.getElem?_eq_none (by omega)] at hg
    cases hg

theorem countFaces_valid : ∀ (n : Nat) (l : List Nat) (counts : List Nat)
    (elements : List (List (Nat × Nat))) (r : List Nat × List (List (Nat × Nat))),
    l.length ≤ n → countFaces l counts elements = some r →
    (∀ x ∈ l, x < counts.length) ∧ l.length % 3 = 0 := by
  intro n
  induction n with
  | zero =>
    intro l counts elements r hl _
    have : l = [] := List.length_eq_zero.mp (by omega)
    subst this
    exact ⟨fun x hx => absurd hx (List.not_mem_nil x), rfl⟩
  | succ n ih =>
    intro l counts elements r hl h
    match l, h, hl with
    | [], _, _ => exact ⟨fun x hx => absurd hx (List.not_mem_nil x), rfl⟩
    | [_], h, _ => simp [countFaces] at h
    | [_, _], h, _ => simp [countFaces] at h
    | i1 :: i2 :: i3 :: rest, h, hl =>
      rw [countFaces] at h
      cases h1 : incAt counts i1 with
      | none => rw [h1] at h; cases h
      | some c1 =>
        rw [h1] at h
        dsimp only at h
        cases h2 : incAt c1 i2 with
        | none => rw [h2] at h; cases h
        | some c2 =>
          rw [h2] at h
          dsimp only at h
          cases h3 : incAt c2 i3 with
          | none => rw [h3] at h; cases h
          | some c3 =>
            rw [h3] at h
            dsimp only at h
            obtain ⟨l1, b1⟩ := incAt_length _ _ _ h1
            obtain ⟨l2, b2⟩ := incAt_length _ _ _ h2
            obtain ⟨l3, b3⟩ := incAt_length _ _ _ h3
            cases e1 : increase elements i1 i2 with
            | none => rw [e1] at h; cases h
            | some x1 =>
              rw [e1] at h
              dsimp only at h
              cases e2 : increase x1 i1 i3 with
              | none => rw [e2] at h; cases h
              | some x2 =>
                rw [e2] at h
                dsimp only at h
                cases e3 : increase x2 i2 i3 with
                | none => rw [e3] at h; cases h
                | some x3 =>
                  rw [e3] at h
                  dsimp only at h
                  simp only [List.length_cons] at hl
                  obtain ⟨g1, g2⟩ := ih rest c3 x3 r (by omega) h
                  refine ⟨?_, ?_⟩
                  · intro x hx
                    simp only [List.mem_cons] at hx
                    rcases hx with rfl | rfl | rfl | hx
                    · exact b1
                    · omega
                    · omega
                    · have := g1 x hx
                      omega
                  · simp only [List.length_cons]
                    omega

theorem checkConsistency_valid (mesh : Mesh) (h : checkConsistency mesh = some true) :
    0 < mesh.numVertices ∧ (∀ x ∈ mesh.indices, x < mesh.numVertices) ∧
      mesh.indices.length % 3 = 0 := by
  unfold checkConsistency at h
  by_cases h0 : mesh.numVertices = 0
  · rw [if_pos h0] at h
    cases h
  · rw [if_neg h0] at h
    cases hc : countFaces mesh.indices (Util.resize [] mesh.numVertices 0)
        (Util.resize [] (mesh.numVertices - 1) []) with
    | none => rw [hc] at h; cases h
    | some r =>
      obtain ⟨g1, g2⟩ := countFaces_valid _ _ _ _ r (le_refl _) hc
      rw [Util.length_resize] at g1
      exact ⟨Nat.pos_of_ne_zero h0, g1, g2⟩

theorem updateBorderFlag_negative (flags : List BorderFlag) (i : Nat) (hi : i < flags.length) :
    ∃ f, updateBorderFlag flags i Side.Negative = some f ∧ f.length = flags.length := by
  unfold updateBorderFlag
  rw [List.getElem?_eq_getElem hi]
  dsimp only
  split_ifs
  · exact ⟨_, rfl, List.length_set _ _ _⟩
  · exact ⟨_, rfl, List.length_set _ _ _⟩
  · exact ⟨_, rfl, rfl⟩

theorem updateBorderFlags_negative (sides : List Side)
    (hs : ∀ i, i < sides.length → sides[i]? = some Side.Negative) :
    ∀ (n : Nat) (l : List Nat) (flags : List BorderFlag), l.length ≤ n →
      (∀ x ∈ l, x < sides.length) → l.length % 3 = 0 → flags.length = sides.length →
      ∃ f, updateBorderFlags sides l flags = some f := by
  intro n
  induction n with
  | zero =>
    intro l flags hl _ _ _
    have : l = [] := List.length_eq_zero.mp (by omega)
    subst this
    exact ⟨flags, rfl⟩
  | succ n ih =>
    intro l flags hl hv h3 hf
    match l, hl, hv, h3 with
    | [], _, _, _ => exact ⟨flags, rfl⟩
    | [_], _, _, h3 => simp at h3
    | [_, _], _, _, h3 => simp at h3
    | i1 :: i2 :: i3 :: rest, hl, hv, h3 =>
      have v1 : i1 < sides.length := hv i1 (by simp)
      have v2 : i2 < sides.length := hv i2 (by simp)
      have v3 : i3 < sides.length := hv i3 (by simp)
      rw [updateBorderFlags, hs i1 v1, hs i2 v2, hs i3 v3]
      dsimp only
      rw [if_pos (Or.inl (by decide))]
      obtain ⟨f1, e1, l1⟩ := updateBorderFlag_negative flags i1 (by omega)
      obtain ⟨f2, e2, l2⟩ := updateBorderFlag_negative f1 i1 (by omega)
      obtain ⟨f3, e3, l3⟩ := updateBorderFlag_negative f2 i2 (by omega)
      obtain ⟨f4, e4, l4⟩ := updateBorderFlag_negative f3 i2 (by omega)
      obtain ⟨f5, e5, l5⟩ := updateBorderFlag_negative f4 i3 (by omega)
      obtain ⟨f6, e6, l6⟩ := updateBorderFlag_negative f5 i3 (by omega)
      rw [e1, Option.some_bind, e2, Option.some_bind, e3, Option.some_bind, e4,
        Option.some_bind, e5, Option.some_bind, e6, Option.some_bind]
      simp only [List.length_cons] at hl h3
      exact ih rest f6 (by omega) (fun x hx => hv x (by simp [hx])) (by omega) (by omega)

theorem mirrorVertices_negative (mirrorPoint : Vec3 → Vec3) (mesh : Mesh) (sides : List Side)
    (borderFlags : List BorderFlag)
    (hs : ∀ i, i < sides.length → sides[i]? = some Side.Negative) :
    ∀ (is : List Nat) (st : Mesh × List (Nat × Nat)), (∀ i ∈ is, i < sides.length) →
      mirrorVertices mirrorPoint mesh sides borderFlags is st = some st := by
  intro is
  induction is with
  | nil => intro st _; rfl
  | cons i rest ih =>
    intro st h
    rw [mirrorVertices]
    have : mirrorVertex mirrorPoint mesh sides borderFlags st i = some st := by
      unfold mirrorVertex
      rw [hs i (h i (List.mem_cons_self _ _))]
    rw [this]
    exact ih st (fun j hj => h j (List.mem_cons_of_mem _ hj))

theorem mirrorFaces_negative (intersects : Vec3 → Vec3 → Option Vec3) (mesh : Mesh)
    (sides : List Side) (borderFlags : List BorderFlag) (newIndices : List (Nat × Nat))
    (hs : ∀ i, i < sides.length → sides[i]? = some Side.Negative) :
    ∀ (n : Nat) (l : List Nat) (st : Mesh × List (List (Nat × Nat))), l.length ≤ n →
      (∀ x ∈ l, x < sides.length) → l.length % 3 = 0 →
      mirrorFaces intersects mesh sides borderFlags newIndices l st = some st := by
  intro n
  induction n with
  | zero =>
    intro l st hl _ _
    have : l = [] := List.length_eq_zero.mp (by omega)
    subst this
    rfl
  | succ n ih =>
    intro l st hl hv h3
    match l, hl, hv, h3 with
    | [], _, _, _ => rfl
    | [_], _, _, h3 => simp at h3
    | [_, _], _, _, h3 => simp at h3
    | i1 :: i2 :: i3 :: rest, hl, hv, h3 =>
      have v1 : i1 < sides.length := hv i1 (by simp)
      have v2 : i2 < sides.length := hv i2 (by simp)
      have v3 : i3 < sides.length := hv i3 (by simp)
      have hface : mirrorFace intersects mesh sides borderFlags newIndices st i1 i2 i3 =
          some st := by
        unfold mirrorFace
        rw [hs i1 v1, hs i2 v2, hs i3 v3]
        dsimp only
        rw [if_neg (by decide)]
      rw [mirrorFaces, hface]
      simp only [List.length_cons] at hl h3
      exact ih rest st (by omega) (fun x hx => hv x (by simp [hx])) (by omega)

theorem mirror_negative (distance : Vec3 → ℚ) (mirrorPoint : Vec3 → Vec3)
    (intersects : Vec3 → Vec3 → Option Vec3) (mesh : Mesh)
    (hc : checkConsistency mesh = some true)
    (hneg : ∀ v ∈ mesh.vertices, distance v < -Octree.epsilon) :
    mirror distance mirrorPoint intersects mesh = some ⟨[], [], []⟩ := by
  obtain ⟨_, hv, h3⟩ := checkConsistency_valid mesh hc
  have hlen : (mesh.vertices.map (side distance)).length = mesh.numVertices := by
    simp [Mesh.numVertices]
  have hs : ∀ i, i < (mesh.vertices.map (side distance)).length →
      (mesh.vertices.map (side distance))[i]? = some Side.Negative := by
    intro i hi
    rw [List.getElem?_map]
    rw [List.length_map] at hi
    rw [List.getElem?_eq_getElem hi]
    simp only [Option.map_some', Option.some.injEq]
    unfold side
    have := hneg _ (List.getElem_mem hi)
    have heps := Octree.epsilon_pos
    rw [if_pos (by linarith)]
  unfold mirror
  rw [hc]
  dsimp only
  obtain ⟨f, hf⟩ := updateBorderFlags_negative _ hs _ mesh.indices
    (List.replicate mesh.numVertices BorderFlag.NoBorder) (le_refl _)
    (fun x hx => by rw [hlen]; exact hv x hx) h3 (by rw [hlen]; simp)
  rw [hf]
  dsimp only
  rw [mirrorVertices_negative mirrorPoint mesh _ f hs _ _
    (fun i hi => by rw [hlen]; exact List.mem_range.mp hi)]
  dsimp only
  rw [mirrorFaces_negative intersects mesh _ f _ hs _ mesh.indices _ (le_refl _)
    (fun x hx => by rw [hlen]; exact hv x hx) h3]
  rfl

end MeshUtil

namespace DynamicOctree

theorem mem_intersectsT (o : DynamicOctree) (hr : Registration o) (I : PrimAABox → Bool)
    (id : Nat) (h : id ∈ intersectsT I o) : ∃ a, o.nodeOf id = some a := by
  have huniq : ∀ a1 a2, holdsAt id a1 o.root = true → holdsAt id a2 o.root = true →
      a1 = a2 := by
    intro a1 a2 h1 h2
    have e1 := (hr.2.2 id a1).mp h1
    have e2 := (hr.2.2 id a2).mp h2
    rw [e1] at e2
    exact Option.some.inj e2
  unfold intersectsT at h
  by_cases hroot : o.hasRoot = true
  · rw [if_pos hroot] at h
    have hc := Multiset.count_pos.mpr h
    rw [nodeIntersectsT_count, nodeContainsOrIntersectsT_count _ _ id o.root hr.1 huniq] at hc
    by_cases hex : ∃ a, holdsAt id a o.root = true ∧
        PathAccepted (fun x => (fun _ : PrimAABox => false) x || I x) a o.root ∧
          false = (fun _ : PrimAABox => false) (looseAABox (find a o.root))
    · obtain ⟨a, ha, _⟩ := hex
      exact ⟨a, (hr.2.2 id a).mp ha⟩
    · rw [if_neg hex] at hc
      exact absurd hc (lt_irrefl 0)
  · rw [if_neg hroot] at h
    exact absurd h (Multiset.not_mem_zero id)

end DynamicOctree

namespace DynamicMesh

theorem collectFaces_total (triTest : Vec3 × Vec3 × Vec3 → Bool) (s : DynamicMesh)
    (hinv : MeshInv s) : ∀ ids : List Nat, (∀ i ∈ ids, s.liveFace i = true) →
      ∃ faces, collectFaces triTest s ids = some faces ∧ ∀ f ∈ faces, s.liveFace f = true := by
  intro ids
  induction ids with
  | nil => intro _; exact ⟨[], rfl, fun f hf => absurd hf (List.not_mem_nil f)⟩
  | cons i rest ih =>
    intro h
    obtain ⟨faces, hf, hl⟩ := ih (fun j hj => h j (List.mem_cons_of_mem _ hj))
    obtain ⟨t, ht⟩ := face_total s hinv i (h i (List.mem_cons_self _ _))
    rw [collectFaces, ht, hf]
    refine ⟨_, rfl, ?_⟩
    intro f hfm
    split_ifs at hfm
    · rcases List.mem_cons.mp hfm with rfl | hfm
      · exact h f (List.mem_cons_self _ _)
      · exact hl f hfm
    · exact hl f hfm

theorem filterInBorder_far (distance : Vec3 → ℚ) (s : DynamicMesh) (hinv : MeshInv s)
    (hfar : ∀ v ∈ s.mesh.vertices, epsilon < |distance v|) :
    ∀ faces : List Nat, (∀ f ∈ faces, s.liveFace f = true) →
      filterInBorder distance s faces = some [] := by
  intro faces
  induction faces with
  | nil => intro _; rfl
  | cons f rest ih =>
    intro h
    have hl := h f (List.mem_cons_self _ _)
    have hidx : s.vertexIndices f = some (s.mesh.indices.getD (3 * f) 0,
        s.mesh.indices.getD (3 * f + 1) 0, s.mesh.indices.getD (3 * f + 2) 0) :=
      (vertexIndices_iff s hinv.1 f _ _ _).mpr ⟨hl, rfl⟩
    obtain ⟨t, ht⟩ := face_total s hinv f hl
    obtain ⟨v1, v2, v3⟩ := t
    unfold face at ht
    rw [hidx] at ht
    dsimp only at ht
    have hb : inBorder distance s f = some false := by
      unfold inBorder
      rw [hidx]
      dsimp only
      cases h1 : s.mesh.vertex (s.mesh.indices.getD (3 * f) 0) with
      | none => rw [h1] at ht; simp at ht
      | some w1 =>
        cases h2 : s.mesh.vertex (s.mesh.indices.getD (3 * f + 1) 0) with
        | none => rw [h1, h2] at ht; simp at ht
        | some w2 =>
          cases h3 : s.mesh.vertex (s.mesh.indices.getD (3 * f + 2) 0) with
          | none => rw [h1, h2, h3] at ht; simp at ht
          | some w3 =>
            dsimp only
            have hw : w1 ∈ s.mesh.vertices := List.mem_iff_getElem?.mpr ⟨_, h1⟩
            have hnot : ¬ |distance w1| ≤ epsilon := not_le.mpr (hfar w1 hw)
            simp [hnot]
    rw [filterInBorder, hb, ih (fun g hg => h g (List.mem_cons_of_mem _ hg))]
    rfl

theorem mirrorLoop_far (distance : Vec3 → ℚ) (boxTest : PrimAABox → Bool)
    (triTest : Vec3 × Vec3 × Vec3 → Bool)
    (deleteFacesAction : DynamicMesh → List Nat → Option (DynamicMesh × Bool))
    (s : DynamicMesh) (hinv : MeshInv s)
    (hfar : ∀ v ∈ s.mesh.vertices, epsilon < |distance v|) (fuel : Nat) :
    mirrorLoop distance boxTest triTest deleteFacesAction (fuel + 1) s = some s := by
  have hids : ∀ i ∈ (DynamicOctree.intersectsT boxTest s.octree).sort (· ≤ ·),
      s.liveFace i = true := by
    intro i hi
    rw [Multiset.mem_sort] at hi
    obtain ⟨a, ha⟩ := DynamicOctree.mem_intersectsT s.octree hinv.2.2.2.1 boxTest i hi
    rw [← hinv.2.2.2.2 i, ha]
    rfl
  obtain ⟨faces, hf, hl⟩ := collectFaces_total triTest s hinv _ hids
  rw [mirrorLoop]
  unfold intersectsPlane
  rw [hf]
  dsimp only
  split_ifs
  · rfl
  · rw [filterInBorder_far distance s hinv hfar faces hl]
    rfl

theorem pruneAndCheckConsistency_facts (s s1 : DynamicMesh) (h : Reachable s)
    (hc : pruneAndCheckConsistency s = some (s1, true)) :
    Reachable s1 ∧ s1.isPruned = true ∧ MeshUtil.checkConsistency s1.mesh = some true ∧
      (∀ d ∈ s1.vertexData, d.isFree = false → d.adjacentFaces ≠ []) ∧
      prune s1 none none = some (s1, none, none) := by
  unfold pruneAndCheckConsistency at hc
  cases hp : prune s none none with
  | none => rw [hp] at hc; cases hc
  | some r =>
    obtain ⟨s2, x, y⟩ := r
    rw [hp] at hc
    dsimp only at hc
    cases hm : MeshUtil.checkConsistency s2.mesh with
    | none => rw [hm] at hc; cases hc
    | some b =>
      rw [hm] at hc
      cases b with
      | false => simp at hc
      | true =>
        simp only [Option.some.injEq, Prod.mk.injEq, Bool.not_eq_true'] at hc
        obtain ⟨rfl, hany⟩ := hc
        have hinv := reachable_inv s h
        have hfit := reachable_fits True s h
        have hpruned : s2.isPruned = true ∧ Fits s2 := by
          by_cases hnp : s.isPruned = false
          · obtain ⟨_, _, _, _, _, _, e1, e2, _, _, c1, c2, _⟩ :=
              prune_frame s s2 _ _ _ _ hp hnp hinv hfit
            refine ⟨by simp [isPruned, e1, e2], ?_⟩
            have a1 : s2.vertexData.length ≤ s.vertexData.length := by
              rw [c1]; exact List.length_filter_le _ _
            have a2 : s2.faceData.length ≤ s.faceData.length := by
              rw [c2]; exact List.length_filter_le _ _
            exact ⟨by have := hfit.1; omega, by have := hfit.2; omega⟩
          · have hp' : s.isPruned = true := by simpa using hnp
            obtain ⟨e, _, _⟩ := prune_pruned s s2 _ _ _ _ hp hp'
            rw [e]
            exact ⟨hp', hfit⟩
        refine ⟨ReachableWith.step s s2 h (Step.prune s s2 none none x y hp) hpruned.2,
          hpruned.1, hm, ?_, ?_⟩
        · intro d hd hfree hadj
          have : (s2.vertexData.any (fun d => !d.isFree && d.adjacentFaces.isEmpty)) = true := by
            rw [List.any_eq_true]
            exact ⟨d, hd, by simp [hfree, hadj]⟩
          rw [this] at hany
          cases hany
        · unfold prune
          rw [if_neg (by rw [hpruned.1]; simp)]

/-- C33, amended: for a reachable mesh that passes `pruneAndCheckConsistency`
and all of whose vertices are farther than epsilon on the negative side of the
plane (none on the positive side), the reflected mesh that `MeshUtil::mirror`
produces is empty, and `DynamicMesh::mirror` returns false, whatever the
operations of the plane and of the sculpting action do. -/
theorem mirror_nothing_positive (normalize : Vec3 → Vec3) (isNaN : Vec3 → Bool)
    (distance : Vec3 → ℚ) (mirrorPoint : Vec3 → Vec3) (intersects : Vec3 → Vec3 → Option Vec3)
    (boxTest : PrimAABox → Bool) (triTest : Vec3 × Vec3 × Vec3 → Bool)
    (deleteFacesAction : DynamicMesh → List Nat → Option (DynamicMesh × Bool))
    (s s1 : DynamicMesh) (h : Reachable s)
    (hc : pruneAndCheckConsistency s = some (s1, true))
    (hneg : ∀ v ∈ s1.mesh.vertices, distance v < -epsilon) :
    MeshUtil.mirror distance mirrorPoint intersects s1.mesh = some ⟨[], [], []⟩ ∧
    ∀ fuel, ∃ s2, mirror normalize isNaN distance mirrorPoint intersects boxTest triTest
      deleteFacesAction (fuel + 1) s = some (s2, false) := by
  obtain ⟨hr1, hp1, hm1, hadj1, hprune1⟩ := pruneAndCheckConsistency_facts s s1 h hc
  have hinv1 := reachable_inv s1 hr1
  have hmir := MeshUtil.mirror_negative distance mirrorPoint intersects s1.mesh hm1 hneg
  refine ⟨hmir, fun fuel => ?_⟩
  have hc1 : pruneAndCheckConsistency s1 = some (s1, true) := by
    unfold pruneAndCheckConsistency
    rw [hprune1]
    dsimp only
    rw [hm1]
    dsimp only
    have : (s1.vertexData.any (fun d => !d.isFree && d.adjacentFaces.isEmpty)) = false := by
      rw [List.any_eq_false]
      intro d hd
      cases hf : d.isFree with
      | true => simp
      | false =>
        have := hadj1 d hd hf
        simp [this]
    rw [this]
    rfl
  have hfree : s1.freeVertexIndices = [] ∧ s1.freeFaceIndices = [] := by
    unfold isPruned at hp1
    simp only [Bool.and_eq_true, List.isEmpty_iff] at hp1
    exact ⟨hp1.2, hp1.1⟩
  obtain ⟨hlive, _, _, _⟩ := pruned_facts s1 hinv1 hfree.1 hfree.2
  obtain ⟨s2, hs2⟩ := setAllNormals_total normalize isNaN (List.range s1.vertexData.length) s1
    hinv1 (by
      intro i hi
      have hlt := List.mem_range.mp hi
      have hl := (isFreeVertex_false_iff s1 i).mp (hlive i hlt)
      refine ⟨hl, ?_⟩
      have hd : s1.vertexData[i]? = some s1.vertexData[i] := List.getElem?_eq_getElem hlt
      have hfr : s1.vertexData[i].isFree = false := by
        have := hlive i hlt
        unfold isFreeVertex at this
        rw [hd] at this
        simpa using this
      have := hadj1 _ (List.getElem_mem hlt) hfr
      simpa [adjacent, VertexData.adjacentIn, hd] using this)
  refine ⟨s2, ?_⟩
  unfold mirror
  rw [hc]
  dsimp only
  rw [mirrorLoop_far distance boxTest triTest deleteFacesAction s1 hinv1
    (fun v hv => by
      have := hneg v hv
      rw [abs_of_neg (by linarith [epsilon_pos])]
      linarith) fuel]
  dsimp only
  rw [hc1]
  dsimp only
  rw [hprune1]
  dsimp only
  rw [hmir]
  dsimp only
  rw [if_pos (by rfl), hs2]
  rfl

theorem tet3_eq : addFace 1 two 1 2 3 = some (tet3, 2) := by
  have h := root_approx ⟨1 / 3, 1 / 3, 1 / 3⟩ (by norm_num) (by norm_num) (by norm_num)
  have hi : (insert 2 {0, 1} : Finset ℕ) = {0, 1, 2} := by decide
  simp [addFace, two, tri4, tri, triMesh, Mesh.numVertices, Mesh.numIndices, addFaceSlot,
    numFaces, Mesh.addIndex, addAdjacent, VertexData.addAdjacentFace, addFaceToOctree, face,
    vertexIndices, isFreeFace, Mesh.index, Mesh.vertex, PrimTriangle.center,
    PrimTriangle.maxDimExtent, DynamicOctree.addElement, DynamicOctree.hasRoot, Child.isSome,
    nodeAddElement, insertIntoChild, relativeMinElementExtent,
    DynamicOctree.addToElementNodeMap, Util.resize, tet3]
  norm_num
  simp only [h, if_true, hi]

theorem tet4_eq : addFace 1 tet3 2 0 3 = some (tet4, 3) := by
  have h := root_approx ⟨0, 1 / 3, 1 / 3⟩ (by norm_num) (by norm_num) (by norm_num)
  have hi : (insert 3 {0, 1, 2} : Finset ℕ) = {0, 1, 2, 3} := by decide
  simp [addFace, tet3, two, tri4, tri, triMesh, Mesh.numVertices, Mesh.numIndices, addFaceSlot,
    numFaces, Mesh.addIndex, addAdjacent, VertexData.addAdjacentFace, addFaceToOctree, face,
    vertexIndices, isFreeFace, Mesh.index, Mesh.vertex, PrimTriangle.center,
    PrimTriangle.maxDimExtent, DynamicOctree.addElement, DynamicOctree.hasRoot, Child.isSome,
    nodeAddElement, insertIntoChild, relativeMinElementExtent,
    DynamicOctree.addToElementNodeMap, Util.resize, tet4]
  norm_num
  simp only [h, if_true, hi]

theorem tet3_reachable (L : Prop) : ReachableWith L tet3 :=
  ReachableWith.step two tet3 (two_reachable L)
    (Step.addFace 1 two tet3 1 2 3 2 (fun _ => ⟨rfl, rfl, rfl⟩) tet3_eq)
    (by unfold Fits tet3 two tri4 tri; simp)

theorem tet4_reachable (L : Prop) : ReachableWith L tet4 :=
  ReachableWith.step tet3 tet4 (tet3_reachable L)
    (Step.addFace 1 tet3 tet4 2 0 3 3 (fun _ => ⟨rfl, rfl, rfl⟩) tet4_eq)
    (by unfold Fits tet4 tet3 two tri4 tri; simp)

theorem tet4_consistent : pruneAndCheckConsistency tet4 = some (tet4, true) := by
  have hp : prune tet4 none none = some (tet4, none, none) := by
    unfold prune
    rw [if_neg (by decide)]
  have hm : MeshUtil.checkConsistency tet4.mesh = some true := by decide
  unfold pruneAndCheckConsistency
  rw [hp]
  dsimp only
  rw [hm]
  rfl

theorem tet4_sides :
    tet4.mesh.vertices.map (MeshUtil.side (fun v => v.x + 1)) =
      [MeshUtil.Side.Positive, MeshUtil.Side.Positive, MeshUtil.Side.Positive,
        MeshUtil.Side.Positive] := by
  simp [tet4, MeshUtil.side, Octree.epsilon]
  norm_num

theorem tet4_mirror :
    (MeshUtil.mirror (fun v => v.x + 1) (fun v => ⟨-2 - v.x, v.y, v.z⟩) (fun _ _ => none)
      tet4.mesh).map (fun m => m.numVertices) = some 8 := by
  have hm : MeshUtil.checkConsistency tet4.mesh = some true := by decide
  unfold MeshUtil.mirror
  rw [hm]
  simp only [tet4_sides]
  decide

/-- C33, at the closed tetrahedron `tet4` and the plane `x = 10`, with the
vertices at the distance `x - 10`. -/
theorem mirror_nothing_positive_witness :
    Reachable tet4 ∧ pruneAndCheckConsistency tet4 = some (tet4, true) ∧
    (∀ v ∈ tet4.mesh.vertices, (fun v : Vec3 => v.x - 10) v < -epsilon) ∧
    MeshUtil.mirror (fun v => v.x - 10) (fun v => ⟨20 - v.x, v.y, v.z⟩) (fun _ _ => none)
      tet4.mesh = some ⟨[], [], []⟩ ∧
    ∀ fuel, ∃ s2, mirror id (fun _ => false) (fun v => v.x - 10)
      (fun v => ⟨20 - v.x, v.y, v.z⟩) (fun _ _ => none) (fun _ => true) (fun _ => false)
      (fun _ _ => none) (fuel + 1) tet4 = some (s2, false) :=
  have hneg : ∀ v ∈ tet4.mesh.vertices, (fun v : Vec3 => v.x - 10) v < -epsilon := by
    intro v hv
    simp only [tet4, List.mem_cons, List.mem_singleton, List.not_mem_nil, or_false] at hv
    rcases hv with rfl | rfl | rfl | rfl <;> norm_num [epsilon]
  ⟨tet4_reachable True, tet4_consistent, hneg,
    mirror_nothing_positive id (fun _ => false) (fun v => v.x - 10)
      (fun v => ⟨20 - v.x, v.y, v.z⟩) (fun _ _ => none) (fun _ => true) (fun _ => false)
      (fun _ _ => none) tet4 tet4 (tet4_reachable True) tet4_consistent hneg⟩

/-- C33, refuted as stated: the closed tetrahedron `tet4` is reachable and
passes `pruneAndCheckConsistency`, and all its vertices are farther than epsilon
on the positive side of the plane `x = -1`; the mesh that `MeshUtil::mirror`
produces has 8 vertices, and `DynamicMesh::mirror` does not return false. -/
theorem mirror_counterexample :
    Reachable tet4 ∧ pruneAndCheckConsistency tet4 = some (tet4, true) ∧
    (∀ v ∈ tet4.mesh.vertices, epsilon < (fun v : Vec3 => v.x + 1) v) ∧
    (MeshUtil.mirror (fun v => v.x + 1) (fun v => ⟨-2 - v.x, v.y, v.z⟩) (fun _ _ => none)
      tet4.mesh).map (fun m => m.numVertices) = some 8 ∧
    ∀ normalize isNaN boxTest triTest deleteFacesAction fuel s2,
      mirror normalize isNaN (fun v => v.x + 1) (fun v => ⟨-2 - v.x, v.y, v.z⟩)
        (fun _ _ => none) boxTest triTest deleteFacesAction fuel tet4 ≠ some (s2, false) := by
  have hpos : ∀ v ∈ tet4.mesh.vertices, epsilon < (fun v : Vec3 => v.x + 1) v := by
    intro v hv
    simp only [tet4, List.mem_cons, List.mem_singleton, List.not_mem_nil, or_false] at hv
    rcases hv with rfl | rfl | rfl | rfl <;> norm_num [epsilon]
  refine ⟨tet4_reachable True, tet4_consistent, hpos, tet4_mirror, ?_⟩
  intro normalize isNaN boxTest triTest deleteFacesAction fuel s2 hc
  have hp : prune tet4 none none = some (tet4, none, none) := by
    unfold prune
    rw [if_neg (by decide)]
  unfold mirror at hc
  rw [tet4_consistent] at hc
  dsimp only at hc
  cases fuel with
  | zero => simp [mirrorLoop] at hc
  | succ fuel =>
    rw [mirrorLoop_far (fun v => v.x + 1) boxTest triTest deleteFacesAction tet4
      (reachable_inv tet4 (tet4_reachable True))
      (fun v hv => by
        have := hpos v hv
        dsimp only at this ⊢
        rw [abs_of_pos (by linarith [epsilon_pos])]
        exact this) fuel] at hc
    dsimp only at hc
    rw [tet4_consistent] at hc
    dsimp only at hc
    rw [hp] at hc
    dsimp only at hc
    have hm := tet4_mirror
    cases hmm : MeshUtil.mirror (fun v => v.x + 1) (fun v => ⟨-2 - v.x, v.y, v.z⟩)
        (fun _ _ => none) tet4.mesh with
    | none => rw [hmm] at hc; cases hc
    | some m =>
      rw [hmm] at hm hc
      simp only [Option.map_some', Option.some.injEq] at hm
      dsimp only at hc
      rw [if_neg (by omega)] at hc
      cases hfm : fromMesh (fuel + 1) normalize isNaN tet4 m with
      | none => rw [hfm] at hc; cases hc
      | some s5 =>
        rw [hfm] at hc
        dsimp only at hc
        split at hc
        · simp at hc
        · cases hc

end DynamicMesh

open Octree

namespace DynamicMesh

theorem twoVisited_eq : forEachVertex two [0, 1] = some (twoVisited, [0, 1, 2, 3]) := rfl

theorem wingVisited_eq : forEachFaceExt wing [0] = some (wingVisited, [0, 1]) := rfl

theorem sameButVisited_trans (s t u : DynamicMesh) (h1 : SameButVisited s t)
    (h2 : SameButVisited t u) : SameButVisited s u := by
  obtain ⟨a1, a2, a3, a4, a5, a6, a7, a8⟩ := h1
  obtain ⟨b1, b2, b3, b4, b5, b6, b7, b8⟩ := h2
  exact ⟨b1.trans a1, b2.trans a2, b3.trans a3, b4.trans a4, b5.trans a5, b6.trans a6,
    b7.trans a7, b8.trans a8⟩

/-- The invariant of the mesh does not depend on the values of the visited
flags. -/
theorem sameButVisited_inv (s t : DynamicMesh) (h : SameButVisited s t) (hinv : MeshInv s) :
    MeshInv t := by
  obtain ⟨a1, a2, a3, a4, a5, a6, a7, a8⟩ := h
  obtain ⟨⟨z1, z2, z3, z4, z5⟩, ⟨f1, f2, f3, f4⟩, ⟨j1, j2⟩, ⟨c1, c2⟩⟩ := hinv
  have hlv : ∀ v, t.liveVertex v = s.liveVertex v := fun v => by
    unfold liveVertex; rw [a2]
  have hlf : ∀ f, t.liveFace f = s.liveFace f := fun f => by
    unfold liveFace; rw [a4]
  have htr : ∀ f, t.triple f = s.triple f := fun f => by
    unfold triple; rw [a1]
  have had : ∀ v, t.adjacent v = s.adjacent v := fun v => by
    unfold adjacent; rw [a2]
  refine ⟨⟨?_, ?_, ?_, ?_, ?_⟩, ⟨?_, ?_, ?_, ?_⟩, ⟨?_, ?_⟩, ⟨?_, ?_⟩⟩
  · rw [a1, a2]; exact z1
  · rw [a1, a2]; exact z2
  · rw [a7, a2]; exact z3
  · rw [a1, a4]; exact z4
  · rw [a8, a4]; exact z5
  · rw [a3]; exact f1
  · intro i; rw [a3, a2, hlv]; exact f2 i
  · rw [a5]; exact f3
  · intro i; rw [a5, a4, hlf]; exact f4 i
  · intro f hf a ha
    rw [hlv]
    rw [hlf] at hf
    rw [htr] at ha
    exact j1 f hf a ha
  · intro v f
    rw [had, hlf, htr]
    exact j2 v f
  · rw [a6]; exact c1
  · intro f
    rw [a6, hlf]
    exact c2 f

/-- C21. For every reachable mesh, with any values of the visited flags (a
previous traversal leaves them set), and every collection of live faces (given
in the order of iteration, repetitions allowed), `forEachVertex (faces, f)`
returns, changes nothing but visited flags, and calls `f` exactly once for each
vertex that occurs in the triple of at least one face of the collection, and
for no other vertex. -/
theorem forEachVertex_once (s0 s : DynamicMesh) (h : Reachable s0) (hflags : SameButVisited s0 s)
    (faces : List Nat) (hl : ∀ f ∈ faces, s.isFreeFace f = some false) :
    ∃ s1 calls, forEachVertex s faces = some (s1, calls) ∧ SameButVisited s s1 ∧
      (∀ v, (∃ f ∈ faces, v ∈ s.triple f) → calls.count v = 1) ∧
      (∀ v, (¬ ∃ f ∈ faces, v ∈ s.triple f) → calls.count v = 0) := by
  have hinv := sameButVisited_inv s0 s hflags (reachable_inv s0 h)
  have h0 : SameButVisited s (unvisitVertices s) :=
    ⟨rfl, rfl, rfl, rfl, rfl, rfl, by simp [unvisitVertices], rfl⟩
  obtain ⟨st1, e1, f1, n1, m1⟩ := visitLoop_callFn s hinv faces (unvisitVertices s, [])
    (fun f hf => (isFreeFace_false_iff s f).mp (hl f hf)) h0 List.nodup_nil
    (by
      intro v hv
      show (List.replicate s.vertexVisited.length 0)[v]? = _
      rw [List.getElem?_replicate, if_pos hv]
      simp)
  refine ⟨st1.1, st1.2, e1, f1, ?_, ?_⟩
  · intro v hv
    exact List.count_eq_one_of_mem n1 ((m1 v).mpr (Or.inr hv))
  · intro v hv
    apply List.count_eq_zero_of_not_mem
    intro hm
    rcases (m1 v).mp hm with h2 | h2
    · simp at h2
    · exact hv h2

/-- C21, at the mesh `two` with all visited flags set, as `forEachVertex` on the
faces 0 and 1 leaves them, and the faces 0, 1, 0. -/
theorem forEachVertex_once_witness :
    Reachable two ∧ SameButVisited two twoVisited ∧
    (∀ f ∈ [0, 1, 0], twoVisited.isFreeFace f = some false) ∧
    ∃ s1 calls, forEachVertex twoVisited [0, 1, 0] = some (s1, calls) ∧
      SameButVisited twoVisited s1 ∧
      (∀ v, (∃ f ∈ [0, 1, 0], v ∈ twoVisited.triple f) → calls.count v = 1) ∧
      (∀ v, (¬ ∃ f ∈ [0, 1, 0], v ∈ twoVisited.triple f) → calls.count v = 0) :=
  ⟨two_reachable True, ⟨rfl, rfl, rfl, rfl, rfl, rfl, rfl, rfl⟩, by decide,
    forEachVertex_once two twoVisited (two_reachable True) ⟨rfl, rfl, rfl, rfl, rfl, rfl, rfl, rfl⟩
      [0, 1, 0] (by decide)⟩

/-- C23. For every reachable mesh, with any values of the visited flags (a
previous traversal leaves them set), and every collection of live faces (given
in the order of iteration, repetitions allowed), `forEachFaceExt (faces, f)`
returns, changes nothing but visited flags, and calls `f` exactly once for each
face of the collection and for each face in the adjacency list of a vertex of a
face of the collection (these are live faces), and for no other face. -/
theorem forEachFaceExt_once (s0 s : DynamicMesh) (h : Reachable s0)
    (hflags : SameButVisited s0 s) (faces : List Nat)
    (hl : ∀ f ∈ faces, s.isFreeFace f = some false) :
    ∃ s1 calls, forEachFaceExt s faces = some (s1, calls) ∧ SameButVisited s s1 ∧
      (∀ g, (g ∈ faces ∨ ∃ f ∈ faces, ∃ v ∈ s.triple f, g ∈ s.adjacent v) →
        calls.count g = 1 ∧ s.isFreeFace g = some false) ∧
      (∀ g, (¬ (g ∈ faces ∨ ∃ f ∈ faces, ∃ v ∈ s.triple f, g ∈ s.adjacent v)) →
        calls.count g = 0) := by
  have hinv := sameButVisited_inv s0 s hflags (reachable_inv s0 h)
  have h0 : FaceExtInv s (unvisitFaces (unvisitVertices s), []) := by
    refine ⟨⟨rfl, rfl, rfl, rfl, rfl, rfl, by simp [unvisitFaces, unvisitVertices],
      by simp [unvisitFaces, unvisitVertices]⟩, List.nodup_nil, ?_⟩
    intro g hg
    show (List.replicate s.faceVisited.length 0)[g]? = _
    rw [List.getElem?_replicate, if_pos hg]
    simp
  have hV0 : VertexDone s (unvisitFaces (unvisitVertices s), []) := by
    intro v hv
    refine ⟨0, ?_, fun hx => absurd rfl hx⟩
    show (List.replicate s.vertexVisited.length 0)[v]? = _
    rw [List.getElem?_replicate, if_pos hv]
  obtain ⟨st1, e1, i1, m1⟩ := faceExtLoop_spec s hinv faces _
    (fun f hf => (isFreeFace_false_iff s f).mp (hl f hf)) h0 hV0
  refine ⟨st1.1, st1.2, e1, i1.1, ?_, ?_⟩
  · intro g hg
    refine ⟨List.count_eq_one_of_mem i1.2.1 ((m1 g).mpr (Or.inr hg)), ?_⟩
    rcases hg with hg | ⟨f, _, v, _, hgv⟩
    · exact hl g hg
    · exact (isFreeFace_false_iff s g).mpr (adjacent_live s hinv.2.2.1 v g hgv).1
  · intro g hg
    apply List.count_eq_zero_of_not_mem
    intro hm
    rcases (m1 g).mp hm with h2 | h2
    · simp at h2
    · exact hg h2

/-- C23, at the mesh `wing` with visited flags set, as `forEachFaceExt` on the
face 0 leaves them, and the face 0. -/
theorem forEachFaceExt_once_witness :
    Reachable wing ∧ SameButVisited wing wingVisited ∧
    (∀ f ∈ [0], wingVisited.isFreeFace f = some false) ∧
    ∃ s1 calls, forEachFaceExt wingVisited [0] = some (s1, calls) ∧
      SameButVisited wingVisited s1 ∧
      (∀ g, (g ∈ [0] ∨ ∃ f ∈ [0], ∃ v ∈ wingVisited.triple f, g ∈ wingVisited.adjacent v) →
        calls.count g = 1 ∧ wingVisited.isFreeFace g = some false) ∧
      (∀ g, (¬ (g ∈ [0] ∨ ∃ f ∈ [0], ∃ v ∈ wingVisited.triple f,
          g ∈ wingVisited.adjacent v)) → calls.count g = 0) :=
  ⟨wing_reachable True, ⟨rfl, rfl, rfl, rfl, rfl, rfl, rfl, rfl⟩, by decide,
    forEachFaceExt_once wing wingVisited (wing_reachable True)
      ⟨rfl, rfl, rfl, rfl, rfl, rfl, rfl, rfl⟩ [0] (by decide)⟩

end DynamicMesh

namespace DynamicOctree

/-- The loop of `updateIndices` gets past its assertions when the new slot of
every registered id that moves exists and holds no registered id, or a smaller
one: that slot is empty when the loop reaches the id. -/
theorem updateMapLoop_moves (m : List Nat) (enm0 : List (Option Nat))
    (R1 : ∀ id a, enm0.getD id none = some a → ∃ j, m[id]? = some j ∧ j ≠ Util.invalidIndex)
    (R2 : ∀ id j, enm0.getD id none = none → m[id]? = some j → j = Util.invalidIndex ∨ j = id)
    (R3 : ∀ id1 id2 a1 a2 j, enm0.getD id1 none = some a1 → enm0.getD id2 none = some a2 →
      m[id1]? = some j → m[id2]? = some j → id1 = id2)
    (S : ∀ i a j, enm0.getD i none = some a → m[i]? = some j → j ≠ i →
      j < enm0.length ∧ ∀ b, enm0.getD j none = some b → j < i) :
    ∀ k t enm, t + k = m.length → enm.length = enm0.length →
      (∀ i a s, i < t → enm0.getD i none = some a → m[i]? = some s →
        enm.getD s none = some a) →
      (∀ s, (∀ i a, i < t → enm0.getD i none = some a → m[i]? ≠ some s) →
        enm.getD s none = if s < t then none else enm0.getD s none) →
      ∃ enm1, updateMapLoop (m.drop t) t enm = some enm1 := by
  intro k
  induction k with
  | zero =>
    intro t enm ht _ _ _
    have : t = m.length := by omega
    subst this
    exact ⟨enm, by simp [updateMapLoop]⟩
  | succ k ih =>
    intro t enm ht hlen p1 p2
    have htl : t < m.length := by omega
    have hmt : m[t]? = some m[t] := List.getElem?_eq_getElem htl
    -- no registered id below `t` is sent to `t` when `t` is registered
    have hnot : ∀ a0, enm0.getD t none = some a0 →
        ∀ i a, i < t → enm0.getD i none = some a → m[i]? ≠ some t := by
      intro a0 ha0 i a hi ha hmi
      have := (S i a t ha hmi (by omega)).2 a0 ha0
      omega
    rw [List.drop_eq_getElem_cons htl]
    simp only [updateMapLoop]
    by_cases hmove : m[t] ≠ Util.invalidIndex ∧ m[t] ≠ t
    · rw [if_pos hmove]
      have hreg : ∃ a0, enm0.getD t none = some a0 := by
        cases hx : enm0.getD t none with
        | none =>
          rcases R2 t _ hx hmt with h1 | h1
          · exact absurd h1 hmove.1
          · exact absurd h1 hmove.2
        | some a0 => exact ⟨a0, rfl⟩
      obtain ⟨a0, ha0⟩ := hreg
      have hent : enm.getD t none = some a0 := by
        rw [p2 t (hnot a0 ha0), if_neg (by omega), ha0]
      obtain ⟨s1, s2⟩ := S t a0 m[t] ha0 hmt hmove.2
      have hnew : ∀ i a, i < t → enm0.getD i none = some a → m[i]? ≠ some m[t] := by
        intro i a hi ha hmi
        have := R3 i t a a0 m[t] ha ha0 hmi hmt
        omega
      have hfree : enm.getD m[t] none = none := by
        rw [p2 m[t] hnew]
        by_cases hlt : m[t] < t
        · rw [if_pos hlt]
        · rw [if_neg hlt]
          cases hx : enm0.getD m[t] none with
          | none => rfl
          | some b => exact absurd (s2 b hx) hlt
      have g1 : enm[t]? = some (some a0) := getElem?_of_getD_some _ _ _ hent
      have hl1 : t < enm.length := Util.getElem?_lt_of_some g1
      have hl2 : m[t] < enm.length := by omega
      have g3 : enm[m[t]]? = some none := by
        rw [List.getElem?_eq_getElem hl2]
        rw [List.getD_eq_getElem?_getD, List.getElem?_eq_getElem hl2] at hfree
        simp only [Option.getD_some] at hfree
        rw [hfree]
      rw [g1, g3]
      simp only []
      apply ih (t + 1) _ (by omega) (by simp [hlen])
      · intro i a s hi ha hs
        rw [getD_set_set _ _ _ _ _ _ hl2 hl1]
        by_cases hit : i = t
        · subst hit
          rw [hmt] at hs
          simp only [Option.some.injEq] at hs
          subst hs
          rw [ha0] at ha
          simp only [Option.some.injEq] at ha
          subst ha
          rw [if_neg hmove.2, if_pos rfl]
        · have hi' : i < t := by omega
          have hst : s ≠ t := by
            rintro rfl
            exact hnot a0 ha0 i a hi' ha hs
          have hsn : s ≠ m[t] := by
            rintro rfl
            exact hnew i a hi' ha hs
          rw [if_neg hst, if_neg hsn]
          exact p1 i a s hi' ha hs
      · intro s hs
        rw [getD_set_set _ _ _ _ _ _ hl2 hl1]
        have hsn : s ≠ m[t] := by
          rintro rfl
          exact hs t a0 (by omega) ha0 hmt
        by_cases hst : s = t
        · subst hst
          rw [if_pos rfl, if_pos (by omega)]
        · rw [if_neg hst, if_neg hsn, p2 s (fun i a hi ha => hs i a (by omega) ha)]
          by_cases hlt : s < t
          · rw [if_pos hlt, if_pos (by omega)]
          · rw [if_neg hlt, if_neg (by omega)]
    · rw [if_neg hmove]
      apply ih (t + 1) enm (by omega) hlen
      · intro i a s hi ha hs
        by_cases hit : i = t
        · subst hit
          obtain ⟨j, hj1, hj2⟩ := R1 i a ha
          rw [hmt] at hj1 hs
          simp only [Option.some.injEq] at hj1 hs
          have hst : s = i := by
            by_contra hne
            exact hmove ⟨by rw [hj1]; exact hj2, by rw [hs]; exact hne⟩
          subst hst
          rw [p2 s (hnot a ha), if_neg (by omega), ha]
        · exact p1 i a s (by omega) ha hs
      · intro s hs
        rw [p2 s (fun i a hi ha => hs i a (by omega) ha)]
        by_cases hst : s = t
        · subst hst
          rw [if_neg (by omega), if_pos (by omega)]
          cases hx : enm0.getD s none with
          | none => rfl
          | some a =>
            exfalso
            obtain ⟨j, hj1, hj2⟩ := R1 s a hx
            rw [hmt] at hj1
            simp only [Option.some.injEq] at hj1
            have hjs : m[s] = s := by
              by_contra hne
              exact hmove ⟨by rw [hj1]; exact hj2, hne⟩
            exact hs s a (by omega) hx (by rw [hmt, hjs])
        · by_cases hlt : s < t
          · rw [if_pos hlt, if_pos (by omega)]
          · rw [if_neg hlt, if_neg (by omega)]

/-- C12, as amended. For a reachable octree and an old-to-new id map that sends
every registered id to a valid new id that is a position of the map, no two
registered ids to the same new id, has the invalid index for every id that is
not registered, and in which the new id of every registered id that moves is a
slot of `elementNodeMap` that is empty when the loop reaches the id (it holds no
registered id, or a smaller one, which has been moved away by then):
`updateIndices` returns, and afterwards for every id `i` registered before the
call the node that held `i` holds `map[i]` and `elementNodeMap[map[i]]`
designates that node, and no other id is registered. -/
theorem updateIndices_renames (o : DynamicOctree) (m : List Nat) (hreach : Reachable o)
    (hlive : ∀ i a, o.nodeOf i = some a →
      ∃ j, m[i]? = some j ∧ j ≠ Util.invalidIndex ∧ j < m.length)
    (hslot : ∀ i a j, o.nodeOf i = some a → m[i]? = some j → j ≠ i →
      j < o.elementNodeMap.length ∧ ∀ b, o.nodeOf j = some b → j < i)
    (hinj : ∀ (i1 i2 a1 a2 j : Nat), o.nodeOf i1 = some a1 → o.nodeOf i2 = some a2 →
      m[i1]? = some j → m[i2]? = some j → i1 = i2)
    (hdead : ∀ (i j : Nat), o.nodeOf i = none → m[i]? = some j → j = Util.invalidIndex) :
    ∃ o1, updateIndices o m = some o1 ∧
      (∀ (i a j : Nat), o.nodeOf i = some a → m[i]? = some j →
        holdsAt j a o1.root = true ∧ o1.nodeOf j = some a) ∧
      (∀ (j a : Nat), o1.nodeOf j = some a → ∃ i, o.nodeOf i = some a ∧ m[i]? = some j) := by
  have hr := reachable_registration o hreach
  have hv : ∀ id a, o.nodeOf id = some a → ∃ j, m[id]? = some j ∧ j ≠ Util.invalidIndex := by
    intro id a hid
    obtain ⟨j, j1, j2, _⟩ := hlive id a hid
    exact ⟨j, j1, j2⟩
  obtain ⟨enm, henm⟩ := updateMapLoop_moves m o.elementNodeMap hv
    (fun id j hn hj => Or.inl (hdead id j hn hj)) hinj hslot m.length 0 o.elementNodeMap
    (by omega) rfl (fun i a s hi => by omega) (fun s _ => by simp)
  rw [List.drop_zero] at henm
  have hret : ∃ o1, updateIndices o m = some o1 := by
    unfold updateIndices
    rw [henm]
    simp only []
    by_cases hroot : o.hasRoot = true
    · rw [if_pos hroot]
      obtain ⟨t1, ht1⟩ := nodeUpdateIndices_total m o.root (by
        intro i b hib
        exact hv i b ((hr.2.2 i b).mp hib))
      rw [ht1]
      exact ⟨_, rfl⟩
    · rw [if_neg hroot]
      exact ⟨_, rfl⟩
  obtain ⟨o1, ho1⟩ := hret
  have hp : PermWithHoles o m := by
    refine ⟨hv, ?_, ?_, hinj⟩
    · intro id a j hid hj
      obtain ⟨j', j1, _, j3⟩ := hlive id a hid
      rw [hj] at j1
      have := Option.some.inj j1
      subst this
      exact j3
    · intro id j hid hj
      exact Or.inl (hdead id j hid hj)
  obtain ⟨r1, r2, r3, _⟩ := updateIndices_registration o o1 m ho1 hr hp
  refine ⟨o1, ho1, ?_, r3⟩
  intro i a j hi hj
  have := r2 i a j hi hj
  exact ⟨(r1.2.2 j a).mpr this, this⟩

theorem trace3_nodeOf (i a : Nat) (h : trace3.nodeOf i = some a) : i = 0 ∧ a = 0 := by
  unfold nodeOf trace3 at h
  match i with
  | 0 => simp at h; exact ⟨rfl, h.symm⟩
  | 1 => simp at h
  | 2 => simp at h
  | n + 3 => simp at h

/-- C12 as amended, at the octree `trace3` (the id 0 in the root, the slots 1 and
2 of `elementNodeMap` empty) and the map `{1, invalid, invalid}`, which moves
the id 0 up into the empty slot 1. -/
theorem updateIndices_renames_witness :
    Reachable trace3 ∧
    (∀ i a, trace3.nodeOf i = some a →
      ∃ j, [1, Util.invalidIndex, Util.invalidIndex][i]? = some j ∧ j ≠ Util.invalidIndex ∧
        j < [1, Util.invalidIndex, Util.invalidIndex].length) ∧
    (∀ i a j, trace3.nodeOf i = some a →
      [1, Util.invalidIndex, Util.invalidIndex][i]? = some j → j ≠ i →
      j < trace3.elementNodeMap.length ∧ ∀ b, trace3.nodeOf j = some b → j < i) ∧
    (∀ (i1 i2 a1 a2 j : Nat), trace3.nodeOf i1 = some a1 → trace3.nodeOf i2 = some a2 →
      [1, Util.invalidIndex, Util.invalidIndex][i1]? = some j →
      [1, Util.invalidIndex, Util.invalidIndex][i2]? = some j → i1 = i2) ∧
    (∀ (i j : Nat), trace3.nodeOf i = none →
      [1, Util.invalidIndex, Util.invalidIndex][i]? = some j → j = Util.invalidIndex) ∧
    ∃ o1, updateIndices trace3 [1, Util.invalidIndex, Util.invalidIndex] = some o1 ∧
      (∀ (i a j : Nat), trace3.nodeOf i = some a →
        [1, Util.invalidIndex, Util.invalidIndex][i]? = some j →
        holdsAt j a o1.root = true ∧ o1.nodeOf j = some a) ∧
      (∀ (j a : Nat), o1.nodeOf j = some a →
        ∃ i, trace3.nodeOf i = some a ∧
          [1, Util.invalidIndex, Util.invalidIndex][i]? = some j) :=
  have h1 : ∀ i a, trace3.nodeOf i = some a →
      ∃ j, [1, Util.invalidIndex, Util.invalidIndex][i]? = some j ∧ j ≠ Util.invalidIndex ∧
        j < [1, Util.invalidIndex, Util.invalidIndex].length := by
    intro i a h
    obtain ⟨rfl, rfl⟩ := trace3_nodeOf i a h
    exact ⟨1, rfl, by decide, by decide⟩
  have h2 : ∀ i a j, trace3.nodeOf i = some a →
      [1, Util.invalidIndex, Util.invalidIndex][i]? = some j → j ≠ i →
      j < trace3.elementNodeMap.length ∧ ∀ b, trace3.nodeOf j = some b → j < i := by
    intro i a j h hj _
    obtain ⟨rfl, rfl⟩ := trace3_nodeOf i a h
    simp only [List.getElem?_cons_zero, Option.some.injEq] at hj
    subst hj
    refine ⟨by decide, fun b hb => ?_⟩
    have := (trace3_nodeOf 1 b hb).1
    omega
  have h3 : ∀ (i1 i2 a1 a2 j : Nat), trace3.nodeOf i1 = some a1 → trace3.nodeOf i2 = some a2 →
      [1, Util.invalidIndex, Util.invalidIndex][i1]? = some j →
      [1, Util.invalidIndex, Util.invalidIndex][i2]? = some j → i1 = i2 := by
    intro i1 i2 a1 a2 j g1 g2 _ _
    rw [(trace3_nodeOf i1 a1 g1).1, (trace3_nodeOf i2 a2 g2).1]
  have h4 : ∀ (i j : Nat), trace3.nodeOf i = none →
      [1, Util.invalidIndex, Util.invalidIndex][i]? = some j → j = Util.invalidIndex := by
    intro i j hn hj
    match i with
    | 0 => simp [nodeOf, trace3] at hn
    | 1 => simp at hj; exact hj.symm
    | 2 => simp at hj; exact hj.symm
    | n + 3 => simp at hj
  ⟨trace3_reachable _, h1, h2, h3, h4,
    updateIndices_renames trace3 [1, Util.invalidIndex, Util.invalidIndex]
      (trace3_reachable _) h1 h2 h3 h4⟩

/-- C12 as stated fails. The octree `trace2` holds the ids 0 and 2; the map
`{2, invalid, 0}` sends them to different new ids and the id 1, which is not
registered, to the invalid index; `updateIndices` fails its assertion
`elementNodeMap[newI] == nullptr` at position 0, where the slot 2 is still
occupied. The octree `single` holds the id 0 and its `elementNodeMap` has one
slot; on the map `{1, invalid}` `updateIndices` fails its assertion
`newI < elementNodeMap.size ()`. The octree `trace3` holds the id 0 and its
`elementNodeMap` has three slots; on the map `{2, invalid}` `updateIndices`
returns, the root holds the id 2, and the final `resize` to the size of the map
has cut the slot 2 off, so the id 2 is not registered. -/
theorem updateIndices_counterexample :
    (Reachable trace2 ∧ trace2.nodeOf 0 = some 0 ∧ trace2.nodeOf 1 = none ∧
      trace2.nodeOf 2 = some 0 ∧ (∀ i, 3 ≤ i → trace2.nodeOf i = none) ∧
      updateIndices trace2 [2, Util.invalidIndex, 0] = none) ∧
    (Reachable single ∧ single.nodeOf 0 = some 0 ∧ (∀ i, 1 ≤ i → single.nodeOf i = none) ∧
      updateIndices single [1, Util.invalidIndex] = none) ∧
    (Reachable trace3 ∧ trace3.nodeOf 0 = some 0 ∧ (∀ i, 1 ≤ i → trace3.nodeOf i = none) ∧
      ∃ o1, updateIndices trace3 [2, Util.invalidIndex] = some o1 ∧
        holdsAt 2 0 o1.root = true ∧ o1.nodeOf 2 = none) := by
  refine ⟨⟨trace2_reachable _, rfl, rfl, rfl, ?_, ?_⟩, ⟨single_reachable _, rfl, ?_, ?_⟩,
    ⟨trace3_reachable _, rfl, ?_, ?_⟩⟩
  · intro i hi
    unfold nodeOf trace2
    rw [List.getD_eq_getElem?_getD, List.getElem?_eq_none (by simpa using hi)]
    rfl
  · simp [updateIndices, trace2, updateMapLoop, Util.invalidIndex]
  · intro i hi
    unfold nodeOf single
    rw [List.getD_eq_getElem?_getD, List.getElem?_eq_none (by simpa using hi)]
    rfl
  · simp [updateIndices, single, updateMapLoop, Util.invalidIndex]
  · intro i hi
    cases hx : trace3.nodeOf i with
    | none => rfl
    | some a => have := (trace3_nodeOf i a hx).1; omega
  · refine ⟨⟨unitRoot {2}, [none, none], 1⟩, ?_, ?_, rfl⟩
    · simp [updateIndices, trace3, updateMapLoop, Util.invalidIndex, Util.resize, hasRoot,
        unitRoot, Child.isSome, nodeUpdateIndices]
    · simp [unitRoot, holdsAt]

end DynamicOctree

namespace Float32

theorem roundEven_eq (y : ℚ) (k : ℤ) (h1 : (k : ℚ) - 1 / 2 < y) (h2 : y < k + 1 / 2) :
    roundEven y = k := by
  unfold roundEven
  rcases le_or_lt (k : ℚ) y with h | h
  · have hf : ⌊y⌋ = k := Int.floor_eq_iff.mpr ⟨h, by linarith⟩
    rw [hf, if_pos (by linarith)]
  · have hf : ⌊y⌋ = k - 1 :=
      Int.floor_eq_iff.mpr ⟨by push_cast; linarith, by push_cast; linarith⟩
    rw [hf, if_neg (by push_cast; linarith), if_pos (by push_cast; linarith)]
    ring

theorem round_of_abs (x v : ℚ) (e k : ℤ) (he : -126 ≤ e) (h1 : (2 : ℚ) ^ e ≤ |x|)
    (h2 : |x| < (2 : ℚ) ^ (e + 1)) (h3 : (k : ℚ) - 1 / 2 < x / 2 ^ (e - 23))
    (h4 : x / 2 ^ (e - 23) < k + 1 / 2) (hv : v = k * 2 ^ (e - 23)) : round x = v := by
  have hpos : 0 < |x| := lt_of_lt_of_le (zpow_pos (by norm_num) e) h1
  have hlog : Int.log 2 |x| = e := by
    have a := (Int.zpow_le_iff_le_log (by norm_num : 1 < 2) hpos).mp (by simpa using h1)
    have b := (Int.lt_zpow_iff_log_lt (by norm_num : 1 < 2) hpos).mp (by simpa using h2)
    omega
  unfold round ulp
  rw [hlog, max_eq_left he, roundEven_eq _ k h3 h4, hv]

/-- The binary32 value of a positive result `x` with `2 ^ e ≤ x < 2 ^ (e + 1)` in
the normal range: `k * 2 ^ (e - 23)` for the integer `k` within a half of
`x / 2 ^ (e - 23)`. -/
theorem round_pos (x v : ℚ) (e k : ℤ) (he : -126 ≤ e) (h1 : (2 : ℚ) ^ e ≤ x)
    (h2 : x < (2 : ℚ) ^ (e + 1)) (h3 : (k : ℚ) - 1 / 2 < x / 2 ^ (e - 23))
    (h4 : x / 2 ^ (e - 23) < k + 1 / 2) (hv : v = k * 2 ^ (e - 23)) : round x = v := by
  have hx : 0 < x := lt_of_lt_of_le (zpow_pos (by norm_num) e) h1
  exact round_of_abs x v e k he (by rw [abs_of_pos hx]; exact h1)
    (by rw [abs_of_pos hx]; exact h2) h3 h4 hv

/-- The binary32 value of a negative result `x` with `2 ^ e ≤ -x < 2 ^ (e + 1)`
in the normal range. -/
theorem round_neg (x v : ℚ) (e k : ℤ) (he : -126 ≤ e) (h1 : (2 : ℚ) ^ e ≤ -x)
    (h2 : -x < (2 : ℚ) ^ (e + 1)) (h3 : (k : ℚ) - 1 / 2 < x / 2 ^ (e - 23))
    (h4 : x / 2 ^ (e - 23) < k + 1 / 2) (hv : v = k * 2 ^ (e - 23)) : round x = v := by
  have hx : x < 0 := by
    have := lt_of_lt_of_le (zpow_pos (by norm_num : (0 : ℚ) < 2) e) h1
    linarith
  exact round_of_abs x v e k he (by rw [abs_of_neg hx]; exact h1)
    (by rw [abs_of_neg hx]; exact h2) h3 h4 hv

theorem round_zero : round 0 = 0 := by
  simp [round, roundEven]

theorem round_epsilon : round (1 / 10000) = 13743895 / 137438953472 :=
  round_pos _ _ (-14) 13743895 (by norm_num) (by norm_num) (by norm_num) (by norm_num)
    (by norm_num) (by norm_num)

theorem round_half : round (1 / 2) = 1 / 2 :=
  round_pos _ _ (-1) 8388608 (by norm_num) (by norm_num) (by norm_num) (by norm_num)
    (by norm_num) (by norm_num)

end Float32

namespace Octree

theorem approxContainsF_exact : approxContainsF id = approxContains := rfl

theorem insertIntoChildF_exact : insertIntoChildF id = insertIntoChild := rfl

theorem childCenterF_exact : childCenterF id = childCenter := by
  funext c q k
  unfold childCenterF childCenter
  split <;> rfl

theorem childOrMakeF_exact : childOrMakeF id = childOrMake := by
  funext next c w d ch k
  unfold childOrMakeF childOrMake
  rw [childCenterF_exact]
  rfl

theorem nodeAddElementF_exact : nodeAddElementF id = nodeAddElement := by
  funext fuel
  induction fuel with
  | zero =>
    funext index position e next t
    cases t <;> rfl
  | succ fuel ih =>
    funext index position e next t
    cases t with
    | none => rfl
    | node a c w d ch idx =>
      simp only [nodeAddElementF, nodeAddElement, approxContainsF_exact, insertIntoChildF_exact,
        childOrMakeF_exact, ih]

end Octree

namespace DynamicOctree

theorem parentCenterF_exact : parentCenterF id = parentCenter := rfl

theorem makeParentF_exact : makeParentF id = makeParent := rfl

theorem addElementF_exact : addElementF id = addElement := by
  funext fuel
  induction fuel with
  | zero => funext o index position e; rfl
  | succ fuel ih =>
    funext o index position e
    simp only [addElementF, addElement, approxContainsF_exact, nodeAddElementF_exact,
      makeParentF_exact, ih]

theorem realignElementF_exact : realignElementF id = realignElement := by
  funext fuel o index position e
  simp only [realignElementF, realignElement, approxContainsF_exact, insertIntoChildF_exact,
    addElementF_exact]

/-- An arithmetic that rounds nothing is the exact one. -/
theorem exact_eq_id (R : ℚ → ℚ) (hR : ∀ x, R x = x) : R = id := funext hR

end DynamicOctree

namespace Octree

/-- The value of `approxContains` in the arithmetic `R` from the values of its
operations. -/
theorem approxContainsF_eval (R : ℚ → ℚ) (c : Vec3) (w : ℚ) (p : Vec3) (e : ℚ)
    (eps hw h lx ly lz ux uy uz : ℚ) (h1 : R (1 / 10000) = eps) (h2 : R (w * (1 / 2)) = hw)
    (h3 : R (eps + hw) = h) (h4 : R (c.x - h) = lx) (h5 : R (c.y - h) = ly)
    (h6 : R (c.z - h) = lz) (h7 : R (c.x + h) = ux) (h8 : R (c.y + h) = uy)
    (h9 : R (c.z + h) = uz) :
    approxContainsF R c w p e =
      ((decide (lx ≤ p.x) && decide (ly ≤ p.y) && decide (lz ≤ p.z))
        && (decide (p.x ≤ ux) && decide (p.y ≤ uy) && decide (p.z ≤ uz))
        && decide (e ≤ w)) := by
  unfold approxContainsF epsilonF
  simp only [h1, h2, h3, h4, h5, h6, h7, h8, h9]

theorem round_quarter : Float32.round (1 / 4) = 1 / 4 :=
  Float32.round_pos _ _ (-2) 8388608 (by norm_num) (by norm_num) (by norm_num) (by norm_num)
    (by norm_num) (by norm_num)

theorem round_unitHalf : Float32.round (13743895 / 137438953472 + 1 / 2) = 4195143 / 8388608 :=
  Float32.round_pos _ _ (-1) 8390286 (by norm_num) (by norm_num) (by norm_num) (by norm_num)
    (by norm_num) (by norm_num)

theorem round_halfHalf :
    Float32.round (13743895 / 137438953472 + 1 / 4) = 8391963 / 33554432 :=
  Float32.round_pos _ _ (-2) 8391963 (by norm_num) (by norm_num) (by norm_num) (by norm_num)
    (by norm_num) (by norm_num)

/-- The loose bounds of a node of width 1 with the centre `(1/2, 1/2, 1/2)` in
binary32 arithmetic. -/
theorem approxContainsF_half (p : Vec3) (e : ℚ) :
    approxContainsF Float32.round ⟨1 / 2, 1 / 2, 1 / 2⟩ 1 p e =
      ((decide (-839 / 8388608 ≤ p.x) && decide (-839 / 8388608 ≤ p.y)
          && decide (-839 / 8388608 ≤ p.z))
        && (decide (p.x ≤ 8389447 / 8388608) && decide (p.y ≤ 8389447 / 8388608)
          && decide (p.z ≤ 8389447 / 8388608))
        && decide (e ≤ 1)) := by
  have lo : Float32.round (1 / 2 - 4195143 / 8388608) = -839 / 8388608 :=
    Float32.round_neg _ _ (-14) (-13746176) (by norm_num) (by norm_num) (by norm_num)
      (by norm_num) (by norm_num) (by norm_num)
  have hi : Float32.round (1 / 2 + 4195143 / 8388608) = 8389447 / 8388608 :=
    Float32.round_pos _ _ 0 8389447 (by norm_num) (by norm_num) (by norm_num)
      (by norm_num) (by norm_num) (by norm_num)
  exact approxContainsF_eval Float32.round _ 1 p e _ _ _ _ _ _ _ _ _ Float32.round_epsilon
    (by rw [one_mul]; exact Float32.round_half) round_unitHalf lo lo lo hi hi hi

/-- In the arithmetic `R` a position below the lower bound in `x` is not
approx-contained. -/
theorem approxContainsF_below (R : ℚ → ℚ) (c : Vec3) (w : ℚ) (p : Vec3) (e : ℚ)
    (eps hw h lx : ℚ) (h1 : R (1 / 10000) = eps) (h2 : R (w * (1 / 2)) = hw)
    (h3 : R (eps + hw) = h) (h4 : R (c.x - h) = lx) (hlt : p.x < lx) :
    approxContainsF R c w p e = false := by
  unfold approxContainsF epsilonF
  simp only [h1, h2, h3, h4]
  have : ¬ lx ≤ p.x := not_le.mpr hlt
  simp [this]

/-- In binary32 arithmetic the lower bound of a node of width 1/2 with the centre
`(1/4, 1/4, 1/4)` is `-3355 / 33554432`. -/
theorem approxContainsF_quarter (p : Vec3) (e : ℚ) (hp : p.x < -3355 / 33554432) :
    approxContainsF Float32.round ⟨1 / 4, 1 / 4, 1 / 4⟩ (1 / 2) p e = false := by
  have lo : Float32.round (1 / 4 - 8391963 / 33554432) = -3355 / 33554432 :=
    Float32.round_neg _ _ (-14) (-13742080) (by norm_num) (by norm_num) (by norm_num)
      (by norm_num) (by norm_num) (by norm_num)
  exact approxContainsF_below Float32.round _ (1 / 2) p e _ _ _ _
    Float32.round_epsilon
    (by rw [show (1 / 2 : ℚ) * (1 / 2) = 1 / 4 by norm_num]; exact round_quarter)
    round_halfHalf lo hp

/-- The assertion at the start of `addElement`: a node that does not
approx-contain the element takes nothing, whatever the number of steps
allowed. -/
theorem nodeAddElementF_reject (R : ℚ → ℚ) (fuel index : Nat) (p : Vec3) (e : ℚ) (next a : Nat)
    (c : Vec3) (w : ℚ) (d : Int) (ch : Fin 8 → Child) (idx : Finset Nat)
    (h : approxContainsF R c w p e = false) :
    nodeAddElementF R fuel index p e next (Child.node a c w d ch idx) = none := by
  cases fuel with
  | zero => rfl
  | succ n =>
    rw [nodeAddElementF, if_neg (by rw [h]; simp)]

/-- When the child selected for the element takes nothing, neither does the
node that hands the element to it. -/
theorem nodeAddElementF_child (R : ℚ → ℚ) (index : Nat) (p : Vec3) (e : ℚ) (next a : Nat)
    (c : Vec3) (w : ℚ) (d : Int) (ch : Fin 8 → Child) (idx : Finset Nat) (child : Child)
    (next1 : Nat) (h2 : insertIntoChildF R w e = true)
    (h3 : childOrMakeF R next c w d ch (childIndex c p) = some (child, next1))
    (h4 : ∀ fuel, nodeAddElementF R fuel index p e next1 child = none) (fuel : Nat) :
    nodeAddElementF R fuel index p e next (Child.node a c w d ch idx) = none := by
  cases fuel with
  | zero => rfl
  | succ n =>
    rw [nodeAddElementF]
    split
    · rw [h3]
      simp only [h4]
    · rfl

/-- C35, at its failing input, in binary32 arithmetic. The node of width 1 with
the centre `(1/2, 1/2, 1/2)` approx-contains the position
`(-839 / 8388608, 1/4, 1/4)` with the extent `1/4`: its lower bound
`0.5f - (0.0001f + 0.5f)` is `-839 / 8388608`. The extent is at most a quarter
of the width, `childIndex` selects the slot 0, and `insertIntoChild` makes the
child with the centre `(1/4, 1/4, 1/4)` and the width `1/2`, a quarter of the
width away. The lower bound of the child, `0.25f - (0.0001f + 0.25f)`, is
`-3355 / 33554432`, which is above `-839 / 8388608 = -3356 / 33554432`: the
child does not approx-contain the position, and the assertion at the start of
`addElement` fails in the child, whatever the number of steps allowed. -/
theorem descent_aborts :
    approxContainsF Float32.round ⟨1 / 2, 1 / 2, 1 / 2⟩ 1 ⟨-839 / 8388608, 1 / 4, 1 / 4⟩
      (1 / 4) = true ∧
    insertIntoChildF Float32.round 1 (1 / 4) = true ∧
    childIndex ⟨1 / 2, 1 / 2, 1 / 2⟩ ⟨-839 / 8388608, 1 / 4, 1 / 4⟩ = 0 ∧
    childOrMakeF Float32.round 1 ⟨1 / 2, 1 / 2, 1 / 2⟩ 1 0 (fun _ => Child.none) 0 =
      some (Child.node 1 ⟨1 / 4, 1 / 4, 1 / 4⟩ (1 / 2) 1 (fun _ => Child.none) ∅, 2) ∧
    approxContainsF Float32.round ⟨1 / 4, 1 / 4, 1 / 4⟩ (1 / 2) ⟨-839 / 8388608, 1 / 4, 1 / 4⟩
      (1 / 4) = false ∧
    ∀ fuel, nodeAddElementF Float32.round fuel 0 ⟨-839 / 8388608, 1 / 4, 1 / 4⟩ (1 / 4) 1
      (Child.node 0 ⟨1 / 2, 1 / 2, 1 / 2⟩ 1 0 (fun _ => Child.none) ∅) = none := by
  have a1 : approxContainsF Float32.round ⟨1 / 2, 1 / 2, 1 / 2⟩ 1
      ⟨-839 / 8388608, 1 / 4, 1 / 4⟩ (1 / 4) = true := by
    rw [approxContainsF_half]
    norm_num
  have a2 : insertIntoChildF Float32.round 1 (1 / 4) = true := by
    unfold insertIntoChildF relativeMinElementExtent
    rw [one_mul, round_quarter]
    simp
  have a3 : childIndex ⟨1 / 2, 1 / 2, 1 / 2⟩ ⟨-839 / 8388608, 1 / 4, 1 / 4⟩ = 0 := by
    unfold childIndex
    norm_num
  have a4 : childOrMakeF Float32.round 1 ⟨1 / 2, 1 / 2, 1 / 2⟩ 1 0 (fun _ => Child.none) 0 =
      some (Child.node 1 ⟨1 / 4, 1 / 4, 1 / 4⟩ (1 / 2) 1 (fun _ => Child.none) ∅, 2) := by
    have c : Float32.round (1 / 2 + -(1 / 4)) = 1 / 4 := by
      rw [show (1 / 2 : ℚ) + -(1 / 4) = 1 / 4 by norm_num]
      exact round_quarter
    simp only [childOrMakeF, Child.isSome, childCenterF, one_mul, round_quarter,
      Float32.round_half, c, mkNode]
    norm_num
  have a5 : approxContainsF Float32.round ⟨1 / 4, 1 / 4, 1 / 4⟩ (1 / 2)
      ⟨-839 / 8388608, 1 / 4, 1 / 4⟩ (1 / 4) = false :=
    approxContainsF_quarter _ _ (by norm_num)
  refine ⟨a1, a2, a3, a4, a5, fun fuel => ?_⟩
  exact nodeAddElementF_child Float32.round 0 _ _ 1 0 _ 1 0 _ ∅ _ 2 a2 (by rw [a3]; exact a4)
    (fun n => nodeAddElementF_reject Float32.round n 0 _ _ 2 1 _ _ 1 _ ∅ a5) fuel

end Octree

namespace Octree

theorem nodeAddElementF_spec (R : ℚ → ℚ) (index : Nat) (position : Vec3) (e : ℚ) :
    ∀ fuel next t t1 a next1,
      nodeAddElementF R fuel index position e next t = some (t1, a, next1) →
      UniqAddr t → (∀ b, hasAddr b t = true → b < next) →
      UniqAddr t1 ∧ next ≤ next1 ∧ (∀ b, hasAddr b t1 = true → b < next1) ∧
        (∀ b, hasAddr b t1 = true ↔ (hasAddr b t = true ∨ (next ≤ b ∧ hasAddr b t1 = true))) ∧
        (∀ b, hasAddr b t = true → hasAddr b t1 = true) ∧
        (∀ id b, holdsAt id b t1 = true ↔ (holdsAt id b t = true ∨ (id = index ∧ b = a))) ∧
        hasAddr a t1 = true := by
  intro fuel
  induction fuel with
  | zero => intro next t t1 a next1 h; simp [nodeAddElementF] at h
  | succ fuel ih =>
    intro next t t1 a next1 h hu hb
    cases t with
    | none => simp [nodeAddElementF] at h
    | node b c w d ch idx =>
      rw [nodeAddElementF] at h
      split at h
      · split at h
        · -- descend
          rename_i hins
          split at h
          · simp at h
          · rename_i child nx hmade
            split at h
            · simp at h
            · rename_i child1 a1 next2 hrec
              simp only [Option.some.injEq, Prod.mk.injEq] at h
              obtain ⟨rfl, rfl, rfl⟩ := h
              obtain ⟨hu1, hu2, hu3⟩ := hu
              -- facts about the child before insertion
              have hchild : UniqAddr child ∧ (∀ x, hasAddr x child = true → x < nx) ∧ next ≤ nx ∧
                  (∀ x, hasAddr x child = true ↔
                    (hasAddr x (ch (childIndex c position)) = true ∨
                      (x = next ∧ (ch (childIndex c position)).isSome = false ∧ nx = next + 1))) ∧
                  (∀ id x, holdsAt id x child = true ↔
                    holdsAt id x (ch (childIndex c position)) = true) := by
                unfold childOrMakeF at hmade
                by_cases hs : (ch (childIndex c position)).isSome = true
                · simp only [hs, if_true, Option.some.injEq, Prod.mk.injEq] at hmade
                  obtain ⟨rfl, rfl⟩ := hmade
                  refine ⟨hu2 _, fun x hx => hb x ?_, le_refl _, ?_, fun _ _ => Iff.rfl⟩
                  · rw [hasAddr_node]; exact Or.inr ⟨_, hx⟩
                  · intro x; simp [hs]
                · simp only [hs, Bool.false_eq_true, if_false, Option.map_eq_some'] at hmade
                  obtain ⟨n, hn, hn2⟩ := hmade
                  simp only [Prod.mk.injEq] at hn2
                  obtain ⟨rfl, rfl⟩ := hn2
                  have hnone : ch (childIndex c position) = Child.none := by
                    cases hc : ch (childIndex c position) with
                    | none => rfl
                    | node _ _ _ _ _ _ => rw [hc] at hs; simp [Child.isSome] at hs
                  unfold mkNode at hn
                  split at hn
                  · simp only [Option.some.injEq] at hn
                    subst hn
                    refine ⟨?_, ?_, by omega, ?_, ?_⟩
                    · simp [UniqAddr, hasAddr]
                    · intro x hx
                      simp [hasAddr] at hx
                      omega
                    · intro x
                      rw [hnone]
                      simp [hasAddr, Child.isSome]
                      exact eq_comm
                    · intro id x
                      rw [hnone]
                      simp [holdsAt]
                  · simp at hn
              obtain ⟨c1, c2, c3, c4, c5⟩ := hchild
              obtain ⟨r1, r2, r3, r4, r5, r6, r7⟩ := ih nx child child1 a1 next2 hrec c1 c2
              -- address facts for the updated children
              have hupd : ∀ k x, hasAddr x (Function.update ch (childIndex c position) child1 k)
                  = true → (hasAddr x (ch k) = true ∨ (k = childIndex c position ∧ next ≤ x ∧
                    hasAddr x child1 = true)) := by
                intro k x hx
                by_cases hk : k = childIndex c position
                · subst hk
                  rw [Function.update_same] at hx
                  rcases (r4 x).mp hx with h1 | ⟨h1, h2⟩
                  · rcases (c4 x).mp h1 with h3 | ⟨h3, _, _⟩
                    · exact Or.inl h3
                    · exact Or.inr ⟨rfl, by omega, hx⟩
                  · exact Or.inr ⟨rfl, by omega, hx⟩
                · rw [Function.update_noteq hk] at hx
                  exact Or.inl hx
              have hfresh : ∀ k x, hasAddr x (ch k) = true → x < next := by
                intro k x hx
                exact hb x (by rw [hasAddr_node]; exact Or.inr ⟨k, hx⟩)
              refine ⟨?_, by omega, ?_, ?_, ?_, ?_, ?_⟩
              · refine ⟨?_, ?_, ?_⟩
                · intro k
                  by_contra hcon
                  rw [Bool.not_eq_false] at hcon
                  rcases hupd k b hcon with h1 | ⟨_, h2, _⟩
                  · rw [hu1 k] at h1; simp at h1
                  · have := hb b (by rw [hasAddr_node]; exact Or.inl rfl)
                    omega
                · intro k
                  by_cases hk : k = childIndex c position
                  · subst hk; rw [Function.update_same]; exact r1
                  · rw [Function.update_noteq hk]; exact hu2 k
                · intro k1 k2 x hne hx1
                  by_contra hcon
                  rw [Bool.not_eq_false] at hcon
                  rcases hupd k1 x hx1 with h1 | ⟨h1, h2, h3⟩
                  · rcases hupd k2 x hcon with g1 | ⟨g1, g2, g3⟩
                    · rw [hu3 k1 k2 x hne h1] at g1; simp at g1
                    · have := hfresh k1 x h1; omega
                  · rcases hupd k2 x hcon with g1 | ⟨g1, g2, g3⟩
                    · have := hfresh k2 x g1; omega
                    · exact hne (h1.trans g1.symm)
              · intro x hx
                rw [hasAddr_node] at hx
                rcases hx with rfl | ⟨k, hk⟩
                · have := hb b (by rw [hasAddr_node]; exact Or.inl rfl); omega
                · rcases hupd k x hk with h1 | ⟨_, _, h3⟩
                  · have := hfresh k x h1; omega
                  · exact r3 x h3
              · intro x
                constructor
                · intro hx
                  by_cases hlt : next ≤ x
                  · exact Or.inr ⟨hlt, hx⟩
                  · left
                    rw [hasAddr_node] at hx ⊢
                    rcases hx with rfl | ⟨k, hk⟩
                    · exact Or.inl rfl
                    · rcases hupd k x hk with h1 | ⟨_, h2, _⟩
                      · exact Or.inr ⟨k, h1⟩
                      · omega
                · rintro (hx | ⟨_, hx⟩)
                  · rw [hasAddr_node] at hx ⊢
                    rcases hx with rfl | ⟨k, hk⟩
                    · exact Or.inl rfl
                    · right
                      refine ⟨k, ?_⟩
                      by_cases hkk : k = childIndex c position
                      · subst hkk
                        rw [Function.update_same]
                        exact r5 x ((c4 x).mpr (Or.inl hk))
                      · rw [Function.update_noteq hkk]; exact hk
                  · exact hx
              · intro x hx
                rw [hasAddr_node] at hx ⊢
                rcases hx with rfl | ⟨k, hk⟩
                · exact Or.inl rfl
                · right
                  refine ⟨k, ?_⟩
                  by_cases hkk : k = childIndex c position
                  · subst hkk
                    rw [Function.update_same]
                    exact r5 x ((c4 x).mpr (Or.inl hk))
                  · rw [Function.update_noteq hkk]; exact hk
              · intro id x
                rw [holdsAt_node, holdsAt_node]
                constructor
                · rintro (h1 | ⟨k, hk⟩)
                  · exact Or.inl (Or.inl h1)
                  · by_cases hkk : k = childIndex c position
                    · subst hkk
                      rw [Function.update_same] at hk
                      rcases (r6 id x).mp hk with h2 | h2
                      · exact Or.inl (Or.inr ⟨_, (c5 id x).mp h2⟩)
                      · exact Or.inr h2
                    · rw [Function.update_noteq hkk] at hk
                      exact Or.inl (Or.inr ⟨k, hk⟩)
                · rintro ((h1 | ⟨k, hk⟩) | h2)
                  · exact Or.inl h1
                  · right
                    refine ⟨k, ?_⟩
                    by_cases hkk : k = childIndex c position
                    · subst hkk
                      rw [Function.update_same]
                      exact (r6 id x).mpr (Or.inl ((c5 id x).mpr hk))
                    · rw [Function.update_noteq hkk]; exact hk
                  · right
                    refine ⟨childIndex c position, ?_⟩
                    rw [Function.update_same]
                    exact (r6 id x).mpr (Or.inr h2)
              · rw [hasAddr_node]
                right
                exact ⟨childIndex c position, by rw [Function.update_same]; exact r7⟩
        · -- store here
          simp only [Option.some.injEq, Prod.mk.injEq] at h
          obtain ⟨rfl, rfl, rfl⟩ := h
          refine ⟨hu, le_refl _, ?_, ?_, ?_, ?_, ?_⟩
          · intro x hx
            exact hb x (by rw [hasAddr_node] at hx ⊢; exact hx)
          · intro x
            simp only [hasAddr_node]
            tauto
          · intro x hx
            rw [hasAddr_node] at hx ⊢; exact hx
          · intro id x
            rw [holdsAt_node, holdsAt_node, Finset.mem_insert]
            constructor
            · rintro (⟨h1, h2 | h2⟩ | h3)
              · exact Or.inr ⟨h2, h1.symm⟩
              · exact Or.inl (Or.inl ⟨h1, h2⟩)
              · exact Or.inl (Or.inr h3)
            · rintro ((⟨h1, h2⟩ | h3) | ⟨h4, h5⟩)
              · exact Or.inl ⟨h1, Or.inr h2⟩
              · exact Or.inr h3
              · exact Or.inl ⟨h5.symm, Or.inl h4⟩
          · rw [hasAddr_node]; exact Or.inl rfl
      · simp at h

theorem nodeAddElementF_fields (R : ℚ → ℚ) (index : Nat) (position : Vec3) (e : ℚ) :
    ∀ fuel next t t1 a next1,
      nodeAddElementF R fuel index position e next t = some (t1, a, next1) →
      t1.isSome = true ∧ t1.width = t.width ∧ t1.depth = t.depth ∧ t1.center = t.center ∧
        t1.addr = t.addr := by
  intro fuel next t t1 a next1 h
  cases fuel with
  | zero => simp [nodeAddElementF] at h
  | succ fuel =>
    cases t with
    | none => simp [nodeAddElementF] at h
    | node b c w d ch idx =>
      rw [nodeAddElementF] at h
      split at h
      · split at h
        · split at h
          · simp at h
          · split at h
            · simp at h
            · simp only [Option.some.injEq, Prod.mk.injEq] at h
              obtain ⟨rfl, _, _⟩ := h
              simp [Child.isSome, Child.width, Child.depth, Child.center, Child.addr]
        · simp only [Option.some.injEq, Prod.mk.injEq] at h
          obtain ⟨rfl, _, _⟩ := h
          simp [Child.isSome, Child.width, Child.depth, Child.center, Child.addr]
      · simp at h

end Octree

namespace DynamicOctree


theorem makeParentF_spec (R : ℚ → ℚ) (o o1 : DynamicOctree) (position : Vec3)
    (h : makeParentF R o position = some o1) (hr : Registration o) :
    Registration o1 ∧ o1.elementNodeMap = o.elementNodeMap ∧
      (∀ id a, holdsAt id a o1.root = true ↔ holdsAt id a o.root = true) ∧
      o.heapNext ≤ o1.heapNext := by
  unfold makeParentF at h
  obtain ⟨hu, hb, hreg⟩ := hr
  cases hroot : o.root with
  | none => rw [hroot] at h; simp at h
  | node a c w d ch idx =>
    rw [hroot] at h
    simp only [Option.map_eq_some'] at h
    obtain ⟨n, hn, rfl⟩ := h
    unfold mkNode at hn
    split at hn
    · simp only [Option.some.injEq] at hn
      subst hn
      rw [hroot] at hu hb hreg
      have hold : ∀ id b, holdsAt id b
          (setChild (parentIndex c position) (Child.node a c w d ch idx)
            (Child.node o.heapNext (parentCenterF R c (R (w * (1 / 2))) position) (R (w * 2))
              (d - 1)
              (fun _ => Child.none) ∅)) = true ↔
          holdsAt id b (Child.node a c w d ch idx) = true := by
        intro id b
        simp only [setChild]
        rw [holdsAt_node]
        constructor
        · rintro (⟨_, h2⟩ | ⟨k, hk⟩)
          · simp at h2
          · split at hk
            · exact hk
            · simp [holdsAt] at hk
        · intro h1
          right
          exact ⟨⟨parentIndex c position, parentIndex_lt c position⟩, by simpa using h1⟩
      refine ⟨⟨?_, ?_, ?_⟩, rfl, ?_, by simp⟩
      · simp only [setChild]
        refine ⟨?_, ?_, ?_⟩
        · intro k
          dsimp only
          split
          · by_contra hcon
            rw [Bool.not_eq_false] at hcon
            have := hb _ hcon
            omega
          · rfl
        · intro k
          dsimp only
          split
          · exact hu
          · trivial
        · intro k1 k2 x hne hx
          dsimp only at hx ⊢
          split at hx
          · rename_i h1
            split
            · rename_i h2
              exact absurd (Fin.ext (h1.trans h2.symm)) hne
            · rfl
          · simp [hasAddr] at hx
      · intro x hx
        simp only [setChild] at hx
        rw [hasAddr_node] at hx
        rcases hx with rfl | ⟨k, hk⟩
        · simp
        · split at hk
          · have := hb x hk
            simp; omega
          · simp [hasAddr] at hk
      · intro id b
        rw [hold id b]
        exact hreg id b
      · intro id b
        exact hold id b
    · simp at hn

theorem addElementF_registration (R : ℚ → ℚ) :
    ∀ fuel (o o1 : DynamicOctree) (index : Nat) (position : Vec3) (e : ℚ),
      addElementF R fuel o index position e = some o1 → Registration o →
      Registration o1 ∧ o.nodeOf index = none ∧ (∃ a, o1.nodeOf index = some a) ∧
        (∀ id, id ≠ index → o1.nodeOf id = o.nodeOf id) ∧ o.heapNext ≤ o1.heapNext := by
  intro fuel
  induction fuel with
  | zero => intro o o1 index position e h; simp [addElementF] at h
  | succ fuel ih =>
    intro o o1 index position e h hr
    rw [addElementF] at h
    split at h
    · simp at h
    · rename_i a c w d ch idx hroot
      split at h
      · split at h
        · simp at h
        · rename_i r a1 next hnode
          simp only [Option.map_eq_some'] at h
          obtain ⟨enm, henm, rfl⟩ := h
          obtain ⟨hu, hb, hreg⟩ := hr
          obtain ⟨r1, r2, r3, r4, r5, r6, r7⟩ :=
            nodeAddElementF_spec R index position e (fuel + 1) o.heapNext o.root r a1 next hnode
              hu hb
          obtain ⟨m1, m2⟩ := addToElementNodeMap_spec _ _ _ _ henm
          refine ⟨⟨r1, r3, ?_⟩, m1, ⟨a1, ?_⟩, ?_, r2⟩
          · intro id b
            simp only [nodeOf] at hreg ⊢
            rw [r6 id b, m2 id, hreg id b]
            by_cases hid : id = index
            · subst hid
              simp only [if_true, Option.some.injEq]
              rw [m1]
              constructor
              · rintro (h1 | ⟨_, h2⟩)
                · simp at h1
                · exact h2.symm
              · intro h1; exact Or.inr ⟨trivial, h1.symm⟩
            · simp [hid]
          · simp only [nodeOf]; rw [m2]; simp
          · intro id hid
            simp only [nodeOf]; rw [m2]; simp [hid]
      · split at h
        · simp at h
        · rename_i o2 hmp
          obtain ⟨p1, p2, p3, p4⟩ := makeParentF_spec R o o2 position hmp hr
          obtain ⟨q1, q2, q3, q4, q5⟩ := ih o2 o1 index position e h p1
          refine ⟨q1, ?_, q3, ?_, by omega⟩
          · simpa [nodeOf, p2] using q2
          · intro id hid
            rw [q4 id hid]
            simp [nodeOf, p2]

theorem addElementF_root_contains (R : ℚ → ℚ) :
    ∀ fuel (o o1 : DynamicOctree) (index : Nat) (p : Vec3) (e : ℚ),
      addElementF R fuel o index p e = some o1 →
      approxContainsF R o1.root.center o1.root.width p e = true := by
  intro fuel
  induction fuel with
  | zero => intro o o1 index p e h; simp [addElementF] at h
  | succ fuel ih =>
    intro o o1 index p e h
    rw [addElementF] at h
    split at h
    · simp at h
    · rename_i a c w d ch idx hroot
      split at h
      · rename_i happ
        split at h
        · simp at h
        · rename_i r a1 next hnode
          simp only [Option.map_eq_some'] at h
          obtain ⟨enm, _, rfl⟩ := h
          obtain ⟨_, f2, _, f4, _⟩ := nodeAddElementF_fields R index p e _ _ _ _ _ _ hnode
          simp only
          rw [f2, f4, hroot]
          exact happ
      · split at h
        · simp at h
        · rename_i o2 hmp
          exact ih o2 o1 index p e h

theorem realignElementF_registration (R : ℚ → ℚ) (fuel : Nat) (o o1 : DynamicOctree)
    (index : Nat) (position : Vec3) (e : ℚ) (h : realignElementF R fuel o index position e = some o1)
    (hr : Registration o) :
    Registration o1 ∧ (∀ id, id ≠ index → o1.nodeOf id = o.nodeOf id) := by
  unfold realignElementF at h
  split at h
  · split at h
    · split at h
      · simp at h
      · split at h
        · split at h
          · simp at h
          · rename_i o2 hdel
            obtain ⟨d1, d2, d3, d4, d5⟩ := deleteElement_registration o o2 index hdel hr
            obtain ⟨a1, a2, a3, a4, a5⟩ :=
              addElementF_registration R fuel o2 o1 index position e h d1
            exact ⟨a1, fun id hid => by rw [a4 id hid, d4 id hid]⟩
        · simp only [Option.some.injEq] at h
          subst h
          exact ⟨hr, fun _ _ => rfl⟩
    · simp at h
  · simp at h

end DynamicOctree

namespace Octree

theorem geomF_node (R : ℚ → ℚ) (a : Nat) (c : Vec3) (w : ℚ) (d : Int) (ch : Fin 8 → Child)
    (idx : Finset Nat) :
    GeomF R (Child.node a c w d ch idx) ↔
      (0 < w ∧ ∀ k, GeomF R (ch k) ∧
        ((ch k).isSome = true →
          (ch k).depth = d + 1 ∧ LinkF R c w k (ch k).center (ch k).width)) := by
  simp only [GeomF]

theorem childOrMakeF_geom (R : ℚ → ℚ) (next : Nat) (c : Vec3) (w : ℚ) (d : Int)
    (ch : Fin 8 → Child) (k : Fin 8) (child : Child) (next1 : Nat)
    (h : childOrMakeF R next c w d ch k = some (child, next1))
    (hg : GeomF R (Child.node 0 c w d ch ∅)) :
    GeomF R child ∧ child.isSome = true ∧ child.depth = d + 1 ∧
      LinkF R c w k child.center child.width := by
  rw [geomF_node] at hg
  obtain ⟨hw, hk⟩ := hg
  unfold childOrMakeF at h
  by_cases hs : (ch k).isSome = true
  · simp only [hs, if_true, Option.some.injEq, Prod.mk.injEq] at h
    obtain ⟨rfl, rfl⟩ := h
    obtain ⟨g1, g2⟩ := hk k
    obtain ⟨e1, e2⟩ := g2 hs
    exact ⟨g1, hs, e1, e2⟩
  · simp only [hs, Bool.false_eq_true, if_false, Option.map_eq_some'] at h
    obtain ⟨n, hn, hn2⟩ := h
    simp only [Prod.mk.injEq] at hn2
    obtain ⟨rfl, rfl⟩ := hn2
    unfold mkNode at hn
    split at hn
    · simp only [Option.some.injEq] at hn
      subst hn
      rename_i hpos
      refine ⟨?_, rfl, rfl, Or.inl ⟨rfl, rfl⟩⟩
      rw [geomF_node]
      exact ⟨hpos, fun _ => ⟨trivial, fun h => by simp [Child.isSome] at h⟩⟩
    · simp at hn

theorem geomF_irrel (R : ℚ → ℚ) (a a1 : Nat) (c : Vec3) (w : ℚ) (d : Int) (ch : Fin 8 → Child)
    (idx idx1 : Finset Nat) (h : GeomF R (Child.node a c w d ch idx)) :
    GeomF R (Child.node a1 c w d ch idx1) := by
  rw [geomF_node] at h ⊢
  exact h

theorem nodeAddElementF_geom (R : ℚ → ℚ) (index : Nat) (position : Vec3) (e : ℚ) :
    ∀ fuel next t t1 a next1,
      nodeAddElementF R fuel index position e next t = some (t1, a, next1) →
      GeomF R t → GeomF R t1 := by
  intro fuel
  induction fuel with
  | zero => intro next t t1 a next1 h; simp [nodeAddElementF] at h
  | succ fuel ih =>
    intro next t t1 a next1 h hg
    cases t with
    | none => simp [nodeAddElementF] at h
    | node b c w d ch idx =>
      rw [nodeAddElementF] at h
      split at h
      · split at h
        · split at h
          · simp at h
          · rename_i child nx hmade
            split at h
            · simp at h
            · rename_i child1 a1 next2 hrec
              simp only [Option.some.injEq, Prod.mk.injEq] at h
              obtain ⟨rfl, rfl, rfl⟩ := h
              obtain ⟨c1, c2, c3, c4⟩ :=
                childOrMakeF_geom R next c w d ch _ child nx hmade
                  (geomF_irrel R _ _ _ _ _ _ _ _ hg)
              have g1 := ih nx child child1 a1 next2 hrec c1
              obtain ⟨f1, f2, f3, f4, _⟩ := nodeAddElementF_fields R index position e fuel nx
                child child1 a1 next2 hrec
              rw [geomF_node] at hg ⊢
              refine ⟨hg.1, fun k => ?_⟩
              by_cases hk : k = childIndex c position
              · subst hk
                rw [Function.update_same]
                exact ⟨g1, fun _ => ⟨by rw [f3, c3], by rw [f2, f4]; exact c4⟩⟩
              · rw [Function.update_noteq hk]
                exact hg.2 k
        · simp only [Option.some.injEq, Prod.mk.injEq] at h
          obtain ⟨rfl, _, _⟩ := h
          exact geomF_irrel R _ _ _ _ _ _ _ _ hg
      · simp at h

theorem eraseAt_geomF (R : ℚ → ℚ) (a id : Nat) : ∀ t, GeomF R t → GeomF R (eraseAt a id t) := by
  intro t
  induction t with
  | none => intro h; exact h
  | node b c w d ch idx ih =>
    intro h
    rw [eraseAt]
    split
    · exact geomF_irrel R _ _ _ _ _ _ _ _ h
    · rw [geomF_node] at h ⊢
      refine ⟨h.1, fun k => ⟨ih k (h.2 k).1, ?_⟩⟩
      obtain ⟨e1, e2, e3, e4⟩ := eraseAt_fields a id (ch k)
      rw [e1, e2, e3, e4]
      exact (h.2 k).2

theorem shrinkRootNode_geomF (R : ℚ → ℚ) : ∀ t, GeomF R t → GeomF R (shrinkRootNode t) := by
  intro t
  induction t with
  | none => intro h; exact h
  | node a c w d ch idx ih =>
    intro h
    rw [shrinkRootNode]
    split
    · split
      · rename_i k _
        rw [geomF_node] at h
        exact ih k (h.2 k).1
      · exact h
    · exact h

theorem nodeDeleteEmptyChildren_geomF (R : ℚ → ℚ) :
    ∀ t, GeomF R t → GeomF R (nodeDeleteEmptyChildren t).1 := by
  intro t
  induction t with
  | none => intro h; exact h
  | node a c w d ch idx ih =>
    intro h
    rw [geomF_node] at h
    simp only [nodeDeleteEmptyChildren]
    rw [geomF_node]
    refine ⟨h.1, fun k => ?_⟩
    by_cases hs : (ch k).isSome = true
    · simp only [hs, if_true]
      by_cases hf : (nodeDeleteEmptyChildren (ch k)).2 = true
      · simp only [hf, if_true]
        exact ⟨trivial, fun h' => by simp [Child.isSome] at h'⟩
      · simp only [hf, Bool.false_eq_true, if_false]
        obtain ⟨e1, e2, e3, e4⟩ := nodeDeleteEmptyChildren_fields (ch k)
        refine ⟨ih k (h.2 k).1, fun _ => ?_⟩
        rw [e2, e3, e4]
        exact (h.2 k).2 hs
    · simp only [hs, Bool.false_eq_true, if_false]
      exact ⟨trivial, fun h' => by simp [Child.isSome] at h'⟩

theorem nodeUpdateIndices_geomF (R : ℚ → ℚ) (m : List Nat) :
    ∀ t t1, nodeUpdateIndices m t = some t1 → GeomF R t → GeomF R t1 := by
  intro t
  induction t with
  | none =>
    intro t1 h hg
    simp only [nodeUpdateIndices, Option.some.injEq] at h
    subst h; exact hg
  | node a c w d ch idx ih =>
    intro t1 h hg
    rw [nodeUpdateIndices] at h
    split at h
    · rename_i hcond
      simp only [Option.some.injEq] at h
      subst h
      have hk : ∀ k, nodeUpdateIndices m (ch k) =
          some ((nodeUpdateIndices m (ch k)).getD Child.none) := by
        intro k
        have := hcond.2 k
        cases hx : nodeUpdateIndices m (ch k) with
        | none => rw [hx] at this; simp at this
        | some x => simp
      rw [geomF_node] at hg ⊢
      refine ⟨hg.1, fun k => ⟨ih k _ (hk k) (hg.2 k).1, ?_⟩⟩
      obtain ⟨e1, e2, e3, e4⟩ := nodeUpdateIndices_fields m _ _ (hk k)
      rw [e1, e2, e3, e4]
      exact (hg.2 k).2
    · simp at h

theorem geomF_find (R : ℚ → ℚ) (a : Nat) :
    ∀ t, UniqAddr t → GeomF R t → GeomF R (find a t) := by
  intro t
  induction t with
  | none => intro _ h; exact h
  | node b c w d ch idx ih =>
    intro hu hg
    by_cases hs : hasAddr a (Child.node b c w d ch idx) = true
    · rcases hasAddr_cases a b c w d ch idx hs with hb | ⟨k, hk⟩
      · rw [find, if_pos hb]; exact hg
      · rw [find_child a b c w d ch idx k hu hk]
        exact ih k (hu.2.1 k) (((geomF_node R _ _ _ _ _ _).mp hg).2 k).1
    · have : (find a (Child.node b c w d ch idx)).isSome = false := by
        rw [find_isSome]; simpa using hs
      cases hf : find a (Child.node b c w d ch idx) with
      | none => trivial
      | node _ _ _ _ _ _ => rw [hf] at this; simp [Child.isSome] at this

/-- In exact arithmetic a link is the exact geometry: the child has half the
width and its centre a quarter of the width away, with the signs of its slot. -/
theorem linkF_exact (c : Vec3) (w : ℚ) (k : Fin 8) (c1 : Vec3) (w1 : ℚ)
    (h : LinkF id c w k c1 w1) :
    w1 = w * (1 / 2) ∧ c1 = childCenter c (w * (1 / 4)) k := by
  rcases h with ⟨h1, h2⟩ | ⟨h1, h2⟩
  · rw [childCenterF_exact] at h2
    exact ⟨h1, h2⟩
  · simp only [id] at h1
    refine ⟨by rw [h1]; ring, ?_⟩
    obtain ⟨x, y, z⟩ := c
    obtain ⟨x1, y1, z1⟩ := c1
    rw [childCenter_signs]
    simp only [parentCenterOf, id, Vec3.mk.injEq] at h2 ⊢
    obtain ⟨e1, e2, e3⟩ := h2
    subst h1
    refine ⟨?_, ?_, ?_⟩
    · rw [e1]; split <;> ring
    · rw [e2]; split <;> ring
    · rw [e3]; split <;> ring

end Octree

namespace DynamicOctree

theorem parentCenterF_of (R : ℚ → ℚ) (c position : Vec3) (h : ℚ) (k : Fin 8)
    (hk : k.val = parentIndex c position) :
    parentCenterF R c h position = parentCenterOf R c h k := by
  unfold parentIndex at hk
  unfold parentCenterF parentCenterOf
  rw [hk]
  by_cases hx : c.x < position.x <;> by_cases hy : c.y < position.y <;>
    by_cases hz : c.z < position.z <;> simp [hx, hy, hz]

theorem makeParentF_geom (R : ℚ → ℚ) (o o1 : DynamicOctree) (position : Vec3)
    (h : makeParentF R o position = some o1) (hg : GeomF R o.root) : GeomF R o1.root := by
  unfold makeParentF at h
  cases hroot : o.root with
  | none => rw [hroot] at h; simp at h
  | node a c w d ch idx =>
    rw [hroot] at h hg
    simp only [Option.map_eq_some'] at h
    obtain ⟨n, hn, rfl⟩ := h
    unfold mkNode at hn
    split at hn
    · rename_i hpos
      simp only [Option.some.injEq] at hn
      subst hn
      simp only [setChild]
      rw [geomF_node]
      refine ⟨hpos, fun k => ?_⟩
      split
      · rename_i hk
        refine ⟨hg, fun _ => ⟨?_, Or.inr ⟨rfl, ?_⟩⟩⟩
        · simp only [Child.depth]; ring
        · simp only [Child.center, Child.width]
          exact parentCenterF_of R c position _ k hk
      · exact ⟨trivial, fun h' => by simp [Child.isSome] at h'⟩
    · simp at hn

theorem addElementF_geom (R : ℚ → ℚ) :
    ∀ fuel (o o1 : DynamicOctree) (index : Nat) (position : Vec3) (e : ℚ),
      addElementF R fuel o index position e = some o1 → GeomF R o.root → GeomF R o1.root := by
  intro fuel
  induction fuel with
  | zero => intro o o1 index position e h; simp [addElementF] at h
  | succ fuel ih =>
    intro o o1 index position e h hg
    rw [addElementF] at h
    split at h
    · simp at h
    · split at h
      · split at h
        · simp at h
        · rename_i r a1 next hnode
          simp only [Option.map_eq_some'] at h
          obtain ⟨enm, _, rfl⟩ := h
          exact nodeAddElementF_geom R index position e _ _ _ _ _ _ hnode hg
      · split at h
        · simp at h
        · rename_i o2 hmp
          exact ih o2 o1 index position e h (makeParentF_geom R o o2 position hmp hg)

theorem deleteElement_geomF (R : ℚ → ℚ) (o o1 : DynamicOctree) (index : Nat)
    (h : deleteElement o index = some o1) (hg : GeomF R o.root) : GeomF R o1.root := by
  unfold deleteElement at h
  split at h
  · rename_i a _
    split at h
    · simp only at h
      have hg1 := eraseAt_geomF R a index o.root hg
      split at h
      · split at h
        · simp only [Option.some.injEq] at h
          subst h; trivial
        · simp only [Option.some.injEq] at h
          subst h
          exact shrinkRootNode_geomF R _ hg1
      · simp only [Option.some.injEq] at h
        subst h; exact hg1
    · simp at h
  · simp at h

theorem realignElementF_geom (R : ℚ → ℚ) (fuel : Nat) (o o1 : DynamicOctree) (index : Nat)
    (position : Vec3) (e : ℚ) (h : realignElementF R fuel o index position e = some o1)
    (hg : GeomF R o.root) : GeomF R o1.root := by
  unfold realignElementF at h
  split at h
  · split at h
    · split at h
      · simp at h
      · split at h
        · split at h
          · simp at h
          · rename_i o2 hdel
            exact addElementF_geom R fuel o2 o1 index position e h
              (deleteElement_geomF R o o2 index hdel hg)
        · simp only [Option.some.injEq] at h
          subst h; exact hg
    · simp at h
  · simp at h

theorem stepF_geom (R : ℚ → ℚ) (P : DynamicOctree → List Nat → Prop) (o o1 : DynamicOctree)
    (h : StepF R P o o1) (hg : GeomF R o.root) : GeomF R o1.root := by
  cases h with
  | addElement fuel _ _ index position e h =>
    exact addElementF_geom R fuel o o1 index position e h hg
  | deleteElement _ _ index h => exact deleteElement_geomF R o o1 index h hg
  | realignElement fuel _ _ index position e h =>
    exact realignElementF_geom R fuel o o1 index position e h hg
  | deleteEmptyChildren =>
    unfold deleteEmptyChildren
    split
    · split
      · trivial
      · exact nodeDeleteEmptyChildren_geomF R _ hg
    · exact hg
  | shrinkRoot => exact shrinkRootNode_geomF R _ hg
  | updateIndices _ _ m _ h =>
    unfold updateIndices at h
    split at h
    · simp at h
    · simp only at h
      split at h
      · simp only [Option.map_eq_some'] at h
        obtain ⟨r, hr, rfl⟩ := h
        exact nodeUpdateIndices_geomF R m _ _ hr hg
      · simp only [Option.some.injEq] at h
        subst h; exact hg

theorem reachableF_geom (R : ℚ → ℚ) (P : DynamicOctree → List Nat → Prop) (o : DynamicOctree)
    (h : ReachableWithF R P o) : GeomF R o.root := by
  induction h with
  | setupRoot next position width o h =>
    unfold setupRoot at h
    simp only [hasRoot, Child.isSome, Bool.false_eq_true, if_false, Option.map_eq_some'] at h
    obtain ⟨r, hr, rfl⟩ := h
    unfold mkNode at hr
    split at hr
    · rename_i hpos
      simp only [Option.some.injEq] at hr
      subst hr
      simp only
      rw [geomF_node]
      exact ⟨hpos, fun _ => ⟨trivial, fun h' => by simp [Child.isSome] at h'⟩⟩
    · simp at hr
  | step o o1 _ hs ih => exact stepF_geom R P o o1 hs ih

theorem stepF_registration (R : ℚ → ℚ) (o o1 : DynamicOctree) (h : StepF R PermWithHoles o o1)
    (hr : Registration o) : Registration o1 := by
  cases h with
  | addElement fuel _ _ index position e h =>
    exact (addElementF_registration R fuel o o1 index position e h hr).1
  | deleteElement _ _ index h => exact (deleteElement_registration o o1 index h hr).1
  | realignElement fuel _ _ index position e h =>
    exact (realignElementF_registration R fuel o o1 index position e h hr).1
  | deleteEmptyChildren => exact (deleteEmptyChildren_registration o hr).1
  | shrinkRoot => exact (shrinkRoot_registration o hr).1
  | updateIndices _ _ m hp h => exact (updateIndices_registration o o1 m h hr hp).1

theorem reachableF_registration (R : ℚ → ℚ) (o : DynamicOctree) (h : ReachableF R o) :
    Registration o := by
  induction h with
  | setupRoot next position width o h => exact setupRoot_registration next position width o h
  | step o o1 _ hs ih => exact stepF_registration R o o1 hs ih

/-- In exact arithmetic the reachable states are those of the exact octree. -/
theorem reachableF_exact (o : DynamicOctree) (h : ReachableF id o) : Reachable o := by
  induction h with
  | setupRoot next position width o h => exact ReachableWith.setupRoot next position width o h
  | step o o1 _ hs ih =>
    refine ReachableWith.step o o1 ih ?_
    cases hs with
    | addElement fuel _ _ index position e h =>
      rw [addElementF_exact] at h
      exact Step.addElement fuel o o1 index position e h
    | deleteElement _ _ index h => exact Step.deleteElement o o1 index h
    | realignElement fuel _ _ index position e h =>
      rw [realignElementF_exact] at h
      exact Step.realignElement fuel o o1 index position e h
    | deleteEmptyChildren => exact Step.deleteEmptyChildren o
    | shrinkRoot => exact Step.shrinkRoot o
    | updateIndices _ _ m hp h => exact Step.updateIndices o o1 m hp h

/-- The states of the exact octree are reachable in exact arithmetic. -/
theorem reachable_exactF (o : DynamicOctree) (h : Reachable o) : ReachableF id o := by
  induction h with
  | setupRoot next position width o h =>
    exact ReachableWithF.setupRoot next position width o h
  | step o o1 _ hs ih =>
    refine ReachableWithF.step o o1 ih ?_
    cases hs with
    | addElement fuel _ _ index position e h =>
      rw [← addElementF_exact] at h
      exact StepF.addElement fuel o o1 index position e h
    | deleteElement _ _ index h => exact StepF.deleteElement o o1 index h
    | realignElement fuel _ _ index position e h =>
      rw [← realignElementF_exact] at h
      exact StepF.realignElement fuel o o1 index position e h
    | deleteEmptyChildren => exact StepF.deleteEmptyChildren o
    | shrinkRoot => exact StepF.shrinkRoot o
    | updateIndices _ _ m hp h => exact StepF.updateIndices o o1 m hp h

end DynamicOctree

namespace Octree

/-- A node that approx-contains the element and does not hand it to a child
takes it. -/
theorem nodeAddElementF_store (R : ℚ → ℚ) (fuel index : Nat) (p : Vec3) (e : ℚ) (next a : Nat)
    (c : Vec3) (w : ℚ) (d : Int) (ch : Fin 8 → Child) (idx : Finset Nat)
    (h1 : approxContainsF R c w p e = true) (h2 : insertIntoChildF R w e = false) :
    nodeAddElementF R (fuel + 1) index p e next (Child.node a c w d ch idx) =
      some (Child.node a c w d ch (insert index idx), a, next) := by
  rw [nodeAddElementF, if_pos h1, if_neg (by rw [h2]; simp)]

/-- A node that approx-contains the element and hands it to a child gets the
child back in the slot `childIndex (position)`. -/
theorem nodeAddElementF_descend (R : ℚ → ℚ) (fuel index : Nat) (p : Vec3) (e : ℚ)
    (next a : Nat) (c : Vec3) (w : ℚ) (d : Int) (ch : Fin 8 → Child) (idx : Finset Nat)
    (child child1 : Child) (next1 a1 next2 : Nat)
    (h1 : approxContainsF R c w p e = true) (h2 : insertIntoChildF R w e = true)
    (h3 : childOrMakeF R next c w d ch (childIndex c p) = some (child, next1))
    (h4 : nodeAddElementF R fuel index p e next1 child = some (child1, a1, next2)) :
    nodeAddElementF R (fuel + 1) index p e next (Child.node a c w d ch idx) =
      some (Child.node a c w d (Function.update ch (childIndex c p) child1) idx, a1, next2) := by
  rw [nodeAddElementF, if_pos h1, if_pos h2, h3]
  simp only [h4]

end Octree

namespace DynamicOctree

/-- The shape of the octree after `makeParent`, in the arithmetic `R`: the
constructor of the new root asserts that its width is positive. -/
theorem makeParentF_shape (R : ℚ → ℚ) (o : DynamicOctree) (a : Nat) (c : Vec3) (w : ℚ)
    (d : Int) (ch : Fin 8 → Child) (idx : Finset Nat) (p : Vec3)
    (hroot : o.root = Child.node a c w d ch idx) (hw : 0 < R (w * 2)) :
    makeParentF R o p = some
      { root := Child.node o.heapNext (parentCenterF R c (R (w * (1 / 2))) p) (R (w * 2)) (d - 1)
          (fun k => if k.val = parentIndex c p then o.root else Child.none) ∅
        elementNodeMap := o.elementNodeMap
        heapNext := o.heapNext + 1 } := by
  unfold makeParentF
  simp only [hroot, mkNode, hw, if_true, Option.map_some', setChild]

theorem addElementF_unfold_grow (R : ℚ → ℚ) (fuel : Nat) (o : DynamicOctree) (a : Nat)
    (c : Vec3) (w : ℚ) (d : Int) (ch : Fin 8 → Child) (idx : Finset Nat) (index : Nat)
    (p : Vec3) (e : ℚ) (hroot : o.root = Child.node a c w d ch idx)
    (hnot : approxContainsF R c w p e = false) :
    addElementF R (fuel + 1) o index p e =
      (makeParentF R o p).bind (fun o2 => addElementF R fuel o2 index p e) := by
  rw [addElementF]
  simp only [hroot, hnot, Bool.false_eq_true, if_false]
  cases makeParentF R o p <;> rfl

theorem addElementF_unfold_insert (R : ℚ → ℚ) (fuel : Nat) (o : DynamicOctree) (a : Nat)
    (c : Vec3) (w : ℚ) (d : Int) (ch : Fin 8 → Child) (idx : Finset Nat) (index : Nat)
    (p : Vec3) (e : ℚ) (hroot : o.root = Child.node a c w d ch idx)
    (happ : approxContainsF R c w p e = true) :
    addElementF R (fuel + 1) o index p e =
      (nodeAddElementF R (fuel + 1) index p e o.heapNext o.root).bind (fun r =>
        (addToElementNodeMap o.elementNodeMap index r.2.1).map
          (fun enm => { root := r.1, elementNodeMap := enm, heapNext := r.2.2 })) := by
  rw [addElementF]
  simp only [hroot, happ, if_true]
  cases nodeAddElementF R (fuel + 1) index p e o.heapNext (Child.node a c w d ch idx) <;> rfl

/-- When the descent from a root that approx-contains the element fails an
assertion, `addElement` takes nothing. -/
theorem addElementF_reject (R : ℚ → ℚ) (o : DynamicOctree) (a : Nat) (c : Vec3) (w : ℚ)
    (d : Int) (ch : Fin 8 → Child) (idx : Finset Nat) (index : Nat) (p : Vec3) (e : ℚ)
    (hroot : o.root = Child.node a c w d ch idx) (happ : approxContainsF R c w p e = true)
    (hnone : ∀ fuel, nodeAddElementF R fuel index p e o.heapNext o.root = none) (fuel : Nat) :
    addElementF R fuel o index p e = none := by
  cases fuel with
  | zero => rfl
  | succ n =>
    rw [addElementF_unfold_insert R n o a c w d ch idx index p e hroot happ, hnone]
    rfl

end DynamicOctree

namespace DynamicOctree

theorem rootAtOne_eq : setupRoot ⟨Child.none, [], 0⟩ ⟨1, 1, 1⟩ 1 = some rootAtOne := by
  simp [setupRoot, hasRoot, Child.isSome, mkNode, rootAtOne]

theorem rootFar_eq :
    setupRoot ⟨Child.none, [], 0⟩ ⟨33554432, 33554432, 33554432⟩ 1 = some rootFar := by
  simp [setupRoot, hasRoot, Child.isSome, mkNode, rootFar]

theorem rootAtTenth_eq :
    setupRoot ⟨Child.none, [], 0⟩
      ⟨13421773 / 134217728, 13421773 / 134217728, 13421773 / 134217728⟩ 1 =
      some rootAtTenth := by
  simp [setupRoot, hasRoot, Child.isSome, mkNode, rootAtTenth]

/-- The loose bounds of a node of width 1 with the centre `(1, 1, 1)` in binary32
arithmetic. -/
theorem approxContainsF_one (p : Vec3) (e : ℚ) :
    approxContainsF Float32.round ⟨1, 1, 1⟩ 1 p e =
      ((decide (4193465 / 8388608 ≤ p.x) && decide (4193465 / 8388608 ≤ p.y)
          && decide (4193465 / 8388608 ≤ p.z))
        && (decide (p.x ≤ 12583751 / 8388608) && decide (p.y ≤ 12583751 / 8388608)
          && decide (p.z ≤ 12583751 / 8388608))
        && decide (e ≤ 1)) := by
  have lo : Float32.round (1 - 4195143 / 8388608) = 4193465 / 8388608 :=
    Float32.round_pos _ _ (-2) 16773860 (by norm_num) (by norm_num) (by norm_num)
      (by norm_num) (by norm_num) (by norm_num)
  have hi : Float32.round (1 + 4195143 / 8388608) = 12583751 / 8388608 :=
    Float32.round_pos _ _ 0 12583751 (by norm_num) (by norm_num) (by norm_num)
      (by norm_num) (by norm_num) (by norm_num)
  exact approxContainsF_eval Float32.round _ 1 p e _ _ _ _ _ _ _ _ _ Float32.round_epsilon
    (by rw [one_mul]; exact Float32.round_half) round_unitHalf lo lo lo hi hi hi

theorem round_threeQuarters : Float32.round (3 / 4) = 3 / 4 :=
  Float32.round_pos _ _ (-1) 12582912 (by norm_num) (by norm_num) (by norm_num) (by norm_num)
    (by norm_num) (by norm_num)

/-- C8, at its failing input, in binary32 arithmetic. The octree after
`setupRoot ((1, 1, 1), 1)` has a root of positive width that approx-contains the
position `(4193465 / 8388608, 3/4, 3/4)` with the extent `1/4 > 0`: the lower
bound of the root, `1.0f - (0.0001f + 0.5f)`, is `4193465 / 8388608`. The
extent is at most a quarter of the width, so the root hands the element to the
child in slot 0, which it makes with the centre `(3/4, 3/4, 3/4)` and the width
`1/2`. The lower bound of the child, `0.75f - (0.0001f + 0.25f)`, is
`16773861 / 33554432`, above `4193465 / 8388608 = 16773860 / 33554432`: the
assertion `approxContains (position, maxDimExtent)` at the start of
`IndexOctreeNode::addElement` fails in the child, and `addElement` stores the
id 0 in no node, whatever the number of steps allowed. -/
theorem addElement_aborts :
    setupRoot ⟨Child.none, [], 0⟩ ⟨1, 1, 1⟩ 1 = some rootAtOne ∧
    rootAtOne.root = Child.node 0 ⟨1, 1, 1⟩ 1 0 (fun _ => Child.none) ∅ ∧
    rootAtOne.nodeOf 0 = none ∧ (0 : ℚ) < 1 / 4 ∧
    approxContainsF Float32.round ⟨1, 1, 1⟩ 1 ⟨4193465 / 8388608, 3 / 4, 3 / 4⟩ (1 / 4) = true ∧
    insertIntoChildF Float32.round 1 (1 / 4) = true ∧
    childOrMakeF Float32.round 1 ⟨1, 1, 1⟩ 1 0 (fun _ => Child.none)
        (childIndex ⟨1, 1, 1⟩ ⟨4193465 / 8388608, 3 / 4, 3 / 4⟩) =
      some (Child.node 1 ⟨3 / 4, 3 / 4, 3 / 4⟩ (1 / 2) 1 (fun _ => Child.none) ∅, 2) ∧
    approxContainsF Float32.round ⟨3 / 4, 3 / 4, 3 / 4⟩ (1 / 2)
      ⟨4193465 / 8388608, 3 / 4, 3 / 4⟩ (1 / 4) = false ∧
    ∀ fuel, addElementF Float32.round fuel rootAtOne 0 ⟨4193465 / 8388608, 3 / 4, 3 / 4⟩
      (1 / 4) = none := by
  have a1 : approxContainsF Float32.round ⟨1, 1, 1⟩ 1
      ⟨4193465 / 8388608, 3 / 4, 3 / 4⟩ (1 / 4) = true := by
    rw [approxContainsF_one]
    norm_num
  have a2 : insertIntoChildF Float32.round 1 (1 / 4) = true := by
    unfold insertIntoChildF relativeMinElementExtent
    rw [one_mul, round_quarter]
    simp
  have a3 : childIndex ⟨1, 1, 1⟩ ⟨4193465 / 8388608, 3 / 4, 3 / 4⟩ = 0 := by
    unfold childIndex
    norm_num
  have a4 : childOrMakeF Float32.round 1 ⟨1, 1, 1⟩ 1 0 (fun _ => Child.none)
      (childIndex ⟨1, 1, 1⟩ ⟨4193465 / 8388608, 3 / 4, 3 / 4⟩) =
      some (Child.node 1 ⟨3 / 4, 3 / 4, 3 / 4⟩ (1 / 2) 1 (fun _ => Child.none) ∅, 2) := by
    have c : Float32.round (1 + -(1 / 4)) = 3 / 4 := by
      rw [show (1 : ℚ) + -(1 / 4) = 3 / 4 by norm_num]
      exact round_threeQuarters
    rw [a3]
    simp only [childOrMakeF, Child.isSome, childCenterF, one_mul, round_quarter,
      Float32.round_half, c, mkNode]
    norm_num
  have a5 : approxContainsF Float32.round ⟨3 / 4, 3 / 4, 3 / 4⟩ (1 / 2)
      ⟨4193465 / 8388608, 3 / 4, 3 / 4⟩ (1 / 4) = false := by
    have lo : Float32.round (3 / 4 - 8391963 / 33554432) = 16773861 / 33554432 :=
      Float32.round_pos _ _ (-2) 16773861 (by norm_num) (by norm_num) (by norm_num)
        (by norm_num) (by norm_num) (by norm_num)
    exact approxContainsF_below Float32.round _ (1 / 2) _ _ _ _ _ _ Float32.round_epsilon
      (by rw [show (1 / 2 : ℚ) * (1 / 2) = 1 / 4 by norm_num]; exact round_quarter)
      round_halfHalf lo (by norm_num)
  refine ⟨rootAtOne_eq, rfl, rfl, by norm_num, a1, a2, a4, a5, fun fuel => ?_⟩
  exact addElementF_reject Float32.round rootAtOne 0 _ 1 0 _ ∅ 0 _ _ rfl a1
    (fun n => nodeAddElementF_child Float32.round 0 _ _ 1 0 _ 1 0 _ ∅ _ 2 a2 a4
      (fun m => nodeAddElementF_reject Float32.round m 0 _ _ 2 1 _ _ 1 _ ∅ a5) n) fuel

end DynamicOctree

namespace DynamicOctree

theorem round_two : Float32.round (1 * 2) = 2 := by
  rw [one_mul]
  exact Float32.round_pos _ _ 1 8388608 (by norm_num) (by norm_num) (by norm_num)
    (by norm_num) (by norm_num) (by norm_num)

theorem round_farShift : Float32.round (33554432 - 1 / 2) = 33554432 :=
  Float32.round_pos _ _ 24 16777216 (by norm_num) (by norm_num) (by norm_num) (by norm_num)
    (by norm_num) (by norm_num)

/-- C9 as stated fails in binary32 arithmetic. The octree after `setupRoot` with
the centre `(2 ^ 25, 2 ^ 25, 2 ^ 25)` and the width 1 has a root that does not
approx-contain the element at the origin with the extent `1/2`. `makeParent`
makes the new root with the width 2 and the depth -1, and puts the old root into
the slot 7, as the origin lies below the old centre on every axis; the centre of
the new root, `2 ^ 25 - 0.5f` on every axis, is `2 ^ 25` again in binary32,
where the numbers next to `2 ^ 25` are `2 ^ 25 - 2` and `2 ^ 25 + 4`: the
centre is not shifted, and `childIndex` of the new root assigns the slot 0 to
the old centre, not the slot 7. -/
theorem makeParent_counterexample :
    setupRoot ⟨Child.none, [], 0⟩ ⟨33554432, 33554432, 33554432⟩ 1 = some rootFar ∧
    approxContainsF Float32.round ⟨33554432, 33554432, 33554432⟩ 1 origin (1 / 2) = false ∧
    makeParentF Float32.round rootFar origin = some
      ⟨Child.node 1 ⟨33554432, 33554432, 33554432⟩ 2 (-1)
        (fun k => if k.val = 7 then rootFar.root else Child.none) ∅, [], 2⟩ ∧
    childIndex ⟨33554432, 33554432, 33554432⟩ ⟨33554432, 33554432, 33554432⟩ = 0 ∧
    ((33554432 : ℚ) - 1 * (1 / 2) ≠ 33554432) := by
  have a1 : approxContainsF Float32.round ⟨33554432, 33554432, 33554432⟩ 1 origin (1 / 2) =
      false := by
    have lo : Float32.round (33554432 - 4195143 / 8388608) = 33554432 :=
      Float32.round_pos _ _ 24 16777216 (by norm_num) (by norm_num) (by norm_num)
        (by norm_num) (by norm_num) (by norm_num)
    exact approxContainsF_below Float32.round _ 1 origin _ _ _ _ _ Float32.round_epsilon
      (by rw [one_mul]; exact Float32.round_half) round_unitHalf lo
      (by unfold origin; norm_num)
  have hc : parentCenterF Float32.round ⟨33554432, 33554432, 33554432⟩
      (Float32.round (1 * (1 / 2))) origin = ⟨33554432, 33554432, 33554432⟩ := by
    have hlt : ¬ ((33554432 : ℚ) < 0) := by norm_num
    unfold parentCenterF origin
    rw [one_mul, Float32.round_half]
    simp only [hlt, if_false, round_farShift]
  have hi : parentIndex ⟨33554432, 33554432, 33554432⟩ origin = 7 := by
    have hlt : ¬ ((33554432 : ℚ) < 0) := by norm_num
    unfold parentIndex origin
    simp only [hlt, if_false]
  refine ⟨rootFar_eq, a1, ?_, ?_, by norm_num⟩
  · rw [makeParentF_shape Float32.round rootFar 0 _ 1 0 _ ∅ origin rfl
      (by rw [round_two]; norm_num), hc, hi, round_two]
    rfl
  · unfold childIndex
    norm_num

end DynamicOctree

namespace DynamicOctree

theorem approxContainsF_tenth (p : Vec3) (e : ℚ) :
    approxContainsF Float32.round ⟨13421773 / 134217728, 13421773 / 134217728,
      13421773 / 134217728⟩ 1 p e =
      ((decide (-13425129 / 33554432 ≤ p.x) && decide (-13425129 / 33554432 ≤ p.y)
          && decide (-13425129 / 33554432 ≤ p.z))
        && (decide (p.x ≤ 1258501 / 2097152) && decide (p.y ≤ 1258501 / 2097152)
          && decide (p.z ≤ 1258501 / 2097152))
        && decide (e ≤ 1)) := by
  have lo : Float32.round (13421773 / 134217728 - 4195143 / 8388608) =
      -13425129 / 33554432 :=
    Float32.round_neg _ _ (-2) (-13425129) (by norm_num) (by norm_num) (by norm_num)
      (by norm_num) (by norm_num) (by norm_num)
  have hi : Float32.round (13421773 / 134217728 + 4195143 / 8388608) =
      1258501 / 2097152 :=
    Float32.round_pos _ _ (-1) 10068008 (by norm_num) (by norm_num) (by norm_num)
      (by norm_num) (by norm_num) (by norm_num)
  exact approxContainsF_eval Float32.round _ 1 p e _ _ _ _ _ _ _ _ _ Float32.round_epsilon
    (by rw [one_mul]; exact Float32.round_half) round_unitHalf lo lo lo hi hi hi

theorem approxContainsF_tenthChild (p : Vec3) (e : ℚ) :
    approxContainsF Float32.round ⟨11744051 / 33554432, 11744051 / 33554432,
      11744051 / 33554432⟩ (1 / 2) p e =
      ((decide (419011 / 4194304 ≤ p.x) && decide (419011 / 4194304 ≤ p.y)
          && decide (419011 / 4194304 ≤ p.z))
        && (decide (p.x ≤ 10068007 / 16777216) && decide (p.y ≤ 10068007 / 16777216)
          && decide (p.z ≤ 10068007 / 16777216))
        && decide (e ≤ 1 / 2)) := by
  have lo : Float32.round (11744051 / 33554432 - 8391963 / 33554432) = 419011 / 4194304 :=
    Float32.round_pos _ _ (-4) 13408352 (by norm_num) (by norm_num) (by norm_num)
      (by norm_num) (by norm_num) (by norm_num)
  have hi : Float32.round (11744051 / 33554432 + 8391963 / 33554432) =
      10068007 / 16777216 :=
    Float32.round_pos _ _ (-1) 10068007 (by norm_num) (by norm_num) (by norm_num)
      (by norm_num) (by norm_num) (by norm_num)
  exact approxContainsF_eval Float32.round _ (1 / 2) p e _ _ _ _ _ _ _ _ _
    Float32.round_epsilon
    (by rw [show (1 / 2 : ℚ) * (1 / 2) = 1 / 4 by norm_num]; exact round_quarter)
    round_halfHalf lo lo lo hi hi hi

/-- In binary32 arithmetic the octree `rootAtTenth` takes the element 0 at
`(1/4, 1/4, 1/4)` with the extent `1/4` into a new child in the slot 7. -/
theorem rootAtTenth_addElementF :
    addElementF Float32.round 2 rootAtTenth 0 ⟨1 / 4, 1 / 4, 1 / 4⟩ (1 / 4) =
      some tenthNested := by
  have a1 : approxContainsF Float32.round ⟨13421773 / 134217728, 13421773 / 134217728,
      13421773 / 134217728⟩ 1 ⟨1 / 4, 1 / 4, 1 / 4⟩ (1 / 4) = true := by
    rw [approxContainsF_tenth]
    norm_num
  have a2 : insertIntoChildF Float32.round 1 (1 / 4) = true := by
    unfold insertIntoChildF relativeMinElementExtent
    rw [one_mul, round_quarter]
    simp
  have a3 : childIndex ⟨13421773 / 134217728, 13421773 / 134217728, 13421773 / 134217728⟩
      ⟨1 / 4, 1 / 4, 1 / 4⟩ = 7 := by
    unfold childIndex
    norm_num
  have a4 : childOrMakeF Float32.round 1
      ⟨13421773 / 134217728, 13421773 / 134217728, 13421773 / 134217728⟩ 1 0
      (fun _ => Child.none) 7 =
      some (Child.node 1 ⟨11744051 / 33554432, 11744051 / 33554432, 11744051 / 33554432⟩
        (1 / 2) 1 (fun _ => Child.none) ∅, 2) := by
    have c : Float32.round (13421773 / 134217728 + 1 / 4) = 11744051 / 33554432 :=
      Float32.round_pos _ _ (-2) 11744051 (by norm_num) (by norm_num) (by norm_num)
        (by norm_num) (by norm_num) (by norm_num)
    simp only [childOrMakeF, Child.isSome, childCenterF, one_mul, round_quarter,
      Float32.round_half, c, mkNode]
    norm_num
  have a5 : approxContainsF Float32.round ⟨11744051 / 33554432, 11744051 / 33554432,
      11744051 / 33554432⟩ (1 / 2) ⟨1 / 4, 1 / 4, 1 / 4⟩ (1 / 4) = true := by
    rw [approxContainsF_tenthChild]
    norm_num
  have a6 : insertIntoChildF Float32.round (1 / 2) (1 / 4) = false := by
    have c : Float32.round (1 / 2 * (1 / 4)) = 1 / 8 :=
      Float32.round_pos _ _ (-3) 8388608 (by norm_num) (by norm_num) (by norm_num)
        (by norm_num) (by norm_num) (by norm_num)
    unfold insertIntoChildF relativeMinElementExtent
    rw [c]
    norm_num
  have a7 := nodeAddElementF_store Float32.round 0 0 ⟨1 / 4, 1 / 4, 1 / 4⟩ (1 / 4) 2 1
    _ _ 1 (fun _ => Child.none) ∅ a5 a6
  have a8 := nodeAddElementF_descend Float32.round 1 0 ⟨1 / 4, 1 / 4, 1 / 4⟩ (1 / 4) 1 0
    _ 1 0 (fun _ => Child.none) ∅ _ _ 2 1 2 a1 a2 (by rw [a3]; exact a4) a7
  rw [addElementF_unfold_insert Float32.round 1 rootAtTenth 0 _ 1 0 (fun _ => Child.none) ∅
    0 _ _ rfl a1]
  have hr : rootAtTenth.root = Child.node 0
      ⟨13421773 / 134217728, 13421773 / 134217728, 13421773 / 134217728⟩ 1 0
      (fun _ => Child.none) ∅ := rfl
  have hn : rootAtTenth.heapNext = 1 := rfl
  have he : rootAtTenth.elementNodeMap = [] := rfl
  rw [hr, hn, he, a8, a3, insert_emptyc_eq]
  rfl

end DynamicOctree

namespace DynamicOctree

/-- In binary32 arithmetic the root of `rootFar` does not approx-contain an
element at the origin: its lower bound is `2 ^ 25`. -/
theorem approxContainsF_far (e : ℚ) :
    approxContainsF Float32.round ⟨33554432, 33554432, 33554432⟩ 1 origin e = false := by
  have lo : Float32.round (33554432 - 4195143 / 8388608) = 33554432 :=
    Float32.round_pos _ _ 24 16777216 (by norm_num) (by norm_num) (by norm_num)
      (by norm_num) (by norm_num) (by norm_num)
  exact approxContainsF_below Float32.round _ 1 origin _ _ _ _ _ Float32.round_epsilon
    (by rw [one_mul]; exact Float32.round_half) round_unitHalf lo
    (by unfold origin; norm_num)

theorem rootFar_reachableF (R : ℚ → ℚ) : ReachableF R rootFar :=
  ReachableWithF.setupRoot 0 _ 1 rootFar rootFar_eq

/-- C9, amended. Root growth in the float arithmetic `R` (every operation of the
code followed by the rounding `R`): when the root (centre `c`, width `w`, depth
`d`) of a reachable octree does not approx-contain the element, `makeParent`
returns, if the doubled width `R (w * 2)` is positive as the constructor of the
node asserts, the octree whose root is a new node of that width and of depth
`d - 1`, without indices, whose centre is `c` plus (where `c < position`) or
minus the half width `R (w * 1/2)`, as rounded, on each axis, and whose only
child is the old root, in the slot `4 [not c.x < position.x] +
2 [not c.y < position.y] + [not c.z < position.z]`; `addElement` continues on
that octree; whenever `addElement` returns, the root approx-contains the element
and every other id is registered in the node it was in. In exact arithmetic
(`R x = x`) the centre is `c ± w/2`, the width `2 w`, the slot of the old root
is the one `childIndex` of the new root gives to `c`, and `addElement` does
return when `maxDimExtent > 0` and the id is not registered. -/
theorem addElement_grows (R : ℚ → ℚ) (o : DynamicOctree) (a : Nat) (c : Vec3) (w : ℚ)
    (d : Int) (ch : Fin 8 → Child) (idx : Finset Nat) (index : Nat) (position : Vec3) (e : ℚ)
    (hreach : ReachableF R o) (hroot : o.root = Child.node a c w d ch idx)
    (hnot : approxContainsF R c w position e = false) :
    (0 < R (w * 2) → ∃ o2, makeParentF R o position = some o2 ∧
      o2.root = Child.node o.heapNext
        ⟨if c.x < position.x then R (c.x + R (w * (1 / 2))) else R (c.x - R (w * (1 / 2))),
          if c.y < position.y then R (c.y + R (w * (1 / 2))) else R (c.y - R (w * (1 / 2))),
          if c.z < position.z then R (c.z + R (w * (1 / 2))) else R (c.z - R (w * (1 / 2)))⟩
        (R (w * 2)) (d - 1)
        (fun k => if k.val = (if c.x < position.x then 0 else 4) +
            (if c.y < position.y then 0 else 2) + (if c.z < position.z then 0 else 1)
          then o.root else Child.none) ∅ ∧
      o2.elementNodeMap = o.elementNodeMap ∧
      ∀ fuel, addElementF R (fuel + 1) o index position e =
        addElementF R fuel o2 index position e) ∧
    (∀ fuel o1, addElementF R fuel o index position e = some o1 →
      approxContainsF R o1.root.center o1.root.width position e = true ∧
      ∀ id, id ≠ index →
        o1.nodeOf id = o.nodeOf id ∧ ∀ b, holdsAt id b o1.root = holdsAt id b o.root) ∧
    ((∀ x, R x = x) →
      (∃ o2, makeParentF R o position = some o2 ∧
        o2.root = Child.node o.heapNext
          ⟨if c.x < position.x then c.x + w * (1 / 2) else c.x - w * (1 / 2),
            if c.y < position.y then c.y + w * (1 / 2) else c.y - w * (1 / 2),
            if c.z < position.z then c.z + w * (1 / 2) else c.z - w * (1 / 2)⟩
          (w * 2) (d - 1)
          (fun k => if k = childIndex o2.root.center c then o.root else Child.none) ∅) ∧
      (0 < e → o.nodeOf index = none →
        ∃ fuel o1, addElementF R fuel o index position e = some o1)) := by
  have hg := reachableF_geom R _ o hreach
  have hr := reachableF_registration R o hreach
  have hw : 0 < w := by
    rw [hroot, geomF_node] at hg
    exact hg.1
  refine ⟨?_, ?_, ?_⟩
  · intro hw2
    have hs := makeParentF_shape R o a c w d ch idx position hroot hw2
    refine ⟨_, hs, rfl, rfl, fun fuel => ?_⟩
    rw [addElementF_unfold_grow R fuel o a c w d ch idx index position e hroot hnot, hs]
    rfl
  · intro fuel o1 h
    obtain ⟨r1, _, _, r4, _⟩ := addElementF_registration R fuel o o1 index position e h hr
    refine ⟨addElementF_root_contains R fuel o o1 index position e h,
      fun id hid => ⟨r4 id hid, ?_⟩⟩
    exact registration_holdsAt_eq o o1 hr r1 id (r4 id hid)
  · intro hR
    obtain rfl := exact_eq_id R hR
    rw [makeParentF_exact, addElementF_exact]
    refine ⟨⟨_, makeParent_shape o a c w d ch idx position hroot hw, rfl⟩, fun he hn => ?_⟩
    exact addElement_total o index position e (reachable_geom _ o (reachableF_exact o hreach))
      (by rw [hroot]; rfl) he hn

/-- C9, amended, in binary32 arithmetic at the octree with a root of width 1 and
the centre `(2 ^ 25, 2 ^ 25, 2 ^ 25)` and an element at the origin, and in exact
arithmetic at the octree with an empty root of width 1 at the origin and an
element at `(3, 0, 0)`. -/
theorem addElement_grows_witness :
    ReachableF Float32.round rootFar ∧
    rootFar.root = Child.node 0 ⟨33554432, 33554432, 33554432⟩ 1 0 (fun _ => Child.none) ∅ ∧
    approxContainsF Float32.round ⟨33554432, 33554432, 33554432⟩ 1 origin (1 / 2) = false ∧
    ((0 < Float32.round (1 * 2) → ∃ o2, makeParentF Float32.round rootFar origin = some o2 ∧
      o2.root = Child.node rootFar.heapNext
        ⟨if (33554432 : ℚ) < origin.x then Float32.round (33554432 + Float32.round (1 * (1 / 2)))
            else Float32.round (33554432 - Float32.round (1 * (1 / 2))),
          if (33554432 : ℚ) < origin.y
            then Float32.round (33554432 + Float32.round (1 * (1 / 2)))
            else Float32.round (33554432 - Float32.round (1 * (1 / 2))),
          if (33554432 : ℚ) < origin.z
            then Float32.round (33554432 + Float32.round (1 * (1 / 2)))
            else Float32.round (33554432 - Float32.round (1 * (1 / 2)))⟩
        (Float32.round (1 * 2)) (0 - 1)
        (fun k => if k.val = (if (33554432 : ℚ) < origin.x then 0 else 4) +
            (if (33554432 : ℚ) < origin.y then 0 else 2) +
            (if (33554432 : ℚ) < origin.z then 0 else 1)
          then rootFar.root else Child.none) ∅ ∧
      o2.elementNodeMap = rootFar.elementNodeMap ∧
      ∀ fuel, addElementF Float32.round (fuel + 1) rootFar 0 origin (1 / 2) =
        addElementF Float32.round fuel o2 0 origin (1 / 2)) ∧
    (∀ fuel o1, addElementF Float32.round fuel rootFar 0 origin (1 / 2) = some o1 →
      approxContainsF Float32.round o1.root.center o1.root.width origin (1 / 2) = true ∧
      ∀ id, id ≠ 0 →
        o1.nodeOf id = rootFar.nodeOf id ∧
          ∀ b, holdsAt id b o1.root = holdsAt id b rootFar.root) ∧
    ((∀ x, Float32.round x = x) →
      (∃ o2, makeParentF Float32.round rootFar origin = some o2 ∧
        o2.root = Child.node rootFar.heapNext
          ⟨if (33554432 : ℚ) < origin.x then 33554432 + 1 * (1 / 2)
              else 33554432 - 1 * (1 / 2),
            if (33554432 : ℚ) < origin.y then 33554432 + 1 * (1 / 2)
              else 33554432 - 1 * (1 / 2),
            if (33554432 : ℚ) < origin.z then 33554432 + 1 * (1 / 2)
              else 33554432 - 1 * (1 / 2)⟩
          (1 * 2) (0 - 1)
          (fun k => if k = childIndex o2.root.center ⟨33554432, 33554432, 33554432⟩
            then rootFar.root else Child.none) ∅) ∧
      ((0 : ℚ) < 1 / 2 → rootFar.nodeOf 0 = none →
        ∃ fuel o1, addElementF Float32.round fuel rootFar 0 origin (1 / 2) = some o1))) ∧
    ReachableF id trace0 ∧
    approxContainsF id origin 1 ⟨3, 0, 0⟩ (1 / 2) = false ∧
    ((∃ o2, makeParentF id trace0 ⟨3, 0, 0⟩ = some o2 ∧
      o2.root = Child.node trace0.heapNext
        ⟨if origin.x < (3 : ℚ) then origin.x + 1 * (1 / 2) else origin.x - 1 * (1 / 2),
          if origin.y < (0 : ℚ) then origin.y + 1 * (1 / 2) else origin.y - 1 * (1 / 2),
          if origin.z < (0 : ℚ) then origin.z + 1 * (1 / 2) else origin.z - 1 * (1 / 2)⟩
        (1 * 2) (0 - 1)
        (fun k => if k = childIndex o2.root.center origin then trace0.root else Child.none) ∅) ∧
    ((0 : ℚ) < 1 / 2 → trace0.nodeOf 5 = none →
      ∃ fuel o1, addElementF id fuel trace0 5 ⟨3, 0, 0⟩ (1 / 2) = some o1)) :=
  have hnot : approxContainsF id origin 1 ⟨3, 0, 0⟩ (1 / 2) = false := by
    simp [approxContainsF, epsilonF, origin]
    norm_num
  ⟨rootFar_reachableF _, rfl, approxContainsF_far _,
    addElement_grows Float32.round rootFar 0 ⟨33554432, 33554432, 33554432⟩ 1 0
      (fun _ => Child.none) ∅ 0 origin (1 / 2) (rootFar_reachableF _) rfl
      (approxContainsF_far _),
    reachable_exactF trace0 (trace0_reachable _), hnot,
    (addElement_grows id trace0 0 origin 1 0 (fun _ => Child.none) ∅ 5 ⟨3, 0, 0⟩ (1 / 2)
      (reachable_exactF trace0 (trace0_reachable _)) rfl hnot).2.2 (fun _ => rfl)⟩

end DynamicOctree

namespace Octree

theorem childCenterF_signs (R : ℚ → ℚ) (c : Vec3) (q : ℚ) (k : Fin 8) :
    childCenterF R c q k =
      ⟨R (c.x + (if 4 ≤ k.val then q else -q)), R (c.y + (if 2 ≤ k.val % 4 then q else -q)),
        R (c.z + (if k.val % 2 = 1 then q else -q))⟩ := by
  fin_cases k <;> simp [childCenterF]

end Octree

namespace DynamicOctree

theorem tenthNested_reachableF : ReachableF Float32.round tenthNested :=
  ReachableWithF.step rootAtTenth tenthNested
    (ReachableWithF.setupRoot 0 _ 1 rootAtTenth rootAtTenth_eq)
    (StepF.addElement _ _ _ _ _ _ rootAtTenth_addElementF)

/-- C37 as stated fails in binary32 arithmetic. The octree after `setupRoot` with
the centre `(0.1f, 0.1f, 0.1f)`, where `0.1f = 13421773 / 134217728`, and the
width 1 takes the element 0 at `(1/4, 1/4, 1/4)` with the extent `1/4` into a new
child in the slot 7. The child has the width `1/2` and the depth 1, but its
centre is `11744051 / 33554432` on every axis, the binary32 value of
`0.1f + 0.25f`, and not the centre `0.1f + 1/4 = 46976205 / 134217728` of the
root displaced by a quarter of its width. -/
theorem child_geometry_counterexample :
    setupRoot ⟨Child.none, [], 0⟩
      ⟨13421773 / 134217728, 13421773 / 134217728, 13421773 / 134217728⟩ 1 =
      some rootAtTenth ∧
    addElementF Float32.round 2 rootAtTenth 0 ⟨1 / 4, 1 / 4, 1 / 4⟩ (1 / 4) =
      some tenthNested ∧
    ReachableF Float32.round tenthNested ∧
    ∃ ch, find 0 tenthNested.root = Child.node 0
        ⟨13421773 / 134217728, 13421773 / 134217728, 13421773 / 134217728⟩ 1 0 ch ∅ ∧
      (ch 7).isSome = true ∧ (ch 7).width = 1 * (1 / 2) ∧ (ch 7).depth = 0 + 1 ∧
      (ch 7).center = ⟨11744051 / 33554432, 11744051 / 33554432, 11744051 / 33554432⟩ ∧
      (ch 7).center ≠
        ⟨13421773 / 134217728 + (if 4 ≤ (7 : Fin 8).val then 1 * (1 / 4) else -(1 * (1 / 4))),
          13421773 / 134217728 +
            (if 2 ≤ (7 : Fin 8).val % 4 then 1 * (1 / 4) else -(1 * (1 / 4))),
          13421773 / 134217728 +
            (if (7 : Fin 8).val % 2 = 1 then 1 * (1 / 4) else -(1 * (1 / 4)))⟩ := by
  refine ⟨rootAtTenth_eq, rootAtTenth_addElementF, tenthNested_reachableF, _, rfl, ?_⟩
  rw [Function.update_same]
  refine ⟨rfl, ?_, rfl, rfl, ?_⟩
  · show (1 / 2 : ℚ) = 1 * (1 / 2)
    norm_num
  · show (⟨11744051 / 33554432, 11744051 / 33554432, 11744051 / 33554432⟩ : Vec3) ≠ _
    intro h
    have hx := congrArg Vec3.x h
    have h7 : (4 : Nat) ≤ ((7 : Fin 8) : Nat) := by decide
    simp only [h7, if_true] at hx
    norm_num at hx

/-- C37, amended. In every octree state reachable in the float arithmetic `R`
(every operation of the code followed by the rounding `R`) every width is
positive and the child in slot `k` of a node has depth one greater; and either
the child has the width and the centre that `insertIntoChild` computes from the
node, half the width of the node and the centre of the node displaced by a
quarter of the width of the node along each axis, in the positive direction of
`x` when `k` contains 4, of `y` when it contains 2 and of `z` when it contains
1, each operation rounded, or the node has the width and the centre that
`makeParent` computes from the child, twice the width of the child and the
centre of the child displaced by half the width of the child in the opposite
directions, each operation rounded. In exact arithmetic (`R x = x`) the child
has half the width of the node and the centre of the node displaced by a
quarter of the width of the node with the signs of `k`. The octree after
`makeParent`, after `shrinkRoot` and after `addElement`, which makes the
children of the descent, has this geometry again. -/
theorem child_geometry (R : ℚ → ℚ) (o : DynamicOctree) (h : ReachableF R o) :
    (∀ a b c w d ch idx, find a o.root = Child.node b c w d ch idx →
      0 < w ∧ ∀ k : Fin 8, (ch k).isSome = true →
        (ch k).depth = d + 1 ∧
        (((ch k).width = R (w * (1 / 2)) ∧
          (ch k).center =
            ⟨R (c.x + (if 4 ≤ k.val then R (w * (1 / 4)) else -R (w * (1 / 4)))),
              R (c.y + (if 2 ≤ k.val % 4 then R (w * (1 / 4)) else -R (w * (1 / 4)))),
              R (c.z + (if k.val % 2 = 1 then R (w * (1 / 4)) else -R (w * (1 / 4))))⟩) ∨
         (w = R ((ch k).width * 2) ∧
          c = ⟨if 4 ≤ k.val then R ((ch k).center.x - R ((ch k).width * (1 / 2)))
                else R ((ch k).center.x + R ((ch k).width * (1 / 2))),
              if 2 ≤ k.val % 4 then R ((ch k).center.y - R ((ch k).width * (1 / 2)))
                else R ((ch k).center.y + R ((ch k).width * (1 / 2))),
              if k.val % 2 = 1 then R ((ch k).center.z - R ((ch k).width * (1 / 2)))
                else R ((ch k).center.z + R ((ch k).width * (1 / 2)))⟩)) ∧
        ((∀ x, R x = x) →
          (ch k).width = w * (1 / 2) ∧
          (ch k).center =
            ⟨c.x + (if 4 ≤ k.val then w * (1 / 4) else -(w * (1 / 4))),
              c.y + (if 2 ≤ k.val % 4 then w * (1 / 4) else -(w * (1 / 4))),
              c.z + (if k.val % 2 = 1 then w * (1 / 4) else -(w * (1 / 4)))⟩)) ∧
    (∀ p o1, makeParentF R o p = some o1 → GeomF R o1.root) ∧
    GeomF R (shrinkRoot o).root ∧
    (∀ fuel index p e o1, addElementF R fuel o index p e = some o1 → GeomF R o1.root) := by
  have hg := reachableF_geom R _ o h
  have hu := (reachableF_registration R o h).1
  refine ⟨?_, fun p o1 hm => makeParentF_geom R o o1 p hm hg, shrinkRootNode_geomF R _ hg,
    fun fuel index p e o1 ha => addElementF_geom R fuel o o1 index p e ha hg⟩
  intro a b c w d ch idx hf
  have hgf := geomF_find R a o.root hu hg
  rw [hf, geomF_node] at hgf
  refine ⟨hgf.1, fun k hk => ?_⟩
  obtain ⟨e1, e2⟩ := (hgf.2 k).2 hk
  refine ⟨e1, ?_, fun hR => ?_⟩
  · rcases e2 with ⟨e3, e4⟩ | ⟨e3, e4⟩
    · left
      rw [childCenterF_signs] at e4
      exact ⟨e3, e4⟩
    · right
      exact ⟨e3, e4⟩
  · obtain rfl := exact_eq_id R hR
    obtain ⟨e3, e4⟩ := linkF_exact c w k _ _ e2
    rw [childCenter_signs] at e4
    exact ⟨e3, e4⟩

/-- C37, amended, in binary32 arithmetic at the octree `tenthNested`, whose root
has a child in slot 7, and in exact arithmetic at the octree `nested`. -/
theorem child_geometry_witness :
    ReachableF Float32.round tenthNested ∧
    ((∀ a b c w d ch idx, find a tenthNested.root = Child.node b c w d ch idx →
      0 < w ∧ ∀ k : Fin 8, (ch k).isSome = true →
        (ch k).depth = d + 1 ∧
        (((ch k).width = Float32.round (w * (1 / 2)) ∧
          (ch k).center =
            ⟨Float32.round (c.x + (if 4 ≤ k.val then Float32.round (w * (1 / 4)) else -Float32.round (w * (1 / 4)))),
              Float32.round (c.y + (if 2 ≤ k.val % 4 then Float32.round (w * (1 / 4)) else -Float32.round (w * (1 / 4)))),
              Float32.round (c.z + (if k.val % 2 = 1 then Float32.round (w * (1 / 4)) else -Float32.round (w * (1 / 4))))⟩) ∨
         (w = Float32.round ((ch k).width * 2) ∧
          c = ⟨if 4 ≤ k.val then Float32.round ((ch k).center.x - Float32.round ((ch k).width * (1 / 2)))
                else Float32.round ((ch k).center.x + Float32.round ((ch k).width * (1 / 2))),
              if 2 ≤ k.val % 4 then Float32.round ((ch k).center.y - Float32.round ((ch k).width * (1 / 2)))
                else Float32.round ((ch k).center.y + Float32.round ((ch k).width * (1 / 2))),
              if k.val % 2 = 1 then Float32.round ((ch k).center.z - Float32.round ((ch k).width * (1 / 2)))
                else Float32.round ((ch k).center.z + Float32.round ((ch k).width * (1 / 2)))⟩)) ∧
        ((∀ x, Float32.round x = x) →
          (ch k).width = w * (1 / 2) ∧
          (ch k).center =
            ⟨c.x + (if 4 ≤ k.val then w * (1 / 4) else -(w * (1 / 4))),
              c.y + (if 2 ≤ k.val % 4 then w * (1 / 4) else -(w * (1 / 4))),
              c.z + (if k.val % 2 = 1 then w * (1 / 4) else -(w * (1 / 4)))⟩)) ∧
    (∀ p o1, makeParentF Float32.round tenthNested p = some o1 → GeomF Float32.round o1.root) ∧
    GeomF Float32.round (shrinkRoot tenthNested).root ∧
    (∀ fuel index p e o1, addElementF Float32.round fuel tenthNested index p e = some o1 → GeomF Float32.round o1.root)) ∧
    ReachableF id nested ∧
    ∀ a b c w d ch idx, find a nested.root = Child.node b c w d ch idx →
      ∀ k : Fin 8, (ch k).isSome = true →
        (ch k).width = w * (1 / 2) ∧
        (ch k).center =
          ⟨c.x + (if 4 ≤ k.val then w * (1 / 4) else -(w * (1 / 4))),
            c.y + (if 2 ≤ k.val % 4 then w * (1 / 4) else -(w * (1 / 4))),
            c.z + (if k.val % 2 = 1 then w * (1 / 4) else -(w * (1 / 4)))⟩ :=
  ⟨tenthNested_reachableF, child_geometry Float32.round tenthNested tenthNested_reachableF,
    reachable_exactF nested (nested_reachable _),
    fun a b c w d ch idx hf k hk =>
      ((((child_geometry id nested (reachable_exactF nested (nested_reachable _))).1
        a b c w d ch idx hf).2 k hk).2.2) (fun _ => rfl)⟩

end DynamicOctree

namespace PrimTriangle

theorem centerF_exact : centerF id = center := rfl

theorem maxDimExtentF_exact : maxDimExtentF id = maxDimExtent := rfl

end PrimTriangle

namespace DynamicMesh

theorem addFaceF_frame (R : ℚ → ℚ) (fuel : Nat) (s s1 : DynamicMesh) (i1 i2 i3 f : Nat)
    (h : addFaceF R fuel s i1 i2 i3 = some (s1, f)) (hs : Sizes s) (hf : FreeLists s) :
    (∃ c e, s.octree.addElementF R fuel f c e = some s1.octree) ∧
      s1.freeVertexIndices = s.freeVertexIndices ∧ s1.mesh.vertices = s.mesh.vertices ∧
      s1.mesh.normals = s.mesh.normals ∧ Sizes s1 ∧ s.liveFace f = false ∧
      (∀ g, s1.liveFace g = if g = f then true else s.liveFace g) ∧
      s1.triple f = [i1, i2, i3] ∧ (∀ g, g ≠ f → s1.triple g = s.triple g) ∧
      (∀ v, s1.liveVertex v = s.liveVertex v) ∧
      (∀ v g, (s1.adjacent v).count g =
        (s.adjacent v).count g + (if g = f then [i1, i2, i3].count v else 0)) ∧
      s1.freeFaceIndices.Nodup ∧
      (∀ j, j ∈ s1.freeFaceIndices ↔ (j ∈ s.freeFaceIndices ∧ j ≠ f)) ∧
      s.faceData.length ≤ s1.faceData.length ∧
      (∀ j, j < s1.faceData.length → j ≠ f → j < s.faceData.length) ∧
      s1.vertexData.length = s.vertexData.length ∧ f < s1.faceData.length ∧
      (s.freeFaceIndices = [] → f = s.faceData.length) ∧
      (s.freeFaceIndices ≠ [] → s.freeFaceIndices.getLast? = some f ∧
        s1.faceData.length = s.faceData.length) := by
  unfold addFaceF at h
  split at h
  · split at h
    · simp at h
    · rename_i s0 index hslot
      obtain ⟨p1, p2, p3, p4, p5, p6, p7, p8, p9, p10, p11, p12, p13, p14, p15, p16, p17, p18,
        p19⟩ := addFaceSlot_spec s s0 i1 i2 i3 index hslot hs hf
      split at h
      · split at h
        · simp at h
        · rename_i vd hvd
          obtain ⟨q1, q2, q3, q4, q5, q6⟩ := addAdjacent_spec _ _ _ _ _ _ hvd
          simp only [Option.map_eq_some', Prod.mk.injEq] at h
          obtain ⟨s2, hs2, rfl, rfl⟩ := h
          unfold addFaceToOctreeF at hs2
          split at hs2
          · rename_i v1 v2 v3 _
            simp only [Option.map_eq_some'] at hs2
            obtain ⟨o, ho, rfl⟩ := hs2
            rw [show ({ s0 with faceData := s0.faceData.set index ⟨false⟩, vertexData := vd } :
              DynamicMesh).octree = s.octree from p4] at ho
            obtain ⟨z1, z2, z3, z4, z5⟩ := hs
            refine ⟨⟨_, _, ho⟩, p3, p5, p6, ?_, p9, ?_, ?_, ?_, ?_, ?_, p14, p15, ?_, ?_, ?_, ?_,
              p18, ?_⟩
            · refine ⟨?_, ?_, ?_, ?_, ?_⟩
              · simp only; rw [p5, q1, p1]; exact z1
              · simp only; rw [p6, q1, p1]; exact z2
              · simp only; rw [p2, q1, p1]; exact z3
              · simp only [List.length_set]; exact p10
              · simp only [List.length_set]; exact p11
            · intro g
              simp only [liveFace]
              by_cases hg : g = index
              · subst hg
                rw [List.getElem?_set_self p7]; simp
              · rw [List.getElem?_set_ne (Ne.symm hg), if_neg hg, p8 g hg]
            · simpa [triple] using p12
            · intro g hg
              have := p13 g hg
              simpa [triple] using this
            · intro v
              simp only [liveVertex]
              rw [q5 v, p1]
            · intro v g
              simp only [adjacent]
              rw [q6 v g, p1]
            · simpa using p16
            · intro j hj hne
              exact p17 j (by simpa using hj) hne
            · show vd.length = s.vertexData.length
              rw [q1, p1]
            · simpa using p7
            · intro hne
              obtain ⟨g1, g2⟩ := p19 hne
              exact ⟨g1, by simpa using g2⟩
          · simp at hs2
      · contradiction
  · simp at h

theorem addFaceF_inv (R : ℚ → ℚ) (fuel : Nat) (s s1 : DynamicMesh) (i1 i2 i3 f : Nat)
    (h : addFaceF R fuel s i1 i2 i3 = some (s1, f))
    (hlive : s.liveVertex i1 = true ∧ s.liveVertex i2 = true ∧ s.liveVertex i3 = true)
    (hinv : MeshInv s) : MeshInv s1 := by
  obtain ⟨hs, hf, ⟨a1, a2⟩, ⟨c1, c2⟩⟩ := hinv
  obtain ⟨⟨c, e, ho⟩, e1, _, _, e4, e5, e6, e7, e8, e9, e10, e11, e12, e13, e14, e15, e16, _, _⟩ :=
    addFaceF_frame R fuel s s1 i1 i2 i3 f h hs hf
  obtain ⟨f1, f2, f3, f4⟩ := hf
  obtain ⟨r1, r2, r3, r4, _⟩ := DynamicOctree.addElementF_registration R fuel _ _ f c e ho c1
  refine ⟨e4, ⟨?_, ?_, e11, ?_⟩, ⟨?_, ?_⟩, ⟨r1, ?_⟩⟩
  · rw [e1]; exact f1
  · intro j
    rw [e1, f2 j, e9 j, e15]
  · intro j
    rw [e12 j, f4 j, e6 j]
    by_cases hj : j = f
    · subst hj; simp
    · simp only [hj, if_false, ne_eq, not_false_eq_true, and_true]
      constructor
      · rintro ⟨h1, h2⟩; exact ⟨by omega, h2⟩
      · rintro ⟨h1, h2⟩; exact ⟨e14 j h1 hj, h2⟩
  · intro g hg a ha
    rw [e9]
    rw [e6] at hg
    by_cases hgf : g = f
    · subst hgf
      rw [e7] at ha
      simp only [List.mem_cons, List.mem_singleton, List.not_mem_nil, or_false] at ha
      rcases ha with rfl | rfl | rfl
      · exact hlive.1
      · exact hlive.2.1
      · exact hlive.2.2
    · rw [if_neg hgf] at hg
      rw [e8 g hgf] at ha
      exact a1 g hg a ha
  · intro v g
    rw [e10 v g, e6 g, a2 v g]
    by_cases hgf : g = f
    · subst hgf
      rw [e5, e7]
      simp
    · rw [if_neg hgf, if_neg hgf, e8 g hgf]
      simp
  · intro g
    rw [e6 g]
    by_cases hgf : g = f
    · subst hgf
      obtain ⟨a, ha⟩ := r3
      rw [ha]; simp
    · rw [if_neg hgf, r4 g hgf]
      exact c2 g

theorem setupOctreeRootF_reset_inv (R : ℚ → ℚ) (s s1 : DynamicMesh) (mesh : Mesh)
    (h : setupOctreeRootF R (reset s) mesh = some s1) :
    MeshInv s1 ∧ s1.freeVertexIndices = [] := by
  unfold setupOctreeRootF at h
  split at h
  · split at h
    · rename_i minVertex maxVertex _
      simp only [Option.map_eq_some'] at h
      obtain ⟨o, ho, rfl⟩ := h
      have hreg := DynamicOctree.setupRoot_registration s.octree.heapNext _ _ o ho
      have hmap : o.elementNodeMap = [] := by
        unfold DynamicOctree.setupRoot at ho
        split at ho
        · simp at ho
        · simp only [Option.map_eq_some'] at ho
          obtain ⟨r, _, rfl⟩ := ho
          rfl
      refine ⟨⟨⟨rfl, rfl, rfl, rfl, rfl⟩, ⟨List.nodup_nil, ?_, List.nodup_nil, ?_⟩, ⟨?_, ?_⟩,
        ⟨hreg, ?_⟩⟩, rfl⟩
      · intro i; simp [reset]
      · intro i; simp [reset]
      · intro f hf; simp [liveFace, reset] at hf
      · intro v f; simp [adjacent, VertexData.adjacentIn, liveFace, reset]
      · intro f
        simp [DynamicOctree.nodeOf, hmap, liveFace, reset]
    · simp at h
  · simp at h

theorem addFaceF_lt (R : ℚ → ℚ) (fuel : Nat) (s : DynamicMesh) (i1 i2 i3 : Nat) (r : DynamicMesh × Nat)
    (h : addFaceF R fuel s i1 i2 i3 = some r) :
    i1 < s.mesh.vertices.length ∧ i2 < s.mesh.vertices.length ∧ i3 < s.mesh.vertices.length := by
  unfold addFaceF at h
  split at h
  · rename_i hc
    exact ⟨hc.1, hc.2.1, hc.2.2.1⟩
  · simp at h

theorem addFacesF_inv (R : ℚ → ℚ) (fuel : Nat) : ∀ (is : List Nat) (s s1 : DynamicMesh),
    addFacesF R fuel is s = some s1 → MeshInv s → s.freeVertexIndices = [] →
    MeshInv s1 ∧ s1.freeVertexIndices = []
  | [], s, s1, h, hinv, h0 => by
    simp only [addFacesF, Option.some.injEq] at h
    subst h; exact ⟨hinv, h0⟩
  | [_], s, s1, h, _, _ => by simp [addFacesF] at h
  | [_, _], s, s1, h, _, _ => by simp [addFacesF] at h
  | i1 :: i2 :: i3 :: rest, s, s1, h, hinv, h0 => by
    simp only [addFacesF] at h
    split at h
    · simp at h
    · rename_i s2 f h2
      obtain ⟨l1, l2, l3⟩ := addFaceF_lt R fuel s i1 i2 i3 _ h2
      have hz := hinv.1.1
      have hlive : s.liveVertex i1 = true ∧ s.liveVertex i2 = true ∧ s.liveVertex i3 = true :=
        ⟨free_nil_live s hinv.2.1 h0 i1 (by omega), free_nil_live s hinv.2.1 h0 i2 (by omega),
          free_nil_live s hinv.2.1 h0 i3 (by omega)⟩
      have hinv2 := addFaceF_inv R fuel s s2 i1 i2 i3 f h2 hlive hinv
      obtain ⟨_, e1, _⟩ := addFaceF_frame R fuel s s2 i1 i2 i3 f h2 hinv.1 hinv.2.1
      exact addFacesF_inv R fuel rest s2 s1 h hinv2 (by rw [e1, h0])

theorem fromMeshF_inv (R : ℚ → ℚ) (fuel : Nat) (normalize : Vec3 → Vec3) (isNaN : Vec3 → Bool)
    (s0 : DynamicMesh) (mesh : Mesh) (s : DynamicMesh)
    (h : fromMeshF R fuel normalize isNaN s0 mesh = some s) : MeshInv s := by
  unfold fromMeshF at h
  split at h
  · simp at h
  · rename_i s1 h1
    obtain ⟨i1, f1⟩ := setupOctreeRootF_reset_inv R s0 s1 mesh h1
    split at h
    · split at h
      · simp at h
      · rename_i s2 h2
        obtain ⟨i2, f2⟩ := addVertices_inv _ s1 s2 h2 i1 f1
        split at h
        · split at h
          · simp at h
          · rename_i s3 h3
            obtain ⟨i3, _⟩ := addFacesF_inv R fuel _ s2 s3 h3 i2 f2
            obtain ⟨ns, hns, rfl⟩ := setAllNormals_frame normalize isNaN _ s3 s h
            exact meshInv_normals s3 ns i3 hns
        · simp at h
    · simp at h

theorem reachableF_inv (R : ℚ → ℚ) (s : DynamicMesh) (h : ReachableF R s) : MeshInv s := by
  unfold ReachableF at h
  induction h with
  | fromMesh fuel normalize isNaN s0 mesh s h _ => exact fromMeshF_inv R fuel normalize isNaN s0 mesh s h
  | step s s1 hr hstep _ ih =>
    have hfit : Fits s := by
      cases hr with
      | fromMesh _ _ _ _ _ _ _ hf => exact hf
      | step _ _ _ _ hf => exact hf
    cases hstep with
    | addVertex _ _ vertex normal i h => exact addVertex_inv s s1 vertex normal i h ih
    | addFace fuel _ _ i1 i2 i3 f hl h => exact addFaceF_inv R fuel s s1 i1 i2 i3 f h (hl trivial) ih
    | deleteFace _ _ f hl h => exact deleteFace_inv s s1 f h (hl trivial) ih
    | deleteVertex _ _ v hl h => exact deleteVertex_inv s s1 v h (hl trivial) ih
    | prune _ _ pv pf rv rf h => exact prune_inv s s1 pv pf rv rf h ih hfit

end DynamicMesh

namespace DynamicMesh

theorem addFaceToOctreeF_exact : addFaceToOctreeF id = addFaceToOctree := by
  funext fuel s i
  unfold addFaceToOctreeF addFaceToOctree
  rw [DynamicOctree.addElementF_exact, PrimTriangle.centerF_exact,
    PrimTriangle.maxDimExtentF_exact]

theorem addFaceF_exact : addFaceF id = addFace := by
  funext fuel s i1 i2 i3
  unfold addFaceF addFace
  rw [addFaceToOctreeF_exact]

theorem addFacesF_exact (fuel : Nat) : ∀ (l : List Nat) (s : DynamicMesh),
    addFacesF id fuel l s = addFaces fuel l s
  | [], s => by simp [addFacesF, addFaces]
  | [_], s => by simp [addFacesF, addFaces]
  | [_, _], s => by simp [addFacesF, addFaces]
  | i1 :: i2 :: i3 :: rest, s => by
    rw [addFacesF, addFaces, addFaceF_exact]
    cases addFace fuel s i1 i2 i3 with
    | none => rfl
    | some r => exact addFacesF_exact fuel rest r.1

theorem setupOctreeRootF_exact : setupOctreeRootF id = setupOctreeRoot := rfl

theorem fromMeshF_exact : fromMeshF id = fromMesh := by
  funext fuel normalize isNaN s mesh
  unfold fromMeshF fromMesh
  rw [setupOctreeRootF_exact]
  cases setupOctreeRoot (reset s) mesh with
  | none => rfl
  | some s1 =>
    simp only
    split
    · cases addVertices (mesh.vertices.zip mesh.normals) s1 with
      | none => rfl
      | some s2 =>
        simp only
        split
        · rw [addFacesF_exact]
        · rfl
    · rfl

/-- What `setupOctreeRoot` in float arithmetic leaves of a mesh after `reset`. -/
theorem setupOctreeRootF_reset (R : ℚ → ℚ) (s0 s1 : DynamicMesh) (mesh : Mesh)
    (h : setupOctreeRootF R (reset s0) mesh = some s1) :
    s1.mesh = ⟨[], [], []⟩ ∧ s1.vertexData = [] ∧ s1.vertexVisited = [] ∧ s1.faceData = [] ∧
      s1.freeFaceIndices = [] := by
  unfold setupOctreeRootF at h
  split at h
  · split at h
    · simp only [Option.map_eq_some'] at h
      obtain ⟨o, _, rfl⟩ := h
      exact ⟨rfl, rfl, rfl, rfl, rfl⟩
    · simp at h
  · simp at h

/-- With an empty free list `addFace` appends the face. -/
theorem addFaceF_append (R : ℚ → ℚ) (fuel : Nat) (s s1 : DynamicMesh) (i1 i2 i3 f : Nat)
    (h : addFaceF R fuel s i1 i2 i3 = some (s1, f)) (h0 : s.freeFaceIndices = []) :
    s1.mesh.indices = s.mesh.indices ++ [i1, i2, i3] ∧ s1.freeFaceIndices = [] ∧
      s1.faceData.length = s.faceData.length + 1 ∧ s1.mesh.vertices = s.mesh.vertices ∧
      s1.vertexData.length = s.vertexData.length := by
  unfold addFaceF at h
  split at h
  · split at h
    · simp at h
    · rename_i sa index hslot
      have hsa : sa = { s with
          faceData := s.faceData ++ [⟨true⟩]
          faceVisited := s.faceVisited ++ [0]
          mesh := ((s.mesh.addIndex i1).addIndex i2).addIndex i3 } := by
        unfold addFaceSlot at hslot
        rw [h0] at hslot
        simp only [List.getLast?_nil, numFaces, Option.map_eq_some', Prod.mk.injEq] at hslot
        obtain ⟨_, _, e, _⟩ := hslot
        rw [← e, h0]
      split at h
      · split at h
        · simp at h
        · rename_i vd hvd
          obtain ⟨q1, _⟩ := addAdjacent_spec _ _ _ _ _ _ hvd
          simp only [Option.map_eq_some', Prod.mk.injEq] at h
          obtain ⟨s2, hs2, rfl, rfl⟩ := h
          unfold addFaceToOctreeF at hs2
          split at hs2
          · simp only [Option.map_eq_some'] at hs2
            obtain ⟨o, _, rfl⟩ := hs2
            subst hsa
            refine ⟨?_, h0, ?_, rfl, q1⟩
            · simp [Mesh.addIndex]
            · simp
          · simp at hs2
      · simp at h
  · simp at h

theorem addFacesF_frame (R : ℚ → ℚ) (fuel : Nat) : ∀ (l : List Nat) (s s1 : DynamicMesh),
    addFacesF R fuel l s = some s1 → s.freeFaceIndices = [] →
    s1.freeFaceIndices = [] ∧ s1.mesh.vertices = s.mesh.vertices ∧
      s1.mesh.indices = s.mesh.indices ++ l ∧
      s1.faceData.length = s.faceData.length + l.length / 3 ∧
      s1.vertexData.length = s.vertexData.length
  | [], s, s1, h, h0 => by
    simp only [addFacesF, Option.some.injEq] at h
    subst h
    exact ⟨h0, rfl, by simp, by simp, rfl⟩
  | [_], s, s1, h, _ => by simp [addFacesF] at h
  | [_, _], s, s1, h, _ => by simp [addFacesF] at h
  | i1 :: i2 :: i3 :: rest, s, s1, h, h0 => by
    simp only [addFacesF] at h
    split at h
    · simp at h
    · rename_i s2 f h2
      obtain ⟨a1, a2, a3, a4, a5⟩ := addFaceF_append R fuel s s2 i1 i2 i3 f h2 h0
      obtain ⟨b1, b2, b3, b4, b5⟩ := addFacesF_frame R fuel rest s2 s1 h a2
      refine ⟨b1, by rw [b2, a4], by rw [b3, a1]; simp, ?_, by rw [b5, a5]⟩
      rw [b4, a3]
      simp only [List.length_cons]
      omega

end DynamicMesh

namespace DynamicMesh

/-- The mesh that `fromMesh` returns in the float arithmetic `R`, whenever it
returns. -/
theorem fromMeshF_props (R : ℚ → ℚ) (fuel : Nat) (normalize : Vec3 → Vec3)
    (isNaN : Vec3 → Bool) (s0 : DynamicMesh) (mesh : Mesh) (s : DynamicMesh)
    (h : fromMeshF R fuel normalize isNaN s0 mesh = some s) :
    s.isPruned = true ∧ s.numVertices = some mesh.vertices.length ∧
      s.numFaces = some (mesh.indices.length / 3) ∧
      (∀ i, i < mesh.indices.length / 3 →
        s.vertexIndices i = some (mesh.indices.getD (3 * i) 0, mesh.indices.getD (3 * i + 1) 0,
          mesh.indices.getD (3 * i + 2) 0)) ∧
      (∀ i, i < mesh.vertices.length → s.mesh.vertex i = mesh.vertex i) ∧
      (∀ v f, (s.adjacent v).count f =
        if f < mesh.indices.length / 3 then
          [mesh.indices.getD (3 * f) 0, mesh.indices.getD (3 * f + 1) 0,
            mesh.indices.getD (3 * f + 2) 0].count v
        else 0) ∧
      (∀ f, f < mesh.indices.length / 3 → ∃ a, s.octree.nodeOf f = some a) := by
  have inv4 := fromMeshF_inv R fuel normalize isNaN s0 mesh s h
  unfold fromMeshF at h
  split at h
  · simp at h
  · rename_i s1 e1
    obtain ⟨m1, vd1, vv1, fd1, ff1⟩ := setupOctreeRootF_reset R s0 s1 mesh e1
    obtain ⟨_, fv1⟩ := setupOctreeRootF_reset_inv R s0 s1 mesh e1
    split at h
    · rename_i hnorm
      split at h
      · simp at h
      · rename_i s2 e2
        obtain ⟨s2a, e2a, a1, a2, a3, a4, a5⟩ :=
          addVertices_total (mesh.vertices.zip mesh.normals) s1
            (by rw [vd1, m1]; rfl) (by rw [vv1, m1]; rfl) fv1
        rw [e2] at e2a
        obtain rfl := Option.some.inj e2a
        obtain ⟨inv2, fv2⟩ := addVertices_inv _ s1 s2 e2 (setupOctreeRootF_reset_inv R s0 s1 mesh e1).1
          fv1
        have hv2 : s2.mesh.vertices = mesh.vertices := by
          rw [a1, m1, List.map_fst_zip _ _ (by omega)]
          rfl
        split at h
        · split at h
          · simp at h
          · rename_i s3 e3
            obtain ⟨ff3, hv3, hi3, hfl3, hvl3⟩ :=
              addFacesF_frame R fuel mesh.indices s2 s3 e3 (by rw [a3, ff1])
            obtain ⟨inv3, fv3⟩ := addFacesF_inv R fuel _ s2 s3 e3 inv2 fv2
            obtain ⟨ns, hns, hs4⟩ := setAllNormals_frame normalize isNaN _ s3 s h
            have q1 : s.freeVertexIndices = [] := by rw [hs4]; exact fv3
            have q2 : s.freeFaceIndices = [] := by rw [hs4]; exact ff3
            have q3 : s.mesh.vertices = mesh.vertices := by rw [hs4]; exact hv3.trans hv2
            have q4 : s.mesh.indices = mesh.indices := by
              rw [hs4]
              show s3.mesh.indices = mesh.indices
              rw [hi3, a2, m1]
              rfl
            have q5 : s.faceData.length = mesh.indices.length / 3 := by
              rw [hs4]
              show s3.faceData.length = mesh.indices.length / 3
              rw [hfl3, a5, fd1]
              simp
            have q6 : s.vertexData.length = mesh.vertices.length := by
              rw [hs4]
              show s3.vertexData.length = mesh.vertices.length
              rw [← inv3.1.1, hv3, hv2]
            have hlive4 : ∀ f, s.liveFace f = true ↔ f < mesh.indices.length / 3 := by
              intro f
              constructor
              · intro h; rw [← q5]; exact liveFace_lt s f h
              · intro h; exact free_nil_liveFace s inv4.2.1 q2 f (by rw [q5]; exact h)
            refine ⟨?_, ?_, ?_, ?_, ?_, ?_, ?_⟩
            · unfold isPruned
              rw [q1, q2]
              rfl
            · unfold numVertices Mesh.numVertices
              rw [q1, q3, q6]
              simp
            · unfold numFaces
              rw [q2, q5]
              simp
            · intro i hi
              have := (vertexIndices_iff s inv4.1 i _ _ _).mpr ⟨(hlive4 i).mpr hi, rfl⟩
              rw [q4] at this
              exact this
            · intro i _
              unfold Mesh.vertex
              rw [q3]
            · intro v f
              rw [inv4.2.2.1.2 v f]
              by_cases hf : f < mesh.indices.length / 3
              · rw [if_pos ((hlive4 f).mpr hf), if_pos hf]
                unfold triple
                rw [q4]
              · rw [if_neg hf, if_neg]
                intro h
                exact hf ((hlive4 f).mp h)
            · intro f hf
              have := inv4.2.2.2.2 f
              rw [(hlive4 f).mpr hf] at this
              cases hx : s.octree.nodeOf f with
              | none => rw [hx] at this; simp at this
              | some a => exact ⟨a, rfl⟩
        · simp at h
    · simp at h

end DynamicMesh

namespace DynamicMesh

/-- The octree call of `addFace`: whenever `addFace` returns, the octree took the
face id with the centre and the extent of the triangle of the three vertices. -/
theorem addFaceF_octree (R : ℚ → ℚ) (fuel : Nat) (s s1 : DynamicMesh) (i1 i2 i3 f : Nat)
    (h : addFaceF R fuel s i1 i2 i3 = some (s1, f)) (hs : Sizes s) (hf : FreeLists s) :
    ∃ v1 v2 v3, s.mesh.vertices[i1]? = some v1 ∧ s.mesh.vertices[i2]? = some v2 ∧
      s.mesh.vertices[i3]? = some v3 ∧
      s.octree.addElementF R fuel f (PrimTriangle.centerF R v1 v2 v3)
        (PrimTriangle.maxDimExtentF R v1 v2 v3) = some s1.octree := by
  obtain ⟨_, _, e3, _, e5, _, e7, e8, _⟩ := addFaceF_frame R fuel s s1 i1 i2 i3 f h hs hf
  have hl : s1.liveFace f = true := by rw [e7]; simp
  have hvi := (vertexIndices_iff s1 e5 f i1 i2 i3).mpr ⟨hl, e8⟩
  unfold addFaceF at h
  split at h
  · split at h
    · simp at h
    · rename_i s0 index hslot
      obtain ⟨_, _, _, p4, _⟩ := addFaceSlot_spec s s0 i1 i2 i3 index hslot hs hf
      split at h
      · split at h
        · simp at h
        · rename_i vd hvd
          simp only [Option.map_eq_some', Prod.mk.injEq] at h
          obtain ⟨s2, hs2, rfl, rfl⟩ := h
          unfold addFaceToOctreeF at hs2
          split at hs2
          · rename_i v1 v2 v3 hface
            simp only [Option.map_eq_some'] at hs2
            obtain ⟨o, ho, rfl⟩ := hs2
            rw [show ({ s0 with faceData := s0.faceData.set index ⟨false⟩, vertexData := vd } :
              DynamicMesh).octree = s.octree from p4] at ho
            unfold face at hface
            split at hface
            · rename_i j1 j2 j3 hj
              have hjj : some (j1, j2, j3) = some (i1, i2, i3) := hj.symm.trans hvi
              simp only [Option.some.injEq, Prod.mk.injEq] at hjj
              obtain ⟨rfl, rfl, rfl⟩ := hjj
              simp only [Mesh.vertex] at hface
              have hv : s0.mesh.vertices = s.mesh.vertices := e3
              rw [hv] at hface
              cases q1 : s.mesh.vertices[j1]? with
              | none => rw [q1] at hface; simp at hface
              | some w1 =>
                cases q2 : s.mesh.vertices[j2]? with
                | none => rw [q1, q2] at hface; simp at hface
                | some w2 =>
                  cases q3 : s.mesh.vertices[j3]? with
                  | none => rw [q1, q2, q3] at hface; simp at hface
                  | some w3 =>
                    rw [q1, q2, q3] at hface
                    simp only [Option.some.injEq, Prod.mk.injEq] at hface
                    obtain ⟨rfl, rfl, rfl⟩ := hface
                    exact ⟨w1, w2, w3, rfl, rfl, rfl, ho⟩
            · simp at hface
          · simp at hs2
      · contradiction
  · simp at h

/-- The slot of the next face: the last free slot, or a new one when there is
no free slot. -/
theorem addFaceSlot_total (s : DynamicMesh) (hs : Sizes s) (hf : FreeLists s) (i1 i2 i3 : Nat) :
    ∃ sa f, addFaceSlot s i1 i2 i3 = some (sa, f) := by
  obtain ⟨z1, z2, z3, z4, z5⟩ := hs
  unfold addFaceSlot
  cases hlast : s.freeFaceIndices.getLast? with
  | none =>
    have hnil : s.freeFaceIndices = [] := by
      cases hfl : s.freeFaceIndices with
      | nil => rfl
      | cons a l => rw [hfl] at hlast; simp [List.getLast?_cons] at hlast
    simp [numFaces, hnil]
  | some f =>
    have hmem : f ∈ s.freeFaceIndices := List.mem_of_getLast?_eq_some hlast
    have hlt : f < s.faceData.length := ((hf.2.2.2 f).mp hmem).1
    simp only
    rw [if_pos ⟨hlt, by omega⟩]
    unfold Mesh.setIndex
    rw [if_pos (by omega)]
    simp only
    rw [if_pos (by simp only [List.length_set]; omega)]
    simp only
    rw [if_pos (by simp only [List.length_set]; omega)]
    exact ⟨_, _, rfl⟩

/-- Totality of `addFace` relative to the octree: on three live vertices `addFace`
returns whenever the call of the octree returns. -/
theorem addFaceF_returns (R : ℚ → ℚ) (fuel : Nat) (s : DynamicMesh) (hinv : MeshInv s)
    (i1 i2 i3 : Nat) (h1 : i1 < s.vertexData.length) (h2 : i2 < s.vertexData.length)
    (h3 : i3 < s.vertexData.length) (v1 v2 v3 : Vec3)
    (p1 : s.mesh.vertices[i1]? = some v1) (p2 : s.mesh.vertices[i2]? = some v2)
    (p3 : s.mesh.vertices[i3]? = some v3)
    (ho : ∀ f, (s.freeFaceIndices = [] → f = s.faceData.length) →
      (s.freeFaceIndices ≠ [] → s.freeFaceIndices.getLast? = some f) →
      ∃ o1, s.octree.addElementF R fuel f (PrimTriangle.centerF R v1 v2 v3)
        (PrimTriangle.maxDimExtentF R v1 v2 v3) = some o1) :
    ∃ s1 f, addFaceF R fuel s i1 i2 i3 = some (s1, f) := by
  obtain ⟨hs, hf, _, _⟩ := hinv
  obtain ⟨sa, f, hslot⟩ := addFaceSlot_total s hs hf i1 i2 i3
  obtain ⟨a1, a2, a3, a4, a5, a6, a7, a8, a9, a10, a11, a12, a13, a14, a15, a16, a17, a18,
    a19⟩ := addFaceSlot_spec s sa i1 i2 i3 f hslot hs hf
  obtain ⟨z1, z2, z3, z4, z5⟩ := hs
  obtain ⟨vd, hvd⟩ := addAdjacent_total sa.vertexData i1 i2 i3 f (by rw [a1]; exact h1)
    (by rw [a1]; exact h2) (by rw [a1]; exact h3)
  obtain ⟨q1, _⟩ := addAdjacent_spec _ _ _ _ _ _ hvd
  obtain ⟨o1, ho1⟩ := ho f a18 (fun hne => (a19 hne).1)
  have hsz : Sizes { sa with faceData := sa.faceData.set f ⟨false⟩, vertexData := vd } := by
    refine ⟨?_, ?_, ?_, ?_, ?_⟩
    · show sa.mesh.vertices.length = vd.length
      rw [a5, q1, a1]; exact z1
    · show sa.mesh.normals.length = vd.length
      rw [a6, q1, a1]; exact z2
    · show sa.vertexVisited.length = vd.length
      rw [a2, q1, a1]; exact z3
    · show sa.mesh.indices.length = 3 * (sa.faceData.set f ⟨false⟩).length
      rw [List.length_set]; exact a10
    · show sa.faceVisited.length = (sa.faceData.set f ⟨false⟩).length
      rw [List.length_set]; exact a11
  have hlive : liveFace { sa with faceData := sa.faceData.set f ⟨false⟩, vertexData := vd } f =
      true := by
    unfold liveFace
    show (match (sa.faceData.set f ⟨false⟩)[f]? with
      | some d => !d.isFree
      | none => false) = true
    rw [List.getElem?_set_self a7]
    rfl
  have htri : triple { sa with faceData := sa.faceData.set f ⟨false⟩, vertexData := vd } f =
      [i1, i2, i3] := a12
  have hvi := (vertexIndices_iff _ hsz f i1 i2 i3).mpr ⟨hlive, htri⟩
  have hface : face { sa with faceData := sa.faceData.set f ⟨false⟩, vertexData := vd } f =
      some (v1, v2, v3) := by
    unfold face
    rw [hvi]
    simp only [Mesh.vertex]
    rw [show ({ sa with faceData := sa.faceData.set f ⟨false⟩, vertexData := vd } :
      DynamicMesh).mesh.vertices = s.mesh.vertices from a5, p1, p2, p3]
  refine ⟨{ sa with
    faceData := sa.faceData.set f ⟨false⟩
    vertexData := vd
    octree := o1 }, f, ?_⟩
  unfold addFaceF
  rw [if_pos ⟨by unfold Mesh.numVertices; omega, by unfold Mesh.numVertices; omega,
    by unfold Mesh.numVertices; omega, by unfold Mesh.numIndices; omega, by omega⟩, hslot]
  dsimp only
  rw [if_pos a7, hvd]
  dsimp only
  unfold addFaceToOctreeF
  rw [hface]
  dsimp only
  rw [show ({ sa with faceData := sa.faceData.set f ⟨false⟩, vertexData := vd } :
    DynamicMesh).octree = s.octree from a4, ho1]
  rfl

end DynamicMesh

namespace Float32

theorem roundEven_tie (y : ℚ) (k : ℤ) (h : y = k + 1 / 2) :
    roundEven y = if k % 2 = 0 then k else k + 1 := by
  have hf : ⌊y⌋ = k := Int.floor_eq_iff.mpr ⟨by rw [h]; linarith, by rw [h]; linarith⟩
  unfold roundEven
  rw [hf, h, if_neg (by norm_num), if_neg (by norm_num)]

/-- The binary32 value of a positive result `x` that lies halfway between two
neighbouring binary32 numbers `k * 2 ^ (e - 23)` and `(k + 1) * 2 ^ (e - 23)`
with `k` even: the one with the even `k`. -/
theorem round_tie_even (x v : ℚ) (e k : ℤ) (he : -126 ≤ e) (h1 : (2 : ℚ) ^ e ≤ x)
    (h2 : x < (2 : ℚ) ^ (e + 1)) (h3 : x / 2 ^ (e - 23) = k + 1 / 2) (hk : k % 2 = 0)
    (hv : v = k * 2 ^ (e - 23)) : round x = v := by
  have hx : 0 < x := lt_of_lt_of_le (zpow_pos (by norm_num) e) h1
  have hpos : 0 < |x| := abs_pos.mpr (ne_of_gt hx)
  have hlog : Int.log 2 |x| = e := by
    have a := (Int.zpow_le_iff_le_log (by norm_num : 1 < 2) hpos).mp
      (by rw [abs_of_pos hx]; simpa using h1)
    have b := (Int.lt_zpow_iff_log_lt (by norm_num : 1 < 2) hpos).mp
      (by rw [abs_of_pos hx]; simpa using h2)
    omega
  unfold round ulp
  rw [hlog, max_eq_left he, roundEven_tie _ k h3, if_pos hk, hv]

/-- The binary32 value of a positive result `x` that lies halfway between two
neighbouring binary32 numbers `k * 2 ^ (e - 23)` and `(k + 1) * 2 ^ (e - 23)`
with `k` odd: the one with the even `k + 1`. -/
theorem round_tie_odd (x v : ℚ) (e k : ℤ) (he : -126 ≤ e) (h1 : (2 : ℚ) ^ e ≤ x)
    (h2 : x < (2 : ℚ) ^ (e + 1)) (h3 : x / 2 ^ (e - 23) = k + 1 / 2) (hk : k % 2 = 1)
    (hv : v = (k + 1) * 2 ^ (e - 23)) : round x = v := by
  have hx : 0 < x := lt_of_lt_of_le (zpow_pos (by norm_num) e) h1
  have hpos : 0 < |x| := abs_pos.mpr (ne_of_gt hx)
  have hlog : Int.log 2 |x| = e := by
    have a := (Int.zpow_le_iff_le_log (by norm_num : 1 < 2) hpos).mp
      (by rw [abs_of_pos hx]; simpa using h1)
    have b := (Int.lt_zpow_iff_log_lt (by norm_num : 1 < 2) hpos).mp
      (by rw [abs_of_pos hx]; simpa using h2)
    omega
  unfold round ulp
  rw [hlog, max_eq_left he, roundEven_tie _ k h3, if_neg (by omega), hv]
  push_cast
  ring

end Float32

namespace Octree

/-- A position above the upper bound of a node in `x` is not approx-contained. -/
theorem approxContainsF_above (R : ℚ → ℚ) (c : Vec3) (w : ℚ) (p : Vec3) (e : ℚ)
    (eps hw h ux : ℚ) (h1 : R (1 / 10000) = eps) (h2 : R (w * (1 / 2)) = hw)
    (h3 : R (eps + hw) = h) (h4 : R (c.x + h) = ux) (hlt : ux < p.x) :
    approxContainsF R c w p e = false := by
  unfold approxContainsF epsilonF
  simp only [h1, h2, h3, h4]
  have : ¬ p.x ≤ ux := not_le.mpr hlt
  simp [this]

end Octree

namespace Float32

theorem grid_sum : Float32.round (8388617 / 2048 + 4096) = 2097153 / 256 :=
  Float32.round_tie_even _ _ (13) 8388612 (by norm_num) (by norm_num) (by norm_num)
    (by norm_num) (by decide) (by norm_num)

theorem grid_center : Float32.round (2097153 / 256 * (1 / 2)) = 2097153 / 512 :=
  Float32.round_pos _ _ (12) 8388612 (by norm_num) (by norm_num) (by norm_num)
    (by norm_num) (by norm_num) (by norm_num)

theorem grid_delta : Float32.round (8388617 / 2048 - 4096) = 9 / 2048 :=
  Float32.round_pos _ _ (-8) 9437184 (by norm_num) (by norm_num) (by norm_num)
    (by norm_num) (by norm_num) (by norm_num)

theorem grid_halfWidth : Float32.round (9 / 2048 * (1 / 2)) = 9 / 4096 :=
  Float32.round_pos _ _ (-9) 9437184 (by norm_num) (by norm_num) (by norm_num)
    (by norm_num) (by norm_num) (by norm_num)

theorem grid_h : Float32.round (13743895 / 137438953472 + 9 / 4096) = 9866681 / 4294967296 :=
  Float32.round_pos _ _ (-9) 9866681 (by norm_num) (by norm_num) (by norm_num)
    (by norm_num) (by norm_num) (by norm_num)

theorem grid_lo : Float32.round (2097153 / 512 - 9866681 / 4294967296) = 16777215 / 4096 :=
  Float32.round_pos _ _ (11) 16777215 (by norm_num) (by norm_num) (by norm_num)
    (by norm_num) (by norm_num) (by norm_num)

theorem grid_hi : Float32.round (2097153 / 512 + 9866681 / 4294967296) = 8388617 / 2048 :=
  Float32.round_pos _ _ (12) 8388617 (by norm_num) (by norm_num) (by norm_num)
    (by norm_num) (by norm_num) (by norm_num)

theorem grid_quarter : Float32.round (9 / 2048 * (1 / 4)) = 9 / 8192 :=
  Float32.round_pos _ _ (-10) 9437184 (by norm_num) (by norm_num) (by norm_num)
    (by norm_num) (by norm_num) (by norm_num)

theorem grid_c_0 : Float32.round (8388617 / 2048 + 8388617 / 2048) = 8388617 / 1024 :=
  Float32.round_pos _ _ (13) 8388617 (by norm_num) (by norm_num) (by norm_num)
    (by norm_num) (by norm_num) (by norm_num)

theorem grid_c_1 : Float32.round (8388617 / 1024 + 4096) = 12582921 / 1024 :=
  Float32.round_pos _ _ (13) 12582921 (by norm_num) (by norm_num) (by norm_num)
    (by norm_num) (by norm_num) (by norm_num)

theorem grid_c_2 : Float32.round (12582921 / 1024 / 3) = 4194307 / 1024 :=
  Float32.round_pos _ _ (12) 8388614 (by norm_num) (by norm_num) (by norm_num)
    (by norm_num) (by norm_num) (by norm_num)

theorem grid_c_3 : Float32.round (4096 + 8388609 / 2048) = 8192 :=
  Float32.round_tie_even _ _ (13) 8388608 (by norm_num) (by norm_num) (by norm_num)
    (by norm_num) (by decide) (by norm_num)

theorem grid_c_4 : Float32.round (8192 + 4096) = 12288 :=
  Float32.round_pos _ _ (13) 12582912 (by norm_num) (by norm_num) (by norm_num)
    (by norm_num) (by norm_num) (by norm_num)

theorem grid_c_5 : Float32.round (12288 / 3) = 4096 :=
  Float32.round_pos _ _ (12) 8388608 (by norm_num) (by norm_num) (by norm_num)
    (by norm_num) (by norm_num) (by norm_num)

theorem grid_c_6 : Float32.round (4194305 / 1024 + 4096) = 8388609 / 1024 :=
  Float32.round_pos _ _ (13) 8388609 (by norm_num) (by norm_num) (by norm_num)
    (by norm_num) (by norm_num) (by norm_num)

theorem grid_c_7 : Float32.round (8388609 / 1024 + 4096) = 12582913 / 1024 :=
  Float32.round_pos _ _ (13) 12582913 (by norm_num) (by norm_num) (by norm_num)
    (by norm_num) (by norm_num) (by norm_num)

theorem grid_c_8 : Float32.round (12582913 / 1024 / 3) = 8388609 / 2048 :=
  Float32.round_pos _ _ (12) 8388609 (by norm_num) (by norm_num) (by norm_num)
    (by norm_num) (by norm_num) (by norm_num)

theorem grid_c_9 : Float32.round (8388617 / 2048 - 4096) = 9 / 2048 :=
  Float32.round_pos _ _ (-8) 9437184 (by norm_num) (by norm_num) (by norm_num)
    (by norm_num) (by norm_num) (by norm_num)

theorem grid_c_10 : Float32.round (8388609 / 2048 - 4096) = 1 / 2048 :=
  Float32.round_pos _ _ (-11) 8388608 (by norm_num) (by norm_num) (by norm_num)
    (by norm_num) (by norm_num) (by norm_num)

theorem grid_c_11 : Float32.round (4194305 / 1024 - 4096) = 1 / 1024 :=
  Float32.round_pos _ _ (-10) 8388608 (by norm_num) (by norm_num) (by norm_num)
    (by norm_num) (by norm_num) (by norm_num)

theorem grid_c_12 : Float32.round (8388617 / 2048 + 4096) = 2097153 / 256 :=
  Float32.round_tie_even _ _ (13) 8388612 (by norm_num) (by norm_num) (by norm_num)
    (by norm_num) (by decide) (by norm_num)

theorem grid_c_13 : Float32.round (2097153 / 256 + 4096) = 3145729 / 256 :=
  Float32.round_pos _ _ (13) 12582916 (by norm_num) (by norm_num) (by norm_num)
    (by norm_num) (by norm_num) (by norm_num)

theorem grid_c_14 : Float32.round (3145729 / 256 / 3) = 8388611 / 2048 :=
  Float32.round_pos _ _ (12) 8388611 (by norm_num) (by norm_num) (by norm_num)
    (by norm_num) (by norm_num) (by norm_num)

theorem grid_c_15 : Float32.round (8388609 / 1024 + 8388617 / 2048) = 6291459 / 512 :=
  Float32.round_tie_odd _ _ (13) 12582917 (by norm_num) (by norm_num) (by norm_num)
    (by norm_num) (by decide) (by norm_num)

theorem grid_c_16 : Float32.round (6291459 / 512 / 3) = 2097153 / 512 :=
  Float32.round_pos _ _ (12) 8388612 (by norm_num) (by norm_num) (by norm_num)
    (by norm_num) (by norm_num) (by norm_num)

theorem grid_c_17 : Float32.round (8388609 / 2048 + 4096) = 8192 :=
  Float32.round_tie_even _ _ (13) 8388608 (by norm_num) (by norm_num) (by norm_num)
    (by norm_num) (by decide) (by norm_num)

theorem grid_c_18 : Float32.round (8192 + 8388617 / 2048) = 3145729 / 256 :=
  Float32.round_tie_even _ _ (13) 12582916 (by norm_num) (by norm_num) (by norm_num)
    (by norm_num) (by decide) (by norm_num)

theorem grid_c_19 : Float32.round (8388617 / 1024 + 8388617 / 2048) = 6291463 / 512 :=
  Float32.round_tie_odd _ _ (13) 12582925 (by norm_num) (by norm_num) (by norm_num)
    (by norm_num) (by decide) (by norm_num)

theorem grid_c_20 : Float32.round (6291463 / 512 / 3) = 8388617 / 2048 :=
  Float32.round_pos _ _ (12) 8388617 (by norm_num) (by norm_num) (by norm_num)
    (by norm_num) (by norm_num) (by norm_num)

theorem grid_c_21 : Float32.round (8192 + 4194305 / 1024) = 12582913 / 1024 :=
  Float32.round_pos _ _ (13) 12582913 (by norm_num) (by norm_num) (by norm_num)
    (by norm_num) (by norm_num) (by norm_num)

theorem grid_c_22 : Float32.round (8388609 / 1024 + 8388609 / 2048) = 6291457 / 512 :=
  Float32.round_tie_odd _ _ (13) 12582913 (by norm_num) (by norm_num) (by norm_num)
    (by norm_num) (by decide) (by norm_num)

theorem grid_c_23 : Float32.round (6291457 / 512 / 3) = 8388609 / 2048 :=
  Float32.round_pos _ _ (12) 8388609 (by norm_num) (by norm_num) (by norm_num)
    (by norm_num) (by norm_num) (by norm_num)

theorem grid_childX : Float32.round (2097153 / 512 + 9 / 8192) = 4194307 / 1024 :=
  Float32.round_pos _ _ (12) 8388614 (by norm_num) (by norm_num) (by norm_num)
    (by norm_num) (by norm_num) (by norm_num)

theorem grid_childY : Float32.round (2097153 / 512 + -(9 / 8192)) = 4194305 / 1024 :=
  Float32.round_pos _ _ (12) 8388610 (by norm_num) (by norm_num) (by norm_num)
    (by norm_num) (by norm_num) (by norm_num)

theorem grid_childHalf : Float32.round (9 / 4096 * (1 / 2)) = 9 / 8192 :=
  Float32.round_pos _ _ (-10) 9437184 (by norm_num) (by norm_num) (by norm_num)
    (by norm_num) (by norm_num) (by norm_num)

theorem grid_childH : Float32.round (13743895 / 137438953472 + 9 / 8192) = 10296177 / 8589934592 :=
  Float32.round_pos _ _ (-10) 10296177 (by norm_num) (by norm_num) (by norm_num)
    (by norm_num) (by norm_num) (by norm_num)

theorem grid_childHi : Float32.round (4194307 / 1024 + 10296177 / 8589934592) = 1048577 / 256 :=
  Float32.round_pos _ _ (12) 8388616 (by norm_num) (by norm_num) (by norm_num)
    (by norm_num) (by norm_num) (by norm_num)

end Float32

namespace DynamicOctree

/-- In binary32 arithmetic the node of `gridRoot` approx-contains the positions
from `4096 - 1 / 4096` to `4096 + 9 / 2048` on every axis. -/
theorem approxContainsF_grid (p : Vec3) (e : ℚ) :
    approxContainsF Float32.round ⟨2097153 / 512, 2097153 / 512, 2097153 / 512⟩ (9 / 2048) p e =
      ((decide (16777215 / 4096 ≤ p.x) && decide (16777215 / 4096 ≤ p.y)
          && decide (16777215 / 4096 ≤ p.z))
        && (decide (p.x ≤ 8388617 / 2048) && decide (p.y ≤ 8388617 / 2048)
          && decide (p.z ≤ 8388617 / 2048))
        && decide (e ≤ 9 / 2048)) :=
  approxContainsF_eval Float32.round _ (9 / 2048) p e _ _ _ _ _ _ _ _ _ Float32.round_epsilon
    Float32.grid_halfWidth Float32.grid_h Float32.grid_lo Float32.grid_lo Float32.grid_lo
    Float32.grid_hi Float32.grid_hi Float32.grid_hi

/-- In binary32 arithmetic the node of `gridRoot` keeps an element inside its
bounds with an extent above `9 / 8192`. -/
theorem gridRoot_store (idx : Finset Nat) (enm : List (Option Nat)) (index : Nat) (p : Vec3)
    (e : ℚ) (fuel : Nat)
    (hp : approxContainsF Float32.round ⟨2097153 / 512, 2097153 / 512, 2097153 / 512⟩
      (9 / 2048) p e = true) (he : 9 / 8192 < e) :
    addElementF Float32.round (fuel + 1) (gridRoot idx enm) index p e =
      (addToElementNodeMap enm index 0).map (fun enm1 => gridRoot (insert index idx) enm1) := by
  have hi : insertIntoChildF Float32.round (9 / 2048) e = false := by
    unfold insertIntoChildF relativeMinElementExtent
    rw [Float32.grid_quarter]
    exact decide_eq_false (not_le.mpr he)
  rw [addElementF_unfold_insert Float32.round fuel (gridRoot idx enm) 0 _ (9 / 2048) 0
    (fun _ => Child.none) idx index p e rfl hp]
  have hr : (gridRoot idx enm).root = Child.node 0
      ⟨2097153 / 512, 2097153 / 512, 2097153 / 512⟩ (9 / 2048) 0 (fun _ => Child.none) idx := rfl
  rw [hr, nodeAddElementF_store Float32.round fuel index p e (gridRoot idx enm).heapNext 0 _
    (9 / 2048) 0 (fun _ => Child.none) idx hp hi]
  rfl

/-- In binary32 arithmetic the octree `gridRoot` aborts on the element at
`(4096 + 9 / 2048, 4096 + 1 / 2048, 4096 + 1 / 2048)` with the extent
`1 / 1024`: the root approx-contains the element and hands it to the child in
slot 4, made with the centre `4096 + 6 / 2048` in `x` and the width `9 / 4096`,
whose upper bound in `x` is `4096 + 8 / 2048`. -/
theorem gridRoot_abort (idx : Finset Nat) (enm : List (Option Nat)) (index : Nat) (fuel : Nat) :
    addElementF Float32.round fuel (gridRoot idx enm) index
      ⟨8388617 / 2048, 8388609 / 2048, 8388609 / 2048⟩ (1 / 1024) = none := by
  have a1 : approxContainsF Float32.round ⟨2097153 / 512, 2097153 / 512, 2097153 / 512⟩
      (9 / 2048) ⟨8388617 / 2048, 8388609 / 2048, 8388609 / 2048⟩ (1 / 1024) = true := by
    rw [approxContainsF_grid]
    norm_num
  have a2 : insertIntoChildF Float32.round (9 / 2048) (1 / 1024) = true := by
    unfold insertIntoChildF relativeMinElementExtent
    rw [Float32.grid_quarter]
    norm_num
  have a3 : childIndex ⟨2097153 / 512, 2097153 / 512, 2097153 / 512⟩
      ⟨8388617 / 2048, 8388609 / 2048, 8388609 / 2048⟩ = 4 := by
    unfold childIndex
    norm_num
  have a4 : childOrMakeF Float32.round 1 ⟨2097153 / 512, 2097153 / 512, 2097153 / 512⟩
      (9 / 2048) 0 (fun _ => Child.none) 4 =
      some (Child.node 1 ⟨4194307 / 1024, 4194305 / 1024, 4194305 / 1024⟩ (9 / 4096) 1
        (fun _ => Child.none) ∅, 2) := by
    simp only [childOrMakeF, Child.isSome, childCenterF, Float32.grid_quarter,
      Float32.grid_halfWidth, Float32.grid_childX, Float32.grid_childY, mkNode]
    norm_num
  have a5 : approxContainsF Float32.round ⟨4194307 / 1024, 4194305 / 1024, 4194305 / 1024⟩
      (9 / 4096) ⟨8388617 / 2048, 8388609 / 2048, 8388609 / 2048⟩ (1 / 1024) = false :=
    approxContainsF_above Float32.round _ (9 / 4096) _ _ _ _ _ _ Float32.round_epsilon
      Float32.grid_childHalf Float32.grid_childH Float32.grid_childHi (by norm_num)
  exact addElementF_reject Float32.round (gridRoot idx enm) 0 _ (9 / 2048) 0
    (fun _ => Child.none) idx index _ _ rfl a1
    (fun n => nodeAddElementF_child Float32.round index _ _ 1 0 _ (9 / 2048) 0 _ idx _ 2 a2
      (by rw [a3]; exact a4)
      (fun m => nodeAddElementF_reject Float32.round m index _ _ 2 1 _ _ 1 _ ∅ a5) n) fuel

end DynamicOctree

namespace PrimTriangle

/-- The value of `center` in the arithmetic `R` from the values of its
operations. -/
theorem centerF_eval (R : ℚ → ℚ) (v1 v2 v3 : Vec3) (a1 a2 a3 b1 b2 b3 c1 c2 c3 : ℚ)
    (h1 : R (v1.x + v2.x) = a1) (h2 : R (a1 + v3.x) = a2) (h3 : R (a2 / 3) = a3)
    (h4 : R (v1.y + v2.y) = b1) (h5 : R (b1 + v3.y) = b2) (h6 : R (b2 / 3) = b3)
    (h7 : R (v1.z + v2.z) = c1) (h8 : R (c1 + v3.z) = c2) (h9 : R (c2 / 3) = c3) :
    centerF R v1 v2 v3 = ⟨a3, b3, c3⟩ := by
  unfold centerF
  rw [h1, h2, h3, h4, h5, h6, h7, h8, h9]

/-- The value of `maxDimExtent` in the arithmetic `R` from the values of its
operations. -/
theorem maxDimExtentF_eval (R : ℚ → ℚ) (v1 v2 v3 : Vec3) (ux lx uy ly uz lz dx dy dz : ℚ)
    (h1 : max v1.x (max v2.x v3.x) = ux) (h2 : min v1.x (min v2.x v3.x) = lx)
    (h3 : max v1.y (max v2.y v3.y) = uy) (h4 : min v1.y (min v2.y v3.y) = ly)
    (h5 : max v1.z (max v2.z v3.z) = uz) (h6 : min v1.z (min v2.z v3.z) = lz)
    (h7 : R (ux - lx) = dx) (h8 : R (uy - ly) = dy) (h9 : R (uz - lz) = dz) :
    maxDimExtentF R v1 v2 v3 = max (max dx dy) dz := by
  unfold maxDimExtentF
  rw [h1, h2, h3, h4, h5, h6, h7, h8, h9]

end PrimTriangle

namespace DynamicMesh

/-- The value of `setupOctreeRoot` in the arithmetic `R` from the values of its
operations. -/
theorem setupOctreeRootF_eval (R : ℚ → ℚ) (s : DynamicMesh) (mesh : Mesh) (mn mx : Vec3)
    (hroot : s.octree.hasRoot = false) (hbox : mesh.minMax = some (mn, mx))
    (sx sy sz cx cy cz dx dy dz : ℚ)
    (h1 : R (mx.x + mn.x) = sx) (h2 : R (sx * (1 / 2)) = cx)
    (h3 : R (mx.y + mn.y) = sy) (h4 : R (sy * (1 / 2)) = cy)
    (h5 : R (mx.z + mn.z) = sz) (h6 : R (sz * (1 / 2)) = cz)
    (h7 : R (mx.x - mn.x) = dx) (h8 : R (mx.y - mn.y) = dy) (h9 : R (mx.z - mn.z) = dz) :
    setupOctreeRootF R s mesh =
      (s.octree.setupRoot ⟨cx, cy, cz⟩ (max (max dx dy) dz)).map
        (fun o => { s with octree := o }) := by
  unfold setupOctreeRootF
  rw [if_pos hroot, hbox]
  simp only [h1, h2, h3, h4, h5, h6, h7, h8, h9]

theorem gridMesh_minMax :
    gridMesh.minMax = some (⟨4096, 4096, 4096⟩, ⟨8388617 / 2048, 8388617 / 2048, 8388617 / 2048⟩) := by
  simp [Mesh.minMax, gridMesh]
  norm_num

/-- In binary32 arithmetic `setupOctreeRoot` gives the mesh `gridMesh` the root
with the centre `4096 + 4 / 2048`, the value of the middle `4096 + 4.5 / 2048` of
the box, and the width `9 / 2048`. -/
theorem gridMesh_setup (mesh : Mesh) (hv : mesh.vertices = gridMesh.vertices) :
    setupOctreeRootF Float32.round (reset blank) mesh =
      some { reset blank with octree := DynamicOctree.gridRoot ∅ [] } := by
  have hbox : mesh.minMax =
      some (⟨4096, 4096, 4096⟩, ⟨8388617 / 2048, 8388617 / 2048, 8388617 / 2048⟩) := by
    rw [← gridMesh_minMax]
    unfold Mesh.minMax
    rw [hv]
  rw [setupOctreeRootF_eval Float32.round (reset blank) mesh _ _ rfl hbox _ _ _ _ _ _ _ _ _
    Float32.grid_sum Float32.grid_center Float32.grid_sum Float32.grid_center
    Float32.grid_sum Float32.grid_center Float32.grid_delta Float32.grid_delta
    Float32.grid_delta]
  rw [max_self, max_self]
  unfold DynamicOctree.setupRoot mkNode
  have h0 : (reset blank).octree.hasRoot = false := rfl
  rw [h0]
  simp only [Bool.false_eq_true, if_false]
  rw [if_pos (by norm_num)]
  rfl

end DynamicMesh

namespace DynamicMesh

/-- One round of the loop of `fromMesh` over the faces, whenever `addFace`
returns: the face gets the next slot, and the octree took it with the centre and
the extent of its triangle. -/
theorem addFaceF_step (R : ℚ → ℚ) (fuel : Nat) (s s1 : DynamicMesh) (i1 i2 i3 f : Nat)
    (h : addFaceF R fuel s i1 i2 i3 = some (s1, f)) (hinv : MeshInv s)
    (hv0 : s.freeVertexIndices = []) (hf0 : s.freeFaceIndices = []) :
    MeshInv s1 ∧ s1.freeVertexIndices = [] ∧ s1.freeFaceIndices = [] ∧
      s1.mesh.vertices = s.mesh.vertices ∧ s1.faceData.length = s.faceData.length + 1 ∧
      ∃ v1 v2 v3, s.mesh.vertices[i1]? = some v1 ∧ s.mesh.vertices[i2]? = some v2 ∧
        s.mesh.vertices[i3]? = some v3 ∧
        s.octree.addElementF R fuel s.faceData.length (PrimTriangle.centerF R v1 v2 v3)
          (PrimTriangle.maxDimExtentF R v1 v2 v3) = some s1.octree := by
  obtain ⟨l1, l2, l3⟩ := addFaceF_lt R fuel s i1 i2 i3 _ h
  have hz := hinv.1.1
  have hlive : s.liveVertex i1 = true ∧ s.liveVertex i2 = true ∧ s.liveVertex i3 = true :=
    ⟨free_nil_live s hinv.2.1 hv0 i1 (by omega), free_nil_live s hinv.2.1 hv0 i2 (by omega),
      free_nil_live s hinv.2.1 hv0 i3 (by omega)⟩
  have hinv1 := addFaceF_inv R fuel s s1 i1 i2 i3 f h hlive hinv
  obtain ⟨_, e1, _, _, _, _, _, _, _, _, _, _, _, _, _, _, _, e18, _⟩ :=
    addFaceF_frame R fuel s s1 i1 i2 i3 f h hinv.1 hinv.2.1
  obtain ⟨_, a2, a3, a4, _⟩ := addFaceF_append R fuel s s1 i1 i2 i3 f h hf0
  obtain ⟨v1, v2, v3, p1, p2, p3, ho⟩ := addFaceF_octree R fuel s s1 i1 i2 i3 f h hinv.1 hinv.2.1
  rw [e18 hf0] at ho
  exact ⟨hinv1, by rw [e1, hv0], a2, a4, a3, v1, v2, v3, p1, p2, p3, ho⟩

/-- The centre and the extent of the first triangle of `gridMesh` in binary32
arithmetic. -/
theorem gridMesh_face0 :
    PrimTriangle.centerF Float32.round ⟨8388617 / 2048, 4096, 4194305 / 1024⟩
      ⟨8388617 / 2048, 8388609 / 2048, 4096⟩ ⟨4096, 4096, 4096⟩ =
      ⟨4194307 / 1024, 4096, 8388609 / 2048⟩ ∧
    PrimTriangle.maxDimExtentF Float32.round ⟨8388617 / 2048, 4096, 4194305 / 1024⟩
      ⟨8388617 / 2048, 8388609 / 2048, 4096⟩ ⟨4096, 4096, 4096⟩ = 9 / 2048 := by
  constructor
  · exact PrimTriangle.centerF_eval Float32.round _ _ _ _ _ _ _ _ _ _ _ _
      Float32.grid_c_0 Float32.grid_c_1 Float32.grid_c_2 Float32.grid_c_3 Float32.grid_c_4
      Float32.grid_c_5 Float32.grid_c_6 Float32.grid_c_7 Float32.grid_c_8
  · rw [PrimTriangle.maxDimExtentF_eval Float32.round _ _ _ (8388617 / 2048) 4096
      (8388609 / 2048) 4096 (4194305 / 1024) 4096 _ _ _ (by norm_num) (by norm_num)
      (by norm_num) (by norm_num) (by norm_num) (by norm_num)
      Float32.grid_c_9 Float32.grid_c_10 Float32.grid_c_11]
    norm_num

/-- The centre and the extent of the second triangle of `gridMesh` in binary32
arithmetic. -/
theorem gridMesh_face1 :
    PrimTriangle.centerF Float32.round ⟨8388617 / 2048, 4194305 / 1024, 8388609 / 2048⟩
      ⟨4096, 4096, 4096⟩ ⟨4096, 8388617 / 2048, 8388617 / 2048⟩ =
      ⟨8388611 / 2048, 2097153 / 512, 8388611 / 2048⟩ ∧
    PrimTriangle.maxDimExtentF Float32.round ⟨8388617 / 2048, 4194305 / 1024, 8388609 / 2048⟩
      ⟨4096, 4096, 4096⟩ ⟨4096, 8388617 / 2048, 8388617 / 2048⟩ = 9 / 2048 := by
  constructor
  · exact PrimTriangle.centerF_eval Float32.round _ _ _ _ _ _ _ _ _ _ _ _
      Float32.grid_c_12 Float32.grid_c_13 Float32.grid_c_14 Float32.grid_c_6 Float32.grid_c_15
      Float32.grid_c_16 Float32.grid_c_17 Float32.grid_c_18 Float32.grid_c_14
  · rw [PrimTriangle.maxDimExtentF_eval Float32.round _ _ _ (8388617 / 2048) 4096
      (8388617 / 2048) 4096 (8388617 / 2048) 4096 _ _ _ (by norm_num) (by norm_num)
      (by norm_num) (by norm_num) (by norm_num) (by norm_num)
      Float32.grid_c_9 Float32.grid_c_9 Float32.grid_c_9]
    norm_num

/-- The centre and the extent of the small triangle of `gridMesh` in binary32
arithmetic: the centre lies in the face `x = 4096 + 9 / 2048` of the box. -/
theorem gridMesh_face2 :
    PrimTriangle.centerF Float32.round ⟨8388617 / 2048, 4096, 4194305 / 1024⟩
      ⟨8388617 / 2048, 8388609 / 2048, 4096⟩
      ⟨8388617 / 2048, 4194305 / 1024, 8388609 / 2048⟩ =
      ⟨8388617 / 2048, 8388609 / 2048, 8388609 / 2048⟩ ∧
    PrimTriangle.maxDimExtentF Float32.round ⟨8388617 / 2048, 4096, 4194305 / 1024⟩
      ⟨8388617 / 2048, 8388609 / 2048, 4096⟩
      ⟨8388617 / 2048, 4194305 / 1024, 8388609 / 2048⟩ = 1 / 1024 := by
  have hz : Float32.round (8388617 / 2048 - 8388617 / 2048) = 0 := by
    rw [sub_self]
    exact Float32.round_zero
  constructor
  · exact PrimTriangle.centerF_eval Float32.round _ _ _ _ _ _ _ _ _ _ _ _
      Float32.grid_c_0 Float32.grid_c_19 Float32.grid_c_20 Float32.grid_c_3 Float32.grid_c_21
      Float32.grid_c_8 Float32.grid_c_6 Float32.grid_c_22 Float32.grid_c_23
  · rw [PrimTriangle.maxDimExtentF_eval Float32.round _ _ _ (8388617 / 2048) (8388617 / 2048)
      (4194305 / 1024) 4096 (4194305 / 1024) 4096 _ _ _ (by norm_num) (by norm_num)
      (by norm_num) (by norm_num) (by norm_num) (by norm_num)
      hz Float32.grid_c_11 Float32.grid_c_11]
    norm_num

end DynamicMesh

namespace DynamicMesh

/-- In binary32 arithmetic, from a mesh with the vertices of `gridMesh` and the
octree `gridRoot`, `addFace` does not return for the small triangle: the descent
of the octree fails its assertion. -/
theorem gridFace_abort (fuel : Nat) (s : DynamicMesh) (hs : Sizes s) (hf : FreeLists s)
    (hv : s.mesh.vertices = gridMesh.vertices) (idx : Finset Nat) (enm : List (Option Nat))
    (ho : s.octree = DynamicOctree.gridRoot idx enm) :
    addFaceF Float32.round fuel s 2 3 4 = none := by
  cases h : addFaceF Float32.round fuel s 2 3 4 with
  | none => rfl
  | some r =>
    exfalso
    obtain ⟨s1, f⟩ := r
    obtain ⟨v1, v2, v3, p1, p2, p3, ho1⟩ := addFaceF_octree Float32.round fuel s s1 2 3 4 f h hs hf
    rw [hv] at p1 p2 p3
    obtain rfl : (⟨8388617 / 2048, 4096, 4194305 / 1024⟩ : Vec3) = v1 := Option.some.inj p1
    obtain rfl : (⟨8388617 / 2048, 8388609 / 2048, 4096⟩ : Vec3) = v2 := Option.some.inj p2
    obtain rfl : (⟨8388617 / 2048, 4194305 / 1024, 8388609 / 2048⟩ : Vec3) = v3 :=
      Option.some.inj p3
    rw [ho, gridMesh_face2.1, gridMesh_face2.2, DynamicOctree.gridRoot_abort] at ho1
    exact Option.noConfusion ho1

/-- In binary32 arithmetic, from a mesh without free slots with the vertices of
`gridMesh` and the octree `gridRoot`, whenever `addFace` returns for a triangle
that the root of the octree keeps, the octree is `gridRoot` with the face
added. -/
theorem gridFace_store (fuel : Nat) (s s1 : DynamicMesh) (i1 i2 i3 f : Nat)
    (h : addFaceF Float32.round fuel s i1 i2 i3 = some (s1, f)) (hinv : MeshInv s)
    (hv0 : s.freeVertexIndices = []) (hf0 : s.freeFaceIndices = [])
    (hv : s.mesh.vertices = gridMesh.vertices) (idx : Finset Nat) (enm : List (Option Nat))
    (ho : s.octree = DynamicOctree.gridRoot idx enm) (v1 v2 v3 : Vec3)
    (q1 : gridMesh.vertices[i1]? = some v1) (q2 : gridMesh.vertices[i2]? = some v2)
    (q3 : gridMesh.vertices[i3]? = some v3) (p : Vec3) (e : ℚ)
    (hc : PrimTriangle.centerF Float32.round v1 v2 v3 = p)
    (he : PrimTriangle.maxDimExtentF Float32.round v1 v2 v3 = e)
    (hp : approxContainsF Float32.round ⟨2097153 / 512, 2097153 / 512, 2097153 / 512⟩
      (9 / 2048) p e = true) (hq : 9 / 8192 < e) (enm1 : List (Option Nat))
    (hm : DynamicOctree.addToElementNodeMap enm s.faceData.length 0 = some enm1) :
    MeshInv s1 ∧ s1.freeVertexIndices = [] ∧ s1.freeFaceIndices = [] ∧
      s1.mesh.vertices = gridMesh.vertices ∧ s1.faceData.length = s.faceData.length + 1 ∧
      s1.octree = DynamicOctree.gridRoot (insert s.faceData.length idx) enm1 := by
  obtain ⟨a1, a2, a3, a4, a5, w1, w2, w3, p1, p2, p3, ho1⟩ :=
    addFaceF_step Float32.round fuel s s1 i1 i2 i3 f h hinv hv0 hf0
  rw [hv, q1] at p1
  rw [hv, q2] at p2
  rw [hv, q3] at p3
  obtain rfl := Option.some.inj p1
  obtain rfl := Option.some.inj p2
  obtain rfl := Option.some.inj p3
  rw [ho, hc, he] at ho1
  refine ⟨a1, a2, a3, a4.trans hv, a5, ?_⟩
  cases fuel with
  | zero => exact Option.noConfusion ho1
  | succ n =>
    rw [DynamicOctree.gridRoot_store idx enm _ p e n hp hq, hm] at ho1
    exact (Option.some.inj ho1).symm

/-- In binary32 arithmetic, from a mesh without free slots with the vertices of
`gridMesh` and the octree `gridRoot`, `addFace` returns for a triangle that the
root of the octree keeps. -/
theorem gridFace_returns (n : Nat) (s : DynamicMesh) (i1 i2 i3 : Nat) (hinv : MeshInv s)
    (hf0 : s.freeFaceIndices = [])
    (hv : s.mesh.vertices = gridMesh.vertices) (idx : Finset Nat) (enm : List (Option Nat))
    (ho : s.octree = DynamicOctree.gridRoot idx enm) (v1 v2 v3 : Vec3)
    (q1 : gridMesh.vertices[i1]? = some v1) (q2 : gridMesh.vertices[i2]? = some v2)
    (q3 : gridMesh.vertices[i3]? = some v3) (p : Vec3) (e : ℚ)
    (hc : PrimTriangle.centerF Float32.round v1 v2 v3 = p)
    (he : PrimTriangle.maxDimExtentF Float32.round v1 v2 v3 = e)
    (hp : approxContainsF Float32.round ⟨2097153 / 512, 2097153 / 512, 2097153 / 512⟩
      (9 / 2048) p e = true) (hq : 9 / 8192 < e) (enm1 : List (Option Nat))
    (hm : DynamicOctree.addToElementNodeMap enm s.faceData.length 0 = some enm1) :
    ∃ s1 f, addFaceF Float32.round (n + 1) s i1 i2 i3 = some (s1, f) := by
  have hl : ∀ i v, gridMesh.vertices[i]? = some v → i < s.vertexData.length := by
    intro i v hi
    rw [← hinv.1.1, hv]
    exact Util.getElem?_lt_of_some hi
  refine addFaceF_returns Float32.round (n + 1) s hinv i1 i2 i3 (hl i1 v1 q1) (hl i2 v2 q2)
    (hl i3 v3 q3) v1 v2 v3 (by rw [hv]; exact q1) (by rw [hv]; exact q2) (by rw [hv]; exact q3)
    ?_
  intro f hfa _
  rw [hfa hf0, ho, hc, he, DynamicOctree.gridRoot_store idx enm _ p e n hp hq, hm]
  exact ⟨_, rfl⟩

end DynamicMesh

namespace DynamicMesh

/-- Whenever the loop of `fromMesh` over the faces returns, for a source mesh in
which every vertex is a corner of a triangle, `fromMesh` returns, and its
result differs from the result of the loop in the normals only. -/
theorem fromMeshF_of_faces (R : ℚ → ℚ) (fuel : Nat) (normalize : Vec3 → Vec3)
    (isNaN : Vec3 → Bool) (s0 : DynamicMesh) (mesh : Mesh) (s1 s2 s3 : DynamicMesh)
    (e1 : setupOctreeRootF R (reset s0) mesh = some s1)
    (hnorm : mesh.normals.length = mesh.vertices.length)
    (e2 : addVertices (mesh.vertices.zip mesh.normals) s1 = some s2)
    (h3 : mesh.indices.length % 3 = 0)
    (e3 : addFacesF R fuel mesh.indices s2 = some s3)
    (huse : ∀ v, v < mesh.vertices.length → v ∈ mesh.indices) :
    ∃ s ns, fromMeshF R fuel normalize isNaN s0 mesh = some s ∧
      s = { s3 with mesh := { s3.mesh with normals := ns } } := by
  obtain ⟨m1, vd1, vv1, fd1, ff1⟩ := setupOctreeRootF_reset R s0 s1 mesh e1
  obtain ⟨inv1, fv1⟩ := setupOctreeRootF_reset_inv R s0 s1 mesh e1
  obtain ⟨s2a, e2a, a1, a2, a3, a4, a5⟩ :=
    addVertices_total (mesh.vertices.zip mesh.normals) s1
      (by rw [vd1, m1]; rfl) (by rw [vv1, m1]; rfl) fv1
  rw [e2] at e2a
  obtain rfl := Option.some.inj e2a
  obtain ⟨inv2, fv2⟩ := addVertices_inv _ s1 s2 e2 inv1 fv1
  have hv2 : s2.mesh.vertices = mesh.vertices := by
    rw [a1, m1, List.map_fst_zip _ _ (by omega)]
    rfl
  obtain ⟨ff3, hv3, hi3, hfl3, hvl3⟩ :=
    addFacesF_frame R fuel mesh.indices s2 s3 e3 (by rw [a3, ff1])
  obtain ⟨inv3, fv3⟩ := addFacesF_inv R fuel _ s2 s3 e3 inv2 fv2
  have hi3' : s3.mesh.indices = mesh.indices := by rw [hi3, a2, m1]; rfl
  have hfl3' : s3.faceData.length = mesh.indices.length / 3 := by rw [hfl3, a5, fd1]; simp
  have hvl3' : s3.vertexData.length = mesh.vertices.length := by
    rw [← inv3.1.1, hv3, hv2]
  have hadj3 : ∀ i, i < s3.vertexData.length → s3.adjacent i ≠ [] := by
    intro i hi
    obtain ⟨p, hp, hpi⟩ := List.mem_iff_getElem.mp (huse i (by omega))
    have hp3 : p < s3.mesh.indices.length := by rw [hi3']; exact hp
    have hmem := mem_triple_of_index s3 p hp3
    have hpi3 : s3.mesh.indices[p] = i := by
      have : s3.mesh.indices[p]? = mesh.indices[p]? := by rw [hi3']
      rw [List.getElem?_eq_getElem hp3, List.getElem?_eq_getElem hp, hpi] at this
      exact Option.some.inj this
    rw [hpi3] at hmem
    have hlive : s3.liveFace (p / 3) = true :=
      free_nil_liveFace s3 inv3.2.1 ff3 (p / 3) (by rw [hfl3']; omega)
    have hc := inv3.2.2.1.2 i (p / 3)
    rw [if_pos hlive] at hc
    have hpos : 0 < (s3.triple (p / 3)).count i := List.count_pos_iff.mpr hmem
    intro hnil
    rw [hnil] at hc
    simp at hc
    omega
  obtain ⟨s4, e4⟩ := setAllNormals_total normalize isNaN (List.range s3.vertexData.length) s3 inv3
    (fun i hi => ⟨free_nil_live s3 inv3.2.1 fv3 i (List.mem_range.mp hi),
      hadj3 i (List.mem_range.mp hi)⟩)
  obtain ⟨ns, _, hs4⟩ := setAllNormals_frame normalize isNaN _ s3 s4 e4
  refine ⟨s4, ns, ?_, hs4⟩
  unfold fromMeshF
  rw [e1]
  dsimp only
  rw [if_pos hnorm, e2]
  dsimp only
  rw [if_pos (by unfold Mesh.numIndices; exact h3), e3]
  exact e4

/-- The mesh `gridMesh` after `setupOctreeRoot` and the loop of `fromMesh` over
the vertices, in binary32 arithmetic. -/
theorem gridMesh_start (mesh : Mesh) (hv : mesh.vertices = gridMesh.vertices)
    (hn : mesh.normals.length = 5) :
    ∃ s2, addVertices (mesh.vertices.zip mesh.normals)
        { reset blank with octree := DynamicOctree.gridRoot ∅ [] } = some s2 ∧
      MeshInv s2 ∧ s2.freeVertexIndices = [] ∧ s2.freeFaceIndices = [] ∧
      s2.mesh.vertices = gridMesh.vertices ∧ s2.faceData.length = 0 ∧
      s2.octree = DynamicOctree.gridRoot ∅ [] := by
  have e1 := gridMesh_setup mesh hv
  obtain ⟨inv1, fv1⟩ := setupOctreeRootF_reset_inv Float32.round blank _ mesh e1
  obtain ⟨s2, e2, a1, a2, a3, a4, a5⟩ :=
    addVertices_total (mesh.vertices.zip mesh.normals)
      { reset blank with octree := DynamicOctree.gridRoot ∅ [] } rfl rfl fv1
  obtain ⟨inv2, fv2⟩ := addVertices_inv _ _ s2 e2 inv1 fv1
  refine ⟨s2, e2, inv2, fv2, by rw [a3]; rfl, ?_, by rw [a5]; rfl, by rw [a4]⟩
  rw [a1, List.map_fst_zip _ _ (by rw [hv, hn]; rfl), hv]
  rfl

end DynamicMesh

namespace DynamicMesh

theorem gridRoot_contains0 :
    approxContainsF Float32.round ⟨2097153 / 512, 2097153 / 512, 2097153 / 512⟩ (9 / 2048)
      ⟨4194307 / 1024, 4096, 8388609 / 2048⟩ (9 / 2048) = true := by
  rw [DynamicOctree.approxContainsF_grid]
  norm_num

theorem gridRoot_contains1 :
    approxContainsF Float32.round ⟨2097153 / 512, 2097153 / 512, 2097153 / 512⟩ (9 / 2048)
      ⟨8388611 / 2048, 2097153 / 512, 8388611 / 2048⟩ (9 / 2048) = true := by
  rw [DynamicOctree.approxContainsF_grid]
  norm_num

/-- The two triangles of `gridMesh` that span the box, in binary32 arithmetic:
the loop of `fromMesh` over them returns, and leaves both in the root of the
octree. -/
theorem gridPair_faces (s2 : DynamicMesh) (hinv : MeshInv s2)
    (hv0 : s2.freeVertexIndices = []) (hf0 : s2.freeFaceIndices = [])
    (hv : s2.mesh.vertices = gridMesh.vertices) (hfd : s2.faceData.length = 0)
    (ho : s2.octree = DynamicOctree.gridRoot ∅ []) :
    (∃ s3, addFacesF Float32.round 1 [2, 3, 0, 4, 0, 1] s2 = some s3) ∧
    ∀ fuel s3, addFacesF Float32.round fuel [2, 3, 0, 4, 0, 1] s2 = some s3 →
      MeshInv s3 ∧ s3.freeVertexIndices = [] ∧ s3.freeFaceIndices = [] ∧
      s3.mesh.vertices = gridMesh.vertices ∧ s3.faceData.length = 2 ∧
      s3.octree = DynamicOctree.gridRoot (insert 1 (insert 0 ∅)) [some 0, some 0] := by
  have step0 : ∀ fuel sa f, addFaceF Float32.round fuel s2 2 3 0 = some (sa, f) →
      MeshInv sa ∧ sa.freeVertexIndices = [] ∧ sa.freeFaceIndices = [] ∧
      sa.mesh.vertices = gridMesh.vertices ∧ sa.faceData.length = 1 ∧
      sa.octree = DynamicOctree.gridRoot (insert 0 ∅) [some 0] := by
    intro fuel sa f h
    have := gridFace_store fuel s2 sa 2 3 0 f h hinv hv0 hf0 hv ∅ [] ho _ _ _ rfl rfl rfl _ _
      gridMesh_face0.1 gridMesh_face0.2 gridRoot_contains0 (by norm_num) [some 0]
      (by rw [hfd]; rfl)
    rw [hfd] at this
    exact this
  have step1 : ∀ fuel sa sb f, MeshInv sa → sa.freeVertexIndices = [] →
      sa.freeFaceIndices = [] → sa.mesh.vertices = gridMesh.vertices → sa.faceData.length = 1 →
      sa.octree = DynamicOctree.gridRoot (insert 0 ∅) [some 0] →
      addFaceF Float32.round fuel sa 4 0 1 = some (sb, f) →
      MeshInv sb ∧ sb.freeVertexIndices = [] ∧ sb.freeFaceIndices = [] ∧
      sb.mesh.vertices = gridMesh.vertices ∧ sb.faceData.length = 2 ∧
      sb.octree = DynamicOctree.gridRoot (insert 1 (insert 0 ∅)) [some 0, some 0] := by
    intro fuel sa sb f b1 b2 b3 b4 b5 b6 h
    have := gridFace_store fuel sa sb 4 0 1 f h b1 b2 b3 b4 (insert 0 ∅) [some 0] b6 _ _ _
      rfl rfl rfl _ _ gridMesh_face1.1 gridMesh_face1.2 gridRoot_contains1 (by norm_num)
      [some 0, some 0] (by rw [b5]; rfl)
    rw [b5] at this
    exact this
  constructor
  · obtain ⟨sa, fa, ha⟩ := gridFace_returns 0 s2 2 3 0 hinv hf0 hv ∅ [] ho _ _ _ rfl rfl rfl _ _
      gridMesh_face0.1 gridMesh_face0.2 gridRoot_contains0 (by norm_num) [some 0]
      (by rw [hfd]; rfl)
    obtain ⟨b1, b2, b3, b4, b5, b6⟩ := step0 _ sa fa ha
    obtain ⟨sb, fb, hb⟩ := gridFace_returns 0 sa 4 0 1 b1 b3 b4 (insert 0 ∅) [some 0] b6 _ _ _
      rfl rfl rfl _ _ gridMesh_face1.1 gridMesh_face1.2 gridRoot_contains1 (by norm_num)
      [some 0, some 0] (by rw [b5]; rfl)
    refine ⟨sb, ?_⟩
    rw [addFacesF, ha]
    simp only
    rw [addFacesF, hb]
    simp only
    rw [addFacesF]
  · intro fuel s3 h
    rw [addFacesF] at h
    cases ha : addFaceF Float32.round fuel s2 2 3 0 with
    | none => rw [ha] at h; exact Option.noConfusion h
    | some r =>
      obtain ⟨sa, fa⟩ := r
      rw [ha] at h
      simp only at h
      obtain ⟨b1, b2, b3, b4, b5, b6⟩ := step0 _ sa fa ha
      rw [addFacesF] at h
      cases hb : addFaceF Float32.round fuel sa 4 0 1 with
      | none => rw [hb] at h; exact Option.noConfusion h
      | some r =>
        obtain ⟨sb, fb⟩ := r
        rw [hb] at h
        simp only at h
        rw [addFacesF] at h
        obtain rfl := Option.some.inj h
        exact step1 _ sa sb fb b1 b2 b3 b4 b5 b6 hb

/-- In binary32 arithmetic `fromMesh` does not return for the source mesh
`gridMesh`: the small triangle makes the descent of the octree fail its
assertion. -/
theorem gridMesh_aborts (fuel : Nat) (normalize : Vec3 → Vec3) (isNaN : Vec3 → Bool) :
    fromMeshF Float32.round fuel normalize isNaN blank gridMesh = none := by
  obtain ⟨s2, e2, i2, fv2, ff2, hv2, hfd2, ho2⟩ := gridMesh_start gridMesh rfl rfl
  obtain ⟨_, hall⟩ := gridPair_faces s2 i2 fv2 ff2 hv2 hfd2 ho2
  have hfaces : addFacesF Float32.round fuel [2, 3, 0, 4, 0, 1, 2, 3, 4] s2 = none := by
    rw [addFacesF]
    cases ha : addFaceF Float32.round fuel s2 2 3 0 with
    | none => rfl
    | some r =>
      obtain ⟨sa, fa⟩ := r
      simp only
      rw [addFacesF]
      cases hb : addFaceF Float32.round fuel sa 4 0 1 with
      | none => rfl
      | some r =>
        obtain ⟨sb, fb⟩ := r
        simp only
        have h6 : addFacesF Float32.round fuel [2, 3, 0, 4, 0, 1] s2 = some sb := by
          rw [addFacesF, ha]
          simp only
          rw [addFacesF, hb]
          simp only
          rw [addFacesF]
        obtain ⟨c1, _, _, c4, _, c6⟩ := hall fuel sb h6
        rw [addFacesF, gridFace_abort fuel sb c1.1 c1.2.1 c4 _ _ c6]
  unfold fromMeshF
  rw [gridMesh_setup gridMesh rfl]
  dsimp only
  rw [if_pos (show gridMesh.normals.length = gridMesh.vertices.length from rfl), e2]
  dsimp only
  rw [if_pos (show gridMesh.numIndices % 3 = 0 from rfl)]
  have hidx : gridMesh.indices = [2, 3, 0, 4, 0, 1, 2, 3, 4] := rfl
  rw [hidx, hfaces]

end DynamicMesh

namespace Float32

theorem roundEven_nonneg (y : ℚ) (h : 0 ≤ y) : 0 ≤ roundEven y := by
  have hf : 0 ≤ ⌊y⌋ := Int.floor_nonneg.mpr h
  unfold roundEven
  split
  · exact hf
  · split
    · omega
    · split
      · exact hf
      · omega

/-- A result that is not negative has a binary32 value that is not negative. -/
theorem round_nonneg (x : ℚ) (h : 0 ≤ x) : 0 ≤ round x := by
  unfold round
  have hu : 0 < ulp x := by
    unfold ulp
    exact zpow_pos (by norm_num) _
  have : (0 : ℚ) ≤ roundEven (x / ulp x) := by
    exact_mod_cast roundEven_nonneg _ (div_nonneg h (le_of_lt hu))
  exact mul_nonneg this (le_of_lt hu)

end Float32

namespace Octree

/-- With an extent that is not positive the descent never ends: every node hands
the element to a child, in every arithmetic `R` that keeps the sign. -/
theorem nodeAddElementF_nonpos (R : ℚ → ℚ) (hR : ∀ x, 0 ≤ x → 0 ≤ R x) (index : Nat) (p : Vec3)
    (e : ℚ) (he : e ≤ 0) :
    ∀ fuel next t, GeomF R t → nodeAddElementF R fuel index p e next t = none := by
  intro fuel
  induction fuel with
  | zero => intro next t _; simp [nodeAddElementF]
  | succ fuel ih =>
    intro next t hg
    cases t with
    | none => simp [nodeAddElementF]
    | node a c w d ch idx =>
      rw [nodeAddElementF]
      by_cases happ : approxContainsF R c w p e = true
      · rw [if_pos happ]
        have hw : 0 < w := ((geomF_node R a c w d ch idx).mp hg).1
        have hins : insertIntoChildF R w e = true := by
          unfold insertIntoChildF relativeMinElementExtent
          have := hR (w * (1 / 4)) (by positivity)
          exact decide_eq_true (le_trans he this)
        rw [if_pos hins]
        cases hc : childOrMakeF R next c w d ch (childIndex c p) with
        | none => rfl
        | some r =>
          obtain ⟨child, next1⟩ := r
          have hgc := (childOrMakeF_geom R next c w d ch _ child next1 hc
            (geomF_irrel R a 0 c w d ch idx ∅ hg)).1
          simp only [ih next1 child hgc]
      · rw [if_neg happ]

end Octree

namespace DynamicOctree

/-- With an extent that is not positive `addElement` does not return, in every
arithmetic `R` that keeps the sign. -/
theorem addElementF_nonpos (R : ℚ → ℚ) (hR : ∀ x, 0 ≤ x → 0 ≤ R x) (index : Nat) (p : Vec3)
    (e : ℚ) (he : e ≤ 0) :
    ∀ fuel o, GeomF R o.root → addElementF R fuel o index p e = none := by
  intro fuel
  induction fuel with
  | zero => intro o _; simp [addElementF]
  | succ fuel ih =>
    intro o hg
    rw [addElementF]
    cases hr : o.root with
    | none => rfl
    | node a c w d ch idx =>
      simp only
      by_cases happ : approxContainsF R c w p e = true
      · rw [if_pos happ, nodeAddElementF_nonpos R hR index p e he _ _ _ (by rw [← hr]; exact hg)]
      · rw [if_neg happ]
        cases hm : makeParentF R o p with
        | none => rfl
        | some o1 => simp only [ih o1 (makeParentF_geom R o o1 p hm hg)]

theorem updateIndices_geomF (R : ℚ → ℚ) (o o1 : DynamicOctree) (m : List Nat)
    (h : updateIndices o m = some o1) (hg : GeomF R o.root) : GeomF R o1.root :=
  stepF_geom R (fun _ _ => True) o o1 (StepF.updateIndices o o1 m trivial h) hg

end DynamicOctree

namespace DynamicMesh

/-- The stages of a call of `fromMesh` that returns. -/
theorem fromMeshF_stages (R : ℚ → ℚ) (fuel : Nat) (normalize : Vec3 → Vec3)
    (isNaN : Vec3 → Bool) (s0 : DynamicMesh) (mesh : Mesh) (s : DynamicMesh)
    (h : fromMeshF R fuel normalize isNaN s0 mesh = some s) :
    ∃ s1 s2 s3, setupOctreeRootF R (reset s0) mesh = some s1 ∧
      addVertices (mesh.vertices.zip mesh.normals) s1 = some s2 ∧
      addFacesF R fuel mesh.indices s2 = some s3 ∧
      setAllNormals normalize isNaN (List.range s3.vertexData.length) s3 = some s ∧
      MeshInv s2 ∧ s2.freeVertexIndices = [] ∧ s2.freeFaceIndices = [] ∧
      s2.octree = s1.octree ∧ s2.mesh.vertices = mesh.vertices ∧ s2.mesh.indices = [] ∧
      s2.faceData = [] := by
  unfold fromMeshF at h
  split at h
  · simp at h
  · rename_i s1 e1
    obtain ⟨m1, vd1, vv1, fd1, ff1⟩ := setupOctreeRootF_reset R s0 s1 mesh e1
    obtain ⟨inv1, fv1⟩ := setupOctreeRootF_reset_inv R s0 s1 mesh e1
    split at h
    · rename_i hnorm
      split at h
      · simp at h
      · rename_i s2 e2
        obtain ⟨s2a, e2a, a1, a2, a3, a4, a5⟩ :=
          addVertices_total (mesh.vertices.zip mesh.normals) s1
            (by rw [vd1, m1]; rfl) (by rw [vv1, m1]; rfl) fv1
        rw [e2] at e2a
        obtain rfl := Option.some.inj e2a
        obtain ⟨inv2, fv2⟩ := addVertices_inv _ s1 s2 e2 inv1 fv1
        have hv2 : s2.mesh.vertices = mesh.vertices := by
          rw [a1, m1, List.map_fst_zip _ _ (by omega)]
          rfl
        split at h
        · split at h
          · simp at h
          · rename_i s3 e3
            exact ⟨s1, s2, s3, e1, e2, e3, h, inv2, fv2, by rw [a3, ff1], a4, hv2,
              by rw [a2, m1], by rw [a5, fd1]⟩
        · simp at h
    · simp at h

theorem setupOctreeRootF_geom (R : ℚ → ℚ) (s s1 : DynamicMesh) (mesh : Mesh)
    (h : setupOctreeRootF R (reset s) mesh = some s1) : GeomF R s1.octree.root := by
  unfold setupOctreeRootF at h
  split at h
  · split at h
    · simp only [Option.map_eq_some'] at h
      obtain ⟨o, ho, rfl⟩ := h
      exact DynamicOctree.reachableF_geom R (fun _ _ => True) o
        (DynamicOctree.ReachableWithF.setupRoot s.octree.heapNext _ _ o ho)
    · simp at h
  · simp at h

theorem addFacesF_geom (R : ℚ → ℚ) (fuel : Nat) : ∀ (l : List Nat) (s s1 : DynamicMesh),
    addFacesF R fuel l s = some s1 → MeshInv s → s.freeVertexIndices = [] →
    GeomF R s.octree.root → GeomF R s1.octree.root
  | [], s, s1, h, _, _, hg => by
    simp only [addFacesF, Option.some.injEq] at h
    subst h; exact hg
  | [_], s, s1, h, _, _, _ => by simp [addFacesF] at h
  | [_, _], s, s1, h, _, _, _ => by simp [addFacesF] at h
  | i1 :: i2 :: i3 :: rest, s, s1, h, hinv, h0, hg => by
    simp only [addFacesF] at h
    split at h
    · simp at h
    · rename_i s2 f h2
      obtain ⟨l1, l2, l3⟩ := addFaceF_lt R fuel s i1 i2 i3 _ h2
      have hz := hinv.1.1
      have hlive : s.liveVertex i1 = true ∧ s.liveVertex i2 = true ∧ s.liveVertex i3 = true :=
        ⟨free_nil_live s hinv.2.1 h0 i1 (by omega), free_nil_live s hinv.2.1 h0 i2 (by omega),
          free_nil_live s hinv.2.1 h0 i3 (by omega)⟩
      have hinv2 := addFaceF_inv R fuel s s2 i1 i2 i3 f h2 hlive hinv
      obtain ⟨⟨c, e, ho⟩, e1, _⟩ := addFaceF_frame R fuel s s2 i1 i2 i3 f h2 hinv.1 hinv.2.1
      exact addFacesF_geom R fuel rest s2 s1 h hinv2 (by rw [e1, h0])
        (DynamicOctree.addElementF_geom R fuel _ _ f c e ho hg)

theorem fromMeshF_geom (R : ℚ → ℚ) (fuel : Nat) (normalize : Vec3 → Vec3)
    (isNaN : Vec3 → Bool) (s0 : DynamicMesh) (mesh : Mesh) (s : DynamicMesh)
    (h : fromMeshF R fuel normalize isNaN s0 mesh = some s) : GeomF R s.octree.root := by
  obtain ⟨s1, s2, s3, e1, _, e3, e4, inv2, fv2, _, ho, _⟩ :=
    fromMeshF_stages R fuel normalize isNaN s0 mesh s h
  obtain ⟨ns, _, rfl⟩ := setAllNormals_frame normalize isNaN _ s3 s e4
  exact addFacesF_geom R fuel _ s2 s3 e3 inv2 fv2 (by rw [ho]; exact setupOctreeRootF_geom R s0 s1 mesh e1)

theorem deleteFaces_geomF (R : ℚ → ℚ) : ∀ (fs : List Nat) (s s1 : DynamicMesh),
    deleteFaces fs s = some s1 → GeomF R s.octree.root → GeomF R s1.octree.root := by
  intro fs
  induction fs with
  | nil =>
    intro s s1 h hg
    simp only [deleteFaces, Option.some.injEq] at h
    subst h; exact hg
  | cons f fs ih =>
    intro s s1 h hg
    simp only [deleteFaces] at h
    split at h
    · simp at h
    · rename_i s2 h2
      exact ih s2 s1 h (DynamicOctree.deleteElement_geomF R _ _ f (deleteFace_frame s s2 f h2).1 hg)

theorem prune_geomF (R : ℚ → ℚ) (s s1 : DynamicMesh) (pv pf rv rf : Option (List Nat))
    (h : prune s pv pf = some (s1, rv, rf)) (hg : GeomF R s.octree.root) :
    GeomF R s1.octree.root := by
  unfold prune at h
  split at h
  · split at h
    · split at h
      · simp at h
      · split at h
        · simp at h
        · simp only at h
          split at h
          · split at h
            · simp at h
            · split at h
              · simp at h
              · rename_i o ho
                simp only [Option.some.injEq, Prod.mk.injEq] at h
                obtain ⟨rfl, _, _⟩ := h
                exact DynamicOctree.updateIndices_geomF R _ o _ ho hg
          · simp at h
    · simp at h
  · simp only [Option.some.injEq, Prod.mk.injEq] at h
    obtain ⟨rfl, _, _⟩ := h
    exact hg

/-- In every mesh reachable in the float arithmetic `R` the octree has the
geometry that the float operations make. -/
theorem meshReachableF_geom (R : ℚ → ℚ) (s : DynamicMesh) (h : ReachableF R s) :
    GeomF R s.octree.root := by
  unfold ReachableF at h
  induction h with
  | fromMesh fuel normalize isNaN s0 mesh s h _ => exact fromMeshF_geom R fuel normalize isNaN s0 mesh s h
  | step s s1 hr hstep _ ih =>
    have hinv := reachableF_inv R s hr
    cases hstep with
    | addVertex _ _ vertex normal i h =>
      obtain ⟨_, _, e3, _⟩ := addVertex_frame s s1 vertex normal i h hinv.1 hinv.2.1
      rw [e3]; exact ih
    | addFace fuel _ _ i1 i2 i3 f hl h =>
      obtain ⟨⟨c, e, ho⟩, _⟩ := addFaceF_frame R fuel s s1 i1 i2 i3 f h hinv.1 hinv.2.1
      exact DynamicOctree.addElementF_geom R fuel _ _ f c e ho ih
    | deleteFace _ _ f hl h =>
      exact DynamicOctree.deleteElement_geomF R _ _ f (deleteFace_frame s s1 f h).1 ih
    | deleteVertex _ _ v hl h =>
      obtain ⟨s2, h2, _, rfl⟩ := deleteVertex_frame s s1 v h
      exact deleteFaces_geomF R _ s s2 h2 ih
    | prune _ _ pv pf rv rf h => exact prune_geomF R s s1 pv pf rv rf h ih

end DynamicMesh

namespace DynamicMesh

/-- A triangle with its three corners at one vertex has the extent `R 0`, and
`addFace` does not return for it, in every arithmetic `R` that keeps the sign
and the zero. -/
theorem addFaceF_degenerate (R : ℚ → ℚ) (hR : ∀ x, 0 ≤ x → 0 ≤ R x) (hRz : R 0 = 0)
    (fuel : Nat) (s : DynamicMesh) (i : Nat) (hs : Sizes s) (hf : FreeLists s)
    (hg : GeomF R s.octree.root) : addFaceF R fuel s i i i = none := by
  cases h : addFaceF R fuel s i i i with
  | none => rfl
  | some r =>
    exfalso
    obtain ⟨s1, f⟩ := r
    obtain ⟨v1, v2, v3, p1, p2, p3, ho⟩ := addFaceF_octree R fuel s s1 i i i f h hs hf
    rw [p1] at p2 p3
    obtain rfl := Option.some.inj p2
    obtain rfl := Option.some.inj p3
    have he : PrimTriangle.maxDimExtentF R v1 v1 v1 ≤ 0 := by
      unfold PrimTriangle.maxDimExtentF
      simp only [max_self, min_self, sub_self, hRz]
      exact le_refl _
    rw [DynamicOctree.addElementF_nonpos R hR f _ _ he fuel _ hg] at ho
    exact Option.noConfusion ho

/-- A source mesh whose first triangle has its three corners at one vertex makes
`fromMesh` fail, in every arithmetic `R` that keeps the sign and the zero. -/
theorem fromMeshF_degenerate (R : ℚ → ℚ) (hR : ∀ x, 0 ≤ x → 0 ≤ R x) (hRz : R 0 = 0)
    (fuel : Nat) (normalize : Vec3 → Vec3) (isNaN : Vec3 → Bool) (s0 : DynamicMesh)
    (mesh : Mesh) (i : Nat) (rest : List Nat) (hidx : mesh.indices = i :: i :: i :: rest) :
    fromMeshF R fuel normalize isNaN s0 mesh = none := by
  cases h : fromMeshF R fuel normalize isNaN s0 mesh with
  | none => rfl
  | some s =>
    exfalso
    obtain ⟨s1, s2, s3, e1, _, e3, _, inv2, _, _, ho, _⟩ :=
      fromMeshF_stages R fuel normalize isNaN s0 mesh s h
    rw [hidx, addFacesF, addFaceF_degenerate R hR hRz fuel s2 i inv2.1 inv2.2.1
      (by rw [ho]; exact setupOctreeRootF_geom R s0 s1 mesh e1)] at e3
    exact Option.noConfusion e3

/-- A source mesh with a vertex that is a corner of no triangle makes `fromMesh`
fail, in every arithmetic: `setAllNormals` asserts that every vertex has an
adjacent face. -/
theorem fromMeshF_isolated (R : ℚ → ℚ) (fuel : Nat) (normalize : Vec3 → Vec3)
    (isNaN : Vec3 → Bool) (s0 : DynamicMesh) (mesh : Mesh) (v : Nat)
    (hv : v < mesh.vertices.length) (hnot : v ∉ mesh.indices) :
    fromMeshF R fuel normalize isNaN s0 mesh = none := by
  cases h : fromMeshF R fuel normalize isNaN s0 mesh with
  | none => rfl
  | some s =>
    exfalso
    obtain ⟨s1, s2, s3, e1, _, e3, e4, inv2, fv2, ff2, _, hv2, hi2, _⟩ :=
      fromMeshF_stages R fuel normalize isNaN s0 mesh s h
    obtain ⟨ff3, hv3, hi3, _, hvl3⟩ := addFacesF_frame R fuel mesh.indices s2 s3 e3 ff2
    obtain ⟨inv3, fv3⟩ := addFacesF_inv R fuel _ s2 s3 e3 inv2 fv2
    have hlen : s3.vertexData.length = mesh.vertices.length := by
      rw [← inv3.1.1, hv3, hv2]
    have hlive : s3.liveVertex v = true :=
      free_nil_live s3 inv3.2.1 fv3 v (by rw [hlen]; exact hv)
    have hidx : s3.mesh.indices = mesh.indices := by rw [hi3, hi2]; rfl
    have hadj : s3.adjacent v = [] := by
      apply List.eq_nil_iff_forall_not_mem.mpr
      intro f hmem
      have hc := inv3.2.2.1.2 v f
      have hpos : 0 < (s3.adjacent v).count f := List.count_pos_iff.mpr hmem
      by_cases hl : s3.liveFace f = true
      · rw [if_pos hl] at hc
        have hin : v ∈ s3.triple f := List.count_pos_iff.mp (by omega)
        obtain ⟨t0, t1, t2⟩ := triple_indices s3 inv3.1 f (liveFace_lt s3 f hl)
        unfold triple at hin
        simp only [List.mem_cons, List.mem_singleton, List.not_mem_nil, or_false] at hin
        rcases hin with rfl | rfl | rfl
        · exact hnot (by rw [← hidx]; exact List.getElem?_mem t0)
        · exact hnot (by rw [← hidx]; exact List.getElem?_mem t1)
        · exact hnot (by rw [← hidx]; exact List.getElem?_mem t2)
      · rw [if_neg hl] at hc
        omega
    have hd : s3.vertexData[v]? = some ⟨false, []⟩ := by
      have hlt : v < s3.vertexData.length := by rw [hlen]; exact hv
      unfold liveVertex VertexData.liveIn at hlive
      unfold adjacent VertexData.adjacentIn at hadj
      rw [List.getElem?_eq_getElem hlt] at hlive hadj ⊢
      simp only at hlive hadj
      cases hx : s3.vertexData[v] with
      | mk free adj =>
        rw [hx] at hlive hadj
        simp only [Bool.not_eq_true', Option.some.injEq] at hlive hadj ⊢
        rw [show free = false by simpa using hlive, show adj = [] from hadj]
    have := setAllNormals_isolated normalize isNaN v (List.range s3.vertexData.length) s3
      (List.mem_range.mpr (by rw [hlen]; exact hv)) hd
    rw [this] at e4
    exact Option.noConfusion e4

end DynamicMesh

namespace DynamicMesh

theorem gridMesh_extent (idx : List Nat) (hsub : ∀ t ∈ MeshUtil.triangles idx,
      t = (2, 3, 0) ∨ t = (4, 0, 1) ∨ t = (2, 3, 4))
    (t : Nat × Nat × Nat) (ht : t ∈ MeshUtil.triangles idx)
    (v1 v2 v3 : Vec3) (h1 : gridMesh.vertices[t.1]? = some v1)
    (h2 : gridMesh.vertices[t.2.1]? = some v2) (h3 : gridMesh.vertices[t.2.2]? = some v3) :
    0 < PrimTriangle.maxDimExtent v1 v2 v3 := by
  rcases hsub t ht with rfl | rfl | rfl
  · simp [gridMesh] at h1 h2 h3
    subst h1 h2 h3
    simp [PrimTriangle.maxDimExtent]
    norm_num
  · simp [gridMesh] at h1 h2 h3
    subst h1 h2 h3
    simp [PrimTriangle.maxDimExtent]
    norm_num
  · simp [gridMesh] at h1 h2 h3
    subst h1 h2 h3
    simp [PrimTriangle.maxDimExtent]
    norm_num

theorem gridMesh_triangles : ∀ t ∈ MeshUtil.triangles gridMesh.indices,
    t = (2, 3, 0) ∨ t = (4, 0, 1) ∨ t = (2, 3, 4) := by
  intro t ht
  simpa [MeshUtil.triangles, gridMesh] using ht

theorem gridPair_triangles : ∀ t ∈ MeshUtil.triangles gridPair.indices,
    t = (2, 3, 0) ∨ t = (4, 0, 1) ∨ t = (2, 3, 4) := by
  intro t ht
  have : t = (2, 3, 0) ∨ t = (4, 0, 1) := by
    simpa [MeshUtil.triangles, gridPair] using ht
  rcases this with h | h
  · exact Or.inl h
  · exact Or.inr (Or.inl h)

end DynamicMesh

namespace DynamicMesh

/-- In binary32 arithmetic `fromMesh` returns for the source mesh `gridPair`. -/
theorem gridPair_builds (normalize : Vec3 → Vec3) (isNaN : Vec3 → Bool) :
    ∃ s, fromMeshF Float32.round 1 normalize isNaN blank gridPair = some s ∧
      s.mesh.vertices = gridMesh.vertices ∧ s.faceData.length = 2 ∧ s.freeFaceIndices = [] ∧
      s.freeVertexIndices = [] ∧
      s.octree = DynamicOctree.gridRoot (insert 1 (insert 0 ∅)) [some 0, some 0] := by
  obtain ⟨s2, e2, i2, fv2, ff2, hv2, hfd2, ho2⟩ := gridMesh_start gridPair rfl rfl
  obtain ⟨⟨s3, e3⟩, hall⟩ := gridPair_faces s2 i2 fv2 ff2 hv2 hfd2 ho2
  obtain ⟨_, c2, c3, c4, c5, c6⟩ := hall 1 s3 e3
  obtain ⟨s, ns, hs, rfl⟩ := fromMeshF_of_faces Float32.round 1 normalize isNaN blank gridPair _ s2
    s3 (gridMesh_setup gridPair rfl) rfl e2 rfl e3
    (by intro v hv; have : v < 5 := hv; simp [gridPair]; omega)
  exact ⟨_, hs, c4, c5, c3, c2, c6⟩

/-- C24, amended. In the float arithmetic `R` (every operation of the code
followed by the rounding `R`), for every source mesh with a bounding box of
positive extent, as many normals as vertices and a valid triangle index list,
in which every vertex is a corner of a triangle and no triangle has all its
corners at one position: whenever `fromMesh` returns, it yields a pruned mesh
with the vertex count of the source and a third of its index count as face
count, in which the face `i` has the source triple, the vertex `i` the source
position, a face occurs in the adjacency list of a vertex as often as the
vertex occurs in its triple, and every face is registered in the octree; and in
exact arithmetic (`R x = x`) `fromMesh` does return when it is given enough
steps. -/
theorem fromMesh_builds (R : ℚ → ℚ) (normalize : Vec3 → Vec3) (isNaN : Vec3 → Bool)
    (s0 : DynamicMesh) (mesh : Mesh) (mn mx : Vec3) (hbox : mesh.minMax = some (mn, mx))
    (hwidth : 0 < max (max (mx.x - mn.x) (mx.y - mn.y)) (mx.z - mn.z))
    (hnorm : mesh.normals.length = mesh.vertices.length)
    (h3 : mesh.indices.length % 3 = 0) (hval : ∀ x ∈ mesh.indices, x < mesh.vertices.length)
    (huse : ∀ v, v < mesh.vertices.length → v ∈ mesh.indices)
    (hext : ∀ t ∈ MeshUtil.triangles mesh.indices, ∀ v1 v2 v3, mesh.vertices[t.1]? = some v1 →
      mesh.vertices[t.2.1]? = some v2 → mesh.vertices[t.2.2]? = some v3 →
      0 < PrimTriangle.maxDimExtent v1 v2 v3) :
    (∀ fuel s, fromMeshF R fuel normalize isNaN s0 mesh = some s →
      s.isPruned = true ∧ s.numVertices = some mesh.vertices.length ∧
      s.numFaces = some (mesh.indices.length / 3) ∧
      (∀ i, i < mesh.indices.length / 3 →
        s.vertexIndices i = some (mesh.indices.getD (3 * i) 0, mesh.indices.getD (3 * i + 1) 0,
          mesh.indices.getD (3 * i + 2) 0)) ∧
      (∀ i, i < mesh.vertices.length → s.mesh.vertex i = mesh.vertex i) ∧
      (∀ v f, (s.adjacent v).count f =
        if f < mesh.indices.length / 3 then
          [mesh.indices.getD (3 * f) 0, mesh.indices.getD (3 * f + 1) 0,
            mesh.indices.getD (3 * f + 2) 0].count v
        else 0) ∧
      (∀ f, f < mesh.indices.length / 3 → ∃ a, s.octree.nodeOf f = some a)) ∧
    ((∀ x, R x = x) →
      ∃ fuel s, ∀ fuel1, fuel ≤ fuel1 → fromMeshF R fuel1 normalize isNaN s0 mesh = some s) := by
  refine ⟨fun fuel s h => fromMeshF_props R fuel normalize isNaN s0 mesh s h, fun hR => ?_⟩
  obtain rfl := DynamicOctree.exact_eq_id R hR
  rw [fromMeshF_exact]
  obtain ⟨fuel, s, hs, _⟩ := fromMesh_builds_exact normalize isNaN s0 mesh mn mx hbox hwidth hnorm
    h3 hval huse hext
  exact ⟨fuel, s, hs⟩

/-- C24, amended, in exact arithmetic at the source mesh with one triangle, and
in binary32 arithmetic at the source mesh `gridPair`. -/
theorem fromMesh_builds_witness :
    (triMesh.minMax = some (⟨0, 0, 0⟩, ⟨1, 1, 0⟩) ∧
    (0 : ℚ) < max (max (1 - 0) (1 - 0)) (0 - 0) ∧
    triMesh.normals.length = triMesh.vertices.length ∧ triMesh.indices.length % 3 = 0 ∧
    (∀ x ∈ triMesh.indices, x < triMesh.vertices.length) ∧
    (∀ v, v < triMesh.vertices.length → v ∈ triMesh.indices) ∧
    (∀ t ∈ MeshUtil.triangles triMesh.indices, ∀ v1 v2 v3, triMesh.vertices[t.1]? = some v1 →
      triMesh.vertices[t.2.1]? = some v2 → triMesh.vertices[t.2.2]? = some v3 →
      0 < PrimTriangle.maxDimExtent v1 v2 v3) ∧
    (∀ fuel s, fromMeshF id fuel id (fun _ => false) blank triMesh = some s →
      s.isPruned = true ∧ s.numVertices = some triMesh.vertices.length ∧
      s.numFaces = some (triMesh.indices.length / 3) ∧
      (∀ i, i < triMesh.indices.length / 3 →
        s.vertexIndices i = some (triMesh.indices.getD (3 * i) 0, triMesh.indices.getD (3 * i + 1) 0,
          triMesh.indices.getD (3 * i + 2) 0)) ∧
      (∀ i, i < triMesh.vertices.length → s.mesh.vertex i = triMesh.vertex i) ∧
      (∀ v f, (s.adjacent v).count f =
        if f < triMesh.indices.length / 3 then
          [triMesh.indices.getD (3 * f) 0, triMesh.indices.getD (3 * f + 1) 0,
            triMesh.indices.getD (3 * f + 2) 0].count v
        else 0) ∧
      (∀ f, f < triMesh.indices.length / 3 → ∃ a, s.octree.nodeOf f = some a)) ∧
    ∃ fuel s, ∀ fuel1, fuel ≤ fuel1 →
      fromMeshF id fuel1 id (fun _ => false) blank triMesh = some s) ∧
    (gridPair.minMax = some (⟨4096, 4096, 4096⟩, ⟨8388617 / 2048, 8388617 / 2048, 8388617 / 2048⟩) ∧
    (0 : ℚ) < max (max (8388617 / 2048 - 4096) (8388617 / 2048 - 4096)) (8388617 / 2048 - 4096) ∧
    gridPair.normals.length = gridPair.vertices.length ∧ gridPair.indices.length % 3 = 0 ∧
    (∀ x ∈ gridPair.indices, x < gridPair.vertices.length) ∧
    (∀ v, v < gridPair.vertices.length → v ∈ gridPair.indices) ∧
    (∀ t ∈ MeshUtil.triangles gridPair.indices, ∀ v1 v2 v3, gridPair.vertices[t.1]? = some v1 →
      gridPair.vertices[t.2.1]? = some v2 → gridPair.vertices[t.2.2]? = some v3 →
      0 < PrimTriangle.maxDimExtent v1 v2 v3) ∧
    ∃ s, fromMeshF Float32.round 1 id (fun _ => false) blank gridPair = some s ∧
      s.isPruned = true ∧ s.numVertices = some gridPair.vertices.length ∧
      s.numFaces = some (gridPair.indices.length / 3) ∧
      (∀ i, i < gridPair.indices.length / 3 →
        s.vertexIndices i = some (gridPair.indices.getD (3 * i) 0, gridPair.indices.getD (3 * i + 1) 0,
          gridPair.indices.getD (3 * i + 2) 0)) ∧
      (∀ i, i < gridPair.vertices.length → s.mesh.vertex i = gridPair.vertex i) ∧
      (∀ v f, (s.adjacent v).count f =
        if f < gridPair.indices.length / 3 then
          [gridPair.indices.getD (3 * f) 0, gridPair.indices.getD (3 * f + 1) 0,
            gridPair.indices.getD (3 * f + 2) 0].count v
        else 0) ∧
      (∀ f, f < gridPair.indices.length / 3 → ∃ a, s.octree.nodeOf f = some a)) :=
  have t1 : ∀ x ∈ triMesh.indices, x < triMesh.vertices.length := by simp [triMesh]
  have t2 : ∀ v, v < triMesh.vertices.length → v ∈ triMesh.indices := by
    intro v hv; simp [triMesh] at hv ⊢; omega
  have g1 : ∀ x ∈ gridPair.indices, x < gridPair.vertices.length := by
    simp [gridPair, gridMesh]
  have g2 : ∀ v, v < gridPair.vertices.length → v ∈ gridPair.indices := by
    intro v hv; have : v < 5 := hv; simp [gridPair]; omega
  have g3 := gridMesh_extent gridPair.indices gridPair_triangles
  have gw : (0 : ℚ) <
      max (max (8388617 / 2048 - 4096) (8388617 / 2048 - 4096)) (8388617 / 2048 - 4096) := by
    norm_num
  ⟨⟨triMesh_minMax, by norm_num, rfl, rfl, t1, t2, triMesh_extent,
    (fromMesh_builds id id (fun _ => false) blank triMesh ⟨0, 0, 0⟩ ⟨1, 1, 0⟩ triMesh_minMax
      (by norm_num) rfl rfl t1 t2 triMesh_extent).1,
    (fromMesh_builds id id (fun _ => false) blank triMesh ⟨0, 0, 0⟩ ⟨1, 1, 0⟩ triMesh_minMax
      (by norm_num) rfl rfl t1 t2 triMesh_extent).2 (fun _ => rfl)⟩,
    ⟨gridMesh_minMax, gw, rfl, rfl, g1, g2, g3,
      (gridPair_builds id (fun _ => false)).elim (fun s hs => ⟨s, hs.1,
        (fromMesh_builds Float32.round id (fun _ => false) blank gridPair _ _ gridMesh_minMax gw
          rfl rfl g1 g2 g3).1 1 s hs.1⟩)⟩⟩

/-- C24 as stated fails. A source mesh with a bounding box of positive extent and
a valid triangle index list, one of whose vertices is a corner of no triangle
(`isoMesh`): `fromMesh` fails the assertion of `averageNormal`, in every
arithmetic. One with a triangle that has its three corners at one vertex
(`pointMesh`): the descent of the octree does not end, in exact and in binary32
arithmetic. And one in which every vertex is a corner of a triangle and every
triangle has a positive extent (`gridMesh`): in binary32 arithmetic `fromMesh`
fails the assertion at the start of `IndexOctreeNode::addElement` for the third
triangle, however many steps it is given, while in exact arithmetic it
returns. -/
theorem fromMesh_counterexample :
    (isoMesh.minMax = some (⟨0, 0, 0⟩, ⟨1, 1, 0⟩) ∧
      isoMesh.normals.length = isoMesh.vertices.length ∧ isoMesh.indices.length % 3 = 0 ∧
      (∀ x ∈ isoMesh.indices, x < isoMesh.vertices.length) ∧
      ∀ R normalize isNaN fuel, fromMeshF R fuel normalize isNaN blank isoMesh = none) ∧
    (pointMesh.minMax = some (⟨0, 0, 0⟩, ⟨1, 1, 0⟩) ∧
      pointMesh.normals.length = pointMesh.vertices.length ∧ pointMesh.indices.length % 3 = 0 ∧
      (∀ x ∈ pointMesh.indices, x < pointMesh.vertices.length) ∧
      (∀ normalize isNaN fuel, fromMesh fuel normalize isNaN blank pointMesh = none) ∧
      ∀ normalize isNaN fuel,
        fromMeshF Float32.round fuel normalize isNaN blank pointMesh = none) ∧
    (gridMesh.minMax = some (⟨4096, 4096, 4096⟩, ⟨8388617 / 2048, 8388617 / 2048, 8388617 / 2048⟩) ∧
      (0 : ℚ) <
        max (max (8388617 / 2048 - 4096) (8388617 / 2048 - 4096)) (8388617 / 2048 - 4096) ∧
      gridMesh.normals.length = gridMesh.vertices.length ∧ gridMesh.indices.length % 3 = 0 ∧
      (∀ x ∈ gridMesh.indices, x < gridMesh.vertices.length) ∧
      (∀ v, v < gridMesh.vertices.length → v ∈ gridMesh.indices) ∧
      (∀ t ∈ MeshUtil.triangles gridMesh.indices, ∀ v1 v2 v3, gridMesh.vertices[t.1]? = some v1 →
        gridMesh.vertices[t.2.1]? = some v2 → gridMesh.vertices[t.2.2]? = some v3 →
        0 < PrimTriangle.maxDimExtent v1 v2 v3) ∧
      (∀ normalize isNaN fuel,
        fromMeshF Float32.round fuel normalize isNaN blank gridMesh = none) ∧
      ∀ normalize isNaN, ∃ fuel s, fromMesh fuel normalize isNaN blank gridMesh = some s) := by
  have g1 : ∀ x ∈ gridMesh.indices, x < gridMesh.vertices.length := by simp [gridMesh]
  have g2 : ∀ v, v < gridMesh.vertices.length → v ∈ gridMesh.indices := by
    intro v hv; have : v < 5 := hv; simp [gridMesh]; omega
  have g3 := gridMesh_extent gridMesh.indices gridMesh_triangles
  have gw : (0 : ℚ) <
      max (max (8388617 / 2048 - 4096) (8388617 / 2048 - 4096)) (8388617 / 2048 - 4096) := by
    norm_num
  refine ⟨⟨by simp [Mesh.minMax, isoMesh], rfl, rfl, by simp [isoMesh], ?_⟩,
    ⟨by simp [Mesh.minMax, pointMesh], rfl, rfl, by simp [pointMesh], point_none, ?_⟩,
    ⟨gridMesh_minMax, gw, rfl, rfl, g1, g2, g3, ?_, ?_⟩⟩
  · intro R normalize isNaN fuel
    exact fromMeshF_isolated R fuel normalize isNaN blank isoMesh 3 (by simp [isoMesh])
      (by simp [isoMesh])
  · intro normalize isNaN fuel
    exact fromMeshF_degenerate Float32.round Float32.round_nonneg Float32.round_zero fuel
      normalize isNaN blank pointMesh 0 [0, 1, 2] rfl
  · intro normalize isNaN fuel
    exact gridMesh_aborts fuel normalize isNaN
  · intro normalize isNaN
    obtain ⟨fuel, s, hs, _⟩ := fromMesh_builds_exact normalize isNaN blank gridMesh _ _
      gridMesh_minMax gw rfl rfl g1 g2 g3
    exact ⟨fuel, s, hs fuel (le_refl _)⟩

end DynamicMesh

namespace Octree

/-- In exact arithmetic the geometry that the float operations make is the exact
geometry. -/
theorem geomF_exact : ∀ t, GeomF id t → GeomWF t := by
  intro t
  induction t with
  | none => intro _; trivial
  | node a c w d ch idx ih =>
    intro h
    rw [geomF_node] at h
    rw [geomWF_node]
    refine ⟨h.1, fun k => ⟨ih k (h.2 k).1, fun hk => ?_⟩⟩
    obtain ⟨e1, e2⟩ := (h.2 k).2 hk
    obtain ⟨e3, e4⟩ := linkF_exact c w k _ _ e2
    exact ⟨e3, e1, e4⟩

end Octree

namespace DynamicOctree

theorem addElementF_noRoot (R : ℚ → ℚ) (fuel : Nat) (o : DynamicOctree) (index : Nat) (p : Vec3)
    (e : ℚ) (h : o.root = Child.none) : addElementF R fuel o index p e = none := by
  cases fuel with
  | zero => rfl
  | succ n =>
    rw [addElementF]
    simp only [h]

end DynamicOctree

namespace DynamicMesh

/-- Without a root in the octree `addFace` does not return: `addElement` asserts
`hasRoot`. -/
theorem addFaceF_noRoot (R : ℚ → ℚ) (fuel : Nat) (s : DynamicMesh) (i1 i2 i3 : Nat)
    (hs : Sizes s) (hf : FreeLists s) (h : s.octree.root = Child.none) :
    addFaceF R fuel s i1 i2 i3 = none := by
  cases hx : addFaceF R fuel s i1 i2 i3 with
  | none => rfl
  | some r =>
    exfalso
    obtain ⟨s1, f⟩ := r
    obtain ⟨⟨c, e, ho⟩, _⟩ := addFaceF_frame R fuel s s1 i1 i2 i3 f hx hs hf
    rw [DynamicOctree.addElementF_noRoot R fuel _ f c e h] at ho
    exact Option.noConfusion ho

/-- With a free face slot `addFace` takes the last one. -/
theorem addFaceF_reuse (R : ℚ → ℚ) (fuel : Nat) (s s1 : DynamicMesh) (i1 i2 i3 g : Nat)
    (h : addFaceF R fuel s i1 i2 i3 = some (s1, g)) (l : List Nat) (f : Nat)
    (h0 : s.freeFaceIndices = l ++ [f]) :
    g = f ∧ s1.freeFaceIndices = l ∧ s1.faceData.length = s.faceData.length := by
  unfold addFaceF at h
  split at h
  · split at h
    · simp at h
    · rename_i sa index hslot
      have hsa : index = f ∧ sa.freeFaceIndices = l ∧ sa.faceData.length = s.faceData.length := by
        have hlast : s.freeFaceIndices.getLast? = some f := by rw [h0]; simp
        unfold addFaceSlot at hslot
        rw [hlast] at hslot
        simp only at hslot
        split at hslot
        · split at hslot
          · simp at hslot
          · split at hslot
            · simp at hslot
            · split at hslot
              · simp at hslot
              · simp only [Option.some.injEq, Prod.mk.injEq] at hslot
                obtain ⟨rfl, rfl⟩ := hslot
                refine ⟨rfl, ?_, ?_⟩
                · show (s.freeFaceIndices).dropLast = l
                  rw [h0]
                  simp
                · simp
        · simp at hslot
      split at h
      · split at h
        · simp at h
        · rename_i vd hvd
          simp only [Option.map_eq_some', Prod.mk.injEq] at h
          obtain ⟨s2, hs2, rfl, rfl⟩ := h
          unfold addFaceToOctreeF at hs2
          split at hs2
          · simp only [Option.map_eq_some'] at hs2
            obtain ⟨o, _, rfl⟩ := hs2
            refine ⟨hsa.1, hsa.2.1, ?_⟩
            show (sa.faceData.set index ⟨false⟩).length = _
            rw [List.length_set]
            exact hsa.2.2
          · simp at hs2
      · simp at h
  · simp at h

/-- The states of the exact mesh are reachable in exact arithmetic. -/
theorem meshReachable_exactF (s : DynamicMesh) (h : Reachable s) : ReachableF id s := by
  unfold Reachable at h
  unfold ReachableF
  induction h with
  | fromMesh fuel normalize isNaN s0 mesh s h hf =>
    refine ReachableWithF.fromMesh fuel normalize isNaN s0 mesh s ?_ hf
    rw [fromMeshF_exact]; exact h
  | step s s1 _ hs hf ih =>
    refine ReachableWithF.step s s1 ih ?_ hf
    cases hs with
    | addVertex _ _ vertex normal i h => exact StepF.addVertex s s1 vertex normal i h
    | addFace fuel _ _ i1 i2 i3 f hl h =>
      refine StepF.addFace fuel s s1 i1 i2 i3 f hl ?_
      rw [addFaceF_exact]; exact h
    | deleteFace _ _ f hl h => exact StepF.deleteFace s s1 f hl h
    | deleteVertex _ _ v hl h => exact StepF.deleteVertex s s1 v hl h
    | prune _ _ pv pf rv rf h => exact StepF.prune s s1 pv pf rv rf h

end DynamicMesh

namespace DynamicOctree

theorem gridRoot_delete1 :
    deleteElement (gridRoot (insert 1 (insert 0 ∅)) [some 0, some 0]) 1 =
      some (gridRoot (insert 0 ∅) [some 0, none]) := by
  have h : (insert 1 (insert 0 ∅) : Finset ℕ).erase 1 = insert 0 ∅ := by decide
  have h1 : (1 : ℕ) ∈ (insert 1 (insert 0 ∅) : Finset ℕ) := by decide
  have h2 : ¬ (insert 0 ∅ : Finset ℕ) = ∅ := by decide
  simp [deleteElement, gridRoot, find, Child.indices, eraseAt, hasRoot, Child.isSome, isEmpty,
    hasChildren, h, h2, shrinkRoot, shrinkRootNode]

theorem gridRoot_delete0 :
    deleteElement (gridRoot (insert 1 (insert 0 ∅)) [some 0, some 0]) 0 =
      some (gridRoot (insert 1 ∅) [none, some 0]) := by
  have h : ({1, 0} : Finset ℕ).erase 0 = {1} := by decide
  have h2 : ¬ (insert 1 ∅ : Finset ℕ) = ∅ := by decide
  simp [deleteElement, gridRoot, find, Child.indices, eraseAt, hasRoot, Child.isSome, isEmpty,
    hasChildren, h, h2, shrinkRoot, shrinkRootNode]

theorem gridRoot_deleteLast :
    deleteElement (gridRoot (insert 1 ∅) [none, some 0]) 1 = some ⟨Child.none, [none, none], 1⟩ := by
  have h : (insert 1 ∅ : Finset ℕ).erase 1 = ∅ := by decide
  simp [deleteElement, gridRoot, find, Child.indices, eraseAt, hasRoot, Child.isSome, isEmpty,
    hasChildren, h]

end DynamicOctree

namespace DynamicMesh

/-- A triangle with its three corners at one position has the extent `R 0`, and
`addFace` does not return for it, in every arithmetic `R` that keeps the sign
and the zero. -/
theorem addFaceF_samePosition (R : ℚ → ℚ) (hR : ∀ x, 0 ≤ x → 0 ≤ R x) (hRz : R 0 = 0)
    (fuel : Nat) (s : DynamicMesh) (i1 i2 i3 : Nat) (hs : Sizes s) (hf : FreeLists s)
    (hg : GeomF R s.octree.root) (p : Vec3) (q1 : s.mesh.vertices[i1]? = some p)
    (q2 : s.mesh.vertices[i2]? = some p) (q3 : s.mesh.vertices[i3]? = some p) :
    addFaceF R fuel s i1 i2 i3 = none := by
  cases h : addFaceF R fuel s i1 i2 i3 with
  | none => rfl
  | some r =>
    exfalso
    obtain ⟨s1, f⟩ := r
    obtain ⟨v1, v2, v3, p1, p2, p3, ho⟩ := addFaceF_octree R fuel s s1 i1 i2 i3 f h hs hf
    rw [q1] at p1
    rw [q2] at p2
    rw [q3] at p3
    obtain rfl := Option.some.inj p1
    obtain rfl := Option.some.inj p2
    obtain rfl := Option.some.inj p3
    have he : PrimTriangle.maxDimExtentF R p p p ≤ 0 := by
      unfold PrimTriangle.maxDimExtentF
      simp only [max_self, min_self, sub_self, hRz]
      exact le_refl _
    rw [DynamicOctree.addElementF_nonpos R hR f _ _ he fuel _ hg] at ho
    exact Option.noConfusion ho

/-- Without free slots every slot is live. -/
theorem live_of_noFree (s : DynamicMesh) (hf : FreeLists s) :
    (s.freeVertexIndices = [] → ∀ i, i < s.vertexData.length → s.isFreeVertex i = some false) ∧
    (s.freeFaceIndices = [] → ∀ i, i < s.faceData.length → s.isFreeFace i = some false) := by
  obtain ⟨_, f2, _, f4⟩ := hf
  constructor
  · intro h0 i hi
    rw [isFreeVertex_false_iff]
    have := f2 i
    rw [h0] at this
    by_contra hc
    exact (List.not_mem_nil i) (this.mpr ⟨hi, by simpa using hc⟩)
  · intro h0 i hi
    rw [isFreeFace_false_iff]
    have := f4 i
    rw [h0] at this
    by_contra hc
    exact (List.not_mem_nil i) (this.mpr ⟨hi, by simpa using hc⟩)

/-- Without a free vertex slot `addVertex` appends the vertex. -/
theorem addVertex_append (s : DynamicMesh) (hinv : MeshInv s) (hfv : s.freeVertexIndices = [])
    (p n : Vec3) :
    ∃ s1, addVertex s p n = some (s1, s.vertexData.length) ∧ MeshInv s1 ∧
      s1.mesh.vertices = s.mesh.vertices ++ [p] ∧
      s1.vertexData.length = s.vertexData.length + 1 ∧ s1.freeVertexIndices = [] ∧
      s1.freeFaceIndices = s.freeFaceIndices ∧ s1.faceData = s.faceData := by
  rcases addVertex_cases s hinv p n with ⟨_, h5⟩ | ⟨i, hi, _⟩
  · exact ⟨_, h5, addVertex_inv _ _ _ _ _ h5 hinv, rfl, by simp, hfv, rfl, rfl⟩
  · rw [hfv] at hi; simp at hi

/-- In every arithmetic `R` that keeps the sign and the zero: from a reachable
mesh with two faces and no free slot, two calls of `addVertex` with the position
of the vertex 0 and `deleteFace (1)` give a mesh in which the face 0 is live and
`addFace` on the three live vertices at that position does not return. -/
theorem samePosition_abort (R : ℚ → ℚ) (hR : ∀ x, 0 ≤ x → 0 ≤ R x) (hRz : R 0 = 0)
    (s : DynamicMesh) (hreach : ReachableF R s) (hfv : s.freeVertexIndices = [])
    (hff : s.freeFaceIndices = []) (hn : s.faceData.length = 2) (k : Nat)
    (hk : s.vertexData.length = k) (hsmall : k < 100) (p n : Vec3)
    (hp : s.mesh.vertices[0]? = some p) :
    ∃ s5 s6 s7, addVertex s p n = some (s5, k) ∧ addVertex s5 p n = some (s6, k + 1) ∧
      ReachableF R s6 ∧ s6.isFreeFace 0 = some false ∧ s6.isFreeFace 1 = some false ∧
      deleteFace s6 1 = some s7 ∧ s7.isFreeFace 0 = some false ∧
      s7.isFreeVertex 0 = some false ∧ s7.isFreeVertex k = some false ∧
      s7.isFreeVertex (k + 1) = some false ∧ s7.mesh.vertex 0 = some p ∧
      s7.mesh.vertex k = some p ∧ s7.mesh.vertex (k + 1) = some p ∧
      ∀ fuel, addFaceF R fuel s7 0 k (k + 1) = none := by
  subst hk
  have hinv := reachableF_inv R s hreach
  have hlen : s.mesh.vertices.length = s.vertexData.length := hinv.1.1
  have hpos : 0 < s.vertexData.length := by
    rw [← hlen]; exact Util.getElem?_lt_of_some hp
  obtain ⟨s5, h5, hinv5, m5, l5, fv5, ff5, fd5⟩ := addVertex_append s hinv hfv p n
  have hr5 : ReachableF R s5 := ReachableWithF.step _ _ hreach (StepF.addVertex _ _ _ _ _ h5)
    (by unfold Fits; rw [l5, fd5, hn]; constructor <;> omega)
  obtain ⟨s6, h6, hinv6, m6, l6, fv6, ff6, fd6⟩ := addVertex_append s5 hinv5 fv5 p n
  rw [l5] at h6
  have hr6 : ReachableF R s6 := ReachableWithF.step _ _ hr5 (StepF.addVertex _ _ _ _ _ h6)
    (by unfold Fits; rw [l6, l5, fd6, fd5, hn]; constructor <;> omega)
  obtain ⟨lv6, lf6⟩ := live_of_noFree _ hinv6.2.1
  have lf6a := lf6 (by rw [ff6, ff5, hff])
  have lv6a := lv6 fv6
  have hf0 := lf6a 0 (by rw [fd6, fd5, hn]; omega)
  have hf1 := lf6a 1 (by rw [fd6, fd5, hn]; omega)
  obtain ⟨s7, h7⟩ := deleteFace_total _ hinv6 1 ((isFreeFace_false_iff _ 1).mp hf1)
  have hinv7 := deleteFace_inv _ _ 1 h7 ((isFreeFace_false_iff _ 1).mp hf1) hinv6
  obtain ⟨_, e1, _, _, e4, e5, _, _, _, e9, e10, _⟩ := deleteFace_frame _ _ 1 h7
  have hr7 : ReachableF R s7 := ReachableWithF.step _ _ hr6
    (StepF.deleteFace _ _ 1 (fun _ => (isFreeFace_false_iff _ 1).mp hf1) h7)
    (by
      unfold Fits
      rw [e4, l6, l5, e5, List.length_set, fd6, fd5, hn]
      constructor <;> omega)
  have lv : ∀ i, i < s.vertexData.length + 1 + 1 → s7.isFreeVertex i = some false := by
    intro i hi
    rw [isFreeVertex_false_iff, e9, ← isFreeVertex_false_iff]
    exact lv6a i (by rw [l6, l5]; exact hi)
  have hv7 : s7.mesh.vertices = (s.mesh.vertices ++ [p]) ++ [p] := by rw [e1, m6, m5]
  have q0 : s7.mesh.vertices[0]? = some p := by
    rw [hv7, List.getElem?_append_left (by simp), List.getElem?_append_left (by omega)]
    exact hp
  have q1 : s7.mesh.vertices[s.vertexData.length]? = some p := by
    rw [hv7, List.getElem?_append_left (by simp; omega), ← hlen,
      List.getElem?_append_right (le_refl _)]
    simp
  have q2 : s7.mesh.vertices[s.vertexData.length + 1]? = some p := by
    have : (s.mesh.vertices ++ [p]).length = s.vertexData.length + 1 := by simp [hlen]
    rw [hv7, ← this, List.getElem?_append_right (le_refl _)]
    simp
  refine ⟨s5, s6, s7, h5, h6, hr6, hf0, hf1, h7, ?_, lv 0 (by omega), lv _ (by omega),
    lv _ (by omega), q0, q1, q2, ?_⟩
  · rw [isFreeFace_false_iff, e10, if_neg (by omega), ← isFreeFace_false_iff]
    exact hf0
  · intro fuel
    exact addFaceF_samePosition R hR hRz fuel s7 _ _ _ hinv7.1 hinv7.2.1
      (meshReachableF_geom R s7 hr7) p q0 q1 q2

/-- The mesh that `fromMesh (gridPair)` returns in binary32 arithmetic. -/
theorem gridPair_state :
    ∃ s, fromMeshF Float32.round 1 id (fun _ => false) blank gridPair = some s ∧
      ReachableF Float32.round s ∧ s.mesh.vertices = gridMesh.vertices ∧
      s.vertexData.length = 5 ∧ s.faceData.length = 2 ∧ s.freeFaceIndices = [] ∧
      s.freeVertexIndices = [] ∧
      s.octree = DynamicOctree.gridRoot (insert 1 (insert 0 ∅)) [some 0, some 0] := by
  obtain ⟨s, h, a1, a2, a3, a4, a5⟩ := gridPair_builds id (fun _ => false)
  have hinv := fromMeshF_inv _ _ _ _ _ _ _ h
  have hl : s.vertexData.length = 5 := by rw [← hinv.1.1, a1]; rfl
  exact ⟨s, h, ReachableWithF.fromMesh _ _ _ _ _ _ h (by unfold Fits; rw [hl, a2]; decide),
    a1, hl, a2, a3, a4, a5⟩

end DynamicMesh

namespace DynamicMesh

/-- C15, amended. In the float arithmetic `R` (every operation of the code
followed by the rounding `R`), for every reachable mesh and every live face
`f`: `deleteFace (f)` returns and lowers `numFaces ()` by exactly 1, and a
following `addFace`, whenever it returns, returns `f` and restores
`numFaces ()` to its previous value. In exact arithmetic (`R x = x`) the
`addFace` does return when it is given enough steps, provided that another face
is live, so that the octree keeps its root, and that the three vertices are live
and not all at one position. -/
theorem addFace_reuses_slot (R : ℚ → ℚ) (s : DynamicMesh) (f : Nat) (hreach : ReachableF R s)
    (hf : s.isFreeFace f = some false) :
    ∃ s1 n, deleteFace s f = some s1 ∧ s.numFaces = some (n + 1) ∧ s1.numFaces = some n ∧
      (∀ fuel i1 i2 i3 s2 g, addFaceF R fuel s1 i1 i2 i3 = some (s2, g) →
        g = f ∧ s2.numFaces = some (n + 1)) ∧
      ((∀ x, R x = x) → ∀ g, g ≠ f → s.isFreeFace g = some false →
        ∀ i1 i2 i3 v1 v2 v3, s.isFreeVertex i1 = some false → s.isFreeVertex i2 = some false →
          s.isFreeVertex i3 = some false → s.mesh.vertex i1 = some v1 →
          s.mesh.vertex i2 = some v2 → s.mesh.vertex i3 = some v3 →
          0 < PrimTriangle.maxDimExtent v1 v2 v3 →
          ∃ fuel s2, addFaceF R fuel s1 i1 i2 i3 = some (s2, f)) := by
  have hinv := reachableF_inv R s hreach
  have hl := (isFreeFace_false_iff s f).mp hf
  obtain ⟨s1, h1⟩ := deleteFace_total s hinv f hl
  have hinv1 := deleteFace_inv s s1 f h1 hl hinv
  obtain ⟨ho, e1, _, _, e4, e5, _, _, e8, e9, e10, _⟩ := deleteFace_frame s s1 f h1
  obtain ⟨n1, n2⟩ := numFaces_eq s hinv
  obtain ⟨m1, m2⟩ := numFaces_eq s1 hinv1
  have hlen : s1.faceData.length = s.faceData.length := by rw [e5]; simp
  rw [e8, List.length_append, hlen] at m2
  simp only [List.length_singleton] at m2
  refine ⟨s1, s1.faceData.countP (fun d => !d.isFree), h1, ?_, m1, ?_, ?_⟩
  · rw [n1]
    congr 1
    omega
  · intro fuel i1 i2 i3 s2 g h
    obtain ⟨a1, a2, a3⟩ := addFaceF_reuse R fuel s1 s2 i1 i2 i3 g h s.freeFaceIndices f e8
    refine ⟨a1, ?_⟩
    unfold numFaces
    rw [a2, a3, hlen, if_pos (by omega)]
    congr 1
    omega
  · intro hR g hg hgl i1 i2 i3 v1 v2 v3 l1 l2 l3 p1 p2 p3 hext
    obtain rfl := DynamicOctree.exact_eq_id R hR
    have hgl' := (isFreeFace_false_iff s g).mp hgl
    have hreg := hinv.2.2.2.1
    obtain ⟨r1, r2, _, r4, _⟩ := DynamicOctree.deleteElement_registration _ _ f ho hreg
    have hg1 : GeomWF s1.octree.root :=
      geomF_exact _ (DynamicOctree.deleteElement_geomF id _ _ f ho (meshReachableF_geom id s hreach))
    have hroot : s1.octree.root.isSome = true := by
      have hsome : (s.octree.nodeOf g).isSome = true := by rw [hinv.2.2.2.2 g]; exact hgl'
      rw [← r4 g hg] at hsome
      obtain ⟨b, hb⟩ := Option.isSome_iff_exists.mp hsome
      have := (r1.2.2 g b).mpr hb
      cases hx : s1.octree.root with
      | none => rw [hx] at this; simp [holdsAt] at this
      | node _ _ _ _ _ _ => rfl
    obtain ⟨fuel, o1, ho1⟩ := DynamicOctree.addElement_total s1.octree f
      (PrimTriangle.center v1 v2 v3) (PrimTriangle.maxDimExtent v1 v2 v3) hg1 hroot hext r2
    have lt : ∀ i, s.isFreeVertex i = some false → i < s1.vertexData.length := by
      intro i hi
      rw [e4]
      exact liveVertex_lt s i ((isFreeVertex_false_iff s i).mp hi)
    have hlast : s1.freeFaceIndices.getLast? = some f := by rw [e8]; simp
    obtain ⟨s2, g2, h2⟩ := addFaceF_returns id fuel s1 hinv1 i1 i2 i3 (lt i1 l1) (lt i2 l2)
      (lt i3 l3) v1 v2 v3 (by rw [e1]; exact p1) (by rw [e1]; exact p2) (by rw [e1]; exact p3)
      (by
        intro f' _ hne
        have hf' := hne (by rw [e8]; simp)
        rw [hlast] at hf'
        obtain rfl := Option.some.inj hf'
        rw [DynamicOctree.addElementF_exact, PrimTriangle.centerF_exact,
          PrimTriangle.maxDimExtentF_exact]
        exact ⟨o1, ho1⟩)
    obtain ⟨a1, _⟩ := addFaceF_reuse id fuel s1 s2 i1 i2 i3 g2 h2 s.freeFaceIndices f e8
    rw [a1] at h2
    exact ⟨fuel, s2, h2⟩

/-- C15: the amended statement at the mesh `two` in exact arithmetic, where the
face 1 is deleted and `addFace (1, 0, 3)` takes its slot again, and at the mesh
that `fromMesh (gridPair)` returns in binary32 arithmetic. -/
theorem addFace_reuses_slot_witness :
    (ReachableF id two ∧ two.isFreeFace 1 = some false ∧
      ∃ s1 n, deleteFace two 1 = some s1 ∧ two.numFaces = some (n + 1) ∧
        s1.numFaces = some n ∧
        (∀ fuel i1 i2 i3 s2 g, addFaceF id fuel s1 i1 i2 i3 = some (s2, g) →
          g = 1 ∧ s2.numFaces = some (n + 1)) ∧
        ∃ fuel s2, addFaceF id fuel s1 1 0 3 = some (s2, 1)) ∧
    ∃ s, fromMeshF Float32.round 1 id (fun _ => false) blank gridPair = some s ∧
      ReachableF Float32.round s ∧ s.isFreeFace 1 = some false ∧
      ∃ s1 n, deleteFace s 1 = some s1 ∧ s.numFaces = some (n + 1) ∧ s1.numFaces = some n ∧
        ∀ fuel i1 i2 i3 s2 g, addFaceF Float32.round fuel s1 i1 i2 i3 = some (s2, g) →
          g = 1 ∧ s2.numFaces = some (n + 1) := by
  constructor
  · refine ⟨meshReachable_exactF two (two_reachable True), rfl, ?_⟩
    obtain ⟨s1, n, a, b, c, d, e⟩ :=
      addFace_reuses_slot id two 1 (meshReachable_exactF two (two_reachable True)) rfl
    exact ⟨s1, n, a, b, c, d, e (fun _ => rfl) 0 (by decide) rfl 1 0 3 ⟨1, 0, 0⟩ ⟨0, 0, 0⟩
      ⟨0, 0, 1⟩ rfl rfl rfl rfl rfl rfl (by norm_num [PrimTriangle.maxDimExtent])⟩
  · obtain ⟨s, h, hr, _, _, hn, hff, _, _⟩ := gridPair_state
    have hf1 := (live_of_noFree s (reachableF_inv _ s hr).2.1).2 hff 1 (by rw [hn]; omega)
    obtain ⟨s1, n, a, b, c, d, _⟩ := addFace_reuses_slot Float32.round s 1 hr hf1
    exact ⟨s, h, hr, hf1, s1, n, a, b, c, d⟩

/-- C15: the claim as stated fails. After `deleteFace` of the only live face the
octree has no root, and `addFace` on three live vertices does not return, in any
arithmetic: on the mesh `tri` built in exact arithmetic, and on the mesh that
`fromMesh (gridPair)` returns in binary32 arithmetic, after its face 0 is
deleted. With another live face, `addFace` on three live vertices at one
position does not return either: after two calls of `addVertex` with the
position of the vertex 0 and `deleteFace (1)`, on the mesh `two` in exact
arithmetic and on the binary32 mesh. And in binary32 arithmetic `addFace (2, 3,
4)` does not return after `deleteFace (1)` on the binary32 mesh, although the
face 0 is live and the triangle has the extent `1 / 1024`: the descent of the
octree fails its assertion. -/
theorem addFace_reuses_slot_counterexample :
    (ReachableF id tri ∧ tri.isFreeFace 0 = some false ∧ deleteFace tri 0 = some tri0 ∧
      tri0.isFreeVertex 0 = some false ∧ tri0.isFreeVertex 1 = some false ∧
      tri0.isFreeVertex 2 = some false ∧ ∀ R fuel, addFaceF R fuel tri0 0 1 2 = none) ∧
    (∃ s5 s6 s7, addVertex two ⟨0, 0, 0⟩ ⟨0, 0, 1⟩ = some (s5, 4) ∧
      addVertex s5 ⟨0, 0, 0⟩ ⟨0, 0, 1⟩ = some (s6, 5) ∧ ReachableF id s6 ∧
      s6.isFreeFace 0 = some false ∧ s6.isFreeFace 1 = some false ∧
      deleteFace s6 1 = some s7 ∧ s7.isFreeFace 0 = some false ∧
      s7.isFreeVertex 0 = some false ∧ s7.isFreeVertex 4 = some false ∧
      s7.isFreeVertex 5 = some false ∧ s7.mesh.vertex 0 = some ⟨0, 0, 0⟩ ∧
      s7.mesh.vertex 4 = some ⟨0, 0, 0⟩ ∧ s7.mesh.vertex 5 = some ⟨0, 0, 0⟩ ∧
      ∀ fuel, addFaceF id fuel s7 0 4 5 = none) ∧
    ∃ s, fromMeshF Float32.round 1 id (fun _ => false) blank gridPair = some s ∧
      ReachableF Float32.round s ∧
      (∃ sa sb, deleteFace s 0 = some sa ∧ ReachableF Float32.round sa ∧
        sa.isFreeFace 1 = some false ∧ deleteFace sa 1 = some sb ∧
        sb.isFreeVertex 4 = some false ∧ sb.isFreeVertex 0 = some false ∧
        sb.isFreeVertex 1 = some false ∧
        ∀ fuel, addFaceF Float32.round fuel sb 4 0 1 = none) ∧
      (∃ s5 s6 s7, addVertex s ⟨4096, 4096, 4096⟩ ⟨0, 0, 1⟩ = some (s5, 5) ∧
        addVertex s5 ⟨4096, 4096, 4096⟩ ⟨0, 0, 1⟩ = some (s6, 6) ∧
        ReachableF Float32.round s6 ∧
        s6.isFreeFace 0 = some false ∧ s6.isFreeFace 1 = some false ∧
        deleteFace s6 1 = some s7 ∧ s7.isFreeFace 0 = some false ∧
        s7.isFreeVertex 0 = some false ∧ s7.isFreeVertex 5 = some false ∧
        s7.isFreeVertex 6 = some false ∧ s7.mesh.vertex 0 = some ⟨4096, 4096, 4096⟩ ∧
        s7.mesh.vertex 5 = some ⟨4096, 4096, 4096⟩ ∧
        s7.mesh.vertex 6 = some ⟨4096, 4096, 4096⟩ ∧
        ∀ fuel, addFaceF Float32.round fuel s7 0 5 6 = none) ∧
      s.isFreeFace 1 = some false ∧
      ∃ s1, deleteFace s 1 = some s1 ∧ s1.isFreeFace 0 = some false ∧
        s1.isFreeVertex 2 = some false ∧ s1.isFreeVertex 3 = some false ∧
        s1.isFreeVertex 4 = some false ∧
        s1.mesh.vertex 2 = some ⟨8388617 / 2048, 4096, 4194305 / 1024⟩ ∧
        s1.mesh.vertex 3 = some ⟨8388617 / 2048, 8388609 / 2048, 4096⟩ ∧
        s1.mesh.vertex 4 = some ⟨8388617 / 2048, 4194305 / 1024, 8388609 / 2048⟩ ∧
        PrimTriangle.maxDimExtentF Float32.round ⟨8388617 / 2048, 4096, 4194305 / 1024⟩
          ⟨8388617 / 2048, 8388609 / 2048, 4096⟩
          ⟨8388617 / 2048, 4194305 / 1024, 8388609 / 2048⟩ = 1 / 1024 ∧
        ∀ fuel, addFaceF Float32.round fuel s1 2 3 4 = none := by
  refine ⟨⟨meshReachable_exactF tri (tri_reachable True), rfl, tri0_eq, rfl, rfl, rfl, ?_⟩, ?_, ?_⟩
  · intro R fuel
    have hinv := reachable_inv tri0 (tri0_reachable True)
    exact addFaceF_noRoot R fuel tri0 0 1 2 hinv.1 hinv.2.1 rfl
  · exact samePosition_abort id (fun _ hx => hx) rfl two
      (meshReachable_exactF two (two_reachable True)) rfl rfl rfl 4 rfl (by norm_num)
      ⟨0, 0, 0⟩ ⟨0, 0, 1⟩ rfl
  · obtain ⟨s, h, hr, hv, hl, hn, hff, hfv, ho⟩ := gridPair_state
    have hinv := reachableF_inv _ s hr
    obtain ⟨lv, lf⟩ := live_of_noFree s hinv.2.1
    have hf0 := lf hff 0 (by rw [hn]; omega)
    have hf1 := lf hff 1 (by rw [hn]; omega)
    have hlv : ∀ i, i < 5 → s.isFreeVertex i = some false := fun i hi =>
      lv hfv i (by rw [hl]; exact hi)
    refine ⟨s, h, hr, ?_, ?_, hf1, ?_⟩
    · obtain ⟨sa, ha⟩ := deleteFace_total s hinv 0 ((isFreeFace_false_iff s 0).mp hf0)
      have hinva := deleteFace_inv s sa 0 ha ((isFreeFace_false_iff s 0).mp hf0) hinv
      obtain ⟨oa, _, _, _, a4, a5, _, _, _, a9, a10, _⟩ := deleteFace_frame s sa 0 ha
      have hra : ReachableF Float32.round sa := ReachableWithF.step _ _ hr
        (StepF.deleteFace _ _ 0 (fun _ => (isFreeFace_false_iff s 0).mp hf0) ha)
        (by unfold Fits; rw [a4, hl, a5, List.length_set, hn]; decide)
      have hfa : sa.isFreeFace 1 = some false := by
        rw [isFreeFace_false_iff, a10, if_neg (by omega), ← isFreeFace_false_iff]
        exact hf1
      obtain ⟨sb, hb⟩ := deleteFace_total sa hinva 1 ((isFreeFace_false_iff sa 1).mp hfa)
      have hinvb := deleteFace_inv sa sb 1 hb ((isFreeFace_false_iff sa 1).mp hfa) hinva
      obtain ⟨ob, _, _, _, _, _, _, _, _, b9, _, _⟩ := deleteFace_frame sa sb 1 hb
      rw [ho, DynamicOctree.gridRoot_delete0] at oa
      rw [← Option.some.inj oa, DynamicOctree.gridRoot_deleteLast] at ob
      have hlb : ∀ i, i < 5 → sb.isFreeVertex i = some false := by
        intro i hi
        rw [isFreeVertex_false_iff, b9, a9, ← isFreeVertex_false_iff]
        exact hlv i hi
      refine ⟨sa, sb, ha, hra, hfa, hb, hlb 4 (by omega), hlb 0 (by omega), hlb 1 (by omega), ?_⟩
      intro fuel
      exact addFaceF_noRoot Float32.round fuel sb 4 0 1 hinvb.1 hinvb.2.1
        (by rw [← Option.some.inj ob])
    · exact samePosition_abort Float32.round Float32.round_nonneg Float32.round_zero s hr hfv hff
        hn 5 hl (by norm_num) ⟨4096, 4096, 4096⟩ ⟨0, 0, 1⟩ (by rw [hv]; rfl)
    · obtain ⟨s1, h1⟩ := deleteFace_total s hinv 1 ((isFreeFace_false_iff s 1).mp hf1)
      have hinv1 := deleteFace_inv s s1 1 h1 ((isFreeFace_false_iff s 1).mp hf1) hinv
      obtain ⟨o1, e1, _, _, _, _, _, _, _, e9, e10, _⟩ := deleteFace_frame s s1 1 h1
      rw [ho, DynamicOctree.gridRoot_delete1] at o1
      have hl1 : ∀ i, i < 5 → s1.isFreeVertex i = some false := by
        intro i hi
        rw [isFreeVertex_false_iff, e9, ← isFreeVertex_false_iff]
        exact hlv i hi
      have hv1 : s1.mesh.vertices = gridMesh.vertices := by rw [e1, hv]
      refine ⟨s1, h1, ?_, hl1 2 (by omega), hl1 3 (by omega), hl1 4 (by omega), ?_, ?_, ?_,
        gridMesh_face2.2, ?_⟩
      · rw [isFreeFace_false_iff, e10, if_neg (by omega), ← isFreeFace_false_iff]
        exact hf0
      · unfold Mesh.vertex; rw [hv1]; rfl
      · unfold Mesh.vertex; rw [hv1]; rfl
      · unfold Mesh.vertex; rw [hv1]; rfl
      · intro fuel
        exact gridFace_abort fuel s1 hinv1.1 hinv1.2.1 hv1 _ _ (Option.some.inj o1).symm

end DynamicMesh
